import Mathlib

/-!
# Cone-collection refinement engine (libnormaliz `collection.cpp`)

A shallow embedding of `ConeCollection` / `MiniCone` from
`src/source/libnormaliz/collection.cpp`, followed by theorems about it.

Conventions of the embedding.

* `Matrix<Integer>` is a list of rows, `vector<Integer>` a list of integers,
  `key_t` and all positions are natural numbers.  `Integer` is the exact
  integer type, so no overflow is modelled.
* `std::set<vector<Integer>>` (`AllRays`) is a list kept in increasing
  lexicographic order by `set_insert`; `find` is membership.
* The collaborators that `collection.cpp` calls but does not define
  (`Matrix::simplex_data`, `Matrix::vol`, `Full_Cone::compute` with
  `do_Hilbert_basis`) are the fields of a `Kernel`, a parameter of every
  operation.  `exactKernel` is a concrete instance built from determinants.
* Reads outside a container (`Generators[key]` with `key` too large, a cell
  position that does not exist) are undefined behaviour in the source; the
  embedding returns the empty row, resp. leaves the state unchanged, and the
  theorems state the index hypotheses they rely on.
* `INTERRUPT_COMPUTATION_BY_EXCEPTION` polls an external flag; the embedding
  describes runs in which the flag stays clear.  Console output is dropped.
* The recursion of `MiniCone::refine` into daughters and the `while(true)` of
  `make_unimodular` carry a fuel argument.
-/

set_option autoImplicit false

namespace Normaliz

/-- A `vector<Integer>`. -/
abbrev Vec := List Int

/-- A `Matrix<Integer>`, as the list of its rows. -/
abbrev Mat := List (List Int)

/-- The collaborators of `collection.cpp` that are defined in other
translation units: `simplex_data` returns the support hyperplanes of the
simplex whose generators are the given rows, `vol` the normalized volume of the
given rows, `hilbert_basis` the result of `Full_Cone::compute` with
`do_Hilbert_basis` on the given rows (`none` when the computation throws). -/
structure Kernel where
  simplex_data : Mat → Mat
  vol : Mat → Int
  hilbert_basis : Mat → Option (List Vec)

/-- The class `MiniCone` of the source: one cell of the forest. -/
structure MiniCone where
  GenKeys : List Nat
  multiplicity : Int
  SupportHyperplanes : Mat
  Daughters : List Nat
  level : Nat
  my_place : Nat
  is_simplex : Bool
deriving DecidableEq

/-- The class `ConeCollection` of the source: the levels of cells, the
generator table and the set of known rays. -/
structure ConeCollection where
  Members : List (List MiniCone)
  Generators : Mat
  AllRays : List Vec
  is_triangulation : Bool
deriving DecidableEq

/-- The entries of the list `AllHilbs` in `make_unimodular`:
a point with the level and position of the cell that produced it. -/
abbrev HilbEntry := Vec × Nat × Nat

/-! ## Containers -/

/-- Row `k` of a matrix, `M[k]`. -/
def row (M : Mat) (k : Nat) : Vec := M.getD k []

/-- The source's `Matrix::submatrix(key)`: the rows selected by `key`, in the order of `key`. -/
def submatrix (M : Mat) (key : List Nat) : Mat := key.map (row M)

/-- Apply `f` to the entry at position `n`, when there is one. -/
def updateAt {α : Type} (f : α → α) : Nat → List α → List α
  | _, [] => []
  | 0, a :: l => f a :: l
  | n + 1, a :: l => a :: updateAt f n l

/-- Lexicographic `operator<` of `std::vector<Integer>`. -/
def vec_lt : Vec → Vec → Bool
  | [], [] => false
  | [], _ :: _ => true
  | _ :: _, [] => false
  | a :: v, b :: w => if a < b then true else if b < a then false else vec_lt v w

/-- Insertion into an increasing list, before the first larger element. -/
def ordered_insert (v : Vec) : List Vec → List Vec
  | [] => [v]
  | w :: S => if vec_lt v w then v :: w :: S else w :: ordered_insert v S

/-- The source's `std::set::insert`: nothing happens when the value is present. -/
def set_insert (v : Vec) (S : List Vec) : List Vec :=
  if v ∈ S then S else ordered_insert v S

/-- Modelled from the spec: the scalar product primitive `v_scalar_product`
of `vector_operations.h` ("a scalar (dot) product primitive over integer
vectors, exact, no overflow"). -/
def v_scalar_product (v w : Vec) : Int := (List.zipWith (fun a b => a * b) v w).sum

/-! ## Cells and levels -/

/-- The cell `Members[k][i]`, when it exists. -/
def ConeCollection.cell (C : ConeCollection) (k i : Nat) : Option MiniCone :=
  (C.Members.getD k [])[i]?

/-- Replace the cell `Members[k][i]` by its image under `f`. -/
def ConeCollection.updateCell (C : ConeCollection) (k i : Nat) (f : MiniCone → MiniCone) :
    ConeCollection :=
  { C with Members := updateAt (updateAt f i) k C.Members }

/-- The source's `ConeCollection::add_minicone`. -/
def ConeCollection.add_minicone (C : ConeCollection) (level mother : Nat) (GKeys : List Nat)
    (multiplicity : Int) : ConeCollection :=
  let MC : MiniCone :=
    { GenKeys := GKeys, multiplicity := multiplicity, SupportHyperplanes := [], Daughters := [],
      level := level, my_place := (C.Members.getD level []).length,
      is_simplex := C.is_triangulation }
  let M1 := updateAt (fun L => L ++ [MC]) level C.Members
  let M2 := if 0 < level then
      updateAt (updateAt (fun m => { m with Daughters := m.Daughters ++ [MC.my_place] }) mother)
        (level - 1) M1
    else M1
  { C with
    Members := M2
    AllRays := GKeys.foldl (fun A k => set_insert (row C.Generators k) A) C.AllRays }

/-- The source's `ConeCollection::add_extra_generators`. -/
def ConeCollection.add_extra_generators (C : ConeCollection) (NewGens : Mat) : ConeCollection :=
  NewGens.foldl
    (fun C1 v => if v ∈ C1.AllRays then C1 else { C1 with Generators := C1.Generators ++ [v] }) C

/-- The guard `if(!Members[Members.size()-1].empty()) Members.resize(Members.size()+1)`. -/
def ConeCollection.ensure_level (C : ConeCollection) : ConeCollection :=
  match C.Members.getLast? with
  | some L => if L.isEmpty then C else { C with Members := C.Members ++ [[]] }
  | none => C

/-! ## `MiniCone::refine` -/

/-- The facet-test loop of `MiniCone::refine` from row `i` on: `none` when a
scalar product is negative (the early `return`), otherwise the list
`opposite_facets` extended by the indices of the positive rows. -/
def facet_loop (v : Vec) : Mat → Nat → List Nat → Option (List Nat)
  | [], _, opp => some opp
  | h :: hs, i, opp =>
    if v_scalar_product v h < 0 then none
    else if v_scalar_product v h = 0 then facet_loop v hs (i + 1) opp
    else facet_loop v hs (i + 1) (opp ++ [i])

/-- The support hyperplanes a cell works with in `refine`: the cached ones, or
those computed by `simplex_data` when the cache has no rows. -/
def MiniCone.hyperplanes (K : Kernel) (G : Mat) (mc : MiniCone) : Mat :=
  if mc.SupportHyperplanes.length = 0 then K.simplex_data (submatrix G mc.GenKeys)
  else mc.SupportHyperplanes

/-- One pass of the subdivision loop of `MiniCone::refine`: the child for the
opposite facet `j` of the cell `mc`. -/
def subdivide_step (K : Kernel) (key : Nat) (mc : MiniCone) (C : ConeCollection) (j : Nat) :
    ConeCollection :=
  let NewGKey := List.insertionSort (fun a b => a ≤ b) (mc.GenKeys.set j key)
  C.add_minicone (mc.level + 1) mc.my_place NewGKey (K.vol (submatrix C.Generators NewGKey))

/-- The source's `MiniCone::refine(key)`, called on the cell at `Members[lvl][plc]`.
The first argument bounds the depth of the recursion into daughters. -/
def MiniCone.refine (K : Kernel) (key : Nat) : Nat → Nat → Nat → ConeCollection → ConeCollection
  | 0, _, _, C => C
  | fuel + 1, lvl, plc, C =>
    match C.cell lvl plc with
    | none => C
    | some mc =>
      let SH := mc.hyperplanes K C.Generators
      let C1 := C.updateCell lvl plc (fun m => { m with SupportHyperplanes := SH })
      match facet_loop (row C.Generators key) SH 0 [] with
      | none => C1
      | some opp =>
        if opp.length = 1 then C1
        else if mc.Daughters.length > 0 then
          mc.Daughters.foldl (fun C2 d => MiniCone.refine K key fuel (mc.level + 1) d C2) C1
        else
          opp.foldl (subdivide_step K key mc) C1

/-! ## Operations of `ConeCollection` -/

/-- The source's `ConeCollection::refine(key)`. -/
def ConeCollection.refine (K : Kernel) (C : ConeCollection) (key : Nat) : ConeCollection :=
  if row C.Generators key ∈ C.AllRays then C
  else
    let C1 := C.ensure_level
    (List.range (C1.Members.getD 0 []).length).foldl
      (fun C2 i => MiniCone.refine K key C1.Members.length 0 i C2) C1

/-- The loop of `ConeCollection::insert_all_gens` from index `i` on; the bound
`Generators.nr_of_rows()` is read again in every pass. -/
def insert_all_gens_loop (K : Kernel) : Nat → Nat → ConeCollection → ConeCollection
  | 0, _, C => C
  | fuel + 1, i, C =>
    if i < C.Generators.length then insert_all_gens_loop K fuel (i + 1) (C.refine K i) else C

/-- The source's `ConeCollection::insert_all_gens`. -/
def ConeCollection.insert_all_gens (K : Kernel) (C : ConeCollection) : ConeCollection :=
  insert_all_gens_loop K C.Generators.length 0 C

/-- The positions `(k, i)` that pass both `continue` guards of the collecting
loop of `make_unimodular`, in the order of the loop: multiplicity different
from 1 and no daughters. -/
def ConeCollection.eligible (C : ConeCollection) : List (Nat × Nat) :=
  (List.range C.Members.length).flatMap fun k =>
    (List.range (C.Members.getD k []).length).filterMap fun i =>
      match C.cell k i with
      | some mc => if mc.multiplicity = 1 then none
                   else if ¬ mc.Daughters.isEmpty then none else some (k, i)
      | none => none

/-- The body of the collecting loop for one eligible cell: the Hilbert basis of
its generators without the elements of `AllRays`, tagged with the cell. -/
def collect_cell (K : Kernel) (C : ConeCollection) (p : Nat × Nat) : Option (List HilbEntry) :=
  match C.cell p.1 p.2 with
  | none => some []
  | some mc =>
    match K.hilbert_basis (submatrix C.Generators mc.GenKeys) with
    | none => none
    | some HB => some ((HB.filter fun H => H ∉ C.AllRays).map fun H => (H, p.1, p.2))

/-- The collecting loop over a list of cells, appending to `AllHilbs`. -/
def collect_loop (K : Kernel) (C : ConeCollection) :
    List (Nat × Nat) → List HilbEntry → Option (List HilbEntry)
  | [], AllHilbs => some AllHilbs
  | p :: ps, AllHilbs =>
    match collect_cell K C p with
    | none => none
    | some E => collect_loop K C ps (AllHilbs ++ E)

/-- The list `AllHilbs` at the end of the collecting loop of one round. -/
def ConeCollection.collect (K : Kernel) (C : ConeCollection) : Option (List HilbEntry) :=
  collect_loop K C C.eligible []

/-- The order `operator<=` of `pair<vector<Integer>, pair<key_t,key_t>>`. -/
def entry_le (a b : HilbEntry) : Bool :=
  if vec_lt a.1 b.1 then true
  else if vec_lt b.1 a.1 then false
  else if a.2.1 < b.2.1 then true
  else if b.2.1 < a.2.1 then false
  else a.2.2 ≤ b.2.2

/-- The source's `AllHilbs.sort()`. -/
def sort_hilbs (L : List HilbEntry) : List HilbEntry :=
  List.insertionSort (fun a b => entry_le a b = true) L

/-- The state of the inserting loop of `make_unimodular`: the collection and
the locals `last_inserted` and `key`. -/
structure InsertState where
  coll : ConeCollection
  last_inserted : Vec
  key : Nat

/-- One pass of the inserting loop of `make_unimodular`. -/
def insert_step (K : Kernel) (s : InsertState) (H : HilbEntry) : InsertState :=
  let C1 := s.coll.ensure_level
  let s1 : InsertState :=
    if H.1 ≠ s.last_inserted then
      { coll := { C1 with Generators := C1.Generators ++ [H.1] }, last_inserted := H.1,
        key := C1.Generators.length }
    else { s with coll := C1 }
  { s1 with coll := MiniCone.refine K s1.key s1.coll.Members.length H.2.1 H.2.2 s1.coll }

/-- The inserting loop of `make_unimodular` over the sorted list `AllHilbs`. -/
def insert_hilbs (K : Kernel) (C : ConeCollection) (AllHilbs : List HilbEntry) : ConeCollection :=
  (AllHilbs.foldl (insert_step K)
    { coll := C, last_inserted := [], key := C.Generators.length }).coll

/-- How a run of `make_unimodular` ends. -/
inductive Outcome where
  | returned : ConeCollection → Outcome
  | oracle_failed : ConeCollection → Outcome
  | out_of_fuel : Outcome
deriving DecidableEq

/-- The source's `ConeCollection::make_unimodular`; the first argument bounds
the number of passes of the `while(true)` loop.  `returned C` is the `break`,
`oracle_failed C` an exception of the Hilbert basis computation with the
collection as it was left, `out_of_fuel` a loop that is still running. -/
def ConeCollection.make_unimodular (K : Kernel) : Nat → ConeCollection → Outcome
  | 0, _ => Outcome.out_of_fuel
  | n + 1, C =>
    match C.collect K with
    | none => Outcome.oracle_failed C
    | some AllHilbs =>
      if AllHilbs.isEmpty then Outcome.returned C
      else ConeCollection.make_unimodular K n (insert_hilbs K C (sort_hilbs AllHilbs))

/-- The source's `ConeCollection::getKeysAndMult`. -/
def ConeCollection.getKeysAndMult (C : ConeCollection) : List (List Nat × Int) :=
  (List.range C.Members.length).foldl
    (fun KeysAndMult k =>
      (List.range (C.Members.getD k []).length).foldl
        (fun KeysAndMult i =>
          match C.cell k i with
          | some mc =>
            if mc.Daughters.length = 0 then KeysAndMult ++ [(mc.GenKeys, mc.multiplicity)]
            else KeysAndMult
          | none => KeysAndMult)
        KeysAndMult)
    []

/-- The forest the constructor builds from a generator table and a
triangulation: `Members.resize(1)` and one `add_minicone(0,0,S.first,S.second)`
for every simplex. -/
def ConeCollection.from_triangulation (Gens : Mat) (T : List (List Nat × Int)) : ConeCollection :=
  T.foldl (fun C S => C.add_minicone 0 0 S.1 S.2)
    { Members := [[]], Generators := Gens, AllRays := [], is_triangulation := true }

/-! ## A concrete linear-algebra kernel -/

/-- Modelled from the spec: the determinant behind `Matrix::vol` and
`Matrix::simplex_data` (matrix.cpp is not part of the sources at hand), by
expansion along the first row; the first argument is the number of rows. -/
def det_aux : Nat → Mat → Int
  | 0, _ => 1
  | _ + 1, [] => 1
  | n + 1, r :: M =>
    ((List.range (n + 1)).map fun j =>
      (-1) ^ j * r.getD j 0 * det_aux n (M.map fun r1 => r1.eraseIdx j)).sum

/-- Modelled from the spec: the determinant of a square matrix. -/
def det (M : Mat) : Int := det_aux M.length M

/-- Modelled from the spec: `Matrix::vol`, the normalized volume of the
simplex spanned by the rows ("determinant/normalized-volume"), the absolute
value of the determinant. -/
def exact_vol (M : Mat) : Int := if det M < 0 then - det M else det M

/-- The `k`-th unit vector of length `n`. -/
def unit_vec (n k : Nat) : Vec := (List.range n).map fun j => if j = k then 1 else 0

/-- Modelled from the spec: `Matrix::simplex_data`, the facet normals of the
simplicial cone spanned by the rows, "one per ray, co-facet to it": row `i`
vanishes on every generator but the `i`-th and is positive there.  Its `k`-th
entry is the cofactor of position `(i, k)` times the sign of the determinant. -/
def exact_simplex_data (M : Mat) : Mat :=
  (List.range M.length).map fun i =>
    (List.range M.length).map fun k => Int.sign (det M) * det (M.set i (unit_vec M.length k))

/-- The kernel with exact determinants and a given Hilbert basis oracle. -/
def exactKernel (hb : Mat → Option (List Vec)) : Kernel :=
  { simplex_data := exact_simplex_data, vol := exact_vol, hilbert_basis := hb }

/-! ## Specification-side definitions and concrete forests -/

/-- A cell is a leaf when its `Daughters` list is empty. -/
def MiniCone.is_leaf (mc : MiniCone) : Bool := mc.Daughters.isEmpty

/-- The export as the specification words it: "for every current leaf (empty
children), the pair (ray-index set, multiplicity)", the cells taken level by
level and, within a level, by position. -/
def ConeCollection.leaf_pairs (C : ConeCollection) : List (List Nat × Int) :=
  (C.Members.flatten.filter MiniCone.is_leaf).map fun mc => (mc.GenKeys, mc.multiplicity)

/-- The sum of the multiplicities of the current leaves. -/
def ConeCollection.leaf_total (C : ConeCollection) : Int :=
  (C.getKeysAndMult.map fun p => p.2).sum

/-- The forest of the concrete scenario: generators `(1,0)`, `(1,2)` and one
level-0 cell with keys `{0,1}` and multiplicity 2. -/
def scenario_forest : ConeCollection :=
  ConeCollection.from_triangulation [[1, 0], [1, 2]] [([0, 1], 2)]

/-- An oracle that knows the Hilbert basis of the cone over `(1,0)`, `(1,2)`
and fails on every other input. -/
def scenario_oracle : Mat → Option (List Vec) :=
  fun M => if M = [[1, 0], [1, 2]] then some [[1, 0], [1, 1], [1, 2]] else none

/-- The forest `make_unimodular` leaves in the concrete scenario. -/
def scenario_result : ConeCollection :=
  { Members :=
      [[{ GenKeys := [0, 1], multiplicity := 2, SupportHyperplanes := [[2, -1], [0, 1]],
          Daughters := [0, 1], level := 0, my_place := 0, is_simplex := true }],
       [{ GenKeys := [1, 2], multiplicity := 1, SupportHyperplanes := [], Daughters := [],
          level := 1, my_place := 0, is_simplex := true },
        { GenKeys := [0, 2], multiplicity := 1, SupportHyperplanes := [], Daughters := [],
          level := 1, my_place := 1, is_simplex := true }]]
    Generators := [[1, 0], [1, 2], [1, 1]]
    AllRays := [[1, 0], [1, 1], [1, 2]]
    is_triangulation := true }

/-- The single unimodular simplex with rays `(1,0)`, `(0,1)` and multiplicity 1. -/
def unit_forest : ConeCollection :=
  ConeCollection.from_triangulation [[1, 0], [0, 1]] [([0, 1], 1)]

/-- An oracle that fails on every input. -/
def failing_oracle : Mat → Option (List Vec) := fun _ => none

/-- A fan of two cells in the plane: the quadrant over `(2,0)`, `(0,1)` with
multiplicity 2 and the quadrant over `(1,0)`, `(0,-1)` with multiplicity 1. -/
def quadrant_forest : ConeCollection :=
  ConeCollection.from_triangulation [[2, 0], [0, 1], [1, 0], [0, -1]] [([0, 1], 2), ([2, 3], 1)]

/-- The Hilbert bases of the two quadrants of `quadrant_forest` (and of every
cone over `(2,0)`, `(0,1)`): the primitive vectors on the two extreme rays. -/
def quadrant_oracle : Mat → Option (List Vec) :=
  fun M => if M = [[2, 0], [0, 1]] then some [[1, 0], [0, 1]]
    else if M = [[1, 0], [0, -1]] then some [[1, 0], [0, -1]] else none

/-- An oracle that returns the empty basis for every cone. -/
def empty_oracle : Mat → Option (List Vec) := fun _ => some []

/-- The rows of `SH` are co-facet to the rows of `gens`: there is one row per
generator, row `i` is positive on generator `i` and vanishes on the others. -/
def CoFacet (SH gens : Mat) : Prop :=
  SH.length = gens.length ∧
  ∀ i, i < gens.length → ∀ j, j < gens.length →
    (i = j → 0 < v_scalar_product (gens.getD j []) (SH.getD i [])) ∧
    (i ≠ j → v_scalar_product (gens.getD j []) (SH.getD i []) = 0)

/-- The number of cells with empty `Daughters`. -/
def ConeCollection.leaf_count (C : ConeCollection) : Nat := C.getKeysAndMult.length

/-- The forest with the non-primitive generator `(2,0)`: generators `(2,0)`,
`(0,1)` and one level-0 cell `{0,1}` of multiplicity 2. -/
def nonprimitive_forest : ConeCollection :=
  ConeCollection.from_triangulation [[2, 0], [0, 1]] [([0, 1], 2)]

/-- The forest `nonprimitive_forest` after some passes of `make_unimodular`:
the facets of the cell are cached, an empty level 1 exists, and the rows `T`
have been appended to the generators. -/
def nonprimitive_state (T : Mat) : ConeCollection :=
  { Members :=
      [[{ GenKeys := [0, 1], multiplicity := 2, SupportHyperplanes := [[1, 0], [0, 2]],
          Daughters := [], level := 0, my_place := 0, is_simplex := true }], []]
    Generators := [2, 0] :: [0, 1] :: T
    AllRays := [[0, 1], [2, 0]]
    is_triangulation := true }

/-- The first step of `refine` on an existing cell: its facets are cached. -/
def ConeCollection.cache_facets (K : Kernel) (C : ConeCollection) (lvl plc : Nat) :
    ConeCollection :=
  C.updateCell lvl plc fun m => { m with SupportHyperplanes := m.hyperplanes K C.Generators }

/-- A cell without its cached facets. -/
def MiniCone.uncached (m : MiniCone) : MiniCone := { m with SupportHyperplanes := [] }

/-- A collection without the cached facets of its cells: what is left is the
generator table, the known rays and, for every cell, its keys, multiplicity,
daughters and coordinates. -/
def ConeCollection.uncached (C : ConeCollection) : ConeCollection :=
  { C with Members := C.Members.map (List.map MiniCone.uncached) }

/-- A cell with its facets cached, as `refine` leaves it. -/
def MiniCone.cache (K : Kernel) (G : Mat) (m : MiniCone) : MiniCone :=
  { m with SupportHyperplanes := m.hyperplanes K G }

/-- Every cell has at most one cached facet per ray index. -/
def ConeCollection.facets_fit (C : ConeCollection) : Prop :=
  ∀ L ∈ C.Members, ∀ mc ∈ L, mc.SupportHyperplanes.length ≤ mc.GenKeys.length

/-- The collection `C1` is `C` with the facets of some more cells cached. -/
def CacheExt (K : Kernel) (C C1 : ConeCollection) : Prop :=
  C1.Generators = C.Generators ∧ C1.AllRays = C.AllRays ∧
  C1.is_triangulation = C.is_triangulation ∧
  C1.Members.map List.length = C.Members.map List.length ∧
  ∀ k i mc, C.cell k i = some mc →
    C1.cell k i = some mc ∨ C1.cell k i = some (mc.cache K C.Generators)

/-- A call of `refine(key)` on the cell at `(lvl, plc)` finds every facet it
needs cached and nothing to subdivide. -/
def settled (K : Kernel) (key : Nat) : Nat → Nat → Nat → ConeCollection → Prop
  | 0, _, _, _ => True
  | fuel + 1, lvl, plc, C =>
    match C.cell lvl plc with
    | none => True
    | some mc =>
      mc.cache K C.Generators = mc ∧
      match facet_loop (row C.Generators key) (mc.hyperplanes K C.Generators) 0 [] with
      | none => True
      | some opp =>
        if opp.length = 1 then True
        else if mc.Daughters.length > 0 then
          ∀ d ∈ mc.Daughters, settled K key fuel (mc.level + 1) d C
        else opp = []

/-- What a call of `refine(key)`, or a sequence of such calls, that takes `C`
to `C1` has achieved: the generator table is unchanged, the known rays have
only grown, and either the ray of `key` is now known or only facets were
cached and the property `S` holds. -/
def RefineOutcome (K : Kernel) (key : Nat) (C C1 : ConeCollection) (S : Prop) : Prop :=
  C1.facets_fit ∧ C1.Generators = C.Generators ∧ (∀ x ∈ C.AllRays, x ∈ C1.AllRays) ∧
  (row C.Generators key ∈ C1.AllRays ∨ (CacheExt K C C1 ∧ S))

/-- A forest with a ray that is not yet known: generators `(1,0)`, `(0,1)`,
`(1,1)` and the single cell `{0,1}` of multiplicity 1. -/
def diagonal_forest : ConeCollection :=
  ConeCollection.from_triangulation [[1, 0], [0, 1], [1, 1]] [([0, 1], 1)]

/-- The `n × n` matrix with the entries of the first `n` rows and columns of a
list of rows (missing entries are 0). -/
def to_matrix (n : Nat) (M : Mat) : Matrix (Fin n) (Fin n) Int :=
  Matrix.of fun i j => (M.getD i []).getD j 0

/-- The function on `Fin n` with the first `n` entries of a vector. -/
def to_fun (n : Nat) (v : Vec) : Fin n → Int := fun j => v.getD j 0

/-- The indices, counted from `i`, of the rows with a positive scalar product
with `v`: the list `opposite_facets` when no scalar product is negative. -/
def positive_positions (v : Vec) : Mat → Nat → List Nat
  | [], _ => []
  | h :: hs, i =>
    if 0 < v_scalar_product v h then i :: positive_positions v hs (i + 1)
    else positive_positions v hs (i + 1)

/-- The multiplicities of the cells of level `k`, by position. -/
def ConeCollection.level_mults (C : ConeCollection) (k : Nat) : List Int :=
  (C.Members.getD k []).map fun mc => mc.multiplicity

/-- The contribution of a cell to the total multiplicity of the leaves. -/
def MiniCone.leaf_weight (mc : MiniCone) : Int :=
  if mc.Daughters.isEmpty then mc.multiplicity else 0

/-- The values of the facets of the concrete kernel for the generators `M` on
the vector `v`, one per generator. -/
def facet_values (M : Mat) (v : Vec) : List Int :=
  (exact_simplex_data M).map (v_scalar_product v)

/-- A leaf of the forest under the concrete kernel: the cell at `(lvl, plc)`
is `mc`, it has no daughters, its coordinates are `(lvl, plc)`, the next level
exists, its cached facets (if any) are those of the concrete kernel and its
multiplicity is the volume of its generators. -/
def ExactLeaf (C : ConeCollection) (lvl plc : Nat) (mc : MiniCone) : Prop :=
  C.cell lvl plc = some mc ∧ mc.Daughters = [] ∧ mc.level = lvl ∧ mc.my_place = plc ∧
  lvl + 1 < C.Members.length ∧
  (mc.SupportHyperplanes = [] ∨
    mc.SupportHyperplanes = exact_simplex_data (submatrix C.Generators mc.GenKeys)) ∧
  mc.multiplicity = exact_vol (submatrix C.Generators mc.GenKeys)

/-- The forest `diagonal_forest` with an empty level 1, as `refine` prepares it. -/
def diagonal_leveled : ConeCollection := diagonal_forest.ensure_level

/-- The scenario forest with the ray `(1,1)` appended as index 2 and an empty
level 1: all three rays have degree 1 under the first coordinate. -/
def graded_forest : ConeCollection :=
  (ConeCollection.from_triangulation [[1, 0], [1, 2], [1, 1]] [([0, 1], 2)]).ensure_level

/-- A simplicial cone in dimension 3 of multiplicity 2: generators `(1,0,0)`,
`(0,1,0)`, `(1,1,2)` and the single cell `{0,1,2}`. -/
def spatial_forest : ConeCollection :=
  ConeCollection.from_triangulation [[1, 0, 0], [0, 1, 0], [1, 1, 2]] [([0, 1, 2], 2)]

/-- The Hilbert basis of the cone of `spatial_forest`: its three generators and
the interior point `(1,1,1)`, half the sum of the generators. -/
def spatial_oracle : Mat → Option (List Vec) :=
  fun M => if M = [[1, 0, 0], [0, 1, 0], [1, 1, 2]]
    then some [[0, 1, 0], [1, 0, 0], [1, 1, 1], [1, 1, 2]] else none

/-- The cone over `(2,1)`, `(1,2)` of multiplicity 3, with its interior lattice
point `(1,1)` as ray index 2 and an empty level 1. -/
def skew_forest : ConeCollection :=
  (ConeCollection.from_triangulation [[2, 1], [1, 2], [1, 1]] [([0, 1], 3)]).ensure_level

/-! ## Cones over an ordered field -/

/-- The vector with the first `n` entries of an integer row, over an ordered field. -/
def rvec {F : Type} [LinearOrderedField F] (n : Nat) (r : Vec) : Fin n → F :=
  fun k => ((r.getD k 0 : Int) : F)

/-- The combinations of the rows of `M` with coefficients that satisfy `P`. -/
def in_comb {F : Type} [LinearOrderedField F] (P : F → Prop) (n : Nat) :
    Mat → (Fin n → F) → Prop
  | [], x => x = 0
  | r :: M, x => ∃ a : F, P a ∧ ∃ y, in_comb P n M y ∧ x = a • rvec n r + y

/-- The cone spanned by the rows of `M`: their non-negative combinations. -/
def in_cone {F : Type} [LinearOrderedField F] (n : Nat) (M : Mat) (x : Fin n → F) : Prop :=
  in_comb (fun a => 0 ≤ a) n M x

/-- The interior of the cone spanned by linearly independent rows: their
positive combinations. -/
def in_interior {F : Type} [LinearOrderedField F] (n : Nat) (M : Mat) (x : Fin n → F) : Prop :=
  in_comb (fun a => 0 < a) n M x

/-- The value at `x` of facet `i` of the concrete kernel for the generators `M`. -/
def hval {F : Type} [LinearOrderedField F] (n : Nat) (M : Mat) (i : Nat) (x : Fin n → F) : F :=
  ∑ k : Fin n, ((((exact_simplex_data M).getD i []).getD k 0 : Int) : F) * x k


/-! ## Forest structure -/

/-- The cell that `add_minicone` appends to a level that has `place` cells. -/
def new_cell (C : ConeCollection) (level place : Nat) (GKeys : List Nat) (mult : Int) :
    MiniCone :=
  { GenKeys := GKeys, multiplicity := mult, SupportHyperplanes := [], Daughters := [],
    level := level, my_place := place, is_simplex := C.is_triangulation }

/-- The keys of the child for the opposite facet `j`. -/
def child_keys (keys : List Nat) (key j : Nat) : List Nat :=
  List.insertionSort (fun a b => a ≤ b) (keys.set j key)


/-- A cell with more daughters. -/
def MiniCone.with_daughters (X : MiniCone) (ds : List Nat) : MiniCone :=
  { X with Daughters := X.Daughters ++ ds }

/-- The result of the subdivision loop of `refine` on the cell `X` at `(k, p)`:
one new cell per opposite facet at the end of level `k + 1`, their positions
appended to the daughters of `X`, nothing else changed. -/
structure Subdivided (K : Kernel) (key : Nat) (keys : List Nat) (k p : Nat) (opp : List Nat)
    (X : MiniCone) (C C2 : ConeCollection) : Prop where
  gens : C2.Generators = C.Generators
  tri : C2.is_triangulation = C.is_triangulation
  levels : C2.Members.length = C.Members.length
  lengths : ∀ l, (C2.Members.getD l []).length
    = (C.Members.getD l []).length + if l = k + 1 then opp.length else 0
  mother : C2.cell k p
    = some (X.with_daughters (List.range' (C.Members.getD (k + 1) []).length opp.length))
  children : ∀ t, t < opp.length →
    C2.cell (k + 1) ((C.Members.getD (k + 1) []).length + t)
      = some (new_cell C (k + 1) ((C.Members.getD (k + 1) []).length + t)
          (child_keys keys key (opp.getD t 0))
          (K.vol (submatrix C.Generators (child_keys keys key (opp.getD t 0)))))
  others : ∀ l q, ¬ (l = k ∧ q = p) → q < (C.Members.getD l []).length →
    C2.cell l q = C.cell l q



/-- The generators of a cell: the rows of `Generators` selected by its keys. -/
def ConeCollection.gens (C : ConeCollection) (mc : MiniCone) : Mat :=
  submatrix C.Generators mc.GenKeys

/-- The forest is well formed for simplices of dimension `n`: there is a level,
the coordinates stored in a cell are its position, daughters are positions of
the next level, every cell of a level above 0 is a daughter of a cell of the
level before, and every cell is a non-degenerate simplex on rows of the
generator table, with cached facets (if any) those of the concrete kernel. -/
structure Tree (n : Nat) (C : ConeCollection) : Prop where
  nonempty : C.Members ≠ []
  coords : ∀ k i mc, C.cell k i = some mc → mc.level = k ∧ mc.my_place = i
  daughters_lt : ∀ k i mc, C.cell k i = some mc →
    ∀ d ∈ mc.Daughters, d < (C.Members.getD (k + 1) []).length
  has_parent : ∀ k i, i < (C.Members.getD (k + 1) []).length →
    ∃ p mp, C.cell k p = some mp ∧ i ∈ mp.Daughters
  simplex : ∀ k i mc, C.cell k i = some mc →
    mc.GenKeys.length = n ∧ (∀ g ∈ mc.GenKeys, g < C.Generators.length) ∧
    det (C.gens mc) ≠ 0 ∧
    (mc.SupportHyperplanes = [] ∨ mc.SupportHyperplanes = exact_simplex_data (C.gens mc))

/-- The daughters of every cell subdivide it: their cones cover the cone of the
cell and lie in it, their interiors lie in its interior and are pairwise
disjoint; and the cells of level 0 have pairwise disjoint interiors. -/
structure Stellar (F : Type) [LinearOrderedField F] (n : Nat) (C : ConeCollection) : Prop where
  cover : ∀ k i mc, C.cell k i = some mc → mc.Daughters ≠ [] →
    ∀ x : Fin n → F, in_cone n (C.gens mc) x →
      ∃ d ∈ mc.Daughters, ∃ md, C.cell (k + 1) d = some md ∧ in_cone n (C.gens md) x
  inside : ∀ k i mc, C.cell k i = some mc → ∀ d ∈ mc.Daughters, ∀ md,
    C.cell (k + 1) d = some md → ∀ x : Fin n → F,
      (in_cone n (C.gens md) x → in_cone n (C.gens mc) x) ∧
      (in_interior n (C.gens md) x → in_interior n (C.gens mc) x)
  apart : ∀ k i mc, C.cell k i = some mc → ∀ d ∈ mc.Daughters, ∀ d1 ∈ mc.Daughters, d ≠ d1 →
    ∀ md md1, C.cell (k + 1) d = some md → C.cell (k + 1) d1 = some md1 →
      ∀ x : Fin n → F, ¬ (in_interior n (C.gens md) x ∧ in_interior n (C.gens md1) x)
  roots : ∀ i i1 A B, C.cell 0 i = some A → C.cell 0 i1 = some B → i ≠ i1 →
    ∀ x : Fin n → F, ¬ (in_interior n (C.gens A) x ∧ in_interior n (C.gens B) x)

/-- Every cell of the last level has `key` among its keys. -/
def Safe (C : ConeCollection) (key : Nat) : Prop :=
  ∀ i mc, C.cell (C.Members.length - 1) i = some mc → key ∈ mc.GenKeys



/-- The forest `C1` is `C` grown without new cells: rows were appended to the
generator table, levels without cells were appended, and every cell kept its
keys, daughters and coordinates; its cached facets are those it had or those
of the concrete kernel. -/
structure Grown (C C1 : ConeCollection) : Prop where
  gens : ∃ E, C1.Generators = C.Generators ++ E
  levels : C.Members.length ≤ C1.Members.length
  lengths : ∀ l, (C1.Members.getD l []).length = (C.Members.getD l []).length
  cells : ∀ l q Y, C.cell l q = some Y → ∃ Y1, C1.cell l q = some Y1 ∧
    Y1.GenKeys = Y.GenKeys ∧ Y1.Daughters = Y.Daughters ∧ Y1.level = Y.level ∧
    Y1.my_place = Y.my_place ∧
    (Y1.SupportHyperplanes = Y.SupportHyperplanes ∨
      Y1.SupportHyperplanes = exact_simplex_data (C.gens Y))

/-- The generator matrices of the cells of level 0. -/
def ConeCollection.root_cones (C : ConeCollection) : List Mat :=
  (C.Members.getD 0 []).map C.gens



/-- What a call of `refine(key)` keeps when it takes the forest `C` to `R`: the
forest stays well formed and subdivided, the cells of the last level contain
`key`, and the number of levels, the generator table and the cones of level 0
are unchanged. -/
def Kept (F : Type) [LinearOrderedField F] (n key : Nat) (C R : ConeCollection) : Prop :=
  Tree n R ∧ Stellar F n R ∧ Safe R key ∧ R.Members.length = C.Members.length ∧
    R.Generators = C.Generators ∧ R.root_cones = C.root_cones



/-- The forest is well formed and subdivided, and the cones of its level 0 are
those of the list `roots`. -/
def Sound (F : Type) [LinearOrderedField F] (n : Nat) (roots : List Mat)
    (C : ConeCollection) : Prop :=
  Tree n C ∧ Stellar F n C ∧ C.root_cones = roots



/-- The level-0 cells of the forest `C` triangulate a cone of dimension `n`:
the forest has the one level the constructor makes, and its cells are cells
without daughters that carry their own position, span non-degenerate simplices
on `n` rows of the generator table, have no cached facets or those of the
concrete kernel, and have pairwise disjoint interiors. -/
structure Triangulated (F : Type) [LinearOrderedField F] (n : Nat) (C : ConeCollection) :
    Prop where
  one_level : C.Members.length = 1
  cells : ∀ i mc, C.cell 0 i = some mc →
    mc.level = 0 ∧ mc.my_place = i ∧ mc.Daughters = [] ∧ mc.GenKeys.length = n ∧
    (∀ g ∈ mc.GenKeys, g < C.Generators.length) ∧ det (C.gens mc) ≠ 0 ∧
    (mc.SupportHyperplanes = [] ∨ mc.SupportHyperplanes = exact_simplex_data (C.gens mc))
  apart : ∀ i i1 A B, C.cell 0 i = some A → C.cell 0 i1 = some B → i ≠ i1 →
    ∀ x : Fin n → F, ¬ (in_interior n (C.gens A) x ∧ in_interior n (C.gens B) x)

/-- The states that calls of `ConeCollection::refine`, `insert_all_gens` and
`make_unimodular` reach from the forest `C0`; a run of `make_unimodular` ends
by its `break` or by a failure of the Hilbert basis computation. -/
inductive Reachable (K : Kernel) (C0 : ConeCollection) : ConeCollection → Prop
  | start : Reachable K C0 C0
  | refine (C : ConeCollection) (key : Nat) :
      Reachable K C0 C → Reachable K C0 (C.refine K key)
  | insert_all_gens (C : ConeCollection) :
      Reachable K C0 C → Reachable K C0 (C.insert_all_gens K)
  | make_unimodular (C R : ConeCollection) (fuel : Nat) :
      Reachable K C0 C → C.make_unimodular K fuel = Outcome.returned R → Reachable K C0 R
  | make_unimodular_failed (C R : ConeCollection) (fuel : Nat) :
      Reachable K C0 C → C.make_unimodular K fuel = Outcome.oracle_failed R → Reachable K C0 R



/-- The cell the constructor makes at position `i` for the simplex `S`. -/
def root_cell (i : Nat) (S : List Nat × Int) : MiniCone :=
  { GenKeys := S.1, multiplicity := S.2, SupportHyperplanes := [], Daughters := [],
    level := 0, my_place := i, is_simplex := true }



/-! ## Frames, rounds and the bootstrap pass -/


/-- A forest with the ray `(1,0)` stored under the two indices 0 and 2:
generators `(1,0)`, `(0,1)`, `(1,0)` and the single cell `{0,1}`. -/
def repeated_forest : ConeCollection :=
  ConeCollection.from_triangulation [[1, 0], [0, 1], [1, 0]] [([0, 1], 1)]



/-- The table of `R` starts with the table of `C`, and every known ray of `C`
is a known ray of `R`. -/
def Grows (C R : ConeCollection) : Prop :=
  (∃ E, R.Generators = C.Generators ++ E) ∧ ∀ x ∈ C.AllRays, x ∈ R.AllRays

/-- One call of a mutating operation of the collection takes `C` to `R`; a run
of `make_unimodular` ends by its `break` or by a failure of the Hilbert basis
computation. -/
inductive Operation (K : Kernel) : ConeCollection → ConeCollection → Prop
  | add_extra_generators (C : ConeCollection) (NewGens : Mat) :
      Operation K C (C.add_extra_generators NewGens)
  | refine (C : ConeCollection) (key : Nat) : Operation K C (C.refine K key)
  | insert_all_gens (C : ConeCollection) : Operation K C (C.insert_all_gens K)
  | make_unimodular (C R : ConeCollection) (fuel : Nat) :
      C.make_unimodular K fuel = Outcome.returned R → Operation K C R
  | make_unimodular_failed (C R : ConeCollection) (fuel : Nat) :
      C.make_unimodular K fuel = Outcome.oracle_failed R → Operation K C R



/-- The rays of the keys of every cell are known rays, as `add_minicone`
leaves them. -/
def ConeCollection.rays_known (C : ConeCollection) : Prop :=
  ∀ L ∈ C.Members, ∀ mc ∈ L, ∀ g ∈ mc.GenKeys, row C.Generators g ∈ C.AllRays



/-- Every cell stores its own position, as `add_minicone` sets it. -/
def ConeCollection.coords_ok (C : ConeCollection) : Prop :=
  ∀ k i mc, C.cell k i = some mc → mc.level = k ∧ mc.my_place = i

/-- Every cell of `C` with daughters is, in `R`, a cell at the same position
with the same daughters. -/
def Frozen (C R : ConeCollection) : Prop :=
  ∀ k i mc, C.cell k i = some mc → mc.Daughters ≠ [] →
    ∃ mc1, R.cell k i = some mc1 ∧ mc1.Daughters = mc.Daughters

/-- A forest for two insertions in a row: generators `(1,0)`, `(0,1)`, `(1,1)`,
`(2,1)` and the single cell `{0,1}`. -/
def fan_forest : ConeCollection :=
  ConeCollection.from_triangulation [[1, 0], [0, 1], [1, 1], [2, 1]] [([0, 1], 1)]



/-- One complete round of `make_unimodular` that inserts points: the state at
its end, when the collecting loop succeeds and finds a point. -/
def ConeCollection.round (K : Kernel) (C : ConeCollection) : Option ConeCollection :=
  match C.collect K with
  | none => none
  | some AllHilbs =>
    if AllHilbs.isEmpty then none else some (insert_hilbs K C (sort_hilbs AllHilbs))

/-- The state at the end of `r` complete inserting rounds. -/
def ConeCollection.after_rounds (K : Kernel) : Nat → ConeCollection → Option ConeCollection
  | 0, C => some C
  | r + 1, C =>
    match C.round K with
    | none => none
    | some C1 => ConeCollection.after_rounds K r C1



/-- The vectors that the inserting loop of `make_unimodular` appends to the
generator table for the points `vs`, when `last` is the value of
`last_inserted`: a point is appended when it differs from the point before it. -/
def squeeze : Vec → List Vec → List Vec
  | _, [] => []
  | last, v :: vs => if v ≠ last then v :: squeeze v vs else squeeze last vs



/-- The states of the inserting loop of `make_unimodular` after each of its
passes over the list, from the state `s` on. -/
def insert_states (K : Kernel) : InsertState → List HilbEntry → List InsertState
  | _, [] => []
  | s, H :: L => insert_step K s H :: insert_states K (insert_step K s H) L

/-- What the inserting loop keeps about its locals, on a table that had `n0`
rows when the loop began: the row at `key` is `last_inserted`, and once a point
was inserted `key` is an index of an appended row. -/
def KeyInv (n0 : Nat) (s : InsertState) : Prop :=
  row s.coll.Generators s.key = s.last_inserted ∧ n0 ≤ s.key ∧
  n0 ≤ s.coll.Generators.length ∧
  (s.last_inserted ≠ [] → s.key < s.coll.Generators.length)



/-- The walk of `refine(key)` from the cell at `(lvl, plc)`, with the facets of
the concrete kernel, finds nothing to subdivide: wherever it arrives at a cell
that contains the ray with not exactly one positive facet value, the cell has
daughters, which the walk visits next, or all facet values are 0. -/
def quiet (key : Nat) : Nat → Nat → Nat → ConeCollection → Prop
  | 0, _, _, _ => True
  | fuel + 1, lvl, plc, C =>
    ∀ mc, C.cell lvl plc = some mc →
      ∀ opp, facet_loop (row C.Generators key) (exact_simplex_data (C.gens mc)) 0 [] = some opp →
        opp.length ≠ 1 →
        (mc.Daughters ≠ [] → ∀ d ∈ mc.Daughters, quiet key fuel (mc.level + 1) d C) ∧
        (mc.Daughters = [] → opp = [])

/-- The ray of `key` is dealt with: it is a known ray, or the walk of
`refine(key)` through the forest finds nothing to subdivide. -/
def ConeCollection.dealt (C : ConeCollection) (key : Nat) : Prop :=
  row C.Generators key ∈ C.AllRays ∨ ∀ plc fuel, quiet key fuel 0 plc C

/-- A forest with a multiple of a ray among its generators: generators `(1,0)`,
`(0,1)`, `(2,0)`, `(1,1)` and the single cell `{0,1}`. -/
def multiple_forest : ConeCollection :=
  ConeCollection.from_triangulation [[1, 0], [0, 1], [2, 0], [1, 1]] [([0, 1], 1)]




/-! ## Runs of operations and their invariants -/

/-- The states that calls of the mutating operations of the collection reach
from the forest `C0`. -/
inductive Reached (K : Kernel) (C0 : ConeCollection) : ConeCollection → Prop
  | start : Reached K C0 C0
  | step (C R : ConeCollection) : Reached K C0 C → Operation K C R → Reached K C0 R

/-- The property `Q` of the forest is kept by the four elementary changes the
operations are made of: the guard for a new level, a row appended to the
generator table, the caching of the facets of a cell, and the subdivision loop
of `MiniCone::refine` on a cell without daughters. -/
structure Invariant (K : Kernel) (Q : ConeCollection → Prop) : Prop where
  ensure_level : ∀ C, Q C → Q C.ensure_level
  append_gen : ∀ (C : ConeCollection) (v : Vec), Q C →
    Q { C with Generators := C.Generators ++ [v] }
  cache : ∀ C lvl plc, Q C → Q (C.cache_facets K lvl plc)
  subdivide : ∀ (key : Nat) (C : ConeCollection) (lvl plc : Nat) (mc : MiniCone)
    (opp : List Nat), Q C → C.cell lvl plc = some mc → mc.Daughters = [] →
    facet_loop (row C.Generators key) (mc.hyperplanes K C.Generators) 0 [] = some opp →
    opp.length ≠ 1 → Q (opp.foldl (subdivide_step K key mc) (C.cache_facets K lvl plc))

/-- Every cell of `C` is, in `R`, a cell at the same position with the same
keys, multiplicity, coordinates and simplex flag, and with a `Daughters` list
that starts with its list in `C`. -/
def Extends (C R : ConeCollection) : Prop :=
  ∀ k i mc, C.cell k i = some mc → ∃ mc1 E, R.cell k i = some mc1 ∧
    mc1.GenKeys = mc.GenKeys ∧ mc1.multiplicity = mc.multiplicity ∧ mc1.level = mc.level ∧
    mc1.my_place = mc.my_place ∧ mc1.is_simplex = mc.is_simplex ∧
    mc1.Daughters = mc.Daughters ++ E

/-- Every cell has no daughters or at least two. -/
def ConeCollection.pairs_ok (C : ConeCollection) : Prop :=
  ∀ k i mc, C.cell k i = some mc → mc.Daughters = [] ∨ 2 ≤ mc.Daughters.length

/-- Every key of every cell is the index of a row of the generator table. -/
def ConeCollection.keys_ok (C : ConeCollection) : Prop :=
  ∀ k i mc, C.cell k i = some mc → ∀ g ∈ mc.GenKeys, g < C.Generators.length

/-- The ray of every key of every cell is a known ray. -/
def ConeCollection.rays_ok (C : ConeCollection) : Prop :=
  ∀ k i mc, C.cell k i = some mc → ∀ g ∈ mc.GenKeys, row C.Generators g ∈ C.AllRays

/-- Every cell above level 0 is as the subdivision loop made it: its
multiplicity is the volume of the rows of its keys, its keys are sorted, and it
is a daughter of a cell of the level before that has as many keys. -/
def ConeCollection.born_ok (K : Kernel) (C : ConeCollection) : Prop :=
  ∀ k i mc, C.cell (k + 1) i = some mc →
    mc.multiplicity = K.vol (submatrix C.Generators mc.GenKeys) ∧
    List.Sorted (fun a b => a ≤ b) mc.GenKeys ∧
    ∃ p mp, C.cell k p = some mp ∧ i ∈ mp.Daughters ∧ mc.GenKeys.length = mp.GenKeys.length

/-- The forest is in order: cells store their position, their keys are indices
of the generator table with known rays, and the cells above level 0 are as the
subdivision loop made them. -/
structure Orderly (K : Kernel) (C : ConeCollection) : Prop where
  coords : C.coords_ok
  keys : C.keys_ok
  rays : C.rays_ok
  born : C.born_ok K

/-- The positions `(k, i)` of all cells, in the order of the two nested loops
of `make_unimodular`. -/
def ConeCollection.positions (C : ConeCollection) : List (Nat × Nat) :=
  (List.range C.Members.length).flatMap fun k =>
    (List.range (C.Members.getD k []).length).map fun i => (k, i)

/-- The positions of the cells that the collecting loop of `make_unimodular`
passes to the Hilbert basis computation, in the order of the calls, for the
loop over the positions `ps`: a cell with multiplicity 1 and a cell with
daughters are skipped by the two `continue`, and a computation that throws ends
the loop. -/
def oracle_calls_loop (K : Kernel) (C : ConeCollection) : List (Nat × Nat) → List (Nat × Nat)
  | [] => []
  | p :: ps =>
    match C.cell p.1 p.2 with
    | none => oracle_calls_loop K C ps
    | some mc =>
      if mc.multiplicity = 1 then oracle_calls_loop K C ps
      else if ¬ mc.Daughters.isEmpty then oracle_calls_loop K C ps
      else
        match K.hilbert_basis (submatrix C.Generators mc.GenKeys) with
        | none => [p]
        | some _ => p :: oracle_calls_loop K C ps

/-- The positions of the cells passed to the Hilbert basis computation in one
round of `make_unimodular` that starts in the state `C`. -/
def ConeCollection.oracle_calls (K : Kernel) (C : ConeCollection) : List (Nat × Nat) :=
  oracle_calls_loop K C C.positions

/-- The two guards of the collecting loop let the position `p` pass. -/
def ConeCollection.passes (C : ConeCollection) (p : Nat × Nat) : Bool :=
  match C.cell p.1 p.2 with
  | none => false
  | some mc => if mc.multiplicity = 1 then false else mc.Daughters.isEmpty

/-! ## Runs that poll the interruption flag -/

/-- How the facet-test loop of `MiniCone::refine` ends when every pass begins
with `INTERRUPT_COMPUTATION_BY_EXCEPTION`: the poll with the given number found
the flag set, or a scalar product was negative, or the loop ran to its end with
the list `opposite_facets`; the last component counts the polls made so far. -/
inductive FacetRun where
  | interrupted : Nat → FacetRun
  | outside : Nat → FacetRun
  | opposite : List Nat → Nat → FacetRun
deriving DecidableEq

/-- How a call that polls the interruption flag ends: it returns with the
forest and the number of polls made so far, or the poll with the given number
found the flag set and the exception leaves the forest as given. -/
inductive Polled where
  | returned : ConeCollection → Nat → Polled
  | interrupted : ConeCollection → Nat → Polled
deriving DecidableEq

/-- The rest of a run after a step that may have been interrupted. -/
def Polled.andThen (r : Polled) (f : ConeCollection → Nat → Polled) : Polled :=
  match r with
  | Polled.returned C t => f C t
  | Polled.interrupted C t => Polled.interrupted C t

/-- The facet-test loop of `MiniCone::refine` with its interruption point.
The definition of the macro `INTERRUPT_COMPUTATION_BY_EXCEPTION` is not part of
the sources at hand; `flag t` says whether the poll number `t` of the run finds
the interruption flag set, in which case the macro throws. -/
def facet_loop_poll (flag : Nat → Bool) (v : Vec) : Mat → Nat → List Nat → Nat → FacetRun
  | [], _, opp, t => FacetRun.opposite opp t
  | h :: hs, i, opp, t =>
    if flag t then FacetRun.interrupted t
    else if v_scalar_product v h < 0 then FacetRun.outside (t + 1)
    else if v_scalar_product v h = 0 then facet_loop_poll flag v hs (i + 1) opp (t + 1)
    else facet_loop_poll flag v hs (i + 1) (opp ++ [i]) (t + 1)

/-- The subdivision loop of `MiniCone::refine` with its interruption point. -/
def subdivide_loop_poll (flag : Nat → Bool) (K : Kernel) (key : Nat) (mc : MiniCone) :
    List Nat → ConeCollection → Nat → Polled
  | [], C, t => Polled.returned C t
  | j :: js, C, t =>
    if flag t then Polled.interrupted C t
    else subdivide_loop_poll flag K key mc js (subdivide_step K key mc C j) (t + 1)

/-- The source's `MiniCone::refine(key)` with its two interruption points,
called on the cell at `Members[lvl][plc]` when `t` polls have been made; an
exception thrown in a daughter ends the loop over the daughters. -/
def MiniCone.refine_poll (flag : Nat → Bool) (K : Kernel) (key : Nat) :
    Nat → Nat → Nat → ConeCollection → Nat → Polled
  | 0, _, _, C, t => Polled.returned C t
  | fuel + 1, lvl, plc, C, t =>
    match C.cell lvl plc with
    | none => Polled.returned C t
    | some mc =>
      let SH := mc.hyperplanes K C.Generators
      let C1 := C.updateCell lvl plc (fun m => { m with SupportHyperplanes := SH })
      match facet_loop_poll flag (row C.Generators key) SH 0 [] t with
      | FacetRun.interrupted t1 => Polled.interrupted C1 t1
      | FacetRun.outside t1 => Polled.returned C1 t1
      | FacetRun.opposite opp t1 =>
        if opp.length = 1 then Polled.returned C1 t1
        else if mc.Daughters.length > 0 then
          mc.Daughters.foldl
            (fun r d => r.andThen (MiniCone.refine_poll flag K key fuel (mc.level + 1) d))
            (Polled.returned C1 t1)
        else subdivide_loop_poll flag K key mc opp C1 t1

/-- The forest is a family of trees: cells store their position, daughters
are positions of the next level, no position is twice among the daughters of a
cell or among the daughters of two cells, and every cell above level 0 is a
daughter of a cell of the level before. -/
structure Wood (C : ConeCollection) : Prop where
  coords : C.coords_ok
  daughters_lt : ∀ k i mc, C.cell k i = some mc →
    ∀ d ∈ mc.Daughters, d < (C.Members.getD (k + 1) []).length
  nodup : ∀ k i mc, C.cell k i = some mc → mc.Daughters.Nodup
  one_parent : ∀ k p p1 mp mp1 d, C.cell k p = some mp → C.cell k p1 = some mp1 →
    d ∈ mp.Daughters → d ∈ mp1.Daughters → p = p1
  has_parent : ∀ k i, i < (C.Members.getD (k + 1) []).length →
    ∃ p mp, C.cell k p = some mp ∧ i ∈ mp.Daughters

/-- The position `q` of level `k + n` is reached from the position `p` of level
`k` by `n` steps from a cell to one of its daughters. -/
def below (C : ConeCollection) : Nat → Nat → Nat → Nat → Prop
  | 0, _, p, q => q = p
  | n + 1, k, p, q => ∃ mp d, C.cell k p = some mp ∧ d ∈ mp.Daughters ∧ below C n (k + 1) d q

/-- The state of the forest in the course of an operation, when `N k` cells of
level `k` existed as the operation began to visit cells: the forest is a family
of trees, the cells made since have no daughters, and all cells of the last
level were made since. -/
structure Walk (N : Nat → Nat) (C : ConeCollection) : Prop where
  wood : Wood C
  old_le : ∀ k, N k ≤ (C.Members.getD k []).length
  new_leaf : ∀ k i mc, C.cell k i = some mc → N k ≤ i → mc.Daughters = []
  last_new : ∀ i mc, C.cell (C.Members.length - 1) i = some mc → N (C.Members.length - 1) ≤ i

/-- The cell at `(k, p)` and all cells below it existed as the operation began. -/
def Clean (N : Nat → Nat) (C : ConeCollection) (k p : Nat) : Prop :=
  ∀ n q, below C n k p q → q < N (k + n)

/-- Every cell of `C` that is not the cell at `(k, p)` or a cell below it has
in `R` the daughters it has in `C`. -/
def Apart (C R : ConeCollection) (k p : Nat) : Prop :=
  ∀ l q m, C.cell l q = some m → (∀ n, l = k + n → ¬ below C n k p q) →
    ∃ m1, R.cell l q = some m1 ∧ m1.Daughters = m.Daughters

/-- The forest `graded_forest` as a call of `refine(2)` on its cell leaves it when
the fourth poll, before the second pass of the subdivision loop, finds the
interruption flag set: the facets of the cell are cached and the first of its
two children is there. -/
def graded_cancelled : ConeCollection :=
  { Members :=
      [[{ GenKeys := [0, 1], multiplicity := 2, SupportHyperplanes := [[2, -1], [0, 1]],
          Daughters := [0], level := 0, my_place := 0, is_simplex := true }],
       [{ GenKeys := [1, 2], multiplicity := 1, SupportHyperplanes := [], Daughters := [],
          level := 1, my_place := 0, is_simplex := true }]]
    Generators := [[1, 0], [1, 2], [1, 1]]
    AllRays := [[1, 0], [1, 1], [1, 2]]
    is_triangulation := true }



/-! ## Definitions for the invariants of the tree, the checked calls and the rounds -/




/-- Every cell spans a non-degenerate simplex on `n` distinct rows of the
generator table, and its cached facets, if any, are those of the concrete
kernel. -/
def ConeCollection.simplicial (n : Nat) (C : ConeCollection) : Prop :=
  ∀ k i mc, C.cell k i = some mc →
    mc.GenKeys.length = n ∧ (∀ g ∈ mc.GenKeys, g < C.Generators.length) ∧
    mc.GenKeys.Nodup ∧ det (C.gens mc) ≠ 0 ∧
    (mc.SupportHyperplanes = [] ∨ mc.SupportHyperplanes = exact_simplex_data (C.gens mc))

/-- Every cell above level 0 has strictly increasing keys. -/
def ConeCollection.keys_strict (C : ConeCollection) : Prop :=
  ∀ k i mc, C.cell (k + 1) i = some mc → List.Sorted (fun a b => a < b) mc.GenKeys

/-- The cells of level 0 have the keys of the simplices of `T`, in the order
given. -/
def ConeCollection.roots_from (T : List (List Nat × Int)) (C : ConeCollection) : Prop :=
  ∀ i mc, C.cell 0 i = some mc → ∃ S, T[i]? = some S ∧ mc.GenKeys = S.1

/-- The forest the constructor builds for the rays `(1,0)`, `(0,1)` and a
triangulation whose only simplex lists its keys as `1, 0`. -/
def unsorted_forest : ConeCollection :=
  ConeCollection.from_triangulation [[1, 0], [0, 1]] [([1, 0], 1)]




/-- The cone over `(1,0)`, `(1,3)` of multiplicity 3. -/
def wide_forest : ConeCollection :=
  ConeCollection.from_triangulation [[1, 0], [1, 3]] [([0, 1], 3)]

/-- An oracle with the Hilbert basis of the cone of `wide_forest`, in
increasing order; it fails on every other input. -/
def wide_oracle : Mat → Option (List Vec) :=
  fun M => if M = [[1, 0], [1, 3]] then some [[1, 0], [1, 1], [1, 2], [1, 3]] else none

/-- The oracle `wide_oracle` with its points listed in another order. -/
def wide_oracle_shuffled : Mat → Option (List Vec) :=
  fun M => if M = [[1, 0], [1, 3]] then some [[1, 2], [1, 3], [1, 1], [1, 0]] else none




/-! ## The shape of the levels -/

/-- Every level of `Members` but the last has a cell. -/
def ConeCollection.filled (C : ConeCollection) : Prop :=
  ∀ k, k + 1 < C.Members.length → C.Members.getD k [] ≠ []

/-- The forest is a family of trees with at least one level, and all levels
but the last are non-empty. -/
structure Sane (C : ConeCollection) : Prop where
  wood : Wood C
  levels : C.Members ≠ []
  filled : C.filled

/-- The property `Q` of the forest is kept by a row appended to the generator
table, by `ConeCollection::refine` and by every pass of the inserting loop of
`make_unimodular`. -/
structure Stable (K : Kernel) (Q : ConeCollection → Prop) : Prop where
  append_gen : ∀ (C : ConeCollection) (v : Vec), Q C →
    Q { C with Generators := C.Generators ++ [v] }
  refine : ∀ (C : ConeCollection) (key : Nat), Q C → Q (C.refine K key)
  insert_step : ∀ (s : InsertState) (H : HilbEntry), Q s.coll → Q (insert_step K s H).coll




/-! ## Operations with the index reads of `Members` checked -/

/-- One pass of the subdivision loop of `MiniCone::refine` with the index
reads of `add_minicone` in `Members` checked: `none` when `Members[level+1]` or
the mother `Members[level][my_place]` does not exist. -/
def subdivide_step_checked (K : Kernel) (key : Nat) (mc : MiniCone) (C : ConeCollection)
    (j : Nat) : Option ConeCollection :=
  if mc.level + 1 < C.Members.length ∧ (C.cell mc.level mc.my_place).isSome then
    some (subdivide_step K key mc C j)
  else none

/-- The source's `MiniCone::refine(key)` with the index reads in `Members`
checked: `none` when the cell `Members[lvl][plc]` of the call or of a call on a
daughter does not exist, when `add_minicone` reads `Members` out of range, or
when the bound on the depth of the recursion is used up. -/
def MiniCone.refine_checked (K : Kernel) (key : Nat) :
    Nat → Nat → Nat → ConeCollection → Option ConeCollection
  | 0, _, _, _ => none
  | fuel + 1, lvl, plc, C =>
    match C.cell lvl plc with
    | none => none
    | some mc =>
      let SH := mc.hyperplanes K C.Generators
      let C1 := C.updateCell lvl plc (fun m => { m with SupportHyperplanes := SH })
      match facet_loop (row C.Generators key) SH 0 [] with
      | none => some C1
      | some opp =>
        if opp.length = 1 then some C1
        else if mc.Daughters.length > 0 then
          mc.Daughters.foldl
            (fun r d => r.bind (MiniCone.refine_checked K key fuel (mc.level + 1) d)) (some C1)
        else
          opp.foldl (fun r j => r.bind (fun C2 => subdivide_step_checked K key mc C2 j))
            (some C1)

/-- The source's `ConeCollection::refine(key)` with the index reads in
`Members` checked: `none` when `Members` has no level for the guard
`Members[Members.size()-1]` to read, or when a call of `MiniCone::refine` reads
out of range. -/
def ConeCollection.refine_checked (K : Kernel) (C : ConeCollection) (key : Nat) :
    Option ConeCollection :=
  if row C.Generators key ∈ C.AllRays then some C
  else
    match C.Members.getLast? with
    | none => none
    | some _ =>
      let C1 := C.ensure_level
      (List.range (C1.Members.getD 0 []).length).foldl
        (fun r i => r.bind (MiniCone.refine_checked K key C1.Members.length 0 i)) (some C1)

/-- One pass of the inserting loop of `make_unimodular` with the index reads
in `Members` checked. -/
def insert_step_checked (K : Kernel) (s : InsertState) (H : HilbEntry) : Option InsertState :=
  match s.coll.Members.getLast? with
  | none => none
  | some _ =>
    let C1 := s.coll.ensure_level
    let s1 : InsertState :=
      if H.1 ≠ s.last_inserted then
        { coll := { C1 with Generators := C1.Generators ++ [H.1] }, last_inserted := H.1,
          key := C1.Generators.length }
      else { s with coll := C1 }
    (MiniCone.refine_checked K s1.key s1.coll.Members.length H.2.1 H.2.2 s1.coll).map
      fun C2 => { s1 with coll := C2 }

/-- The inserting loop of `make_unimodular` over the sorted list `AllHilbs`
with the index reads in `Members` checked. -/
def insert_hilbs_checked (K : Kernel) (C : ConeCollection) (AllHilbs : List HilbEntry) :
    Option ConeCollection :=
  (AllHilbs.foldl (fun r H => r.bind (fun s => insert_step_checked K s H))
    (some { coll := C, last_inserted := [], key := C.Generators.length })).map
    fun s => s.coll







/-! ## Progress of a round -/

/-- Modelled from the spec: what the proofs use of the Hilbert basis
computation ("returns its minimal generating lattice points"), whose code is
not part of the sources at hand: the points the oracle returns, for all cones,
are pairwise not proportional, as the elements of Hilbert bases, which are
primitive vectors, are. -/
def oracle_primitive (n : Nat) (hb : Mat → Option (List Vec)) : Prop :=
  ∀ M1 M2 L1 L2 x y, hb M1 = some L1 → hb M2 = some L2 → x ∈ L1 → y ∈ L2 →
    ∀ c : ℚ, 0 < c → (rvec n x : Fin n → ℚ) = c • rvec n y → x = y

/-- No cell below the cell at `(lvl, plc)`, the cell included, has the vector
`v` in its cone with fewer than two positive facet values. -/
def off_rays (n : Nat) (R : ConeCollection) (v : Vec) (lvl plc : Nat) : Prop :=
  ∀ m q Y, below R m lvl plc q → R.cell (lvl + m) q = some Y →
    in_cone n (R.gens Y) (rvec n v : Fin n → ℚ) →
    2 ≤ (positive_positions v (exact_simplex_data (R.gens Y)) 0).length




/-- Relative to the forest `C0` at the beginning of a round, when the table
had `G0` rows: every cell above level 0 that is not a cell of `C0` is a child,
made for a row appended since, of a cell that has it among its daughters. -/
def kin (C0 : ConeCollection) (G0 : Nat) (R : ConeCollection) : Prop :=
  ∀ k i Y, R.cell (k + 1) i = some Y → C0.cell (k + 1) i = none →
    ∃ p X key j, R.cell k p = some X ∧ i ∈ X.Daughters ∧
      Y.GenKeys = child_keys X.GenKeys key j ∧ G0 ≤ key




/-- What the inserting loop of a round keeps, for the concrete kernel, when
the round began in the forest `C0`: the forest is well formed and subdivided, a
family of trees with keys in the table and known rays; the cells of `C0` are
there; the cells made since are children made for appended rows; the locals
`key` and `last_inserted` fit; and the rows appended since are points of the
oracle. -/
structure RoundState (hb : Mat → Option (List Vec)) (n : Nat) (roots : List Mat)
    (C0 : ConeCollection) (s : InsertState) : Prop where
  sound : Sound ℚ n roots s.coll
  sane : Sane s.coll
  orderly : Orderly (exactKernel hb) s.coll
  ext : Extends C0 s.coll
  kin : kin C0 C0.Generators.length s.coll
  keyinv : KeyInv C0.Generators.length s
  gens : ∃ D, s.coll.Generators = C0.Generators ++ D ∧
    ∀ x ∈ D, ∃ M L, hb M = some L ∧ x ∈ L







/-! ## Operations that poll the interruption flag -/

/-- The source's `ConeCollection::refine(key)` with the interruption points of
the calls of `MiniCone::refine`, when `t` polls have been made; the function
has no interruption point of its own. -/
def ConeCollection.refine_poll (flag : Nat → Bool) (K : Kernel) (C : ConeCollection)
    (key : Nat) (t : Nat) : Polled :=
  if row C.Generators key ∈ C.AllRays then Polled.returned C t
  else
    let C1 := C.ensure_level
    (List.range (C1.Members.getD 0 []).length).foldl
      (fun r i => r.andThen (MiniCone.refine_poll flag K key C1.Members.length 0 i))
      (Polled.returned C1 t)

/-- How the collecting loop of `make_unimodular` ends when every pass begins
with `INTERRUPT_COMPUTATION_BY_EXCEPTION`: with the list `AllHilbs`, by an
exception of the Hilbert basis computation, or by a poll that found the flag
set; the last component counts the polls made so far. -/
inductive Collected where
  | done : List HilbEntry → Nat → Collected
  | failed : Nat → Collected
  | interrupted : Nat → Collected
deriving DecidableEq

/-- The collecting loop of `make_unimodular` over the positions of all cells,
with its interruption point at the beginning of every pass. -/
def collect_loop_poll (flag : Nat → Bool) (K : Kernel) (C : ConeCollection) :
    List (Nat × Nat) → List HilbEntry → Nat → Collected
  | [], AllHilbs, t => Collected.done AllHilbs t
  | p :: ps, AllHilbs, t =>
    if flag t then Collected.interrupted t
    else
      match C.cell p.1 p.2 with
      | none => collect_loop_poll flag K C ps AllHilbs (t + 1)
      | some mc =>
        if mc.multiplicity = 1 then collect_loop_poll flag K C ps AllHilbs (t + 1)
        else if ¬ mc.Daughters.isEmpty then collect_loop_poll flag K C ps AllHilbs (t + 1)
        else
          match K.hilbert_basis (submatrix C.Generators mc.GenKeys) with
          | none => Collected.failed (t + 1)
          | some HB =>
            collect_loop_poll flag K C ps
              (AllHilbs ++ (HB.filter fun H => H ∉ C.AllRays).map fun H => (H, p.1, p.2)) (t + 1)

/-- The inserting loop of `make_unimodular` with the interruption points of
the calls of `MiniCone::refine`. -/
def insert_loop_poll (flag : Nat → Bool) (K : Kernel) :
    List HilbEntry → InsertState → Nat → Polled
  | [], s, t => Polled.returned s.coll t
  | H :: L, s, t =>
    let C1 := s.coll.ensure_level
    let s1 : InsertState :=
      if H.1 ≠ s.last_inserted then
        { coll := { C1 with Generators := C1.Generators ++ [H.1] }, last_inserted := H.1,
          key := C1.Generators.length }
      else { s with coll := C1 }
    match MiniCone.refine_poll flag K s1.key s1.coll.Members.length H.2.1 H.2.2 s1.coll t with
    | Polled.interrupted R t1 => Polled.interrupted R t1
    | Polled.returned R t1 => insert_loop_poll flag K L { s1 with coll := R } t1

/-- How a run of `make_unimodular` that polls the interruption flag ends. -/
inductive PolledOutcome where
  | returned : ConeCollection → Nat → PolledOutcome
  | oracle_failed : ConeCollection → Nat → PolledOutcome
  | interrupted : ConeCollection → Nat → PolledOutcome
  | out_of_fuel : PolledOutcome
deriving DecidableEq

/-- The source's `ConeCollection::make_unimodular` with its interruption
points: the poll of the collecting loop and the polls of the calls of
`MiniCone::refine` in the inserting loop; the first argument bounds the number
of passes of the `while(true)` loop. -/
def ConeCollection.make_unimodular_poll (flag : Nat → Bool) (K : Kernel) :
    Nat → ConeCollection → Nat → PolledOutcome
  | 0, _, _ => PolledOutcome.out_of_fuel
  | n + 1, C, t =>
    match collect_loop_poll flag K C C.positions [] t with
    | Collected.interrupted t1 => PolledOutcome.interrupted C t1
    | Collected.failed t1 => PolledOutcome.oracle_failed C t1
    | Collected.done AllHilbs t1 =>
      if AllHilbs.isEmpty then PolledOutcome.returned C t1
      else
        match insert_loop_poll flag K (sort_hilbs AllHilbs)
            { coll := C, last_inserted := [], key := C.Generators.length } t1 with
        | Polled.interrupted R t2 => PolledOutcome.interrupted R t2
        | Polled.returned R t2 => ConeCollection.make_unimodular_poll flag K n R t2

/-- The forest `R1` mends the forest `R` that an exception left: `R1` is `R`,
or `R` is the forest after some but not all passes of a subdivision loop of
`MiniCone::refine` and `R1` is the forest after the remaining passes. In both
cases `R1` has the generator table and the number of level-0 cells of `R`,
every cell of `R` is a cell of `R1` with the same keys, and every cell of `R`
without daughters is a cell of `R1`. -/
def Mends (K : Kernel) (R R1 : ConeCollection) : Prop :=
  (R1 = R ∨ ∃ key mc j done rest C0, rest ≠ [] ∧
    R = List.foldl (subdivide_step K key mc) C0 (j :: done) ∧
    R1 = List.foldl (subdivide_step K key mc) R rest) ∧
  R1.Generators = R.Generators ∧
  (R1.Members.getD 0 []).length = (R.Members.getD 0 []).length ∧
  Extends R R1 ∧
  ∀ k i A, R.cell k i = some A → A.Daughters = [] → R1.cell k i = some A




/-! ## Pruned descent and leaf-wise insertion -/

/-- The leaf-local rule of the insertion of the ray `key`, applied to the cell
at the position `p`: nothing for a cell with daughters, for a cell with a
negative facet value (facet test) and for a cell with exactly one positive
facet value (degenerate test); otherwise the subdivision of `MiniCone::refine`,
one child per positive facet value. -/
def leaf_rule (K : Kernel) (key : Nat) (C : ConeCollection) (p : Nat × Nat) : ConeCollection :=
  match C.cell p.1 p.2 with
  | none => C
  | some mc =>
    if mc.Daughters.length > 0 then C
    else
      match facet_loop (row C.Generators key) (mc.hyperplanes K C.Generators) 0 [] with
      | none => C
      | some opp => if opp.length = 1 then C else opp.foldl (subdivide_step K key mc) C

/-- The positions of the leaves, the cells without daughters. -/
def ConeCollection.leaf_positions (C : ConeCollection) : List (Nat × Nat) :=
  C.positions.filter fun p =>
    match C.cell p.1 p.2 with
    | some mc => mc.Daughters.isEmpty
    | none => false

/-- Leaf-wise insertion of the ray `key`: room for a new level is made as in
`ConeCollection::refine`, and the leaf-local rule is applied to every leaf of
the forest. -/
def ConeCollection.leafwise_refine (K : Kernel) (C : ConeCollection) (key : Nat) :
    ConeCollection :=
  C.ensure_level.leaf_positions.foldl (leaf_rule K key) C.ensure_level

/-- The cells of `R` that are not cells of `C`: for every cell of `R` and every
daughter of it at a position that `C` does not have, the level and the place of
the cell, and the keys and the multiplicity of the daughter. -/
def ConeCollection.new_cells (C R : ConeCollection) : List (Nat × Nat × List Nat × Int) :=
  R.positions.flatMap fun p =>
    match R.cell p.1 p.2 with
    | none => []
    | some mp =>
      (mp.Daughters.filter fun d => decide ((C.Members.getD (p.1 + 1) []).length ≤ d)).filterMap
        fun d => (R.cell (p.1 + 1) d).map fun c => (p.1, p.2, c.GenKeys, c.multiplicity)

/-- The leaf-local rule gives the cell at `(k, p)` of `C` a child with the keys
`G` and the multiplicity `m`: the cell has no daughters, no facet value of the
ray `key` is negative, not exactly one is positive, and `G` replaces the key
opposite to a positive facet by `key`. -/
def LeafChild (K : Kernel) (key : Nat) (C : ConeCollection) (k p : Nat) (G : List Nat)
    (m : Int) : Prop :=
  ∃ mc opp j, C.cell k p = some mc ∧ mc.Daughters = [] ∧
    facet_loop (row C.Generators key) (mc.hyperplanes K C.Generators) 0 [] = some opp ∧
    opp.length ≠ 1 ∧ j ∈ opp ∧ G = child_keys mc.GenKeys key j ∧
    m = K.vol (submatrix C.Generators G)

/-- The forest `C2` is the forest `C0` after the leaf-local rule for the ray
`key` was applied to some of its leaves and facets were cached: the cells of
`C0` are there with their keys and facets, the generator table is that of `C0`,
and every daughter at a position that `C0` does not have is a child that the
leaf-local rule gives its mother. -/
structure Leafwise (K : Kernel) (key : Nat) (C0 C2 : ConeCollection) : Prop where
  ext : Extends C0 C2
  gens : C2.Generators = C0.Generators
  facets : ∀ k p m m2, C0.cell k p = some m → C2.cell k p = some m2 →
    m2.hyperplanes K C2.Generators = m.hyperplanes K C0.Generators
  born : ∀ k p m2 d, C2.cell k p = some m2 → d ∈ m2.Daughters →
    (C0.Members.getD (k + 1) []).length ≤ d →
    ∃ c, C2.cell (k + 1) d = some c ∧ LeafChild K key C0 k p c.GenKeys c.multiplicity

/-- The forest `R` has every child that the leaf-local rule gives the cell at
`(k, q)` of `C0`, as a daughter of that cell at a position that `C0` does not
have. -/
def Done (K : Kernel) (key : Nat) (C0 R : ConeCollection) (k q : Nat) : Prop :=
  ∀ G m, LeafChild K key C0 k q G m →
    ∃ mq d c, R.cell k q = some mq ∧ d ∈ mq.Daughters ∧
      (C0.Members.getD (k + 1) []).length ≤ d ∧ R.cell (k + 1) d = some c ∧
      c.GenKeys = G ∧ c.multiplicity = m

/-- The cell at `(lvl, plc)` of `C0` and the cells below it have in `C2` the
daughters they have in `C0`. -/
def Untouched (C0 C2 : ConeCollection) (lvl plc : Nat) : Prop :=
  ∀ n q m, below C0 n lvl plc q → C0.cell (lvl + n) q = some m →
    ∃ m2, C2.cell (lvl + n) q = some m2 ∧ m2.Daughters = m.Daughters

/-- The ray `key` passes the tests of `MiniCone::refine` on the cell `mc`: no
facet value is negative and not exactly one is positive. -/
def MiniCone.passes (K : Kernel) (key : Nat) (G : Mat) (mc : MiniCone) : Prop :=
  ∃ opp, facet_loop (row G key) (mc.hyperplanes K G) 0 [] = some opp ∧ opp.length ≠ 1

/-- The position `q` of level `k + n` is reached from the position `p` of level
`k` by `n` steps from a cell on which the ray `key` passes the tests of
`MiniCone::refine` to one of its daughters: the walk of `refine(key)` from the
cell at `(k, p)` is not pruned before it arrives at `q`. -/
def descends (K : Kernel) (key : Nat) (C : ConeCollection) : Nat → Nat → Nat → Nat → Prop
  | 0, _, p, q => q = p
  | n + 1, k, p, q => ∃ mp d, C.cell k p = some mp ∧ mp.passes K key C.Generators ∧
      d ∈ mp.Daughters ∧ descends K key C n (k + 1) d q




/-- The ray of `key` lies in the cone of the cell `X`, with at least two
positive facet values. -/
def MiniCone.splits (n key : Nat) (C : ConeCollection) (X : MiniCone) : Prop :=
  in_cone n (C.gens X) (rvec n (row C.Generators key) : Fin n → ℚ) ∧
    2 ≤ (positive_positions (row C.Generators key) (exact_simplex_data (C.gens X)) 0).length




/-- The forest `make_unimodular` leaves in the concrete scenario, with the
vector `(2,1)` appended to the generator table as the unknown ray 3. -/
def ray_forest : ConeCollection := scenario_result.add_extra_generators [[2, 1]]


/-! ## Definitions for what a walk changes and for the end of the rounds -/

/-- The forest `R` has the generator table and the flag of `C`, no level of `R`
has fewer cells than it has in `C`, and the known rays of `R` are those of `C`
together with the rays of the keys of the cells that `R` has and `C` has not. -/
structure Appends (C R : ConeCollection) : Prop where
  gens : R.Generators = C.Generators
  tri : R.is_triangulation = C.is_triangulation
  len : ∀ l, (C.Members.getD l []).length ≤ (R.Members.getD l []).length
  rays : ∀ x, x ∈ R.AllRays ↔ x ∈ C.AllRays ∨
    ∃ k i c, (C.Members.getD k []).length ≤ i ∧ R.cell k i = some c ∧
      ∃ g ∈ c.GenKeys, x = row C.Generators g

/-- Every cell of `C` has in `R` the facets it has in `C`, or the facets that
`refine` caches for it. -/
def Caches (K : Kernel) (C R : ConeCollection) : Prop :=
  R.Generators = C.Generators ∧
  ∀ k i mc, C.cell k i = some mc → ∃ mc1, R.cell k i = some mc1 ∧ mc1.GenKeys = mc.GenKeys ∧
    (mc1.SupportHyperplanes = mc.SupportHyperplanes ∨
      mc1.SupportHyperplanes = mc.hyperplanes K C.Generators)

/-- The largest value of the vector `v` on the rows of `SH`, and 0 when no
value is positive. -/
def wmax (SH : Mat) (v : Vec) : Int := (SH.map (v_scalar_product v)).foldr max 0

/-- The rows of the keys `keys` lie in the parallelepiped of the rows of `M`
(their values on the facets of `M` are between 0 and the volume of `M`), and
the volume they span, counted in units of the volume of `M`, is at most the
product of their largest coordinates in the basis of the rows of `M`. -/
def Within (n : Nat) (M G : Mat) (keys : List Nat) : Prop :=
  (∀ g ∈ keys, ∀ h ∈ exact_simplex_data M,
    0 ≤ v_scalar_product (row G g) h ∧ v_scalar_product (row G g) h ≤ exact_vol M) ∧
  exact_vol (submatrix G keys) * exact_vol M ^ (n - 1)
    ≤ (keys.map fun g => wmax (exact_simplex_data M) (row G g)).prod

/-- The rows of the keys lie in the parallelepiped of the rows of `M` as in
`Within`, and one of them lies in the half-open parallelepiped. -/
def Smaller (n : Nat) (M G : Mat) (keys : List Nat) : Prop :=
  Within n M G keys ∧ ∃ g ∈ keys, wmax (exact_simplex_data M) (row G g) < exact_vol M

/-- Every cell spans a non-degenerate simplex on `n` rows of the generator
table, and its cached facets, if any, are those of the concrete kernel. -/
def ConeCollection.simplex_ok (n : Nat) (C : ConeCollection) : Prop :=
  ∀ k i mc, C.cell k i = some mc →
    mc.GenKeys.length = n ∧ (∀ g ∈ mc.GenKeys, g < C.Generators.length) ∧
    det (C.gens mc) ≠ 0 ∧
    (mc.SupportHyperplanes = [] ∨ mc.SupportHyperplanes = exact_simplex_data (C.gens mc))

/-- In the course of a round that began in the forest `C0`: every cell that
`C0` has not lies below a cell of `C0` without daughters at one of the
positions `ps`, in the parallelepiped of that cell, with a row in the half-open
parallelepiped. -/
def Shrunk (n : Nat) (C0 : ConeCollection) (ps : List (Nat × Nat)) (R : ConeCollection) :
    Prop :=
  ∀ l q Y, R.cell l q = some Y → C0.cell l q = none →
    ∃ k i L m, (k, i) ∈ ps ∧ C0.cell k i = some L ∧ L.Daughters = [] ∧ l = k + m ∧
      below R m k i q ∧ Smaller n (C0.gens L) R.Generators Y.GenKeys

/-- The state of the forest in the course of a call of `MiniCone::refine` in a
round that began in the forest `C0`, when the generator table is `G`. -/
structure CallState (n : Nat) (C0 : ConeCollection) (ps : List (Nat × Nat)) (G : Mat)
    (R : ConeCollection) : Prop where
  gens : R.Generators = G
  simplex : R.simplex_ok n
  coords : R.coords_ok
  ext : Extends C0 R
  kin : kin C0 C0.Generators.length R
  shrunk : Shrunk n C0 ps R

/-- Modelled from the spec: what the proofs of termination use of the Hilbert
basis computation ("returns its minimal generating lattice points"), whose code
is not part of the sources at hand.  A point the oracle returns for `n`
linearly independent rows is one of the rows, or it lies on the extreme ray of
a row (the row is a positive multiple of it, as for a row that is not
primitive), or it lies in the half-open parallelepiped of the rows (its value
on every facet is at least 0 and less than the volume) and on no extreme ray
(two of the values are positive).  The elements of the Hilbert basis of every
simplicial cone are of one of these three kinds. -/
def oracle_boxed (n : Nat) (hb : Mat → Option (List Vec)) : Prop :=
  ∀ M HB x, hb M = some HB → x ∈ HB → M.length = n → det M ≠ 0 →
    x ∈ M ∨
    (∃ g ∈ M, ∃ c : ℚ, 0 < c ∧ (rvec n g : Fin n → ℚ) = c • rvec n x) ∨
    ((∀ h ∈ exact_simplex_data M,
        0 ≤ v_scalar_product x h ∧ v_scalar_product x h < exact_vol M) ∧
      2 ≤ (positive_positions x (exact_simplex_data M) 0).length)

/-- No row of the table `G` is a positive multiple of a point of the oracle
other than itself: the rows are primitive, when the points of the oracle
are. -/
def rows_primitive (n : Nat) (hb : Mat → Option (List Vec)) (G : Mat) : Prop :=
  ∀ g ∈ G, ∀ M L x, hb M = some L → x ∈ L →
    ∀ c : ℚ, 0 < c → (rvec n g : Fin n → ℚ) = c • rvec n x → g = x

/-- The multiplicity stored in every cell is the volume of the rows of its
keys. -/
def ConeCollection.vol_ok (C : ConeCollection) : Prop :=
  ∀ k i mc, C.cell k i = some mc → mc.multiplicity = exact_vol (C.gens mc)

/-- The multiplicity of the cell at a position, as a natural number. -/
def ConeCollection.cell_mult (C : ConeCollection) (p : Nat × Nat) : Nat :=
  match C.cell p.1 p.2 with
  | some mc => mc.multiplicity.toNat
  | none => 0

/-- The largest multiplicity of a cell for which the collecting loop of
`make_unimodular` finds a point, and 0 when it finds none. -/
def ConeCollection.active_max (K : Kernel) (C : ConeCollection) : Nat :=
  (((C.collect K).getD []).map fun H => C.cell_mult (H.2.1, H.2.2)).foldr max 0

/-! ## The export `getKeysAndMult` -/

theorem foldl_range_index {α β : Type} (l : List α) (g : β → Nat → β) (f : β → α → β)
    (h : ∀ b i a, l[i]? = some a → g b i = f b a) (b : β) :
    (List.range l.length).foldl g b = l.foldl f b := by
  induction l using List.reverseRecOn generalizing b with
  | nil => rfl
  | append_singleton l a ih =>
    have h1 : ∀ b i a1, l[i]? = some a1 → g b i = f b a1 := by
      intro b i a1 hi
      apply h
      have hlt : i < l.length := by
        rcases Nat.lt_or_ge i l.length with hlt | hge
        · exact hlt
        · rw [List.getElem?_eq_none hge] at hi; cases hi
      rw [List.getElem?_append_left hlt]; exact hi
    have h2 : g (List.foldl f b l) l.length = f (List.foldl f b l) a := by
      apply h
      simp
    simp [List.range_succ, List.foldl_append, ih h1, h2]

theorem foldl_leaf_push (L : List MiniCone) (acc : List (List Nat × Int)) :
    L.foldl (fun acc mc => if mc.Daughters.length = 0
        then acc ++ [(mc.GenKeys, mc.multiplicity)] else acc) acc
      = acc ++ (L.filter MiniCone.is_leaf).map fun mc => (mc.GenKeys, mc.multiplicity) := by
  induction L generalizing acc with
  | nil => simp
  | cons mc L ih =>
    simp only [List.foldl_cons, ih, List.filter_cons, MiniCone.is_leaf]
    by_cases hd : mc.Daughters = [] <;> simp [hd]

/-- The inner loop of `getKeysAndMult` over the cells of level `k`. -/
theorem leaf_loop_level (C : ConeCollection) (k : Nat) (L : List MiniCone)
    (acc : List (List Nat × Int)) (hk : C.Members[k]? = some L) :
    (List.range (C.Members.getD k []).length).foldl
      (fun KeysAndMult i =>
        match C.cell k i with
        | some mc =>
          if mc.Daughters.length = 0 then KeysAndMult ++ [(mc.GenKeys, mc.multiplicity)]
          else KeysAndMult
        | none => KeysAndMult) acc
      = acc ++ (L.filter MiniCone.is_leaf).map fun mc => (mc.GenKeys, mc.multiplicity) := by
  have hL : C.Members.getD k [] = L := by simp [List.getD, hk]
  rw [hL, ← foldl_leaf_push]
  apply foldl_range_index
  intro b i a hi
  simp [ConeCollection.cell, List.getD, hk, hi]

/-- The outer loop of `getKeysAndMult` over the levels. -/
theorem leaf_loop_levels (Ms : List (List MiniCone)) :
    ∀ acc : List (List Nat × Int),
      Ms.foldl (fun acc L => acc ++ (L.filter MiniCone.is_leaf).map
        fun mc => (mc.GenKeys, mc.multiplicity)) acc
        = acc ++ (Ms.flatten.filter MiniCone.is_leaf).map
            fun mc => (mc.GenKeys, mc.multiplicity) := by
  induction Ms with
  | nil => simp
  | cons L Ms ih => intro acc; simp [ih]

/-- The export is the list of the leaves, level by level. -/
theorem getKeysAndMult_leaves (C : ConeCollection) : C.getKeysAndMult = C.leaf_pairs := by
  unfold ConeCollection.getKeysAndMult ConeCollection.leaf_pairs
  rw [foldl_range_index C.Members _ _ (fun b i a hi => leaf_loop_level C i a b hi),
    leaf_loop_levels]
  simp

/-- C7. `getKeysAndMult` returns exactly the pairs `(GenKeys, multiplicity)` of
the cells with empty `Daughters`, one per such cell and none for a cell with
daughters, in increasing level and, within a level, increasing position. -/
theorem getKeysAndMult_eq_leaf_pairs (C : ConeCollection) :
    C.getKeysAndMult = C.leaf_pairs := by
  unfold ConeCollection.getKeysAndMult ConeCollection.leaf_pairs
  have inner : ∀ (k : Nat) (L : List MiniCone) (acc : List (List Nat × Int)),
      C.Members[k]? = some L →
      (List.range (C.Members.getD k []).length).foldl
        (fun KeysAndMult i =>
          match C.cell k i with
          | some mc =>
            if mc.Daughters.length = 0 then KeysAndMult ++ [(mc.GenKeys, mc.multiplicity)]
            else KeysAndMult
          | none => KeysAndMult) acc
        = acc ++ (L.filter MiniCone.is_leaf).map fun mc => (mc.GenKeys, mc.multiplicity) := by
    intro k L acc hk
    have hL : C.Members.getD k [] = L := by simp [List.getD, hk]
    rw [hL, ← foldl_leaf_push]
    apply foldl_range_index
    intro b i a hi
    simp [ConeCollection.cell, List.getD, hk, hi]
  have outer : ∀ (Ms : List (List MiniCone)) (acc : List (List Nat × Int)),
      Ms.foldl (fun acc L => acc ++ (L.filter MiniCone.is_leaf).map
        fun mc => (mc.GenKeys, mc.multiplicity)) acc
        = acc ++ (Ms.flatten.filter MiniCone.is_leaf).map
            fun mc => (mc.GenKeys, mc.multiplicity) := by
    intro Ms
    induction Ms with
    | nil => simp
    | cons L Ms ih => intro acc; simp [ih]
  rw [foldl_range_index C.Members _ _ (fun b i a hi => inner i a b hi), outer]
  simp


theorem cell_of_mem_flatten (C : ConeCollection) (mc : MiniCone) (h : mc ∈ C.Members.flatten) :
    ∃ k i, C.cell k i = some mc := by
  rw [List.mem_flatten] at h
  obtain ⟨L, hL, hmc⟩ := h
  obtain ⟨k, hk, rfl⟩ := List.getElem_of_mem hL
  obtain ⟨i, hi, rfl⟩ := List.getElem_of_mem hmc
  refine ⟨k, i, ?_⟩
  simp [ConeCollection.cell, List.getD, hk, hi]

theorem mem_flatten_of_cell (C : ConeCollection) (k i : Nat) (mc : MiniCone)
    (h : C.cell k i = some mc) : mc ∈ C.Members.flatten := by
  unfold ConeCollection.cell at h
  rw [List.mem_flatten]
  have hk : k < C.Members.length := by
    by_contra hk
    simp [List.getD, List.getElem?_eq_none (Nat.le_of_not_lt hk)] at h
  refine ⟨C.Members[k], List.getElem_mem hk, ?_⟩
  simp [List.getD, List.getElem?_eq_getElem hk] at h
  exact List.getElem?_mem h

theorem mem_eligible (C : ConeCollection) (k i : Nat) :
    (k, i) ∈ C.eligible ↔
      ∃ mc, C.cell k i = some mc ∧ mc.multiplicity ≠ 1 ∧ mc.Daughters = [] := by
  unfold ConeCollection.eligible
  simp only [List.mem_flatMap, List.mem_filterMap, List.mem_range]
  constructor
  · rintro ⟨k1, _, i1, _, h⟩
    cases hc : C.cell k1 i1 with
    | none => simp [hc] at h
    | some mc =>
      simp only [hc] at h
      by_cases h1 : mc.multiplicity = 1
      · simp [h1] at h
      · by_cases h2 : mc.Daughters = []
        · simp [h1, h2] at h
          obtain ⟨rfl, rfl⟩ := h
          exact ⟨mc, hc, h1, h2⟩
        · simp [h1, h2] at h
  · rintro ⟨mc, hc, h1, h2⟩
    have hc1 := hc
    unfold ConeCollection.cell at hc1
    have hk : k < C.Members.length := by
      by_contra hk
      simp [List.getD, List.getElem?_eq_none (Nat.le_of_not_lt hk)] at hc1
    have hi : i < (C.Members.getD k []).length := by
      by_contra hi
      rw [List.getElem?_eq_none (Nat.le_of_not_lt hi)] at hc1
      cases hc1
    exact ⟨k, hk, i, hi, by simp [hc, h1, h2]⟩

theorem collect_loop_nil (K : Kernel) (C : ConeCollection) (ps : List (Nat × Nat))
    (acc : List HilbEntry) (h : collect_loop K C ps acc = some []) :
    acc = [] ∧ ∀ p ∈ ps, collect_cell K C p = some [] := by
  induction ps generalizing acc with
  | nil => simp [collect_loop] at h; simp [h]
  | cons p ps ih =>
    unfold collect_loop at h
    cases hp : collect_cell K C p with
    | none => simp [hp] at h
    | some E =>
      simp only [hp] at h
      obtain ⟨h1, h2⟩ := ih _ h
      simp only [List.append_eq_nil] at h1
      obtain ⟨rfl, rfl⟩ := h1
      refine ⟨rfl, ?_⟩
      intro q hq
      rcases List.mem_cons.mp hq with rfl | hq
      · exact hp
      · exact h2 q hq

theorem returned_collect (K : Kernel) (n : Nat) (C C1 : ConeCollection)
    (h : C.make_unimodular K n = Outcome.returned C1) : C1.collect K = some [] := by
  induction n generalizing C with
  | zero => simp [ConeCollection.make_unimodular] at h
  | succ n ih =>
    unfold ConeCollection.make_unimodular at h
    cases hc : C.collect K with
    | none => simp [hc] at h
    | some A =>
      simp only [hc] at h
      by_cases hA : A.isEmpty = true
      · simp only [hA, if_true] at h
        injection h with h
        subst h
        rw [hc]
        simpa using hA
      · simp only [hA] at h
        exact ih _ h

/-- C1 (amended). Whenever `make_unimodular` returns normally, every pair
returned by `getKeysAndMult` has multiplicity 1 or belongs to a leaf for which
the oracle's Hilbert basis lies entirely in `AllRays`, so that the last pass
collected no point for it. -/
theorem make_unimodular_returned_leaves (K : Kernel) (n : Nat) (C C1 : ConeCollection)
    (h : C.make_unimodular K n = Outcome.returned C1) :
    ∀ p ∈ C1.getKeysAndMult, p.2 = 1 ∨
      ∃ k i mc HB, C1.cell k i = some mc ∧ mc.Daughters = [] ∧
        p = (mc.GenKeys, mc.multiplicity) ∧
        K.hilbert_basis (submatrix C1.Generators mc.GenKeys) = some HB ∧
        ∀ H ∈ HB, H ∈ C1.AllRays := by
  intro p hp
  rw [getKeysAndMult_leaves] at hp
  unfold ConeCollection.leaf_pairs at hp
  simp only [List.mem_map, List.mem_filter] at hp
  obtain ⟨mc, ⟨hmem, hleaf⟩, rfl⟩ := hp
  by_cases h1 : mc.multiplicity = 1
  · exact Or.inl h1
  · right
    obtain ⟨k, i, hc⟩ := cell_of_mem_flatten C1 mc hmem
    have hD : mc.Daughters = [] := by simpa [MiniCone.is_leaf] using hleaf
    have hel : (k, i) ∈ C1.eligible := (mem_eligible C1 k i).mpr ⟨mc, hc, h1, hD⟩
    have hcol := returned_collect K n C C1 h
    have hcell := (collect_loop_nil K C1 _ _ hcol).2 _ hel
    unfold collect_cell at hcell
    simp only [hc] at hcell
    cases hb : K.hilbert_basis (submatrix C1.Generators mc.GenKeys) with
    | none => simp [hb] at hcell
    | some HB =>
      simp only [hb] at hcell
      refine ⟨k, i, mc, HB, hc, hD, rfl, hb, ?_⟩
      intro H hH
      simp only [Option.some.injEq, List.map_eq_nil_iff, List.filter_eq_nil_iff] at hcell
      simpa using hcell H hH

theorem eligible_nil_of_unimodular (C : ConeCollection)
    (h : ∀ k i mc, C.cell k i = some mc → mc.Daughters = [] → mc.multiplicity = 1) :
    C.eligible = [] := by
  apply List.eq_nil_iff_forall_not_mem.mpr
  rintro ⟨k, i⟩ hmem
  obtain ⟨mc, hc, h1, h2⟩ := (mem_eligible C k i).mp hmem
  exact h1 (h k i mc hc h2)

/-- C8. If every leaf has multiplicity 1, no cell passes the guards in front
of the oracle call (the oracle is not invoked, whatever it is), and
`make_unimodular` returns in its first pass with the collection unchanged, so
that `getKeysAndMult` returns the same sequence as before. -/
theorem make_unimodular_noop (K : Kernel) (C : ConeCollection)
    (h : ∀ k i mc, C.cell k i = some mc → mc.Daughters = [] → mc.multiplicity = 1) :
    C.eligible = [] ∧ C.make_unimodular K 1 = Outcome.returned C ∧
      ∀ C1, C.make_unimodular K 1 = Outcome.returned C1 →
        C1.Members = C.Members ∧ C1.Generators = C.Generators ∧ C1.AllRays = C.AllRays ∧
        C1.getKeysAndMult = C.getKeysAndMult := by
  have he := eligible_nil_of_unimodular C h
  have hr : C.make_unimodular K 1 = Outcome.returned C := by
    simp [ConeCollection.make_unimodular, ConeCollection.collect, he, collect_loop]
  refine ⟨he, hr, ?_⟩
  intro C1 h1
  rw [hr] at h1
  injection h1 with h1
  subst h1
  exact ⟨rfl, rfl, rfl, rfl⟩


/-! ## The concrete scenarios -/

/-- C6. Concrete scenario: on the forest with generators `(1,0)`, `(1,2)`, one
level-0 cell `{0,1}` of multiplicity 2, with exact determinants and an oracle
that returns the Hilbert basis `(1,0)`, `(1,1)`, `(1,2)` for that cell,
`make_unimodular` returns in its second pass; it has appended `(1,1)` as ray
index 2, and `getKeysAndMult` then returns exactly two pairs, with the ray sets
`(1,2)`, `(1,1)` and `(1,0)`, `(1,1)`, each of multiplicity 1. -/
theorem make_unimodular_scenario (hb : Mat → Option (List Vec))
    (h : hb [[1, 0], [1, 2]] = some [[1, 0], [1, 1], [1, 2]]) :
    scenario_forest.make_unimodular (exactKernel hb) 2 = Outcome.returned scenario_result ∧
    scenario_result.Generators = scenario_forest.Generators ++ [[1, 1]] ∧
    row scenario_result.Generators 2 = [1, 1] ∧
    scenario_result.getKeysAndMult = [([1, 2], 1), ([0, 2], 1)] ∧
    submatrix scenario_result.Generators [1, 2] = [[1, 2], [1, 1]] ∧
    submatrix scenario_result.Generators [0, 2] = [[1, 0], [1, 1]] := by
  refine ⟨?_, rfl, rfl, rfl, rfl, rfl⟩
  have hc : scenario_forest.collect (exactKernel hb) = some [([1, 1], 0, 0)] := by
    show collect_loop (exactKernel hb) scenario_forest [(0, 0)] [] = _
    have hcell : collect_cell (exactKernel hb) scenario_forest (0, 0)
        = some [([1, 1], 0, 0)] := by
      show (match hb [[1, 0], [1, 2]] with
        | none => none
        | some HB => some ((HB.filter fun H => H ∉ scenario_forest.AllRays).map
            fun H => (H, 0, 0))) = _
      rw [h]
      rfl
    simp only [collect_loop, hcell]
    rfl
  have hr : insert_hilbs (exactKernel hb) scenario_forest (sort_hilbs [([1, 1], 0, 0)])
      = scenario_result := rfl
  have hc2 : scenario_result.collect (exactKernel hb) = some [] := rfl
  rw [ConeCollection.make_unimodular, hc]
  simp only [List.isEmpty_cons, Bool.false_eq_true, if_false]
  rw [hr, ConeCollection.make_unimodular, hc2]
  rfl

/-- Witness for `make_unimodular_scenario`: the oracle `scenario_oracle`. -/
theorem make_unimodular_scenario_witness :
    scenario_oracle [[1, 0], [1, 2]] = some [[1, 0], [1, 1], [1, 2]] ∧
    (scenario_forest.make_unimodular (exactKernel scenario_oracle) 2
        = Outcome.returned scenario_result ∧
      scenario_result.Generators = scenario_forest.Generators ++ [[1, 1]] ∧
      row scenario_result.Generators 2 = [1, 1] ∧
      scenario_result.getKeysAndMult = [([1, 2], 1), ([0, 2], 1)] ∧
      submatrix scenario_result.Generators [1, 2] = [[1, 2], [1, 1]] ∧
      submatrix scenario_result.Generators [0, 2] = [[1, 0], [1, 1]]) :=
  ⟨rfl, make_unimodular_scenario scenario_oracle rfl⟩


/-- Witness for `make_unimodular_noop`: the single simplex `(1,0)`, `(0,1)` of
multiplicity 1, with an oracle that would fail if it were invoked. -/
theorem make_unimodular_noop_witness :
    (∀ k i mc, unit_forest.cell k i = some mc → mc.Daughters = [] → mc.multiplicity = 1) ∧
    (unit_forest.eligible = [] ∧
      unit_forest.make_unimodular (exactKernel failing_oracle) 1 = Outcome.returned unit_forest ∧
      ∀ C1, unit_forest.make_unimodular (exactKernel failing_oracle) 1 = Outcome.returned C1 →
        C1.Members = unit_forest.Members ∧ C1.Generators = unit_forest.Generators ∧
        C1.AllRays = unit_forest.AllRays ∧ C1.getKeysAndMult = unit_forest.getKeysAndMult) := by
  have hu : ∀ k i mc, unit_forest.cell k i = some mc → mc.Daughters = [] →
      mc.multiplicity = 1 := by
    intro k i mc hc _
    have hm := mem_flatten_of_cell unit_forest k i mc hc
    have hflat : unit_forest.Members.flatten
        = [{ GenKeys := [0, 1], multiplicity := 1, SupportHyperplanes := [], Daughters := [],
             level := 0, my_place := 0, is_simplex := true }] := rfl
    rw [hflat, List.mem_singleton] at hm
    rw [hm]
  exact ⟨hu, make_unimodular_noop (exactKernel failing_oracle) unit_forest hu⟩

/-- C1 (counterexample). `make_unimodular` returns normally with a leaf of
multiplicity 2: on the fan `quadrant_forest`, with exact determinants and the
Hilbert bases of its two quadrants, the only new point `(1,0)` of the first
quadrant is known from the second; and on the scenario forest with an oracle
that returns the empty basis. -/
theorem make_unimodular_returns_multiplicity_two :
    (quadrant_forest.make_unimodular (exactKernel quadrant_oracle) 1
        = Outcome.returned quadrant_forest ∧
      quadrant_forest.getKeysAndMult = [([0, 1], 2), ([2, 3], 1)] ∧
      exact_vol (submatrix quadrant_forest.Generators [0, 1]) = 2) ∧
    (scenario_forest.make_unimodular (exactKernel empty_oracle) 1
        = Outcome.returned scenario_forest ∧
      scenario_forest.getKeysAndMult = [([0, 1], 2)]) := by
  refine ⟨⟨rfl, rfl, rfl⟩, rfl, rfl⟩

/-- Witness for `make_unimodular_returned_leaves`: the concrete scenario. -/
theorem make_unimodular_returned_leaves_witness :
    scenario_forest.make_unimodular (exactKernel scenario_oracle) 2
      = Outcome.returned scenario_result ∧
    ∀ p ∈ scenario_result.getKeysAndMult, p.2 = 1 ∨
      ∃ k i mc HB, scenario_result.cell k i = some mc ∧ mc.Daughters = [] ∧
        p = (mc.GenKeys, mc.multiplicity) ∧
        (exactKernel scenario_oracle).hilbert_basis
          (submatrix scenario_result.Generators mc.GenKeys) = some HB ∧
        ∀ H ∈ HB, H ∈ scenario_result.AllRays :=
  ⟨rfl, make_unimodular_returned_leaves (exactKernel scenario_oracle) 2 scenario_forest
    scenario_result rfl⟩


/-! ## Unfolding `MiniCone::refine` -/

theorem row_append_length (G : Mat) (v : Vec) : row (G ++ [v]) G.length = v := by
  simp [row, List.getD_eq_getElem?_getD]

theorem updateAt_length {α : Type} (f : α → α) (n : Nat) (l : List α) :
    (updateAt f n l).length = l.length := by
  induction l generalizing n with
  | nil => cases n <;> rfl
  | cons a l ih => cases n <;> simp [updateAt, ih]

theorem updateAt_getElem? {α : Type} (f : α → α) (n m : Nat) (l : List α) :
    (updateAt f n l)[m]? = if n = m then l[m]?.map f else l[m]? := by
  induction l generalizing n m with
  | nil => cases n <;> simp [updateAt]
  | cons a l ih =>
    cases n with
    | zero => cases m <;> simp [updateAt]
    | succ n =>
      cases m with
      | zero => simp [updateAt]
      | succ m => simp [updateAt, ih]

theorem updateAt_id_of_getElem? {α : Type} (f : α → α) (n : Nat) (l : List α) (a : α)
    (h : l[n]? = some a) (hf : f a = a) : updateAt f n l = l := by
  induction l generalizing n with
  | nil => cases n <;> rfl
  | cons b l ih =>
    cases n with
    | zero =>
      simp at h
      subst h
      simp [updateAt, hf]
    | succ n =>
      simp at h
      simp [updateAt, ih n h]

theorem updateAt_congr {α : Type} (f g : α → α) (n : Nat) (l : List α)
    (h : ∀ a, l[n]? = some a → f a = g a) : updateAt f n l = updateAt g n l := by
  induction l generalizing n with
  | nil => cases n <;> rfl
  | cons b l ih =>
    cases n with
    | zero => simp [updateAt, h b (by simp)]
    | succ n =>
      simp only [updateAt]
      rw [ih n (fun a ha => h a (by simpa using ha))]

theorem updateCell_congr (C : ConeCollection) (lvl plc : Nat) (f g : MiniCone → MiniCone)
    (h : ∀ mc, C.cell lvl plc = some mc → f mc = g mc) :
    C.updateCell lvl plc f = C.updateCell lvl plc g := by
  unfold ConeCollection.updateCell
  congr 1
  apply updateAt_congr
  intro L hL
  apply updateAt_congr
  intro mc hmc
  apply h
  simp [ConeCollection.cell, List.getD, hL, hmc]

theorem refine_succ (K : Kernel) (key fuel lvl plc : Nat) (C : ConeCollection) (mc : MiniCone)
    (hc : C.cell lvl plc = some mc) :
    MiniCone.refine K key (fuel + 1) lvl plc C =
      match facet_loop (row C.Generators key) (mc.hyperplanes K C.Generators) 0 [] with
      | none => C.cache_facets K lvl plc
      | some opp =>
        if opp.length = 1 then C.cache_facets K lvl plc
        else if mc.Daughters.length > 0 then
          mc.Daughters.foldl (fun C2 d => MiniCone.refine K key fuel (mc.level + 1) d C2)
            (C.cache_facets K lvl plc)
        else
          opp.foldl (subdivide_step K key mc) (C.cache_facets K lvl plc) := by
  have hcf : C.updateCell lvl plc
      (fun m => { m with SupportHyperplanes := mc.hyperplanes K C.Generators })
      = C.cache_facets K lvl plc := by
    unfold ConeCollection.cache_facets
    apply updateCell_congr
    intro m hm
    rw [hc] at hm
    injection hm with hm
    subst hm
    rfl
  rw [MiniCone.refine]
  simp only [hc, hcf]

theorem refine_zero (K : Kernel) (key lvl plc : Nat) (C : ConeCollection) :
    MiniCone.refine K key 0 lvl plc C = C := by
  rw [MiniCone.refine]

theorem refine_no_cell (K : Kernel) (key fuel lvl plc : Nat) (C : ConeCollection)
    (hc : C.cell lvl plc = none) : MiniCone.refine K key fuel lvl plc C = C := by
  cases fuel with
  | zero => exact refine_zero K key lvl plc C
  | succ fuel =>
    rw [MiniCone.refine]
    simp only [hc]

/-- The facet loop on hyperplanes that vanish on the ray except for row `j`,
where the value is positive: `opposite_facets` gets the single index `j`. -/
theorem facet_loop_single (v : Vec) (SH : Mat) (i j : Nat) (opp : List Nat)
    (hj : j < SH.length)
    (h : ∀ t, t < SH.length →
      (t = j → 0 < v_scalar_product v (SH.getD t [])) ∧
      (t ≠ j → v_scalar_product v (SH.getD t []) = 0)) :
    facet_loop v SH i opp = some (opp ++ [i + j]) := by
  induction SH generalizing i j opp with
  | nil => simp at hj
  | cons r SH ih =>
    cases j with
    | zero =>
      have h0 := (h 0 (by simp)).1 rfl
      simp only [List.getD_cons_zero] at h0
      have hrest : ∀ (i1 : Nat) (opp1 : List Nat), facet_loop v SH i1 opp1 = some opp1 := by
        have hz : ∀ t, t < SH.length → v_scalar_product v (SH.getD t []) = 0 := by
          intro t ht
          have := (h (t + 1) (by simpa using ht)).2 (by omega)
          simpa using this
        clear h ih hj
        induction SH with
        | nil => intro i1 opp1; rfl
        | cons r1 SH ih1 =>
          intro i1 opp1
          have h1 := hz 0 (by simp)
          simp only [List.getD_cons_zero] at h1
          rw [facet_loop]
          simp only [h1, lt_irrefl, if_false, if_true]
          apply ih1
          intro t ht
          have := hz (t + 1) (by simpa using ht)
          simpa using this
      rw [facet_loop]
      have hn : ¬ v_scalar_product v r < 0 := not_lt.mpr (le_of_lt h0)
      have hne : ¬ v_scalar_product v r = 0 := ne_of_gt h0
      simp only [hn, hne, if_false]
      rw [hrest]
      simp
    | succ j =>
      have h0 := (h 0 (by simp)).2 (by omega)
      simp only [List.getD_cons_zero] at h0
      rw [facet_loop]
      simp only [h0, lt_irrefl, if_false, if_true]
      rw [ih (i + 1) j opp (by simpa using hj)]
      · congr 2; congr 1; omega
      · intro t ht
        have := h (t + 1) (by simpa using ht)
        simpa using this


/-! ## Degenerate insertion -/

theorem updateAt_map_comm {α β : Type} (f : α → α) (g : α → β) (n : Nat) (l : List α)
    (h : ∀ a, l[n]? = some a → g (f a) = g a) : (updateAt f n l).map g = l.map g := by
  induction l generalizing n with
  | nil => cases n <;> rfl
  | cons b l ih =>
    cases n with
    | zero => simp [updateAt, h b (by simp)]
    | succ n =>
      simp only [updateAt, List.map_cons]
      rw [ih n (fun a ha => h a (by simpa using ha))]

theorem cache_facets_uncached (K : Kernel) (C : ConeCollection) (lvl plc : Nat) :
    (C.cache_facets K lvl plc).uncached = C.uncached := by
  unfold ConeCollection.cache_facets ConeCollection.updateCell ConeCollection.uncached
  simp only
  congr 1
  apply updateAt_map_comm
  intro L _
  apply updateAt_map_comm
  intro m _
  rfl

theorem leaf_pairs_uncached (C : ConeCollection) : C.uncached.leaf_pairs = C.leaf_pairs := by
  unfold ConeCollection.leaf_pairs ConeCollection.uncached
  simp only [← List.map_flatten, List.filter_map, List.map_map]
  rfl

theorem getKeysAndMult_of_uncached_eq (C C1 : ConeCollection) (h : C1.uncached = C.uncached) :
    C1.getKeysAndMult = C.getKeysAndMult := by
  rw [getKeysAndMult_leaves, getKeysAndMult_leaves, ← leaf_pairs_uncached C1,
    ← leaf_pairs_uncached C, h]

theorem getD_submatrix (G : Mat) (keys : List Nat) (j : Nat) (hj : j < keys.length) :
    (submatrix G keys).getD j [] = row G (keys.getD j 0) := by
  simp [submatrix, List.getD_eq_getElem?_getD, List.getElem?_eq_getElem hj]

/-- C10. Degenerate no-op: when the facets of a cell are co-facet to its
spanning rays (a non-degenerate simplex) and the ray of `key` equals one of the
spanning rays, `MiniCone::refine(key)` on the cell only caches the facets: no
cell is appended anywhere, every cell keeps its keys, multiplicity, daughters
and coordinates, and the export (the leaves and their multiplicities) is
unchanged. -/
theorem refine_own_ray_noop (K : Kernel) (C : ConeCollection) (key fuel lvl plc : Nat)
    (mc : MiniCone) (j : Nat) (hc : C.cell lvl plc = some mc)
    (hco : CoFacet (mc.hyperplanes K C.Generators) (submatrix C.Generators mc.GenKeys))
    (hj : j < mc.GenKeys.length)
    (hray : row C.Generators key = row C.Generators (mc.GenKeys.getD j 0)) :
    MiniCone.refine K key (fuel + 1) lvl plc C = C.cache_facets K lvl plc ∧
    (MiniCone.refine K key (fuel + 1) lvl plc C).uncached = C.uncached ∧
    (MiniCone.refine K key (fuel + 1) lvl plc C).getKeysAndMult = C.getKeysAndMult := by
  have hlen : (submatrix C.Generators mc.GenKeys).length = mc.GenKeys.length := by
    simp [submatrix]
  have hfl : facet_loop (row C.Generators key) (mc.hyperplanes K C.Generators) 0 []
      = some [j] := by
    have := facet_loop_single (row C.Generators key) (mc.hyperplanes K C.Generators) 0 j []
      (by rw [hco.1, hlen]; exact hj)
      (by
        intro t ht
        rw [hco.1] at ht
        have h1 := hco.2 t ht j (by rw [hlen]; exact hj)
        rw [getD_submatrix _ _ _ hj, ← hray] at h1
        exact h1)
    simpa using this
  have hr : MiniCone.refine K key (fuel + 1) lvl plc C = C.cache_facets K lvl plc := by
    rw [refine_succ K key fuel lvl plc C mc hc, hfl]
    simp
  refine ⟨hr, ?_, ?_⟩
  · rw [hr, cache_facets_uncached]
  · apply getKeysAndMult_of_uncached_eq
    rw [hr, cache_facets_uncached]

set_option maxRecDepth 10000 in
/-- Witness for `refine_own_ray_noop`: the unimodular simplex `(1,0)`, `(0,1)`
and its own first ray. -/
theorem refine_own_ray_noop_witness :
    unit_forest.cell 0 0 = some
      { GenKeys := [0, 1], multiplicity := 1, SupportHyperplanes := [], Daughters := [],
        level := 0, my_place := 0, is_simplex := true } ∧
    CoFacet (exact_simplex_data [[1, 0], [0, 1]]) [[1, 0], [0, 1]] ∧
    row unit_forest.Generators 0 = row unit_forest.Generators ([0, 1].getD 0 0) ∧
    (MiniCone.refine (exactKernel failing_oracle) 0 1 0 0 unit_forest
        = unit_forest.cache_facets (exactKernel failing_oracle) 0 0 ∧
      (MiniCone.refine (exactKernel failing_oracle) 0 1 0 0 unit_forest).uncached
        = unit_forest.uncached ∧
      (MiniCone.refine (exactKernel failing_oracle) 0 1 0 0 unit_forest).getKeysAndMult
        = unit_forest.getKeysAndMult) :=
  ⟨rfl, by unfold CoFacet; decide, rfl,
    refine_own_ray_noop (exactKernel failing_oracle) unit_forest 0 0 0 0
      { GenKeys := [0, 1], multiplicity := 1, SupportHyperplanes := [], Daughters := [],
        level := 0, my_place := 0, is_simplex := true } 0 rfl
      (by unfold CoFacet; decide) (by decide) rfl⟩


/-! ## Termination of `make_unimodular` -/

theorem nonprimitive_collect (T : Mat) :
    (nonprimitive_state T).collect (exactKernel quadrant_oracle) = some [([1, 0], 0, 0)] :=
  rfl

theorem nonprimitive_insert (T : Mat) :
    insert_hilbs (exactKernel quadrant_oracle) (nonprimitive_state T)
      (sort_hilbs [([1, 0], 0, 0)]) = nonprimitive_state (T ++ [[1, 0]]) := by
  have hstep : insert_step (exactKernel quadrant_oracle)
      { coll := nonprimitive_state T, last_inserted := [],
        key := (nonprimitive_state T).Generators.length } ([1, 0], 0, 0)
      = { coll := nonprimitive_state (T ++ [[1, 0]]), last_inserted := [1, 0],
          key := (nonprimitive_state T).Generators.length } := by
    have hc : ({ (nonprimitive_state T) with
        Generators := (nonprimitive_state T).Generators ++ [[1, 0]] } : ConeCollection).cell 0 0
        = some { GenKeys := [0, 1], multiplicity := 2, SupportHyperplanes := [[1, 0], [0, 2]],
                 Daughters := [], level := 0, my_place := 0, is_simplex := true } := rfl
    show ({ coll := MiniCone.refine (exactKernel quadrant_oracle)
              (nonprimitive_state T).Generators.length 2 0 0
              { (nonprimitive_state T) with
                Generators := (nonprimitive_state T).Generators ++ [[1, 0]] },
            last_inserted := [1, 0],
            key := (nonprimitive_state T).Generators.length } : InsertState) = _
    rw [refine_succ _ _ _ _ _ _ _ hc]
    simp only [row_append_length]
    rfl
  show (List.foldl (insert_step (exactKernel quadrant_oracle)) _ [([1, 0], 0, 0)]).coll = _
  rw [List.foldl_cons, List.foldl_nil, hstep]

theorem nonprimitive_loops (n : Nat) (T : Mat) :
    (nonprimitive_state T).make_unimodular (exactKernel quadrant_oracle) n
      = Outcome.out_of_fuel := by
  induction n generalizing T with
  | zero => rfl
  | succ n ih =>
    rw [ConeCollection.make_unimodular, nonprimitive_collect]
    simp only [List.isEmpty_cons, Bool.false_eq_true, if_false]
    rw [nonprimitive_insert, ih]

/-- C2 (counterexample). On the forest loaded from the generators `(2,0)`,
`(0,1)` with their one simplex of multiplicity 2, with exact determinants and
the Hilbert basis `(1,0)`, `(0,1)` of that cone, `make_unimodular` never
returns: every pass collects `(1,0)`, appends it to `Generators` and refines
without effect, because the point lies on an extreme ray of the cell. -/
theorem make_unimodular_never_returns :
    ¬ ∃ n C1, nonprimitive_forest.make_unimodular (exactKernel quadrant_oracle) n
      = Outcome.returned C1 := by
  rintro ⟨n, C1, h⟩
  cases n with
  | zero => cases h
  | succ n =>
    have h1 : nonprimitive_forest.make_unimodular (exactKernel quadrant_oracle) (n + 1)
        = (nonprimitive_state [[1, 0]]).make_unimodular (exactKernel quadrant_oracle) n := by
      rw [ConeCollection.make_unimodular]
      rfl
    rw [h1, nonprimitive_loops] at h
    cases h


/-! ## Idempotence of `ConeCollection::refine` -/

theorem cell_updateCell_same (C : ConeCollection) (k i : Nat) (f : MiniCone → MiniCone) :
    (C.updateCell k i f).cell k i = (C.cell k i).map f := by
  unfold ConeCollection.updateCell ConeCollection.cell
  simp only [List.getD_eq_getElem?_getD, updateAt_getElem?, if_true]
  cases h : C.Members[k]? with
  | none => simp
  | some L => simp [updateAt_getElem?]

theorem cell_updateCell_other (C : ConeCollection) (k i k1 i1 : Nat) (f : MiniCone → MiniCone)
    (h : ¬ (k = k1 ∧ i = i1)) : (C.updateCell k i f).cell k1 i1 = C.cell k1 i1 := by
  unfold ConeCollection.updateCell ConeCollection.cell
  simp only [List.getD_eq_getElem?_getD, updateAt_getElem?]
  by_cases hk : k = k1
  · subst hk
    have hi : ¬ i = i1 := fun hi => h ⟨rfl, hi⟩
    simp only [if_true]
    cases hL : C.Members[k]? with
    | none => simp
    | some L => simp [updateAt_getElem?, hi]
  · simp [hk]

theorem map_length_updateAt (f : List MiniCone → List MiniCone) (n : Nat)
    (Ms : List (List MiniCone)) (h : ∀ L, (f L).length = L.length) :
    (updateAt f n Ms).map List.length = Ms.map List.length := by
  induction Ms generalizing n with
  | nil => cases n <;> rfl
  | cons L Ms ih => cases n <;> simp [updateAt, h, ih]

theorem getD_map_length (Ms : List (List MiniCone)) (k : Nat) :
    (Ms.map List.length).getD k 0 = (Ms.getD k []).length := by
  simp only [List.getD_eq_getElem?_getD, List.getElem?_map]
  cases Ms[k]? <;> rfl

theorem getD_length_of_shape (Ms Ms1 : List (List MiniCone))
    (h : Ms1.map List.length = Ms.map List.length) (k : Nat) :
    (Ms1.getD k []).length = (Ms.getD k []).length := by
  rw [← getD_map_length, ← getD_map_length, h]

theorem hyperplanes_cache (K : Kernel) (G : Mat) (m : MiniCone) :
    (m.cache K G).hyperplanes K G = m.hyperplanes K G := by
  unfold MiniCone.cache MiniCone.hyperplanes
  by_cases h : m.SupportHyperplanes.length = 0
  · simp only [h, if_true]
    split <;> rfl
  · simp [h]

theorem cache_cache (K : Kernel) (G : Mat) (m : MiniCone) :
    (m.cache K G).cache K G = m.cache K G := by
  have h := hyperplanes_cache K G m
  unfold MiniCone.cache at h ⊢
  simp only [h]

theorem cacheExt_refl (K : Kernel) (C : ConeCollection) : CacheExt K C C :=
  ⟨rfl, rfl, rfl, rfl, fun _ _ _ h => Or.inl h⟩

theorem cacheExt_trans (K : Kernel) (C C1 C2 : ConeCollection) (h1 : CacheExt K C C1)
    (h2 : CacheExt K C1 C2) : CacheExt K C C2 := by
  obtain ⟨a1, b1, c1, d1, e1⟩ := h1
  obtain ⟨a2, b2, c2, d2, e2⟩ := h2
  refine ⟨a2.trans a1, b2.trans b1, c2.trans c1, d2.trans d1, ?_⟩
  intro k i mc hc
  rcases e1 k i mc hc with h | h
  · rcases e2 k i mc h with h' | h'
    · exact Or.inl h'
    · right; rw [h', a1]
  · rcases e2 k i _ h with h' | h'
    · exact Or.inr h'
    · right; rw [h', a1, cache_cache]

theorem cacheExt_cache_facets (K : Kernel) (C : ConeCollection) (lvl plc : Nat) :
    CacheExt K C (C.cache_facets K lvl plc) := by
  refine ⟨rfl, rfl, rfl, ?_, ?_⟩
  · unfold ConeCollection.cache_facets ConeCollection.updateCell
    apply map_length_updateAt
    intro L
    exact updateAt_length _ _ _
  · intro k i mc hc
    by_cases h : lvl = k ∧ plc = i
    · obtain ⟨rfl, rfl⟩ := h
      right
      unfold ConeCollection.cache_facets
      rw [cell_updateCell_same, hc]
      rfl
    · left
      unfold ConeCollection.cache_facets
      rw [cell_updateCell_other _ _ _ _ _ _ h, hc]

theorem cell_cache_facets (K : Kernel) (C : ConeCollection) (lvl plc : Nat) (mc : MiniCone)
    (hc : C.cell lvl plc = some mc) :
    (C.cache_facets K lvl plc).cell lvl plc = some (mc.cache K C.Generators) := by
  unfold ConeCollection.cache_facets
  rw [cell_updateCell_same, hc]
  rfl

theorem settled_of_cacheExt (K : Kernel) (key fuel : Nat) :
    ∀ (lvl plc : Nat) (C C1 : ConeCollection), CacheExt K C C1 →
      settled K key fuel lvl plc C → settled K key fuel lvl plc C1 := by
  induction fuel with
  | zero => intro lvl plc C C1 _ _; simp [settled]
  | succ fuel ih =>
    intro lvl plc C C1 hext hs
    have hshape := hext
    obtain ⟨hG, _, _, hlen, hcell⟩ := hext
    unfold settled at hs ⊢
    cases hc : C.cell lvl plc with
    | none =>
      have hc1 : C1.cell lvl plc = none := by
        unfold ConeCollection.cell at hc ⊢
        have hl := getD_length_of_shape _ _ hlen lvl
        rw [List.getElem?_eq_none_iff] at hc ⊢
        rw [hl]; exact hc
      simp [hc1]
    | some mc =>
      simp only [hc] at hs
      obtain ⟨hfix, hrest⟩ := hs
      have hc1 : C1.cell lvl plc = some mc := by
        rcases hcell lvl plc mc hc with h | h
        · exact h
        · rw [h, hfix]
      simp only [hc1, hG]
      refine ⟨hfix, ?_⟩
      cases hf : facet_loop (row C.Generators key) (mc.hyperplanes K C.Generators) 0 [] with
      | none => trivial
      | some opp =>
        simp only [hf] at hrest ⊢
        by_cases h1 : opp.length = 1
        · simp [h1]
        · simp only [h1, if_false] at hrest ⊢
          by_cases h2 : mc.Daughters.length > 0
          · simp only [h2, if_true] at hrest ⊢
            intro d hd
            exact ih _ _ C C1 hshape (hrest d hd)
          · simp only [h2, if_false] at hrest ⊢
            exact hrest

theorem foldl_id_of_forall {α β : Type} (f : β → α → β) (l : List α) (b : β)
    (h : ∀ a ∈ l, f b a = b) : l.foldl f b = b := by
  induction l with
  | nil => rfl
  | cons a l ih =>
    rw [List.foldl_cons, h a (List.mem_cons_self _ _)]
    exact ih (fun x hx => h x (List.mem_cons_of_mem _ hx))

theorem cache_facets_of_fixed (K : Kernel) (C : ConeCollection) (lvl plc : Nat) (mc : MiniCone)
    (hc : C.cell lvl plc = some mc) (hfix : mc.cache K C.Generators = mc) :
    C.cache_facets K lvl plc = C := by
  unfold ConeCollection.cache_facets ConeCollection.updateCell
  have : updateAt (updateAt (fun m => { m with
      SupportHyperplanes := m.hyperplanes K C.Generators }) plc) lvl C.Members = C.Members := by
    unfold ConeCollection.cell at hc
    cases hL : C.Members[lvl]? with
    | none => simp [List.getD_eq_getElem?_getD, hL] at hc
    | some L =>
      simp only [List.getD_eq_getElem?_getD, hL, Option.getD_some] at hc
      apply updateAt_id_of_getElem? _ _ _ L hL
      exact updateAt_id_of_getElem? _ _ _ mc hc hfix
  rw [this]

theorem refine_of_settled (K : Kernel) (key fuel : Nat) :
    ∀ (lvl plc : Nat) (C : ConeCollection), settled K key fuel lvl plc C →
      MiniCone.refine K key fuel lvl plc C = C := by
  induction fuel with
  | zero => intro lvl plc C _; exact refine_zero K key lvl plc C
  | succ fuel ih =>
    intro lvl plc C hs
    unfold settled at hs
    cases hc : C.cell lvl plc with
    | none => exact refine_no_cell K key _ lvl plc C hc
    | some mc =>
      simp only [hc] at hs
      obtain ⟨hfix, hrest⟩ := hs
      rw [refine_succ K key fuel lvl plc C mc hc, cache_facets_of_fixed K C lvl plc mc hc hfix]
      cases hf : facet_loop (row C.Generators key) (mc.hyperplanes K C.Generators) 0 [] with
      | none => rfl
      | some opp =>
        simp only [hf] at hrest ⊢
        by_cases h1 : opp.length = 1
        · simp [h1]
        · simp only [h1, if_false] at hrest ⊢
          by_cases h2 : mc.Daughters.length > 0
          · simp only [h2, if_true] at hrest ⊢
            apply foldl_id_of_forall
            intro d hd
            exact ih _ _ C (hrest d hd)
          · simp only [h2, if_false] at hrest ⊢
            rw [hrest]
            rfl


theorem mem_ordered_insert (x v : Vec) (S : List Vec) :
    x ∈ ordered_insert v S ↔ x = v ∨ x ∈ S := by
  induction S with
  | nil => simp [ordered_insert]
  | cons w S ih =>
    unfold ordered_insert
    split
    · simp
    · simp only [List.mem_cons, ih]
      tauto

theorem mem_set_insert (x v : Vec) (S : List Vec) : x ∈ set_insert v S ↔ x = v ∨ x ∈ S := by
  unfold set_insert
  split
  · constructor
    · exact Or.inr
    · rintro (rfl | h)
      · assumption
      · exact h
  · exact mem_ordered_insert x v S

theorem mem_foldl_set_insert (G : Mat) (x : Vec) (ks : List Nat) (S : List Vec) :
    x ∈ ks.foldl (fun A k => set_insert (row G k) A) S ↔ x ∈ S ∨ ∃ k ∈ ks, x = row G k := by
  induction ks generalizing S with
  | nil => simp
  | cons k ks ih =>
    rw [List.foldl_cons, ih, mem_set_insert]
    simp only [List.mem_cons, exists_eq_or_imp]
    tauto

theorem mem_updateAt {α : Type} (f : α → α) (n : Nat) (l : List α) (x : α)
    (h : x ∈ updateAt f n l) : x ∈ l ∨ ∃ a ∈ l, x = f a := by
  induction l generalizing n with
  | nil => cases n <;> simp [updateAt] at h
  | cons b l ih =>
    cases n with
    | zero =>
      simp only [updateAt, List.mem_cons] at h
      rcases h with rfl | h
      · exact Or.inr ⟨b, List.mem_cons_self _ _, rfl⟩
      · exact Or.inl (List.mem_cons_of_mem _ h)
    | succ n =>
      simp only [updateAt, List.mem_cons] at h
      rcases h with rfl | h
      · exact Or.inl (List.mem_cons_self _ _)
      · rcases ih n h with h1 | ⟨a, ha, rfl⟩
        · exact Or.inl (List.mem_cons_of_mem _ h1)
        · exact Or.inr ⟨a, List.mem_cons_of_mem _ ha, rfl⟩

/-- A property of cells that holds for a new cell and survives a `push_back`
on `Daughters` holds for every cell after `add_minicone`. -/
theorem add_minicone_forall (Q : MiniCone → Prop) (C : ConeCollection) (level mother : Nat)
    (GKeys : List Nat) (mult : Int) (hC : ∀ L ∈ C.Members, ∀ mc ∈ L, Q mc)
    (hnew : ∀ place, Q
      { GenKeys := GKeys, multiplicity := mult, SupportHyperplanes := [],
        Daughters := [], level := level, my_place := place, is_simplex := C.is_triangulation })
    (hd : ∀ m d, Q m → Q { m with Daughters := m.Daughters ++ [d] }) :
    ∀ L ∈ (C.add_minicone level mother GKeys mult).Members, ∀ mc ∈ L, Q mc := by
  have h1 : ∀ L ∈ updateAt (fun L => L ++ [(
      { GenKeys := GKeys, multiplicity := mult,
        SupportHyperplanes := [], Daughters := [], level := level,
        my_place := (C.Members.getD level []).length,
        is_simplex := C.is_triangulation } : MiniCone)]) level C.Members, ∀ mc ∈ L, Q mc := by
    intro L hL mc hmc
    rcases mem_updateAt _ _ _ _ hL with h | ⟨L0, hL0, rfl⟩
    · exact hC L h mc hmc
    · rcases List.mem_append.mp hmc with h | h
      · exact hC L0 hL0 mc h
      · rw [List.mem_singleton] at h
        rw [h]
        exact hnew _
  intro L hL mc hmc
  unfold ConeCollection.add_minicone at hL
  simp only at hL
  split at hL
  · rcases mem_updateAt _ _ _ _ hL with h | ⟨L0, hL0, rfl⟩
    · exact h1 L h mc hmc
    · rcases mem_updateAt _ _ _ _ hmc with h | ⟨m, hm, rfl⟩
      · exact h1 L0 hL0 mc h
      · exact hd m _ (h1 L0 hL0 m hm)
  · exact h1 L hL mc hmc

theorem updateCell_forall (Q : MiniCone → Prop) (C : ConeCollection) (k i : Nat)
    (f : MiniCone → MiniCone) (hC : ∀ L ∈ C.Members, ∀ mc ∈ L, Q mc)
    (hf : ∀ m, Q m → Q (f m)) : ∀ L ∈ (C.updateCell k i f).Members, ∀ mc ∈ L, Q mc := by
  intro L hL mc hmc
  unfold ConeCollection.updateCell at hL
  rcases mem_updateAt _ _ _ _ hL with h | ⟨L0, hL0, rfl⟩
  · exact hC L h mc hmc
  · rcases mem_updateAt _ _ _ _ hmc with h | ⟨m, hm, rfl⟩
    · exact hC L0 hL0 mc h
    · exact hf m (hC L0 hL0 m hm)

theorem facets_fit_cache_facets (K : Kernel)
    (hK : ∀ M, (K.simplex_data M).length ≤ M.length) (C : ConeCollection) (lvl plc : Nat)
    (hC : C.facets_fit) : (C.cache_facets K lvl plc).facets_fit := by
  unfold ConeCollection.cache_facets
  apply updateCell_forall (fun mc => mc.SupportHyperplanes.length ≤ mc.GenKeys.length) C _ _ _ hC
  intro m hm
  show (m.hyperplanes K C.Generators).length ≤ m.GenKeys.length
  unfold MiniCone.hyperplanes
  split
  · have := hK (submatrix C.Generators m.GenKeys)
    simpa [submatrix] using this
  · exact hm

theorem facets_fit_add_minicone (C : ConeCollection) (level mother : Nat) (GKeys : List Nat)
    (mult : Int) (hC : C.facets_fit) : (C.add_minicone level mother GKeys mult).facets_fit := by
  apply add_minicone_forall (fun mc => mc.SupportHyperplanes.length ≤ mc.GenKeys.length) C _ _ _ _ hC
  · intro _; simp
  · intro m d hm; exact hm

theorem mem_allRays_add_minicone (C : ConeCollection) (level mother : Nat) (GKeys : List Nat)
    (mult : Int) (x : Vec) :
    x ∈ (C.add_minicone level mother GKeys mult).AllRays ↔
      x ∈ C.AllRays ∨ ∃ k ∈ GKeys, x = row C.Generators k := by
  unfold ConeCollection.add_minicone
  exact mem_foldl_set_insert _ _ _ _

theorem mem_set_self {α : Type} (l : List α) (j : Nat) (a : α) (hj : j < l.length) :
    a ∈ l.set j a := by
  have h : j < (l.set j a).length := by simpa using hj
  have := List.getElem_mem h
  simpa using this

theorem facet_loop_bound (v : Vec) (SH : Mat) (i : Nat) (acc opp : List Nat)
    (h : facet_loop v SH i acc = some opp) :
    ∀ j ∈ opp, j ∈ acc ∨ (i ≤ j ∧ j < i + SH.length) := by
  induction SH generalizing i acc with
  | nil =>
    simp only [facet_loop, Option.some.injEq] at h
    subst h
    intro j hj
    exact Or.inl hj
  | cons r SH ih =>
    rw [facet_loop] at h
    split at h
    · cases h
    · split at h
      · intro j hj
        rcases ih _ _ h j hj with h1 | ⟨h1, h2⟩
        · exact Or.inl h1
        · right; simp only [List.length_cons]; omega
      · intro j hj
        rcases ih _ _ h j hj with h1 | ⟨h1, h2⟩
        · rcases List.mem_append.mp h1 with h3 | h3
          · exact Or.inl h3
          · right
            rw [List.mem_singleton] at h3
            simp only [List.length_cons]; omega
        · right; simp only [List.length_cons]; omega

theorem subdivide_fold (K : Kernel) (key : Nat) (mc : MiniCone) (opp : List Nat) :
    ∀ C : ConeCollection, C.facets_fit →
      (opp.foldl (subdivide_step K key mc) C).facets_fit ∧
      (opp.foldl (subdivide_step K key mc) C).Generators = C.Generators ∧
      (∀ x ∈ C.AllRays, x ∈ (opp.foldl (subdivide_step K key mc) C).AllRays) ∧
      ((∃ j ∈ opp, j < mc.GenKeys.length) →
        row C.Generators key ∈ (opp.foldl (subdivide_step K key mc) C).AllRays) := by
  induction opp with
  | nil =>
    intro C hC
    exact ⟨hC, rfl, fun x hx => hx, fun ⟨j, hj, _⟩ => absurd hj (List.not_mem_nil _)⟩
  | cons j opp ih =>
    intro C hC
    rw [List.foldl_cons]
    have hfit : (subdivide_step K key mc C j).facets_fit := facets_fit_add_minicone _ _ _ _ _ hC
    have hG : (subdivide_step K key mc C j).Generators = C.Generators := rfl
    have hmono : ∀ x ∈ C.AllRays, x ∈ (subdivide_step K key mc C j).AllRays := by
      intro x hx
      unfold subdivide_step
      rw [mem_allRays_add_minicone]
      exact Or.inl hx
    obtain ⟨a, b, c, d⟩ := ih _ hfit
    refine ⟨a, b.trans hG, fun x hx => c x (hmono x hx), ?_⟩
    rintro ⟨j1, hj1, hlt⟩
    rcases List.mem_cons.mp hj1 with rfl | hj1
    · apply c
      unfold subdivide_step
      rw [mem_allRays_add_minicone]
      right
      refine ⟨key, ?_, rfl⟩
      rw [(List.perm_insertionSort _ _).mem_iff]
      exact mem_set_self _ _ _ hlt
    · rw [← hG]
      exact d ⟨j1, hj1, hlt⟩


theorem refine_fold_outcome (K : Kernel) (key fuel lvl : Nat)
    (hD : ∀ plc C, C.facets_fit →
      RefineOutcome K key C (MiniCone.refine K key fuel lvl plc C)
        (settled K key fuel lvl plc (MiniCone.refine K key fuel lvl plc C))) :
    ∀ (ds : List Nat) (C : ConeCollection), C.facets_fit →
      RefineOutcome K key C (ds.foldl (fun C2 d => MiniCone.refine K key fuel lvl d C2) C)
        (∀ d ∈ ds, settled K key fuel lvl d
          (ds.foldl (fun C2 d => MiniCone.refine K key fuel lvl d C2) C)) := by
  intro ds
  induction ds with
  | nil =>
    intro C hC
    exact ⟨hC, rfl, fun x hx => hx, Or.inr ⟨cacheExt_refl K C, fun d hd =>
      absurd hd (List.not_mem_nil _)⟩⟩
  | cons d ds ih =>
    intro C hC
    rw [List.foldl_cons]
    obtain ⟨hfit1, hG1, hmono1, hor1⟩ := hD d C hC
    obtain ⟨hfit2, hG2, hmono2, hor2⟩ := ih _ hfit1
    refine ⟨hfit2, hG2.trans hG1, fun x hx => hmono2 x (hmono1 x hx), ?_⟩
    rcases hor1 with h1 | ⟨hext1, hs1⟩
    · exact Or.inl (hmono2 _ h1)
    · rcases hor2 with h2 | ⟨hext2, hs2⟩
      · left; rw [← hG1]; exact h2
      · right
        refine ⟨cacheExt_trans K _ _ _ hext1 hext2, ?_⟩
        intro d1 hd1
        rcases List.mem_cons.mp hd1 with rfl | hd1
        · exact settled_of_cacheExt K key fuel lvl d1 _ _ hext2 hs1
        · exact hs2 d1 hd1

theorem settled_succ_of_cell (K : Kernel) (key fuel lvl plc : Nat) (C : ConeCollection)
    (m : MiniCone) (hc : C.cell lvl plc = some m) (hfix : m.cache K C.Generators = m)
    (h : match facet_loop (row C.Generators key) (m.hyperplanes K C.Generators) 0 [] with
      | none => True
      | some opp =>
        if opp.length = 1 then True
        else if m.Daughters.length > 0 then
          ∀ d ∈ m.Daughters, settled K key fuel (m.level + 1) d C
        else opp = []) :
    settled K key (fuel + 1) lvl plc C := by
  unfold settled
  simp only [hc]
  exact ⟨hfix, h⟩

theorem refine_outcome (K : Kernel) (hK : ∀ M, (K.simplex_data M).length ≤ M.length)
    (key fuel : Nat) :
    ∀ (lvl plc : Nat) (C : ConeCollection), C.facets_fit →
      RefineOutcome K key C (MiniCone.refine K key fuel lvl plc C)
        (settled K key fuel lvl plc (MiniCone.refine K key fuel lvl plc C)) := by
  induction fuel with
  | zero =>
    intro lvl plc C hC
    rw [refine_zero]
    exact ⟨hC, rfl, fun x hx => hx, Or.inr ⟨cacheExt_refl K C, by simp [settled]⟩⟩
  | succ fuel ih =>
    intro lvl plc C hC
    cases hc : C.cell lvl plc with
    | none =>
      rw [refine_no_cell K key _ lvl plc C hc]
      refine ⟨hC, rfl, fun x hx => hx, Or.inr ⟨cacheExt_refl K C, ?_⟩⟩
      unfold settled
      simp [hc]
    | some mc =>
      have hfit1 := facets_fit_cache_facets K hK C lvl plc hC
      have hext1 := cacheExt_cache_facets K C lvl plc
      have hc1 := cell_cache_facets K C lvl plc mc hc
      have hG1 : (C.cache_facets K lvl plc).Generators = C.Generators := rfl
      have hA1 : (C.cache_facets K lvl plc).AllRays = C.AllRays := rfl
      rw [refine_succ K key fuel lvl plc C mc hc]
      cases hf : facet_loop (row C.Generators key) (mc.hyperplanes K C.Generators) 0 [] with
      | none =>
        refine ⟨hfit1, hG1, fun x hx => hx, Or.inr ⟨hext1, ?_⟩⟩
        apply settled_succ_of_cell K key fuel lvl plc _ _ hc1
        · rw [hG1, cache_cache]
        · rw [hG1, hyperplanes_cache, hf]
          trivial
      | some opp =>
        by_cases h1 : opp.length = 1
        · simp only [h1, if_true]
          refine ⟨hfit1, hG1, fun x hx => hx, Or.inr ⟨hext1, ?_⟩⟩
          apply settled_succ_of_cell K key fuel lvl plc _ _ hc1
          · rw [hG1, cache_cache]
          · rw [hG1, hyperplanes_cache, hf]
            simp [h1]
        · simp only [h1, if_false]
          by_cases h2 : mc.Daughters.length > 0
          · simp only [h2, if_true]
            obtain ⟨hfit2, hG2, hmono2, hor2⟩ :=
              refine_fold_outcome K key fuel (mc.level + 1) (ih (mc.level + 1)) mc.Daughters
                _ hfit1
            refine ⟨hfit2, hG2.trans hG1, fun x hx => hmono2 x hx, ?_⟩
            rcases hor2 with h | ⟨hext2, hs2⟩
            · exact Or.inl h
            · right
              refine ⟨cacheExt_trans K _ _ _ hext1 hext2, ?_⟩
              have hc2 : (mc.Daughters.foldl
                  (fun C2 d => MiniCone.refine K key fuel (mc.level + 1) d C2)
                  (C.cache_facets K lvl plc)).cell lvl plc
                  = some (mc.cache K C.Generators) := by
                rcases hext2.2.2.2.2 lvl plc _ hc1 with h | h
                · exact h
                · rw [h, hG1, cache_cache]
              apply settled_succ_of_cell K key fuel lvl plc _ _ hc2
              · rw [hG2, hG1, cache_cache]
              · rw [hG2, hG1, hyperplanes_cache, hf]
                simp only [h1, if_false]
                have h3 : (mc.cache K C.Generators).Daughters.length > 0 := h2
                simp only [h3, if_true]
                exact hs2
          · simp only [h2, if_false]
            obtain ⟨hfit2, hG2, hmono2, hray⟩ := subdivide_fold K key mc opp _ hfit1
            refine ⟨hfit2, hG2.trans hG1, fun x hx => hmono2 x hx, ?_⟩
            cases opp with
            | nil =>
              right
              refine ⟨hext1, ?_⟩
              apply settled_succ_of_cell K key fuel lvl plc _ _ hc1
              · rw [hG1, cache_cache]
              · rw [hG1, hyperplanes_cache, hf]
                have h3 : ¬ (mc.cache K C.Generators).Daughters.length > 0 := h2
                simp [h3]
            | cons j opp =>
              left
              apply hray
              refine ⟨j, List.mem_cons_self _ _, ?_⟩
              have hb := facet_loop_bound _ _ _ _ _ hf j (List.mem_cons_self _ _)
              rcases hb with hb | ⟨_, hb⟩
              · exact absurd hb (List.not_mem_nil _)
              · have hmem := List.getElem?_mem hc1
                have hL : (C.cache_facets K lvl plc).Members.getD lvl []
                    ∈ (C.cache_facets K lvl plc).Members := by
                  rw [List.getD_eq_getElem?_getD]
                  cases hL0 : (C.cache_facets K lvl plc).Members[lvl]? with
                  | none =>
                    rw [ConeCollection.cell, List.getD_eq_getElem?_getD, hL0] at hc1
                    simp at hc1
                  | some L => exact List.getElem?_mem hL0
                have := hfit1 _ hL _ hmem
                have hsh : (mc.cache K C.Generators).SupportHyperplanes
                    = mc.hyperplanes K C.Generators := rfl
                rw [hsh] at this
                have hgk : (mc.cache K C.Generators).GenKeys = mc.GenKeys := rfl
                rw [hgk] at this
                omega

theorem ensure_level_facets_fit (C : ConeCollection) (hC : C.facets_fit) :
    C.ensure_level.facets_fit := by
  unfold ConeCollection.ensure_level
  split
  · split
    · exact hC
    · intro L hL mc hmc
      simp only [List.mem_append, List.mem_singleton] at hL
      rcases hL with hL | rfl
      · exact hC L hL mc hmc
      · simp at hmc
  · exact hC

theorem ensure_level_of_shape (C R : ConeCollection)
    (h : R.Members.map List.length = C.ensure_level.Members.map List.length) :
    R.ensure_level = R := by
  have hlast : ∀ n, (C.ensure_level.Members.map List.length).getLast? = some n → n = 0 := by
    intro n hn
    unfold ConeCollection.ensure_level at hn
    cases hl : C.Members.getLast? with
    | none =>
      simp only [hl] at hn
      rw [List.getLast?_eq_none_iff] at hl
      simp [hl] at hn
    | some L =>
      simp only [hl] at hn
      by_cases hL : L.isEmpty = true
      · simp only [hL, if_true] at hn
        rw [List.getLast?_map, hl] at hn
        simp only [Option.map_some', Option.some.injEq] at hn
        rw [← hn]
        simpa using hL
      · simp only [hL] at hn
        simp at hn
        exact hn.symm
  unfold ConeCollection.ensure_level
  cases hr : R.Members.getLast? with
  | none => rfl
  | some L =>
    have : (R.Members.map List.length).getLast? = some L.length := by
      rw [List.getLast?_map, hr]; rfl
    rw [h] at this
    have h0 := hlast _ this
    have : L.isEmpty = true := by simpa using h0
    simp [this]

/-- C9. Idempotence of insertion: on a forest whose cells have at most one
cached facet per ray index, with a kernel that returns at most one facet per
generator, the state after two successive calls `refine(k)` (all cells with
their daughters and cached facets, `Generators`, `AllRays`) equals the state
after one call. -/
theorem refine_idempotent (K : Kernel) (hK : ∀ M, (K.simplex_data M).length ≤ M.length)
    (C : ConeCollection) (hC : C.facets_fit) (key : Nat) (_hkey : key < C.Generators.length) :
    (C.refine K key).refine K key = C.refine K key := by
  by_cases hmem : row C.Generators key ∈ C.AllRays
  · have h1 : C.refine K key = C := by
      unfold ConeCollection.refine
      simp [hmem]
    rw [h1, h1]
  · have hfit1 := ensure_level_facets_fit C hC
    have hG1 : C.ensure_level.Generators = C.Generators := by
      unfold ConeCollection.ensure_level
      split
      · split <;> rfl
      · rfl
    have hA1 : C.ensure_level.AllRays = C.AllRays := by
      unfold ConeCollection.ensure_level
      split
      · split <;> rfl
      · rfl
    have hR : C.refine K key =
        (List.range (C.ensure_level.Members.getD 0 []).length).foldl
          (fun C2 i => MiniCone.refine K key C.ensure_level.Members.length 0 i C2)
          C.ensure_level := by
      unfold ConeCollection.refine
      simp [hmem]
    obtain ⟨_, hG2, _, hor⟩ := refine_fold_outcome K key C.ensure_level.Members.length 0
      (refine_outcome K hK key _ 0) (List.range (C.ensure_level.Members.getD 0 []).length)
      _ hfit1
    rw [← hR] at hG2 hor
    rcases hor with h | ⟨hext, hs⟩
    · have h2 : row (C.refine K key).Generators key ∈ (C.refine K key).AllRays := by
        rw [hG2]; exact h
      generalize C.refine K key = R at h2 ⊢
      unfold ConeCollection.refine
      simp [h2]
    · obtain ⟨_, hA, _, hshape, _⟩ := hext
      have h2 : ¬ row (C.refine K key).Generators key ∈ (C.refine K key).AllRays := by
        rw [hG2, hA, hG1, hA1]; exact hmem
      have h3 : (C.refine K key).ensure_level = C.refine K key :=
        ensure_level_of_shape C _ hshape
      have h4 : (C.refine K key).Members.length = C.ensure_level.Members.length := by
        have := congrArg List.length hshape
        simpa using this
      have h5 := getD_length_of_shape _ _ hshape 0
      generalize C.refine K key = R at h2 h3 h4 h5 hs ⊢
      unfold ConeCollection.refine
      simp only [h2, if_false, h3, h4, h5]
      apply foldl_id_of_forall
      intro i hi
      exact refine_of_settled K key _ 0 i R (hs i hi)

theorem exact_simplex_data_length (M : Mat) : (exact_simplex_data M).length = M.length := by
  simp [exact_simplex_data]

set_option maxRecDepth 10000 in
/-- Witness for `refine_idempotent`: the quadrant `(1,0)`, `(0,1)` and the
unknown ray `(1,1)` with index 2, which the first call inserts. -/
theorem refine_idempotent_witness :
    (∀ M, (exact_simplex_data M).length ≤ M.length) ∧ diagonal_forest.facets_fit ∧
    2 < diagonal_forest.Generators.length ∧
    (diagonal_forest.refine (exactKernel failing_oracle) 2).getKeysAndMult
      = [([1, 2], 1), ([0, 2], 1)] ∧
    (diagonal_forest.refine (exactKernel failing_oracle) 2).refine (exactKernel failing_oracle) 2
      = diagonal_forest.refine (exactKernel failing_oracle) 2 :=
  ⟨fun M => le_of_eq (exact_simplex_data_length M), by unfold ConeCollection.facets_fit; decide,
    by decide, rfl,
    refine_idempotent (exactKernel failing_oracle)
      (fun M => le_of_eq (exact_simplex_data_length M)) diagonal_forest
      (by unfold ConeCollection.facets_fit; decide) 2 (by decide)⟩


/-! ## The determinant of the concrete kernel -/

theorem list_sum_range_eq (f : Nat → Int) (n : Nat) :
    ((List.range n).map f).sum = ∑ i : Fin n, f i := by
  induction n with
  | zero => simp
  | succ n ih => rw [List.sum_range_succ, ih, Fin.sum_univ_castSucc]; simp

theorem getD_eraseIdx (r : Vec) (j k : Nat) :
    (r.eraseIdx j).getD k 0 = if k < j then r.getD k 0 else r.getD (k + 1) 0 := by
  simp only [List.getD_eq_getElem?_getD, List.getElem?_eraseIdx]
  split <;> rfl

theorem to_matrix_minor (n : Nat) (r : Vec) (M : Mat) (j : Fin (n + 1)) (hM : M.length = n) :
    to_matrix n (M.map fun r1 => r1.eraseIdx j)
      = (to_matrix (n + 1) (r :: M)).submatrix Fin.succ j.succAbove := by
  ext i k
  simp only [to_matrix, Matrix.of_apply, Matrix.submatrix_apply, Fin.val_succ,
    List.getD_cons_succ]
  have hi : (i : Nat) < M.length := by rw [hM]; exact i.isLt
  have h1 : (M.map fun r1 => r1.eraseIdx j).getD i [] = (M.getD i []).eraseIdx j := by
    simp [List.getD_eq_getElem?_getD, List.getElem?_eq_getElem hi]
  rw [h1, getD_eraseIdx]
  by_cases hk : (k : Nat) < j
  · have : j.succAbove k = k.castSucc :=
      Fin.succAbove_of_castSucc_lt j k (by simpa [Fin.lt_def] using hk)
    simp [hk, this]
  · have : j.succAbove k = k.succ :=
      Fin.succAbove_of_le_castSucc j k (by simpa [Fin.le_def] using not_lt.mp hk)
    simp [hk, this]

theorem det_aux_eq_det (n : Nat) : ∀ M : Mat, M.length = n →
    det_aux n M = (to_matrix n M).det := by
  induction n with
  | zero => intro M _; simp [det_aux]
  | succ n ih =>
    intro M hM
    cases M with
    | nil => simp at hM
    | cons r M =>
      have hM1 : M.length = n := by simpa using hM
      rw [det_aux, list_sum_range_eq, Matrix.det_succ_row_zero]
      apply Finset.sum_congr rfl
      intro j _
      rw [ih _ (by simpa using hM1), to_matrix_minor n r M j hM1]
      simp [to_matrix]

theorem det_eq_det (M : Mat) : det M = (to_matrix M.length M).det :=
  det_aux_eq_det M.length M rfl


theorem to_matrix_set (n : Nat) (M : Mat) (i : Fin n) (w : Vec) (hM : M.length = n) :
    to_matrix n (M.set i w) = (to_matrix n M).updateRow i (to_fun n w) := by
  ext a b
  simp only [to_matrix, Matrix.of_apply, Matrix.updateRow_apply, to_fun]
  have hi : (i : Nat) < M.length := by rw [hM]; exact i.isLt
  by_cases h : a = i
  · subst h
    simp [List.getD_eq_getElem?_getD, List.getElem?_set, hi]
  · have h1 : ¬ (i : Nat) = a := fun h1 => h (Fin.ext h1.symm)
    simp [List.getD_eq_getElem?_getD, List.getElem?_set, h, h1]

theorem to_fun_unit_vec (n : Nat) (k : Fin n) : to_fun n (unit_vec n k) = Pi.single k 1 := by
  funext j
  simp only [to_fun, unit_vec, Pi.single_apply]
  have hj : (j : Nat) < (List.range n).length := by simp
  rw [List.getD_eq_getElem?_getD, List.getElem?_map, List.getElem?_eq_getElem hj]
  simp [Fin.ext_iff]

theorem dot_map_range (v : Vec) (n : Nat) (f : Nat → Int) :
    v_scalar_product v ((List.range n).map f) = ∑ k : Fin n, v.getD k 0 * f k := by
  unfold v_scalar_product
  induction v generalizing n f with
  | nil => simp
  | cons a v ih =>
    cases n with
    | zero => simp
    | succ n =>
      rw [List.range_succ_eq_map, List.map_cons, List.map_map, List.zipWith_cons_cons,
        List.sum_cons, ih, Fin.sum_univ_succ]
      simp

theorem det_updateRow_expand (n : Nat) (A : Matrix (Fin n) (Fin n) Int) (i : Fin n)
    (b : Fin n → Int) :
    (A.updateRow i b).det = ∑ k : Fin n, b k * (A.updateRow i (Pi.single k 1)).det := by
  rw [← Matrix.cramer_transpose_apply, Matrix.cramer_eq_adjugate_mulVec, Matrix.mulVec,
    Matrix.dotProduct]
  apply Finset.sum_congr rfl
  intro k _
  rw [← Matrix.adjugate_transpose, Matrix.transpose_apply, Matrix.adjugate_apply, mul_comm]

theorem getD_exact_simplex_data (M : Mat) (i : Nat) (hi : i < M.length) :
    (exact_simplex_data M).getD i []
      = (List.range M.length).map fun k =>
          Int.sign (det M) * det (M.set i (unit_vec M.length k)) := by
  unfold exact_simplex_data
  have h : i < (List.range M.length).length := by simpa using hi
  rw [List.getD_eq_getElem?_getD, List.getElem?_map, List.getElem?_eq_getElem h]
  simp

/-- The value of facet `i` of the concrete kernel on a vector `v`: the
determinant of the generators with row `i` replaced by `v`, times the sign of
the determinant of the generators. -/
theorem facet_value (M : Mat) (i : Nat) (hi : i < M.length) (v : Vec) :
    v_scalar_product v ((exact_simplex_data M).getD i [])
      = Int.sign (det M) * det (M.set i v) := by
  rw [getD_exact_simplex_data M i hi, dot_map_range]
  have hlen : ∀ w, (M.set i w).length = M.length := fun w => by simp
  have hdet : ∀ w, det (M.set i w)
      = ((to_matrix M.length M).updateRow ⟨i, hi⟩ (to_fun M.length w)).det := by
    intro w
    rw [det, det_aux_eq_det _ _ rfl]
    have := to_matrix_set M.length M ⟨i, hi⟩ w rfl
    simp only at this
    rw [hlen]
    rw [this]
  rw [hdet v, det_updateRow_expand, Finset.mul_sum]
  apply Finset.sum_congr rfl
  intro k _
  rw [hdet, to_fun_unit_vec]
  simp only [to_fun]
  ring

theorem det_set_own_row (M : Mat) (i j : Nat) (hi : i < M.length) (hj : j < M.length) :
    det (M.set i (M.getD j [])) = if i = j then det M else 0 := by
  have hlen : (M.set i (M.getD j [])).length = M.length := by simp
  rw [det, det_aux_eq_det _ _ rfl, hlen]
  have := to_matrix_set M.length M ⟨i, hi⟩ (M.getD j []) rfl
  simp only at this
  rw [this]
  have hrow : to_fun M.length (M.getD j []) = (to_matrix M.length M) ⟨j, hj⟩ := by
    funext k
    simp [to_fun, to_matrix, List.getD_eq_getElem?_getD, List.getElem?_eq_getElem hj]
  rw [hrow]
  by_cases h : i = j
  · subst h
    simp only [if_true]
    rw [Matrix.updateRow_eq_self, det_eq_det]
  · simp only [h, if_false]
    apply Matrix.det_zero_of_row_eq (i := ⟨i, hi⟩) (j := ⟨j, hj⟩)
    · simpa [Fin.ext_iff] using h
    · funext k
      have hne : (⟨j, hj⟩ : Fin M.length) ≠ ⟨i, hi⟩ := by
        simpa [Fin.ext_iff] using fun h1 : j = i => h h1.symm
      simp [Matrix.updateRow_apply, hne]

theorem sign_mul_self_pos (x : Int) (h : x ≠ 0) : 0 < x.sign * x := by
  rcases lt_trichotomy x 0 with h1 | h1 | h1
  · rw [Int.sign_eq_neg_one_of_neg h1]; omega
  · exact absurd h1 h
  · rw [Int.sign_eq_one_of_pos h1]; omega

/-- The facets of the concrete kernel are co-facet to the generators of a
non-degenerate simplex. -/
theorem exact_simplex_data_cofacet (M : Mat) (hdet : det M ≠ 0) :
    CoFacet (exact_simplex_data M) M := by
  refine ⟨exact_simplex_data_length M, ?_⟩
  intro i hi j hj
  rw [facet_value M i hi, det_set_own_row M i j hi hj]
  constructor
  · intro h
    simp only [h, if_true]
    exact sign_mul_self_pos (det M) hdet
  · intro h
    simp [h]


theorem det_map_eq (l : Mat) (g : Vec → Vec) : det (l.map g) = det_aux l.length (l.map g) := by
  rw [det, List.length_map]

theorem det_swap_rows (a b : Vec) (L : Mat) : det (a :: b :: L) = - det (b :: a :: L) := by
  rw [det_eq_det, det_eq_det]
  show (to_matrix (L.length + 2) (a :: b :: L)).det
    = - (to_matrix (L.length + 2) (b :: a :: L)).det
  have h : to_matrix (L.length + 2) (a :: b :: L)
      = (to_matrix (L.length + 2) (b :: a :: L)).submatrix
          (Equiv.swap (0 : Fin (L.length + 2)) 1) id := by
    ext i k
    simp only [to_matrix, Matrix.of_apply, Matrix.submatrix_apply, id]
    refine Fin.cases ?_ (fun i1 => ?_) i
    · simp
    · refine Fin.cases ?_ (fun i2 => ?_) i1
      · simp
      · have h0 : (i2.succ.succ : Fin (L.length + 2)) ≠ 0 := Fin.succ_ne_zero _
        have h1 : (i2.succ.succ : Fin (L.length + 2)) ≠ 1 := by
          intro h
          have := congrArg Fin.val h
          simp at this
        rw [Equiv.swap_apply_of_ne_of_ne h0 h1]
        simp
  rw [h, Matrix.det_permute, Equiv.Perm.sign_swap (by simp)]
  simp

theorem det_perm_sign (l l1 : Mat) (h : l.Perm l1) :
    ∃ e : Int, (e = 1 ∨ e = -1) ∧ ∀ f : Vec → Vec, det (l1.map f) = e * det (l.map f) := by
  induction h with
  | nil => exact ⟨1, Or.inl rfl, fun f => by simp⟩
  | cons x hp ih =>
    rename_i l2 l3
    obtain ⟨e, he, hf⟩ := ih
    refine ⟨e, he, ?_⟩
    intro f
    have hlen : l3.length = l2.length := hp.length_eq.symm
    rw [det_map_eq, det_map_eq, List.length_cons, List.length_cons, List.map_cons,
      List.map_cons, det_aux, det_aux, hlen, ← List.sum_map_mul_left]
    congr 1
    apply List.map_congr_left
    intro j _
    rw [List.map_map, List.map_map, ← hlen, ← det_map_eq, hf, hlen, ← det_map_eq]
    ring
  | swap x y l2 =>
    refine ⟨-1, Or.inr rfl, ?_⟩
    intro f
    simp only [List.map_cons]
    rw [det_swap_rows]
    ring
  | trans _ _ ih1 ih2 =>
    obtain ⟨e1, he1, hf1⟩ := ih1
    obtain ⟨e2, he2, hf2⟩ := ih2
    refine ⟨e2 * e1, ?_, ?_⟩
    · rcases he1 with rfl | rfl <;> rcases he2 with rfl | rfl <;> simp
    · intro f
      rw [hf2, hf1]
      ring

theorem exact_vol_perm (l l1 : Mat) (h : l.Perm l1) : exact_vol l1 = exact_vol l := by
  obtain ⟨e, he, hf⟩ := det_perm_sign l l1 h
  have := hf id
  simp only [List.map_id] at this
  unfold exact_vol
  rw [this]
  rcases he with rfl | rfl
  · simp
  · simp only [neg_mul, one_mul, neg_neg, Left.neg_neg_iff]
    split <;> split <;> omega

theorem submatrix_sorted_set (G : Mat) (keys : List Nat) (i key : Nat) :
    ((submatrix G keys).set i (row G key)).Perm
      (submatrix G (List.insertionSort (fun a b => a ≤ b) (keys.set i key))) := by
  unfold submatrix
  rw [← List.map_set]
  exact ((List.perm_insertionSort _ _).map _).symm

/-- The volume of the child for facet `i`, for the concrete kernel: the value
of facet `i` on the inserted ray, when that value is positive. -/
theorem child_vol (G : Mat) (keys : List Nat) (i key : Nat) (hi : i < keys.length)
    (hpos : 0 < v_scalar_product (row G key)
      ((exact_simplex_data (submatrix G keys)).getD i [])) :
    exact_vol (submatrix G (List.insertionSort (fun a b => a ≤ b) (keys.set i key)))
      = v_scalar_product (row G key) ((exact_simplex_data (submatrix G keys)).getD i []) := by
  have hi1 : i < (submatrix G keys).length := by simpa [submatrix] using hi
  rw [exact_vol_perm _ _ (submatrix_sorted_set G keys i key)]
  rw [facet_value _ i hi1] at hpos ⊢
  unfold exact_vol
  rcases lt_trichotomy (det (submatrix G keys)) 0 with h | h | h
  · rw [Int.sign_eq_neg_one_of_neg h] at hpos ⊢
    split <;> omega
  · rw [h] at hpos
    simp at hpos
  · rw [Int.sign_eq_one_of_pos h] at hpos ⊢
    split <;> omega


theorem facet_loop_eq (v : Vec) (SH : Mat) (i : Nat) (acc opp : List Nat)
    (h : facet_loop v SH i acc = some opp) :
    (∀ r ∈ SH, 0 ≤ v_scalar_product v r) ∧ opp = acc ++ positive_positions v SH i := by
  induction SH generalizing i acc with
  | nil =>
    simp only [facet_loop, Option.some.injEq] at h
    simp [positive_positions, h]
  | cons r SH ih =>
    rw [facet_loop] at h
    split at h
    · cases h
    · rename_i hneg
      split at h
      · rename_i hz
        obtain ⟨h1, h2⟩ := ih _ _ h
        refine ⟨?_, ?_⟩
        · intro r1 hr1
          rcases List.mem_cons.mp hr1 with rfl | hr1
          · omega
          · exact h1 r1 hr1
        · rw [positive_positions]
          simp [hz, h2]
      · rename_i hz
        obtain ⟨h1, h2⟩ := ih _ _ h
        refine ⟨?_, ?_⟩
        · intro r1 hr1
          rcases List.mem_cons.mp hr1 with rfl | hr1
          · omega
          · exact h1 r1 hr1
        · rw [positive_positions]
          have hp : 0 < v_scalar_product v r := by omega
          simp [hp, h2]

theorem positive_positions_bounds (v : Vec) (SH : Mat) (i j : Nat)
    (h : j ∈ positive_positions v SH i) :
    i ≤ j ∧ j < i + SH.length ∧ 0 < v_scalar_product v (SH.getD (j - i) []) := by
  induction SH generalizing i with
  | nil => simp [positive_positions] at h
  | cons r SH ih =>
    rw [positive_positions] at h
    have hrec : j ∈ positive_positions v SH (i + 1) →
        i ≤ j ∧ j < i + (r :: SH).length ∧
          0 < v_scalar_product v ((r :: SH).getD (j - i) []) := by
      intro h1
      obtain ⟨a, b, c⟩ := ih _ h1
      refine ⟨by omega, by simp only [List.length_cons]; omega, ?_⟩
      have : j - i = (j - (i + 1)) + 1 := by omega
      rw [this, List.getD_cons_succ]
      exact c
    split at h
    · rename_i hp
      rcases List.mem_cons.mp h with rfl | h1
      · refine ⟨le_refl _, by simp, ?_⟩
        simpa using hp
      · exact hrec h1
    · exact hrec h

theorem positive_positions_sum (v : Vec) (SH : Mat) (i : Nat)
    (h : ∀ r ∈ SH, 0 ≤ v_scalar_product v r) :
    ((positive_positions v SH i).map fun j => v_scalar_product v (SH.getD (j - i) [])).sum
      = (SH.map (v_scalar_product v)).sum := by
  induction SH generalizing i with
  | nil => simp [positive_positions]
  | cons r SH ih =>
    have hrec : ((positive_positions v SH (i + 1)).map fun j =>
        v_scalar_product v ((r :: SH).getD (j - i) [])).sum
        = (SH.map (v_scalar_product v)).sum := by
      rw [← ih (i + 1) (fun r1 hr1 => h r1 (List.mem_cons_of_mem _ hr1))]
      congr 1
      apply List.map_congr_left
      intro j hj
      have hb := (positive_positions_bounds v SH (i + 1) j hj).1
      have : j - i = (j - (i + 1)) + 1 := by omega
      rw [this, List.getD_cons_succ]
    rw [positive_positions]
    split
    · simp only [List.map_cons, List.sum_cons, Nat.sub_self, List.getD_cons_zero, hrec]
    · rename_i hp
      have h0 := h r (List.mem_cons_self _ _)
      have hz : v_scalar_product v r = 0 := by omega
      simp only [List.map_cons, List.sum_cons, hrec, hz, zero_add]

theorem dot_eq_sum (a b : Vec) (n : Nat) (hb : b.length = n) :
    v_scalar_product a b = ∑ k : Fin n, a.getD k 0 * b.getD k 0 := by
  have : b = (List.range n).map fun k => b.getD k 0 := by
    apply List.ext_getElem
    · simp [hb]
    · intro k h1 h2
      simp [List.getD_eq_getElem?_getD, List.getElem?_eq_getElem h1]
  rw [this, dot_map_range]
  apply Finset.sum_congr rfl
  intro k _
  rw [← this]

/-- Cramer's rule for the concrete determinant: a linear form that takes the
value `d` on every row of `M` takes the value `d` on `v` exactly when the
determinants of `M` with one row replaced by `v` add up to the determinant of
`M`; here the direction used for graded generators. -/
theorem det_set_sum_graded (M : Mat) (v deg : Vec) (d : Int) (hd : d ≠ 0)
    (hrows : ∀ r ∈ M, r.length = M.length) (hv : v.length = M.length)
    (hdeg : ∀ r ∈ M, v_scalar_product deg r = d) (hdv : v_scalar_product deg v = d) :
    ((List.range M.length).map fun i => det (M.set i v)).sum = det M := by
  rw [list_sum_range_eq]
  have hdet : ∀ i : Fin M.length, det (M.set i v)
      = ((to_matrix M.length M).updateRow i (to_fun M.length v)).det := by
    intro i
    have hlen : (M.set i v).length = M.length := by simp
    rw [det, det_aux_eq_det _ _ rfl, hlen, to_matrix_set M.length M i v rfl]
  have hcr : ∀ i : Fin M.length,
      ((to_matrix M.length M).updateRow i (to_fun M.length v)).det
        = Matrix.vecMul (to_fun M.length v) (to_matrix M.length M).adjugate i := by
    intro i
    rw [det_updateRow_expand, Matrix.vecMul, Matrix.dotProduct]
    apply Finset.sum_congr rfl
    intro k _
    rw [Matrix.adjugate_apply]
  have hA : ∀ i : Fin M.length,
      Matrix.mulVec (to_matrix M.length M) (to_fun M.length deg) i = d := by
    intro i
    have hmem : M.getD i [] ∈ M := by
      rw [List.getD_eq_getElem?_getD, List.getElem?_eq_getElem i.isLt]
      exact List.getElem_mem _
    have := hdeg _ hmem
    rw [dot_eq_sum deg _ M.length (hrows _ hmem)] at this
    rw [← this, Matrix.mulVec, Matrix.dotProduct]
    apply Finset.sum_congr rfl
    intro k _
    simp [to_matrix, to_fun, mul_comm]
  have hkey : Matrix.dotProduct
      (Matrix.vecMul (to_fun M.length v) (to_matrix M.length M).adjugate)
      (Matrix.mulVec (to_matrix M.length M) (to_fun M.length deg))
      = (to_matrix M.length M).det * d := by
    have hsc : Matrix.vecMul (to_fun M.length v)
        ((to_matrix M.length M).det • (1 : Matrix (Fin M.length) (Fin M.length) Int))
        = (to_matrix M.length M).det • to_fun M.length v := by
      funext j
      simp [Matrix.vecMul, Matrix.dotProduct, Matrix.one_apply, mul_comm]
    rw [Matrix.dotProduct_mulVec, Matrix.vecMul_vecMul, Matrix.adjugate_mul, hsc,
      Matrix.smul_dotProduct]
    have := hdv
    rw [dot_eq_sum deg v M.length hv] at this
    rw [smul_eq_mul]
    congr 1
    rw [← this, Matrix.dotProduct]
    apply Finset.sum_congr rfl
    intro k _
    simp [to_fun, mul_comm]
  have hsum : (∑ i : Fin M.length, det (M.set i v)) * d = det M * d := by
    rw [det_eq_det M, ← hkey, Matrix.dotProduct, Finset.sum_mul]
    apply Finset.sum_congr rfl
    intro i _
    rw [hdet, hcr, hA]
  exact mul_right_cancel₀ hd hsum


/-! ## Bookkeeping of a subdivision -/

theorem getD_updateAt {α : Type} (f : List α → List α) (n m : Nat) (Ms : List (List α)) :
    (updateAt f n Ms).getD m [] =
      if n = m ∧ m < Ms.length then f (Ms.getD m []) else Ms.getD m [] := by
  rw [List.getD_eq_getElem?_getD, updateAt_getElem?, List.getD_eq_getElem?_getD]
  by_cases h : n = m
  · subst h
    by_cases h1 : n < Ms.length
    · simp [h1, List.getElem?_eq_getElem h1]
    · simp [h1, List.getElem?_eq_none (Nat.le_of_not_lt h1)]
  · simp [h]

theorem add_minicone_members_length (C : ConeCollection) (level mother : Nat)
    (GKeys : List Nat) (mult : Int) :
    (C.add_minicone level mother GKeys mult).Members.length = C.Members.length := by
  unfold ConeCollection.add_minicone
  simp only
  split <;> simp [updateAt_length]

theorem add_minicone_level_mults (C : ConeCollection) (L mother : Nat) (GKeys : List Nat)
    (mult : Int) (hL : L + 1 < C.Members.length) :
    (C.add_minicone (L + 1) mother GKeys mult).level_mults (L + 1)
      = C.level_mults (L + 1) ++ [mult] := by
  unfold ConeCollection.add_minicone ConeCollection.level_mults
  simp only [Nat.zero_lt_succ, if_true, Nat.add_sub_cancel]
  rw [getD_updateAt, getD_updateAt]
  simp [hL]

theorem subdivide_fold_level_mults (K : Kernel) (key : Nat) (mc : MiniCone) (opp : List Nat) :
    ∀ C : ConeCollection, mc.level + 1 < C.Members.length →
      (opp.foldl (subdivide_step K key mc) C).level_mults (mc.level + 1)
        = C.level_mults (mc.level + 1) ++ opp.map fun j =>
            K.vol (submatrix C.Generators
              (List.insertionSort (fun a b => a ≤ b) (mc.GenKeys.set j key))) := by
  induction opp with
  | nil => intro C _; simp
  | cons j opp ih =>
    intro C hL
    rw [List.foldl_cons, ih]
    · have hG : (subdivide_step K key mc C j).Generators = C.Generators := rfl
      rw [hG]
      unfold subdivide_step
      rw [add_minicone_level_mults _ _ _ _ _ hL]
      simp
    · unfold subdivide_step
      rw [add_minicone_members_length]
      exact hL

theorem cache_facets_level_mults (K : Kernel) (C : ConeCollection) (lvl plc k : Nat) :
    (C.cache_facets K lvl plc).level_mults k = C.level_mults k := by
  have h := congrArg ConeCollection.Members (cache_facets_uncached K C lvl plc)
  unfold ConeCollection.uncached at h
  simp only at h
  have h1 := congrArg (fun Ms => (Ms.getD k []).map fun mc => mc.multiplicity) h
  simp only [List.getD_eq_getElem?_getD, List.getElem?_map] at h1
  unfold ConeCollection.level_mults
  simp only [List.getD_eq_getElem?_getD]
  cases h2 : (C.cache_facets K lvl plc).Members[k]? <;> cases h3 : C.Members[k]? <;>
    simp [h2, h3, List.map_map, Function.comp_def, MiniCone.uncached] at h1 ⊢
  · exact h1
  · exact h1
  · exact h1

theorem cache_facets_members_length (K : Kernel) (C : ConeCollection) (lvl plc : Nat) :
    (C.cache_facets K lvl plc).Members.length = C.Members.length := by
  unfold ConeCollection.cache_facets ConeCollection.updateCell
  exact updateAt_length _ _ _


/-! ## Volumes of the children of a subdivision -/

theorem hyperplanes_exact (hb : Mat → Option (List Vec)) (G : Mat) (mc : MiniCone)
    (h : mc.SupportHyperplanes = [] ∨
      mc.SupportHyperplanes = exact_simplex_data (submatrix G mc.GenKeys)) :
    mc.hyperplanes (exactKernel hb) G = exact_simplex_data (submatrix G mc.GenKeys) := by
  unfold MiniCone.hyperplanes
  rcases h with h | h
  · simp [h, exactKernel]
  · split
    · rfl
    · exact h

theorem children_vol (G : Mat) (keys : List Nat) (key : Nat) (opp : List Nat)
    (hf : facet_loop (row G key) (exact_simplex_data (submatrix G keys)) 0 [] = some opp) :
    ∀ j ∈ opp,
      exact_vol (submatrix G (List.insertionSort (fun a b => a ≤ b) (keys.set j key)))
        = v_scalar_product (row G key) ((exact_simplex_data (submatrix G keys)).getD j []) ∧
      0 < v_scalar_product (row G key) ((exact_simplex_data (submatrix G keys)).getD j []) := by
  intro j hj
  obtain ⟨_, hopp⟩ := facet_loop_eq _ _ _ _ _ hf
  rw [hopp, List.nil_append] at hj
  obtain ⟨_, hlt, hpos⟩ := positive_positions_bounds _ _ _ _ hj
  rw [Nat.sub_zero] at hpos
  have hlen : j < keys.length := by
    rw [exact_simplex_data_length] at hlt
    simpa [submatrix] using hlt
  exact ⟨child_vol G keys j key hlen hpos, hpos⟩

theorem children_sum (G : Mat) (keys : List Nat) (key : Nat) (opp : List Nat)
    (hf : facet_loop (row G key) (exact_simplex_data (submatrix G keys)) 0 [] = some opp) :
    (opp.map fun j =>
        exact_vol (submatrix G (List.insertionSort (fun a b => a ≤ b) (keys.set j key)))).sum
      = (facet_values (submatrix G keys) (row G key)).sum := by
  obtain ⟨hnn, hopp⟩ := facet_loop_eq _ _ _ _ _ hf
  unfold facet_values
  rw [← positive_positions_sum _ _ 0 hnn]
  rw [List.nil_append] at hopp
  rw [← hopp]
  congr 1
  apply List.map_congr_left
  intro j hj
  rw [Nat.sub_zero]
  exact (children_vol G keys key opp hf j hj).1

theorem sign_mul_self_eq (x : Int) : x.sign * x = if x < 0 then -x else x := by
  rcases lt_trichotomy x 0 with h | h | h
  · rw [Int.sign_eq_neg_one_of_neg h]; simp [h]
  · subst h; simp
  · rw [Int.sign_eq_one_of_pos h]
    have : ¬ x < 0 := by omega
    simp [this]

theorem facet_values_eq (M : Mat) (v : Vec) :
    facet_values M v = (List.range M.length).map fun i => Int.sign (det M) * det (M.set i v) := by
  unfold facet_values
  apply List.ext_getElem
  · simp [exact_simplex_data_length]
  · intro i h1 h2
    have hi : i < M.length := by simpa using h2
    have := facet_value M i hi v
    rw [List.getD_eq_getElem?_getD, List.getElem?_eq_getElem
      (by rw [exact_simplex_data_length]; exact hi)] at this
    simp only [Option.getD_some] at this
    simp [this]

/-- For graded generators the facet values of a ray of the same degree add up
to the volume of the generators. -/
theorem facet_values_sum_graded (M : Mat) (v deg : Vec) (d : Int) (hd : d ≠ 0)
    (hrows : ∀ r ∈ M, r.length = M.length) (hv : v.length = M.length)
    (hdeg : ∀ r ∈ M, v_scalar_product deg r = d) (hdv : v_scalar_product deg v = d) :
    (facet_values M v).sum = exact_vol M := by
  rw [facet_values_eq, List.sum_map_mul_left, det_set_sum_graded M v deg d hd hrows hv hdeg hdv]
  unfold exact_vol
  exact sign_mul_self_eq (det M)

/-- The children a call of `refine` on a leaf appends, for the concrete kernel:
either none, or one per positive facet value with that value as multiplicity. -/
theorem refine_leaf_children (hb : Mat → Option (List Vec)) (C : ConeCollection)
    (key fuel lvl plc : Nat) (mc : MiniCone) (hleaf : ExactLeaf C lvl plc mc) :
    ∃ new : List Int,
      (MiniCone.refine (exactKernel hb) key (fuel + 1) lvl plc C).level_mults (lvl + 1)
        = C.level_mults (lvl + 1) ++ new ∧
      (new = [] ∨
        (new.sum = (facet_values (submatrix C.Generators mc.GenKeys) (row C.Generators key)).sum
          ∧ ∀ x ∈ new, 0 < x)) := by
  obtain ⟨hc, hD, hlev, _, hnext, hSH, _⟩ := hleaf
  rw [refine_succ _ key fuel lvl plc C mc hc, hyperplanes_exact hb _ _ hSH]
  cases hf : facet_loop (row C.Generators key)
      (exact_simplex_data (submatrix C.Generators mc.GenKeys)) 0 [] with
  | none => exact ⟨[], by simp [cache_facets_level_mults], Or.inl rfl⟩
  | some opp =>
    by_cases h1 : opp.length = 1
    · exact ⟨[], by simp [h1, cache_facets_level_mults], Or.inl rfl⟩
    · have h2 : ¬ mc.Daughters.length > 0 := by simp [hD]
      simp only [h1, h2, if_false]
      refine ⟨opp.map fun j => exact_vol (submatrix C.Generators
          (List.insertionSort (fun a b => a ≤ b) (mc.GenKeys.set j key))), ?_, Or.inr ⟨?_, ?_⟩⟩
      · rw [← hlev, subdivide_fold_level_mults, cache_facets_level_mults]
        · rfl
        · rw [cache_facets_members_length, hlev]; exact hnext
      · exact children_sum _ _ _ _ hf
      · intro x hx
        obtain ⟨j, hj, rfl⟩ := List.mem_map.mp hx
        have := children_vol _ _ _ _ hf j hj
        rw [this.1]
        exact this.2

/-- C4 (amended). Volume conservation for graded rays: under the concrete
kernel, for a leaf whose multiplicity is the volume of its generators, if some
linear form takes one and the same non-zero value on all spanning rays of the
leaf and on the inserted ray, then the children that `MiniCone::refine(key)`
appends (if any) have multiplicities that add up to the multiplicity of the
leaf. -/
theorem subdivision_conserves_graded_volume (hb : Mat → Option (List Vec))
    (C : ConeCollection) (key fuel lvl plc : Nat) (mc : MiniCone)
    (hleaf : ExactLeaf C lvl plc mc)
    (hrows : ∀ r ∈ submatrix C.Generators mc.GenKeys, r.length = mc.GenKeys.length)
    (hv : (row C.Generators key).length = mc.GenKeys.length)
    (deg : Vec) (d : Int) (hd : d ≠ 0)
    (hdeg : ∀ r ∈ submatrix C.Generators mc.GenKeys, v_scalar_product deg r = d)
    (hdv : v_scalar_product deg (row C.Generators key) = d) :
    ∃ new : List Int,
      (MiniCone.refine (exactKernel hb) key (fuel + 1) lvl plc C).level_mults (lvl + 1)
        = C.level_mults (lvl + 1) ++ new ∧
      (new = [] ∨ new.sum = mc.multiplicity) := by
  obtain ⟨new, h1, h2⟩ := refine_leaf_children hb C key fuel lvl plc mc hleaf
  refine ⟨new, h1, ?_⟩
  rcases h2 with h2 | ⟨h2, _⟩
  · exact Or.inl h2
  · right
    have hlen : (submatrix C.Generators mc.GenKeys).length = mc.GenKeys.length := by
      simp [submatrix]
    rw [h2, facet_values_sum_graded _ _ deg d hd (by rw [hlen]; exact hrows)
      (by rw [hlen]; exact hv) hdeg hdv]
    exact hleaf.2.2.2.2.2.2.symm


set_option maxRecDepth 100000 in
/-- Witness for `subdivision_conserves_graded_volume`: the cone over `(1,0)`,
`(1,2)` of multiplicity 2 and the ray `(1,1)`, all of degree 1 under the first
coordinate; the two children have multiplicities 1 and 1. -/
theorem subdivision_conserves_graded_volume_witness :
    ExactLeaf graded_forest 0 0
      { GenKeys := [0, 1], multiplicity := 2, SupportHyperplanes := [], Daughters := [],
        level := 0, my_place := 0, is_simplex := true } ∧
    (∀ r ∈ submatrix graded_forest.Generators [0, 1], r.length = 2) ∧
    (row graded_forest.Generators 2).length = 2 ∧
    (∀ r ∈ submatrix graded_forest.Generators [0, 1], v_scalar_product [1, 0] r = 1) ∧
    v_scalar_product [1, 0] (row graded_forest.Generators 2) = 1 ∧
    (MiniCone.refine (exactKernel failing_oracle) 2 1 0 0 graded_forest).level_mults 1 = [1, 1] ∧
    ∃ new : List Int,
      (MiniCone.refine (exactKernel failing_oracle) 2 1 0 0 graded_forest).level_mults 1
        = graded_forest.level_mults 1 ++ new ∧
      (new = [] ∨ new.sum = 2) := by
  have hleaf : ExactLeaf graded_forest 0 0
      { GenKeys := [0, 1], multiplicity := 2, SupportHyperplanes := [], Daughters := [],
        level := 0, my_place := 0, is_simplex := true } :=
    ⟨rfl, rfl, rfl, rfl, by decide, Or.inl rfl, by decide⟩
  have hrows : ∀ r ∈ submatrix graded_forest.Generators [0, 1], r.length = 2 := by decide
  have hdeg : ∀ r ∈ submatrix graded_forest.Generators [0, 1],
      v_scalar_product [1, 0] r = 1 := by decide
  exact ⟨hleaf, hrows, rfl, hdeg, rfl, rfl,
    subdivision_conserves_graded_volume failing_oracle graded_forest 2 0 0 0 _ hleaf hrows rfl
      [1, 0] 1 (by decide) hdeg rfl⟩

set_option maxRecDepth 100000 in
/-- C4 (counterexample). The leaf over `(1,0)`, `(0,1)` has multiplicity 1, the
volume of its generators; `MiniCone::refine` with the ray `(1,1)` appends two
children, of multiplicities 1 and 1, whose sum is 2. -/
theorem refine_children_exceed_parent :
    ExactLeaf diagonal_leveled 0 0
      { GenKeys := [0, 1], multiplicity := 1, SupportHyperplanes := [], Daughters := [],
        level := 0, my_place := 0, is_simplex := true } ∧
    diagonal_leveled.level_mults 1 = [] ∧
    (MiniCone.refine (exactKernel failing_oracle) 2 1 0 0 diagonal_leveled).level_mults 1
      = [1, 1] ∧
    (MiniCone.refine (exactKernel failing_oracle) 2 1 0 0 diagonal_leveled).cell 0 0
      = some { GenKeys := [0, 1], multiplicity := 1, SupportHyperplanes := [[1, 0], [0, 1]],
               Daughters := [0, 1], level := 0, my_place := 0, is_simplex := true } ∧
    (([1, 1] : List Int).sum ≠ 1) :=
  ⟨⟨rfl, rfl, rfl, rfl, by decide, Or.inl rfl, by decide⟩, rfl, rfl, rfl, by decide⟩


/-! ## The total multiplicity of the leaves under a subdivision -/

theorem sum_filter_map {α : Type} (p : α → Bool) (f : α → Int) (l : List α) :
    ((l.filter p).map f).sum = (l.map fun x => if p x then f x else 0).sum := by
  induction l with
  | nil => rfl
  | cons a l ih =>
    rw [List.filter_cons]
    by_cases h : p a = true
    · simp [h, ih]
    · simp [h, ih]

theorem sum_map_flatten {α : Type} (g : α → Int) (Ms : List (List α)) :
    (Ms.flatten.map g).sum = (Ms.map fun L => (L.map g).sum).sum := by
  induction Ms with
  | nil => rfl
  | cons L Ms ih =>
    rw [List.flatten_cons, List.map_append, List.sum_append, ih, List.map_cons, List.sum_cons]

theorem leaf_total_eq_weights (C : ConeCollection) :
    C.leaf_total = (C.Members.map fun L => (L.map MiniCone.leaf_weight).sum).sum := by
  unfold ConeCollection.leaf_total
  rw [getKeysAndMult_leaves]
  unfold ConeCollection.leaf_pairs
  rw [List.map_map, ← sum_map_flatten]
  have : ((fun p : List Nat × Int => p.2) ∘ fun mc : MiniCone => (mc.GenKeys, mc.multiplicity))
      = fun mc => mc.multiplicity := rfl
  rw [this, sum_filter_map]
  rfl

theorem sum_updateAt {α : Type} (f : α → α) (g : α → Int) (n : Nat) (l : List α) :
    ((updateAt f n l).map g).sum
      = (l.map g).sum + (match l[n]? with | some a => g (f a) - g a | none => 0) := by
  induction l generalizing n with
  | nil => cases n <;> simp [updateAt]
  | cons b l ih =>
    cases n with
    | zero =>
      simp only [updateAt, List.map_cons, List.sum_cons, List.getElem?_cons_zero]
      ring
    | succ n =>
      simp only [updateAt, List.map_cons, List.sum_cons, ih, List.getElem?_cons_succ]
      ring

theorem add_minicone_leaf_total (C : ConeCollection) (L p : Nat) (GKeys : List Nat)
    (mult : Int) (m : MiniCone) (hc : C.cell L p = some m) (hL : L + 1 < C.Members.length) :
    (C.add_minicone (L + 1) p GKeys mult).leaf_total
      = C.leaf_total + mult - m.leaf_weight ∧
    (C.add_minicone (L + 1) p GKeys mult).cell L p
      = some { m with Daughters := m.Daughters ++ [(C.Members.getD (L + 1) []).length] } := by
  have hLlt : L < C.Members.length := by omega
  have hcell := hc
  unfold ConeCollection.cell at hcell
  rw [List.getD_eq_getElem?_getD, List.getElem?_eq_getElem hLlt, Option.getD_some] at hcell
  constructor
  · rw [leaf_total_eq_weights, leaf_total_eq_weights]
    unfold ConeCollection.add_minicone
    simp only [Nat.zero_lt_succ, if_true, Nat.add_sub_cancel]
    rw [sum_updateAt, sum_updateAt, updateAt_getElem?]
    have hne : ¬ L + 1 = L := by omega
    simp only [hne, if_false, List.getElem?_eq_getElem hLlt, List.getElem?_eq_getElem hL]
    rw [sum_updateAt, hcell]
    simp [MiniCone.leaf_weight]
    ring
  · unfold ConeCollection.add_minicone ConeCollection.cell
    simp only [Nat.zero_lt_succ, if_true, Nat.add_sub_cancel]
    have hne : ¬ (L + 1 = L) := by omega
    simp only [getD_updateAt, updateAt_length, hLlt, and_self, if_true, hne, false_and,
      if_false, updateAt_getElem?]
    rw [show (C.Members.getD L [])[p]? = some m from hc]
    rfl

theorem subdivide_fold_leaf_total (K : Kernel) (key : Nat) (mc : MiniCone) (opp : List Nat) :
    ∀ (C : ConeCollection) (m : MiniCone), C.cell mc.level mc.my_place = some m →
      mc.level + 1 < C.Members.length →
      (opp.foldl (subdivide_step K key mc) C).leaf_total
        = C.leaf_total + (opp.map fun j => K.vol (submatrix C.Generators
            (List.insertionSort (fun a b => a ≤ b) (mc.GenKeys.set j key)))).sum
          - (if opp = [] then 0 else m.leaf_weight) := by
  induction opp with
  | nil => intro C m _ _; simp
  | cons j opp ih =>
    intro C m hc hL
    rw [List.foldl_cons]
    have hstep := add_minicone_leaf_total C mc.level mc.my_place
      (List.insertionSort (fun a b => a ≤ b) (mc.GenKeys.set j key))
      (K.vol (submatrix C.Generators
        (List.insertionSort (fun a b => a ≤ b) (mc.GenKeys.set j key)))) m hc hL
    have hG : (subdivide_step K key mc C j).Generators = C.Generators := rfl
    have hlen : mc.level + 1 < (subdivide_step K key mc C j).Members.length := by
      unfold subdivide_step
      rw [add_minicone_members_length]
      exact hL
    rw [ih (subdivide_step K key mc C j) _ hstep.2 hlen, hG]
    have h1 : (subdivide_step K key mc C j).leaf_total = C.leaf_total
        + K.vol (submatrix C.Generators
            (List.insertionSort (fun a b => a ≤ b) (mc.GenKeys.set j key)))
        - m.leaf_weight := hstep.1
    rw [h1]
    have hw : ({ m with Daughters := m.Daughters ++ [(C.Members.getD (mc.level + 1) []).length] }
        : MiniCone).leaf_weight = 0 := by
      simp [MiniCone.leaf_weight]
    rw [hw]
    simp only [List.map_cons, List.sum_cons, reduceCtorEq, if_false]
    split <;> ring

/-- C5 (amended). Under the concrete kernel, when `MiniCone::refine(key)`
appends children to a leaf whose multiplicity is the volume of its generators,
every child has positive multiplicity and the total multiplicity of the leaves
changes by the sum of the facet values of the inserted ray minus the volume of
the leaf: it gets strictly smaller exactly when the facet values add up to
less than that volume, and stays the same or grows otherwise.  Without
appended children the total is unchanged. -/
theorem subdivision_leaf_total (hb : Mat → Option (List Vec)) (C : ConeCollection)
    (key fuel lvl plc : Nat) (mc : MiniCone) (hleaf : ExactLeaf C lvl plc mc) :
    ∃ new : List Int,
      (MiniCone.refine (exactKernel hb) key (fuel + 1) lvl plc C).level_mults (lvl + 1)
        = C.level_mults (lvl + 1) ++ new ∧
      ((new = [] ∧
          (MiniCone.refine (exactKernel hb) key (fuel + 1) lvl plc C).leaf_total
            = C.leaf_total) ∨
        (new ≠ [] ∧ (∀ x ∈ new, 0 < x) ∧
          (MiniCone.refine (exactKernel hb) key (fuel + 1) lvl plc C).leaf_total
            = C.leaf_total
              + ((facet_values (submatrix C.Generators mc.GenKeys) (row C.Generators key)).sum
                - exact_vol (submatrix C.Generators mc.GenKeys)) ∧
          ((MiniCone.refine (exactKernel hb) key (fuel + 1) lvl plc C).leaf_total
              < C.leaf_total ↔
            (facet_values (submatrix C.Generators mc.GenKeys) (row C.Generators key)).sum
              < exact_vol (submatrix C.Generators mc.GenKeys)))) := by
  obtain ⟨hc, hD, hlev, hplc, hnext, hSH, hmult⟩ := hleaf
  have hsame : (C.cache_facets (exactKernel hb) lvl plc).leaf_total = C.leaf_total := by
    unfold ConeCollection.leaf_total
    rw [getKeysAndMult_of_uncached_eq C _ (cache_facets_uncached _ C lvl plc)]
  rw [refine_succ _ key fuel lvl plc C mc hc, hyperplanes_exact hb _ _ hSH]
  cases hf : facet_loop (row C.Generators key)
      (exact_simplex_data (submatrix C.Generators mc.GenKeys)) 0 [] with
  | none => exact ⟨[], by simp [cache_facets_level_mults], Or.inl ⟨rfl, hsame⟩⟩
  | some opp =>
    by_cases h1 : opp.length = 1
    · exact ⟨[], by simp [h1, cache_facets_level_mults], Or.inl ⟨rfl, by simp [h1, hsame]⟩⟩
    · have h2 : ¬ mc.Daughters.length > 0 := by simp [hD]
      simp only [h1, h2, if_false]
      have hlm : (opp.foldl (subdivide_step (exactKernel hb) key mc)
          (C.cache_facets (exactKernel hb) lvl plc)).level_mults (lvl + 1)
          = C.level_mults (lvl + 1) ++ opp.map fun j => exact_vol (submatrix C.Generators
              (List.insertionSort (fun a b => a ≤ b) (mc.GenKeys.set j key))) := by
        rw [← hlev, subdivide_fold_level_mults, cache_facets_level_mults]
        · rfl
        · rw [cache_facets_members_length, hlev]; exact hnext
      refine ⟨_, hlm, ?_⟩
      cases opp with
      | nil => exact Or.inl ⟨rfl, hsame⟩
      | cons j opp =>
        right
        have hc1 : (C.cache_facets (exactKernel hb) lvl plc).cell mc.level mc.my_place
            = some (mc.cache (exactKernel hb) C.Generators) := by
          rw [hlev, hplc]
          exact cell_cache_facets _ C lvl plc mc hc
        have hlt := subdivide_fold_leaf_total (exactKernel hb) key mc (j :: opp)
          (C.cache_facets (exactKernel hb) lvl plc) _ hc1
          (by rw [cache_facets_members_length, hlev]; exact hnext)
        have hw : (mc.cache (exactKernel hb) C.Generators).leaf_weight = mc.multiplicity := by
          simp [MiniCone.leaf_weight, MiniCone.cache, hD]
        have hsum := children_sum C.Generators mc.GenKeys key (j :: opp) hf
        have htot : (List.foldl (subdivide_step (exactKernel hb) key mc)
            (C.cache_facets (exactKernel hb) lvl plc) (j :: opp)).leaf_total
            = C.leaf_total
              + ((facet_values (submatrix C.Generators mc.GenKeys) (row C.Generators key)).sum
                - exact_vol (submatrix C.Generators mc.GenKeys)) := by
          rw [hlt, hsame, hw, hmult, ← hsum]
          simp only [reduceCtorEq, if_false]
          have : (C.cache_facets (exactKernel hb) lvl plc).Generators = C.Generators := rfl
          rw [this]
          show _ + (List.map (fun j => exact_vol _) (j :: opp)).sum - _ = _
          ring
        refine ⟨by simp, ?_, htot, ?_⟩
        · intro x hx
          obtain ⟨j1, hj1, rfl⟩ := List.mem_map.mp hx
          have := children_vol _ _ _ _ hf j1 hj1
          rw [this.1]
          exact this.2
        · rw [htot]
          constructor <;> intro h <;> omega


set_option maxRecDepth 100000 in
/-- Witness for `subdivision_leaf_total`: the cone over `(2,1)`, `(1,2)` of
multiplicity 3 and the ray `(1,1)`, whose facet values 1 and 1 add up to less
than 3; the total of the leaves drops from 3 to 2. -/
theorem subdivision_leaf_total_witness :
    ExactLeaf skew_forest 0 0
      { GenKeys := [0, 1], multiplicity := 3, SupportHyperplanes := [], Daughters := [],
        level := 0, my_place := 0, is_simplex := true } ∧
    skew_forest.leaf_total = 3 ∧
    (MiniCone.refine (exactKernel failing_oracle) 2 1 0 0 skew_forest).leaf_total = 2 ∧
    facet_values (submatrix skew_forest.Generators [0, 1]) (row skew_forest.Generators 2)
      = [1, 1] ∧
    ∃ new : List Int,
      (MiniCone.refine (exactKernel failing_oracle) 2 1 0 0 skew_forest).level_mults 1
        = skew_forest.level_mults 1 ++ new ∧
      ((new = [] ∧
          (MiniCone.refine (exactKernel failing_oracle) 2 1 0 0 skew_forest).leaf_total
            = skew_forest.leaf_total) ∨
        (new ≠ [] ∧ (∀ x ∈ new, 0 < x) ∧
          (MiniCone.refine (exactKernel failing_oracle) 2 1 0 0 skew_forest).leaf_total
            = skew_forest.leaf_total
              + ((facet_values (submatrix skew_forest.Generators [0, 1])
                    (row skew_forest.Generators 2)).sum
                - exact_vol (submatrix skew_forest.Generators [0, 1])) ∧
          ((MiniCone.refine (exactKernel failing_oracle) 2 1 0 0 skew_forest).leaf_total
              < skew_forest.leaf_total ↔
            (facet_values (submatrix skew_forest.Generators [0, 1])
                (row skew_forest.Generators 2)).sum
              < exact_vol (submatrix skew_forest.Generators [0, 1])))) :=
  ⟨⟨rfl, rfl, rfl, rfl, by decide, Or.inl rfl, by decide⟩, by decide, by decide, by decide,
    subdivision_leaf_total failing_oracle skew_forest 2 0 0 0 _
      ⟨rfl, rfl, rfl, rfl, by decide, Or.inl rfl, by decide⟩⟩

set_option maxRecDepth 100000 in
/-- C5 (counterexample). Three insertions that append children without
lowering the total multiplicity of the leaves: `ConeCollection::refine` with
the ray `(1,1)` on the quadrant `(1,0)`, `(0,1)` raises it from 1 to 2; the
pass of `make_unimodular` on the cone over `(1,0,0)`, `(0,1,0)`, `(1,1,2)`,
which inserts the Hilbert basis point `(1,1,1)`, raises it from 2 to 3; and in
the concrete scenario it stays 2. -/
theorem insertion_without_decrease :
    (diagonal_forest.leaf_total = 1 ∧
      (diagonal_forest.refine (exactKernel failing_oracle) 2).level_mults 1 = [1, 1] ∧
      (diagonal_forest.refine (exactKernel failing_oracle) 2).leaf_total = 2) ∧
    (spatial_forest.leaf_total = 2 ∧
      exact_vol (submatrix spatial_forest.Generators [0, 1, 2]) = 2 ∧
      spatial_forest.collect (exactKernel spatial_oracle) = some [([1, 1, 1], 0, 0)] ∧
      (insert_hilbs (exactKernel spatial_oracle) spatial_forest
        (sort_hilbs [([1, 1, 1], 0, 0)])).level_mults 1 = [1, 1, 1] ∧
      (insert_hilbs (exactKernel spatial_oracle) spatial_forest
        (sort_hilbs [([1, 1, 1], 0, 0)])).leaf_total = 3) ∧
    (scenario_forest.leaf_total = 2 ∧
      scenario_forest.make_unimodular (exactKernel scenario_oracle) 2
        = Outcome.returned scenario_result ∧
      scenario_result.level_mults 1 = [1, 1] ∧
      scenario_result.leaf_total = 2) := by
  refine ⟨⟨?_, ?_, ?_⟩, ⟨?_, ?_, ?_, ?_, ?_⟩, ⟨?_, ?_, ?_, ?_⟩⟩ <;> decide


/-! ## Cones and facet values -/

section geometry
variable {F : Type} [LinearOrderedField F]


theorem in_comb_perm (P : F → Prop) (n : Nat) (l l1 : Mat) (h : l.Perm l1) :
    ∀ x : Fin n → F, in_comb P n l x → in_comb P n l1 x := by
  induction h with
  | nil => intro x hx; exact hx
  | cons r _ ih =>
    rintro x ⟨a, ha, y, hy, rfl⟩
    exact ⟨a, ha, y, ih y hy, rfl⟩
  | swap r s l2 =>
    rintro x ⟨a, ha, y, ⟨b, hb, z, hz, rfl⟩, rfl⟩
    exact ⟨b, hb, a • rvec n s + z, ⟨a, ha, z, hz, rfl⟩, by
      rw [← add_assoc, ← add_assoc, add_comm (a • rvec n s)]⟩
  | trans _ _ ih1 ih2 => intro x hx; exact ih2 x (ih1 x hx)

theorem in_comb_iff_sum (P : F → Prop) (n : Nat) (M : Mat) :
    ∀ (m : Nat) (x : Fin n → F), M.length = m →
      (in_comb P n M x ↔
        ∃ c : Fin m → F, (∀ i, P (c i)) ∧ x = ∑ i : Fin m, c i • rvec n (M.getD i [])) := by
  induction M with
  | nil =>
    intro m x hm
    simp only [List.length_nil] at hm
    subst hm
    simp [in_comb]
  | cons r M ih =>
    intro m x hm
    cases m with
    | zero => simp at hm
    | succ m =>
      have hm1 : M.length = m := by simpa using hm
      simp only [in_comb]
      constructor
      · rintro ⟨a, ha, y, hy, rfl⟩
        obtain ⟨c, hc, rfl⟩ := (ih m y hm1).mp hy
        refine ⟨Fin.cons a c, ?_, ?_⟩
        · intro i
          refine Fin.cases ?_ (fun j => ?_) i
          · simpa using ha
          · simpa using hc j
        · rw [Fin.sum_univ_succ]
          simp
      · rintro ⟨c, hc, rfl⟩
        refine ⟨c 0, hc 0, ∑ i : Fin m, c i.succ • rvec n (M.getD i []), ?_, ?_⟩
        · exact (ih m _ hm1).mpr ⟨fun i => c i.succ, fun i => hc i.succ, rfl⟩
        · rw [Fin.sum_univ_succ]
          simp



theorem exact_row_length (M : Mat) (i : Nat) (hi : i < M.length) :
    ((exact_simplex_data M).getD i []).length = M.length := by
  rw [getD_exact_simplex_data M i hi]
  simp

theorem hval_rvec (n : Nat) (M : Mat) (hM : M.length = n) (i : Nat) (hi : i < n) (r : Vec) :
    hval n M i (rvec n r)
      = (((v_scalar_product r ((exact_simplex_data M).getD i []) : Int)) : F) := by
  rw [dot_eq_sum r _ n (by rw [exact_row_length M i (by omega), hM])]
  unfold hval rvec
  push_cast
  apply Finset.sum_congr rfl
  intro k _
  ring

theorem exact_vol_pos (M : Mat) (h : det M ≠ 0) : 0 < exact_vol M := by
  unfold exact_vol
  split <;> omega

theorem hval_generator (n : Nat) (M : Mat) (hM : M.length = n) (i j : Nat) (hi : i < n)
    (hj : j < n) :
    hval n M i (rvec n (M.getD j [])) = if i = j then ((exact_vol M : Int) : F) else 0 := by
  rw [hval_rvec n M hM i hi, facet_value M i (by omega),
    det_set_own_row M i j (by omega) (by omega)]
  by_cases h : i = j
  · simp only [h, if_true]
    rw [sign_mul_self_eq]
    rfl
  · simp [h]

theorem facet_entry (M : Mat) (i k : Nat) (hi : i < M.length) (hk : k < M.length) :
    ((exact_simplex_data M).getD i []).getD k 0
      = Int.sign (det M) * (to_matrix M.length M).adjugate ⟨k, hk⟩ ⟨i, hi⟩ := by
  rw [getD_exact_simplex_data M i hi]
  have h : k < (List.range M.length).length := by simpa using hk
  rw [List.getD_eq_getElem?_getD, List.getElem?_map, List.getElem?_eq_getElem h]
  simp only [List.getElem_range, Option.map_some', Option.getD_some]
  congr 1
  have hlen : (M.set i (unit_vec M.length k)).length = M.length := by simp
  rw [det, det_aux_eq_det _ _ rfl, hlen, to_matrix_set M.length M ⟨i, hi⟩ _ rfl,
    Matrix.adjugate_apply]
  have := to_fun_unit_vec M.length ⟨k, hk⟩
  simp only at this
  rw [this]

theorem cramer_int (M : Mat) (k j : Fin M.length) :
    ∑ i : Fin M.length,
      ((exact_simplex_data M).getD i []).getD k 0 * (M.getD i []).getD j 0
      = if k = j then exact_vol M else 0 := by
  have h1 : ∀ i : Fin M.length,
      ((exact_simplex_data M).getD i []).getD k 0 * (M.getD i []).getD j 0
        = Int.sign (det M) * ((to_matrix M.length M).adjugate k i * to_matrix M.length M i j) := by
    intro i
    rw [facet_entry M i k i.isLt k.isLt]
    simp only [to_matrix, Matrix.of_apply, Fin.eta]
    ring
  rw [Finset.sum_congr rfl (fun i _ => h1 i), ← Finset.mul_sum]
  have h2 : ∑ i : Fin M.length, (to_matrix M.length M).adjugate k i * to_matrix M.length M i j
      = ((to_matrix M.length M).adjugate * to_matrix M.length M) k j := by
    rw [Matrix.mul_apply]
  rw [h2, Matrix.adjugate_mul, Matrix.smul_apply, Matrix.one_apply, ← det_eq_det]
  by_cases h : k = j
  · simp only [h, if_true, smul_eq_mul, mul_one]
    rw [sign_mul_self_eq]
    rfl
  · simp [h]

theorem cramer_field (n : Nat) (M : Mat) (hM : M.length = n) (x : Fin n → F) :
    ((exact_vol M : Int) : F) • x = ∑ i : Fin n, hval n M i x • rvec n (M.getD i []) := by
  subst hM
  funext j
  simp only [Pi.smul_apply, smul_eq_mul, Finset.sum_apply, hval, rvec, Finset.sum_mul]
  rw [Finset.sum_comm]
  have h : ∀ k : Fin M.length,
      ∑ i : Fin M.length,
        ((((exact_simplex_data M).getD i []).getD k 0 : Int) : F) * x k
          * (((M.getD i []).getD j 0 : Int) : F)
      = x k * if k = j then ((exact_vol M : Int) : F) else 0 := by
    intro k
    have := congrArg (fun z : Int => (z : F)) (cramer_int M k j)
    simp only [Int.cast_sum, Int.cast_mul] at this
    have h2 : (((if k = j then exact_vol M else 0 : Int)) : F)
        = if k = j then ((exact_vol M : Int) : F) else 0 := by
      split <;> simp
    rw [mul_comm (x k), ← h2, ← this, Finset.sum_mul]
    apply Finset.sum_congr rfl
    intro i _
    ring
  rw [Finset.sum_congr rfl (fun k _ => h k)]
  simp [mul_comm]

theorem hval_add (n : Nat) (M : Mat) (i : Nat) (x y : Fin n → F) :
    hval n M i (x + y) = hval n M i x + hval n M i y := by
  unfold hval
  rw [← Finset.sum_add_distrib]
  apply Finset.sum_congr rfl
  intro k _
  simp only [Pi.add_apply]
  ring

theorem hval_smul (n : Nat) (M : Mat) (i : Nat) (a : F) (x : Fin n → F) :
    hval n M i (a • x) = a * hval n M i x := by
  unfold hval
  rw [Finset.mul_sum]
  apply Finset.sum_congr rfl
  intro k _
  simp only [Pi.smul_apply, smul_eq_mul]
  ring

theorem hval_sum (n : Nat) (M : Mat) (i : Nat) (m : Nat) (c : Fin m → F)
    (y : Fin m → Fin n → F) :
    hval n M i (∑ l : Fin m, c l • y l) = ∑ l : Fin m, c l * hval n M i (y l) := by
  unfold hval
  simp only [Finset.sum_apply, Pi.smul_apply, smul_eq_mul, Finset.mul_sum]
  rw [Finset.sum_comm]
  apply Finset.sum_congr rfl
  intro l _
  apply Finset.sum_congr rfl
  intro k _
  ring

/-- A vector is determined by its facet values on a non-degenerate simplex. -/
theorem ext_hval (n : Nat) (M : Mat) (hM : M.length = n) (hdet : det M ≠ 0) (x y : Fin n → F)
    (h : ∀ i : Fin n, hval n M i x = hval n M i y) : x = y := by
  have hx := cramer_field n M hM x
  have hy := cramer_field n M hM y
  have hv : (((exact_vol M : Int)) : F) ≠ 0 := by
    have := exact_vol_pos M hdet
    exact_mod_cast (ne_of_gt this)
  have : ((exact_vol M : Int) : F) • x = ((exact_vol M : Int) : F) • y := by
    rw [hx, hy]
    apply Finset.sum_congr rfl
    intro i _
    rw [h i]
  exact smul_right_injective _ hv this


end geometry

/-! ## Stellar subdivision of a simplicial cone -/

section stellar
variable {F : Type} [LinearOrderedField F]

theorem exact_vol_cast_pos (M : Mat) (h : det M ≠ 0) : (0 : F) < ((exact_vol M : Int) : F) := by
  exact_mod_cast exact_vol_pos M h

theorem hval_comb (n : Nat) (M : Mat) (hM : M.length = n) (i : Fin n) (c : Fin n → F) :
    hval n M i (∑ l : Fin n, c l • rvec n (M.getD l [])) = c i * ((exact_vol M : Int) : F) := by
  rw [hval_sum]
  have h : ∀ l : Fin n, c l * hval n M i (rvec n (M.getD l []))
      = if l = i then c l * ((exact_vol M : Int) : F) else 0 := by
    intro l
    rw [hval_generator n M hM i l i.isLt l.isLt]
    by_cases hl : l = i
    · subst hl; simp
    · have : ¬ (i : Nat) = l := fun h1 => hl (Fin.ext h1.symm)
      simp [hl, this]
  rw [Finset.sum_congr rfl (fun l _ => h l)]
  simp

/-- The combinations of the generators of a non-degenerate simplex, read off
from the facet values. -/
theorem in_comb_iff_hval (P : F → Prop) (n : Nat) (M : Mat) (hM : M.length = n)
    (hdet : det M ≠ 0) (x : Fin n → F) :
    in_comb P n M x ↔ ∀ i : Fin n, P (hval n M i x / ((exact_vol M : Int) : F)) := by
  have hv := exact_vol_cast_pos (F := F) M hdet
  rw [in_comb_iff_sum P n M n x hM]
  constructor
  · rintro ⟨c, hc, rfl⟩ i
    rw [hval_comb n M hM i c, mul_div_assoc, div_self (ne_of_gt hv), mul_one]
    exact hc i
  · intro h
    refine ⟨fun i => hval n M i x / ((exact_vol M : Int) : F), h, ?_⟩
    apply ext_hval n M hM hdet
    intro i
    rw [hval_comb n M hM i, div_mul_cancel₀ _ (ne_of_gt hv)]

theorem in_cone_iff_hval (n : Nat) (M : Mat) (hM : M.length = n) (hdet : det M ≠ 0)
    (x : Fin n → F) : in_cone n M x ↔ ∀ i : Fin n, 0 ≤ hval n M i x := by
  have hv := exact_vol_cast_pos (F := F) M hdet
  unfold in_cone
  rw [in_comb_iff_hval _ n M hM hdet]
  constructor
  · intro h i
    have := h i
    rwa [le_div_iff₀ hv, zero_mul] at this
  · intro h i
    exact div_nonneg (h i) (le_of_lt hv)

theorem in_interior_iff_hval (n : Nat) (M : Mat) (hM : M.length = n) (hdet : det M ≠ 0)
    (x : Fin n → F) : in_interior n M x ↔ ∀ i : Fin n, 0 < hval n M i x := by
  have hv := exact_vol_cast_pos (F := F) M hdet
  unfold in_interior
  rw [in_comb_iff_hval _ n M hM hdet]
  constructor
  · intro h i
    have := h i
    rwa [lt_div_iff₀ hv, zero_mul] at this
  · intro h i
    exact div_pos (h i) hv

/-- The facet values, for the parent `M`, of a combination of the rows of the
child `M.set j v`. -/
theorem hval_child_comb (n : Nat) (M : Mat) (hM : M.length = n) (j : Fin n) (v : Vec)
    (i : Fin n) (c : Fin n → F) :
    hval n M i (∑ l : Fin n, c l • rvec n ((M.set j v).getD l []))
      = c j * hval n M i (rvec n v)
        + if i = j then 0 else c i * ((exact_vol M : Int) : F) := by
  rw [hval_sum]
  have hj : (j : Nat) < M.length := by rw [hM]; exact j.isLt
  have h : ∀ l : Fin n, c l * hval n M i (rvec n ((M.set j v).getD l []))
      = (if l = j then c j * hval n M i (rvec n v) else 0)
        + (if l = i then (if i = j then 0 else c i * ((exact_vol M : Int) : F)) else 0) := by
    intro l
    by_cases hl : l = j
    · subst hl
      have : (M.set l v).getD l [] = v := by
        simp [List.getD_eq_getElem?_getD, List.getElem?_set, hj]
      rw [this]
      by_cases hi : l = i
      · subst hi; simp
      · simp [hi]
    · have hne : ¬ (j : Nat) = l := fun h1 => hl (Fin.ext h1.symm)
      have : (M.set j v).getD l [] = M.getD l [] := by
        simp [List.getD_eq_getElem?_getD, List.getElem?_set, hne]
      rw [this, hval_generator n M hM i l i.isLt l.isLt]
      by_cases hi : l = i
      · subst hi
        simp [hl]
      · have : ¬ (i : Nat) = l := fun h1 => hi (Fin.ext h1.symm)
        simp [hl, hi, this]
  rw [Finset.sum_congr rfl (fun l _ => h l), Finset.sum_add_distrib]
  simp

/-- The combinations of the rows of the child `M.set j v`, read off from the
facet values for the parent `M`, when facet `j` is positive on `v`. -/
theorem in_comb_child (P : F → Prop) (n : Nat) (M : Mat) (hM : M.length = n)
    (hdet : det M ≠ 0) (j : Fin n) (v : Vec) (hpos : (0 : F) < hval n M j (rvec n v))
    (x : Fin n → F) :
    in_comb P n (M.set j v) x ↔
      P (hval n M j x / hval n M j (rvec n v)) ∧
      ∀ i : Fin n, i ≠ j →
        P ((hval n M i x - hval n M j x / hval n M j (rvec n v) * hval n M i (rvec n v))
          / ((exact_vol M : Int) : F)) := by
  have hv := exact_vol_cast_pos (F := F) M hdet
  rw [in_comb_iff_sum P n (M.set j v) n x (by simpa using hM)]
  constructor
  · rintro ⟨c, hc, rfl⟩
    have hj := hval_child_comb n M hM j v j c
    simp only [if_true, add_zero] at hj
    have hcj : hval n M j (∑ l : Fin n, c l • rvec n ((M.set j v).getD l []))
        / hval n M j (rvec n v) = c j := by
      rw [hj, mul_div_assoc, div_self (ne_of_gt hpos), mul_one]
    refine ⟨by rw [hcj]; exact hc j, ?_⟩
    intro i hi
    rw [hcj, hval_child_comb n M hM j v i c]
    simp only [hi, if_false]
    have : (c j * hval n M i (rvec n v) + c i * ((exact_vol M : Int) : F)
        - c j * hval n M i (rvec n v)) / ((exact_vol M : Int) : F) = c i := by
      field_simp
    rw [this]
    exact hc i
  · rintro ⟨h1, h2⟩
    refine ⟨fun i => if i = j then hval n M j x / hval n M j (rvec n v)
      else (hval n M i x - hval n M j x / hval n M j (rvec n v) * hval n M i (rvec n v))
          / ((exact_vol M : Int) : F), ?_, ?_⟩
    · intro i
      by_cases hi : i = j
      · simp only [hi, if_true]; exact h1
      · simp only [hi, if_false]; exact h2 i hi
    · apply ext_hval n M hM hdet
      intro i
      rw [hval_child_comb n M hM j v i]
      by_cases hi : i = j
      · subst hi
        simp only [if_true, add_zero]
        field_simp
      · simp only [hi, if_false, if_true]
        field_simp
        ring

theorem in_cone_child (n : Nat) (M : Mat) (hM : M.length = n) (hdet : det M ≠ 0) (j : Fin n)
    (v : Vec) (hpos : (0 : F) < hval n M j (rvec n v)) (x : Fin n → F) :
    in_cone n (M.set j v) x ↔
      0 ≤ hval n M j x ∧
      ∀ i : Fin n, i ≠ j →
        hval n M j x * hval n M i (rvec n v) ≤ hval n M i x * hval n M j (rvec n v) := by
  have hv := exact_vol_cast_pos (F := F) M hdet
  unfold in_cone
  rw [in_comb_child _ n M hM hdet j v hpos]
  constructor
  · rintro ⟨h1, h2⟩
    refine ⟨by rwa [le_div_iff₀ hpos, zero_mul] at h1, ?_⟩
    intro i hi
    have := h2 i hi
    rw [le_div_iff₀ hv, zero_mul, sub_nonneg, div_mul_eq_mul_div, div_le_iff₀ hpos] at this
    exact this
  · rintro ⟨h1, h2⟩
    refine ⟨div_nonneg h1 (le_of_lt hpos), ?_⟩
    intro i hi
    rw [le_div_iff₀ hv, zero_mul, sub_nonneg, div_mul_eq_mul_div, div_le_iff₀ hpos]
    exact h2 i hi

theorem in_interior_child (n : Nat) (M : Mat) (hM : M.length = n) (hdet : det M ≠ 0)
    (j : Fin n) (v : Vec) (hpos : (0 : F) < hval n M j (rvec n v)) (x : Fin n → F) :
    in_interior n (M.set j v) x ↔
      0 < hval n M j x ∧
      ∀ i : Fin n, i ≠ j →
        hval n M j x * hval n M i (rvec n v) < hval n M i x * hval n M j (rvec n v) := by
  have hv := exact_vol_cast_pos (F := F) M hdet
  unfold in_interior
  rw [in_comb_child _ n M hM hdet j v hpos]
  constructor
  · rintro ⟨h1, h2⟩
    refine ⟨by rwa [lt_div_iff₀ hpos, zero_mul] at h1, ?_⟩
    intro i hi
    have := h2 i hi
    rw [lt_div_iff₀ hv, zero_mul, sub_pos, div_mul_eq_mul_div, div_lt_iff₀ hpos] at this
    exact this
  · rintro ⟨h1, h2⟩
    refine ⟨div_pos h1 hpos, ?_⟩
    intro i hi
    rw [lt_div_iff₀ hv, zero_mul, sub_pos, div_mul_eq_mul_div, div_lt_iff₀ hpos]
    exact h2 i hi

/-- A child of a stellar subdivision lies in the parent. -/
theorem child_cone_subset (n : Nat) (M : Mat) (hM : M.length = n) (hdet : det M ≠ 0)
    (v : Vec) (hnn : ∀ i : Fin n, (0 : F) ≤ hval n M i (rvec n v)) (j : Fin n)
    (hpos : (0 : F) < hval n M j (rvec n v)) (x : Fin n → F)
    (hx : in_cone n (M.set j v) x) : in_cone n M x := by
  rw [in_cone_child n M hM hdet j v hpos] at hx
  rw [in_cone_iff_hval n M hM hdet]
  intro i
  by_cases hi : i = j
  · rw [hi]; exact hx.1
  · have h1 := hx.2 i hi
    have h2 : 0 ≤ hval n M j x * hval n M i (rvec n v) := mul_nonneg hx.1 (hnn i)
    have h3 : 0 ≤ hval n M i x * hval n M j (rvec n v) := le_trans h2 h1
    by_contra hneg
    have := mul_neg_of_neg_of_pos (not_le.mp hneg) hpos
    exact absurd h3 (not_le.mpr this)

/-- The interior of a child of a stellar subdivision lies in the interior of
the parent. -/
theorem child_interior_subset (n : Nat) (M : Mat) (hM : M.length = n) (hdet : det M ≠ 0)
    (v : Vec) (hnn : ∀ i : Fin n, (0 : F) ≤ hval n M i (rvec n v)) (j : Fin n)
    (hpos : (0 : F) < hval n M j (rvec n v)) (x : Fin n → F)
    (hx : in_interior n (M.set j v) x) : in_interior n M x := by
  rw [in_interior_child n M hM hdet j v hpos] at hx
  rw [in_interior_iff_hval n M hM hdet]
  intro i
  by_cases hi : i = j
  · rw [hi]; exact hx.1
  · have h1 := hx.2 i hi
    have h2 : 0 ≤ hval n M j x * hval n M i (rvec n v) := mul_nonneg (le_of_lt hx.1) (hnn i)
    have h3 : 0 < hval n M i x * hval n M j (rvec n v) := lt_of_le_of_lt h2 h1
    by_contra hneg
    have := mul_nonpos_of_nonpos_of_nonneg (not_lt.mp hneg) (le_of_lt hpos)
    exact absurd h3 (not_lt.mpr this)

/-- The children of a stellar subdivision cover the parent. -/
theorem children_cover (n : Nat) (M : Mat) (hM : M.length = n) (hdet : det M ≠ 0)
    (v : Vec) (hnn : ∀ i : Fin n, (0 : F) ≤ hval n M i (rvec n v))
    (hex : ∃ j : Fin n, (0 : F) < hval n M j (rvec n v)) (x : Fin n → F)
    (hx : in_cone n M x) :
    ∃ j : Fin n, (0 : F) < hval n M j (rvec n v) ∧ in_cone n (M.set j v) x := by
  rw [in_cone_iff_hval n M hM hdet] at hx
  obtain ⟨j0, hj0⟩ := hex
  have hne : (Finset.univ.filter fun j : Fin n => (0 : F) < hval n M j (rvec n v)).Nonempty :=
    ⟨j0, by simp [hj0]⟩
  obtain ⟨j, hj, hmin⟩ := Finset.exists_min_image _
    (fun j : Fin n => hval n M j x / hval n M j (rvec n v)) hne
  have hjpos : (0 : F) < hval n M j (rvec n v) := by simpa using hj
  refine ⟨j, hjpos, ?_⟩
  rw [in_cone_child n M hM hdet j v hjpos]
  refine ⟨hx j, ?_⟩
  intro i _
  rcases lt_or_eq_of_le (hnn i) with hi | hi
  · have := hmin i (by simp [hi])
    simp only at this
    rw [div_le_div_iff₀ hjpos hi] at this
    exact this
  · rw [← hi, mul_zero]
    exact mul_nonneg (hx i) (le_of_lt hjpos)

/-- Two different children of a stellar subdivision have disjoint interiors. -/
theorem children_disjoint (n : Nat) (M : Mat) (hM : M.length = n) (hdet : det M ≠ 0)
    (v : Vec) (j k : Fin n) (hjk : j ≠ k) (hj : (0 : F) < hval n M j (rvec n v))
    (hk : (0 : F) < hval n M k (rvec n v)) (x : Fin n → F)
    (hxj : in_interior n (M.set j v) x) (hxk : in_interior n (M.set k v) x) : False := by
  rw [in_interior_child n M hM hdet j v hj] at hxj
  rw [in_interior_child n M hM hdet k v hk] at hxk
  have h1 := hxj.2 k (Ne.symm hjk)
  have h2 := hxk.2 j hjk
  exact lt_asymm h1 h2


end stellar

/-! ## Cells after `add_minicone` and after a subdivision -/

theorem cell_eq (C : ConeCollection) (k i : Nat) :
    C.cell k i = (C.Members.getD k [])[i]? := rfl

theorem cell_lt (C : ConeCollection) (k i : Nat) (mc : MiniCone) (h : C.cell k i = some mc) :
    k < C.Members.length ∧ i < (C.Members.getD k []).length := by
  unfold ConeCollection.cell at h
  have hi : i < (C.Members.getD k []).length := by
    by_contra hi
    rw [List.getElem?_eq_none (Nat.le_of_not_lt hi)] at h
    cases h
  refine ⟨?_, hi⟩
  by_contra hk
  rw [List.getD_eq_getElem?_getD, List.getElem?_eq_none (Nat.le_of_not_lt hk)] at hi
  simp at hi

theorem cell_of_lt (C : ConeCollection) (k i : Nat) (hi : i < (C.Members.getD k []).length) :
    ∃ mc, C.cell k i = some mc := by
  unfold ConeCollection.cell
  exact ⟨_, List.getElem?_eq_getElem hi⟩

theorem add_minicone_members (C : ConeCollection) (k p : Nat) (GKeys : List Nat) (mult : Int) :
    (C.add_minicone (k + 1) p GKeys mult).Members
      = updateAt (updateAt (fun m => { m with
            Daughters := m.Daughters ++ [(C.Members.getD (k + 1) []).length] }) p) k
          (updateAt (fun L => L ++
            [new_cell C (k + 1) (C.Members.getD (k + 1) []).length GKeys mult]) (k + 1)
            C.Members) := by
  unfold ConeCollection.add_minicone new_cell
  simp

theorem add_minicone_level_length (C : ConeCollection) (k p : Nat) (GKeys : List Nat)
    (mult : Int) (hk : k + 1 < C.Members.length) (l : Nat) :
    ((C.add_minicone (k + 1) p GKeys mult).Members.getD l []).length
      = (C.Members.getD l []).length + if l = k + 1 then 1 else 0 := by
  rw [add_minicone_members, getD_updateAt]
  by_cases h1 : l = k + 1
  · subst h1
    have : ¬ (k = k + 1 ∧ k + 1 < (updateAt (fun L => L ++
        [new_cell C (k + 1) (C.Members.getD (k + 1) []).length GKeys mult]) (k + 1)
        C.Members).length) := by omega
    rw [if_neg this, getD_updateAt]
    simp [hk]
  · by_cases h2 : k = l
    · subst h2
      simp only [updateAt_length, h1, if_false, add_zero]
      split
      · rw [updateAt_length, getD_updateAt]
        have : ¬ (k + 1 = k ∧ k < C.Members.length) := by omega
        rw [if_neg this]
      · rw [getD_updateAt]
        have : ¬ (k + 1 = k ∧ k < C.Members.length) := by omega
        rw [if_neg this]
    · have h3 : ¬ (k = l ∧ l < (updateAt (fun L => L ++
          [new_cell C (k + 1) (C.Members.getD (k + 1) []).length GKeys mult]) (k + 1)
          C.Members).length) := fun h => h2 h.1
      rw [if_neg h3, getD_updateAt]
      have h4 : ¬ (k + 1 = l ∧ l < C.Members.length) := fun h => h1 h.1.symm
      rw [if_neg h4]
      simp [h1]

/-- The cells after one `add_minicone` below the cell at `(k, p)`. -/
theorem cell_add_minicone (C : ConeCollection) (k p : Nat) (GKeys : List Nat) (mult : Int)
    (hk : k + 1 < C.Members.length) (l q : Nat) :
    (C.add_minicone (k + 1) p GKeys mult).cell l q =
      if l = k + 1 ∧ q = (C.Members.getD (k + 1) []).length then
        some (new_cell C (k + 1) (C.Members.getD (k + 1) []).length GKeys mult)
      else if l = k ∧ q = p then
        (C.cell k p).map fun m => { m with
          Daughters := m.Daughters ++ [(C.Members.getD (k + 1) []).length] }
      else C.cell l q := by
  rw [cell_eq, add_minicone_members, getD_updateAt, updateAt_length]
  by_cases h1 : l = k + 1
  · subst h1
    have hn : ¬ (k = k + 1 ∧ k + 1 < C.Members.length) := by omega
    rw [if_neg hn, getD_updateAt]
    simp only [hk, and_self, if_true, true_and]
    by_cases h2 : q = (C.Members.getD (k + 1) []).length
    · subst h2
      simp
    · have hn2 : ¬ (k + 1 = k ∧ q = p) := by omega
      simp only [h2, if_false, hn2]
      rw [cell_eq]
      rcases Nat.lt_or_ge q (C.Members.getD (k + 1) []).length with h3 | h3
      · rw [List.getElem?_append_left h3]
      · have h4 : (C.Members.getD (k + 1) []).length < q := by omega
        rw [List.getElem?_eq_none (by rw [List.length_append, List.length_singleton]; omega),
          List.getElem?_eq_none (by omega)]
  · have hn1 : ¬ (l = k + 1 ∧ q = (C.Members.getD (k + 1) []).length) := fun h => h1 h.1
    rw [if_neg hn1]
    by_cases h2 : l = k
    · subst h2
      have hl : l < C.Members.length := by omega
      simp only [hl, and_self, if_true, true_and]
      rw [getD_updateAt]
      have hn2 : ¬ (l + 1 = l ∧ l < C.Members.length) := by omega
      rw [if_neg hn2, updateAt_getElem?]
      by_cases h3 : q = p
      · subst h3
        simp [cell_eq]
      · have h4 : ¬ p = q := fun h => h3 h.symm
        simp [h3, h4, cell_eq]
    · have hn2 : ¬ (k = l ∧ l < C.Members.length) := fun h => h2 h.1.symm
      have hn3 : ¬ (l = k ∧ q = p) := fun h => h2 h.1
      rw [if_neg hn2, if_neg hn3, getD_updateAt]
      have hn4 : ¬ (k + 1 = l ∧ l < C.Members.length) := fun h => h1 h.1.symm
      rw [if_neg hn4, cell_eq]


theorem subdivide_fold_cells (K : Kernel) (key : Nat) (mc : MiniCone) (opp : List Nat) :
    ∀ (C : ConeCollection) (X : MiniCone), C.cell mc.level mc.my_place = some X →
      mc.level + 1 < C.Members.length →
      Subdivided K key mc.GenKeys mc.level mc.my_place opp X C
        (opp.foldl (subdivide_step K key mc) C) := by
  induction opp with
  | nil =>
    intro C X hX _
    exact ⟨rfl, rfl, rfl, fun l => by simp, by simpa [MiniCone.with_daughters] using hX,
      fun t ht => by simp at ht, fun l q _ _ => rfl⟩
  | cons j opp ih =>
    intro C X hX hk
    rw [List.foldl_cons]
    have hstep : subdivide_step K key mc C j
        = C.add_minicone (mc.level + 1) mc.my_place (child_keys mc.GenKeys key j)
            (K.vol (submatrix C.Generators (child_keys mc.GenKeys key j))) := rfl
    have hlen1 : (subdivide_step K key mc C j).Members.length = C.Members.length := by
      rw [hstep, add_minicone_members_length]
    have hX1 : (subdivide_step K key mc C j).cell mc.level mc.my_place
        = some (X.with_daughters [(C.Members.getD (mc.level + 1) []).length]) := by
      rw [hstep, cell_add_minicone _ _ _ _ _ hk]
      have : ¬ (mc.level = mc.level + 1 ∧
          mc.my_place = (C.Members.getD (mc.level + 1) []).length) := by omega
      rw [if_neg this, if_pos ⟨rfl, rfl⟩, hX]
      rfl
    have hlev : ∀ l, ((subdivide_step K key mc C j).Members.getD l []).length
        = (C.Members.getD l []).length + if l = mc.level + 1 then 1 else 0 := by
      intro l
      rw [hstep]
      exact add_minicone_level_length _ _ _ _ _ hk l
    have hs1 : ((subdivide_step K key mc C j).Members.getD (mc.level + 1) []).length
        = (C.Members.getD (mc.level + 1) []).length + 1 := by
      rw [hlev]; simp
    obtain ⟨g, tr, lv, ln, mo, ch, ot⟩ := ih _ _ hX1 (by rw [hlen1]; exact hk)
    have hG1 : (subdivide_step K key mc C j).Generators = C.Generators := rfl
    have hT1 : (subdivide_step K key mc C j).is_triangulation = C.is_triangulation := rfl
    refine ⟨g.trans hG1, tr.trans hT1, lv.trans hlen1, ?_, ?_, ?_, ?_⟩
    · intro l
      rw [ln, hlev]
      by_cases h : l = mc.level + 1
      · simp only [h, if_true, List.length_cons]; omega
      · simp [h]
    · rw [mo, hs1]
      simp only [MiniCone.with_daughters, List.length_cons, List.append_assoc,
        List.singleton_append]
      congr 2
    · intro t ht
      cases t with
      | zero =>
        rw [Nat.add_zero, ot (mc.level + 1) _ (by omega) (by rw [hs1]; omega), hstep,
          cell_add_minicone _ _ _ _ _ hk, if_pos ⟨rfl, rfl⟩]
        rfl
      | succ t =>
        have := ch t (by simpa using ht)
        rw [hs1] at this
        have h2 : (C.Members.getD (mc.level + 1) []).length + (t + 1)
            = (C.Members.getD (mc.level + 1) []).length + 1 + t := by omega
        rw [h2, this]
        rfl
    · intro l q hne hq
      rw [ot l q hne (by rw [hlev]; omega), hstep, cell_add_minicone _ _ _ _ _ hk]
      have h1 : ¬ (l = mc.level + 1 ∧ q = (C.Members.getD (mc.level + 1) []).length) := by
        rintro ⟨rfl, rfl⟩
        omega
      rw [if_neg h1, if_neg hne]



/-! ## Small facts about facets and keys -/

theorem mem_positive_positions (v : Vec) (SH : Mat) (i j : Nat) :
    j ∈ positive_positions v SH i ↔
      i ≤ j ∧ j < i + SH.length ∧ 0 < v_scalar_product v (SH.getD (j - i) []) := by
  constructor
  · exact positive_positions_bounds v SH i j
  · induction SH generalizing i with
    | nil => rintro ⟨h1, h2, _⟩; simp at h2; omega
    | cons r SH ih =>
      rintro ⟨h1, h2, h3⟩
      rw [positive_positions]
      by_cases hij : j = i
      · subst hij
        simp only [Nat.sub_self, List.getD_cons_zero] at h3
        simp [h3]
      · have hrec : j ∈ positive_positions v SH (i + 1) := by
          apply ih
          refine ⟨by omega, by simp only [List.length_cons] at h2; omega, ?_⟩
          have : j - i = (j - (i + 1)) + 1 := by omega
          rw [this, List.getD_cons_succ] at h3
          exact h3
        split
        · exact List.mem_cons_of_mem _ hrec
        · exact hrec

theorem positive_positions_sorted (v : Vec) (SH : Mat) (i : Nat) :
    (positive_positions v SH i).Pairwise (fun a b => a < b) := by
  induction SH generalizing i with
  | nil => simp [positive_positions]
  | cons r SH ih =>
    rw [positive_positions]
    split
    · rw [List.pairwise_cons]
      refine ⟨?_, ih _⟩
      intro b hb
      have := (positive_positions_bounds v SH (i + 1) b hb).1
      omega
    · exact ih _

theorem getD_ne_of_sorted (l : List Nat) (h : l.Pairwise (fun a b => a < b)) (t t1 : Nat)
    (ht : t < l.length) (ht1 : t1 < l.length) (hne : t ≠ t1) : l.getD t 0 ≠ l.getD t1 0 := by
  rw [List.getD_eq_getElem?_getD, List.getD_eq_getElem?_getD, List.getElem?_eq_getElem ht,
    List.getElem?_eq_getElem ht1]
  simp only [Option.getD_some]
  rcases Nat.lt_or_gt_of_ne hne with h1 | h1
  · exact ne_of_lt (List.pairwise_iff_getElem.mp h t t1 ht ht1 h1)
  · exact ne_of_gt (List.pairwise_iff_getElem.mp h t1 t ht1 ht h1)

theorem dot_nil (h : Vec) : v_scalar_product [] h = 0 := by
  simp [v_scalar_product]

theorem row_lt_of_ne_nil (G : Mat) (key : Nat) (h : row G key ≠ []) : key < G.length := by
  by_contra hk
  apply h
  unfold row
  rw [List.getD_eq_getElem?_getD, List.getElem?_eq_none (Nat.le_of_not_lt hk)]
  rfl

theorem child_keys_length (keys : List Nat) (key j : Nat) :
    (child_keys keys key j).length = keys.length := by
  simp [child_keys]

theorem mem_child_keys (keys : List Nat) (key j g : Nat) (hg : g ∈ child_keys keys key j) :
    g = key ∨ g ∈ keys := by
  unfold child_keys at hg
  rw [(List.perm_insertionSort _ _).mem_iff] at hg
  rcases List.mem_or_eq_of_mem_set hg with h | h
  · exact Or.inr h
  · exact Or.inl h

theorem key_mem_child_keys (keys : List Nat) (key j : Nat) (hj : j < keys.length) :
    key ∈ child_keys keys key j := by
  unfold child_keys
  rw [(List.perm_insertionSort _ _).mem_iff]
  exact mem_set_self _ _ _ hj

theorem exact_vol_ne_zero (M : Mat) (h : 0 < exact_vol M) : det M ≠ 0 := by
  intro h0
  unfold exact_vol at h
  rw [h0] at h
  simp at h



/-! ## The children of a subdivision -/

section children
variable {F : Type} [LinearOrderedField F]

theorem submatrix_length (G : Mat) (keys : List Nat) : (submatrix G keys).length = keys.length := by
  simp [submatrix]

theorem in_comb_child_keys (P : F → Prop) (n : Nat) (G : Mat) (keys : List Nat) (key j : Nat)
    (x : Fin n → F) :
    in_comb P n (submatrix G (child_keys keys key j)) x ↔
      in_comb P n ((submatrix G keys).set j (row G key)) x := by
  have hp := submatrix_sorted_set G keys j key
  exact ⟨in_comb_perm P n _ _ hp.symm x, in_comb_perm P n _ _ hp x⟩

/-- The facts about the list `opposite_facets` that the facet loop returns for
a non-degenerate simplex: its entries are the indices below `n` with a positive
facet value, without repetition, and no facet value is negative. -/
theorem opposite_facets_spec (n : Nat) (G : Mat) (keys : List Nat) (key : Nat)
    (opp : List Nat) (hn : keys.length = n)
    (hf : facet_loop (row G key) (exact_simplex_data (submatrix G keys)) 0 [] = some opp) :
    (∀ i : Fin n, (0 : F) ≤ hval n (submatrix G keys) i (rvec n (row G key))) ∧
    (∀ j : Fin n, (0 : F) < hval n (submatrix G keys) j (rvec n (row G key)) ↔ (j : Nat) ∈ opp) ∧
    (∀ j ∈ opp, j < n) ∧
    opp.Pairwise (fun a b => a < b) := by
  obtain ⟨hnn, hopp⟩ := facet_loop_eq _ _ _ _ _ hf
  rw [List.nil_append] at hopp
  have hM : (submatrix G keys).length = n := by rw [submatrix_length, hn]
  have hlen : (exact_simplex_data (submatrix G keys)).length = n := by
    rw [exact_simplex_data_length, hM]
  have hcast : ∀ j : Fin n, hval (F := F) n (submatrix G keys) j (rvec n (row G key))
      = ((v_scalar_product (row G key)
          ((exact_simplex_data (submatrix G keys)).getD j []) : Int) : F) :=
    fun j => hval_rvec n _ hM j j.isLt _
  refine ⟨?_, ?_, ?_, ?_⟩
  · intro i
    rw [hcast]
    have hmem : (exact_simplex_data (submatrix G keys)).getD i []
        ∈ exact_simplex_data (submatrix G keys) := by
      rw [List.getD_eq_getElem?_getD, List.getElem?_eq_getElem (by rw [hlen]; exact i.isLt)]
      exact List.getElem_mem _
    exact_mod_cast hnn _ hmem
  · intro j
    rw [hcast, hopp, mem_positive_positions, Nat.sub_zero, hlen]
    constructor
    · intro h
      exact ⟨Nat.zero_le _, by have := j.isLt; omega, by exact_mod_cast h⟩
    · rintro ⟨_, _, h⟩
      exact_mod_cast h
  · intro j hj
    rw [hopp] at hj
    have := (positive_positions_bounds _ _ _ _ hj).2.1
    rw [hlen] at this
    omega
  · rw [hopp]
    exact positive_positions_sorted _ _ _

/-- The children of a subdivision are non-degenerate simplices that subdivide
the parent. -/
theorem stellar_facts (n : Nat) (G : Mat) (keys : List Nat) (key : Nat) (opp : List Nat)
    (hn : keys.length = n) (hdet : det (submatrix G keys) ≠ 0)
    (hf : facet_loop (row G key) (exact_simplex_data (submatrix G keys)) 0 [] = some opp) :
    (∀ j ∈ opp, det (submatrix G (child_keys keys key j)) ≠ 0 ∧ key < G.length ∧
      j < keys.length) ∧
    (opp ≠ [] → ∀ x : Fin n → F, in_cone n (submatrix G keys) x →
      ∃ j ∈ opp, in_cone n (submatrix G (child_keys keys key j)) x) ∧
    (∀ j ∈ opp, ∀ x : Fin n → F,
      (in_cone n (submatrix G (child_keys keys key j)) x → in_cone n (submatrix G keys) x) ∧
      (in_interior n (submatrix G (child_keys keys key j)) x →
        in_interior n (submatrix G keys) x)) ∧
    (∀ j ∈ opp, ∀ j1 ∈ opp, j ≠ j1 → ∀ x : Fin n → F,
      ¬ (in_interior n (submatrix G (child_keys keys key j)) x ∧
        in_interior n (submatrix G (child_keys keys key j1)) x)) := by
  obtain ⟨hnn, hpos, hlt, _⟩ := opposite_facets_spec (F := F) n G keys key opp hn hf
  have hM : (submatrix G keys).length = n := by rw [submatrix_length, hn]
  refine ⟨?_, ?_, ?_, ?_⟩
  · intro j hj
    have hcv := children_vol G keys key opp hf j hj
    refine ⟨?_, ?_, by rw [hn]; exact hlt j hj⟩
    · apply exact_vol_ne_zero
      unfold child_keys
      rw [hcv.1]
      exact hcv.2
    · apply row_lt_of_ne_nil
      intro h0
      have := hcv.2
      rw [h0, dot_nil] at this
      exact absurd this (lt_irrefl _)
  · intro hne x hx
    obtain ⟨j0, hj0⟩ := List.exists_mem_of_ne_nil _ hne
    have hex : ∃ j : Fin n, (0 : F) < hval n (submatrix G keys) j (rvec n (row G key)) :=
      ⟨⟨j0, hlt j0 hj0⟩, (hpos ⟨j0, hlt j0 hj0⟩).mpr hj0⟩
    obtain ⟨j, hj, hxj⟩ := children_cover n _ hM hdet _ hnn hex x hx
    refine ⟨j, (hpos j).mp hj, ?_⟩
    unfold in_cone
    rw [in_comb_child_keys]
    exact hxj
  · intro j hj x
    have hjpos := (hpos ⟨j, hlt j hj⟩).mpr hj
    constructor
    · intro hx
      unfold in_cone at hx
      rw [in_comb_child_keys] at hx
      exact child_cone_subset n _ hM hdet _ hnn ⟨j, hlt j hj⟩ hjpos x hx
    · intro hx
      unfold in_interior at hx
      rw [in_comb_child_keys] at hx
      exact child_interior_subset n _ hM hdet _ hnn ⟨j, hlt j hj⟩ hjpos x hx
  · intro j hj j1 hj1 hne x hx
    have hjpos := (hpos ⟨j, hlt j hj⟩).mpr hj
    have hj1pos := (hpos ⟨j1, hlt j1 hj1⟩).mpr hj1
    have h1 := hx.1
    have h2 := hx.2
    unfold in_interior at h1 h2
    rw [in_comb_child_keys] at h1 h2
    exact children_disjoint n _ hM hdet _ ⟨j, hlt j hj⟩ ⟨j1, hlt j1 hj1⟩
      (by simpa [Fin.ext_iff] using hne) hjpos hj1pos x h1 h2

end children


/-! ## A subdivision keeps the forest well formed -/

theorem subdivided_cases (K : Kernel) (key : Nat) (C1 C2 : ConeCollection) (k p : Nat)
    (X : MiniCone) (opp : List Nat) (hsub : Subdivided K key X.GenKeys k p opp X C1 C2)
    (l q : Nat) (Y : MiniCone) (h : C2.cell l q = some Y) :
    (l = k ∧ q = p ∧
      Y = X.with_daughters (List.range' (C1.Members.getD (k + 1) []).length opp.length)) ∨
    (l = k + 1 ∧ ∃ t, t < opp.length ∧ q = (C1.Members.getD (k + 1) []).length + t ∧
      Y = new_cell C1 (k + 1) ((C1.Members.getD (k + 1) []).length + t)
        (child_keys X.GenKeys key (opp.getD t 0))
        (K.vol (submatrix C1.Generators (child_keys X.GenKeys key (opp.getD t 0))))) ∨
    (¬ (l = k ∧ q = p) ∧ q < (C1.Members.getD l []).length ∧ C1.cell l q = some Y) := by
  by_cases h1 : l = k ∧ q = p
  · obtain ⟨rfl, rfl⟩ := h1
    left
    rw [hsub.mother] at h
    injection h with h
    exact ⟨rfl, rfl, h.symm⟩
  · right
    have hq := (cell_lt C2 l q Y h).2
    rw [hsub.lengths] at hq
    by_cases h2 : q < (C1.Members.getD l []).length
    · right
      rw [hsub.others l q h1 h2] at h
      exact ⟨h1, h2, h⟩
    · left
      have hl : l = k + 1 := by
        by_contra hl
        simp only [hl, if_false, add_zero] at hq
        exact h2 hq
      subst hl
      simp only [if_true] at hq
      refine ⟨rfl, q - (C1.Members.getD (k + 1) []).length, by omega, by omega, ?_⟩
      have := hsub.children (q - (C1.Members.getD (k + 1) []).length) (by omega)
      have hq2 : (C1.Members.getD (k + 1) []).length + (q - (C1.Members.getD (k + 1) []).length)
          = q := by omega
      rw [hq2] at this
      rw [this] at h
      injection h with h
      rw [hq2]
      exact h.symm

/-- The record of `C2` at a position that existed before the subdivision has
the keys, facets and coordinates it had, and its daughters unless it is the
subdivided cell. -/
theorem subdivided_old (K : Kernel) (key : Nat) (C1 C2 : ConeCollection) (k p : Nat)
    (X : MiniCone) (opp : List Nat) (hsub : Subdivided K key X.GenKeys k p opp X C1 C2)
    (hX : C1.cell k p = some X) (l q : Nat) (hq : q < (C1.Members.getD l []).length) :
    ∃ Y1 Y2, C1.cell l q = some Y1 ∧ C2.cell l q = some Y2 ∧ Y2.GenKeys = Y1.GenKeys ∧
      Y2.SupportHyperplanes = Y1.SupportHyperplanes ∧ Y2.level = Y1.level ∧
      Y2.my_place = Y1.my_place ∧
      ((¬ (l = k ∧ q = p) ∧ Y2 = Y1) ∨ (l = k ∧ q = p ∧ Y1 = X)) := by
  by_cases h1 : l = k ∧ q = p
  · obtain ⟨rfl, rfl⟩ := h1
    exact ⟨X, _, hX, hsub.mother, rfl, rfl, rfl, rfl, Or.inr ⟨rfl, rfl, rfl⟩⟩
  · obtain ⟨Y1, hY1⟩ := cell_of_lt C1 l q hq
    exact ⟨Y1, Y1, hY1, by rw [hsub.others l q h1 hq, hY1], rfl, rfl, rfl, rfl,
      Or.inl ⟨h1, rfl⟩⟩

theorem gens_eq_of (C1 C2 : ConeCollection) (Y1 Y2 : MiniCone)
    (hG : C2.Generators = C1.Generators) (hk : Y2.GenKeys = Y1.GenKeys) :
    C2.gens Y2 = C1.gens Y1 := by
  unfold ConeCollection.gens
  rw [hG, hk]

theorem mem_range'_iff (s m d : Nat) : d ∈ List.range' s m ↔ s ≤ d ∧ d < s + m := by
  rw [List.mem_range']
  constructor
  · rintro ⟨i, hi, rfl⟩
    omega
  · rintro ⟨h1, h2⟩
    exact ⟨d - s, by omega, by omega⟩

theorem tree_subdivided (hb : Mat → Option (List Vec)) (key n : Nat) (C1 C2 : ConeCollection)
    (k p : Nat) (X : MiniCone) (opp : List Nat) (hT : Tree n C1)
    (hX : C1.cell k p = some X) (hleaf : X.Daughters = [])
    (hf : facet_loop (row C1.Generators key) (exact_simplex_data (C1.gens X)) 0 [] = some opp)
    (hsub : Subdivided (exactKernel hb) key X.GenKeys k p opp X C1 C2) : Tree n C2 := by
  have hXs := hT.simplex k p X hX
  have hst := stellar_facts (F := Rat) n C1.Generators X.GenKeys key opp hXs.1 hXs.2.2.1 hf
  constructor
  · intro h
    have := hsub.levels
    rw [h] at this
    exact hT.nonempty (List.length_eq_zero.mp this.symm)
  · intro l q Y hY
    rcases subdivided_cases _ key C1 C2 k p X opp hsub l q Y hY with
      ⟨rfl, rfl, rfl⟩ | ⟨rfl, t, ht, rfl, rfl⟩ | ⟨_, _, h⟩
    · exact hT.coords _ _ X hX
    · exact ⟨rfl, rfl⟩
    · exact hT.coords l q Y h
  · intro l q Y hY d hd
    rw [hsub.lengths]
    rcases subdivided_cases _ key C1 C2 k p X opp hsub l q Y hY with
      ⟨rfl, rfl, rfl⟩ | ⟨rfl, t, ht, rfl, rfl⟩ | ⟨_, _, h⟩
    · simp only [MiniCone.with_daughters, hleaf, List.nil_append, mem_range'_iff] at hd
      simp only [if_true]
      exact hd.2
    · simp [new_cell] at hd
    · have := hT.daughters_lt l q Y h d hd
      omega
  · intro l i hi
    rw [hsub.lengths] at hi
    by_cases hold : i < (C1.Members.getD (l + 1) []).length
    · obtain ⟨p1, mp, hmp, hmem⟩ := hT.has_parent l i hold
      have hne : ¬ (l = k ∧ p1 = p) := by
        rintro ⟨rfl, rfl⟩
        rw [hX] at hmp
        injection hmp with hmp
        rw [← hmp, hleaf] at hmem
        exact absurd hmem (List.not_mem_nil _)
      exact ⟨p1, mp, by rw [hsub.others l p1 hne (cell_lt C1 l p1 mp hmp).2, hmp], hmem⟩
    · have hl : l = k := by
        by_contra hl
        have : ¬ l + 1 = k + 1 := by omega
        simp only [this, if_false, add_zero] at hi
        exact hold hi
      subst hl
      simp only [if_true] at hi
      refine ⟨p, _, hsub.mother, ?_⟩
      simp only [MiniCone.with_daughters, hleaf, List.nil_append, mem_range'_iff]
      omega
  · intro l q Y hY
    rcases subdivided_cases _ key C1 C2 k p X opp hsub l q Y hY with
      ⟨rfl, rfl, rfl⟩ | ⟨rfl, t, ht, rfl, rfl⟩ | ⟨_, _, h⟩
    · have := hT.simplex _ _ X hX
      show X.GenKeys.length = n ∧ (∀ g ∈ X.GenKeys, g < C2.Generators.length) ∧
        det (submatrix C2.Generators X.GenKeys) ≠ 0 ∧
        (X.SupportHyperplanes = [] ∨
          X.SupportHyperplanes = exact_simplex_data (submatrix C2.Generators X.GenKeys))
      rw [hsub.gens]
      exact this
    · have hmem : opp.getD t 0 ∈ opp := by
        rw [List.getD_eq_getElem?_getD, List.getElem?_eq_getElem ht]
        exact List.getElem_mem _
      obtain ⟨hd, hkey, hj⟩ := hst.1 _ hmem
      refine ⟨?_, ?_, ?_, Or.inl rfl⟩
      · show (child_keys X.GenKeys key (opp.getD t 0)).length = n
        rw [child_keys_length]
        exact hXs.1
      · intro g hg
        rw [hsub.gens]
        rcases mem_child_keys _ _ _ _ hg with rfl | hg
        · exact hkey
        · exact hXs.2.1 g hg
      · show det (submatrix C2.Generators (child_keys X.GenKeys key (opp.getD t 0))) ≠ 0
        rw [hsub.gens]
        exact hd
    · have := hT.simplex l q Y h
      rw [gens_eq_of C1 C2 Y Y hsub.gens rfl, hsub.gens]
      exact this



/-! ## A subdivision keeps the subdivision invariant -/

/-- A cell of `C2` at a position that existed before the subdivision has the
generators it had; it is the old record, or the subdivided cell with its new
daughters. -/
theorem subdivided_back (K : Kernel) (key : Nat) (C1 C2 : ConeCollection) (k p : Nat)
    (X : MiniCone) (opp : List Nat) (hsub : Subdivided K key X.GenKeys k p opp X C1 C2)
    (hX : C1.cell k p = some X) (l q : Nat) (Y2 : MiniCone) (h : C2.cell l q = some Y2)
    (hq : q < (C1.Members.getD l []).length) :
    ∃ Y1, C1.cell l q = some Y1 ∧ C2.gens Y2 = C1.gens Y1 ∧
      ((¬ (l = k ∧ q = p) ∧ Y2 = Y1) ∨ (l = k ∧ q = p ∧ Y1 = X ∧
        Y2 = X.with_daughters (List.range' (C1.Members.getD (k + 1) []).length opp.length))) := by
  by_cases h1 : l = k ∧ q = p
  · obtain ⟨rfl, rfl⟩ := h1
    rw [hsub.mother] at h
    injection h with h
    subst h
    exact ⟨X, hX, gens_eq_of C1 C2 X _ hsub.gens rfl, Or.inr ⟨rfl, rfl, rfl, rfl⟩⟩
  · rw [hsub.others l q h1 hq] at h
    exact ⟨Y2, h, gens_eq_of C1 C2 Y2 Y2 hsub.gens rfl, Or.inl ⟨h1, rfl⟩⟩

theorem getD_mem_of_lt (l : List Nat) (t : Nat) (ht : t < l.length) : l.getD t 0 ∈ l := by
  rw [List.getD_eq_getElem?_getD, List.getElem?_eq_getElem ht]
  exact List.getElem_mem _

theorem exists_getD_of_mem (l : List Nat) (j : Nat) (hj : j ∈ l) :
    ∃ t, t < l.length ∧ l.getD t 0 = j := by
  obtain ⟨t, ht, rfl⟩ := List.getElem_of_mem hj
  exact ⟨t, ht, by rw [List.getD_eq_getElem?_getD, List.getElem?_eq_getElem ht]; rfl⟩

theorem gens_new_cell (C1 C2 : ConeCollection) (hG : C2.Generators = C1.Generators)
    (a b : Nat) (keys : List Nat) (m : Int) :
    C2.gens (new_cell C1 a b keys m) = submatrix C1.Generators keys := by
  unfold ConeCollection.gens new_cell
  rw [hG]

section stellar_step
variable {F : Type} [LinearOrderedField F]

theorem stellar_subdivided (hb : Mat → Option (List Vec)) (key n : Nat) (C1 C2 : ConeCollection)
    (k p : Nat) (X : MiniCone) (opp : List Nat) (hT : Tree n C1) (hS : Stellar F n C1)
    (hX : C1.cell k p = some X) (hleaf : X.Daughters = [])
    (hf : facet_loop (row C1.Generators key) (exact_simplex_data (C1.gens X)) 0 [] = some opp)
    (hsub : Subdivided (exactKernel hb) key X.GenKeys k p opp X C1 C2) : Stellar F n C2 := by
  have hXs := hT.simplex k p X hX
  have hst := stellar_facts (F := F) n C1.Generators X.GenKeys key opp hXs.1 hXs.2.2.1 hf
  have hsorted :=
    (opposite_facets_spec (F := F) n C1.Generators X.GenKeys key opp hXs.1 hf).2.2.2
  have hmd : ∀ ds, (X.with_daughters ds).Daughters = ds := by
    intro ds
    simp [MiniCone.with_daughters, hleaf]
  have hgm : ∀ ds, C2.gens (X.with_daughters ds) = submatrix C1.Generators X.GenKeys :=
    fun ds => gens_eq_of C1 C2 X (X.with_daughters ds) hsub.gens rfl
  have hgo : ∀ Y, C2.gens Y = C1.gens Y := fun Y => gens_eq_of C1 C2 Y Y hsub.gens rfl
  have hchild : ∀ t, t < opp.length → ∀ md,
      C2.cell (k + 1) ((C1.Members.getD (k + 1) []).length + t) = some md →
      C2.gens md = submatrix C1.Generators (child_keys X.GenKeys key (opp.getD t 0)) := by
    intro t ht md hm
    rw [hsub.children t ht] at hm
    injection hm with hm
    rw [← hm]
    exact gens_new_cell C1 C2 hsub.gens _ _ _ _
  have hback : ∀ l q Y2, C2.cell l q = some Y2 → q < (C1.Members.getD l []).length →
      ∃ Y1, C1.cell l q = some Y1 ∧ C2.gens Y2 = C1.gens Y1 := by
    intro l q Y2 h hq
    obtain ⟨Y1, h1, h2, _⟩ := subdivided_back _ key C1 C2 k p X opp hsub hX l q Y2 h hq
    exact ⟨Y1, h1, h2⟩
  constructor
  · intro l q Y hY hne x hx
    rcases subdivided_cases _ key C1 C2 k p X opp hsub l q Y hY with
      ⟨rfl, rfl, rfl⟩ | ⟨rfl, t, ht, rfl, rfl⟩ | ⟨hnot, hq, h⟩
    · rw [hmd] at hne
      have hopp : opp ≠ [] := by
        intro h0
        apply hne
        rw [h0]
        rfl
      rw [hgm] at hx
      obtain ⟨j, hj, hxj⟩ := hst.2.1 hopp x hx
      obtain ⟨t, ht, rfl⟩ := exists_getD_of_mem opp j hj
      refine ⟨(C1.Members.getD (l + 1) []).length + t, ?_, _, hsub.children t ht, ?_⟩
      · rw [hmd, mem_range'_iff]
        omega
      · rw [gens_new_cell C1 C2 hsub.gens]
        exact hxj
    · exact absurd rfl hne
    · rw [hgo] at hx
      obtain ⟨d, hd, md, hmdc, hxd⟩ := hS.cover l q Y h hne x hx
      obtain ⟨Y1, Y2, hY1, hY2, hk, _⟩ := subdivided_old _ key C1 C2 k p X opp hsub hX (l + 1) d
        (cell_lt C1 (l + 1) d md hmdc).2
      rw [hmdc] at hY1
      injection hY1 with hY1
      subst hY1
      refine ⟨d, hd, Y2, hY2, ?_⟩
      rw [gens_eq_of C1 C2 md Y2 hsub.gens hk]
      exact hxd
  · intro l q Y hY d hd md hm x
    rcases subdivided_cases _ key C1 C2 k p X opp hsub l q Y hY with
      ⟨rfl, rfl, rfl⟩ | ⟨rfl, t, ht, rfl, rfl⟩ | ⟨hnot, hq, h⟩
    · rw [hmd, mem_range'_iff] at hd
      have hdd : (C1.Members.getD (l + 1) []).length
          + (d - (C1.Members.getD (l + 1) []).length) = d := by omega
      rw [← hdd] at hm
      rw [hchild _ (by omega) md hm, hgm]
      exact hst.2.2.1 _ (getD_mem_of_lt opp _ (by omega)) x
    · exact absurd hd (List.not_mem_nil _)
    · obtain ⟨Y1, hY1, hg⟩ := hback (l + 1) d md hm (hT.daughters_lt l q Y h d hd)
      rw [hg, hgo]
      exact hS.inside l q Y h d hd Y1 hY1 x
  · intro l q Y hY d hd d1 hd1 hne md md1 hm hm1 x
    rcases subdivided_cases _ key C1 C2 k p X opp hsub l q Y hY with
      ⟨rfl, rfl, rfl⟩ | ⟨rfl, t, ht, rfl, rfl⟩ | ⟨hnot, hq, h⟩
    · rw [hmd, mem_range'_iff] at hd hd1
      have hdd : (C1.Members.getD (l + 1) []).length
          + (d - (C1.Members.getD (l + 1) []).length) = d := by omega
      have hdd1 : (C1.Members.getD (l + 1) []).length
          + (d1 - (C1.Members.getD (l + 1) []).length) = d1 := by omega
      rw [← hdd] at hm
      rw [← hdd1] at hm1
      rw [hchild _ (by omega) md hm, hchild _ (by omega) md1 hm1]
      exact hst.2.2.2 _ (getD_mem_of_lt opp _ (by omega)) _ (getD_mem_of_lt opp _ (by omega))
        (getD_ne_of_sorted opp hsorted _ _ (by omega) (by omega) (by omega)) x
    · exact absurd hd (List.not_mem_nil _)
    · obtain ⟨Y1, hY1, hg⟩ := hback (l + 1) d md hm (hT.daughters_lt l q Y h d hd)
      obtain ⟨Y2, hY2, hg2⟩ := hback (l + 1) d1 md1 hm1 (hT.daughters_lt l q Y h d1 hd1)
      rw [hg, hg2]
      exact hS.apart l q Y h d hd d1 hd1 hne Y1 Y2 hY1 hY2 x
  · intro i i1 A B hA hB hne x
    have h0 : ∀ j Z, C2.cell 0 j = some Z → j < (C1.Members.getD 0 []).length := by
      intro j Z hZ
      have := (cell_lt C2 0 j Z hZ).2
      rw [hsub.lengths] at this
      simpa using this
    obtain ⟨Y1, hY1, hg⟩ := hback 0 i A hA (h0 i A hA)
    obtain ⟨Y2, hY2, hg2⟩ := hback 0 i1 B hB (h0 i1 B hB)
    rw [hg, hg2]
    exact hS.roots i i1 Y1 Y2 hY1 hY2 hne x

end stellar_step

theorem safe_subdivided (K : Kernel) (key : Nat) (C1 C2 : ConeCollection) (k p : Nat)
    (X : MiniCone) (opp : List Nat) (hsafe : Safe C1 key) (hX : C1.cell k p = some X)
    (hopp : ∀ j ∈ opp, j < X.GenKeys.length)
    (hsub : Subdivided K key X.GenKeys k p opp X C1 C2) : Safe C2 key := by
  intro i Y hY
  rw [hsub.levels] at hY
  rcases subdivided_cases _ key C1 C2 k p X opp hsub _ i Y hY with
    ⟨h1, rfl, rfl⟩ | ⟨_, t, ht, rfl, rfl⟩ | ⟨_, _, h⟩
  · rw [← h1] at hX
    exact hsafe i X hX
  · exact key_mem_child_keys _ _ _ (hopp _ (getD_mem_of_lt opp t ht))
  · exact hsafe i Y h

/-- The facet loop for a ray of the simplex itself: exactly its own facet is
positive. -/
theorem facet_loop_own_ray (G : Mat) (keys : List Nat) (key : Nat)
    (hdet : det (submatrix G keys) ≠ 0) (hk : key ∈ keys) :
    ∃ j, facet_loop (row G key) (exact_simplex_data (submatrix G keys)) 0 [] = some [j] := by
  obtain ⟨j, hj, hjk⟩ := exists_getD_of_mem keys key hk
  have hco := exact_simplex_data_cofacet (submatrix G keys) hdet
  have hlen : (submatrix G keys).length = keys.length := submatrix_length G keys
  refine ⟨j, ?_⟩
  have := facet_loop_single (row G key) (exact_simplex_data (submatrix G keys)) 0 j []
    (by rw [hco.1, hlen]; exact hj)
    (by
      intro t ht
      rw [hco.1] at ht
      have h1 := hco.2 t ht j (by rw [hlen]; exact hj)
      rw [getD_submatrix _ _ _ hj, hjk] at h1
      exact h1)
  simpa using this



/-! ## Forests grown without new cells -/

theorem submatrix_append (G E : Mat) (keys : List Nat) (h : ∀ g ∈ keys, g < G.length) :
    submatrix (G ++ E) keys = submatrix G keys := by
  unfold submatrix
  apply List.map_congr_left
  intro g hg
  unfold row
  rw [List.getD_eq_getElem?_getD, List.getD_eq_getElem?_getD,
    List.getElem?_append_left (h g hg)]

theorem grown_back (C C1 : ConeCollection) (h : Grown C C1) (l q : Nat) (Y1 : MiniCone)
    (hY1 : C1.cell l q = some Y1) :
    ∃ Y, C.cell l q = some Y ∧
      Y1.GenKeys = Y.GenKeys ∧ Y1.Daughters = Y.Daughters ∧ Y1.level = Y.level ∧
      Y1.my_place = Y.my_place ∧
      (Y1.SupportHyperplanes = Y.SupportHyperplanes ∨
        Y1.SupportHyperplanes = exact_simplex_data (C.gens Y)) := by
  have hq := (cell_lt C1 l q Y1 hY1).2
  rw [h.lengths] at hq
  obtain ⟨Y, hY⟩ := cell_of_lt C l q hq
  obtain ⟨Y2, hY2, hrest⟩ := h.cells l q Y hY
  rw [hY1] at hY2
  injection hY2 with hY2
  subst hY2
  exact ⟨Y, hY, hrest⟩

theorem grown_gens (n : Nat) (C C1 : ConeCollection) (hT : Tree n C) (h : Grown C C1)
    (l q : Nat) (Y Y1 : MiniCone) (hY : C.cell l q = some Y) (hk : Y1.GenKeys = Y.GenKeys) :
    C1.gens Y1 = C.gens Y := by
  obtain ⟨E, hE⟩ := h.gens
  unfold ConeCollection.gens
  rw [hE, hk]
  exact submatrix_append _ _ _ (hT.simplex l q Y hY).2.1

theorem tree_grown (n : Nat) (C C1 : ConeCollection) (hT : Tree n C) (h : Grown C C1) :
    Tree n C1 := by
  constructor
  · intro h0
    have := h.levels
    rw [h0] at this
    exact hT.nonempty (List.length_eq_zero.mp (Nat.le_zero.mp this))
  · intro l q Y1 hY1
    obtain ⟨Y, hY, _, _, h3, h4, _⟩ := grown_back C C1 h l q Y1 hY1
    rw [h3, h4]
    exact hT.coords l q Y hY
  · intro l q Y1 hY1 d hd
    obtain ⟨Y, hY, _, h2, _⟩ := grown_back C C1 h l q Y1 hY1
    rw [h.lengths]
    rw [h2] at hd
    exact hT.daughters_lt l q Y hY d hd
  · intro l i hi
    rw [h.lengths] at hi
    obtain ⟨p, mp, hmp, hmem⟩ := hT.has_parent l i hi
    obtain ⟨Y1, hY1, _, h2, _⟩ := h.cells l p mp hmp
    exact ⟨p, Y1, hY1, by rw [h2]; exact hmem⟩
  · intro l q Y1 hY1
    obtain ⟨Y, hY, h1, _, _, _, h5⟩ := grown_back C C1 h l q Y1 hY1
    have hs := hT.simplex l q Y hY
    rw [grown_gens n C C1 hT h l q Y Y1 hY h1, h1]
    obtain ⟨E, hE⟩ := h.gens
    refine ⟨hs.1, ?_, hs.2.2.1, ?_⟩
    · intro g hg
      rw [hE, List.length_append]
      have := hs.2.1 g hg
      omega
    · rcases h5 with h5 | h5
      · rw [h5]
        exact hs.2.2.2
      · exact Or.inr h5

theorem stellar_grown {F : Type} [LinearOrderedField F] (n : Nat) (C C1 : ConeCollection)
    (hT : Tree n C) (hS : Stellar F n C) (h : Grown C C1) : Stellar F n C1 := by
  have hg : ∀ l q Y1, C1.cell l q = some Y1 →
      ∃ Y, C.cell l q = some Y ∧ C1.gens Y1 = C.gens Y ∧ Y1.Daughters = Y.Daughters := by
    intro l q Y1 hY1
    obtain ⟨Y, hY, h1, h2, _⟩ := grown_back C C1 h l q Y1 hY1
    exact ⟨Y, hY, grown_gens n C C1 hT h l q Y Y1 hY h1, h2⟩
  constructor
  · intro l q Y1 hY1 hne x hx
    obtain ⟨Y, hY, hgY, hdY⟩ := hg l q Y1 hY1
    rw [hgY] at hx
    rw [hdY] at hne
    obtain ⟨d, hd, md, hmd, hxd⟩ := hS.cover l q Y hY hne x hx
    obtain ⟨md1, hmd1, hk, _⟩ := h.cells (l + 1) d md hmd
    refine ⟨d, by rw [hdY]; exact hd, md1, hmd1, ?_⟩
    rw [grown_gens n C C1 hT h (l + 1) d md md1 hmd hk]
    exact hxd
  · intro l q Y1 hY1 d hd md1 hmd1 x
    obtain ⟨Y, hY, hgY, hdY⟩ := hg l q Y1 hY1
    obtain ⟨md, hmd, hgm, _⟩ := hg (l + 1) d md1 hmd1
    rw [hgY, hgm]
    rw [hdY] at hd
    exact hS.inside l q Y hY d hd md hmd x
  · intro l q Y1 hY1 d hd d1 hd1 hne md md1 hm hm1 x
    obtain ⟨Y, hY, hgY, hdY⟩ := hg l q Y1 hY1
    obtain ⟨Z, hZ, hgZ, _⟩ := hg (l + 1) d md hm
    obtain ⟨Z1, hZ1, hgZ1, _⟩ := hg (l + 1) d1 md1 hm1
    rw [hgZ, hgZ1]
    rw [hdY] at hd hd1
    exact hS.apart l q Y hY d hd d1 hd1 hne Z Z1 hZ hZ1 x
  · intro i i1 A B hA hB hne x
    obtain ⟨Z, hZ, hgZ, _⟩ := hg 0 i A hA
    obtain ⟨Z1, hZ1, hgZ1, _⟩ := hg 0 i1 B hB
    rw [hgZ, hgZ1]
    exact hS.roots i i1 Z Z1 hZ hZ1 hne x

theorem safe_grown (key : Nat) (C C1 : ConeCollection) (hsafe : Safe C key) (h : Grown C C1)
    (hl : C1.Members.length = C.Members.length) : Safe C1 key := by
  intro i Y1 hY1
  rw [hl] at hY1
  obtain ⟨Y, hY, h1, _⟩ := grown_back C C1 h _ i Y1 hY1
  rw [h1]
  exact hsafe i Y hY

theorem root_cones_getElem? (C : ConeCollection) (i : Nat) :
    C.root_cones[i]? = (C.cell 0 i).map C.gens := by
  unfold ConeCollection.root_cones ConeCollection.cell
  rw [List.getElem?_map]

theorem root_cones_grown (n : Nat) (C C1 : ConeCollection) (hT : Tree n C) (h : Grown C C1) :
    C1.root_cones = C.root_cones := by
  apply List.ext_getElem?
  intro i
  rw [root_cones_getElem?, root_cones_getElem?]
  cases hc : C.cell 0 i with
  | none =>
    cases hc1 : C1.cell 0 i with
    | none => rfl
    | some Y1 =>
      obtain ⟨Y, hY, _⟩ := grown_back C C1 h 0 i Y1 hc1
      rw [hc] at hY
      cases hY
  | some Y =>
    obtain ⟨Y1, hY1, hk, _⟩ := h.cells 0 i Y hc
    rw [hY1]
    simp only [Option.map_some']
    rw [grown_gens n C C1 hT h 0 i Y Y1 hc hk]

theorem root_cones_subdivided (K : Kernel) (key : Nat) (C1 C2 : ConeCollection) (k p : Nat)
    (X : MiniCone) (opp : List Nat) (hsub : Subdivided K key X.GenKeys k p opp X C1 C2)
    (hX : C1.cell k p = some X) : C2.root_cones = C1.root_cones := by
  apply List.ext_getElem?
  intro i
  rw [root_cones_getElem?, root_cones_getElem?]
  have hlen : (C2.Members.getD 0 []).length = (C1.Members.getD 0 []).length := by
    rw [hsub.lengths]
    simp
  cases hc : C2.cell 0 i with
  | none =>
    cases hc1 : C1.cell 0 i with
    | none => rfl
    | some Y1 =>
      have := (cell_lt C1 0 i Y1 hc1).2
      rw [← hlen] at this
      obtain ⟨Z, hZ⟩ := cell_of_lt C2 0 i this
      rw [hc] at hZ
      cases hZ
  | some Y2 =>
    have := (cell_lt C2 0 i Y2 hc).2
    rw [hlen] at this
    obtain ⟨Y1, hY1, hg, _⟩ := subdivided_back K key C1 C2 k p X opp hsub hX 0 i Y2 hc this
    rw [hY1]
    simp only [Option.map_some']
    rw [hg]



/-! ## Caching, new levels and new generators -/

theorem grown_refl (C : ConeCollection) : Grown C C :=
  ⟨⟨[], (List.append_nil _).symm⟩, le_refl _, fun _ => rfl,
    fun _ _ Y hY => ⟨Y, hY, rfl, rfl, rfl, rfl, Or.inl rfl⟩⟩

theorem hyperplanes_eq (hb : Mat → Option (List Vec)) (n : Nat) (C : ConeCollection)
    (hT : Tree n C) (lvl plc : Nat) (mc : MiniCone) (hc : C.cell lvl plc = some mc) :
    mc.hyperplanes (exactKernel hb) C.Generators = exact_simplex_data (C.gens mc) := by
  unfold MiniCone.hyperplanes
  split
  · rfl
  · rename_i hne
    rcases (hT.simplex lvl plc mc hc).2.2.2 with h | h
    · rw [h] at hne
      exact absurd rfl hne
    · exact h

theorem updateCell_level_length (C : ConeCollection) (k i : Nat) (f : MiniCone → MiniCone)
    (l : Nat) : ((C.updateCell k i f).Members.getD l []).length = (C.Members.getD l []).length := by
  unfold ConeCollection.updateCell
  simp only
  rw [getD_updateAt]
  split
  · rw [updateAt_length]
  · rfl

theorem updateCell_members_length (C : ConeCollection) (k i : Nat) (f : MiniCone → MiniCone) :
    (C.updateCell k i f).Members.length = C.Members.length := by
  unfold ConeCollection.updateCell
  simp only
  rw [updateAt_length]

theorem grown_cache (hb : Mat → Option (List Vec)) (n : Nat) (C : ConeCollection)
    (hT : Tree n C) (lvl plc : Nat) :
    Grown C (C.cache_facets (exactKernel hb) lvl plc) := by
  unfold ConeCollection.cache_facets
  refine ⟨⟨[], (List.append_nil _).symm⟩, ?_, ?_, ?_⟩
  · rw [updateCell_members_length]
  · intro l
    exact updateCell_level_length C lvl plc _ l
  · intro l q Y hY
    by_cases h : lvl = l ∧ plc = q
    · obtain ⟨rfl, rfl⟩ := h
      rw [cell_updateCell_same, hY]
      exact ⟨_, rfl, rfl, rfl, rfl, rfl, Or.inr (hyperplanes_eq hb n C hT lvl plc Y hY)⟩
    · rw [cell_updateCell_other _ _ _ _ _ _ h]
      exact ⟨Y, hY, rfl, rfl, rfl, rfl, Or.inl rfl⟩

theorem cache_facets_cell (K : Kernel) (C : ConeCollection) (lvl plc : Nat) (mc : MiniCone)
    (hc : C.cell lvl plc = some mc) :
    (C.cache_facets K lvl plc).cell lvl plc
      = some { mc with SupportHyperplanes := mc.hyperplanes K C.Generators } := by
  unfold ConeCollection.cache_facets
  rw [cell_updateCell_same, hc]
  rfl

theorem grown_append_gen (C : ConeCollection) (v : Vec) :
    Grown C { C with Generators := C.Generators ++ [v] } :=
  ⟨⟨[v], rfl⟩, le_refl _, fun _ => rfl,
    fun _ _ Y hY => ⟨Y, hY, rfl, rfl, rfl, rfl, Or.inl rfl⟩⟩

theorem getD_append_nil_level {α : Type} (Ms : List (List α)) (l : Nat) :
    (Ms ++ [[]]).getD l [] = Ms.getD l [] := by
  rw [List.getD_eq_getElem?_getD, List.getD_eq_getElem?_getD]
  by_cases h : l < Ms.length
  · rw [List.getElem?_append_left h]
  · rw [List.getElem?_append_right (Nat.le_of_not_lt h),
      List.getElem?_eq_none (Nat.le_of_not_lt h)]
    by_cases h0 : l - Ms.length = 0
    · rw [h0]
      rfl
    · rw [List.getElem?_eq_none (by simp; omega)]

theorem grown_ensure_level (C : ConeCollection) : Grown C C.ensure_level := by
  unfold ConeCollection.ensure_level
  split
  · split
    · exact grown_refl C
    · refine ⟨⟨[], (List.append_nil _).symm⟩, by simp, ?_, ?_⟩
      · intro l
        show ((C.Members ++ [[]]).getD l []).length = _
        rw [getD_append_nil_level]
      · intro l q Y hY
        refine ⟨Y, ?_, rfl, rfl, rfl, rfl, Or.inl rfl⟩
        rw [← hY]
        show ((C.Members ++ [[]]).getD l [])[q]? = _
        rw [getD_append_nil_level]
        rfl
  · exact grown_refl C

/-- After the guard of `refine` the last level has no cell. -/
theorem ensure_level_last (C : ConeCollection) (hne : C.Members ≠ []) :
    C.ensure_level.Members.getD (C.ensure_level.Members.length - 1) [] = [] := by
  unfold ConeCollection.ensure_level
  obtain ⟨L, hL⟩ : ∃ L, C.Members.getLast? = some L := by
    rw [List.getLast?_eq_getLast _ hne]
    exact ⟨_, rfl⟩
  rw [hL]
  simp only
  split
  · rename_i hemp
    rw [List.getLast?_eq_getElem?] at hL
    rw [List.getD_eq_getElem?_getD, hL]
    simpa using hemp
  · show (C.Members ++ [[]]).getD ((C.Members ++ [[]]).length - 1) [] = []
    rw [List.getD_eq_getElem?_getD, List.length_append, List.length_singleton,
      Nat.add_sub_cancel, List.getElem?_append_right (le_refl _)]
    simp

theorem safe_ensure_level (C : ConeCollection) (hne : C.Members ≠ []) (key : Nat) :
    Safe C.ensure_level key := by
  intro i Y hY
  unfold ConeCollection.cell at hY
  rw [ensure_level_last C hne] at hY
  simp at hY



/-! ## `MiniCone::refine` keeps the invariants -/

section keeping
variable {F : Type} [LinearOrderedField F]

theorem kept_refl (n key : Nat) (C : ConeCollection) (hT : Tree n C) (hS : Stellar F n C)
    (hsafe : Safe C key) : Kept F n key C C :=
  ⟨hT, hS, hsafe, rfl, rfl, rfl⟩

theorem kept_trans (n key : Nat) (C R R2 : ConeCollection) (h1 : Kept F n key C R)
    (h2 : Kept F n key R R2) : Kept F n key C R2 :=
  ⟨h2.1, h2.2.1, h2.2.2.1, h2.2.2.2.1.trans h1.2.2.2.1, h2.2.2.2.2.1.trans h1.2.2.2.2.1,
    h2.2.2.2.2.2.trans h1.2.2.2.2.2⟩

theorem fold_kept {α : Type} (n key : Nat) (f : ConeCollection → α → ConeCollection)
    (hf : ∀ C a, Tree n C → Stellar F n C → Safe C key → Kept F n key C (f C a)) :
    ∀ (l : List α) (C : ConeCollection), Tree n C → Stellar F n C → Safe C key →
      Kept F n key C (l.foldl f C) := by
  intro l
  induction l with
  | nil =>
    intro C hT hS hsafe
    exact kept_refl n key C hT hS hsafe
  | cons a l ih =>
    intro C hT hS hsafe
    rw [List.foldl_cons]
    have h1 := hf C a hT hS hsafe
    exact kept_trans n key C _ _ h1 (ih (f C a) h1.1 h1.2.1 h1.2.2.1)

theorem cache_kept (hb : Mat → Option (List Vec)) (n key : Nat) (C : ConeCollection)
    (lvl plc : Nat) (hT : Tree n C) (hS : Stellar F n C) (hsafe : Safe C key) :
    Kept F n key C (C.cache_facets (exactKernel hb) lvl plc) := by
  have hg := grown_cache hb n C hT lvl plc
  exact ⟨tree_grown n C _ hT hg, stellar_grown n C _ hT hS hg,
    safe_grown key C _ hsafe hg (cache_facets_members_length _ C lvl plc),
    cache_facets_members_length _ C lvl plc, rfl, root_cones_grown n C _ hT hg⟩

theorem subdivide_fold_at (K : Kernel) (key : Nat) (mc : MiniCone) (opp : List Nat)
    (C : ConeCollection) (X : MiniCone) (k p : Nat) (hk : mc.level = k) (hp : mc.my_place = p)
    (hX : C.cell k p = some X) (hlv : k + 1 < C.Members.length) :
    Subdivided K key mc.GenKeys k p opp X C (opp.foldl (subdivide_step K key mc) C) := by
  subst hk
  subst hp
  exact subdivide_fold_cells K key mc opp C X hX hlv

/-- `MiniCone::refine` keeps the forest well formed and subdivided. -/
theorem refine_kept (hb : Mat → Option (List Vec)) (n key : Nat) :
    ∀ (fuel lvl plc : Nat) (C : ConeCollection), Tree n C → Stellar F n C → Safe C key →
      Kept F n key C (MiniCone.refine (exactKernel hb) key fuel lvl plc C) := by
  intro fuel
  induction fuel with
  | zero =>
    intro lvl plc C hT hS hsafe
    rw [refine_zero]
    exact kept_refl n key C hT hS hsafe
  | succ fuel ih =>
    intro lvl plc C hT hS hsafe
    cases hc : C.cell lvl plc with
    | none =>
      rw [refine_no_cell _ _ _ _ _ _ hc]
      exact kept_refl n key C hT hS hsafe
    | some mc =>
      have hk1 := cache_kept (F := F) hb n key C lvl plc hT hS hsafe
      have hX := cache_facets_cell (exactKernel hb) C lvl plc mc hc
      have hco := hT.coords lvl plc mc hc
      have hHP := hyperplanes_eq hb n C hT lvl plc mc hc
      rw [refine_succ _ key fuel lvl plc C mc hc, hHP]
      cases hf : facet_loop (row C.Generators key) (exact_simplex_data (C.gens mc)) 0 [] with
      | none => exact hk1
      | some opp =>
        simp only
        split
        · exact hk1
        · rename_i hone
          split
          · exact kept_trans n key C _ _ hk1
              (fold_kept n key _ (fun C2 d hT2 hS2 hs2 => ih (mc.level + 1) d C2 hT2 hS2 hs2)
                mc.Daughters _ hk1.1 hk1.2.1 hk1.2.2.1)
          · rename_i hnod
            have hleaf : mc.Daughters = [] := by
              cases hd : mc.Daughters with
              | nil => rfl
              | cons a l =>
                rw [hd] at hnod
                simp at hnod
            have hs := hT.simplex lvl plc mc hc
            have hlvl : lvl + 1 < C.Members.length := by
              by_contra hge
              have hl := (cell_lt C lvl plc mc hc).1
              have hlast : C.Members.length - 1 = lvl := by omega
              have hkey : key ∈ mc.GenKeys := by
                apply hsafe plc mc
                rw [hlast]
                exact hc
              obtain ⟨j, hj⟩ := facet_loop_own_ray C.Generators mc.GenKeys key hs.2.2.1 hkey
              unfold ConeCollection.gens at hf
              rw [hf] at hj
              injection hj with hj
              apply hone
              rw [hj]
              rfl
            rw [hHP] at hX
            have hsub := subdivide_fold_at (exactKernel hb) key mc opp
              (C.cache_facets (exactKernel hb) lvl plc) _ lvl plc hco.1 hco.2 hX
              (by rw [cache_facets_members_length]; exact hlvl)
            have hf1 : facet_loop (row (C.cache_facets (exactKernel hb) lvl plc).Generators key)
                (exact_simplex_data ((C.cache_facets (exactKernel hb) lvl plc).gens
                  { mc with SupportHyperplanes := exact_simplex_data (C.gens mc) })) 0 []
                = some opp := hf
            have hst := stellar_facts (F := F) n C.Generators mc.GenKeys key opp hs.1 hs.2.2.1 hf
            refine kept_trans n key C _ _ hk1 ⟨?_, ?_, ?_, hsub.levels, hsub.gens, ?_⟩
            · exact tree_subdivided hb key n _ _ lvl plc _ opp hk1.1 hX hleaf hf1 hsub
            · exact stellar_subdivided hb key n _ _ lvl plc _ opp hk1.1 hk1.2.1 hX hleaf hf1 hsub
            · exact safe_subdivided _ key _ _ lvl plc _ opp hk1.2.2.1 hX
                (fun j hj => (hst.1 j hj).2.2) hsub
            · exact root_cones_subdivided _ key _ _ lvl plc _ opp hsub hX

end keeping



/-! ## The operations of the collection keep the invariants -/

section sound
variable {F : Type} [LinearOrderedField F]

theorem sound_grown (n : Nat) (roots : List Mat) (C C1 : ConeCollection)
    (h : Sound F n roots C) (hg : Grown C C1) : Sound F n roots C1 :=
  ⟨tree_grown n C C1 h.1 hg, stellar_grown n C C1 h.1 h.2.1 hg,
    (root_cones_grown n C C1 h.1 hg).trans h.2.2⟩

theorem sound_kept (n key : Nat) (roots : List Mat) (C R : ConeCollection)
    (h : Sound F n roots C) (hk : Kept F n key C R) : Sound F n roots R :=
  ⟨hk.1, hk.2.1, hk.2.2.2.2.2.trans h.2.2⟩

/-- `MiniCone::refine` on a forest without cells in its last level. -/
theorem sound_refine_cell (hb : Mat → Option (List Vec)) (n key : Nat) (roots : List Mat)
    (C : ConeCollection) (fuel lvl plc : Nat) (h : Sound F n roots C) (hsafe : Safe C key) :
    Sound F n roots (MiniCone.refine (exactKernel hb) key fuel lvl plc C) :=
  sound_kept n key roots C _ h (refine_kept hb n key fuel lvl plc C h.1 h.2.1 hsafe)

/-- `ConeCollection::refine` keeps the invariants. -/
theorem sound_refine (hb : Mat → Option (List Vec)) (n key : Nat) (roots : List Mat)
    (C : ConeCollection) (h : Sound F n roots C) :
    Sound F n roots (C.refine (exactKernel hb) key) := by
  unfold ConeCollection.refine
  split
  · exact h
  · have h1 := sound_grown n roots C _ h (grown_ensure_level C)
    have hs := safe_ensure_level C h.1.nonempty key
    exact sound_kept n key roots _ _ h1
      (fold_kept n key _ (fun C2 i hT2 hS2 hs2 => refine_kept hb n key _ 0 i C2 hT2 hS2 hs2)
        _ _ h1.1 h1.2.1 hs)

theorem sound_insert_all_gens_loop (hb : Mat → Option (List Vec)) (n : Nat) (roots : List Mat) :
    ∀ (fuel i : Nat) (C : ConeCollection), Sound F n roots C →
      Sound F n roots (insert_all_gens_loop (exactKernel hb) fuel i C) := by
  intro fuel
  induction fuel with
  | zero =>
    intro i C h
    rw [insert_all_gens_loop]
    exact h
  | succ fuel ih =>
    intro i C h
    rw [insert_all_gens_loop]
    split
    · exact ih (i + 1) _ (sound_refine hb n i roots C h)
    · exact h

/-- `ConeCollection::insert_all_gens` keeps the invariants. -/
theorem sound_insert_all_gens (hb : Mat → Option (List Vec)) (n : Nat) (roots : List Mat)
    (C : ConeCollection) (h : Sound F n roots C) :
    Sound F n roots (C.insert_all_gens (exactKernel hb)) :=
  sound_insert_all_gens_loop hb n roots _ 0 C h

theorem safe_append_gen (C : ConeCollection) (v : Vec) (key : Nat) (h : Safe C key) :
    Safe { C with Generators := C.Generators ++ [v] } key := h

theorem sound_insert_step (hb : Mat → Option (List Vec)) (n : Nat) (roots : List Mat)
    (s : InsertState) (H : HilbEntry) (h : Sound F n roots s.coll) :
    Sound F n roots (insert_step (exactKernel hb) s H).coll := by
  have h1 := sound_grown n roots s.coll _ h (grown_ensure_level s.coll)
  unfold insert_step
  simp only
  split
  · exact sound_refine_cell hb n _ roots _ _ _ _
      (sound_grown n roots _ _ h1 (grown_append_gen _ H.1))
      (safe_append_gen _ _ _ (safe_ensure_level s.coll h.1.nonempty _))
  · exact sound_refine_cell hb n _ roots _ _ _ _ h1 (safe_ensure_level s.coll h.1.nonempty _)

theorem sound_insert_hilbs (hb : Mat → Option (List Vec)) (n : Nat) (roots : List Mat)
    (C : ConeCollection) (AllHilbs : List HilbEntry) (h : Sound F n roots C) :
    Sound F n roots (insert_hilbs (exactKernel hb) C AllHilbs) := by
  unfold insert_hilbs
  have : ∀ (l : List HilbEntry) (s : InsertState), Sound F n roots s.coll →
      Sound F n roots (l.foldl (insert_step (exactKernel hb)) s).coll := by
    intro l
    induction l with
    | nil => intro s hs; exact hs
    | cons H l ih =>
      intro s hs
      rw [List.foldl_cons]
      exact ih _ (sound_insert_step hb n roots s H hs)
  exact this _ _ h

/-- `ConeCollection::make_unimodular` keeps the invariants, also when the
Hilbert basis computation fails. -/
theorem sound_make_unimodular (hb : Mat → Option (List Vec)) (n : Nat) (roots : List Mat) :
    ∀ (fuel : Nat) (C R : ConeCollection), Sound F n roots C →
      (C.make_unimodular (exactKernel hb) fuel = Outcome.returned R ∨
        C.make_unimodular (exactKernel hb) fuel = Outcome.oracle_failed R) →
      Sound F n roots R := by
  intro fuel
  induction fuel with
  | zero =>
    intro C R _ hr
    rw [ConeCollection.make_unimodular] at hr
    rcases hr with hr | hr <;> cases hr
  | succ fuel ih =>
    intro C R h hr
    rw [ConeCollection.make_unimodular] at hr
    cases hc : C.collect (exactKernel hb) with
    | none =>
      rw [hc] at hr
      simp only at hr
      rcases hr with hr | hr
      · cases hr
      · injection hr with hr
        rw [← hr]
        exact h
    | some AllHilbs =>
      rw [hc] at hr
      simp only at hr
      by_cases he : AllHilbs.isEmpty
      · rw [if_pos he] at hr
        rcases hr with hr | hr
        · injection hr with hr
          rw [← hr]
          exact h
        · cases hr
      · rw [if_neg he] at hr
        exact ih _ R (sound_insert_hilbs hb n roots C _ h) hr

end sound



/-! ## The leaves of a subdivided forest -/

section leaves
variable {F : Type} [LinearOrderedField F]

/-- Every point of the cone of a cell lies in the cone of a leaf. -/
theorem descend (n : Nat) (C : ConeCollection) (hS : Stellar F n C)
    (x : Fin n → F) :
    ∀ (m k i : Nat) (A : MiniCone), C.Members.length ≤ k + m → C.cell k i = some A →
      in_cone n (C.gens A) x →
      ∃ l j B, C.cell l j = some B ∧ B.Daughters = [] ∧ in_cone n (C.gens B) x := by
  intro m
  induction m with
  | zero =>
    intro k i A hm hA _
    have := (cell_lt C k i A hA).1
    omega
  | succ m ih =>
    intro k i A hm hA hx
    by_cases hd : A.Daughters = []
    · exact ⟨k, i, A, hA, hd, hx⟩
    · obtain ⟨d, _, md, hmd, hxd⟩ := hS.cover k i A hA hd x hx
      exact ih (k + 1) d md (by omega) hmd hxd

/-- The cone of a cell lies in the cone of a cell of level 0. -/
theorem ascend_cone (n : Nat) (C : ConeCollection) (hT : Tree n C) (hS : Stellar F n C)
    (x : Fin n → F) :
    ∀ (k i : Nat) (A : MiniCone), C.cell k i = some A → in_cone n (C.gens A) x →
      ∃ i0 A0, C.cell 0 i0 = some A0 ∧ in_cone n (C.gens A0) x := by
  intro k
  induction k with
  | zero =>
    intro i A hA hx
    exact ⟨i, A, hA, hx⟩
  | succ k ih =>
    intro i A hA hx
    obtain ⟨p, mp, hmp, hmem⟩ := hT.has_parent k i (cell_lt C (k + 1) i A hA).2
    exact ih p mp hmp ((hS.inside k p mp hmp i hmem A hA x).1 hx)

/-- Two cells of the same level whose interiors meet are the same cell. -/
theorem same_level (n : Nat) (C : ConeCollection) (hT : Tree n C) (hS : Stellar F n C)
    (x : Fin n → F) :
    ∀ (k i j : Nat) (A B : MiniCone), C.cell k i = some A → C.cell k j = some B →
      in_interior n (C.gens A) x → in_interior n (C.gens B) x → i = j := by
  intro k
  induction k with
  | zero =>
    intro i j A B hA hB hxA hxB
    by_contra hne
    exact hS.roots i j A B hA hB hne x ⟨hxA, hxB⟩
  | succ k ih =>
    intro i j A B hA hB hxA hxB
    obtain ⟨p, mp, hmp, hmem⟩ := hT.has_parent k i (cell_lt C (k + 1) i A hA).2
    obtain ⟨q, mq, hmq, hmemq⟩ := hT.has_parent k j (cell_lt C (k + 1) j B hB).2
    have hpq : p = q := ih p q mp mq hmp hmq
      ((hS.inside k p mp hmp i hmem A hA x).2 hxA) ((hS.inside k q mq hmq j hmemq B hB x).2 hxB)
    subst hpq
    rw [hmp] at hmq
    injection hmq with hmq
    subst hmq
    by_contra hne
    exact hS.apart k p mp hmp i hmem j hmemq hne A B hA hB x ⟨hxA, hxB⟩

/-- A cell above level `k` has an ancestor in level `k`, which has daughters
and whose interior contains the interior of the cell. -/
theorem ancestor (n : Nat) (C : ConeCollection) (hT : Tree n C) (hS : Stellar F n C)
    (x : Fin n → F) (k : Nat) :
    ∀ (m i : Nat) (A : MiniCone), C.cell (k + m + 1) i = some A → in_interior n (C.gens A) x →
      ∃ j B, C.cell k j = some B ∧ B.Daughters ≠ [] ∧ in_interior n (C.gens B) x := by
  intro m
  induction m with
  | zero =>
    intro i A hA hx
    obtain ⟨p, mp, hmp, hmem⟩ := hT.has_parent k i (cell_lt C (k + 1) i A hA).2
    exact ⟨p, mp, hmp, List.ne_nil_of_mem hmem, (hS.inside k p mp hmp i hmem A hA x).2 hx⟩
  | succ m ih =>
    intro i A hA hx
    obtain ⟨p, mp, hmp, hmem⟩ := hT.has_parent (k + m + 1) i (cell_lt C _ i A hA).2
    exact ih p mp hmp ((hS.inside _ p mp hmp i hmem A hA x).2 hx)

/-- The leaves of a well formed, subdivided forest have disjoint interiors. -/
theorem leaves_apart (n : Nat) (C : ConeCollection) (hT : Tree n C) (hS : Stellar F n C)
    (k i l j : Nat) (A B : MiniCone) (hA : C.cell k i = some A) (hB : C.cell l j = some B)
    (hAl : A.Daughters = []) (hBl : B.Daughters = []) (hne : (k, i) ≠ (l, j))
    (x : Fin n → F) : ¬ (in_interior n (C.gens A) x ∧ in_interior n (C.gens B) x) := by
  rintro ⟨hxA, hxB⟩
  rcases Nat.lt_trichotomy k l with h | h | h
  · obtain ⟨m, rfl⟩ : ∃ m, l = k + m + 1 := ⟨l - k - 1, by omega⟩
    obtain ⟨j1, B1, hB1, hd, hx1⟩ := ancestor n C hT hS x k m j B hB hxB
    have := same_level n C hT hS x k i j1 A B1 hA hB1 hxA hx1
    subst this
    rw [hA] at hB1
    injection hB1 with hB1
    subst hB1
    exact hd hAl
  · subst h
    have := same_level n C hT hS x k i j A B hA hB hxA hxB
    subst this
    exact hne rfl
  · obtain ⟨m, rfl⟩ : ∃ m, k = l + m + 1 := ⟨k - l - 1, by omega⟩
    obtain ⟨i1, A1, hA1, hd, hx1⟩ := ancestor n C hT hS x l m i A hA hxA
    have := same_level n C hT hS x l j i1 B A1 hB hA1 hxB hx1
    subst this
    rw [hB] at hA1
    injection hA1 with hA1
    subst hA1
    exact hd hBl

theorem mem_root_cones (n : Nat) (C : ConeCollection) (x : Fin n → F) :
    (∃ i A, C.cell 0 i = some A ∧ in_cone n (C.gens A) x) ↔
      ∃ M ∈ C.root_cones, in_cone n M x := by
  constructor
  · rintro ⟨i, A, hA, hx⟩
    refine ⟨C.gens A, ?_, hx⟩
    unfold ConeCollection.root_cones
    unfold ConeCollection.cell at hA
    exact List.mem_map.mpr ⟨A, List.getElem?_mem hA, rfl⟩
  · rintro ⟨M, hM, hx⟩
    unfold ConeCollection.root_cones at hM
    obtain ⟨A, hA, rfl⟩ := List.mem_map.mp hM
    obtain ⟨i, hi, hiA⟩ := List.getElem_of_mem hA
    exact ⟨i, A, by unfold ConeCollection.cell; rw [List.getElem?_eq_getElem hi, hiA], hx⟩

/-- The leaves of a sound forest cover exactly the cones of `roots`. -/
theorem leaves_cover (n : Nat) (roots : List Mat) (C : ConeCollection) (h : Sound F n roots C)
    (x : Fin n → F) :
    (∃ k i A, C.cell k i = some A ∧ A.Daughters = [] ∧ in_cone n (C.gens A) x) ↔
      ∃ M ∈ roots, in_cone n M x := by
  rw [← h.2.2, ← mem_root_cones]
  constructor
  · rintro ⟨k, i, A, hA, _, hx⟩
    exact ascend_cone n C h.1 h.2.1 x k i A hA hx
  · rintro ⟨i, A, hA, hx⟩
    exact descend n C h.2.1 x C.Members.length 0 i A (by omega) hA hx

end leaves



/-! ## Coverage -/

section coverage
variable {F : Type} [LinearOrderedField F]

theorem level_one_empty (C : ConeCollection) (h : C.Members.length = 1) (k : Nat) :
    C.Members.getD (k + 1) [] = [] := by
  rw [List.getD_eq_getElem?_getD, List.getElem?_eq_none (by omega)]
  rfl

/-- A forest whose level-0 cells triangulate a cone is sound. -/
theorem sound_of_triangulated (n : Nat) (C : ConeCollection) (h : Triangulated F n C) :
    Sound F n C.root_cones C := by
  have hlev : ∀ k i mc, C.cell k i = some mc → k = 0 := by
    intro k i mc hc
    have := (cell_lt C k i mc hc).1
    have := h.one_level
    omega
  refine ⟨⟨?_, ?_, ?_, ?_, ?_⟩, ⟨?_, ?_, ?_, ?_⟩, rfl⟩
  · intro h0
    have := h.one_level
    rw [h0] at this
    cases this
  · intro k i mc hc
    obtain rfl := hlev k i mc hc
    exact ⟨(h.cells i mc hc).1, (h.cells i mc hc).2.1⟩
  · intro k i mc hc d hd
    obtain rfl := hlev k i mc hc
    rw [(h.cells i mc hc).2.2.1] at hd
    exact absurd hd (List.not_mem_nil _)
  · intro k i hi
    rw [level_one_empty C h.one_level k] at hi
    exact absurd hi (Nat.not_lt_zero _)
  · intro k i mc hc
    obtain rfl := hlev k i mc hc
    exact (h.cells i mc hc).2.2.2
  · intro k i mc hc hne
    obtain rfl := hlev k i mc hc
    exact absurd (h.cells i mc hc).2.2.1 hne
  · intro k i mc hc d hd
    obtain rfl := hlev k i mc hc
    rw [(h.cells i mc hc).2.2.1] at hd
    exact absurd hd (List.not_mem_nil _)
  · intro k i mc hc d hd
    obtain rfl := hlev k i mc hc
    rw [(h.cells i mc hc).2.2.1] at hd
    exact absurd hd (List.not_mem_nil _)
  · exact h.apart

/-- Every reachable state is sound. -/
theorem sound_of_reachable (hb : Mat → Option (List Vec)) (n : Nat) (C0 C : ConeCollection)
    (h0 : Triangulated F n C0) (hr : Reachable (exactKernel hb) C0 C) :
    Sound F n C0.root_cones C := by
  induction hr with
  | start => exact sound_of_triangulated n C0 h0
  | refine C key _ ih => exact sound_refine hb n key _ C ih
  | insert_all_gens C _ ih => exact sound_insert_all_gens hb n _ C ih
  | make_unimodular C R fuel _ hm ih =>
    exact sound_make_unimodular hb n _ fuel C R ih (Or.inl hm)
  | make_unimodular_failed C R fuel _ hm ih =>
    exact sound_make_unimodular hb n _ fuel C R ih (Or.inr hm)

/-- C3. Coverage invariant I1, for the concrete kernel (exact determinants, any
Hilbert basis oracle) and the points with coordinates in any ordered field: in
every state reached by `ConeCollection::refine`, `insert_all_gens` and
`make_unimodular` from a forest whose level-0 cells triangulate a cone, every
cell spans a non-degenerate simplex, the cones of two different leaves (cells
with empty `Daughters`) have disjoint interiors, and a point lies in the cone
of some leaf exactly when it lies in the cone of some level-0 cell of the
initial forest. -/
theorem leaves_partition_support (hb : Mat → Option (List Vec)) (n : Nat)
    (C0 C : ConeCollection) (h0 : Triangulated F n C0)
    (hr : Reachable (exactKernel hb) C0 C) :
    (∀ k i A, C.cell k i = some A → A.GenKeys.length = n ∧ det (C.gens A) ≠ 0) ∧
    (∀ k i l j A B, C.cell k i = some A → C.cell l j = some B →
      A.Daughters = [] → B.Daughters = [] → (k, i) ≠ (l, j) →
      ∀ x : Fin n → F, ¬ (in_interior n (C.gens A) x ∧ in_interior n (C.gens B) x)) ∧
    (∀ x : Fin n → F,
      (∃ k i A, C.cell k i = some A ∧ A.Daughters = [] ∧ in_cone n (C.gens A) x) ↔
        ∃ i A0, C0.cell 0 i = some A0 ∧ in_cone n (C0.gens A0) x) := by
  have hs := sound_of_reachable hb n C0 C h0 hr
  refine ⟨?_, ?_, ?_⟩
  · intro k i A hA
    exact ⟨(hs.1.simplex k i A hA).1, (hs.1.simplex k i A hA).2.2.1⟩
  · intro k i l j A B hA hB hAl hBl hne x
    exact leaves_apart n C hs.1 hs.2.1 k i l j A B hA hB hAl hBl hne x
  · intro x
    rw [leaves_cover n _ C hs x, mem_root_cones]

end coverage





set_option maxRecDepth 10000 in
theorem scenario_run :
    scenario_forest.make_unimodular (exactKernel scenario_oracle) 2
      = Outcome.returned scenario_result := by
  rfl

set_option maxRecDepth 10000 in
theorem scenario_triangulated : Triangulated Rat 2 scenario_forest := by
  have hi : ∀ i mc, scenario_forest.cell 0 i = some mc → i = 0 := by
    intro i mc hc
    have h := (cell_lt scenario_forest 0 i mc hc).2
    have h1 : (scenario_forest.Members.getD 0 []).length = 1 := rfl
    omega
  refine ⟨rfl, ?_, ?_⟩
  · intro i mc hc
    obtain rfl := hi i mc hc
    have h0 : scenario_forest.cell 0 0 = some
        { GenKeys := [0, 1], multiplicity := 2, SupportHyperplanes := [], Daughters := [],
          level := 0, my_place := 0, is_simplex := true } := rfl
    rw [h0] at hc
    injection hc with hc
    subst hc
    exact ⟨rfl, rfl, rfl, rfl, by decide, by decide, Or.inl rfl⟩
  · intro i i1 A B hA hB hne
    exact absurd ((hi i A hA).trans (hi i1 B hB).symm) hne

/-- Witness for `leaves_partition_support`: the concrete scenario, the cone
over `(1,0)`, `(1,2)` and the forest `make_unimodular` leaves for it, with points
over the rational numbers. -/
theorem leaves_partition_support_witness :
    Triangulated Rat 2 scenario_forest ∧
    Reachable (exactKernel scenario_oracle) scenario_forest scenario_result ∧
    ((∀ k i A, scenario_result.cell k i = some A →
        A.GenKeys.length = 2 ∧ det (scenario_result.gens A) ≠ 0) ∧
      (∀ k i l j A B, scenario_result.cell k i = some A → scenario_result.cell l j = some B →
        A.Daughters = [] → B.Daughters = [] → (k, i) ≠ (l, j) →
        ∀ x : Fin 2 → Rat, ¬ (in_interior 2 (scenario_result.gens A) x ∧
          in_interior 2 (scenario_result.gens B) x)) ∧
      (∀ x : Fin 2 → Rat,
        (∃ k i A, scenario_result.cell k i = some A ∧ A.Daughters = [] ∧
            in_cone 2 (scenario_result.gens A) x) ↔
          ∃ i A0, scenario_forest.cell 0 i = some A0 ∧
            in_cone 2 (scenario_forest.gens A0) x)) :=
  ⟨scenario_triangulated,
    Reachable.make_unimodular scenario_forest scenario_result 2 Reachable.start scenario_run,
    leaves_partition_support scenario_oracle 2 scenario_forest scenario_result
      scenario_triangulated
      (Reachable.make_unimodular scenario_forest scenario_result 2 Reachable.start
        scenario_run)⟩



/-! ## The forest of the constructor -/

theorem add_minicone_zero_members (C : ConeCollection) (m : Nat) (GKeys : List Nat)
    (mult : Int) :
    (C.add_minicone 0 m GKeys mult).Members
      = updateAt (fun L => L ++ [new_cell C 0 (C.Members.getD 0 []).length GKeys mult]) 0
          C.Members := by
  unfold ConeCollection.add_minicone new_cell
  simp

theorem add_minicone_generators (C : ConeCollection) (l m : Nat) (GKeys : List Nat)
    (mult : Int) : (C.add_minicone l m GKeys mult).Generators = C.Generators := rfl

theorem add_minicone_is_triangulation (C : ConeCollection) (l m : Nat) (GKeys : List Nat)
    (mult : Int) : (C.add_minicone l m GKeys mult).is_triangulation = C.is_triangulation := rfl

/-- The forest the constructor builds: one level with one cell per simplex. -/
theorem from_triangulation_spec (Gens : Mat) (T : List (List Nat × Int)) :
    (ConeCollection.from_triangulation Gens T).Members.length = 1 ∧
    (ConeCollection.from_triangulation Gens T).Generators = Gens ∧
    (ConeCollection.from_triangulation Gens T).is_triangulation = true ∧
    ((ConeCollection.from_triangulation Gens T).Members.getD 0 []).length = T.length ∧
    ∀ i, (ConeCollection.from_triangulation Gens T).cell 0 i = (T[i]?).map (root_cell i) := by
  induction T using List.reverseRecOn with
  | nil =>
    refine ⟨rfl, rfl, rfl, rfl, ?_⟩
    intro i
    cases i <;> rfl
  | append_singleton T S ih =>
    obtain ⟨h1, h2, h3, h4, h5⟩ := ih
    have hstep : ConeCollection.from_triangulation Gens (T ++ [S])
        = (ConeCollection.from_triangulation Gens T).add_minicone 0 0 S.1 S.2 := by
      unfold ConeCollection.from_triangulation
      rw [List.foldl_append]
      rfl
    have hlev : ((ConeCollection.from_triangulation Gens (T ++ [S])).Members.getD 0 [])
        = (ConeCollection.from_triangulation Gens T).Members.getD 0 []
          ++ [root_cell T.length S] := by
      rw [hstep, add_minicone_zero_members, getD_updateAt, if_pos ⟨rfl, by omega⟩, h4]
      unfold new_cell root_cell
      rw [h3]
    refine ⟨?_, ?_, ?_, ?_, ?_⟩
    · rw [hstep, add_minicone_zero_members, updateAt_length, h1]
    · rw [hstep, add_minicone_generators, h2]
    · rw [hstep, add_minicone_is_triangulation, h3]
    · rw [hlev, List.length_append, List.length_singleton, h4, List.length_append,
        List.length_singleton]
    · intro i
      rw [cell_eq, hlev]
      by_cases hi : i < T.length
      · rw [List.getElem?_append_left (by rw [h4]; exact hi), List.getElem?_append_left hi,
          ← h5 i]
        rfl
      · rw [List.getElem?_append_right (by rw [h4]; omega),
          List.getElem?_append_right (by omega), h4]
        by_cases h0 : i - T.length = 0
        · have : i = T.length := by omega
          subst this
          simp
        · rw [List.getElem?_eq_none (by simp; omega), List.getElem?_eq_none (by simp; omega)]
          rfl

/-- The forest the constructor builds from non-degenerate simplices with
disjoint interiors is a forest whose level-0 cells triangulate a cone. -/
theorem from_triangulation_triangulated {F : Type} [LinearOrderedField F] (n : Nat) (Gens : Mat)
    (T : List (List Nat × Int))
    (hT : ∀ S ∈ T, S.1.length = n ∧ (∀ g ∈ S.1, g < Gens.length) ∧
      det (submatrix Gens S.1) ≠ 0)
    (hap : ∀ (i i1 : Nat) (S S1 : List Nat × Int), T[i]? = some S → T[i1]? = some S1 → i ≠ i1 →
      ∀ x : Fin n → F, ¬ (in_interior n (submatrix Gens S.1) x ∧
        in_interior n (submatrix Gens S1.1) x)) :
    Triangulated F n (ConeCollection.from_triangulation Gens T) := by
  obtain ⟨h1, h2, _, _, h5⟩ := from_triangulation_spec Gens T
  have hcell : ∀ i mc, (ConeCollection.from_triangulation Gens T).cell 0 i = some mc →
      ∃ S, T[i]? = some S ∧ mc = root_cell i S := by
    intro i mc hc
    rw [h5] at hc
    cases hS : T[i]? with
    | none =>
      rw [hS] at hc
      cases hc
    | some S =>
      rw [hS] at hc
      injection hc with hc
      exact ⟨S, rfl, hc.symm⟩
  refine ⟨h1, ?_, ?_⟩
  · intro i mc hc
    obtain ⟨S, hS, rfl⟩ := hcell i mc hc
    obtain ⟨ha, hb, hc1⟩ := hT S (List.getElem?_mem hS)
    refine ⟨rfl, rfl, rfl, ha, ?_, ?_, Or.inl rfl⟩
    · rw [h2]
      exact hb
    · unfold ConeCollection.gens
      rw [h2]
      exact hc1
  · intro i i1 A B hA hB hne x
    obtain ⟨S, hS, rfl⟩ := hcell i A hA
    obtain ⟨S1, hS1, rfl⟩ := hcell i1 B hB
    unfold ConeCollection.gens
    rw [h2]
    exact hap i i1 S S1 hS hS1 hne x

theorem quadrants_apart (x : Fin 2 → Rat) :
    ¬ (in_interior 2 [[2, 0], [0, 1]] x ∧ in_interior 2 [[1, 0], [0, -1]] x) := by
  rintro ⟨⟨a, _, y, ⟨b, hb, z, hz, hy⟩, hx⟩, ⟨a1, _, y1, ⟨b1, hb1, z1, hz1, hy1⟩, hx1⟩⟩
  have h1 := congrFun hx 1
  have h2 := congrFun hx1 1
  rw [in_comb] at hz hz1
  subst hz hz1 hy hy1
  simp [rvec] at h1 h2
  linarith

/-- The two quadrants of `quadrant_forest` triangulate a half plane. -/
theorem quadrant_triangulated : Triangulated Rat 2 quadrant_forest := by
  apply from_triangulation_triangulated
  · intro S hS
    simp only [List.mem_cons, List.mem_singleton, List.not_mem_nil, or_false] at hS
    rcases hS with rfl | rfl
    · exact ⟨rfl, by decide, by decide⟩
    · exact ⟨rfl, by decide, by decide⟩
  · intro i i1 S S1 hS hS1 hne x
    match i, i1 with
    | 0, 0 => exact absurd rfl hne
    | 0, 1 =>
      simp at hS hS1
      subst hS hS1
      exact quadrants_apart x
    | 1, 0 =>
      simp at hS hS1
      subst hS hS1
      exact fun h => quadrants_apart x ⟨h.2, h.1⟩
    | 1, 1 => exact absurd rfl hne
    | _ + 2, _ => simp at hS
    | 0, _ + 2 => simp at hS1
    | 1, _ + 2 => simp at hS1



/-! ## Induction over `refine` and its frame -/

/-- Induction over the calls of `MiniCone::refine`: a property of the forest
that caching facets keeps, and that the subdivision loop of a leaf keeps, is
kept by `refine`. -/
theorem refine_ind (K : Kernel) (key : Nat) (Q : ConeCollection → Prop)
    (hcache : ∀ C lvl plc, Q C → Q (C.cache_facets K lvl plc))
    (hfold : ∀ C lvl plc mc opp, Q C → C.cell lvl plc = some mc → mc.Daughters = [] →
      facet_loop (row C.Generators key) (mc.hyperplanes K C.Generators) 0 [] = some opp →
      opp.length ≠ 1 → Q (opp.foldl (subdivide_step K key mc) (C.cache_facets K lvl plc))) :
    ∀ (fuel lvl plc : Nat) (C : ConeCollection), Q C →
      Q (MiniCone.refine K key fuel lvl plc C) := by
  intro fuel
  induction fuel with
  | zero =>
    intro lvl plc C hQ
    rw [refine_zero]
    exact hQ
  | succ fuel ih =>
    intro lvl plc C hQ
    cases hc : C.cell lvl plc with
    | none =>
      rw [refine_no_cell _ _ _ _ _ _ hc]
      exact hQ
    | some mc =>
      rw [refine_succ _ key fuel lvl plc C mc hc]
      cases hf : facet_loop (row C.Generators key) (mc.hyperplanes K C.Generators) 0 [] with
      | none => exact hcache C lvl plc hQ
      | some opp =>
        simp only
        split
        · exact hcache C lvl plc hQ
        · rename_i hone
          split
          · have : ∀ (ds : List Nat) (C2 : ConeCollection), Q C2 →
                Q (ds.foldl (fun C2 d => MiniCone.refine K key fuel (mc.level + 1) d C2) C2) := by
              intro ds
              induction ds with
              | nil => intro C2 h2; exact h2
              | cons d ds ihd =>
                intro C2 h2
                rw [List.foldl_cons]
                exact ihd _ (ih (mc.level + 1) d C2 h2)
            exact this _ _ (hcache C lvl plc hQ)
          · rename_i hnod
            have hleaf : mc.Daughters = [] := by
              cases hd : mc.Daughters with
              | nil => rfl
              | cons a l =>
                rw [hd] at hnod
                simp at hnod
            exact hfold C lvl plc mc opp hQ hc hleaf hf hone

/-- Induction over the calls of `MiniCone::refine`, with one pass of the
subdivision loop as the step. -/
theorem refine_ind_step (K : Kernel) (key : Nat) (Q : ConeCollection → Prop)
    (Good : MiniCone → Prop)
    (hcache : ∀ C lvl plc, Q C → Q (C.cache_facets K lvl plc))
    (hgood : ∀ C lvl plc mc, Q C → C.cell lvl plc = some mc → mc.Daughters = [] → Good mc)
    (hstep : ∀ C mc j, Q C → Good mc → Q (subdivide_step K key mc C j)) :
    ∀ (fuel lvl plc : Nat) (C : ConeCollection), Q C →
      Q (MiniCone.refine K key fuel lvl plc C) := by
  apply refine_ind K key Q hcache
  intro C lvl plc mc opp hQ hc hleaf _ _
  have hg := hgood C lvl plc mc hQ hc hleaf
  have : ∀ (l : List Nat) (C2 : ConeCollection), Q C2 →
      Q (l.foldl (subdivide_step K key mc) C2) := by
    intro l
    induction l with
    | nil => intro C2 h2; exact h2
    | cons j l ihl =>
      intro C2 h2
      rw [List.foldl_cons]
      exact ihl _ (hstep C2 mc j h2 hg)
  exact this _ _ (hcache C lvl plc hQ)

/-- A property that `MiniCone::refine` and the guard for a new level keep is
kept by `ConeCollection::refine`. -/
theorem coll_refine_ind (K : Kernel) (key : Nat) (Q : ConeCollection → Prop)
    (hens : ∀ C, Q C → Q C.ensure_level)
    (href : ∀ fuel lvl plc C, Q C → Q (MiniCone.refine K key fuel lvl plc C))
    (C : ConeCollection) (hQ : Q C) : Q (C.refine K key) := by
  unfold ConeCollection.refine
  split
  · exact hQ
  · have : ∀ (l : List Nat) (f : Nat) (C2 : ConeCollection), Q C2 →
        Q (l.foldl (fun C2 i => MiniCone.refine K key f 0 i C2) C2) := by
      intro l f
      induction l with
      | nil => intro C2 h2; exact h2
      | cons i l ihl =>
        intro C2 h2
        rw [List.foldl_cons]
        exact ihl _ (href f 0 i C2 h2)
    exact this _ _ _ (hens C hQ)

theorem ensure_level_generators (C : ConeCollection) :
    C.ensure_level.Generators = C.Generators := by
  unfold ConeCollection.ensure_level
  split
  · split <;> rfl
  · rfl

theorem ensure_level_allRays (C : ConeCollection) : C.ensure_level.AllRays = C.AllRays := by
  unfold ConeCollection.ensure_level
  split
  · split <;> rfl
  · rfl

/-- `MiniCone::refine` leaves the generator table as it is and only adds to
the known rays. -/
theorem refine_cell_frame (K : Kernel) (key fuel lvl plc : Nat) (C : ConeCollection) :
    (MiniCone.refine K key fuel lvl plc C).Generators = C.Generators ∧
    ∀ x ∈ C.AllRays, x ∈ (MiniCone.refine K key fuel lvl plc C).AllRays := by
  apply refine_ind_step K key
    (fun C2 => C2.Generators = C.Generators ∧ ∀ x ∈ C.AllRays, x ∈ C2.AllRays) (fun _ => True)
  · intro C2 l p h
    exact h
  · intros
    trivial
  · intro C2 mc j h _
    refine ⟨h.1, fun x hx => ?_⟩
    unfold subdivide_step
    rw [mem_allRays_add_minicone]
    exact Or.inl (h.2 x hx)
  · exact ⟨rfl, fun x hx => hx⟩

/-- `ConeCollection::refine` leaves the generator table as it is and only adds
to the known rays. -/
theorem refine_frame (K : Kernel) (key : Nat) (C : ConeCollection) :
    (C.refine K key).Generators = C.Generators ∧
    ∀ x ∈ C.AllRays, x ∈ (C.refine K key).AllRays := by
  apply coll_refine_ind K key
    (fun C2 => C2.Generators = C.Generators ∧ ∀ x ∈ C.AllRays, x ∈ C2.AllRays)
  · intro C2 h
    rw [ensure_level_generators, ensure_level_allRays]
    exact h
  · intro fuel lvl plc C2 h
    obtain ⟨h1, h2⟩ := refine_cell_frame K key fuel lvl plc C2
    exact ⟨h1.trans h.1, fun x hx => h2 x (h.2 x hx)⟩
  · exact ⟨rfl, fun x hx => hx⟩



/-! ## The fast path and the bootstrap pass -/

/-- C11. No-op fast path: when the value `Generators[key]` is an element of
`AllRays`, `ConeCollection::refine(key)` returns the collection as it is, with
`Members` (and the number of levels), `Generators` and `AllRays` unchanged.  The
test is by value: `key` need not be an index of a cell. -/
theorem refine_known_ray_noop (K : Kernel) (C : ConeCollection) (key : Nat)
    (h : row C.Generators key ∈ C.AllRays) :
    C.refine K key = C ∧ (C.refine K key).Members = C.Members ∧
    (C.refine K key).Members.length = C.Members.length ∧
    (C.refine K key).Generators = C.Generators ∧ (C.refine K key).AllRays = C.AllRays := by
  have h1 : C.refine K key = C := by
    unfold ConeCollection.refine
    rw [if_pos h]
  rw [h1]
  exact ⟨rfl, rfl, rfl, rfl, rfl⟩

set_option maxRecDepth 10000 in
/-- Witness for `refine_known_ray_noop`: the ray `(1,0)` is known from the cell
`{0,1}` and is inserted under its second index 2, which no cell uses. -/
theorem refine_known_ray_noop_witness :
    row repeated_forest.Generators 2 ∈ repeated_forest.AllRays ∧
    (∀ L ∈ repeated_forest.Members, ∀ mc ∈ L, 2 ∉ mc.GenKeys) ∧
    (repeated_forest.refine (exactKernel failing_oracle) 2 = repeated_forest ∧
      (repeated_forest.refine (exactKernel failing_oracle) 2).Members
        = repeated_forest.Members ∧
      (repeated_forest.refine (exactKernel failing_oracle) 2).Members.length
        = repeated_forest.Members.length ∧
      (repeated_forest.refine (exactKernel failing_oracle) 2).Generators
        = repeated_forest.Generators ∧
      (repeated_forest.refine (exactKernel failing_oracle) 2).AllRays
        = repeated_forest.AllRays) :=
  ⟨by decide, by decide,
    refine_known_ray_noop (exactKernel failing_oracle) repeated_forest 2 (by decide)⟩

theorem insert_all_gens_loop_eq (K : Kernel) :
    ∀ (fuel i : Nat) (C : ConeCollection), i + fuel = C.Generators.length →
      insert_all_gens_loop K fuel i C
        = (List.range' i fuel).foldl (fun C2 j => C2.refine K j) C := by
  intro fuel
  induction fuel with
  | zero =>
    intro i C h
    rw [insert_all_gens_loop]
    rfl
  | succ fuel ih =>
    intro i C h
    rw [insert_all_gens_loop, if_pos (by omega), List.range'_succ, List.foldl_cons]
    exact ih (i + 1) _ (by rw [(refine_frame K i C).1]; omega)

theorem foldl_refine_generators (K : Kernel) (l : List Nat) :
    ∀ C : ConeCollection, (l.foldl (fun C2 j => C2.refine K j) C).Generators = C.Generators := by
  induction l with
  | nil => intro C; rfl
  | cons j l ih =>
    intro C
    rw [List.foldl_cons, ih, (refine_frame K j C).1]

/-- C18. `insert_all_gens` on a forest with `n` generators is the sequence
`refine(0)`, `refine(1)`, ..., `refine(n-1)`; the generator table is the same
after every one of these calls, so the bound `Generators.nr_of_rows()` read in
every pass of the loop is the size at the start of the call. -/
theorem insert_all_gens_eq_refines (K : Kernel) (C : ConeCollection) :
    C.insert_all_gens K
      = (List.range C.Generators.length).foldl (fun C2 i => C2.refine K i) C ∧
    (C.insert_all_gens K).Generators = C.Generators ∧
    ∀ i, ((List.range i).foldl (fun C2 j => C2.refine K j) C).Generators.length
      = C.Generators.length := by
  have h : C.insert_all_gens K
      = (List.range C.Generators.length).foldl (fun C2 i => C2.refine K i) C := by
    unfold ConeCollection.insert_all_gens
    rw [insert_all_gens_loop_eq K _ 0 C (by omega), List.range_eq_range']
  refine ⟨h, ?_, ?_⟩
  · rw [h, foldl_refine_generators]
  · intro i
    rw [foldl_refine_generators]



/-! ## Growth of the generator table and of the known rays -/

theorem grows_refl (C : ConeCollection) : Grows C C :=
  ⟨⟨[], (List.append_nil _).symm⟩, fun _ hx => hx⟩

theorem grows_trans (C R R2 : ConeCollection) (h1 : Grows C R) (h2 : Grows R R2) :
    Grows C R2 := by
  obtain ⟨⟨E, hE⟩, hA⟩ := h1
  obtain ⟨⟨E2, hE2⟩, hA2⟩ := h2
  exact ⟨⟨E ++ E2, by rw [hE2, hE, List.append_assoc]⟩, fun x hx => hA2 x (hA x hx)⟩

theorem grows_of_frame (C R : ConeCollection) (hG : R.Generators = C.Generators)
    (hA : ∀ x ∈ C.AllRays, x ∈ R.AllRays) : Grows C R :=
  ⟨⟨[], by rw [hG, List.append_nil]⟩, hA⟩

theorem grows_row (C R : ConeCollection) (h : Grows C R) (i : Nat)
    (hi : i < C.Generators.length) : row R.Generators i = row C.Generators i := by
  obtain ⟨⟨E, hE⟩, _⟩ := h
  unfold row
  rw [hE, List.getD_eq_getElem?_getD, List.getD_eq_getElem?_getD, List.getElem?_append_left hi]

theorem grows_refine (K : Kernel) (key : Nat) (C : ConeCollection) : Grows C (C.refine K key) :=
  grows_of_frame C _ (refine_frame K key C).1 (refine_frame K key C).2

theorem insert_all_gens_fold (K : Kernel) (C : ConeCollection) :
    C.insert_all_gens K
      = (List.range C.Generators.length).foldl (fun C2 i => C2.refine K i) C := by
  unfold ConeCollection.insert_all_gens
  rw [insert_all_gens_loop_eq K _ 0 C (by omega), List.range_eq_range']

theorem grows_insert_all_gens (K : Kernel) (C : ConeCollection) :
    Grows C (C.insert_all_gens K) := by
  rw [insert_all_gens_fold K C]
  have : ∀ (l : List Nat) (C2 : ConeCollection),
      Grows C2 (l.foldl (fun C3 i => C3.refine K i) C2) := by
    intro l
    induction l with
    | nil => intro C2; exact grows_refl C2
    | cons i l ih =>
      intro C2
      rw [List.foldl_cons]
      exact grows_trans _ _ _ (grows_refine K i C2) (ih _)
  exact this _ C

theorem grows_add_extra_generators (C : ConeCollection) (NewGens : Mat) :
    Grows C (C.add_extra_generators NewGens) := by
  unfold ConeCollection.add_extra_generators
  have : ∀ (l : Mat) (C2 : ConeCollection), Grows C2 (l.foldl (fun C1 v =>
      if v ∈ C1.AllRays then C1 else { C1 with Generators := C1.Generators ++ [v] }) C2) := by
    intro l
    induction l with
    | nil => intro C2; exact grows_refl C2
    | cons v l ih =>
      intro C2
      rw [List.foldl_cons]
      refine grows_trans _ _ _ ?_ (ih _)
      split
      · exact grows_refl C2
      · exact ⟨⟨[v], rfl⟩, fun _ hx => hx⟩
  exact this _ C

theorem insert_step_new (K : Kernel) (s : InsertState) (H : HilbEntry)
    (h : H.1 ≠ s.last_inserted) :
    insert_step K s H =
      { coll := MiniCone.refine K s.coll.ensure_level.Generators.length
          s.coll.ensure_level.Members.length H.2.1 H.2.2
          { s.coll.ensure_level with Generators := s.coll.ensure_level.Generators ++ [H.1] }
        last_inserted := H.1
        key := s.coll.ensure_level.Generators.length } := by
  unfold insert_step
  simp only [h, ne_eq, not_false_eq_true, if_true]

theorem insert_step_old (K : Kernel) (s : InsertState) (H : HilbEntry)
    (h : H.1 = s.last_inserted) :
    insert_step K s H =
      { coll := MiniCone.refine K s.key s.coll.ensure_level.Members.length H.2.1 H.2.2
          s.coll.ensure_level
        last_inserted := s.last_inserted
        key := s.key } := by
  unfold insert_step
  simp only [h, ne_eq, not_true_eq_false, if_false]

theorem grows_insert_step (K : Kernel) (s : InsertState) (H : HilbEntry) :
    Grows s.coll (insert_step K s H).coll := by
  have h1 : Grows s.coll s.coll.ensure_level :=
    grows_of_frame _ _ (ensure_level_generators _)
      (fun x hx => by rw [ensure_level_allRays]; exact hx)
  by_cases h : H.1 = s.last_inserted
  · rw [insert_step_old K s H h]
    refine grows_trans _ _ _ h1 ?_
    exact grows_of_frame _ _ (refine_cell_frame K _ _ _ _ _).1 (refine_cell_frame K _ _ _ _ _).2
  · rw [insert_step_new K s H h]
    have h2 : Grows s.coll.ensure_level
        { s.coll.ensure_level with Generators := s.coll.ensure_level.Generators ++ [H.1] } :=
      ⟨⟨[H.1], rfl⟩, fun _ hx => hx⟩
    refine grows_trans _ _ _ h1 (grows_trans _ _ _ h2 ?_)
    exact grows_of_frame _ _ (refine_cell_frame K _ _ _ _ _).1 (refine_cell_frame K _ _ _ _ _).2

theorem grows_insert_hilbs (K : Kernel) (C : ConeCollection) (AllHilbs : List HilbEntry) :
    Grows C (insert_hilbs K C AllHilbs) := by
  unfold insert_hilbs
  have : ∀ (l : List HilbEntry) (s : InsertState),
      Grows s.coll (l.foldl (insert_step K) s).coll := by
    intro l
    induction l with
    | nil => intro s; exact grows_refl _
    | cons H l ih =>
      intro s
      rw [List.foldl_cons]
      exact grows_trans _ _ _ (grows_insert_step K s H) (ih _)
  exact this _ _

theorem grows_make_unimodular (K : Kernel) :
    ∀ (fuel : Nat) (C R : ConeCollection),
      (C.make_unimodular K fuel = Outcome.returned R ∨
        C.make_unimodular K fuel = Outcome.oracle_failed R) → Grows C R := by
  intro fuel
  induction fuel with
  | zero =>
    intro C R hr
    rw [ConeCollection.make_unimodular] at hr
    rcases hr with hr | hr <;> cases hr
  | succ fuel ih =>
    intro C R hr
    rw [ConeCollection.make_unimodular] at hr
    cases hc : C.collect K with
    | none =>
      rw [hc] at hr
      simp only at hr
      rcases hr with hr | hr
      · cases hr
      · injection hr with hr
        rw [← hr]
        exact grows_refl C
    | some AllHilbs =>
      rw [hc] at hr
      simp only at hr
      by_cases he : AllHilbs.isEmpty
      · rw [if_pos he] at hr
        rcases hr with hr | hr
        · injection hr with hr
          rw [← hr]
          exact grows_refl C
        · cases hr
      · rw [if_neg he] at hr
        exact grows_trans _ _ _ (grows_insert_hilbs K C _) (ih _ R hr)

/-- C15. Growth invariant I4: for each of `add_extra_generators`, `refine`,
`insert_all_gens` and `make_unimodular` (ended by its `break` or by a failure of
the oracle), the generator table before the call is an initial segment of the
table after it, every index of the old table keeps its vector, and every
element of `AllRays` before the call is an element of `AllRays` after it. -/
theorem growth_invariant (K : Kernel) (C R : ConeCollection) (h : Operation K C R) :
    (∃ E, R.Generators = C.Generators ++ E) ∧
    (∀ i, i < C.Generators.length → row R.Generators i = row C.Generators i) ∧
    ∀ x ∈ C.AllRays, x ∈ R.AllRays := by
  have hg : Grows C R := by
    cases h with
    | add_extra_generators NewGens => exact grows_add_extra_generators C NewGens
    | refine key => exact grows_refine K key C
    | insert_all_gens => exact grows_insert_all_gens K C
    | make_unimodular _ fuel hm => exact grows_make_unimodular K fuel C R (Or.inl hm)
    | make_unimodular_failed _ fuel hm => exact grows_make_unimodular K fuel C R (Or.inr hm)
  exact ⟨hg.1, fun i hi => grows_row C R hg i hi, hg.2⟩

/-- Witness for `growth_invariant`: the run of `make_unimodular` in the concrete
scenario, which appends the row `(1,1)` and makes it a known ray. -/
theorem growth_invariant_witness :
    Operation (exactKernel scenario_oracle) scenario_forest scenario_result ∧
    ((∃ E, scenario_result.Generators = scenario_forest.Generators ++ E) ∧
      (∀ i, i < scenario_forest.Generators.length →
        row scenario_result.Generators i = row scenario_forest.Generators i) ∧
      ∀ x ∈ scenario_forest.AllRays, x ∈ scenario_result.AllRays) :=
  ⟨Operation.make_unimodular scenario_forest scenario_result 2 scenario_run,
    growth_invariant (exactKernel scenario_oracle) scenario_forest scenario_result
      (Operation.make_unimodular scenario_forest scenario_result 2 scenario_run)⟩



/-! ## The known rays after `refine` -/

theorem coll_refine_unfold (K : Kernel) (C : ConeCollection) (key : Nat)
    (hmem : ¬ row C.Generators key ∈ C.AllRays) :
    C.refine K key =
      (List.range (C.ensure_level.Members.getD 0 []).length).foldl
        (fun C2 i => MiniCone.refine K key C.ensure_level.Members.length 0 i C2)
        C.ensure_level := by
  unfold ConeCollection.refine
  simp [hmem]

/-- What `ConeCollection::refine(key)` achieves for a ray that is not known:
the ray is known afterwards, or only facets were cached (after the guard for a
new level) and a second walk finds nothing to do. -/
theorem coll_refine_outcome (K : Kernel) (hK : ∀ M, (K.simplex_data M).length ≤ M.length)
    (C : ConeCollection) (hC : C.facets_fit) (key : Nat)
    (hmem : ¬ row C.Generators key ∈ C.AllRays) :
    row C.Generators key ∈ (C.refine K key).AllRays ∨
      (CacheExt K C.ensure_level (C.refine K key) ∧
        ∀ i ∈ List.range (C.ensure_level.Members.getD 0 []).length,
          settled K key C.ensure_level.Members.length 0 i (C.refine K key)) := by
  have hfit1 := ensure_level_facets_fit C hC
  obtain ⟨_, _, _, hor⟩ := refine_fold_outcome K key C.ensure_level.Members.length 0
    (refine_outcome K hK key _ 0) (List.range (C.ensure_level.Members.getD 0 []).length)
    _ hfit1
  rw [← coll_refine_unfold K C key hmem, ensure_level_generators] at hor
  exact hor

theorem ensure_level_mem (C : ConeCollection) (L : List MiniCone)
    (hL : L ∈ C.ensure_level.Members) : L ∈ C.Members ∨ L = [] := by
  unfold ConeCollection.ensure_level at hL
  split at hL
  · split at hL
    · exact Or.inl hL
    · simp only [List.mem_append, List.mem_singleton] at hL
      exact hL
  · exact Or.inl hL

/-- The known rays after `MiniCone::refine(key)` are the known rays before it
and possibly the ray of `key`, on a forest in which the rays of all cells are
known. -/
theorem refine_cell_new_rays (K : Kernel) (key : Nat) (G : Mat) (A : List Vec) :
    ∀ (fuel lvl plc : Nat) (C : ConeCollection),
      (C.Generators = G ∧ (∀ x ∈ C.AllRays, x ∈ A ∨ x = row G key) ∧
        ∀ L ∈ C.Members, ∀ mc ∈ L, ∀ g ∈ mc.GenKeys, row G g ∈ A ∨ row G g = row G key) →
      ((MiniCone.refine K key fuel lvl plc C).Generators = G ∧
        (∀ x ∈ (MiniCone.refine K key fuel lvl plc C).AllRays, x ∈ A ∨ x = row G key) ∧
        ∀ L ∈ (MiniCone.refine K key fuel lvl plc C).Members, ∀ mc ∈ L, ∀ g ∈ mc.GenKeys,
          row G g ∈ A ∨ row G g = row G key) := by
  apply refine_ind_step K key
    (fun C => C.Generators = G ∧ (∀ x ∈ C.AllRays, x ∈ A ∨ x = row G key) ∧
      ∀ L ∈ C.Members, ∀ mc ∈ L, ∀ g ∈ mc.GenKeys, row G g ∈ A ∨ row G g = row G key)
    (fun mc => ∀ g ∈ mc.GenKeys, row G g ∈ A ∨ row G g = row G key)
  · intro C lvl plc h
    refine ⟨h.1, h.2.1, ?_⟩
    unfold ConeCollection.cache_facets
    exact updateCell_forall (fun mc => ∀ g ∈ mc.GenKeys, row G g ∈ A ∨ row G g = row G key)
      C _ _ _ h.2.2 (fun m hm => hm)
  · intro C lvl plc mc h hc _
    have hm := mem_flatten_of_cell C lvl plc mc hc
    rw [List.mem_flatten] at hm
    obtain ⟨L, hL, hmc⟩ := hm
    exact h.2.2 L hL mc hmc
  · intro C mc j h hg
    have hkeys : ∀ g ∈ List.insertionSort (fun a b => a ≤ b) (mc.GenKeys.set j key),
        row G g ∈ A ∨ row G g = row G key := by
      intro g hgm
      rcases mem_child_keys mc.GenKeys key j g hgm with rfl | h1
      · exact Or.inr rfl
      · exact hg g h1
    refine ⟨h.1, ?_, ?_⟩
    · intro x hx
      unfold subdivide_step at hx
      rw [mem_allRays_add_minicone] at hx
      rcases hx with hx | ⟨k, hk, rfl⟩
      · exact h.2.1 x hx
      · rw [h.1]
        exact hkeys k hk
    · unfold subdivide_step
      exact add_minicone_forall (fun mc => ∀ g ∈ mc.GenKeys, row G g ∈ A ∨ row G g = row G key)
        C _ _ _ _ h.2.2 (fun _ => hkeys) (fun m d hm => hm)

set_option maxRecDepth 10000 in
/-- C12 (counterexample). On the forest with generators `(1,0)`, `(0,1)`, `(1,1)`
and the cell `{0,1}`, `refine(2)` subdivides the cell, and `AllRays`, which was
`(0,1)`, `(1,0)`, has the new element `(1,1)` afterwards. -/
theorem refine_adds_known_ray :
    2 < diagonal_forest.Generators.length ∧
    diagonal_forest.AllRays = [[0, 1], [1, 0]] ∧
    (diagonal_forest.refine (exactKernel failing_oracle) 2).AllRays
      = [[0, 1], [1, 0], [1, 1]] ∧
    (diagonal_forest.refine (exactKernel failing_oracle) 2).AllRays ≠ diagonal_forest.AllRays ∧
    ¬ ∀ (K : Kernel) (C : ConeCollection) (key : Nat), key < C.Generators.length →
      (C.refine K key).AllRays = C.AllRays := by
  refine ⟨by decide, rfl, rfl, by decide, ?_⟩
  intro h
  exact absurd (h (exactKernel failing_oracle) diagonal_forest 2 (by decide)) (by decide)


/-! ## The shape of a subdivision -/

theorem facet_loop_of_nonneg (v : Vec) (SH : Mat) (i : Nat) (acc : List Nat)
    (h : ∀ r ∈ SH, 0 ≤ v_scalar_product v r) :
    facet_loop v SH i acc = some (acc ++ positive_positions v SH i) := by
  induction SH generalizing i acc with
  | nil => simp [facet_loop, positive_positions]
  | cons r SH ih =>
    have hr := h r (List.mem_cons_self _ _)
    have hrest : ∀ r1 ∈ SH, 0 ≤ v_scalar_product v r1 :=
      fun r1 h1 => h r1 (List.mem_cons_of_mem _ h1)
    rw [facet_loop, positive_positions, if_neg (not_lt.mpr hr)]
    by_cases h0 : v_scalar_product v r = 0
    · rw [if_pos h0, if_neg (by rw [h0]; exact lt_irrefl _)]
      exact ih (i + 1) acc hrest
    · rw [if_neg h0, if_pos (lt_of_le_of_ne hr (Ne.symm h0)), ih (i + 1) _ hrest]
      simp

/-- C13. Subdivision shape: let `MiniCone::refine(key)` run on a leaf stored at
its position `(lvl, plc)` below the last level, with facet values against the
ray that are all non-negative, and let `opp` be the increasing list of the
indices of the positive ones, with at least two entries.  Then the call appends
exactly `opp.length` cells to level `lvl + 1`; the `t`-th of them has the keys of
the parent with the entry at position `opp[t]` replaced by `key` and then
sorted, the volume of these rows as multiplicity, no daughters, and its own
position; the positions of these cells are appended, in this order, to the
`Daughters` of the parent, whose facets are cached; no other level gets a cell,
no other cell changes, and the generator table is unchanged. -/
theorem refine_subdivision_shape (K : Kernel) (C : ConeCollection) (key fuel lvl plc : Nat)
    (mc : MiniCone) (hc : C.cell lvl plc = some mc) (hlev : mc.level = lvl)
    (hplc : mc.my_place = plc) (hleaf : mc.Daughters = [])
    (hlast : lvl + 1 < C.Members.length)
    (hnn : ∀ r ∈ mc.hyperplanes K C.Generators,
      0 ≤ v_scalar_product (row C.Generators key) r)
    (hm : 2 ≤ (positive_positions (row C.Generators key)
      (mc.hyperplanes K C.Generators) 0).length) :
    (positive_positions (row C.Generators key) (mc.hyperplanes K C.Generators) 0).Pairwise
      (fun a b => a < b) ∧
    (∀ j, j ∈ positive_positions (row C.Generators key) (mc.hyperplanes K C.Generators) 0 ↔
      j < (mc.hyperplanes K C.Generators).length ∧
      0 < v_scalar_product (row C.Generators key) ((mc.hyperplanes K C.Generators).getD j [])) ∧
    (MiniCone.refine K key (fuel + 1) lvl plc C).Members.length = C.Members.length ∧
    (∀ l, ((MiniCone.refine K key (fuel + 1) lvl plc C).Members.getD l []).length
      = (C.Members.getD l []).length + if l = lvl + 1 then
          (positive_positions (row C.Generators key) (mc.hyperplanes K C.Generators) 0).length
        else 0) ∧
    (∀ t, t < (positive_positions (row C.Generators key)
        (mc.hyperplanes K C.Generators) 0).length →
      (MiniCone.refine K key (fuel + 1) lvl plc C).cell (lvl + 1)
          ((C.Members.getD (lvl + 1) []).length + t)
        = some
          { GenKeys := List.insertionSort (fun a b => a ≤ b)
              (mc.GenKeys.set ((positive_positions (row C.Generators key)
                (mc.hyperplanes K C.Generators) 0).getD t 0) key)
            multiplicity := K.vol (submatrix C.Generators
              (List.insertionSort (fun a b => a ≤ b)
                (mc.GenKeys.set ((positive_positions (row C.Generators key)
                  (mc.hyperplanes K C.Generators) 0).getD t 0) key)))
            SupportHyperplanes := []
            Daughters := []
            level := lvl + 1
            my_place := (C.Members.getD (lvl + 1) []).length + t
            is_simplex := C.is_triangulation }) ∧
    (MiniCone.refine K key (fuel + 1) lvl plc C).cell lvl plc
      = some { mc with
          SupportHyperplanes := mc.hyperplanes K C.Generators
          Daughters := List.range' (C.Members.getD (lvl + 1) []).length
            (positive_positions (row C.Generators key)
              (mc.hyperplanes K C.Generators) 0).length } ∧
    (∀ l q, ¬ (l = lvl ∧ q = plc) → q < (C.Members.getD l []).length →
      (MiniCone.refine K key (fuel + 1) lvl plc C).cell l q = C.cell l q) ∧
    (MiniCone.refine K key (fuel + 1) lvl plc C).Generators = C.Generators := by
  have hfl := facet_loop_of_nonneg (row C.Generators key) (mc.hyperplanes K C.Generators) 0 []
    hnn
  rw [List.nil_append] at hfl
  generalize hopp : positive_positions (row C.Generators key)
    (mc.hyperplanes K C.Generators) 0 = opp at hfl hm ⊢
  have hR : MiniCone.refine K key (fuel + 1) lvl plc C
      = opp.foldl (subdivide_step K key mc) (C.cache_facets K lvl plc) := by
    rw [refine_succ K key fuel lvl plc C mc hc, hfl]
    simp only
    rw [if_neg (by omega), if_neg (by rw [hleaf]; simp)]
  have hX := cell_cache_facets K C lvl plc mc hc
  have hsub := subdivide_fold_at K key mc opp (C.cache_facets K lvl plc) _ lvl plc hlev hplc hX
    (by rw [cache_facets_members_length]; exact hlast)
  rw [← hR] at hsub
  have hlen : ∀ l, ((C.cache_facets K lvl plc).Members.getD l []).length
      = (C.Members.getD l []).length := fun l => updateCell_level_length C lvl plc _ l
  refine ⟨?_, ?_, ?_, ?_, ?_, ?_, ?_, ?_⟩
  · rw [← hopp]
    exact positive_positions_sorted _ _ _
  · intro j
    rw [← hopp, mem_positive_positions]
    simp
  · rw [hsub.levels, cache_facets_members_length]
  · intro l
    rw [hsub.lengths l, hlen]
  · intro t ht
    have := hsub.children t ht
    rw [hlen] at this
    rw [this]
    rfl
  · have := hsub.mother
    rw [hlen] at this
    rw [this]
    simp [MiniCone.with_daughters, MiniCone.cache, hleaf]
  · intro l q hne hq
    rw [hsub.others l q hne (by rw [hlen]; exact hq)]
    unfold ConeCollection.cache_facets
    exact cell_updateCell_other C lvl plc l q _ (fun h => hne ⟨h.1.symm, h.2.symm⟩)
  · rw [hsub.gens]
    rfl

set_option maxRecDepth 10000 in
/-- Witness for `refine_subdivision_shape`: the cell `{0,1}` over `(1,0)`,
`(0,1)` and the ray `(1,1)` with index 2; both facet values are positive, and
the two children have the keys `{1,2}` and `{0,2}`. -/
theorem refine_subdivision_shape_witness :
    diagonal_leveled.cell 0 0 = some
      { GenKeys := [0, 1], multiplicity := 1, SupportHyperplanes := [], Daughters := [],
        level := 0, my_place := 0, is_simplex := true } ∧
    0 + 1 < diagonal_leveled.Members.length ∧
    (∀ r ∈ exact_simplex_data [[1, 0], [0, 1]], 0 ≤ v_scalar_product [1, 1] r) ∧
    positive_positions [1, 1] (exact_simplex_data [[1, 0], [0, 1]]) 0 = [0, 1] ∧
    (MiniCone.refine (exactKernel failing_oracle) 2 1 0 0 diagonal_leveled).Members.length
      = diagonal_leveled.Members.length ∧
    (∀ t, t < 2 →
      (MiniCone.refine (exactKernel failing_oracle) 2 1 0 0 diagonal_leveled).cell 1 (0 + t)
        = some
          { GenKeys := List.insertionSort (fun a b => a ≤ b) ([0, 1].set ([0, 1].getD t 0) 2)
            multiplicity := exact_vol (submatrix diagonal_leveled.Generators
              (List.insertionSort (fun a b => a ≤ b) ([0, 1].set ([0, 1].getD t 0) 2)))
            SupportHyperplanes := []
            Daughters := []
            level := 1
            my_place := 0 + t
            is_simplex := true }) ∧
    (MiniCone.refine (exactKernel failing_oracle) 2 1 0 0 diagonal_leveled).cell 0 0
      = some
        { GenKeys := [0, 1], multiplicity := 1, SupportHyperplanes := [[1, 0], [0, 1]],
          Daughters := [0, 1], level := 0, my_place := 0, is_simplex := true } := by
  have h := refine_subdivision_shape (exactKernel failing_oracle) diagonal_leveled 2 0 0 0
    { GenKeys := [0, 1], multiplicity := 1, SupportHyperplanes := [], Daughters := [],
      level := 0, my_place := 0, is_simplex := true } rfl rfl rfl rfl (by decide) (by decide)
    (by decide)
  exact ⟨rfl, by decide, by decide, rfl, h.2.2.1, h.2.2.2.2.1, h.2.2.2.2.2.1⟩



/-! ## Cells with daughters are frozen -/

theorem updateAt_of_le {α : Type} (f : α → α) (n : Nat) (l : List α) (h : l.length ≤ n) :
    updateAt f n l = l := by
  induction l generalizing n with
  | nil => cases n <;> rfl
  | cons a l ih =>
    cases n with
    | zero => simp at h
    | succ n =>
      simp only [updateAt]
      rw [ih n (by simpa using h)]

/-- An `add_minicone` for a level that does not exist only appends to the
daughters of the mother. -/
theorem add_minicone_no_level (C : ConeCollection) (k p : Nat) (GKeys : List Nat) (mult : Int)
    (hk : C.Members.length ≤ k + 1) :
    (C.add_minicone (k + 1) p GKeys mult).Members
      = (C.updateCell k p fun m => { m with
          Daughters := m.Daughters ++ [(C.Members.getD (k + 1) []).length] }).Members := by
  rw [add_minicone_members, updateAt_of_le _ _ _ hk]
  rfl

/-- The cells after an `add_minicone` below `(k, p)`, read backwards. -/
theorem cell_add_minicone_cases (C : ConeCollection) (k p : Nat) (GKeys : List Nat)
    (mult : Int) (l q : Nat) (Y : MiniCone)
    (h : (C.add_minicone (k + 1) p GKeys mult).cell l q = some Y) :
    (l = k + 1 ∧ q = (C.Members.getD (k + 1) []).length ∧ C.cell l q = none ∧
      Y = new_cell C (k + 1) (C.Members.getD (k + 1) []).length GKeys mult) ∨
    (l = k ∧ q = p ∧ ∃ m, C.cell k p = some m ∧
      Y = { m with Daughters := m.Daughters ++ [(C.Members.getD (k + 1) []).length] }) ∨
    (¬ (l = k ∧ q = p) ∧ C.cell l q = some Y) := by
  by_cases hk : k + 1 < C.Members.length
  · rw [cell_add_minicone C k p GKeys mult hk] at h
    split at h
    · rename_i h1
      injection h with h
      refine Or.inl ⟨h1.1, h1.2, ?_, h.symm⟩
      rw [h1.1, h1.2, cell_eq]
      exact List.getElem?_eq_none (le_refl _)
    · split at h
      · rename_i h2
        cases hm : C.cell k p with
        | none => rw [hm] at h; cases h
        | some m =>
          rw [hm] at h
          injection h with h
          exact Or.inr (Or.inl ⟨h2.1, h2.2, m, rfl, h.symm⟩)
      · rename_i h2
        exact Or.inr (Or.inr ⟨h2, h⟩)
  · have hM := add_minicone_no_level C k p GKeys mult (by omega)
    have hcell : (C.add_minicone (k + 1) p GKeys mult).cell l q
        = (C.updateCell k p fun m => { m with
          Daughters := m.Daughters ++ [(C.Members.getD (k + 1) []).length] }).cell l q := by
      rw [cell_eq, cell_eq, hM]
    rw [hcell] at h
    by_cases h2 : k = l ∧ p = q
    · obtain ⟨rfl, rfl⟩ := h2
      rw [cell_updateCell_same] at h
      cases hm : C.cell k p with
      | none => rw [hm] at h; cases h
      | some m =>
        rw [hm] at h
        injection h with h
        exact Or.inr (Or.inl ⟨rfl, rfl, m, rfl, h.symm⟩)
    · rw [cell_updateCell_other _ _ _ _ _ _ h2] at h
      exact Or.inr (Or.inr ⟨fun h3 => h2 ⟨h3.1.symm, h3.2.symm⟩, h⟩)

/-- The cells after an `add_minicone` below `(k, p)`: every other cell stays. -/
theorem cell_add_minicone_other (C : ConeCollection) (k p : Nat) (GKeys : List Nat)
    (mult : Int) (l q : Nat) (m : MiniCone) (h : C.cell l q = some m)
    (hne : ¬ (l = k ∧ q = p)) :
    (C.add_minicone (k + 1) p GKeys mult).cell l q = some m := by
  by_cases hk : k + 1 < C.Members.length
  · rw [cell_add_minicone C k p GKeys mult hk]
    have h1 : ¬ (l = k + 1 ∧ q = (C.Members.getD (k + 1) []).length) := by
      rintro ⟨rfl, rfl⟩
      have := (cell_lt C _ _ m h).2
      omega
    rw [if_neg h1, if_neg hne, h]
  · have hM := add_minicone_no_level C k p GKeys mult (by omega)
    rw [cell_eq, hM, ← cell_eq,
      cell_updateCell_other _ _ _ _ _ _ (fun h3 => hne ⟨h3.1.symm, h3.2.symm⟩), h]

theorem frozen_refl (C : ConeCollection) : Frozen C C :=
  fun _ _ mc h _ => ⟨mc, h, rfl⟩

theorem frozen_trans (C R R2 : ConeCollection) (h1 : Frozen C R) (h2 : Frozen R R2) :
    Frozen C R2 := by
  intro k i mc hc hd
  obtain ⟨m1, hm1, hd1⟩ := h1 k i mc hc hd
  obtain ⟨m2, hm2, hd2⟩ := h2 k i m1 hm1 (by rw [hd1]; exact hd)
  exact ⟨m2, hm2, hd2.trans hd1⟩

/-- A change of `C` that keeps the position, the stored position and the
daughters of every cell, and adds no cell. -/
theorem frozen_of_cells (C R : ConeCollection) (hco : C.coords_ok)
    (hlen : ∀ l, (R.Members.getD l []).length = (C.Members.getD l []).length)
    (hcells : ∀ l q Y, C.cell l q = some Y → ∃ Y1, R.cell l q = some Y1 ∧
      Y1.Daughters = Y.Daughters ∧ Y1.level = Y.level ∧ Y1.my_place = Y.my_place) :
    R.coords_ok ∧ Frozen C R := by
  constructor
  · intro l q Y1 hY1
    have hq := (cell_lt R l q Y1 hY1).2
    rw [hlen] at hq
    obtain ⟨Y, hY⟩ := cell_of_lt C l q hq
    obtain ⟨Y2, hY2, _, h2, h3⟩ := hcells l q Y hY
    rw [hY1] at hY2
    injection hY2 with hY2
    subst hY2
    rw [h2, h3]
    exact hco l q Y hY
  · intro l q Y hY _
    obtain ⟨Y1, hY1, h1, _⟩ := hcells l q Y hY
    exact ⟨Y1, hY1, h1⟩

theorem frozen_cache (K : Kernel) (C : ConeCollection) (lvl plc : Nat) (hco : C.coords_ok) :
    (C.cache_facets K lvl plc).coords_ok ∧ Frozen C (C.cache_facets K lvl plc) := by
  apply frozen_of_cells C _ hco (fun l => updateCell_level_length C lvl plc _ l)
  intro l q Y hY
  by_cases h : lvl = l ∧ plc = q
  · obtain ⟨rfl, rfl⟩ := h
    rw [cell_updateCell_same, hY]
    exact ⟨_, rfl, rfl, rfl, rfl⟩
  · rw [cell_updateCell_other _ _ _ _ _ _ h]
    exact ⟨Y, hY, rfl, rfl, rfl⟩

theorem frozen_ensure_level (C : ConeCollection) (hco : C.coords_ok) :
    C.ensure_level.coords_ok ∧ Frozen C C.ensure_level := by
  have hg := grown_ensure_level C
  apply frozen_of_cells C _ hco hg.lengths
  intro l q Y hY
  obtain ⟨Y1, hY1, _, h2, h3, h4, _⟩ := hg.cells l q Y hY
  exact ⟨Y1, hY1, h2, h3, h4⟩

/-- One pass of the subdivision loop for a cell without daughters keeps the
cells that have daughters. -/
theorem frozen_subdivide_step (K : Kernel) (key : Nat) (C0 C : ConeCollection) (mc : MiniCone)
    (j : Nat) (hQ : C.coords_ok ∧ Frozen C0 C)
    (hg : ∀ m0, C0.cell mc.level mc.my_place = some m0 → m0.Daughters = []) :
    (subdivide_step K key mc C j).coords_ok ∧ Frozen C0 (subdivide_step K key mc C j) := by
  unfold subdivide_step
  constructor
  · intro l q Y hY
    rcases cell_add_minicone_cases C mc.level mc.my_place _ _ l q Y hY with
      ⟨h1, h2, _, rfl⟩ | ⟨h1, h2, m, hm, rfl⟩ | ⟨_, h⟩
    · exact ⟨h1.symm, h2.symm⟩
    · rw [h1, h2]
      exact hQ.1 _ _ m hm
    · exact hQ.1 l q Y h
  · intro l q m0 hm0 hd
    obtain ⟨m1, hm1, hd1⟩ := hQ.2 l q m0 hm0 hd
    refine ⟨m1, cell_add_minicone_other C _ _ _ _ l q m1 hm1 ?_, hd1⟩
    rintro ⟨rfl, rfl⟩
    exact hd (hg m0 hm0)

/-- `MiniCone::refine` keeps the daughters of every cell that has daughters. -/
theorem frozen_refine_cell (K : Kernel) (key : Nat) (C0 : ConeCollection) :
    ∀ (fuel lvl plc : Nat) (C : ConeCollection), (C.coords_ok ∧ Frozen C0 C) →
      ((MiniCone.refine K key fuel lvl plc C).coords_ok ∧
        Frozen C0 (MiniCone.refine K key fuel lvl plc C)) := by
  apply refine_ind_step K key (fun C => C.coords_ok ∧ Frozen C0 C)
    (fun mc => ∀ m0, C0.cell mc.level mc.my_place = some m0 → m0.Daughters = [])
  · intro C lvl plc h
    have := frozen_cache K C lvl plc h.1
    exact ⟨this.1, frozen_trans _ _ _ h.2 this.2⟩
  · intro C lvl plc mc h hc hleaf m0 hm0
    by_contra hd
    obtain ⟨h1, h2⟩ := h.1 lvl plc mc hc
    rw [h1, h2] at hm0
    obtain ⟨m1, hm1, hd1⟩ := h.2 lvl plc m0 hm0 hd
    rw [hc] at hm1
    injection hm1 with hm1
    rw [← hm1, hleaf] at hd1
    exact hd hd1.symm
  · intro C mc j h hg
    exact frozen_subdivide_step K key C0 C mc j h hg

theorem frozen_refine (K : Kernel) (key : Nat) (C : ConeCollection) (hco : C.coords_ok) :
    (C.refine K key).coords_ok ∧ Frozen C (C.refine K key) := by
  apply coll_refine_ind K key (fun C2 => C2.coords_ok ∧ Frozen C C2)
  · intro C2 h
    have := frozen_ensure_level C2 h.1
    exact ⟨this.1, frozen_trans _ _ _ h.2 this.2⟩
  · exact frozen_refine_cell K key C
  · exact ⟨hco, frozen_refl C⟩

theorem frozen_of_members (C R : ConeCollection) (hco : C.coords_ok)
    (hM : R.Members = C.Members) : R.coords_ok ∧ Frozen C R := by
  have hcell : ∀ l q, R.cell l q = C.cell l q := by
    intro l q
    rw [cell_eq, cell_eq, hM]
  exact ⟨fun l q Y hY => hco l q Y (by rw [← hcell]; exact hY),
    fun l q Y hY _ => ⟨Y, by rw [hcell]; exact hY, rfl⟩⟩

theorem add_extra_generators_members (C : ConeCollection) (NewGens : Mat) :
    (C.add_extra_generators NewGens).Members = C.Members := by
  unfold ConeCollection.add_extra_generators
  have : ∀ (l : Mat) (C2 : ConeCollection), (l.foldl (fun C1 v =>
      if v ∈ C1.AllRays then C1 else { C1 with Generators := C1.Generators ++ [v] })
      C2).Members = C2.Members := by
    intro l
    induction l with
    | nil => intro C2; rfl
    | cons v l ih =>
      intro C2
      rw [List.foldl_cons, ih]
      split <;> rfl
  exact this _ C

theorem frozen_insert_all_gens (K : Kernel) (C : ConeCollection) (hco : C.coords_ok) :
    (C.insert_all_gens K).coords_ok ∧ Frozen C (C.insert_all_gens K) := by
  rw [insert_all_gens_fold K C]
  have : ∀ (l : List Nat) (C2 : ConeCollection), C2.coords_ok →
      (l.foldl (fun C3 i => C3.refine K i) C2).coords_ok ∧
        Frozen C2 (l.foldl (fun C3 i => C3.refine K i) C2) := by
    intro l
    induction l with
    | nil => intro C2 h2; exact ⟨h2, frozen_refl C2⟩
    | cons i l ih =>
      intro C2 h2
      rw [List.foldl_cons]
      have h3 := frozen_refine K i C2 h2
      have h4 := ih _ h3.1
      exact ⟨h4.1, frozen_trans _ _ _ h3.2 h4.2⟩
  exact this _ C hco

theorem frozen_insert_step (K : Kernel) (s : InsertState) (H : HilbEntry)
    (hco : s.coll.coords_ok) :
    (insert_step K s H).coll.coords_ok ∧ Frozen s.coll (insert_step K s H).coll := by
  have h1 := frozen_ensure_level s.coll hco
  by_cases h : H.1 = s.last_inserted
  · rw [insert_step_old K s H h]
    have h2 := frozen_refine_cell K s.key s.coll.ensure_level
      s.coll.ensure_level.Members.length H.2.1 H.2.2 s.coll.ensure_level ⟨h1.1, frozen_refl _⟩
    exact ⟨h2.1, frozen_trans _ _ _ h1.2 h2.2⟩
  · rw [insert_step_new K s H h]
    have h2 := frozen_of_members s.coll.ensure_level
      { s.coll.ensure_level with Generators := s.coll.ensure_level.Generators ++ [H.1] }
      h1.1 rfl
    have h3 := frozen_refine_cell K s.coll.ensure_level.Generators.length
      { s.coll.ensure_level with Generators := s.coll.ensure_level.Generators ++ [H.1] }
      s.coll.ensure_level.Members.length H.2.1 H.2.2 _ ⟨h2.1, frozen_refl _⟩
    exact ⟨h3.1, frozen_trans _ _ _ h1.2 (frozen_trans _ _ _ h2.2 h3.2)⟩

theorem frozen_insert_hilbs (K : Kernel) (C : ConeCollection) (AllHilbs : List HilbEntry)
    (hco : C.coords_ok) :
    (insert_hilbs K C AllHilbs).coords_ok ∧ Frozen C (insert_hilbs K C AllHilbs) := by
  unfold insert_hilbs
  have : ∀ (l : List HilbEntry) (s : InsertState), s.coll.coords_ok →
      (l.foldl (insert_step K) s).coll.coords_ok ∧
        Frozen s.coll (l.foldl (insert_step K) s).coll := by
    intro l
    induction l with
    | nil => intro s hs; exact ⟨hs, frozen_refl _⟩
    | cons H l ih =>
      intro s hs
      rw [List.foldl_cons]
      have h3 := frozen_insert_step K s H hs
      have h4 := ih _ h3.1
      exact ⟨h4.1, frozen_trans _ _ _ h3.2 h4.2⟩
  exact this _ _ hco

theorem frozen_make_unimodular (K : Kernel) :
    ∀ (fuel : Nat) (C R : ConeCollection), C.coords_ok →
      (C.make_unimodular K fuel = Outcome.returned R ∨
        C.make_unimodular K fuel = Outcome.oracle_failed R) → R.coords_ok ∧ Frozen C R := by
  intro fuel
  induction fuel with
  | zero =>
    intro C R _ hr
    rw [ConeCollection.make_unimodular] at hr
    rcases hr with hr | hr <;> cases hr
  | succ fuel ih =>
    intro C R hco hr
    rw [ConeCollection.make_unimodular] at hr
    cases hc : C.collect K with
    | none =>
      rw [hc] at hr
      simp only at hr
      rcases hr with hr | hr
      · cases hr
      · injection hr with hr
        rw [← hr]
        exact ⟨hco, frozen_refl C⟩
    | some AllHilbs =>
      rw [hc] at hr
      simp only at hr
      by_cases he : AllHilbs.isEmpty
      · rw [if_pos he] at hr
        rcases hr with hr | hr
        · injection hr with hr
          rw [← hr]
          exact ⟨hco, frozen_refl C⟩
        · cases hr
      · rw [if_neg he] at hr
        have h3 := frozen_insert_hilbs K C (sort_hilbs AllHilbs) hco
        have h4 := ih _ R h3.1 hr
        exact ⟨h4.1, frozen_trans _ _ _ h3.2 h4.2⟩

/-- C14. Freeze invariant I3: in a forest whose cells store their own
position, a cell with a non-empty `Daughters` list keeps its place and exactly
this list through every call of `MiniCone::refine`, `ConeCollection::refine`,
`insert_all_gens`, `make_unimodular` (ended by its `break` or by a failure of the
oracle) and `add_extra_generators`; and a call of `MiniCone::refine` on a cell
with daughters caches its facets and returns, or recurses into these daughters:
it never appends a cell below it. -/
theorem freeze_invariant (K : Kernel) (C R : ConeCollection) (hco : C.coords_ok)
    (h : Operation K C R) :
    (∀ k i mc, C.cell k i = some mc → mc.Daughters ≠ [] →
      ∃ mc1, R.cell k i = some mc1 ∧ mc1.Daughters = mc.Daughters) ∧
    (∀ key fuel lvl plc k i mc, C.cell k i = some mc → mc.Daughters ≠ [] →
      ∃ mc1, (MiniCone.refine K key fuel lvl plc C).cell k i = some mc1 ∧
        mc1.Daughters = mc.Daughters) ∧
    (∀ key fuel k i mc, R.cell k i = some mc → mc.Daughters ≠ [] →
      MiniCone.refine K key (fuel + 1) k i R = R.cache_facets K k i ∨
      MiniCone.refine K key (fuel + 1) k i R
        = mc.Daughters.foldl (fun C2 d => MiniCone.refine K key fuel (mc.level + 1) d C2)
            (R.cache_facets K k i)) ∧
    R.coords_ok := by
  have hf : R.coords_ok ∧ Frozen C R := by
    cases h with
    | add_extra_generators NewGens =>
      exact frozen_of_members C _ hco (add_extra_generators_members C NewGens)
    | refine key => exact frozen_refine K key C hco
    | insert_all_gens => exact frozen_insert_all_gens K C hco
    | make_unimodular _ fuel hm => exact frozen_make_unimodular K fuel C R hco (Or.inl hm)
    | make_unimodular_failed _ fuel hm =>
      exact frozen_make_unimodular K fuel C R hco (Or.inr hm)
  refine ⟨hf.2, ?_, ?_, hf.1⟩
  · intro key fuel lvl plc
    exact (frozen_refine_cell K key C fuel lvl plc C ⟨hco, frozen_refl C⟩).2
  · intro key fuel k i mc hc hd
    rw [refine_succ K key fuel k i R mc hc]
    cases hfl : facet_loop (row R.Generators key) (mc.hyperplanes K R.Generators) 0 [] with
    | none => exact Or.inl rfl
    | some opp =>
      simp only
      split
      · exact Or.inl rfl
      · have hpos : mc.Daughters.length > 0 := by
          cases hd1 : mc.Daughters with
          | nil => exact absurd hd1 hd
          | cons a l => simp
        rw [if_pos hpos]
        exact Or.inr rfl

theorem coords_ok_from_triangulation (Gens : Mat) (T : List (List Nat × Int)) :
    (ConeCollection.from_triangulation Gens T).coords_ok := by
  obtain ⟨h1, _, _, _, h5⟩ := from_triangulation_spec Gens T
  intro k i mc hc
  have hk := (cell_lt _ k i mc hc).1
  have h0 : k = 0 := by omega
  subst h0
  rw [h5] at hc
  cases hS : T[i]? with
  | none => rw [hS] at hc; cases hc
  | some S =>
    rw [hS] at hc
    injection hc with hc
    rw [← hc]
    exact ⟨rfl, rfl⟩

set_option maxRecDepth 20000 in
/-- Witness for `freeze_invariant`: after `refine(2)` the cell `{0,1}` of
`fan_forest` has the daughters 0 and 1; `refine(3)` subdivides its second
daughter, and the cell still has the daughters 0 and 1. -/
theorem freeze_invariant_witness :
    (fan_forest.refine (exactKernel failing_oracle) 2).coords_ok ∧
    Operation (exactKernel failing_oracle) (fan_forest.refine (exactKernel failing_oracle) 2)
      ((fan_forest.refine (exactKernel failing_oracle) 2).refine
        (exactKernel failing_oracle) 3) ∧
    ((fan_forest.refine (exactKernel failing_oracle) 2).cell 0 0).map
      (fun mc => mc.Daughters) = some [0, 1] ∧
    (((fan_forest.refine (exactKernel failing_oracle) 2).refine
      (exactKernel failing_oracle) 3).cell 0 0).map (fun mc => mc.Daughters) = some [0, 1] ∧
    (((fan_forest.refine (exactKernel failing_oracle) 2).refine
      (exactKernel failing_oracle) 3).cell 1 1).map (fun mc => mc.Daughters) = some [0, 1] ∧
    (∀ k i mc, (fan_forest.refine (exactKernel failing_oracle) 2).cell k i = some mc →
      mc.Daughters ≠ [] →
      ∃ mc1, ((fan_forest.refine (exactKernel failing_oracle) 2).refine
        (exactKernel failing_oracle) 3).cell k i = some mc1 ∧
        mc1.Daughters = mc.Daughters) :=
  ⟨(frozen_refine _ 2 fan_forest (coords_ok_from_triangulation _ _)).1,
    Operation.refine _ 3, rfl, rfl, rfl,
    (freeze_invariant (exactKernel failing_oracle) _ _
      (frozen_refine _ 2 fan_forest (coords_ok_from_triangulation _ _)).1
      (Operation.refine _ 3)).1⟩



/-! ## Rounds of `make_unimodular` without new points and with a failing oracle -/

theorem collect_loop_of_nil (K : Kernel) (C : ConeCollection) (ps : List (Nat × Nat))
    (acc : List HilbEntry) (h : ∀ p ∈ ps, collect_cell K C p = some []) :
    collect_loop K C ps acc = some acc := by
  induction ps generalizing acc with
  | nil => rfl
  | cons p ps ih =>
    rw [collect_loop, h p (List.mem_cons_self _ _)]
    simp only [List.append_nil]
    exact ih acc (fun q hq => h q (List.mem_cons_of_mem _ hq))

/-- The three ways one pass of the loop of `make_unimodular` can go. -/
theorem make_unimodular_pass (K : Kernel) (C : ConeCollection) (fuel : Nat) :
    (C.collect K = some [] ∧ C.make_unimodular K (fuel + 1) = Outcome.returned C) ∨
    (C.collect K = none ∧ C.make_unimodular K (fuel + 1) = Outcome.oracle_failed C) ∨
    (∃ A, C.collect K = some A ∧ A ≠ [] ∧
      C.make_unimodular K (fuel + 1)
        = (insert_hilbs K C (sort_hilbs A)).make_unimodular K fuel) := by
  rw [ConeCollection.make_unimodular]
  cases hc : C.collect K with
  | none => exact Or.inr (Or.inl ⟨rfl, rfl⟩)
  | some A =>
    cases A with
    | nil => exact Or.inl ⟨rfl, rfl⟩
    | cons a A => exact Or.inr (Or.inr ⟨a :: A, rfl, List.cons_ne_nil _ _, rfl⟩)

/-- C16 (amended). When in a round the oracle's result for every leaf of
multiplicity different from 1 has no point outside `AllRays` (in particular when
it is empty), `make_unimodular` returns normally in this round and leaves the
forest as it is, with these leaves and their multiplicities; and whatever the
oracle returns, a pass of the loop ends by the `break`, by the failure of the
oracle itself, or goes on to the insertion and the next pass: there is no
internal-consistency error. -/
theorem make_unimodular_returns_without_points (K : Kernel) (C : ConeCollection)
    (k i : Nat) (mc : MiniCone) (hc : C.cell k i = some mc) (hD : mc.Daughters = [])
    (_hm : 1 < mc.multiplicity)
    (h : ∀ p ∈ C.eligible, ∀ m, C.cell p.1 p.2 = some m →
      ∃ HB, K.hilbert_basis (submatrix C.Generators m.GenKeys) = some HB ∧
        ∀ H ∈ HB, H ∈ C.AllRays) (fuel : Nat) :
    C.make_unimodular K (fuel + 1) = Outcome.returned C ∧
    (mc.GenKeys, mc.multiplicity) ∈ C.getKeysAndMult ∧
    ∀ (C2 : ConeCollection) (n : Nat),
      C2.make_unimodular K (n + 1) = Outcome.returned C2 ∨
      C2.make_unimodular K (n + 1) = Outcome.oracle_failed C2 ∨
      ∃ A, C2.collect K = some A ∧ A ≠ [] ∧
        C2.make_unimodular K (n + 1)
          = (insert_hilbs K C2 (sort_hilbs A)).make_unimodular K n := by
  have hcol : C.collect K = some [] := by
    unfold ConeCollection.collect
    apply collect_loop_of_nil
    intro p hp
    obtain ⟨m, hm, _, _⟩ := (mem_eligible C p.1 p.2).mp hp
    obtain ⟨HB, hHB, hall⟩ := h p hp m hm
    unfold collect_cell
    simp only [hm, hHB]
    congr 1
    rw [List.map_eq_nil_iff, List.filter_eq_nil_iff]
    intro H hH
    simpa using hall H hH
  refine ⟨?_, ?_, ?_⟩
  · rw [ConeCollection.make_unimodular, hcol]
    rfl
  · rw [getKeysAndMult_leaves]
    unfold ConeCollection.leaf_pairs
    simp only [List.mem_map, List.mem_filter]
    exact ⟨mc, ⟨mem_flatten_of_cell C k i mc hc, by simp [MiniCone.is_leaf, hD]⟩, rfl⟩
  · intro C2 n
    rcases make_unimodular_pass K C2 n with h1 | h1 | h1
    · exact Or.inl h1.2
    · exact Or.inr (Or.inl h1.2)
    · exact Or.inr (Or.inr h1)

set_option maxRecDepth 10000 in
/-- C16 (counterexample). The cell over `(2,0)`, `(0,1)` has multiplicity 2 and
the oracle returns the empty basis for it: `make_unimodular` returns normally in
its first pass, whatever the bound on the passes, with the forest unchanged and
the leaf of multiplicity 2 in the export. -/
theorem make_unimodular_returns_on_empty_basis :
    nonprimitive_forest.getKeysAndMult = [([0, 1], 2)] ∧
    (exactKernel empty_oracle).hilbert_basis
      (submatrix nonprimitive_forest.Generators [0, 1]) = some [] ∧
    nonprimitive_forest.make_unimodular (exactKernel empty_oracle) 1
      = Outcome.returned nonprimitive_forest ∧
    nonprimitive_forest.make_unimodular (exactKernel empty_oracle) 5
      = Outcome.returned nonprimitive_forest :=
  ⟨rfl, rfl, rfl, rfl⟩

set_option maxRecDepth 10000 in
/-- Witness for `make_unimodular_returns_without_points`: the fan of two
quadrants, where the only new point of the quadrant of multiplicity 2 is known
from the other quadrant. -/
theorem make_unimodular_returns_without_points_witness :
    quadrant_forest.cell 0 0 = some
      { GenKeys := [0, 1], multiplicity := 2, SupportHyperplanes := [], Daughters := [],
        level := 0, my_place := 0, is_simplex := true } ∧
    (∀ p ∈ quadrant_forest.eligible, ∀ m, quadrant_forest.cell p.1 p.2 = some m →
      ∃ HB, (exactKernel quadrant_oracle).hilbert_basis
          (submatrix quadrant_forest.Generators m.GenKeys) = some HB ∧
        ∀ H ∈ HB, H ∈ quadrant_forest.AllRays) ∧
    quadrant_forest.make_unimodular (exactKernel quadrant_oracle) (0 + 1)
      = Outcome.returned quadrant_forest ∧
    (([0, 1], 2) : List Nat × Int) ∈ quadrant_forest.getKeysAndMult := by
  have hel : ∀ p ∈ quadrant_forest.eligible, ∀ m, quadrant_forest.cell p.1 p.2 = some m →
      ∃ HB, (exactKernel quadrant_oracle).hilbert_basis
          (submatrix quadrant_forest.Generators m.GenKeys) = some HB ∧
        ∀ H ∈ HB, H ∈ quadrant_forest.AllRays := by
    intro p hp m hm
    have he : quadrant_forest.eligible = [(0, 0)] := rfl
    rw [he, List.mem_singleton] at hp
    subst hp
    have h0 : quadrant_forest.cell 0 0 = some
        { GenKeys := [0, 1], multiplicity := 2, SupportHyperplanes := [], Daughters := [],
          level := 0, my_place := 0, is_simplex := true } := rfl
    rw [h0] at hm
    injection hm with hm
    subst hm
    exact ⟨[[1, 0], [0, 1]], rfl, by decide⟩
  have h := make_unimodular_returns_without_points (exactKernel quadrant_oracle) quadrant_forest
    0 0 _ rfl rfl (by decide) hel 0
  exact ⟨rfl, hel, h.1, h.2.1⟩

theorem collect_loop_none (K : Kernel) (C : ConeCollection) (ps : List (Nat × Nat))
    (acc : List HilbEntry) :
    collect_loop K C ps acc = none ↔ ∃ p ∈ ps, collect_cell K C p = none := by
  induction ps generalizing acc with
  | nil => simp [collect_loop]
  | cons p ps ih =>
    rw [collect_loop]
    cases hp : collect_cell K C p with
    | none => simp [hp]
    | some E =>
      simp only [ih, List.mem_cons, exists_eq_or_imp, hp]
      simp

/-- The collecting loop fails exactly when the oracle fails on a leaf of
multiplicity different from 1. -/
theorem collect_none_iff (K : Kernel) (C : ConeCollection) :
    C.collect K = none ↔
      ∃ k i mc, C.cell k i = some mc ∧ mc.multiplicity ≠ 1 ∧ mc.Daughters = [] ∧
        K.hilbert_basis (submatrix C.Generators mc.GenKeys) = none := by
  unfold ConeCollection.collect
  rw [collect_loop_none]
  constructor
  · rintro ⟨p, hp, hcell⟩
    obtain ⟨mc, hc, h1, h2⟩ := (mem_eligible C p.1 p.2).mp hp
    refine ⟨p.1, p.2, mc, hc, h1, h2, ?_⟩
    unfold collect_cell at hcell
    simp only [hc] at hcell
    cases hb : K.hilbert_basis (submatrix C.Generators mc.GenKeys) with
    | none => rfl
    | some HB => simp [hb] at hcell
  · rintro ⟨k, i, mc, hc, h1, h2, hb⟩
    refine ⟨(k, i), (mem_eligible C k i).mpr ⟨mc, hc, h1, h2⟩, ?_⟩
    unfold collect_cell
    simp only [hc, hb]

theorem round_eq_some (K : Kernel) (C C1 : ConeCollection) :
    C.round K = some C1 ↔
      ∃ A, C.collect K = some A ∧ A ≠ [] ∧ C1 = insert_hilbs K C (sort_hilbs A) := by
  unfold ConeCollection.round
  cases hc : C.collect K with
  | none => simp
  | some A =>
    cases A with
    | nil => simp
    | cons a A =>
      simp only [List.isEmpty_cons, Bool.false_eq_true, if_false, Option.some.injEq]
      constructor
      · intro h
        exact ⟨a :: A, rfl, List.cons_ne_nil _ _, h.symm⟩
      · rintro ⟨B, hB, _, rfl⟩
        rw [← hB]

/-- C20. Oracle failure is atomic per round: the collecting loop of a round
reads the forest as the round found it and all its oracle calls come before the
first insertion of the round, so a run of `make_unimodular` ends by a failure of
the oracle exactly when, after some number `r` of complete inserting rounds, the
oracle fails on a leaf of multiplicity different from 1; the forest it leaves is
the forest at the end of round `r`, with the `Members`, `Generators` and `AllRays`
of that moment. -/
theorem oracle_failure_atomic (K : Kernel) :
    ∀ (fuel : Nat) (C R : ConeCollection),
      C.make_unimodular K fuel = Outcome.oracle_failed R ↔
        ∃ r, r < fuel ∧ C.after_rounds K r = some R ∧ R.collect K = none ∧
          ∃ k i mc, R.cell k i = some mc ∧ mc.multiplicity ≠ 1 ∧ mc.Daughters = [] ∧
            K.hilbert_basis (submatrix R.Generators mc.GenKeys) = none := by
  intro fuel
  induction fuel with
  | zero =>
    intro C R
    rw [ConeCollection.make_unimodular]
    constructor
    · intro h
      cases h
    · rintro ⟨r, hr, _⟩
      omega
  | succ fuel ih =>
    intro C R
    rcases make_unimodular_pass K C fuel with ⟨hc, hm⟩ | ⟨hc, hm⟩ | ⟨A, hc, hA, hm⟩
    · rw [hm]
      constructor
      · intro h
        cases h
      · rintro ⟨r, _, hr, hcol, _⟩
        cases r with
        | zero =>
          rw [ConeCollection.after_rounds] at hr
          injection hr with hr
          rw [← hr, hc] at hcol
          cases hcol
        | succ r =>
          rw [ConeCollection.after_rounds] at hr
          have : C.round K = none := by
            unfold ConeCollection.round
            rw [hc]
            rfl
          rw [this] at hr
          cases hr
    · rw [hm]
      constructor
      · intro h
        injection h with h
        subst h
        exact ⟨0, by omega, rfl, hc, (collect_none_iff K C).mp hc⟩
      · rintro ⟨r, _, hr, _⟩
        cases r with
        | zero =>
          rw [ConeCollection.after_rounds] at hr
          injection hr with hr
          rw [hr]
        | succ r =>
          rw [ConeCollection.after_rounds] at hr
          have : C.round K = none := by
            unfold ConeCollection.round
            rw [hc]
          rw [this] at hr
          cases hr
    · have hround : C.round K = some (insert_hilbs K C (sort_hilbs A)) :=
        (round_eq_some K C _).mpr ⟨A, hc, hA, rfl⟩
      rw [hm, ih]
      constructor
      · rintro ⟨r, hr, hR, hrest⟩
        refine ⟨r + 1, by omega, ?_, hrest⟩
        rw [ConeCollection.after_rounds, hround]
        exact hR
      · rintro ⟨r, hr, hR, hcol, hrest⟩
        cases r with
        | zero =>
          rw [ConeCollection.after_rounds] at hR
          injection hR with hR
          rw [← hR, hc] at hcol
          cases hcol
        | succ r =>
          rw [ConeCollection.after_rounds, hround] at hR
          exact ⟨r, by omega, hR, hcol, hrest⟩



/-! ## The order of the collected points -/

theorem vec_lt_irrefl (a : Vec) : vec_lt a a = false := by
  induction a with
  | nil => rfl
  | cons x a ih => simp [vec_lt, ih]

theorem vec_lt_trans (a b c : Vec) (h1 : vec_lt a b = true) (h2 : vec_lt b c = true) :
    vec_lt a c = true := by
  induction a generalizing b c with
  | nil =>
    cases b with
    | nil => simp [vec_lt] at h1
    | cons y b =>
      cases c with
      | nil => simp [vec_lt] at h2
      | cons z c => rfl
  | cons x a ih =>
    cases b with
    | nil => simp [vec_lt] at h1
    | cons y b =>
      cases c with
      | nil => simp [vec_lt] at h2
      | cons z c =>
        rw [vec_lt] at h1 h2 ⊢
        by_cases hxy : x < y
        · by_cases hyz : y < z
          · simp [lt_trans hxy hyz]
          · simp only [hyz, if_false] at h2
            by_cases hzy : z < y
            · simp [hzy] at h2
            · have : y = z := le_antisymm (not_lt.mp hzy) (not_lt.mp hyz)
              subst this
              simp [hxy]
        · simp only [hxy, if_false] at h1
          by_cases hyx : y < x
          · simp [hyx] at h1
          · have : x = y := le_antisymm (not_lt.mp hyx) (not_lt.mp hxy)
            subst this
            simp only [hyx, if_false] at h1
            by_cases hxz : x < z
            · simp [hxz]
            · simp only [hxz, if_false] at h2 ⊢
              by_cases hzx : z < x
              · simp [hzx] at h2
              · simp only [hzx, if_false] at h2 ⊢
                exact ih b c h1 h2

theorem vec_lt_total (a b : Vec) : vec_lt a b = true ∨ a = b ∨ vec_lt b a = true := by
  induction a generalizing b with
  | nil =>
    cases b with
    | nil => exact Or.inr (Or.inl rfl)
    | cons y b => exact Or.inl rfl
  | cons x a ih =>
    cases b with
    | nil => exact Or.inr (Or.inr rfl)
    | cons y b =>
      rw [vec_lt, vec_lt]
      rcases lt_trichotomy x y with h | h | h
      · simp [h]
      · subst h
        simp only [lt_self_iff_false, if_false]
        rcases ih b with h1 | h1 | h1
        · exact Or.inl h1
        · exact Or.inr (Or.inl (by rw [h1]))
        · exact Or.inr (Or.inr h1)
      · have h1 : ¬ x < y := not_lt.mpr (le_of_lt h)
        simp [h, h1]

theorem vec_lt_nil (a : Vec) : vec_lt a [] = false := by
  cases a <;> rfl

/-- The order of the entries compares the points first. -/
theorem entry_le_points (a b : HilbEntry) (h : entry_le a b = true) :
    vec_lt b.1 a.1 = false := by
  unfold entry_le at h
  by_cases h1 : vec_lt a.1 b.1 = true
  · cases h2 : vec_lt b.1 a.1 with
    | false => rfl
    | true =>
      have := vec_lt_trans _ _ _ h1 h2
      rw [vec_lt_irrefl] at this
      cases this
  · simp only [h1, if_false] at h
    cases h2 : vec_lt b.1 a.1 with
    | false => rfl
    | true => simp [h2] at h

theorem entry_le_total (a b : HilbEntry) : entry_le a b = true ∨ entry_le b a = true := by
  unfold entry_le
  rcases vec_lt_total a.1 b.1 with h | h | h
  · simp [h]
  · rw [h]
    simp only [vec_lt_irrefl, Bool.false_eq_true, if_false]
    rcases lt_trichotomy a.2.1 b.2.1 with h1 | h1 | h1
    · simp [h1]
    · rw [h1]
      simp only [lt_self_iff_false, if_false, decide_eq_true_eq]
      exact le_total _ _
    · have : ¬ a.2.1 < b.2.1 := by omega
      simp [h1, this]
  · right
    simp [h]

theorem entry_le_trans (a b c : HilbEntry) (h1 : entry_le a b = true)
    (h2 : entry_le b c = true) : entry_le a c = true := by
  have p1 := entry_le_points a b h1
  have p2 := entry_le_points b c h2
  unfold entry_le at h1 h2 ⊢
  by_cases hab : vec_lt a.1 b.1 = true
  · by_cases hbc : vec_lt b.1 c.1 = true
    · simp [vec_lt_trans _ _ _ hab hbc]
    · rcases vec_lt_total b.1 c.1 with h | h | h
      · exact absurd h hbc
      · rw [← h]
        simp [hab]
      · rw [h] at p2
        cases p2
  · rcases vec_lt_total a.1 b.1 with h | h | h
    · exact absurd h hab
    · rw [h]
      rw [h] at h1
      simp only [vec_lt_irrefl, Bool.false_eq_true, if_false] at h1
      by_cases hbc : vec_lt b.1 c.1 = true
      · simp [hbc]
      · simp only [hbc, p2, Bool.false_eq_true, if_false] at h2 ⊢
        by_cases g1 : a.2.1 < b.2.1
        · by_cases g2 : b.2.1 < c.2.1
          · simp [lt_trans g1 g2]
          · simp only [g2, if_false] at h2
            by_cases g3 : c.2.1 < b.2.1
            · simp [g3] at h2
            · have : a.2.1 < c.2.1 := by omega
              simp [this]
        · simp only [g1, if_false] at h1
          by_cases g0 : b.2.1 < a.2.1
          · simp [g0] at h1
          · simp only [g0, if_false, decide_eq_true_eq] at h1
            by_cases g2 : b.2.1 < c.2.1
            · have : a.2.1 < c.2.1 := by omega
              simp [this]
            · simp only [g2, if_false] at h2
              by_cases g3 : c.2.1 < b.2.1
              · simp [g3] at h2
              · simp only [g3, if_false, decide_eq_true_eq] at h2
                have e1 : ¬ a.2.1 < c.2.1 := by omega
                have e2 : ¬ c.2.1 < a.2.1 := by omega
                simp only [e1, e2, if_false, decide_eq_true_eq]
                omega
    · rw [h] at p1
      cases p1

/-- The list `AllHilbs` after `sort()`: a rearrangement with the points in
weakly increasing order. -/
theorem sort_hilbs_spec (A : List HilbEntry) :
    (sort_hilbs A).Perm A ∧
    ((sort_hilbs A).map fun H => H.1).Pairwise (fun v w => vec_lt w v = false) := by
  unfold sort_hilbs
  refine ⟨List.perm_insertionSort _ _, ?_⟩
  have hs := @List.sorted_insertionSort _ (fun a b : HilbEntry => entry_le a b = true) _
    ⟨entry_le_total⟩ ⟨entry_le_trans⟩ A
  rw [List.pairwise_map]
  exact List.Pairwise.imp (fun {a b} h => entry_le_points a b h) hs

/-- The appended points of a weakly increasing list are strictly increasing,
above `last`. -/
theorem squeeze_sorted (last : Vec) (vs : List Vec)
    (h : (last :: vs).Pairwise (fun v w => vec_lt w v = false)) :
    (last :: squeeze last vs).Pairwise (fun v w => vec_lt v w = true) := by
  induction vs generalizing last with
  | nil => simp [squeeze]
  | cons v vs ih =>
    rw [squeeze]
    have htail : (v :: vs).Pairwise (fun v w => vec_lt w v = false) := (List.pairwise_cons.mp h).2
    by_cases hv : v = last
    · rw [if_neg (by simpa using hv)]
      subst hv
      exact ih v htail
    · rw [if_pos hv]
      have hlt : vec_lt last v = true := by
        have h1 := (List.pairwise_cons.mp h).1 v (List.mem_cons_self _ _)
        rcases vec_lt_total last v with h2 | h2 | h2
        · exact h2
        · exact absurd h2.symm hv
        · rw [h1] at h2
          cases h2
      have ih1 := ih v htail
      rw [List.pairwise_cons]
      refine ⟨?_, ih1⟩
      intro x hx
      rcases List.mem_cons.mp hx with rfl | hx
      · exact hlt
      · exact vec_lt_trans _ _ _ hlt ((List.pairwise_cons.mp ih1).1 x hx)

theorem mem_squeeze (last : Vec) (vs : List Vec) (x : Vec) :
    x ∈ squeeze last vs → x ∈ vs := by
  induction vs generalizing last with
  | nil => simp [squeeze]
  | cons v vs ih =>
    rw [squeeze]
    split
    · intro hx
      rcases List.mem_cons.mp hx with rfl | hx
      · exact List.mem_cons_self _ _
      · exact List.mem_cons_of_mem _ (ih v hx)
    · intro hx
      exact List.mem_cons_of_mem _ (ih last hx)

theorem mem_squeeze_of_mem (last : Vec) (vs : List Vec) (x : Vec) (hx : x ∈ vs)
    (hne : x ≠ last) (h : (last :: vs).Pairwise (fun v w => vec_lt w v = false)) :
    x ∈ squeeze last vs := by
  induction vs generalizing last with
  | nil => simp at hx
  | cons v vs ih =>
    rw [squeeze]
    have htail : (v :: vs).Pairwise (fun v w => vec_lt w v = false) := (List.pairwise_cons.mp h).2
    by_cases hv : v = last
    · rw [if_neg (by simpa using hv)]
      subst hv
      rcases List.mem_cons.mp hx with h1 | h1
      · exact absurd h1 hne
      · exact ih v h1 hne htail
    · rw [if_pos hv]
      by_cases hxv : x = v
      · rw [hxv]
        exact List.mem_cons_self _ _
      · rcases List.mem_cons.mp hx with h1 | h1
        · exact absurd h1 hxv
        · exact List.mem_cons_of_mem _ (ih v h1 hxv htail)

/-- The points appended for a weakly increasing list of non-empty points: every
point once. -/
theorem squeeze_spec (vs : List Vec) (hne : ∀ v ∈ vs, v ≠ [])
    (h : vs.Pairwise (fun v w => vec_lt w v = false)) :
    (squeeze [] vs).Nodup ∧ (∀ x, x ∈ squeeze [] vs ↔ x ∈ vs) ∧
    (squeeze [] vs).length = vs.dedup.length := by
  have hp : (([] : Vec) :: vs).Pairwise (fun v w => vec_lt w v = false) := by
    rw [List.pairwise_cons]
    exact ⟨fun v _ => vec_lt_nil v, h⟩
  have hs := squeeze_sorted [] vs hp
  have hnd : (squeeze [] vs).Nodup := by
    have := (List.pairwise_cons.mp hs).2
    exact List.Pairwise.imp (fun {a b} hab heq => by
      rw [heq, vec_lt_irrefl] at hab
      cases hab) this
  have hmem : ∀ x, x ∈ squeeze [] vs ↔ x ∈ vs :=
    fun x => ⟨mem_squeeze [] vs x, fun hx => mem_squeeze_of_mem [] vs x hx (hne x hx) hp⟩
  refine ⟨hnd, hmem, ?_⟩
  apply List.Perm.length_eq
  rw [List.perm_ext_iff_of_nodup hnd (List.nodup_dedup vs)]
  intro x
  rw [hmem, List.mem_dedup]



/-! ## The inserting loop of `make_unimodular` -/

theorem row_of_le (G : Mat) (k : Nat) (h : G.length ≤ k) : row G k = [] := by
  unfold row
  rw [List.getD_eq_getElem?_getD, List.getElem?_eq_none h]
  rfl

theorem row_append_left (G E : Mat) (k : Nat) (h : k < G.length) :
    row (G ++ E) k = row G k := by
  unfold row
  rw [List.getD_eq_getElem?_getD, List.getD_eq_getElem?_getD, List.getElem?_append_left h]

theorem row_append_new (G : Mat) (v : Vec) : row (G ++ [v]) G.length = v := by
  unfold row
  rw [List.getD_eq_getElem?_getD, List.getElem?_append_right (le_refl _)]
  simp

/-- One pass of the inserting loop: the table gets the point when it differs
from `last_inserted`. -/
theorem insert_step_generators (K : Kernel) (s : InsertState) (H : HilbEntry) :
    (insert_step K s H).coll.Generators
      = s.coll.Generators ++ (if H.1 ≠ s.last_inserted then [H.1] else []) := by
  by_cases h : H.1 = s.last_inserted
  · rw [insert_step_old K s H h, if_neg (by simpa using h), List.append_nil]
    simp only
    rw [(refine_cell_frame K _ _ _ _ _).1, ensure_level_generators]
  · rw [insert_step_new K s H h, if_pos h]
    simp only
    rw [(refine_cell_frame K _ _ _ _ _).1, ensure_level_generators]

theorem insert_step_last (K : Kernel) (s : InsertState) (H : HilbEntry) :
    (insert_step K s H).last_inserted = H.1 := by
  by_cases h : H.1 = s.last_inserted
  · rw [insert_step_old K s H h]
    exact h.symm
  · rw [insert_step_new K s H h]

/-- One pass of the inserting loop refines the cell of the entry, with the
index of the point of the entry. -/
theorem insert_step_call (K : Kernel) (n0 : Nat) (s : InsertState) (H : HilbEntry)
    (hs : KeyInv n0 s) :
    KeyInv n0 (insert_step K s H) ∧
    row (insert_step K s H).coll.Generators (insert_step K s H).key = H.1 ∧
    ∃ P, (insert_step K s H).coll
        = MiniCone.refine K (insert_step K s H).key P.Members.length H.2.1 H.2.2 P ∧
      P.Generators = (insert_step K s H).coll.Generators := by
  obtain ⟨h1, h2, h3, h4⟩ := hs
  have hG := insert_step_generators K s H
  by_cases h : H.1 = s.last_inserted
  · rw [if_neg (by simpa using h), List.append_nil] at hG
    have hk : (insert_step K s H).key = s.key := by rw [insert_step_old K s H h]
    have hl : (insert_step K s H).last_inserted = s.last_inserted := by
      rw [insert_step_old K s H h]
    refine ⟨⟨by rw [hG, hk, hl]; exact h1, by rw [hk]; exact h2, by rw [hG]; exact h3,
      by rw [hG, hk, hl]; exact h4⟩, by rw [hG, hk, h]; exact h1, s.coll.ensure_level, ?_, ?_⟩
    · rw [hk, insert_step_old K s H h]
    · rw [hG, ensure_level_generators]
  · rw [if_pos h] at hG
    have hk : (insert_step K s H).key = s.coll.Generators.length := by
      rw [insert_step_new K s H h, ensure_level_generators]
    have hl : (insert_step K s H).last_inserted = H.1 := insert_step_last K s H
    have hrow : row (insert_step K s H).coll.Generators (insert_step K s H).key = H.1 := by
      rw [hG, hk]
      exact row_append_new _ _
    refine ⟨⟨by rw [hrow, hl], by rw [hk]; exact h3,
      by rw [hG, List.length_append]; omega,
      fun _ => by rw [hG, hk, List.length_append, List.length_singleton]; omega⟩, hrow,
      { s.coll.ensure_level with Generators := s.coll.ensure_level.Generators ++ [H.1] },
      ?_, ?_⟩
    · rw [hk, insert_step_new K s H h, ensure_level_generators]
    · rw [hG, ensure_level_generators]

/-- The table after the inserting loop. -/
theorem insert_fold_generators (K : Kernel) (L : List HilbEntry) :
    ∀ s : InsertState, (L.foldl (insert_step K) s).coll.Generators
      = s.coll.Generators ++ squeeze s.last_inserted (L.map fun H => H.1) := by
  induction L with
  | nil =>
    intro s
    simp [squeeze]
  | cons H L ih =>
    intro s
    rw [List.foldl_cons, ih, insert_step_generators, insert_step_last, List.map_cons, squeeze]
    by_cases h : H.1 = s.last_inserted
    · rw [if_neg (by simpa using h), if_neg (by simpa using h), List.append_nil, h]
    · rw [if_pos h, if_pos h, List.append_assoc]
      rfl

/-- Every pass of the inserting loop, seen from the end of the loop. -/
theorem insert_states_spec (K : Kernel) (n0 : Nat) (L : List HilbEntry) :
    ∀ (s : InsertState), KeyInv n0 s → ∀ (t : Nat) (st : InsertState),
      (insert_states K s L)[t]? = some st →
      ∃ H, L[t]? = some H ∧ n0 ≤ st.key ∧
        (H.1 ≠ [] → st.key < (L.foldl (insert_step K) s).coll.Generators.length ∧
          row (L.foldl (insert_step K) s).coll.Generators st.key = H.1) ∧
        ∃ P, st.coll = MiniCone.refine K st.key P.Members.length H.2.1 H.2.2 P ∧
          row P.Generators st.key = H.1 := by
  induction L with
  | nil =>
    intro s _ t st h
    simp [insert_states] at h
  | cons H L ih =>
    intro s hs t st h
    obtain ⟨hinv, hrow, P, hP, hPG⟩ := insert_step_call K n0 s H hs
    cases t with
    | zero =>
      simp only [insert_states, List.getElem?_cons_zero, Option.some.injEq] at h
      subst h
      refine ⟨H, List.getElem?_cons_zero, hinv.2.1, ?_, P, hP, by rw [hPG]; exact hrow⟩
      intro hne
      have hlt := hinv.2.2.2 (by rw [insert_step_last]; exact hne)
      rw [List.foldl_cons, insert_fold_generators]
      refine ⟨by rw [List.length_append]; omega, ?_⟩
      rw [row_append_left _ _ _ hlt]
      exact hrow
    | succ t =>
      simp only [insert_states, List.getElem?_cons_succ] at h
      obtain ⟨H1, hH1, hrest⟩ := ih _ hinv t st h
      exact ⟨H1, by simpa using hH1, hrest⟩

theorem insert_states_length (K : Kernel) (L : List HilbEntry) :
    ∀ s : InsertState, (insert_states K s L).length = L.length := by
  induction L with
  | nil => intro s; rfl
  | cons H L ih =>
    intro s
    simp [insert_states, ih]

theorem row_inj_of_nodup (G D : Mat) (hD : D.Nodup) (i j : Nat) (hi : G.length ≤ i)
    (hj : G.length ≤ j) (hi2 : i < (G ++ D).length) (hj2 : j < (G ++ D).length)
    (h : row (G ++ D) i = row (G ++ D) j) : i = j := by
  rw [List.length_append] at hi2 hj2
  unfold row at h
  rw [List.getD_eq_getElem?_getD, List.getD_eq_getElem?_getD,
    List.getElem?_append_right hi, List.getElem?_append_right hj,
    List.getElem?_eq_getElem (by omega), List.getElem?_eq_getElem (by omega)] at h
  simp only [Option.getD_some] at h
  have := (List.Nodup.getElem_inj_iff hD).mp h
  omega

/-- C17. Deduplication: let the points collected in a round be non-empty
vectors.  The inserting loop over the sorted list appends to `Generators`
exactly the distinct points, each once, so the number of appended rows is the
number of distinct vectors among the collected points; and every pass of the
loop calls `MiniCone::refine` on the cell of its entry with an index `key` of an
appended row that holds the point of the entry.  It is the only appended index
with this value, so entries of different cells with the same point are refined
with the same index. -/
theorem insert_hilbs_dedup (K : Kernel) (C : ConeCollection) (A : List HilbEntry)
    (hne : ∀ H ∈ A, H.1 ≠ []) :
    (∃ D, (insert_hilbs K C (sort_hilbs A)).Generators = C.Generators ++ D ∧ D.Nodup ∧
      (∀ v, v ∈ D ↔ ∃ H ∈ A, H.1 = v) ∧
      D.length = ((A.map fun H => H.1).dedup).length) ∧
    (insert_hilbs K C (sort_hilbs A)).Generators.length
      = C.Generators.length + ((A.map fun H => H.1).dedup).length ∧
    (insert_states K { coll := C, last_inserted := [], key := C.Generators.length }
      (sort_hilbs A)).length = A.length ∧
    ∀ (t : Nat) (st : InsertState),
      (insert_states K { coll := C, last_inserted := [], key := C.Generators.length }
        (sort_hilbs A))[t]? = some st →
      ∃ H, (sort_hilbs A)[t]? = some H ∧ H ∈ A ∧
        C.Generators.length ≤ st.key ∧
        st.key < (insert_hilbs K C (sort_hilbs A)).Generators.length ∧
        row (insert_hilbs K C (sort_hilbs A)).Generators st.key = H.1 ∧
        (∀ j, C.Generators.length ≤ j →
          row (insert_hilbs K C (sort_hilbs A)).Generators j = H.1 → j = st.key) ∧
        ∃ P, st.coll = MiniCone.refine K st.key P.Members.length H.2.1 H.2.2 P ∧
          row P.Generators st.key = H.1 := by
  obtain ⟨hperm, hsorted⟩ := sort_hilbs_spec A
  have hne1 : ∀ v ∈ (sort_hilbs A).map (fun H => H.1), v ≠ [] := by
    intro v hv
    obtain ⟨H, hH, rfl⟩ := List.mem_map.mp hv
    exact hne H (hperm.mem_iff.mp hH)
  obtain ⟨hnd, hmem, hlen⟩ := squeeze_spec _ hne1 hsorted
  have hG : (insert_hilbs K C (sort_hilbs A)).Generators
      = C.Generators ++ squeeze [] ((sort_hilbs A).map fun H => H.1) := by
    unfold insert_hilbs
    rw [insert_fold_generators]
  have hdd : ((sort_hilbs A).map fun H => H.1).dedup.length
      = ((A.map fun H => H.1).dedup).length :=
    ((hperm.map _).dedup).length_eq
  have hinv0 : KeyInv C.Generators.length
      { coll := C, last_inserted := [], key := C.Generators.length } :=
    ⟨row_of_le _ _ (le_refl _), le_refl _, le_refl _, fun h => absurd rfl h⟩
  refine ⟨⟨_, hG, hnd, ?_, by rw [hlen, hdd]⟩, by rw [hG, List.length_append, hlen, hdd],
    by rw [insert_states_length, hperm.length_eq], ?_⟩
  · intro v
    rw [hmem, List.mem_map]
    constructor
    · rintro ⟨H, hH, rfl⟩
      exact ⟨H, hperm.mem_iff.mp hH, rfl⟩
    · rintro ⟨H, hH, rfl⟩
      exact ⟨H, hperm.mem_iff.mpr hH, rfl⟩
  · intro t st hst
    obtain ⟨H, hH, hk, hrow, hP⟩ := insert_states_spec K C.Generators.length (sort_hilbs A)
      _ hinv0 t st hst
    have hHA : H ∈ A := hperm.mem_iff.mp (List.getElem?_mem hH)
    have hH0 := hne H hHA
    have hr := hrow hH0
    have hfold : (List.foldl (insert_step K)
        { coll := C, last_inserted := [], key := C.Generators.length } (sort_hilbs A)).coll
        = insert_hilbs K C (sort_hilbs A) := rfl
    rw [hfold] at hr
    refine ⟨H, hH, hHA, hk, hr.1, hr.2, ?_, hP⟩
    intro j hj hjrow
    have hjlt : j < (insert_hilbs K C (sort_hilbs A)).Generators.length := by
      by_contra hge
      rw [row_of_le _ _ (Nat.le_of_not_lt hge)] at hjrow
      exact hH0 hjrow.symm
    rw [hG] at hjlt hjrow hr
    exact row_inj_of_nodup C.Generators _ hnd j st.key hj hk hjlt hr.1 (hjrow.trans hr.2.symm)

set_option maxRecDepth 20000 in
/-- Witness for `insert_hilbs_dedup`: the point `(1,1)` collected for both cells
of the fan of two quadrants is appended once, as row 4. -/
theorem insert_hilbs_dedup_witness :
    (∀ H ∈ [(([1, 1] : Vec), 0, 1), (([1, 1] : Vec), 0, 0)], H.1 ≠ []) ∧
    sort_hilbs [(([1, 1] : Vec), 0, 1), (([1, 1] : Vec), 0, 0)]
      = [(([1, 1] : Vec), 0, 0), (([1, 1] : Vec), 0, 1)] ∧
    (insert_hilbs (exactKernel failing_oracle) quadrant_forest
      (sort_hilbs [(([1, 1] : Vec), 0, 1), (([1, 1] : Vec), 0, 0)])).Generators
      = quadrant_forest.Generators ++ [[1, 1]] ∧
    (insert_states (exactKernel failing_oracle)
      { coll := quadrant_forest, last_inserted := [],
        key := quadrant_forest.Generators.length }
      (sort_hilbs [(([1, 1] : Vec), 0, 1), (([1, 1] : Vec), 0, 0)])).map (fun s => s.key)
      = [4, 4] ∧
    (insert_hilbs (exactKernel failing_oracle) quadrant_forest
      (sort_hilbs [(([1, 1] : Vec), 0, 1), (([1, 1] : Vec), 0, 0)])).Generators.length
      = quadrant_forest.Generators.length
        + (([(([1, 1] : Vec), 0, 1), (([1, 1] : Vec), 0, 0)].map fun H => H.1).dedup).length :=
  ⟨by decide, by decide, rfl, rfl,
    (insert_hilbs_dedup (exactKernel failing_oracle) quadrant_forest
      [(([1, 1] : Vec), 0, 1), (([1, 1] : Vec), 0, 0)] (by decide)).2.1⟩



/-! ## Walks that find nothing to subdivide -/

theorem cell_uncached (C : ConeCollection) (l q : Nat) :
    C.uncached.cell l q = (C.cell l q).map MiniCone.uncached := by
  unfold ConeCollection.uncached ConeCollection.cell
  simp only
  rw [List.getD_eq_getElem?_getD, List.getD_eq_getElem?_getD, List.getElem?_map]
  cases h : C.Members[l]? with
  | none => simp
  | some L => simp [List.getElem?_map]

/-- The predicate `quiet` reads the generator table and, of every cell, the
keys, the daughters and the level. -/
theorem quiet_of_cells (key : Nat) (C C1 : ConeCollection) (hG : C1.Generators = C.Generators)
    (hc : ∀ l q, (C1.cell l q).map MiniCone.uncached = (C.cell l q).map MiniCone.uncached) :
    ∀ f lvl plc, quiet key f lvl plc C → quiet key f lvl plc C1 := by
  intro f
  induction f with
  | zero => intro lvl plc _; trivial
  | succ f ih =>
    intro lvl plc h m1 hm1 opp hopp hone
    have h1 := hc lvl plc
    rw [hm1] at h1
    cases hm : C.cell lvl plc with
    | none => rw [hm] at h1; cases h1
    | some m =>
      rw [hm] at h1
      simp only [Option.map_some', Option.some.injEq] at h1
      have hk : m1.GenKeys = m.GenKeys := by
        have := congrArg (fun x : MiniCone => x.GenKeys) h1
        exact this
      have hd : m1.Daughters = m.Daughters := by
        have := congrArg (fun x : MiniCone => x.Daughters) h1
        exact this
      have hl : m1.level = m.level := by
        have := congrArg (fun x : MiniCone => x.level) h1
        exact this
      have hg : C1.gens m1 = C.gens m := by
        unfold ConeCollection.gens
        rw [hG, hk]
      rw [hG, hg] at hopp
      obtain ⟨q1, q2⟩ := h m hm opp hopp hone
      rw [hd, hl]
      exact ⟨fun hne d hdm => ih _ _ (q1 hne d hdm), q2⟩

theorem quiet_congr (key : Nat) (C C1 : ConeCollection) (h : C1.uncached = C.uncached)
    (f lvl plc : Nat) : quiet key f lvl plc C → quiet key f lvl plc C1 := by
  apply quiet_of_cells key C C1
  · have := congrArg (fun x : ConeCollection => x.Generators) h
    exact this
  · intro l q
    rw [← cell_uncached, ← cell_uncached, h]

theorem cell_ensure_level (C : ConeCollection) (l q : Nat) :
    C.ensure_level.cell l q = C.cell l q := by
  cases hc : C.cell l q with
  | none =>
    cases hc1 : C.ensure_level.cell l q with
    | none => rfl
    | some Y1 =>
      obtain ⟨Y, hY, _⟩ := grown_back C _ (grown_ensure_level C) l q Y1 hc1
      rw [hc] at hY
      cases hY
  | some Y =>
    have hq := (cell_lt C l q Y hc).2
    rw [← (grown_ensure_level C).lengths] at hq
    obtain ⟨Y1, hY1⟩ := cell_of_lt _ l q hq
    rw [hY1]
    unfold ConeCollection.ensure_level at hY1
    split at hY1
    · split at hY1
      · rw [hc] at hY1
        exact hY1.symm
      · have : ({ C with Members := C.Members ++ [[]] } : ConeCollection).cell l q
            = C.cell l q := by
          rw [cell_eq, cell_eq]
          show ((C.Members ++ [[]]).getD l [])[q]? = _
          rw [getD_append_nil_level]
        rw [this, hc] at hY1
        exact hY1.symm
    · rw [hc] at hY1
      exact hY1.symm

theorem quiet_ensure_level (key : Nat) (C : ConeCollection) (f lvl plc : Nat) :
    quiet key f lvl plc C ↔ quiet key f lvl plc C.ensure_level :=
  ⟨quiet_of_cells key C _ (ensure_level_generators C)
      (fun l q => by rw [cell_ensure_level]) f lvl plc,
    quiet_of_cells key _ C (ensure_level_generators C).symm
      (fun l q => by rw [cell_ensure_level]) f lvl plc⟩

theorem quiet_pred (key : Nat) (C : ConeCollection) :
    ∀ f lvl plc, quiet key (f + 1) lvl plc C → quiet key f lvl plc C := by
  intro f
  induction f with
  | zero => intro lvl plc _; trivial
  | succ f ih =>
    intro lvl plc h mc hmc opp hopp hone
    obtain ⟨q1, q2⟩ := h mc hmc opp hopp hone
    exact ⟨fun hne d hd => ih _ _ (q1 hne d hd), q2⟩

/-- With enough fuel to reach below the last level, more fuel finds nothing
more. -/
theorem quiet_succ (key : Nat) (C : ConeCollection) (hco : C.coords_ok) :
    ∀ f lvl plc, C.Members.length ≤ lvl + f → quiet key f lvl plc C →
      quiet key (f + 1) lvl plc C := by
  intro f
  induction f with
  | zero =>
    intro lvl plc hl _ mc hmc
    have := (cell_lt C lvl plc mc hmc).1
    omega
  | succ f ih =>
    intro lvl plc hl h mc hmc opp hopp hone
    obtain ⟨q1, q2⟩ := h mc hmc opp hopp hone
    refine ⟨fun hne d hd => ih _ _ ?_ (q1 hne d hd), q2⟩
    rw [(hco lvl plc mc hmc).1]
    omega

theorem quiet_all (key : Nat) (C : ConeCollection) (hco : C.coords_ok) (plc f0 : Nat)
    (hf : C.Members.length ≤ f0) (h : quiet key f0 0 plc C) : ∀ f, quiet key f 0 plc C := by
  have up : ∀ k, quiet key (f0 + k) 0 plc C := by
    intro k
    induction k with
    | zero => exact h
    | succ k ihk => exact quiet_succ key C hco (f0 + k) 0 plc (by omega) ihk
  have down : ∀ g f, f + g = f0 → quiet key f 0 plc C := by
    intro g
    induction g with
    | zero =>
      intro f hfg
      have : f = f0 := by omega
      rw [this]
      exact h
    | succ g ihg =>
      intro f hfg
      exact quiet_pred key C f 0 plc (ihg (f + 1) (by omega))
  intro f
  by_cases hle : f ≤ f0
  · exact down (f0 - f) f (by omega)
  · have := up (f - f0)
    rw [show f0 + (f - f0) = f by omega] at this
    exact this





theorem positive_positions_nil (v : Vec) (SH : Mat) (i : Nat)
    (h : ∀ r ∈ SH, v_scalar_product v r ≤ 0) : positive_positions v SH i = [] := by
  induction SH generalizing i with
  | nil => rfl
  | cons r SH ih =>
    rw [positive_positions, if_neg (not_lt.mpr (h r (List.mem_cons_self _ _)))]
    exact ih (i + 1) (fun r1 h1 => h r1 (List.mem_cons_of_mem _ h1))

theorem getD_mem_mat (SH : Mat) (j : Nat) (hj : j < SH.length) : SH.getD j [] ∈ SH := by
  rw [List.getD_eq_getElem?_getD, List.getElem?_eq_getElem hj]
  exact List.getElem_mem _

theorem exists_getD_mat (SH : Mat) (r : Vec) (hr : r ∈ SH) :
    ∃ j, j < SH.length ∧ SH.getD j [] = r := by
  obtain ⟨j, hj, rfl⟩ := List.getElem_of_mem hr
  exact ⟨j, hj, by rw [List.getD_eq_getElem?_getD, List.getElem?_eq_getElem hj]; rfl⟩

/-- A ray with no positive and no negative facet value on a non-degenerate
simplex has facet value 0 on every facet of every simplex of the same
dimension: the facet loop returns the empty list there too. -/
theorem null_facets (n : Nat) (M M1 : Mat) (v : Vec) (hM : M.length = n) (hdet : det M ≠ 0)
    (hM1 : M1.length = n) (h : facet_loop v (exact_simplex_data M) 0 [] = some []) :
    facet_loop v (exact_simplex_data M1) 0 [] = some [] := by
  obtain ⟨hnn, hpos⟩ := facet_loop_eq _ _ _ _ _ h
  rw [List.nil_append] at hpos
  have hlen : (exact_simplex_data M).length = n := by rw [exact_simplex_data_length, hM]
  have hlen1 : (exact_simplex_data M1).length = n := by rw [exact_simplex_data_length, hM1]
  have hzero : ∀ j, j < n → v_scalar_product v ((exact_simplex_data M).getD j []) = 0 := by
    intro j hj
    have h1 := hnn _ (getD_mem_mat _ j (by rw [hlen]; exact hj))
    have h2 : ¬ 0 < v_scalar_product v ((exact_simplex_data M).getD j []) := by
      intro h3
      have : j ∈ positive_positions v (exact_simplex_data M) 0 := by
        rw [mem_positive_positions]
        exact ⟨Nat.zero_le _, by rw [hlen]; omega, by simpa using h3⟩
      rw [← hpos] at this
      exact absurd this (List.not_mem_nil _)
    omega
  have hv : rvec (F := Rat) n v = 0 := by
    apply ext_hval n M hM hdet
    intro i
    rw [hval_rvec n M hM i i.isLt, hzero i i.isLt]
    unfold hval
    simp
  have hzero1 : ∀ r ∈ exact_simplex_data M1, v_scalar_product v r = 0 := by
    intro r hr
    obtain ⟨j, hj, rfl⟩ := exists_getD_mat _ r hr
    rw [hlen1] at hj
    have := hval_rvec (F := Rat) n M1 hM1 j hj v
    rw [hv] at this
    have h0 : hval (F := Rat) n M1 j 0 = 0 := by
      unfold hval
      simp
    rw [h0] at this
    exact_mod_cast this.symm
  rw [facet_loop_of_nonneg v _ 0 [] (fun r hr => le_of_eq (hzero1 r hr).symm),
    positive_positions_nil v _ 0 (fun r hr => le_of_eq (hzero1 r hr))]
  rfl

/-- `MiniCone::refine` on a walk that finds nothing to subdivide only caches
facets. -/
theorem refine_quiet (hb : Mat → Option (List Vec)) (n key : Nat) :
    ∀ (f lvl plc : Nat) (C : ConeCollection), Tree n C → quiet key f lvl plc C →
      (MiniCone.refine (exactKernel hb) key f lvl plc C).uncached = C.uncached ∧
      Tree n (MiniCone.refine (exactKernel hb) key f lvl plc C) := by
  intro f
  induction f with
  | zero =>
    intro lvl plc C hT _
    rw [refine_zero]
    exact ⟨rfl, hT⟩
  | succ f ih =>
    intro lvl plc C hT hq
    cases hc : C.cell lvl plc with
    | none =>
      rw [refine_no_cell _ _ _ _ _ _ hc]
      exact ⟨rfl, hT⟩
    | some mc =>
      have hcache : (C.cache_facets (exactKernel hb) lvl plc).uncached = C.uncached ∧
          Tree n (C.cache_facets (exactKernel hb) lvl plc) :=
        ⟨cache_facets_uncached _ C lvl plc, tree_grown n C _ hT (grown_cache hb n C hT lvl plc)⟩
      rw [refine_succ _ key f lvl plc C mc hc, hyperplanes_eq hb n C hT lvl plc mc hc]
      cases hf : facet_loop (row C.Generators key) (exact_simplex_data (C.gens mc)) 0 [] with
      | none => exact hcache
      | some opp =>
        simp only
        split
        · exact hcache
        · rename_i hone
          obtain ⟨q1, q2⟩ := hq mc hc opp hf hone
          split
          · rename_i hd
            have hne : mc.Daughters ≠ [] := by
              intro h0
              rw [h0] at hd
              simp at hd
            have : ∀ (ds : List Nat), (∀ d ∈ ds, d ∈ mc.Daughters) → ∀ C2 : ConeCollection,
                C2.uncached = C.uncached → Tree n C2 →
                (ds.foldl (fun C2 d => MiniCone.refine (exactKernel hb) key f (mc.level + 1) d C2)
                  C2).uncached = C.uncached ∧
                Tree n (ds.foldl
                  (fun C2 d => MiniCone.refine (exactKernel hb) key f (mc.level + 1) d C2) C2) := by
              intro ds
              induction ds with
              | nil => intro _ C2 h2 hT2; exact ⟨h2, hT2⟩
              | cons d ds ihd =>
                intro hsub C2 h2 hT2
                rw [List.foldl_cons]
                have hqd := quiet_congr key C C2 h2 f (mc.level + 1) d
                  (q1 hne d (hsub d (List.mem_cons_self _ _)))
                obtain ⟨h3, hT3⟩ := ih (mc.level + 1) d C2 hT2 hqd
                exact ihd (fun x hx => hsub x (List.mem_cons_of_mem _ hx)) _ (h3.trans h2) hT3
            exact this mc.Daughters (fun d hd => hd) _ hcache.1 hcache.2
          · rename_i hd
            have hleaf : mc.Daughters = [] := by
              cases hd1 : mc.Daughters with
              | nil => rfl
              | cons a l =>
                rw [hd1] at hd
                simp at hd
            rw [q2 hleaf]
            exact hcache





/-- A walk that found nothing to subdivide finds nothing after another ray has
subdivided a leaf. -/
theorem quiet_subdivided (hb : Mat → Option (List Vec)) (n key i : Nat)
    (C1 C2 : ConeCollection) (k p : Nat) (X : MiniCone) (opp : List Nat) (hT : Tree n C1)
    (hX : C1.cell k p = some X) (hleaf : X.Daughters = [])
    (hsub : Subdivided (exactKernel hb) key X.GenKeys k p opp X C1 C2) :
    ∀ f lvl plc, plc < (C1.Members.getD lvl []).length → quiet i f lvl plc C1 →
      quiet i f lvl plc C2 := by
  have hXs := hT.simplex k p X hX
  intro f
  induction f with
  | zero => intro lvl plc _ _; trivial
  | succ f ih =>
    intro lvl plc hplc h mc2 hmc2 opp2 hopp2 hone2
    obtain ⟨Y1, hY1, hg, hcase⟩ :=
      subdivided_back _ key C1 C2 k p X opp hsub hX lvl plc mc2 hmc2 hplc
    rw [hsub.gens, hg] at hopp2
    obtain ⟨q1, q2⟩ := h Y1 hY1 opp2 hopp2 hone2
    rcases hcase with ⟨_, rfl⟩ | ⟨rfl, rfl, rfl, rfl⟩
    · refine ⟨fun hne d hd => ?_, q2⟩
      apply ih _ d _ (q1 hne d hd)
      rw [(hT.coords lvl plc mc2 hY1).1]
      exact hT.daughters_lt lvl plc mc2 hY1 d hd
    · have hnil : opp2 = [] := q2 hleaf
      subst hnil
      refine ⟨fun _ d hd => ?_, fun _ => rfl⟩
      have hd1 : d ∈ List.range' (C1.Members.getD (lvl + 1) []).length opp.length := by
        simpa [MiniCone.with_daughters, hleaf] using hd
      rw [mem_range'_iff] at hd1
      have hlev : (Y1.with_daughters
          (List.range' (C1.Members.getD (lvl + 1) []).length opp.length)).level = lvl :=
        (hT.coords lvl plc Y1 hY1).1
      rw [hlev]
      cases f with
      | zero => trivial
      | succ f =>
        intro mc3 hmc3 opp3 hopp3 _
        have hdd : (C1.Members.getD (lvl + 1) []).length
            + (d - (C1.Members.getD (lvl + 1) []).length) = d := by omega
        rw [← hdd, hsub.children _ (by omega)] at hmc3
        injection hmc3 with hmc3
        subst hmc3
        rw [hsub.gens, gens_new_cell C1 C2 hsub.gens] at hopp3
        have hz := null_facets n (C1.gens Y1)
          (submatrix C1.Generators (child_keys Y1.GenKeys key
            (opp.getD (d - (C1.Members.getD (lvl + 1) []).length) 0)))
          (row C1.Generators i)
          (by unfold ConeCollection.gens; rw [submatrix_length]; exact hXs.1) hXs.2.2.1
          (by rw [submatrix_length, child_keys_length]; exact hXs.1) hopp2
        rw [hz] at hopp3
        injection hopp3 with hopp3
        exact ⟨fun hne => absurd rfl hne, fun _ => hopp3.symm⟩

/-- `MiniCone::refine(key)` keeps the forest well formed and keeps what the
walks of other rays found. -/
theorem refine_cell_persist (hb : Mat → Option (List Vec)) (n key : Nat)
    (C0 : ConeCollection) :
    ∀ (fuel lvl plc : Nat) (C : ConeCollection),
      (Tree n C ∧ Safe C key ∧ ∀ i, (∀ q f, quiet i f 0 q C0) → ∀ q f, quiet i f 0 q C) →
      (Tree n (MiniCone.refine (exactKernel hb) key fuel lvl plc C) ∧
        Safe (MiniCone.refine (exactKernel hb) key fuel lvl plc C) key ∧
        ∀ i, (∀ q f, quiet i f 0 q C0) →
          ∀ q f, quiet i f 0 q (MiniCone.refine (exactKernel hb) key fuel lvl plc C)) := by
  apply refine_ind (exactKernel hb) key
    (fun C => Tree n C ∧ Safe C key ∧
      ∀ i, (∀ q f, quiet i f 0 q C0) → ∀ q f, quiet i f 0 q C)
  · intro C lvl plc h
    have hg := grown_cache hb n C h.1 lvl plc
    exact ⟨tree_grown n C _ h.1 hg,
      safe_grown key C _ h.2.1 hg (cache_facets_members_length _ C lvl plc),
      fun i hi p f => quiet_congr i C _ (cache_facets_uncached _ C lvl plc) f 0 p (h.2.2 i hi p f)⟩
  · intro C lvl plc mc opp h hc hleaf hf hone
    obtain ⟨hT, hsafe, hq⟩ := h
    have hg := grown_cache hb n C hT lvl plc
    have hT1 := tree_grown n C _ hT hg
    have hsafe1 := safe_grown key C _ hsafe hg (cache_facets_members_length _ C lvl plc)
    have hco := hT.coords lvl plc mc hc
    have hHP := hyperplanes_eq hb n C hT lvl plc mc hc
    rw [hHP] at hf
    have hs := hT.simplex lvl plc mc hc
    have hlvl : lvl + 1 < C.Members.length := by
      by_contra hge
      have hl := (cell_lt C lvl plc mc hc).1
      have hlast : C.Members.length - 1 = lvl := by omega
      have hkey : key ∈ mc.GenKeys := by
        apply hsafe plc mc
        rw [hlast]
        exact hc
      obtain ⟨j, hj⟩ := facet_loop_own_ray C.Generators mc.GenKeys key hs.2.2.1 hkey
      unfold ConeCollection.gens at hf
      rw [hf] at hj
      injection hj with hj
      apply hone
      rw [hj]
      rfl
    have hX := cache_facets_cell (exactKernel hb) C lvl plc mc hc
    rw [hHP] at hX
    have hsub := subdivide_fold_at (exactKernel hb) key mc opp
      (C.cache_facets (exactKernel hb) lvl plc) _ lvl plc hco.1 hco.2 hX
      (by rw [cache_facets_members_length]; exact hlvl)
    have hf1 : facet_loop (row (C.cache_facets (exactKernel hb) lvl plc).Generators key)
        (exact_simplex_data ((C.cache_facets (exactKernel hb) lvl plc).gens
          { mc with SupportHyperplanes := exact_simplex_data (C.gens mc) })) 0 []
        = some opp := hf
    have hst := stellar_facts (F := Rat) n C.Generators mc.GenKeys key opp hs.1 hs.2.2.1 hf
    refine ⟨tree_subdivided hb key n _ _ lvl plc _ opp hT1 hX hleaf hf1 hsub,
      safe_subdivided _ key _ _ lvl plc _ opp hsafe1 hX (fun j hj => (hst.1 j hj).2.2) hsub, ?_⟩
    intro i hi p f
    have hq1 : quiet i f 0 p (C.cache_facets (exactKernel hb) lvl plc) :=
      quiet_congr i C _ (cache_facets_uncached _ C lvl plc) f 0 p (hq i hi p f)
    by_cases hp : p < ((C.cache_facets (exactKernel hb) lvl plc).Members.getD 0 []).length
    · exact quiet_subdivided hb n key i _ _ lvl plc _ opp hT1 hX hleaf hsub f 0 p hp hq1
    · cases f with
      | zero => trivial
      | succ f =>
        intro m hm
        have := (cell_lt _ 0 p m hm).2
        rw [hsub.lengths, if_neg (by omega), Nat.add_zero] at this
        exact absurd this hp





theorem quiet_no_cell (key : Nat) (C : ConeCollection) (lvl plc : Nat)
    (h : C.cell lvl plc = none) : ∀ f, quiet key f lvl plc C := by
  intro f
  cases f with
  | zero => trivial
  | succ f =>
    intro mc hmc
    rw [h] at hmc
    cases hmc

theorem facets_fit_of_tree (n : Nat) (C : ConeCollection) (hT : Tree n C) : C.facets_fit := by
  intro L hL mc hmc
  obtain ⟨k, i, hc⟩ := cell_of_mem_flatten C mc (List.mem_flatten.mpr ⟨L, hL, hmc⟩)
  have hs := hT.simplex k i mc hc
  rcases hs.2.2.2 with h | h
  · rw [h]
    exact Nat.zero_le _
  · rw [h, exact_simplex_data_length]
    unfold ConeCollection.gens
    rw [submatrix_length]

theorem quiet_of_settled (hb : Mat → Option (List Vec)) (n key : Nat) (C : ConeCollection)
    (hT : Tree n C) :
    ∀ f lvl plc, settled (exactKernel hb) key f lvl plc C → quiet key f lvl plc C := by
  intro f
  induction f with
  | zero => intro lvl plc _; trivial
  | succ f ih =>
    intro lvl plc hs mc hmc opp hopp hone
    unfold settled at hs
    simp only [hmc] at hs
    obtain ⟨_, hrest⟩ := hs
    rw [hyperplanes_eq hb n C hT lvl plc mc hmc, hopp] at hrest
    simp only [hone, if_false] at hrest
    by_cases hd : mc.Daughters.length > 0
    · simp only [hd, if_true] at hrest
      refine ⟨fun _ d hdm => ih _ _ (hrest d hdm), fun h0 => ?_⟩
      rw [h0] at hd
      simp at hd
    · simp only [hd, if_false] at hrest
      exact ⟨fun hne => absurd (List.length_pos.mpr hne) hd, fun _ => hrest⟩

/-- `ConeCollection::refine(key)` keeps the forest well formed and keeps what
the walks of other rays found. -/
theorem refine_persist (hb : Mat → Option (List Vec)) (n key : Nat) (C : ConeCollection)
    (hT : Tree n C) :
    Tree n (C.refine (exactKernel hb) key) ∧
    ∀ i, (∀ q f, quiet i f 0 q C) → ∀ q f, quiet i f 0 q (C.refine (exactKernel hb) key) := by
  unfold ConeCollection.refine
  split
  · exact ⟨hT, fun _ h => h⟩
  · have hT1 := tree_grown n C _ hT (grown_ensure_level C)
    have hs1 := safe_ensure_level C hT.nonempty key
    have : ∀ (l : List Nat) (fu : Nat) (C2 : ConeCollection),
        (Tree n C2 ∧ Safe C2 key ∧ ∀ i, (∀ q f, quiet i f 0 q C.ensure_level) →
          ∀ q f, quiet i f 0 q C2) →
        (Tree n (l.foldl (fun C2 i => MiniCone.refine (exactKernel hb) key fu 0 i C2) C2) ∧
          Safe (l.foldl (fun C2 i => MiniCone.refine (exactKernel hb) key fu 0 i C2) C2) key ∧
          ∀ i, (∀ q f, quiet i f 0 q C.ensure_level) → ∀ q f, quiet i f 0 q
            (l.foldl (fun C2 i => MiniCone.refine (exactKernel hb) key fu 0 i C2) C2)) := by
      intro l fu
      induction l with
      | nil => intro C2 h2; exact h2
      | cons a l ihl =>
        intro C2 h2
        rw [List.foldl_cons]
        exact ihl _ (refine_cell_persist hb n key C.ensure_level fu 0 a C2 h2)
    obtain ⟨h1, _, h3⟩ := this _ _ _ ⟨hT1, hs1, fun _ h => h⟩
    exact ⟨h1, fun i hi => h3 i (fun q f => (quiet_ensure_level i C f 0 q).mp (hi q f))⟩

/-- After `ConeCollection::refine(key)` the ray of `key` is dealt with. -/
theorem refine_dealt_self (hb : Mat → Option (List Vec)) (n key : Nat) (C : ConeCollection)
    (hT : Tree n C) : (C.refine (exactKernel hb) key).dealt key := by
  have hTR := (refine_persist hb n key C hT).1
  have hG := (refine_frame (exactKernel hb) key C).1
  by_cases hmem : row C.Generators key ∈ C.AllRays
  · left
    rw [hG]
    exact (refine_frame (exactKernel hb) key C).2 _ hmem
  · rcases coll_refine_outcome (exactKernel hb)
        (fun M => le_of_eq (exact_simplex_data_length M)) C (facets_fit_of_tree n C hT) key hmem
      with h | ⟨hext, hs⟩
    · left
      rw [hG]
      exact h
    · right
      intro q
      obtain ⟨_, _, _, hshape, _⟩ := hext
      have hlen : (C.refine (exactKernel hb) key).Members.length
          = C.ensure_level.Members.length := by
        have := congrArg List.length hshape
        simpa using this
      by_cases hq : q < (C.ensure_level.Members.getD 0 []).length
      · apply quiet_all key _ hTR.coords q C.ensure_level.Members.length (le_of_eq hlen)
        exact quiet_of_settled hb n key _ hTR _ 0 q (hs q (List.mem_range.mpr hq))
      · apply quiet_no_cell
        cases hc : (C.refine (exactKernel hb) key).cell 0 q with
        | none => rfl
        | some m =>
          have := (cell_lt _ 0 q m hc).2
          rw [getD_length_of_shape _ _ hshape 0] at this
          exact absurd this hq

/-- A ray that is dealt with stays so through `ConeCollection::refine`. -/
theorem dealt_persist (hb : Mat → Option (List Vec)) (n key i : Nat) (C : ConeCollection)
    (hT : Tree n C) (h : C.dealt i) : (C.refine (exactKernel hb) key).dealt i := by
  rcases h with h | h
  · left
    rw [(refine_frame (exactKernel hb) key C).1]
    exact (refine_frame (exactKernel hb) key C).2 _ h
  · right
    exact (refine_persist hb n key C hT).2 i h

/-- `ConeCollection::refine(key)` for a ray that is dealt with: at most the
guard for a new level and the caching of facets change the forest. -/
theorem refine_dealt_noop (hb : Mat → Option (List Vec)) (n key : Nat) (C : ConeCollection)
    (hT : Tree n C) (h : C.dealt key) :
    (C.refine (exactKernel hb) key).uncached = C.uncached ∨
    (C.refine (exactKernel hb) key).uncached = C.ensure_level.uncached := by
  by_cases hmem : row C.Generators key ∈ C.AllRays
  · left
    unfold ConeCollection.refine
    rw [if_pos hmem]
  · right
    have hq : ∀ q f, quiet key f 0 q C := by
      rcases h with h | h
      · exact absurd h hmem
      · exact h
    rw [coll_refine_unfold _ C key hmem]
    have hT1 := tree_grown n C _ hT (grown_ensure_level C)
    have : ∀ (l : List Nat) (fu : Nat) (C2 : ConeCollection),
        C2.uncached = C.ensure_level.uncached → Tree n C2 →
        (l.foldl (fun C2 i => MiniCone.refine (exactKernel hb) key fu 0 i C2) C2).uncached
          = C.ensure_level.uncached := by
      intro l fu
      induction l with
      | nil => intro C2 h2 _; exact h2
      | cons a l ihl =>
        intro C2 h2 hT2
        rw [List.foldl_cons]
        have hqa : quiet key fu 0 a C2 :=
          quiet_congr key C.ensure_level C2 h2 fu 0 a
            ((quiet_ensure_level key C fu 0 a).mp (hq a fu))
        obtain ⟨h3, hT3⟩ := refine_quiet hb n key fu 0 a C2 hT2 hqa
        exact ihl _ (h3.trans h2) hT3
    exact this _ _ _ rfl hT1



/-! ## The bootstrap pass, twice -/

theorem ensure_level_uncached (C : ConeCollection) :
    C.ensure_level.uncached = C.uncached.ensure_level := by
  unfold ConeCollection.ensure_level ConeCollection.uncached
  simp only [List.getLast?_map]
  cases h : C.Members.getLast? with
  | none => rfl
  | some L =>
    simp only [Option.map_some']
    cases L with
    | nil => simp
    | cons a L => simp

theorem ensure_level_idem (C : ConeCollection) : C.ensure_level.ensure_level = C.ensure_level := by
  cases hM : C.Members with
  | nil =>
    unfold ConeCollection.ensure_level
    simp [hM]
  | cons a l =>
    have hne : C.Members ≠ [] := by rw [hM]; exact List.cons_ne_nil _ _
    have hlast := ensure_level_last C hne
    have hne1 : C.ensure_level.Members ≠ [] := by
      intro h0
      have := (grown_ensure_level C).levels
      rw [h0, hM] at this
      simp at this
    generalize C.ensure_level = D at hlast hne1
    unfold ConeCollection.ensure_level
    have hgl : D.Members.getLast? = some [] := by
      rw [List.getLast?_eq_getElem?, ← hlast, List.getD_eq_getElem?_getD]
      have hlt : D.Members.length - 1 < D.Members.length :=
        Nat.sub_lt (List.length_pos.mpr hne1) Nat.one_pos
      rw [List.getElem?_eq_getElem hlt]
      rfl
    rw [hgl]
    rfl

theorem getKeysAndMult_ensure_level (C : ConeCollection) :
    C.ensure_level.getKeysAndMult = C.getKeysAndMult := by
  rw [getKeysAndMult_leaves, getKeysAndMult_leaves]
  unfold ConeCollection.leaf_pairs ConeCollection.ensure_level
  split
  · split
    · rfl
    · simp
  · rfl

/-- After `insert_all_gens` every ray of the table is dealt with. -/
theorem insert_all_gens_dealt (hb : Mat → Option (List Vec)) (n : Nat) (C : ConeCollection)
    (hT : Tree n C) :
    Tree n (C.insert_all_gens (exactKernel hb)) ∧
    ∀ i, i < C.Generators.length → (C.insert_all_gens (exactKernel hb)).dealt i := by
  rw [insert_all_gens_fold]
  have : ∀ m, Tree n ((List.range m).foldl (fun C2 i => C2.refine (exactKernel hb) i) C) ∧
      ∀ i, i < m →
        ((List.range m).foldl (fun C2 i => C2.refine (exactKernel hb) i) C).dealt i := by
    intro m
    induction m with
    | zero => exact ⟨hT, fun i hi => absurd hi (Nat.not_lt_zero _)⟩
    | succ m ih =>
      rw [List.range_succ, List.foldl_append, List.foldl_cons, List.foldl_nil]
      refine ⟨(refine_persist hb n m _ ih.1).1, fun i hi => ?_⟩
      by_cases him : i < m
      · exact dealt_persist hb n m i _ ih.1 (ih.2 i him)
      · have : i = m := by omega
        subst this
        exact refine_dealt_self hb n i _ ih.1
  exact this _

/-- A pass of `insert_all_gens` over rays that are all dealt with. -/
theorem insert_all_gens_noop (hb : Mat → Option (List Vec)) (n : Nat) (F : ConeCollection)
    (hT : Tree n F) (hd : ∀ i, i < F.Generators.length → F.dealt i) :
    (F.insert_all_gens (exactKernel hb)).uncached = F.uncached ∨
    (F.insert_all_gens (exactKernel hb)).uncached = F.ensure_level.uncached := by
  rw [insert_all_gens_fold]
  have : ∀ m, m ≤ F.Generators.length →
      Tree n ((List.range m).foldl (fun C2 i => C2.refine (exactKernel hb) i) F) ∧
      (∀ i, i < F.Generators.length →
        ((List.range m).foldl (fun C2 i => C2.refine (exactKernel hb) i) F).dealt i) ∧
      (((List.range m).foldl (fun C2 i => C2.refine (exactKernel hb) i) F).uncached
          = F.uncached ∨
        ((List.range m).foldl (fun C2 i => C2.refine (exactKernel hb) i) F).uncached
          = F.ensure_level.uncached) := by
    intro m
    induction m with
    | zero => intro _; exact ⟨hT, hd, Or.inl rfl⟩
    | succ m ih =>
      intro hm
      obtain ⟨hTm, hdm, hor⟩ := ih (by omega)
      rw [List.range_succ, List.foldl_append, List.foldl_cons, List.foldl_nil]
      generalize (List.range m).foldl (fun C2 i => C2.refine (exactKernel hb) i) F = S
        at hTm hdm hor
      refine ⟨(refine_persist hb n m S hTm).1,
        fun i hi => dealt_persist hb n m i S hTm (hdm i hi), ?_⟩
      rcases refine_dealt_noop hb n m S hTm (hdm m (by omega)) with h1 | h1
      · rw [h1]
        exact hor
      · rw [h1, ensure_level_uncached]
        right
        rcases hor with h2 | h2
        · rw [h2, ← ensure_level_uncached]
        · rw [h2, ← ensure_level_uncached, ensure_level_idem]
  exact (this _ (le_refl _)).2.2

theorem ensure_level_members_length (C : ConeCollection) :
    C.ensure_level.Members.length = C.Members.length ∨
    C.ensure_level.Members.length = C.Members.length + 1 := by
  unfold ConeCollection.ensure_level
  split
  · split
    · exact Or.inl rfl
    · right
      simp
  · exact Or.inl rfl

theorem uncached_members_length (C : ConeCollection) :
    C.uncached.Members.length = C.Members.length := by
  unfold ConeCollection.uncached
  simp

/-- The forest the constructor builds from non-degenerate simplices is well
formed. -/
theorem tree_from_triangulation (n : Nat) (Gens : Mat) (T : List (List Nat × Int))
    (hT : ∀ S ∈ T, S.1.length = n ∧ (∀ g ∈ S.1, g < Gens.length) ∧
      det (submatrix Gens S.1) ≠ 0) :
    Tree n (ConeCollection.from_triangulation Gens T) := by
  obtain ⟨h1, h2, _, _, h5⟩ := from_triangulation_spec Gens T
  have hcell : ∀ k i mc, (ConeCollection.from_triangulation Gens T).cell k i = some mc →
      k = 0 ∧ ∃ S, S ∈ T ∧ mc = root_cell i S := by
    intro k i mc hc
    have hk := (cell_lt _ k i mc hc).1
    have h0 : k = 0 := by omega
    subst h0
    rw [h5] at hc
    cases hS : T[i]? with
    | none => rw [hS] at hc; cases hc
    | some S =>
      rw [hS] at hc
      injection hc with hc
      exact ⟨rfl, S, List.getElem?_mem hS, hc.symm⟩
  refine ⟨?_, coords_ok_from_triangulation Gens T, ?_, ?_, ?_⟩
  · intro h0
    rw [h0] at h1
    cases h1
  · intro k i mc hc d hd
    obtain ⟨_, S, _, rfl⟩ := hcell k i mc hc
    exact absurd hd (List.not_mem_nil _)
  · intro k i hi
    rw [level_one_empty _ h1 k] at hi
    exact absurd hi (Nat.not_lt_zero _)
  · intro k i mc hc
    obtain ⟨_, S, hS, rfl⟩ := hcell k i mc hc
    obtain ⟨ha, hb, hc1⟩ := hT S hS
    refine ⟨ha, ?_, ?_, Or.inl rfl⟩
    · rw [h2]
      exact hb
    · unfold ConeCollection.gens
      rw [h2]
      exact hc1

/-- C19 (amended). On a well formed forest of non-degenerate simplices, with
the concrete kernel, a second call of `insert_all_gens` appends no cell and
changes no key, multiplicity or daughter: the forest after the second call is
the forest after the first up to cached facets, possibly with one more level
without cells (the guard of `refine` for a ray that is not known); the
generator table, the known rays and the export are the same. -/
theorem insert_all_gens_twice (hb : Mat → Option (List Vec)) (n : Nat) (C : ConeCollection)
    (hT : Tree n C) :
    (((C.insert_all_gens (exactKernel hb)).insert_all_gens (exactKernel hb)).uncached
        = (C.insert_all_gens (exactKernel hb)).uncached ∨
      ((C.insert_all_gens (exactKernel hb)).insert_all_gens (exactKernel hb)).uncached
        = (C.insert_all_gens (exactKernel hb)).ensure_level.uncached) ∧
    ((C.insert_all_gens (exactKernel hb)).insert_all_gens (exactKernel hb)).Generators
      = (C.insert_all_gens (exactKernel hb)).Generators ∧
    ((C.insert_all_gens (exactKernel hb)).insert_all_gens (exactKernel hb)).AllRays
      = (C.insert_all_gens (exactKernel hb)).AllRays ∧
    ((C.insert_all_gens (exactKernel hb)).insert_all_gens (exactKernel hb)).getKeysAndMult
      = (C.insert_all_gens (exactKernel hb)).getKeysAndMult ∧
    (((C.insert_all_gens (exactKernel hb)).insert_all_gens (exactKernel hb)).Members.length
        = (C.insert_all_gens (exactKernel hb)).Members.length ∨
      ((C.insert_all_gens (exactKernel hb)).insert_all_gens (exactKernel hb)).Members.length
        = (C.insert_all_gens (exactKernel hb)).Members.length + 1) := by
  obtain ⟨hTF, hdF⟩ := insert_all_gens_dealt hb n C hT
  have hGF : (C.insert_all_gens (exactKernel hb)).Generators = C.Generators := by
    rw [insert_all_gens_fold, foldl_refine_generators]
  generalize C.insert_all_gens (exactKernel hb) = F at hTF hdF hGF
  have hor := insert_all_gens_noop hb n F hTF (fun i hi => hdF i (by rw [← hGF]; exact hi))
  generalize F.insert_all_gens (exactKernel hb) = F2 at hor
  refine ⟨hor, ?_, ?_, ?_, ?_⟩
  · rcases hor with h | h
    · have := congrArg (fun D : ConeCollection => D.Generators) h
      exact this
    · have := congrArg (fun D : ConeCollection => D.Generators) h
      exact this.trans (ensure_level_generators F)
  · rcases hor with h | h
    · have := congrArg (fun D : ConeCollection => D.AllRays) h
      exact this
    · have := congrArg (fun D : ConeCollection => D.AllRays) h
      exact this.trans (ensure_level_allRays F)
  · rcases hor with h | h
    · exact getKeysAndMult_of_uncached_eq F F2 h
    · rw [getKeysAndMult_of_uncached_eq F.ensure_level F2 h, getKeysAndMult_ensure_level]
  · rcases hor with h | h
    · left
      rw [← uncached_members_length F2, h, uncached_members_length]
    · rw [← uncached_members_length F2, h, uncached_members_length]
      exact ensure_level_members_length F

set_option maxRecDepth 100000 in
/-- C19 (counterexample). On the forest with generators `(1,0)`, `(0,1)`, `(2,0)`,
`(1,1)` and the non-degenerate cell `{0,1}`, the first call of `insert_all_gens`
leaves two levels.  The ray `(2,0)` is never known, so in the second call
`refine(2)` finds level 1 non-empty and appends a third level: the state after
two calls is not the state after one. -/
theorem insert_all_gens_twice_differs :
    det (submatrix multiple_forest.Generators [0, 1]) ≠ 0 ∧
    (multiple_forest.insert_all_gens (exactKernel failing_oracle)).Members.length = 2 ∧
    ((multiple_forest.insert_all_gens (exactKernel failing_oracle)).insert_all_gens
      (exactKernel failing_oracle)).Members.length = 3 ∧
    (multiple_forest.insert_all_gens (exactKernel failing_oracle)).insert_all_gens
      (exactKernel failing_oracle)
      ≠ multiple_forest.insert_all_gens (exactKernel failing_oracle) :=
  ⟨by decide, by decide, by decide,
    fun h => absurd (congrArg (fun D : ConeCollection => D.Members.length) h) (by decide)⟩

set_option maxRecDepth 100000 in
/-- Witness for `insert_all_gens_twice`: the forest `multiple_forest`, where the
second call appends a level. -/
theorem insert_all_gens_twice_witness :
    Tree 2 multiple_forest ∧
    ((multiple_forest.insert_all_gens (exactKernel failing_oracle)).insert_all_gens
      (exactKernel failing_oracle)).uncached
      = (multiple_forest.insert_all_gens (exactKernel failing_oracle)).ensure_level.uncached ∧
    ((multiple_forest.insert_all_gens (exactKernel failing_oracle)).insert_all_gens
      (exactKernel failing_oracle)).getKeysAndMult
      = (multiple_forest.insert_all_gens (exactKernel failing_oracle)).getKeysAndMult ∧
    (multiple_forest.insert_all_gens (exactKernel failing_oracle)).getKeysAndMult
      = [([1, 3], 1), ([0, 3], 1)] :=
  ⟨tree_from_triangulation 2 _ _ (by decide), by decide,
    (insert_all_gens_twice failing_oracle 2 multiple_forest
      (tree_from_triangulation 2 _ _ (by decide))).2.2.2.1, by decide⟩




/-! ## The export before any refinement; the outside and degenerate tests -/

theorem from_triangulation_members (Gens : Mat) (T : List (List Nat × Int)) :
    ∃ L : List MiniCone, (ConeCollection.from_triangulation Gens T).Members = [L] ∧
      L.length = T.length ∧ ∀ i, L[i]? = (T[i]?).map (root_cell i) := by
  obtain ⟨h1, _, _, h4, h5⟩ := from_triangulation_spec Gens T
  cases hM : (ConeCollection.from_triangulation Gens T).Members with
  | nil => rw [hM] at h1; cases h1
  | cons L Ms =>
    cases Ms with
    | cons L2 Ms => rw [hM] at h1; simp at h1
    | nil =>
      refine ⟨L, rfl, ?_, ?_⟩
      · rw [hM] at h4
        exact h4
      · intro i
        have := h5 i
        rw [cell_eq, hM] at this
        exact this

/-- C22. Before any refinement the export is the original triangulation: for
the forest the constructor builds from a generator table and a triangulation
`T`, by one `add_minicone(0,0,keys,mult)` per simplex of `T` in order,
`getKeysAndMult` returns exactly the list `T`, the pairs `(keys, mult)` as given
and in the same order. -/
theorem getKeysAndMult_from_triangulation (Gens : Mat) (T : List (List Nat × Int)) :
    (ConeCollection.from_triangulation Gens T).getKeysAndMult = T := by
  obtain ⟨L, hM, hlen, hL⟩ := from_triangulation_members Gens T
  rw [getKeysAndMult_leaves]
  unfold ConeCollection.leaf_pairs
  rw [hM]
  simp only [List.flatten_cons, List.flatten_nil, List.append_nil]
  have hleaf : ∀ mc ∈ L, MiniCone.is_leaf mc = true := by
    intro mc hmc
    obtain ⟨i, hi, rfl⟩ := List.getElem_of_mem hmc
    have h := hL i
    rw [List.getElem?_eq_getElem hi] at h
    cases hT : T[i]? with
    | none => rw [hT] at h; cases h
    | some S =>
      rw [hT] at h
      injection h with h
      rw [h]
      rfl
  rw [List.filter_eq_self.mpr hleaf]
  apply List.ext_getElem?
  intro i
  rw [List.getElem?_map, hL i]
  cases T[i]? with
  | none => rfl
  | some S => rfl

theorem positive_positions_length (v : Vec) (SH : Mat) (i : Nat) :
    (positive_positions v SH i).length
      = (SH.filter fun h => decide (0 < v_scalar_product v h)).length := by
  induction SH generalizing i with
  | nil => rfl
  | cons r SH ih =>
    rw [positive_positions]
    by_cases h : 0 < v_scalar_product v r
    · rw [if_pos h, List.filter_cons_of_pos (by simpa using h), List.length_cons,
        List.length_cons, ih]
    · rw [if_neg h, List.filter_cons_of_neg (by simpa using h), ih]

theorem facet_loop_of_neg (v : Vec) (SH : Mat) (i : Nat) (acc : List Nat)
    (h : ∃ r ∈ SH, v_scalar_product v r < 0) : facet_loop v SH i acc = none := by
  induction SH generalizing i acc with
  | nil =>
    obtain ⟨r, hr, _⟩ := h
    cases hr
  | cons r SH ih =>
    rw [facet_loop]
    by_cases hr : v_scalar_product v r < 0
    · rw [if_pos hr]
    · rw [if_neg hr]
      have hrest : ∃ r1 ∈ SH, v_scalar_product v r1 < 0 := by
        obtain ⟨r1, h1, h2⟩ := h
        rcases List.mem_cons.mp h1 with rfl | h1
        · exact absurd h2 hr
        · exact ⟨r1, h1, h2⟩
      split
      · exact ih _ _ hrest
      · exact ih _ _ hrest

theorem cache_facets_other (K : Kernel) (C : ConeCollection) (lvl plc k i : Nat)
    (h : ¬ (k = lvl ∧ i = plc)) : (C.cache_facets K lvl plc).cell k i = C.cell k i := by
  unfold ConeCollection.cache_facets
  exact cell_updateCell_other _ _ _ _ _ _ (fun h1 => h ⟨h1.1.symm, h1.2.symm⟩)

/-- C23. Outside test: let a cell be stored at `(lvl, plc)`, leaf or not, and
let one of its facet normals (the cached ones, or those `simplex_data` computes
when none are cached) have a negative scalar product with `Generators[key]`.
Then `MiniCone::refine(key)` on the cell only caches the facets of the cell:
the result is the forest with these facets written into the cell, so no cell is
appended at any level, no daughter is visited, every other cell is the cell it
was, and the generator table and the known rays are unchanged. -/
theorem refine_outside (K : Kernel) (C : ConeCollection) (key fuel lvl plc : Nat)
    (mc : MiniCone) (hc : C.cell lvl plc = some mc)
    (hneg : ∃ h ∈ mc.hyperplanes K C.Generators,
      v_scalar_product (row C.Generators key) h < 0) :
    MiniCone.refine K key (fuel + 1) lvl plc C = C.cache_facets K lvl plc ∧
    (MiniCone.refine K key (fuel + 1) lvl plc C).uncached = C.uncached ∧
    (MiniCone.refine K key (fuel + 1) lvl plc C).cell lvl plc
      = some { mc with SupportHyperplanes := mc.hyperplanes K C.Generators } ∧
    (∀ k i, ¬ (k = lvl ∧ i = plc) →
      (MiniCone.refine K key (fuel + 1) lvl plc C).cell k i = C.cell k i) ∧
    (∀ l, ((MiniCone.refine K key (fuel + 1) lvl plc C).Members.getD l []).length
      = (C.Members.getD l []).length) ∧
    (MiniCone.refine K key (fuel + 1) lvl plc C).Members.length = C.Members.length := by
  have h : MiniCone.refine K key (fuel + 1) lvl plc C = C.cache_facets K lvl plc := by
    rw [refine_succ K key fuel lvl plc C mc hc, facet_loop_of_neg _ _ _ _ hneg]
  rw [h]
  exact ⟨rfl, cache_facets_uncached K C lvl plc, cache_facets_cell K C lvl plc mc hc,
    fun k i hne => cache_facets_other K C lvl plc k i hne,
    fun l => updateCell_level_length C lvl plc _ l, cache_facets_members_length K C lvl plc⟩

set_option maxRecDepth 20000 in
/-- Witness for `refine_outside`: the ray `(0,-1)` of `quadrant_forest` is
outside the cell over `(2,0)`, `(0,1)`. -/
theorem refine_outside_witness :
    (quadrant_forest.cell 0 0 = some (root_cell 0 ([0, 1], 2)) ∧
      ∃ h ∈ (root_cell 0 ([0, 1], 2)).hyperplanes (exactKernel failing_oracle)
          quadrant_forest.Generators,
        v_scalar_product (row quadrant_forest.Generators 3) h < 0) ∧
    (MiniCone.refine (exactKernel failing_oracle) 3 (0 + 1) 0 0 quadrant_forest).cell 0 0
      = some { root_cell 0 ([0, 1], 2) with SupportHyperplanes := [[1, 0], [0, 2]] } ∧
    (MiniCone.refine (exactKernel failing_oracle) 3 (0 + 1) 0 0 quadrant_forest).uncached
      = quadrant_forest.uncached :=
  ⟨⟨rfl, [0, 2], by decide, by decide⟩,
    (refine_outside (exactKernel failing_oracle) quadrant_forest 3 0 0 0
      (root_cell 0 ([0, 1], 2)) rfl ⟨[0, 2], by decide, by decide⟩).2.2.1,
    (refine_outside (exactKernel failing_oracle) quadrant_forest 3 0 0 0
      (root_cell 0 ([0, 1], 2)) rfl ⟨[0, 2], by decide, by decide⟩).2.1⟩

/-- C24. Degenerate case: let a cell be stored at `(lvl, plc)`, leaf or not,
let no facet value against `Generators[key]` be negative and exactly one be
positive.  Then `MiniCone::refine(key)` on the cell only caches the facets of
the cell: no cell is appended, no `Daughters` list changes and no daughter is
visited, also when the cell has daughters. -/
theorem refine_degenerate (K : Kernel) (C : ConeCollection) (key fuel lvl plc : Nat)
    (mc : MiniCone) (hc : C.cell lvl plc = some mc)
    (hnn : ∀ h ∈ mc.hyperplanes K C.Generators,
      0 ≤ v_scalar_product (row C.Generators key) h)
    (hone : ((mc.hyperplanes K C.Generators).filter fun h =>
      decide (0 < v_scalar_product (row C.Generators key) h)).length = 1) :
    MiniCone.refine K key (fuel + 1) lvl plc C = C.cache_facets K lvl plc ∧
    (MiniCone.refine K key (fuel + 1) lvl plc C).uncached = C.uncached ∧
    (∀ l, ((MiniCone.refine K key (fuel + 1) lvl plc C).Members.getD l []).length
      = (C.Members.getD l []).length) ∧
    (MiniCone.refine K key (fuel + 1) lvl plc C).Members.length = C.Members.length ∧
    (∀ k i m, C.cell k i = some m →
      ∃ m1, (MiniCone.refine K key (fuel + 1) lvl plc C).cell k i = some m1 ∧
        m1.Daughters = m.Daughters) := by
  have h : MiniCone.refine K key (fuel + 1) lvl plc C = C.cache_facets K lvl plc := by
    rw [refine_succ K key fuel lvl plc C mc hc, facet_loop_of_nonneg _ _ _ _ hnn]
    simp only [List.nil_append]
    rw [if_pos (by rw [positive_positions_length]; exact hone)]
  rw [h]
  refine ⟨rfl, cache_facets_uncached K C lvl plc,
    fun l => updateCell_level_length C lvl plc _ l, cache_facets_members_length K C lvl plc, ?_⟩
  intro k i m hm
  by_cases hki : k = lvl ∧ i = plc
  · obtain ⟨rfl, rfl⟩ := hki
    rw [hc] at hm
    injection hm with hm
    subst hm
    exact ⟨_, cache_facets_cell K C k i mc hc, rfl⟩
  · exact ⟨m, by rw [cache_facets_other K C lvl plc k i hki]; exact hm, rfl⟩

set_option maxRecDepth 20000 in
/-- Witness for `refine_degenerate`: after `refine(3)` the cell `{0,1}` of
`multiple_forest` has two daughters; the ray `(2,0)` lies on its ray `(1,0)`, and
`refine(2)` on the cell changes no `Daughters` list and appends no cell. -/
theorem refine_degenerate_witness :
    ((multiple_forest.refine (exactKernel failing_oracle) 3).cell 0 0
      = some { GenKeys := [0, 1], multiplicity := 1, SupportHyperplanes := [[1, 0], [0, 1]],
               Daughters := [0, 1], level := 0, my_place := 0, is_simplex := true }) ∧
    (∀ h ∈ ([[1, 0], [0, 1]] : Mat),
      0 ≤ v_scalar_product (row (multiple_forest.refine (exactKernel failing_oracle) 3).Generators 2)
        h) ∧
    ((([[1, 0], [0, 1]] : Mat).filter fun h => decide (0 < v_scalar_product
      (row (multiple_forest.refine (exactKernel failing_oracle) 3).Generators 2) h)).length = 1) ∧
    (MiniCone.refine (exactKernel failing_oracle) 2 (1 + 1) 0 0
      (multiple_forest.refine (exactKernel failing_oracle) 3)).uncached
      = (multiple_forest.refine (exactKernel failing_oracle) 3).uncached :=
  ⟨rfl, by decide, by decide,
    (refine_degenerate (exactKernel failing_oracle)
      (multiple_forest.refine (exactKernel failing_oracle) 3) 2 1 0 0
      { GenKeys := [0, 1], multiplicity := 1, SupportHyperplanes := [[1, 0], [0, 1]],
        Daughters := [0, 1], level := 0, my_place := 0, is_simplex := true } rfl
      (by decide) (by decide)).2.1⟩



/-! ## Invariants of the operations -/

theorem invariant_refine_cell (K : Kernel) (Q : ConeCollection → Prop) (hI : Invariant K Q)
    (key fuel lvl plc : Nat) (C : ConeCollection) (hQ : Q C) :
    Q (MiniCone.refine K key fuel lvl plc C) :=
  refine_ind K key Q hI.cache (hI.subdivide key) fuel lvl plc C hQ

theorem invariant_refine (K : Kernel) (Q : ConeCollection → Prop) (hI : Invariant K Q)
    (key : Nat) (C : ConeCollection) (hQ : Q C) : Q (C.refine K key) :=
  coll_refine_ind K key Q hI.ensure_level
    (fun fuel lvl plc C2 h2 => invariant_refine_cell K Q hI key fuel lvl plc C2 h2) C hQ

theorem invariant_insert_all_gens (K : Kernel) (Q : ConeCollection → Prop)
    (hI : Invariant K Q) (C : ConeCollection) (hQ : Q C) : Q (C.insert_all_gens K) := by
  rw [insert_all_gens_fold K C]
  have : ∀ (l : List Nat) (C2 : ConeCollection), Q C2 →
      Q (l.foldl (fun C3 i => C3.refine K i) C2) := by
    intro l
    induction l with
    | nil => intro C2 h2; exact h2
    | cons i l ih =>
      intro C2 h2
      rw [List.foldl_cons]
      exact ih _ (invariant_refine K Q hI i C2 h2)
  exact this _ C hQ

theorem invariant_add_extra_generators (K : Kernel) (Q : ConeCollection → Prop)
    (hI : Invariant K Q) (C : ConeCollection) (NewGens : Mat) (hQ : Q C) :
    Q (C.add_extra_generators NewGens) := by
  unfold ConeCollection.add_extra_generators
  have : ∀ (l : Mat) (C2 : ConeCollection), Q C2 → Q (l.foldl (fun C1 v =>
      if v ∈ C1.AllRays then C1 else { C1 with Generators := C1.Generators ++ [v] }) C2) := by
    intro l
    induction l with
    | nil => intro C2 h2; exact h2
    | cons v l ih =>
      intro C2 h2
      rw [List.foldl_cons]
      apply ih
      split
      · exact h2
      · exact hI.append_gen C2 v h2
  exact this _ C hQ

theorem invariant_insert_step (K : Kernel) (Q : ConeCollection → Prop) (hI : Invariant K Q)
    (s : InsertState) (H : HilbEntry) (hQ : Q s.coll) : Q (insert_step K s H).coll := by
  have h1 := hI.ensure_level s.coll hQ
  by_cases h : H.1 = s.last_inserted
  · rw [insert_step_old K s H h]
    exact invariant_refine_cell K Q hI _ _ _ _ _ h1
  · rw [insert_step_new K s H h]
    exact invariant_refine_cell K Q hI _ _ _ _ _ (hI.append_gen _ H.1 h1)

theorem invariant_insert_hilbs (K : Kernel) (Q : ConeCollection → Prop) (hI : Invariant K Q)
    (C : ConeCollection) (AllHilbs : List HilbEntry) (hQ : Q C) :
    Q (insert_hilbs K C AllHilbs) := by
  unfold insert_hilbs
  have : ∀ (l : List HilbEntry) (s : InsertState), Q s.coll →
      Q (l.foldl (insert_step K) s).coll := by
    intro l
    induction l with
    | nil => intro s hs; exact hs
    | cons H l ih =>
      intro s hs
      rw [List.foldl_cons]
      exact ih _ (invariant_insert_step K Q hI s H hs)
  exact this _ _ hQ

theorem invariant_round (K : Kernel) (Q : ConeCollection → Prop) (hI : Invariant K Q)
    (C C1 : ConeCollection) (hQ : Q C) (h : C.round K = some C1) : Q C1 := by
  unfold ConeCollection.round at h
  cases hc : C.collect K with
  | none => rw [hc] at h; cases h
  | some AllHilbs =>
    rw [hc] at h
    simp only at h
    split at h
    · cases h
    · injection h with h
      rw [← h]
      exact invariant_insert_hilbs K Q hI C _ hQ

theorem invariant_after_rounds (K : Kernel) (Q : ConeCollection → Prop) (hI : Invariant K Q) :
    ∀ (r : Nat) (C C1 : ConeCollection), Q C → C.after_rounds K r = some C1 → Q C1 := by
  intro r
  induction r with
  | zero =>
    intro C C1 hQ h
    rw [ConeCollection.after_rounds] at h
    injection h with h
    rw [← h]
    exact hQ
  | succ r ih =>
    intro C C1 hQ h
    rw [ConeCollection.after_rounds] at h
    cases hr : C.round K with
    | none => rw [hr] at h; cases h
    | some C2 =>
      rw [hr] at h
      exact ih C2 C1 (invariant_round K Q hI C C2 hQ hr) h

theorem invariant_make_unimodular (K : Kernel) (Q : ConeCollection → Prop)
    (hI : Invariant K Q) :
    ∀ (fuel : Nat) (C R : ConeCollection), Q C →
      (C.make_unimodular K fuel = Outcome.returned R ∨
        C.make_unimodular K fuel = Outcome.oracle_failed R) → Q R := by
  intro fuel
  induction fuel with
  | zero =>
    intro C R _ hr
    rw [ConeCollection.make_unimodular] at hr
    rcases hr with hr | hr <;> cases hr
  | succ fuel ih =>
    intro C R hQ hr
    rw [ConeCollection.make_unimodular] at hr
    cases hc : C.collect K with
    | none =>
      rw [hc] at hr
      simp only at hr
      rcases hr with hr | hr
      · cases hr
      · injection hr with hr
        rw [← hr]
        exact hQ
    | some AllHilbs =>
      rw [hc] at hr
      simp only at hr
      by_cases he : AllHilbs.isEmpty
      · rw [if_pos he] at hr
        rcases hr with hr | hr
        · injection hr with hr
          rw [← hr]
          exact hQ
        · cases hr
      · rw [if_neg he] at hr
        exact ih _ R (invariant_insert_hilbs K Q hI C _ hQ) hr

/-- An invariant of the elementary changes is kept by every operation. -/
theorem invariant_operation (K : Kernel) (Q : ConeCollection → Prop) (hI : Invariant K Q)
    (C R : ConeCollection) (h : Operation K C R) (hQ : Q C) : Q R := by
  cases h with
  | add_extra_generators NewGens => exact invariant_add_extra_generators K Q hI C NewGens hQ
  | refine key => exact invariant_refine K Q hI key C hQ
  | insert_all_gens => exact invariant_insert_all_gens K Q hI C hQ
  | make_unimodular _ fuel hm => exact invariant_make_unimodular K Q hI fuel C R hQ (Or.inl hm)
  | make_unimodular_failed _ fuel hm =>
    exact invariant_make_unimodular K Q hI fuel C R hQ (Or.inr hm)

/-- An invariant of the elementary changes holds in every state reached from
a state in which it holds. -/
theorem invariant_reached (K : Kernel) (Q : ConeCollection → Prop) (hI : Invariant K Q)
    (C0 C : ConeCollection) (h : Reached K C0 C) (hQ : Q C0) : Q C := by
  induction h with
  | start => exact hQ
  | step C1 R _ hop ih => exact invariant_operation K Q hI C1 R hop ih



/-! ## Cells keep their geometry -/

theorem extends_refl (C : ConeCollection) : Extends C C :=
  fun _ _ mc h => ⟨mc, [], h, rfl, rfl, rfl, rfl, rfl, (List.append_nil _).symm⟩

theorem extends_trans (C R R2 : ConeCollection) (h1 : Extends C R) (h2 : Extends R R2) :
    Extends C R2 := by
  intro k i mc hc
  obtain ⟨m1, E1, hm1, a1, a2, a3, a4, a5, a6⟩ := h1 k i mc hc
  obtain ⟨m2, E2, hm2, b1, b2, b3, b4, b5, b6⟩ := h2 k i m1 hm1
  refine ⟨m2, E1 ++ E2, hm2, b1.trans a1, b2.trans a2, b3.trans a3, b4.trans a4, b5.trans a5, ?_⟩
  rw [b6, a6, List.append_assoc]

theorem extends_of_cells (C R : ConeCollection)
    (h : ∀ k i mc, C.cell k i = some mc → R.cell k i = some mc) : Extends C R :=
  fun k i mc hc => ⟨mc, [], h k i mc hc, rfl, rfl, rfl, rfl, rfl, (List.append_nil _).symm⟩

theorem ensure_level_cell (C : ConeCollection) (k i : Nat) (mc : MiniCone)
    (h : C.cell k i = some mc) : C.ensure_level.cell k i = some mc := by
  have hk := (cell_lt C k i mc h).1
  unfold ConeCollection.ensure_level
  split
  · split
    · exact h
    · rw [cell_eq] at h ⊢
      simp only [List.getD_eq_getElem?_getD] at h ⊢
      rw [List.getElem?_append_left hk]
      exact h
  · exact h

theorem extends_ensure_level (C : ConeCollection) : Extends C C.ensure_level :=
  extends_of_cells C _ (ensure_level_cell C)

theorem extends_append_gen (C : ConeCollection) (v : Vec) :
    Extends C { C with Generators := C.Generators ++ [v] } :=
  extends_of_cells C _ (fun _ _ _ h => h)

theorem extends_cache (K : Kernel) (C : ConeCollection) (lvl plc : Nat) :
    Extends C (C.cache_facets K lvl plc) := by
  intro k i mc hc
  by_cases hki : k = lvl ∧ i = plc
  · obtain ⟨rfl, rfl⟩ := hki
    exact ⟨_, [], cache_facets_cell K C k i mc hc, rfl, rfl, rfl, rfl, rfl,
      (List.append_nil _).symm⟩
  · exact ⟨mc, [], by rw [cache_facets_other K C lvl plc k i hki]; exact hc, rfl, rfl, rfl,
      rfl, rfl, (List.append_nil _).symm⟩

/-- The mother after an `add_minicone` below `(k, p)`. -/
theorem cell_add_minicone_mother (C : ConeCollection) (k p : Nat) (GKeys : List Nat)
    (mult : Int) (m : MiniCone) (h : C.cell k p = some m) :
    (C.add_minicone (k + 1) p GKeys mult).cell k p
      = some { m with Daughters := m.Daughters ++ [(C.Members.getD (k + 1) []).length] } := by
  by_cases hk : k + 1 < C.Members.length
  · rw [cell_add_minicone C k p GKeys mult hk]
    have h1 : ¬ (k = k + 1 ∧ p = (C.Members.getD (k + 1) []).length) := by omega
    rw [if_neg h1, if_pos ⟨rfl, rfl⟩, h]
    rfl
  · have hM := add_minicone_no_level C k p GKeys mult (by omega)
    rw [cell_eq, hM, ← cell_eq, cell_updateCell_same, h]
    rfl

theorem extends_add_minicone (C : ConeCollection) (k p : Nat) (GKeys : List Nat) (mult : Int) :
    Extends C (C.add_minicone (k + 1) p GKeys mult) := by
  intro l q mc hc
  by_cases hlq : l = k ∧ q = p
  · obtain ⟨rfl, rfl⟩ := hlq
    exact ⟨_, _, cell_add_minicone_mother C l q GKeys mult mc hc, rfl, rfl, rfl, rfl, rfl, rfl⟩
  · exact ⟨mc, [], cell_add_minicone_other C k p GKeys mult l q mc hc hlq, rfl, rfl, rfl, rfl,
      rfl, (List.append_nil _).symm⟩

theorem extends_subdivide_fold (K : Kernel) (key : Nat) (mc : MiniCone) :
    ∀ (opp : List Nat) (C : ConeCollection),
      Extends C (opp.foldl (subdivide_step K key mc) C) := by
  intro opp
  induction opp with
  | nil => intro C; exact extends_refl C
  | cons j opp ih =>
    intro C
    rw [List.foldl_cons]
    exact extends_trans _ _ _ (extends_add_minicone C mc.level mc.my_place _ _) (ih _)

theorem invariant_extends (K : Kernel) (C0 : ConeCollection) :
    Invariant K (fun R => Extends C0 R) where
  ensure_level := fun C h => extends_trans _ _ _ h (extends_ensure_level C)
  append_gen := fun C v h => extends_trans _ _ _ h (extends_append_gen C v)
  cache := fun C lvl plc h => extends_trans _ _ _ h (extends_cache K C lvl plc)
  subdivide := fun key C lvl plc mc opp h _ _ _ _ =>
    extends_trans _ _ _ h (extends_trans _ _ _ (extends_cache K C lvl plc)
      (extends_subdivide_fold K key mc opp _))

theorem extends_geometry (C R : ConeCollection) (h : Extends C R) (k i : Nat) (mc : MiniCone)
    (hc : C.cell k i = some mc) :
    ∃ mc1, R.cell k i = some mc1 ∧ mc1.GenKeys = mc.GenKeys ∧
      mc1.multiplicity = mc.multiplicity ∧
      { mc1 with Daughters := mc.Daughters, SupportHyperplanes := mc.SupportHyperplanes }
        = mc := by
  obtain ⟨m1, E, hm1, a1, a2, a3, a4, a5, _⟩ := h k i mc hc
  refine ⟨m1, hm1, a1, a2, ?_⟩
  cases m1
  cases mc
  simp only at a1 a2 a3 a4 a5
  subst a1 a2 a3 a4 a5
  rfl

/-- C29. Cells are never mutated for geometry: through every call of
`ConeCollection::refine`, `insert_all_gens`, `make_unimodular` (ended by its
`break` or by a failure of the oracle) and `add_extra_generators`, and through
every call of `MiniCone::refine`, every cell present before the call is present
after it at the same level and position with the same `GenKeys` and the same
multiplicity; the cell after the call is the cell before it up to its
`Daughters` list and its cached `SupportHyperplanes`. -/
theorem cells_keep_geometry (K : Kernel) (C R : ConeCollection) (h : Operation K C R) :
    (∀ k i mc, C.cell k i = some mc →
      ∃ mc1, R.cell k i = some mc1 ∧ mc1.GenKeys = mc.GenKeys ∧
        mc1.multiplicity = mc.multiplicity ∧
        { mc1 with Daughters := mc.Daughters, SupportHyperplanes := mc.SupportHyperplanes }
          = mc) ∧
    (∀ key fuel lvl plc k i mc, C.cell k i = some mc →
      ∃ mc1, (MiniCone.refine K key fuel lvl plc C).cell k i = some mc1 ∧
        mc1.GenKeys = mc.GenKeys ∧ mc1.multiplicity = mc.multiplicity ∧
        { mc1 with Daughters := mc.Daughters, SupportHyperplanes := mc.SupportHyperplanes }
          = mc) := by
  constructor
  · exact extends_geometry C R
      (invariant_operation K _ (invariant_extends K C) C R h (extends_refl C))
  · intro key fuel lvl plc
    exact extends_geometry C _
      (invariant_refine_cell K _ (invariant_extends K C) key fuel lvl plc C (extends_refl C))

set_option maxRecDepth 20000 in
/-- Witness for `cells_keep_geometry`: the run of `make_unimodular` on the
scenario forest subdivides the cell `{0,1}` of multiplicity 2; after it the
cell is at its place with these keys and this multiplicity. -/
theorem cells_keep_geometry_witness :
    Operation (exactKernel scenario_oracle) scenario_forest scenario_result ∧
    (scenario_forest.cell 0 0).map (fun mc => (mc.GenKeys, mc.multiplicity, mc.Daughters))
      = some ([0, 1], 2, []) ∧
    (scenario_result.cell 0 0).map (fun mc => (mc.GenKeys, mc.multiplicity, mc.Daughters))
      = some ([0, 1], 2, [0, 1]) ∧
    ∀ k i mc, scenario_forest.cell k i = some mc →
      ∃ mc1, scenario_result.cell k i = some mc1 ∧ mc1.GenKeys = mc.GenKeys ∧
        mc1.multiplicity = mc.multiplicity ∧
        { mc1 with Daughters := mc.Daughters, SupportHyperplanes := mc.SupportHyperplanes }
          = mc :=
  ⟨Operation.make_unimodular scenario_forest scenario_result 2 scenario_run, rfl, rfl,
    (cells_keep_geometry (exactKernel scenario_oracle) scenario_forest scenario_result
      (Operation.make_unimodular scenario_forest scenario_result 2 scenario_run)).1⟩



/-! ## Coordinates and the number of daughters -/

theorem coords_ok_add_minicone (C : ConeCollection) (k p : Nat) (GKeys : List Nat) (mult : Int)
    (hco : C.coords_ok) : (C.add_minicone (k + 1) p GKeys mult).coords_ok := by
  intro l q Y hY
  rcases cell_add_minicone_cases C k p _ _ l q Y hY with
    ⟨h1, h2, _, rfl⟩ | ⟨h1, h2, m, hm, rfl⟩ | ⟨_, h⟩
  · exact ⟨h1.symm, h2.symm⟩
  · rw [h1, h2]
    exact hco _ _ m hm
  · exact hco l q Y h

theorem coords_ok_subdivide_fold (K : Kernel) (key : Nat) (mc : MiniCone) :
    ∀ (opp : List Nat) (C : ConeCollection), C.coords_ok →
      (opp.foldl (subdivide_step K key mc) C).coords_ok := by
  intro opp
  induction opp with
  | nil => intro C h; exact h
  | cons j opp ih =>
    intro C h
    rw [List.foldl_cons]
    exact ih _ (coords_ok_add_minicone C mc.level mc.my_place _ _ h)

theorem invariant_coords_ok (K : Kernel) : Invariant K (fun C => C.coords_ok) where
  ensure_level := fun C h => (frozen_ensure_level C h).1
  append_gen := fun _ _ h => h
  cache := fun C lvl plc h => (frozen_cache K C lvl plc h).1
  subdivide := fun key C lvl plc mc opp h _ _ _ _ =>
    coords_ok_subdivide_fold K key mc opp _ (frozen_cache K C lvl plc h).1

/-- C30. In every state that calls of `add_extra_generators`,
`ConeCollection::refine`, `insert_all_gens` and `make_unimodular` (ended by its
`break` or by a failure of the oracle) reach from the forest the constructor
builds, and after every call of `MiniCone::refine` in such a state, the cell
stored at `Members[k][i]` has `level == k` and `my_place == i`. -/
theorem coordinates_match_position (K : Kernel) (Gens : Mat) (T : List (List Nat × Int))
    (C : ConeCollection) (h : Reached K (ConeCollection.from_triangulation Gens T) C) :
    (∀ k i mc, C.cell k i = some mc → mc.level = k ∧ mc.my_place = i) ∧
    (∀ key fuel lvl plc k i mc, (MiniCone.refine K key fuel lvl plc C).cell k i = some mc →
      mc.level = k ∧ mc.my_place = i) := by
  have hco : C.coords_ok :=
    invariant_reached K _ (invariant_coords_ok K) _ C h (coords_ok_from_triangulation Gens T)
  exact ⟨hco, fun key fuel lvl plc =>
    invariant_refine_cell K _ (invariant_coords_ok K) key fuel lvl plc C hco⟩

set_option maxRecDepth 20000 in
/-- Witness for `coordinates_match_position`: the forest `fan_forest` after
`refine(2)` and `refine(3)`, with the coordinates of its cell at level 2,
position 1. -/
theorem coordinates_match_position_witness :
    Reached (exactKernel failing_oracle)
      (ConeCollection.from_triangulation [[1, 0], [0, 1], [1, 1], [2, 1]] [([0, 1], 1)])
      ((fan_forest.refine (exactKernel failing_oracle) 2).refine
        (exactKernel failing_oracle) 3) ∧
    (((fan_forest.refine (exactKernel failing_oracle) 2).refine
      (exactKernel failing_oracle) 3).cell 2 1).map (fun mc => (mc.level, mc.my_place))
      = some (2, 1) ∧
    ∀ k i mc, ((fan_forest.refine (exactKernel failing_oracle) 2).refine
      (exactKernel failing_oracle) 3).cell k i = some mc → mc.level = k ∧ mc.my_place = i :=
  ⟨Reached.step _ _ (Reached.step _ _ Reached.start (Operation.refine _ 2))
      (Operation.refine _ 3), rfl,
    (coordinates_match_position (exactKernel failing_oracle)
      [[1, 0], [0, 1], [1, 1], [2, 1]] [([0, 1], 1)] _
      (Reached.step _ _ (Reached.step _ _ Reached.start (Operation.refine _ 2))
        (Operation.refine _ 3))).1⟩

/-- The subdivision loop adds one daughter per pass to the mother and leaves
the number of daughters of every other cell as it is. -/
theorem pairs_subdivide_fold (K : Kernel) (key : Nat) (mc : MiniCone) :
    ∀ (opp : List Nat) (C : ConeCollection) (n : Nat),
      (∀ l q Y, C.cell l q = some Y →
        if l = mc.level ∧ q = mc.my_place then Y.Daughters.length = n
        else (Y.Daughters = [] ∨ 2 ≤ Y.Daughters.length)) →
      ∀ l q Y, (opp.foldl (subdivide_step K key mc) C).cell l q = some Y →
        if l = mc.level ∧ q = mc.my_place then Y.Daughters.length = n + opp.length
        else (Y.Daughters = [] ∨ 2 ≤ Y.Daughters.length) := by
  intro opp
  induction opp with
  | nil => intro C n h; exact h
  | cons j opp ih =>
    intro C n h
    rw [List.foldl_cons, List.length_cons,
      show n + (opp.length + 1) = n + 1 + opp.length by omega]
    apply ih _ (n + 1)
    intro l q Y hY
    rcases cell_add_minicone_cases C mc.level mc.my_place _ _ l q Y hY with
      ⟨h1, _, _, rfl⟩ | ⟨h1, h2, m, hm, rfl⟩ | ⟨hne, hc⟩
    · have : ¬ (l = mc.level ∧ q = mc.my_place) := by omega
      rw [if_neg this]
      exact Or.inl rfl
    · rw [if_pos ⟨h1, h2⟩]
      have := h mc.level mc.my_place m hm
      rw [if_pos ⟨rfl, rfl⟩] at this
      simp [this]
    · have := h l q Y hc
      rw [if_neg hne] at this ⊢
      exact this

theorem invariant_pairs_ok (K : Kernel) :
    Invariant K (fun C => C.coords_ok ∧ C.pairs_ok) where
  ensure_level := by
    intro C h
    refine ⟨(frozen_ensure_level C h.1).1, ?_⟩
    intro k i Y hY
    have hg := grown_ensure_level C
    have hi := (cell_lt _ k i Y hY).2
    rw [hg.lengths] at hi
    obtain ⟨Y0, hY0⟩ := cell_of_lt C k i hi
    rw [ensure_level_cell C k i Y0 hY0] at hY
    injection hY with hY
    rw [← hY]
    exact h.2 k i Y0 hY0
  append_gen := fun _ _ h => h
  cache := by
    intro C lvl plc h
    refine ⟨(frozen_cache K C lvl plc h.1).1, ?_⟩
    intro k i Y hY
    by_cases hki : k = lvl ∧ i = plc
    · obtain ⟨rfl, rfl⟩ := hki
      cases hc : C.cell k i with
      | none =>
        unfold ConeCollection.cache_facets at hY
        rw [cell_updateCell_same, hc] at hY
        cases hY
      | some m =>
        rw [cache_facets_cell K C k i m hc] at hY
        injection hY with hY
        rw [← hY]
        exact h.2 k i m hc
    · rw [cache_facets_other K C lvl plc k i hki] at hY
      exact h.2 k i Y hY
  subdivide := by
    intro key C lvl plc mc opp h hc hleaf _ hone
    refine ⟨coords_ok_subdivide_fold K key mc opp _ (frozen_cache K C lvl plc h.1).1, ?_⟩
    obtain ⟨h1, h2⟩ := h.1 lvl plc mc hc
    have hX := cache_facets_cell K C lvl plc mc hc
    have hstart : ∀ l q Y, (C.cache_facets K lvl plc).cell l q = some Y →
        if l = mc.level ∧ q = mc.my_place then Y.Daughters.length = 0
        else (Y.Daughters = [] ∨ 2 ≤ Y.Daughters.length) := by
      intro l q Y hY
      by_cases hlq : l = mc.level ∧ q = mc.my_place
      · rw [if_pos hlq]
        rw [hlq.1, hlq.2, h1, h2, hX] at hY
        injection hY with hY
        rw [← hY]
        show mc.Daughters.length = 0
        rw [hleaf]
        rfl
      · rw [if_neg hlq]
        rw [h1, h2] at hlq
        rw [cache_facets_other K C lvl plc l q hlq] at hY
        exact h.2 l q Y hY
    intro l q Y hY
    have := pairs_subdivide_fold K key mc opp _ 0 hstart l q Y hY
    split at this
    · rw [Nat.zero_add] at this
      rcases Nat.lt_or_ge Y.Daughters.length 2 with h3 | h3
      · left
        apply List.eq_nil_of_length_eq_zero
        omega
      · exact Or.inr h3
    · exact this

theorem pairs_ok_from_triangulation (Gens : Mat) (T : List (List Nat × Int)) :
    (ConeCollection.from_triangulation Gens T).pairs_ok := by
  obtain ⟨h1, _, _, _, h5⟩ := from_triangulation_spec Gens T
  intro k i mc hc
  have hk := (cell_lt _ k i mc hc).1
  have h0 : k = 0 := by omega
  subst h0
  rw [h5] at hc
  cases hS : T[i]? with
  | none => rw [hS] at hc; cases hc
  | some S =>
    rw [hS] at hc
    injection hc with hc
    rw [← hc]
    exact Or.inl rfl

/-- C25. In every state that calls of `add_extra_generators`,
`ConeCollection::refine`, `insert_all_gens` and `make_unimodular` (ended by its
`break` or by a failure of the oracle) reach from the forest the constructor
builds, every cell has no daughters or at least two; and so it is after every
call of `MiniCone::refine` in such a state: a call that gives daughters to a
cell without daughters gives it at least two. -/
theorem daughters_none_or_two (K : Kernel) (Gens : Mat) (T : List (List Nat × Int))
    (C : ConeCollection) (h : Reached K (ConeCollection.from_triangulation Gens T) C) :
    (∀ k i mc, C.cell k i = some mc → mc.Daughters = [] ∨ 2 ≤ mc.Daughters.length) ∧
    (∀ key fuel lvl plc k i mc, (MiniCone.refine K key fuel lvl plc C).cell k i = some mc →
      mc.Daughters = [] ∨ 2 ≤ mc.Daughters.length) := by
  have hQ : C.coords_ok ∧ C.pairs_ok :=
    invariant_reached K _ (invariant_pairs_ok K) _ C h
      ⟨coords_ok_from_triangulation Gens T, pairs_ok_from_triangulation Gens T⟩
  exact ⟨hQ.2, fun key fuel lvl plc =>
    (invariant_refine_cell K _ (invariant_pairs_ok K) key fuel lvl plc C hQ).2⟩

set_option maxRecDepth 20000 in
/-- Witness for `daughters_none_or_two`: the forest `fan_forest` after
`insert_all_gens`, which gives two daughters to the cell `{0,1}`. -/
theorem daughters_none_or_two_witness :
    Reached (exactKernel failing_oracle)
      (ConeCollection.from_triangulation [[1, 0], [0, 1], [1, 1], [2, 1]] [([0, 1], 1)])
      (fan_forest.insert_all_gens (exactKernel failing_oracle)) ∧
    ((fan_forest.insert_all_gens (exactKernel failing_oracle)).cell 0 0).map
      (fun mc => mc.Daughters) = some [0, 1] ∧
    ∀ k i mc, (fan_forest.insert_all_gens (exactKernel failing_oracle)).cell k i = some mc →
      mc.Daughters = [] ∨ 2 ≤ mc.Daughters.length :=
  ⟨Reached.step _ _ Reached.start (Operation.insert_all_gens _), rfl,
    (daughters_none_or_two (exactKernel failing_oracle)
      [[1, 0], [0, 1], [1, 1], [2, 1]] [([0, 1], 1)] _
      (Reached.step _ _ Reached.start (Operation.insert_all_gens _))).1⟩



/-! ## Keys, known rays and multiplicities of the cells -/

/-- The cells after the caching of facets, read backwards. -/
theorem cache_facets_back (K : Kernel) (C : ConeCollection) (lvl plc k i : Nat) (Y : MiniCone)
    (h : (C.cache_facets K lvl plc).cell k i = some Y) :
    ∃ m, C.cell k i = some m ∧ Y.GenKeys = m.GenKeys ∧ Y.multiplicity = m.multiplicity ∧
      Y.Daughters = m.Daughters ∧ Y.level = m.level ∧ Y.my_place = m.my_place := by
  by_cases hki : k = lvl ∧ i = plc
  · obtain ⟨rfl, rfl⟩ := hki
    cases hc : C.cell k i with
    | none =>
      unfold ConeCollection.cache_facets at h
      rw [cell_updateCell_same, hc] at h
      cases h
    | some m =>
      rw [cache_facets_cell K C k i m hc] at h
      injection h with h
      rw [← h]
      exact ⟨m, rfl, rfl, rfl, rfl, rfl, rfl⟩
  · rw [cache_facets_other K C lvl plc k i hki] at h
    exact ⟨Y, h, rfl, rfl, rfl, rfl, rfl⟩

theorem row_append (G E : Mat) (g : Nat) (h : g < G.length) : row (G ++ E) g = row G g := by
  unfold row
  rw [List.getD_eq_getElem?_getD, List.getD_eq_getElem?_getD, List.getElem?_append_left h]

theorem facet_loop_nil_vec (SH : Mat) (i : Nat) (acc : List Nat) :
    facet_loop [] SH i acc = some acc := by
  induction SH generalizing i with
  | nil => rfl
  | cons r SH ih =>
    rw [facet_loop, dot_nil, if_neg (lt_irrefl _), if_pos rfl]
    exact ih (i + 1)

theorem key_lt_of_opposite (G : Mat) (key : Nat) (SH : Mat) (opp : List Nat)
    (h : facet_loop (row G key) SH 0 [] = some opp) (hne : opp ≠ []) : key < G.length := by
  apply row_lt_of_ne_nil
  intro h0
  rw [h0, facet_loop_nil_vec] at h
  injection h with h
  exact hne h.symm

theorem orderly_ensure_level (K : Kernel) (C : ConeCollection) (h : Orderly K C) :
    Orderly K C.ensure_level := by
  have hG := ensure_level_generators C
  have hA := ensure_level_allRays C
  refine ⟨?_, ?_, ?_, ?_⟩
  · exact (frozen_ensure_level C h.coords).1
  · intro k i mc hc
    rw [cell_ensure_level] at hc
    rw [hG]
    exact h.keys k i mc hc
  · intro k i mc hc
    rw [cell_ensure_level] at hc
    rw [hG, hA]
    exact h.rays k i mc hc
  · intro k i mc hc
    rw [cell_ensure_level] at hc
    rw [hG]
    obtain ⟨h1, h2, p, mp, h3, h4, h5⟩ := h.born k i mc hc
    exact ⟨h1, h2, p, mp, by rw [cell_ensure_level]; exact h3, h4, h5⟩

theorem orderly_append_gen (K : Kernel) (C : ConeCollection) (v : Vec) (h : Orderly K C) :
    Orderly K { C with Generators := C.Generators ++ [v] } := by
  refine ⟨h.coords, ?_, ?_, ?_⟩
  · intro k i mc hc g hg
    have := h.keys k i mc hc g hg
    show g < (C.Generators ++ [v]).length
    rw [List.length_append]
    omega
  · intro k i mc hc g hg
    show row (C.Generators ++ [v]) g ∈ C.AllRays
    rw [row_append _ _ _ (h.keys k i mc hc g hg)]
    exact h.rays k i mc hc g hg
  · intro k i mc hc
    obtain ⟨h1, h2, h3⟩ := h.born k i mc hc
    refine ⟨?_, h2, h3⟩
    show mc.multiplicity = K.vol (submatrix (C.Generators ++ [v]) mc.GenKeys)
    rw [submatrix_append _ _ _ (h.keys (k + 1) i mc hc)]
    exact h1

theorem orderly_cache (K : Kernel) (C : ConeCollection) (lvl plc : Nat) (h : Orderly K C) :
    Orderly K (C.cache_facets K lvl plc) := by
  refine ⟨(frozen_cache K C lvl plc h.coords).1, ?_, ?_, ?_⟩
  · intro k i Y hY
    obtain ⟨m, hm, a1, _⟩ := cache_facets_back K C lvl plc k i Y hY
    rw [a1]
    exact h.keys k i m hm
  · intro k i Y hY
    obtain ⟨m, hm, a1, _⟩ := cache_facets_back K C lvl plc k i Y hY
    rw [a1]
    exact h.rays k i m hm
  · intro k i Y hY
    obtain ⟨m, hm, a1, a2, _⟩ := cache_facets_back K C lvl plc (k + 1) i Y hY
    obtain ⟨h1, h2, p, mp, h3, h4, h5⟩ := h.born k i m hm
    obtain ⟨mp1, E, b1, b2, _, _, _, _, b7⟩ := extends_cache K C lvl plc k p mp h3
    rw [a1, a2]
    refine ⟨h1, h2, p, mp1, b1, ?_, ?_⟩
    · rw [b7]
      exact List.mem_append_left _ h4
    · rw [b2]
      exact h5

/-- One pass of the subdivision loop below a cell with the keys `keys` keeps
the forest in order. -/
theorem orderly_add_minicone (K : Kernel) (C : ConeCollection) (k p key j : Nat)
    (keys : List Nat) (m : MiniCone) (h : Orderly K C) (hm : C.cell k p = some m)
    (hkeys : m.GenKeys = keys) (hkey : key < C.Generators.length) :
    Orderly K (C.add_minicone (k + 1) p (child_keys keys key j)
      (K.vol (submatrix C.Generators (child_keys keys key j)))) := by
  have hG := add_minicone_generators C (k + 1) p (child_keys keys key j)
    (K.vol (submatrix C.Generators (child_keys keys key j)))
  have hext := extends_add_minicone C k p (child_keys keys key j)
    (K.vol (submatrix C.Generators (child_keys keys key j)))
  have hnewkeys : ∀ g ∈ child_keys keys key j, g < C.Generators.length := by
    intro g hg
    rcases mem_child_keys keys key j g hg with rfl | hg
    · exact hkey
    · rw [← hkeys] at hg
      exact h.keys k p m hm g hg
  refine ⟨coords_ok_add_minicone C k p _ _ h.coords, ?_, ?_, ?_⟩
  · intro l q Y hY g hg
    rw [hG]
    rcases cell_add_minicone_cases C k p _ _ l q Y hY with
      ⟨_, _, _, rfl⟩ | ⟨_, _, m1, hm1, rfl⟩ | ⟨_, hc⟩
    · exact hnewkeys g hg
    · exact h.keys k p m1 hm1 g hg
    · exact h.keys l q Y hc g hg
  · intro l q Y hY g hg
    rw [hG, mem_allRays_add_minicone]
    rcases cell_add_minicone_cases C k p _ _ l q Y hY with
      ⟨_, _, _, rfl⟩ | ⟨_, _, m1, hm1, rfl⟩ | ⟨_, hc⟩
    · exact Or.inr ⟨g, hg, rfl⟩
    · exact Or.inl (h.rays k p m1 hm1 g hg)
    · exact Or.inl (h.rays l q Y hc g hg)
  · intro l q Y hY
    rw [hG]
    have hold : ∀ Y0, C.cell (l + 1) q = some Y0 →
        Y0.multiplicity = K.vol (submatrix C.Generators Y0.GenKeys) ∧
        List.Sorted (fun a b => a ≤ b) Y0.GenKeys ∧
        ∃ p1 mp, (C.add_minicone (k + 1) p (child_keys keys key j)
          (K.vol (submatrix C.Generators (child_keys keys key j)))).cell l p1 = some mp ∧
          q ∈ mp.Daughters ∧ Y0.GenKeys.length = mp.GenKeys.length := by
      intro Y0 hY0
      obtain ⟨h1, h2, p1, mp, h3, h4, h5⟩ := h.born l q Y0 hY0
      obtain ⟨mp1, E, b1, b2, _, _, _, _, b7⟩ := hext l p1 mp h3
      refine ⟨h1, h2, p1, mp1, b1, ?_, ?_⟩
      · rw [b7]
        exact List.mem_append_left _ h4
      · rw [b2]
        exact h5
    rcases cell_add_minicone_cases C k p _ _ (l + 1) q Y hY with
      ⟨h1, h2, _, rfl⟩ | ⟨h1, h2, m1, hm1, rfl⟩ | ⟨_, hc⟩
    · have hl : l = k := by omega
      subst hl
      refine ⟨rfl, List.sorted_insertionSort _ _, p, _,
        cell_add_minicone_mother C l p _ _ m hm, ?_, ?_⟩
      · rw [h2]
        exact List.mem_append_right _ (List.mem_singleton_self _)
      · show (child_keys keys key j).length = m.GenKeys.length
        rw [child_keys_length, hkeys]
    · exact hold m1 (by rw [h1, h2]; exact hm1)
    · exact hold Y hc

theorem orderly_subdivide_fold (K : Kernel) (key : Nat) (mc : MiniCone) :
    ∀ (opp : List Nat) (C : ConeCollection), Orderly K C →
      (∃ m, C.cell mc.level mc.my_place = some m ∧ m.GenKeys = mc.GenKeys) →
      key < C.Generators.length → Orderly K (opp.foldl (subdivide_step K key mc) C) := by
  intro opp
  induction opp with
  | nil => intro C h _ _; exact h
  | cons j opp ih =>
    intro C h hm hkey
    obtain ⟨m, hm, hkeys⟩ := hm
    rw [List.foldl_cons]
    have hstep : subdivide_step K key mc C j
        = C.add_minicone (mc.level + 1) mc.my_place (child_keys mc.GenKeys key j)
            (K.vol (submatrix C.Generators (child_keys mc.GenKeys key j))) := rfl
    apply ih
    · rw [hstep]
      exact orderly_add_minicone K C mc.level mc.my_place key j mc.GenKeys m h hm hkeys hkey
    · rw [hstep]
      exact ⟨_, cell_add_minicone_mother C mc.level mc.my_place _ _ m hm, hkeys⟩
    · rw [hstep, add_minicone_generators]
      exact hkey

theorem invariant_orderly (K : Kernel) : Invariant K (fun C => Orderly K C) where
  ensure_level := orderly_ensure_level K
  append_gen := fun C v h => orderly_append_gen K C v h
  cache := fun C lvl plc h => orderly_cache K C lvl plc h
  subdivide := by
    intro key C lvl plc mc opp h hc _ hf _
    have h1 := orderly_cache K C lvl plc h
    cases opp with
    | nil => exact h1
    | cons j opp =>
      have hkey := key_lt_of_opposite C.Generators key _ _ hf (List.cons_ne_nil _ _)
      obtain ⟨a1, a2⟩ := h.coords lvl plc mc hc
      apply orderly_subdivide_fold K key mc _ _ h1
      · rw [a1, a2]
        exact ⟨_, cache_facets_cell K C lvl plc mc hc, rfl⟩
      · exact hkey

theorem allRays_from_triangulation (Gens : Mat) (T : List (List Nat × Int)) (x : Vec) :
    x ∈ (ConeCollection.from_triangulation Gens T).AllRays ↔
      ∃ S ∈ T, ∃ g ∈ S.1, x = row Gens g := by
  induction T using List.reverseRecOn with
  | nil =>
    constructor
    · intro h; cases h
    · rintro ⟨S, hS, _⟩; cases hS
  | append_singleton T S0 ih =>
    have hstep : ConeCollection.from_triangulation Gens (T ++ [S0])
        = (ConeCollection.from_triangulation Gens T).add_minicone 0 0 S0.1 S0.2 := by
      unfold ConeCollection.from_triangulation
      rw [List.foldl_append]
      rfl
    rw [hstep, mem_allRays_add_minicone, ih, (from_triangulation_spec Gens T).2.1]
    constructor
    · rintro (⟨S, hS, g, hg, rfl⟩ | ⟨g, hg, rfl⟩)
      · exact ⟨S, List.mem_append_left _ hS, g, hg, rfl⟩
      · exact ⟨S0, List.mem_append_right _ (List.mem_singleton_self _), g, hg, rfl⟩
    · rintro ⟨S, hS, g, hg, rfl⟩
      rcases List.mem_append.mp hS with hS | hS
      · exact Or.inl ⟨S, hS, g, hg, rfl⟩
      · rw [List.mem_singleton] at hS
        subst hS
        exact Or.inr ⟨g, hg, rfl⟩

/-- The forest the constructor builds from a triangulation with keys in the
generator table is in order. -/
theorem orderly_from_triangulation (K : Kernel) (Gens : Mat) (T : List (List Nat × Int))
    (hT : ∀ S ∈ T, ∀ g ∈ S.1, g < Gens.length) :
    Orderly K (ConeCollection.from_triangulation Gens T) := by
  obtain ⟨h1, h2, _, _, h5⟩ := from_triangulation_spec Gens T
  have hroot : ∀ k i mc, (ConeCollection.from_triangulation Gens T).cell k i = some mc →
      ∃ S ∈ T, mc.GenKeys = S.1 := by
    intro k i mc hc
    have hk := (cell_lt _ k i mc hc).1
    have h0 : k = 0 := by omega
    subst h0
    rw [h5] at hc
    cases hS : T[i]? with
    | none => rw [hS] at hc; cases hc
    | some S =>
      rw [hS] at hc
      injection hc with hc
      rw [← hc]
      exact ⟨S, List.mem_iff_getElem?.mpr ⟨i, hS⟩, rfl⟩
  refine ⟨coords_ok_from_triangulation Gens T, ?_, ?_, ?_⟩
  · intro k i mc hc g hg
    obtain ⟨S, hS, hk⟩ := hroot k i mc hc
    rw [h2]
    rw [hk] at hg
    exact hT S hS g hg
  · intro k i mc hc g hg
    obtain ⟨S, hS, hk⟩ := hroot k i mc hc
    rw [h2, allRays_from_triangulation]
    rw [hk] at hg
    exact ⟨S, hS, g, hg, rfl⟩
  · intro k i mc hc
    have hk := (cell_lt _ (k + 1) i mc hc).1
    omega

/-- C26. Let the triangulation given to the constructor have its keys in the
generator table.  In every state that calls of `add_extra_generators`,
`ConeCollection::refine`, `insert_all_gens` and `make_unimodular` (ended by its
`break` or by a failure of the oracle) reach from the forest the constructor
builds, every cell of a level `k + 1` has as multiplicity the value of `vol` on
the rows of `Generators` selected by its own `GenKeys`, which are sorted, with
no reference to the multiplicity of its parent; and it is a daughter of a cell
of level `k` that has the same number of keys. -/
theorem cells_born_by_volume (K : Kernel) (Gens : Mat) (T : List (List Nat × Int))
    (C : ConeCollection) (hT : ∀ S ∈ T, ∀ g ∈ S.1, g < Gens.length)
    (h : Reached K (ConeCollection.from_triangulation Gens T) C) :
    ∀ k i mc, C.cell (k + 1) i = some mc →
      mc.multiplicity = K.vol (submatrix C.Generators mc.GenKeys) ∧
      List.Sorted (fun a b => a ≤ b) mc.GenKeys ∧
      ∃ p mp, C.cell k p = some mp ∧ i ∈ mp.Daughters ∧
        mc.GenKeys.length = mp.GenKeys.length :=
  (invariant_reached K _ (invariant_orderly K) _ C h
    (orderly_from_triangulation K Gens T hT)).born

set_option maxRecDepth 20000 in
/-- Witness for `cells_born_by_volume`: the forest of the cone over `(2,1)`,
`(1,2)` of multiplicity 3 with the point `(1,1)` as third generator; after
`insert_all_gens` the two cells of level 1 have the multiplicity 1 of their
own rows. -/
theorem cells_born_by_volume_witness :
    (∀ S ∈ [(([0, 1] : List Nat), (3 : Int))], ∀ g ∈ S.1,
      g < ([[2, 1], [1, 2], [1, 1]] : Mat).length) ∧
    Reached (exactKernel failing_oracle)
      (ConeCollection.from_triangulation [[2, 1], [1, 2], [1, 1]] [([0, 1], 3)])
      ((ConeCollection.from_triangulation [[2, 1], [1, 2], [1, 1]] [([0, 1], 3)]).insert_all_gens
        (exactKernel failing_oracle)) ∧
    (((ConeCollection.from_triangulation [[2, 1], [1, 2], [1, 1]]
        [([0, 1], 3)]).insert_all_gens (exactKernel failing_oracle)).Members.getD 1 []).map
      (fun mc => (mc.GenKeys, mc.multiplicity)) = [([1, 2], 1), ([0, 2], 1)] ∧
    ∀ k i mc, ((ConeCollection.from_triangulation [[2, 1], [1, 2], [1, 1]]
        [([0, 1], 3)]).insert_all_gens (exactKernel failing_oracle)).cell (k + 1) i = some mc →
      mc.multiplicity = (exactKernel failing_oracle).vol
        (submatrix ((ConeCollection.from_triangulation [[2, 1], [1, 2], [1, 1]]
          [([0, 1], 3)]).insert_all_gens (exactKernel failing_oracle)).Generators mc.GenKeys) ∧
      List.Sorted (fun a b => a ≤ b) mc.GenKeys ∧
      ∃ p mp, ((ConeCollection.from_triangulation [[2, 1], [1, 2], [1, 1]]
          [([0, 1], 3)]).insert_all_gens (exactKernel failing_oracle)).cell k p = some mp ∧
        i ∈ mp.Daughters ∧ mc.GenKeys.length = mp.GenKeys.length :=
  ⟨by decide, Reached.step _ _ Reached.start (Operation.insert_all_gens _), rfl,
    cells_born_by_volume (exactKernel failing_oracle) [[2, 1], [1, 2], [1, 1]] [([0, 1], 3)] _
      (by decide) (Reached.step _ _ Reached.start (Operation.insert_all_gens _))⟩

theorem mem_collect_cell (K : Kernel) (C : ConeCollection) (p : Nat × Nat)
    (E : List HilbEntry) (h : collect_cell K C p = some E) (e : HilbEntry) (he : e ∈ E) :
    e.1 ∉ C.AllRays ∧ e.2 = p ∧ ∃ mc HB, C.cell p.1 p.2 = some mc ∧
      K.hilbert_basis (submatrix C.Generators mc.GenKeys) = some HB ∧ e.1 ∈ HB := by
  unfold collect_cell at h
  cases hc : C.cell p.1 p.2 with
  | none =>
    rw [hc] at h
    injection h with h
    rw [← h] at he
    cases he
  | some mc =>
    rw [hc] at h
    simp only at h
    cases hb : K.hilbert_basis (submatrix C.Generators mc.GenKeys) with
    | none => rw [hb] at h; cases h
    | some HB =>
      rw [hb] at h
      injection h with h
      rw [← h, List.mem_map] at he
      obtain ⟨H, hH, rfl⟩ := he
      rw [List.mem_filter] at hH
      exact ⟨by simpa using hH.2, rfl, mc, HB, rfl, hb, hH.1⟩

theorem mem_collect_loop (K : Kernel) (C : ConeCollection) (ps : List (Nat × Nat)) :
    ∀ (acc out : List HilbEntry), collect_loop K C ps acc = some out →
      ∀ e ∈ out, e ∈ acc ∨ ∃ p ∈ ps, ∃ E, collect_cell K C p = some E ∧ e ∈ E := by
  induction ps with
  | nil =>
    intro acc out h e he
    rw [collect_loop] at h
    injection h with h
    rw [← h] at he
    exact Or.inl he
  | cons p ps ih =>
    intro acc out h e he
    rw [collect_loop] at h
    cases hp : collect_cell K C p with
    | none => rw [hp] at h; cases h
    | some E =>
      rw [hp] at h
      rcases ih _ out h e he with h1 | ⟨p1, hp1, E1, hE1, he1⟩
      · rcases List.mem_append.mp h1 with h1 | h1
        · exact Or.inl h1
        · exact Or.inr ⟨p, List.mem_cons_self _ _, E, hp, h1⟩
      · exact Or.inr ⟨p1, List.mem_cons_of_mem _ hp1, E1, hE1, he1⟩

/-- The entries of the list `AllHilbs` of a round: each is a point of the
Hilbert basis of a cell without daughters and with multiplicity different from
1, tagged with the position of the cell, and not a known ray. -/
theorem mem_collect (K : Kernel) (C : ConeCollection) (AllHilbs : List HilbEntry)
    (h : C.collect K = some AllHilbs) (e : HilbEntry) (he : e ∈ AllHilbs) :
    e.1 ∉ C.AllRays ∧ ∃ mc HB, C.cell e.2.1 e.2.2 = some mc ∧ mc.multiplicity ≠ 1 ∧
      mc.Daughters = [] ∧
      K.hilbert_basis (submatrix C.Generators mc.GenKeys) = some HB ∧ e.1 ∈ HB := by
  unfold ConeCollection.collect at h
  rcases mem_collect_loop K C _ _ _ h e he with h1 | ⟨p, hp, E, hE, he1⟩
  · cases h1
  · obtain ⟨a1, a2, mc, HB, a3, a4, a5⟩ := mem_collect_cell K C p E hE e he1
    obtain ⟨mc1, b1, b2, b3⟩ := (mem_eligible C p.1 p.2).mp hp
    rw [a3] at b1
    injection b1 with b1
    subst b1
    rw [a2]
    exact ⟨a1, mc, HB, a3, b2, b3, a4, a5⟩

/-- C27. Let the triangulation given to the constructor have its keys in the
generator table, and let a run of `make_unimodular` start in a state reached
from the forest the constructor builds.  In every round of the run, at the end
of the collecting loop, no entry of `AllHilbs` has a point that is in
`AllRays`, and none has a point equal to a ray of a key of the cell it is
tagged with, a cell without daughters; for the ray of every key of every cell
is in `AllRays`, so that the filter on `AllRays` is enough. -/
theorem collected_points_are_new (K : Kernel) (Gens : Mat) (T : List (List Nat × Int))
    (C : ConeCollection) (hT : ∀ S ∈ T, ∀ g ∈ S.1, g < Gens.length)
    (h : Reached K (ConeCollection.from_triangulation Gens T) C) (r : Nat)
    (C1 : ConeCollection) (hr : C.after_rounds K r = some C1) (AllHilbs : List HilbEntry)
    (hc : C1.collect K = some AllHilbs) :
    (∀ e ∈ AllHilbs, e.1 ∉ C1.AllRays ∧
      ∃ mc, C1.cell e.2.1 e.2.2 = some mc ∧ mc.Daughters = [] ∧
        ∀ g ∈ mc.GenKeys, e.1 ≠ row C1.Generators g) ∧
    (∀ k i mc, C1.cell k i = some mc →
      ∀ g ∈ mc.GenKeys, row C1.Generators g ∈ C1.AllRays) := by
  have hO : Orderly K C1 :=
    invariant_after_rounds K _ (invariant_orderly K) r C C1
      (invariant_reached K _ (invariant_orderly K) _ C h
        (orderly_from_triangulation K Gens T hT)) hr
  refine ⟨?_, hO.rays⟩
  intro e he
  obtain ⟨a1, mc, HB, a2, _, a3, _, _⟩ := mem_collect K C1 AllHilbs hc e he
  refine ⟨a1, mc, a2, a3, ?_⟩
  intro g hg heq
  apply a1
  rw [heq]
  exact hO.rays _ _ mc a2 g hg

set_option maxRecDepth 20000 in
/-- Witness for `collected_points_are_new`: the first round of the scenario
collects the point `(1,1)` for the cell `{0,1}` over `(1,0)`, `(1,2)`; the two
rays of the cell, also in the Hilbert basis, are filtered out as known rays. -/
theorem collected_points_are_new_witness :
    (∀ S ∈ [(([0, 1] : List Nat), (2 : Int))], ∀ g ∈ S.1,
      g < ([[1, 0], [1, 2]] : Mat).length) ∧
    Reached (exactKernel scenario_oracle)
      (ConeCollection.from_triangulation [[1, 0], [1, 2]] [([0, 1], 2)]) scenario_forest ∧
    scenario_forest.after_rounds (exactKernel scenario_oracle) 0 = some scenario_forest ∧
    scenario_forest.collect (exactKernel scenario_oracle) = some [([1, 1], 0, 0)] ∧
    (∀ e ∈ [(([1, 1], 0, 0) : HilbEntry)], e.1 ∉ scenario_forest.AllRays ∧
      ∃ mc, scenario_forest.cell e.2.1 e.2.2 = some mc ∧ mc.Daughters = [] ∧
        ∀ g ∈ mc.GenKeys, e.1 ≠ row scenario_forest.Generators g) :=
  ⟨by decide, Reached.start, rfl, rfl,
    (collected_points_are_new (exactKernel scenario_oracle) [[1, 0], [1, 2]] [([0, 1], 2)]
      scenario_forest (by decide) Reached.start 0 scenario_forest rfl [([1, 1], 0, 0)] rfl).1⟩



/-! ## The cells passed to the oracle -/

theorem passes_iff (C : ConeCollection) (p : Nat × Nat) :
    C.passes p = true ↔
      ∃ mc, C.cell p.1 p.2 = some mc ∧ mc.Daughters = [] ∧ mc.multiplicity ≠ 1 := by
  unfold ConeCollection.passes
  cases hc : C.cell p.1 p.2 with
  | none => simp
  | some mc =>
    by_cases h1 : mc.multiplicity = 1
    · simp [h1]
    · simp [h1, List.isEmpty_iff]

theorem eligible_eq_filter (C : ConeCollection) :
    C.eligible = C.positions.filter C.passes := by
  unfold ConeCollection.eligible ConeCollection.positions
  rw [List.filter_flatMap]
  congr 1
  funext k
  rw [← List.filterMap_eq_filter, List.filterMap_map]
  congr 1
  funext i
  simp only [Function.comp, Option.guard]
  unfold ConeCollection.passes
  cases hc : C.cell k i with
  | none => simp [hc]
  | some mc =>
    by_cases h1 : mc.multiplicity = 1
    · simp [hc, h1]
    · cases hd : mc.Daughters with
      | nil => simp [hc, h1, hd]
      | cons a l => simp [hc, h1, hd]

theorem oracle_calls_loop_sublist (K : Kernel) (C : ConeCollection) (ps : List (Nat × Nat)) :
    List.Sublist (oracle_calls_loop K C ps) (ps.filter C.passes) := by
  induction ps with
  | nil => exact List.Sublist.refl _
  | cons p ps ih =>
    rw [oracle_calls_loop]
    cases hc : C.cell p.1 p.2 with
    | none =>
      have hp : C.passes p = false := by unfold ConeCollection.passes; rw [hc]
      rw [List.filter_cons_of_neg (by rw [hp]; simp)]
      exact ih
    | some mc =>
      simp only
      by_cases h1 : mc.multiplicity = 1
      · have hp : C.passes p = false := by unfold ConeCollection.passes; rw [hc]; simp [h1]
        rw [if_pos h1, List.filter_cons_of_neg (by rw [hp]; simp)]
        exact ih
      · rw [if_neg h1]
        by_cases h2 : ¬ mc.Daughters.isEmpty
        · have hp : C.passes p = false := by
            unfold ConeCollection.passes; rw [hc]; simpa [h1] using h2
          rw [if_pos h2, List.filter_cons_of_neg (by rw [hp]; simp)]
          exact ih
        · have hp : C.passes p = true := by
            unfold ConeCollection.passes; rw [hc]; simpa [h1] using h2
          rw [if_neg h2, List.filter_cons_of_pos hp]
          cases K.hilbert_basis (submatrix C.Generators mc.GenKeys) with
          | none =>
            exact List.Sublist.cons₂ _ (List.nil_sublist _)
          | some HB => exact List.Sublist.cons₂ _ ih

theorem oracle_calls_loop_complete (K : Kernel) (C : ConeCollection) (ps : List (Nat × Nat))
    (h : ∀ p ∈ ps, ∀ mc, C.cell p.1 p.2 = some mc → C.passes p = true →
      K.hilbert_basis (submatrix C.Generators mc.GenKeys) ≠ none) :
    oracle_calls_loop K C ps = ps.filter C.passes := by
  induction ps with
  | nil => rfl
  | cons p ps ih =>
    have ih1 := ih (fun q hq => h q (List.mem_cons_of_mem _ hq))
    rw [oracle_calls_loop]
    cases hc : C.cell p.1 p.2 with
    | none =>
      have hp : C.passes p = false := by unfold ConeCollection.passes; rw [hc]
      rw [List.filter_cons_of_neg (by rw [hp]; simp)]
      exact ih1
    | some mc =>
      simp only
      by_cases h1 : mc.multiplicity = 1
      · have hp : C.passes p = false := by unfold ConeCollection.passes; rw [hc]; simp [h1]
        rw [if_pos h1, List.filter_cons_of_neg (by rw [hp]; simp)]
        exact ih1
      · rw [if_neg h1]
        by_cases h2 : ¬ mc.Daughters.isEmpty
        · have hp : C.passes p = false := by
            unfold ConeCollection.passes; rw [hc]; simpa [h1] using h2
          rw [if_pos h2, List.filter_cons_of_neg (by rw [hp]; simp)]
          exact ih1
        · have hp : C.passes p = true := by
            unfold ConeCollection.passes; rw [hc]; simpa [h1] using h2
          rw [if_neg h2, List.filter_cons_of_pos hp]
          cases hb : K.hilbert_basis (submatrix C.Generators mc.GenKeys) with
          | none => exact absurd hb (h p (List.mem_cons_self _ _) mc hc hp)
          | some HB =>
            simp only
            rw [ih1]

theorem oracle_calls_loop_prefix (K : Kernel) (C : ConeCollection) (ps : List (Nat × Nat)) :
    ∃ rest, ps.filter C.passes = oracle_calls_loop K C ps ++ rest := by
  induction ps with
  | nil => exact ⟨[], rfl⟩
  | cons p ps ih =>
    obtain ⟨rest, hrest⟩ := ih
    rw [oracle_calls_loop]
    cases hc : C.cell p.1 p.2 with
    | none =>
      have hp : C.passes p = false := by unfold ConeCollection.passes; rw [hc]
      rw [List.filter_cons_of_neg (by rw [hp]; simp)]
      exact ⟨rest, hrest⟩
    | some mc =>
      simp only
      by_cases h1 : mc.multiplicity = 1
      · have hp : C.passes p = false := by unfold ConeCollection.passes; rw [hc]; simp [h1]
        rw [if_pos h1, List.filter_cons_of_neg (by rw [hp]; simp)]
        exact ⟨rest, hrest⟩
      · rw [if_neg h1]
        by_cases h2 : ¬ mc.Daughters.isEmpty
        · have hp : C.passes p = false := by
            unfold ConeCollection.passes; rw [hc]; simpa [h1] using h2
          rw [if_pos h2, List.filter_cons_of_neg (by rw [hp]; simp)]
          exact ⟨rest, hrest⟩
        · have hp : C.passes p = true := by
            unfold ConeCollection.passes; rw [hc]; simpa [h1] using h2
          rw [if_neg h2, List.filter_cons_of_pos hp]
          cases K.hilbert_basis (submatrix C.Generators mc.GenKeys) with
          | none => exact ⟨ps.filter C.passes, rfl⟩
          | some HB => exact ⟨rest, by simp only [List.cons_append]; rw [hrest]⟩

theorem oracle_calls_loop_failure (K : Kernel) (C : ConeCollection) (ps : List (Nat × Nat))
    (h : ∃ p ∈ ps, C.passes p = true ∧ collect_cell K C p = none) :
    ∃ p ∈ oracle_calls_loop K C ps, collect_cell K C p = none := by
  induction ps with
  | nil =>
    obtain ⟨p, hp, _⟩ := h
    cases hp
  | cons p ps ih =>
    have hrest : (∃ q ∈ ps, C.passes q = true ∧ collect_cell K C q = none) →
        ∃ q ∈ oracle_calls_loop K C ps, collect_cell K C q = none := ih
    have hsplit : (C.passes p = true ∧ collect_cell K C p = none) ∨
        ∃ q ∈ ps, C.passes q = true ∧ collect_cell K C q = none := by
      obtain ⟨q, hq, h1, h2⟩ := h
      rcases List.mem_cons.mp hq with rfl | hq
      · exact Or.inl ⟨h1, h2⟩
      · exact Or.inr ⟨q, hq, h1, h2⟩
    rw [oracle_calls_loop]
    cases hc : C.cell p.1 p.2 with
    | none =>
      have hp : C.passes p = false := by unfold ConeCollection.passes; rw [hc]
      rcases hsplit with h1 | h1
      · rw [hp] at h1
        exact absurd h1.1 (by simp)
      · exact hrest h1
    | some mc =>
      simp only
      by_cases h1 : mc.multiplicity = 1
      · have hp : C.passes p = false := by unfold ConeCollection.passes; rw [hc]; simp [h1]
        rw [if_pos h1]
        rcases hsplit with h3 | h3
        · rw [hp] at h3
          exact absurd h3.1 (by simp)
        · exact hrest h3
      · rw [if_neg h1]
        by_cases h2 : ¬ mc.Daughters.isEmpty
        · have hp : C.passes p = false := by
            unfold ConeCollection.passes; rw [hc]; simpa [h1] using h2
          rw [if_pos h2]
          rcases hsplit with h3 | h3
          · rw [hp] at h3
            exact absurd h3.1 (by simp)
          · exact hrest h3
        · rw [if_neg h2]
          cases hb : K.hilbert_basis (submatrix C.Generators mc.GenKeys) with
          | none =>
            refine ⟨p, List.mem_singleton_self _, ?_⟩
            unfold collect_cell
            rw [hc]
            simp only
            rw [hb]
          | some HB =>
            simp only
            rcases hsplit with h3 | h3
            · exact ⟨p, List.mem_cons_self _ _, h3.2⟩
            · obtain ⟨q, hq, hq2⟩ := hrest h3
              exact ⟨q, List.mem_cons_of_mem _ hq, hq2⟩

theorem positions_nodup (C : ConeCollection) : C.positions.Nodup := by
  unfold ConeCollection.positions
  rw [List.nodup_flatMap]
  constructor
  · intro k _
    exact (List.nodup_range _).map (fun a b h => by injection h)
  · apply List.Pairwise.imp_of_mem _ (List.nodup_range _)
    intro a b _ _ hab
    intro x
    simp only [List.mem_map, List.mem_range]
    rintro ⟨i, _, rfl⟩ ⟨i1, _, h⟩
    injection h with h1 _
    exact hab h1.symm

/-- C28. In a round of `make_unimodular` that starts in the state `C`, the
cells passed to the Hilbert basis computation are cells with empty `Daughters`
and multiplicity different from 1, each passed once; no cell with multiplicity
1 and no cell with daughters is passed.  The calls follow the order of the
cells that pass the two guards, and they are all of these cells when no
computation throws; a computation that throws ends the round.  The list
`AllHilbs` of the round is assembled from the results for exactly the cells
passed. -/
theorem oracle_called_on_eligible (K : Kernel) (C : ConeCollection) :
    (∀ k i, (k, i) ∈ C.oracle_calls K →
      ∃ mc, C.cell k i = some mc ∧ mc.Daughters = [] ∧ mc.multiplicity ≠ 1) ∧
    (C.oracle_calls K).Nodup ∧
    (∃ rest, C.eligible = C.oracle_calls K ++ rest) ∧
    (C.collect K ≠ none → C.oracle_calls K = C.eligible ∧
      ∀ k i mc, C.cell k i = some mc → mc.Daughters = [] → mc.multiplicity ≠ 1 →
        (k, i) ∈ C.oracle_calls K) ∧
    C.collect K = collect_loop K C (C.oracle_calls K) [] := by
  have hsub := oracle_calls_loop_sublist K C C.positions
  have hall : C.collect K ≠ none → C.oracle_calls K = C.eligible := by
    intro hne
    rw [eligible_eq_filter]
    apply oracle_calls_loop_complete
    intro p _ mc hc hp hb
    apply hne
    rw [collect_none_iff]
    obtain ⟨mc1, h1, h2, h3⟩ := (passes_iff C p).mp hp
    rw [hc] at h1
    injection h1 with h1
    subst h1
    exact ⟨p.1, p.2, mc, hc, h3, h2, hb⟩
  refine ⟨?_, ?_, ?_, ?_, ?_⟩
  · intro k i hki
    have := hsub.subset hki
    rw [List.mem_filter] at this
    exact (passes_iff C (k, i)).mp this.2
  · exact ((positions_nodup C).filter _).sublist hsub
  · rw [eligible_eq_filter]
    exact oracle_calls_loop_prefix K C C.positions
  · intro hne
    refine ⟨hall hne, ?_⟩
    intro k i mc hc hd hm
    rw [hall hne, mem_eligible]
    exact ⟨mc, hc, hm, hd⟩
  · by_cases hne : C.collect K = none
    · rw [hne]
      symm
      rw [collect_loop_none]
      unfold ConeCollection.collect at hne
      rw [collect_loop_none] at hne
      obtain ⟨p, hp, hp2⟩ := hne
      apply oracle_calls_loop_failure
      rw [eligible_eq_filter, List.mem_filter] at hp
      exact ⟨p, hp.1, hp.2, hp2⟩
    · rw [hall hne]
      rfl

set_option maxRecDepth 20000 in
/-- Witness for `oracle_called_on_eligible`: in the first round on
`quadrant_forest` the oracle is called for the cell of multiplicity 2 and not
for the cell of multiplicity 1. -/
theorem oracle_called_on_eligible_witness :
    quadrant_forest.collect (exactKernel quadrant_oracle) ≠ none ∧
    quadrant_forest.oracle_calls (exactKernel quadrant_oracle) = [(0, 0)] ∧
    (quadrant_forest.Members.getD 0 []).map (fun mc => (mc.multiplicity, mc.Daughters))
      = [(2, []), (1, [])] ∧
    quadrant_forest.oracle_calls (exactKernel quadrant_oracle) = quadrant_forest.eligible :=
  ⟨by decide, rfl, rfl,
    ((oracle_called_on_eligible (exactKernel quadrant_oracle) quadrant_forest).2.2.2.1
      (by decide)).1⟩



/-! ## Trees and the cells below a cell -/

theorem below_unique (C : ConeCollection) (hW : Wood C) :
    ∀ (n k p p1 q : Nat), below C n k p q → below C n k p1 q → p = p1 := by
  intro n
  induction n with
  | zero =>
    intro k p p1 q h h1
    rw [below] at h h1
    rw [← h, ← h1]
  | succ n ih =>
    intro k p p1 q h h1
    rw [below] at h h1
    obtain ⟨mp, d, a1, a2, a3⟩ := h
    obtain ⟨mp1, d1, b1, b2, b3⟩ := h1
    have hd := ih (k + 1) d d1 q a3 b3
    subst hd
    exact hW.one_parent k p p1 mp mp1 d a1 b1 a2 b2

theorem below_snoc (C : ConeCollection) :
    ∀ (n k p x e : Nat) (mx : MiniCone), below C n k p x → C.cell (k + n) x = some mx →
      e ∈ mx.Daughters → below C (n + 1) k p e := by
  intro n
  induction n with
  | zero =>
    intro k p x e mx h hx he
    rw [below] at h
    subst h
    exact ⟨mx, e, hx, he, rfl⟩
  | succ n ih =>
    intro k p x e mx h hx he
    rw [below] at h
    obtain ⟨mp, d, a1, a2, a3⟩ := h
    have hx1 : C.cell (k + 1 + n) x = some mx := by
      rw [show k + 1 + n = k + (n + 1) by omega]
      exact hx
    exact ⟨mp, d, a1, a2, ih (k + 1) d x e mx a3 hx1 he⟩

/-- The cells below a cell are cells. -/
theorem below_cell (C : ConeCollection) (hW : Wood C) :
    ∀ (n k p q : Nat), (∃ m, C.cell k p = some m) → below C n k p q →
      ∃ m, C.cell (k + n) q = some m := by
  intro n
  induction n with
  | zero =>
    intro k p q hp h
    rw [below] at h
    subst h
    exact hp
  | succ n ih =>
    intro k p q _ h
    rw [below] at h
    obtain ⟨mp, d, a1, a2, a3⟩ := h
    have hd := cell_of_lt C (k + 1) d (hW.daughters_lt k p mp a1 d a2)
    have := ih (k + 1) d q hd a3
    rw [show k + 1 + n = k + (n + 1) by omega] at this
    exact this

/-- The cells below a cell are the same in two forests in which the cells have
the same daughters. -/
theorem below_of_same (C R : ConeCollection)
    (h : ∀ l q Y, R.cell l q = some Y → ∃ Y0, C.cell l q = some Y0 ∧ Y0.Daughters = Y.Daughters) :
    ∀ (n k p q : Nat), below R n k p q → below C n k p q := by
  intro n
  induction n with
  | zero => intro k p q hb; exact hb
  | succ n ih =>
    intro k p q hb
    rw [below] at hb ⊢
    obtain ⟨mp, d, a1, a2, a3⟩ := hb
    obtain ⟨Y0, b1, b2⟩ := h k p mp a1
    exact ⟨Y0, d, b1, by rw [b2]; exact a2, ih (k + 1) d q a3⟩

/-- A change of the forest that keeps the number of cells of every level and,
for every cell, its daughters and its stored position, keeps the trees. -/
theorem wood_of_same (C R : ConeCollection) (hW : Wood C)
    (hlen : ∀ l, (R.Members.getD l []).length = (C.Members.getD l []).length)
    (hcells : ∀ l q Y, C.cell l q = some Y → ∃ Y1, R.cell l q = some Y1 ∧
      Y1.Daughters = Y.Daughters ∧ Y1.level = Y.level ∧ Y1.my_place = Y.my_place) :
    Wood R := by
  have hback : ∀ l q Y1, R.cell l q = some Y1 → ∃ Y, C.cell l q = some Y ∧
      Y1.Daughters = Y.Daughters ∧ Y1.level = Y.level ∧ Y1.my_place = Y.my_place := by
    intro l q Y1 hY1
    have hq := (cell_lt R l q Y1 hY1).2
    rw [hlen] at hq
    obtain ⟨Y, hY⟩ := cell_of_lt C l q hq
    obtain ⟨Y2, hY2, h1, h2, h3⟩ := hcells l q Y hY
    rw [hY1] at hY2
    injection hY2 with hY2
    subst hY2
    exact ⟨Y, hY, h1, h2, h3⟩
  refine ⟨?_, ?_, ?_, ?_, ?_⟩
  · intro l q Y1 hY1
    obtain ⟨Y, hY, _, h2, h3⟩ := hback l q Y1 hY1
    rw [h2, h3]
    exact hW.coords l q Y hY
  · intro l q Y1 hY1 d hd
    obtain ⟨Y, hY, h1, _⟩ := hback l q Y1 hY1
    rw [hlen]
    rw [h1] at hd
    exact hW.daughters_lt l q Y hY d hd
  · intro l q Y1 hY1
    obtain ⟨Y, hY, h1, _⟩ := hback l q Y1 hY1
    rw [h1]
    exact hW.nodup l q Y hY
  · intro l p p1 mp mp1 d hmp hmp1 hd hd1
    obtain ⟨Y, hY, h1, _⟩ := hback l p mp hmp
    obtain ⟨Y1, hY1, h2, _⟩ := hback l p1 mp1 hmp1
    rw [h1] at hd
    rw [h2] at hd1
    exact hW.one_parent l p p1 Y Y1 d hY hY1 hd hd1
  · intro l i hi
    rw [hlen] at hi
    obtain ⟨p, mp, hmp, hd⟩ := hW.has_parent l i hi
    obtain ⟨Y1, hY1, h1, _⟩ := hcells l p mp hmp
    exact ⟨p, Y1, hY1, by rw [h1]; exact hd⟩

theorem cache_facets_same (K : Kernel) (C : ConeCollection) (lvl plc : Nat) :
    ∀ l q Y, C.cell l q = some Y → ∃ Y1, (C.cache_facets K lvl plc).cell l q = some Y1 ∧
      Y1.Daughters = Y.Daughters ∧ Y1.level = Y.level ∧ Y1.my_place = Y.my_place := by
  intro l q Y hY
  by_cases h : l = lvl ∧ q = plc
  · obtain ⟨rfl, rfl⟩ := h
    exact ⟨_, cache_facets_cell K C l q Y hY, rfl, rfl, rfl⟩
  · exact ⟨Y, by rw [cache_facets_other K C lvl plc l q h]; exact hY, rfl, rfl, rfl⟩

theorem wood_cache (K : Kernel) (C : ConeCollection) (lvl plc : Nat) (hW : Wood C) :
    Wood (C.cache_facets K lvl plc) :=
  wood_of_same C _ hW (fun l => updateCell_level_length C lvl plc _ l)
    (cache_facets_same K C lvl plc)

theorem wood_ensure_level (C : ConeCollection) (hW : Wood C) : Wood C.ensure_level :=
  wood_of_same C _ hW (grown_ensure_level C).lengths
    (fun l q Y hY => ⟨Y, by rw [cell_ensure_level]; exact hY, rfl, rfl, rfl⟩)

theorem wood_append_gen (C : ConeCollection) (v : Vec) (hW : Wood C) :
    Wood { C with Generators := C.Generators ++ [v] } :=
  wood_of_same C _ hW (fun _ => rfl) (fun _ _ Y hY => ⟨Y, hY, rfl, rfl, rfl⟩)

/-- The daughters of a cell after an `add_minicone` below `(k, p)`: those it
had, and the position of the new cell for the mother. -/
theorem daughters_add_minicone (C : ConeCollection) (k p : Nat) (GKeys : List Nat)
    (mult : Int) (l q : Nat) (Y : MiniCone)
    (h : (C.add_minicone (k + 1) p GKeys mult).cell l q = some Y) (d : Nat)
    (hd : d ∈ Y.Daughters) :
    (∃ Y0, C.cell l q = some Y0 ∧ d ∈ Y0.Daughters) ∨
      (l = k ∧ q = p ∧ d = (C.Members.getD (k + 1) []).length) := by
  rcases cell_add_minicone_cases C k p _ _ l q Y h with
    ⟨_, _, _, rfl⟩ | ⟨h1, h2, m, hm, rfl⟩ | ⟨_, hc⟩
  · cases hd
  · rcases List.mem_append.mp hd with hd | hd
    · left
      rw [h1, h2]
      exact ⟨m, hm, hd⟩
    · right
      exact ⟨h1, h2, List.mem_singleton.mp hd⟩
  · exact Or.inl ⟨Y, hc, hd⟩

/-- An `add_minicone` below a cell, into a level that exists, keeps the trees. -/
theorem wood_add_minicone (C : ConeCollection) (k p : Nat) (GKeys : List Nat) (mult : Int)
    (m : MiniCone) (hW : Wood C) (hm : C.cell k p = some m)
    (hk : k + 1 < C.Members.length) : Wood (C.add_minicone (k + 1) p GKeys mult) := by
  have hlen := add_minicone_level_length C k p GKeys mult hk
  have hext := extends_add_minicone C k p GKeys mult
  refine ⟨coords_ok_add_minicone C k p _ _ hW.coords, ?_, ?_, ?_, ?_⟩
  · intro l q Y hY d hd
    rw [hlen]
    rcases daughters_add_minicone C k p _ _ l q Y hY d hd with ⟨Y0, h0, hd0⟩ | ⟨h1, _, h3⟩
    · have := hW.daughters_lt l q Y0 h0 d hd0
      omega
    · rw [h1, if_pos rfl, h3]
      omega
  · intro l q Y hY
    rcases cell_add_minicone_cases C k p _ _ l q Y hY with
      ⟨_, _, _, rfl⟩ | ⟨_, _, m1, hm1, rfl⟩ | ⟨_, hc⟩
    · exact List.nodup_nil
    · show (m1.Daughters ++ [(C.Members.getD (k + 1) []).length]).Nodup
      rw [List.nodup_append]
      refine ⟨hW.nodup k p m1 hm1, List.nodup_singleton _, ?_⟩
      intro a ha hb
      rw [List.mem_singleton] at hb
      have := hW.daughters_lt k p m1 hm1 a ha
      omega
    · exact hW.nodup l q Y hc
  · intro l q q1 Y Y1 d hY hY1 hd hd1
    rcases daughters_add_minicone C k p _ _ l q Y hY d hd with ⟨Y0, h0, hd0⟩ | ⟨a1, a2, a3⟩
    · rcases daughters_add_minicone C k p _ _ l q1 Y1 hY1 d hd1 with
        ⟨Y2, h2, hd2⟩ | ⟨b1, _, b3⟩
      · exact hW.one_parent l q q1 Y0 Y2 d h0 h2 hd0 hd2
      · have := hW.daughters_lt l q Y0 h0 d hd0
        rw [b1] at this
        omega
    · rcases daughters_add_minicone C k p _ _ l q1 Y1 hY1 d hd1 with
        ⟨Y2, h2, hd2⟩ | ⟨_, b2, _⟩
      · have := hW.daughters_lt l q1 Y2 h2 d hd2
        rw [a1] at this
        omega
      · rw [a2, b2]
  · intro l i hi
    rw [hlen] at hi
    by_cases hnew : l = k ∧ i = (C.Members.getD (k + 1) []).length
    · obtain ⟨rfl, rfl⟩ := hnew
      exact ⟨p, _, cell_add_minicone_mother C l p _ _ m hm,
        List.mem_append_right _ (List.mem_singleton_self _)⟩
    · have hi0 : i < (C.Members.getD (l + 1) []).length := by
        by_cases hl : l + 1 = k + 1
        · rw [if_pos hl] at hi
          have : l = k := by omega
          subst this
          have : i ≠ (C.Members.getD (l + 1) []).length := fun h => hnew ⟨rfl, h⟩
          omega
        · rw [if_neg hl] at hi
          exact hi
      obtain ⟨p0, mp0, h0, hd0⟩ := hW.has_parent l i hi0
      obtain ⟨mp1, E, b1, _, _, _, _, _, b7⟩ := hext l p0 mp0 h0
      exact ⟨p0, mp1, b1, by rw [b7]; exact List.mem_append_left _ hd0⟩

/-! ## The polls of an interruptible call -/

theorem facet_loop_poll_spec (flag : Nat → Bool) (v : Vec) :
    ∀ (SH : Mat) (i : Nat) (opp : List Nat) (t : Nat),
      match facet_loop_poll flag v SH i opp t with
      | FacetRun.interrupted t1 =>
        t ≤ t1 ∧ flag t1 = true ∧ ∀ s, t ≤ s → s < t1 → flag s = false
      | FacetRun.outside t1 =>
        facet_loop v SH i opp = none ∧ t ≤ t1 ∧ ∀ s, t ≤ s → s < t1 → flag s = false
      | FacetRun.opposite o t1 =>
        facet_loop v SH i opp = some o ∧ t ≤ t1 ∧ ∀ s, t ≤ s → s < t1 → flag s = false := by
  intro SH
  induction SH with
  | nil =>
    intro i opp t
    rw [facet_loop_poll, facet_loop]
    exact ⟨rfl, le_refl _, fun s h1 h2 => by omega⟩
  | cons h hs ih =>
    intro i opp t
    rw [facet_loop_poll, facet_loop]
    by_cases hf : flag t = true
    · rw [if_pos hf]
      exact ⟨le_refl _, hf, fun s h1 h2 => by omega⟩
    · rw [if_neg hf]
      have hclear : ∀ t1, t + 1 ≤ t1 → (∀ s, t + 1 ≤ s → s < t1 → flag s = false) →
          ∀ s, t ≤ s → s < t1 → flag s = false := by
        intro t1 _ hc s h1 h2
        by_cases hs : s = t
        · rw [hs]
          simpa using hf
        · exact hc s (by omega) h2
      by_cases hneg : v_scalar_product v h < 0
      · rw [if_pos hneg, if_pos hneg]
        exact ⟨rfl, by omega, hclear (t + 1) (le_refl _) (fun s h1 h2 => by omega)⟩
      · rw [if_neg hneg, if_neg hneg]
        by_cases hz : v_scalar_product v h = 0
        · rw [if_pos hz, if_pos hz]
          have := ih (i + 1) opp (t + 1)
          split at this
          · exact ⟨by omega, this.2.1, hclear _ this.1 this.2.2⟩
          · exact ⟨this.1, by omega, hclear _ this.2.1 this.2.2⟩
          · exact ⟨this.1, by omega, hclear _ this.2.1 this.2.2⟩
        · rw [if_neg hz, if_neg hz]
          have := ih (i + 1) (opp ++ [i]) (t + 1)
          split at this
          · exact ⟨by omega, this.2.1, hclear _ this.1 this.2.2⟩
          · exact ⟨this.1, by omega, hclear _ this.2.1 this.2.2⟩
          · exact ⟨this.1, by omega, hclear _ this.2.1 this.2.2⟩

/-- The subdivision loop that polls the flag has made the passes for a first
part of the list `opposite_facets`: for all of it when it returns, and it is
interrupted by a poll that finds the flag set. -/
theorem subdivide_loop_poll_spec (flag : Nat → Bool) (K : Kernel) (key : Nat) (mc : MiniCone) :
    ∀ (opp : List Nat) (C : ConeCollection) (t : Nat),
      match subdivide_loop_poll flag K key mc opp C t with
      | Polled.returned R t1 =>
        R = opp.foldl (subdivide_step K key mc) C ∧ t ≤ t1 ∧
          ∀ s, t ≤ s → s < t1 → flag s = false
      | Polled.interrupted R t1 =>
        (∃ done rest, opp = done ++ rest ∧ rest ≠ [] ∧
          R = done.foldl (subdivide_step K key mc) C) ∧
        t ≤ t1 ∧ flag t1 = true ∧ ∀ s, t ≤ s → s < t1 → flag s = false := by
  intro opp
  induction opp with
  | nil =>
    intro C t
    rw [subdivide_loop_poll]
    exact ⟨rfl, le_refl _, fun s h1 h2 => by omega⟩
  | cons j js ih =>
    intro C t
    rw [subdivide_loop_poll]
    by_cases hf : flag t = true
    · rw [if_pos hf]
      exact ⟨⟨[], j :: js, rfl, List.cons_ne_nil _ _, rfl⟩, le_refl _, hf,
        fun s h1 h2 => by omega⟩
    · rw [if_neg hf]
      have hclear : ∀ t1, (∀ s, t + 1 ≤ s → s < t1 → flag s = false) →
          ∀ s, t ≤ s → s < t1 → flag s = false := by
        intro t1 hc s h1 h2
        by_cases hs : s = t
        · rw [hs]
          simpa using hf
        · exact hc s (by omega) h2
      have := ih (subdivide_step K key mc C j) (t + 1)
      split at this
      · exact ⟨this.1, by omega, hclear _ this.2.2⟩
      · obtain ⟨⟨done, rest, h1, h2, h3⟩, h4, h5, h6⟩ := this
        exact ⟨⟨j :: done, rest, by rw [h1]; rfl, h2, h3⟩, by omega, h5, hclear _ h6⟩

theorem refine_poll_zero (flag : Nat → Bool) (K : Kernel) (key lvl plc : Nat)
    (C : ConeCollection) (t : Nat) :
    MiniCone.refine_poll flag K key 0 lvl plc C t = Polled.returned C t := by
  rw [MiniCone.refine_poll]

theorem refine_poll_no_cell (flag : Nat → Bool) (K : Kernel) (key fuel lvl plc : Nat)
    (C : ConeCollection) (t : Nat) (hc : C.cell lvl plc = none) :
    MiniCone.refine_poll flag K key fuel lvl plc C t = Polled.returned C t := by
  cases fuel with
  | zero => exact refine_poll_zero flag K key lvl plc C t
  | succ fuel =>
    rw [MiniCone.refine_poll]
    simp only [hc]

theorem refine_poll_succ (flag : Nat → Bool) (K : Kernel) (key fuel lvl plc : Nat)
    (C : ConeCollection) (t : Nat) (mc : MiniCone) (hc : C.cell lvl plc = some mc) :
    MiniCone.refine_poll flag K key (fuel + 1) lvl plc C t =
      match facet_loop_poll flag (row C.Generators key) (mc.hyperplanes K C.Generators) 0 []
          t with
      | FacetRun.interrupted t1 => Polled.interrupted (C.cache_facets K lvl plc) t1
      | FacetRun.outside t1 => Polled.returned (C.cache_facets K lvl plc) t1
      | FacetRun.opposite opp t1 =>
        if opp.length = 1 then Polled.returned (C.cache_facets K lvl plc) t1
        else if mc.Daughters.length > 0 then
          mc.Daughters.foldl
            (fun r d => r.andThen (MiniCone.refine_poll flag K key fuel (mc.level + 1) d))
            (Polled.returned (C.cache_facets K lvl plc) t1)
        else subdivide_loop_poll flag K key mc opp (C.cache_facets K lvl plc) t1 := by
  have hcf : C.updateCell lvl plc
      (fun m => { m with SupportHyperplanes := mc.hyperplanes K C.Generators })
      = C.cache_facets K lvl plc := by
    unfold ConeCollection.cache_facets
    apply updateCell_congr
    intro m hm
    rw [hc] at hm
    injection hm with hm
    subst hm
    rfl
  rw [MiniCone.refine_poll]
  simp only [hc, hcf]

theorem andThen_returned (C : ConeCollection) (t : Nat)
    (f : ConeCollection → Nat → Polled) : (Polled.returned C t).andThen f = f C t := rfl

theorem fold_andThen_interrupted (f : Nat → ConeCollection → Nat → Polled) (ds : List Nat)
    (C : ConeCollection) (t : Nat) :
    ds.foldl (fun r d => r.andThen (f d)) (Polled.interrupted C t) = Polled.interrupted C t := by
  induction ds with
  | nil => rfl
  | cons d ds ih =>
    rw [List.foldl_cons]
    exact ih

/-- What the polls tell about a call of `MiniCone::refine`: the call returns
only when every poll it made found the flag clear, and then it returns the
forest of the call without polls; it is interrupted by the first poll that
finds the flag set. -/
theorem refine_poll_spec (flag : Nat → Bool) (K : Kernel) (key : Nat) :
    ∀ (fuel lvl plc : Nat) (C : ConeCollection) (t : Nat),
      match MiniCone.refine_poll flag K key fuel lvl plc C t with
      | Polled.returned R t1 =>
        R = MiniCone.refine K key fuel lvl plc C ∧ t ≤ t1 ∧
          ∀ s, t ≤ s → s < t1 → flag s = false
      | Polled.interrupted _ t1 =>
        t ≤ t1 ∧ flag t1 = true ∧ ∀ s, t ≤ s → s < t1 → flag s = false := by
  intro fuel
  induction fuel with
  | zero =>
    intro lvl plc C t
    rw [refine_poll_zero, refine_zero]
    exact ⟨rfl, le_refl _, fun s h1 h2 => by omega⟩
  | succ fuel ih =>
    intro lvl plc C t
    cases hc : C.cell lvl plc with
    | none =>
      rw [refine_poll_no_cell _ _ _ _ _ _ _ _ hc, refine_no_cell _ _ _ _ _ _ hc]
      exact ⟨rfl, le_refl _, fun s h1 h2 => by omega⟩
    | some mc =>
      rw [refine_poll_succ flag K key fuel lvl plc C t mc hc,
        refine_succ K key fuel lvl plc C mc hc]
      have hfl := facet_loop_poll_spec flag (row C.Generators key)
        (mc.hyperplanes K C.Generators) 0 [] t
      split at hfl
      · exact hfl
      · obtain ⟨h1, h2, h3⟩ := hfl
        rw [h1]
        exact ⟨rfl, h2, h3⟩
      · rename_i opp t1 _
        obtain ⟨h1, h2, h3⟩ := hfl
        rw [h1]
        simp only
        by_cases hone : opp.length = 1
        · rw [if_pos hone, if_pos hone]
          exact ⟨rfl, h2, h3⟩
        · rw [if_neg hone, if_neg hone]
          by_cases hd : mc.Daughters.length > 0
          · rw [if_pos hd, if_pos hd]
            have hloop : ∀ (ds : List Nat) (C2 : ConeCollection) (t2 : Nat),
                match ds.foldl (fun r d => r.andThen
                  (MiniCone.refine_poll flag K key fuel (mc.level + 1) d))
                  (Polled.returned C2 t2) with
                | Polled.returned R t3 =>
                  R = ds.foldl (fun C3 d => MiniCone.refine K key fuel (mc.level + 1) d C3) C2 ∧
                    t2 ≤ t3 ∧ ∀ s, t2 ≤ s → s < t3 → flag s = false
                | Polled.interrupted _ t3 =>
                  t2 ≤ t3 ∧ flag t3 = true ∧ ∀ s, t2 ≤ s → s < t3 → flag s = false := by
              intro ds
              induction ds with
              | nil =>
                intro C2 t2
                exact ⟨rfl, le_refl _, fun s h1 h2 => by omega⟩
              | cons d ds ihd =>
                intro C2 t2
                rw [List.foldl_cons, List.foldl_cons]
                have h4 := ih (mc.level + 1) d C2 t2
                cases hr : MiniCone.refine_poll flag K key fuel (mc.level + 1) d C2 t2 with
                | interrupted R4 t4 =>
                  rw [hr] at h4
                  rw [andThen_returned, hr, fold_andThen_interrupted]
                  exact h4
                | returned R4 t4 =>
                  rw [hr] at h4
                  rw [andThen_returned, hr]
                  obtain ⟨a1, a2, a3⟩ := h4
                  have h5 := ihd R4 t4
                  rw [← a1]
                  have hjoin : ∀ t5, t4 ≤ t5 → (∀ s, t4 ≤ s → s < t5 → flag s = false) →
                      ∀ s, t2 ≤ s → s < t5 → flag s = false := by
                    intro t5 _ hc5 s b1 b2
                    by_cases hs : s < t4
                    · exact a3 s b1 hs
                    · exact hc5 s (by omega) b2
                  split at h5
                  · exact ⟨h5.1, by omega, hjoin _ h5.2.1 h5.2.2⟩
                  · exact ⟨by omega, h5.2.1, hjoin _ h5.1 h5.2.2⟩
            have h6 := hloop mc.Daughters (C.cache_facets K lvl plc) t1
            have hjoin : ∀ t5, t1 ≤ t5 → (∀ s, t1 ≤ s → s < t5 → flag s = false) →
                ∀ s, t ≤ s → s < t5 → flag s = false := by
              intro t5 _ hc5 s b1 b2
              by_cases hs : s < t1
              · exact h3 s b1 hs
              · exact hc5 s (by omega) b2
            split at h6
            · exact ⟨h6.1, by omega, hjoin _ h6.2.1 h6.2.2⟩
            · exact ⟨by omega, h6.2.1, hjoin _ h6.1 h6.2.2⟩
          · rw [if_neg hd, if_neg hd]
            have h7 := subdivide_loop_poll_spec flag K key mc opp (C.cache_facets K lvl plc) t1
            have hjoin : ∀ t5, t1 ≤ t5 → (∀ s, t1 ≤ s → s < t5 → flag s = false) →
                ∀ s, t ≤ s → s < t5 → flag s = false := by
              intro t5 _ hc5 s b1 b2
              by_cases hs : s < t1
              · exact h3 s b1 hs
              · exact hc5 s (by omega) b2
            split at h7
            · exact ⟨h7.1, by omega, hjoin _ h7.2.1 h7.2.2⟩
            · exact ⟨by omega, h7.2.2.1, hjoin _ h7.2.1 h7.2.2.2⟩

/-! ## The state of the forest in the course of a walk -/

theorem walk_cache (K : Kernel) (N : Nat → Nat) (C : ConeCollection) (lvl plc : Nat)
    (h : Walk N C) : Walk N (C.cache_facets K lvl plc) := by
  refine ⟨wood_cache K C lvl plc h.wood, ?_, ?_, ?_⟩
  · intro k
    rw [show ((C.cache_facets K lvl plc).Members.getD k []).length
      = (C.Members.getD k []).length from updateCell_level_length C lvl plc _ k]
    exact h.old_le k
  · intro k i Y hY hN
    obtain ⟨m, hm, _, _, a3, _⟩ := cache_facets_back K C lvl plc k i Y hY
    rw [a3]
    exact h.new_leaf k i m hm hN
  · intro i Y hY
    rw [cache_facets_members_length] at hY ⊢
    obtain ⟨m, hm, _⟩ := cache_facets_back K C lvl plc _ i Y hY
    exact h.last_new i m hm

/-- A cell that existed as the operation began is not in the last level. -/
theorem walk_next_level (N : Nat → Nat) (C : ConeCollection) (k p : Nat) (m : MiniCone)
    (h : Walk N C) (hm : C.cell k p = some m) (hold : p < N k) :
    k + 1 < C.Members.length := by
  have hk := (cell_lt C k p m hm).1
  by_contra hge
  have hlast : C.Members.length - 1 = k := by omega
  have := h.last_new p m (by rw [hlast]; exact hm)
  rw [hlast] at this
  omega

theorem walk_add_minicone (N : Nat → Nat) (C : ConeCollection) (k p : Nat)
    (GKeys : List Nat) (mult : Int) (m : MiniCone) (h : Walk N C)
    (hm : C.cell k p = some m) (hold : p < N k) :
    Walk N (C.add_minicone (k + 1) p GKeys mult) := by
  have hk := walk_next_level N C k p m h hm hold
  have hlen := add_minicone_level_length C k p GKeys mult hk
  refine ⟨wood_add_minicone C k p GKeys mult m h.wood hm hk, ?_, ?_, ?_⟩
  · intro l
    rw [hlen]
    have := h.old_le l
    omega
  · intro l q Y hY hN
    rcases cell_add_minicone_cases C k p _ _ l q Y hY with
      ⟨_, _, _, rfl⟩ | ⟨h1, h2, _, _, _⟩ | ⟨_, hc⟩
    · rfl
    · rw [h1, h2] at hN
      omega
    · exact h.new_leaf l q Y hc hN
  · intro i Y hY
    rw [add_minicone_members_length] at hY ⊢
    rcases cell_add_minicone_cases C k p _ _ _ i Y hY with
      ⟨h1, h2, _, _⟩ | ⟨h1, _, _, _, _⟩ | ⟨_, hc⟩
    · rw [h1, h2]
      exact h.old_le (k + 1)
    · omega
    · exact h.last_new i Y hc

theorem subdivide_fold_members_length (K : Kernel) (key : Nat) (mc : MiniCone) :
    ∀ (l : List Nat) (C : ConeCollection),
      (l.foldl (subdivide_step K key mc) C).Members.length = C.Members.length := by
  intro l
  induction l with
  | nil => intro C; rfl
  | cons j l ih =>
    intro C
    rw [List.foldl_cons, ih]
    exact add_minicone_members_length C _ _ _ _

theorem subdivide_fold_other (K : Kernel) (key : Nat) (mc : MiniCone) :
    ∀ (l : List Nat) (C : ConeCollection) (k q : Nat) (m : MiniCone), C.cell k q = some m →
      ¬ (k = mc.level ∧ q = mc.my_place) →
      (l.foldl (subdivide_step K key mc) C).cell k q = some m := by
  intro l
  induction l with
  | nil => intro C k q m h _; exact h
  | cons j l ih =>
    intro C k q m h hne
    rw [List.foldl_cons]
    exact ih _ k q m (cell_add_minicone_other C mc.level mc.my_place _ _ k q m h hne) hne

theorem walk_subdivide_fold (K : Kernel) (key : Nat) (mc : MiniCone) (N : Nat → Nat) :
    ∀ (l : List Nat) (C : ConeCollection), Walk N C →
      (∃ m, C.cell mc.level mc.my_place = some m) → mc.my_place < N mc.level →
      Walk N (l.foldl (subdivide_step K key mc) C) := by
  intro l
  induction l with
  | nil => intro C h _ _; exact h
  | cons j l ih =>
    intro C h hm hold
    obtain ⟨m, hm⟩ := hm
    rw [List.foldl_cons]
    exact ih _ (walk_add_minicone N C mc.level mc.my_place _ _ m h hm hold)
      ⟨_, cell_add_minicone_mother C mc.level mc.my_place _ _ m hm⟩ hold

theorem apart_of_same (C R : ConeCollection) (k p : Nat)
    (h : ∀ l q Y, C.cell l q = some Y → ∃ Y1, R.cell l q = some Y1 ∧
      Y1.Daughters = Y.Daughters ∧ Y1.level = Y.level ∧ Y1.my_place = Y.my_place) :
    Apart C R k p := by
  intro l q m hm _
  obtain ⟨Y1, h1, h2, _⟩ := h l q m hm
  exact ⟨Y1, h1, h2⟩

/-- The cells below a cell `d1` are not touched by a change below another cell
`d` of the same level. -/
theorem below_transfer (C2 C3 : ConeCollection) (k0 d d1 : Nat) (hW : Wood C2)
    (hA : Apart C2 C3 k0 d) (hne : d1 ≠ d) :
    ∀ (n m x q : Nat), below C2 m k0 d1 x → (∃ mx, C2.cell (k0 + m) x = some mx) →
      below C3 n (k0 + m) x q → below C2 n (k0 + m) x q := by
  intro n
  induction n with
  | zero => intro m x q _ _ h; exact h
  | succ n ih =>
    intro m x q hx hcx h
    rw [below] at h ⊢
    obtain ⟨mp3, e, a1, a2, a3⟩ := h
    obtain ⟨mx, hmx⟩ := hcx
    have hnot : ∀ n1, k0 + m = k0 + n1 → ¬ below C2 n1 k0 d x := by
      intro n1 hn1 hb
      have : n1 = m := by omega
      subst this
      exact hne (below_unique C2 hW _ k0 d1 d x hx hb)
    obtain ⟨m1, b1, b2⟩ := hA (k0 + m) x mx hmx hnot
    rw [a1] at b1
    injection b1 with b1
    subst b1
    rw [b2] at a2
    have he : below C2 (m + 1) k0 d1 e := below_snoc C2 m k0 d1 x e mx hx hmx a2
    have hce := cell_of_lt C2 (k0 + m + 1) e (hW.daughters_lt (k0 + m) x mx hmx e a2)
    have := ih (m + 1) e q he (by rw [show k0 + (m + 1) = k0 + m + 1 by omega]; exact hce)
      (by rw [show k0 + (m + 1) = k0 + m + 1 by omega]; exact a3)
    rw [show k0 + (m + 1) = k0 + m + 1 by omega] at this
    exact ⟨mx, e, hmx, a2, this⟩

theorem clean_transfer (N : Nat → Nat) (C2 C3 : ConeCollection) (k0 d d1 : Nat) (hW : Wood C2)
    (hA : Apart C2 C3 k0 d) (hne : d1 ≠ d) (hc : ∃ m, C2.cell k0 d1 = some m)
    (h : Clean N C2 k0 d1) : Clean N C3 k0 d1 := by
  intro n q hb
  apply h n q
  exact below_transfer C2 C3 k0 d d1 hW hA hne n 0 d1 q rfl hc hb

/-- The loop over the daughters of a cell, given what a call on one cell does. -/
theorem walk_daughters (flag : Nat → Bool) (K : Kernel) (key fuel : Nat) (N : Nat → Nat)
    (k1 : Nat)
    (ih : ∀ (plc : Nat) (C : ConeCollection) (t : Nat), Walk N C → Clean N C k1 plc →
      ∀ R t1, (MiniCone.refine_poll flag K key fuel k1 plc C t = Polled.returned R t1 ∨
          MiniCone.refine_poll flag K key fuel k1 plc C t = Polled.interrupted R t1) →
        Walk N R ∧ Extends C R ∧ Apart C R k1 plc ∧ R.Members.length = C.Members.length) :
    ∀ (ds : List Nat) (C2 : ConeCollection) (t2 : Nat), ds.Nodup → Walk N C2 →
      (∀ d ∈ ds, Clean N C2 k1 d) → (∀ d ∈ ds, ∃ m, C2.cell k1 d = some m) →
      ∀ R t3, (ds.foldl (fun r d => r.andThen (MiniCone.refine_poll flag K key fuel k1 d))
            (Polled.returned C2 t2) = Polled.returned R t3 ∨
          ds.foldl (fun r d => r.andThen (MiniCone.refine_poll flag K key fuel k1 d))
            (Polled.returned C2 t2) = Polled.interrupted R t3) →
        Walk N R ∧ Extends C2 R ∧ R.Members.length = C2.Members.length ∧
        ∀ l q m, C2.cell l q = some m → (∀ d ∈ ds, ∀ n, l = k1 + n → ¬ below C2 n k1 d q) →
          ∃ m1, R.cell l q = some m1 ∧ m1.Daughters = m.Daughters := by
  intro ds
  induction ds with
  | nil =>
    intro C2 t2 _ hW _ _ R t3 hr
    have hR : R = C2 := by
      rcases hr with hr | hr
      · injection hr with hr _
        exact hr.symm
      · cases hr
    subst hR
    exact ⟨hW, extends_refl R, rfl, fun l q m hm _ => ⟨m, hm, rfl⟩⟩
  | cons d ds ihd =>
    intro C2 t2 hnd hW hclean hcells R t3 hr
    rw [List.foldl_cons, andThen_returned] at hr
    have hd1 := ih d C2 t2 hW (hclean d (List.mem_cons_self _ _))
    cases h4 : MiniCone.refine_poll flag K key fuel k1 d C2 t2 with
    | interrupted R4 t4 =>
      rw [h4, fold_andThen_interrupted] at hr
      have hR : R4 = R := by
        rcases hr with hr | hr
        · cases hr
        · injection hr with hr _
      subst hR
      obtain ⟨a1, a2, a3, a4⟩ := hd1 R4 t4 (Or.inr h4)
      refine ⟨a1, a2, a4, ?_⟩
      intro l q m hm hnot
      exact a3 l q m hm (hnot d (List.mem_cons_self _ _))
    | returned C3 t4 =>
      rw [h4] at hr
      obtain ⟨a1, a2, a3, a4⟩ := hd1 C3 t4 (Or.inl h4)
      have hne : ∀ d1 ∈ ds, d1 ≠ d := by
        intro d1 hd1 heq
        rw [heq] at hd1
        exact (List.nodup_cons.mp hnd).1 hd1
      have hclean3 : ∀ d1 ∈ ds, Clean N C3 k1 d1 := fun d1 h1 =>
        clean_transfer N C2 C3 k1 d d1 hW.wood a3 (hne d1 h1)
          (hcells d1 (List.mem_cons_of_mem _ h1)) (hclean d1 (List.mem_cons_of_mem _ h1))
      have hcells3 : ∀ d1 ∈ ds, ∃ m, C3.cell k1 d1 = some m := by
        intro d1 h1
        obtain ⟨m, hm⟩ := hcells d1 (List.mem_cons_of_mem _ h1)
        obtain ⟨m1, _, hm1, _⟩ := a2 k1 d1 m hm
        exact ⟨m1, hm1⟩
      obtain ⟨b1, b2, b3, b4⟩ := ihd C3 t4 (List.nodup_cons.mp hnd).2 a1 hclean3 hcells3 R t3 hr
      refine ⟨b1, extends_trans _ _ _ a2 b2, b3.trans a4, ?_⟩
      intro l q m hm hnot
      obtain ⟨m1, c1, c2⟩ := a3 l q m hm (hnot d (List.mem_cons_self _ _))
      have hnot3 : ∀ d1 ∈ ds, ∀ n, l = k1 + n → ¬ below C3 n k1 d1 q := by
        intro d1 h1 n hn hb
        apply hnot d1 (List.mem_cons_of_mem _ h1) n hn
        exact below_transfer C2 C3 k1 d d1 hW.wood a3 (hne d1 h1) n 0 d1 q rfl
          (hcells d1 (List.mem_cons_of_mem _ h1)) hb
      obtain ⟨m2, e1, e2⟩ := b4 l q m1 c1 hnot3
      exact ⟨m2, e1, e2.trans c2⟩

/-- A call of `MiniCone::refine`, returned or interrupted, on a cell that
existed with all cells below it as the operation began: the forest stays a
family of trees, the cells made since are leaves, every cell the forest had is
there with its keys, multiplicity and coordinates and with daughters appended
at most, and the cells that are not below the cell of the call keep their
daughters. -/
theorem walk_refine_poll (flag : Nat → Bool) (K : Kernel) (key : Nat) (N : Nat → Nat) :
    ∀ (fuel lvl plc : Nat) (C : ConeCollection) (t : Nat), Walk N C → Clean N C lvl plc →
      ∀ R t1, (MiniCone.refine_poll flag K key fuel lvl plc C t = Polled.returned R t1 ∨
          MiniCone.refine_poll flag K key fuel lvl plc C t = Polled.interrupted R t1) →
        Walk N R ∧ Extends C R ∧ Apart C R lvl plc ∧
          R.Members.length = C.Members.length := by
  intro fuel
  induction fuel with
  | zero =>
    intro lvl plc C t hW _ R t1 hr
    rw [refine_poll_zero] at hr
    have hR : R = C := by
      rcases hr with hr | hr
      · injection hr with hr _
        exact hr.symm
      · cases hr
    subst hR
    exact ⟨hW, extends_refl R, fun l q m hm _ => ⟨m, hm, rfl⟩, rfl⟩
  | succ fuel ih =>
    intro lvl plc C t hW hclean R t1 hr
    cases hc : C.cell lvl plc with
    | none =>
      rw [refine_poll_no_cell _ _ _ _ _ _ _ _ hc] at hr
      have hR : R = C := by
        rcases hr with hr | hr
        · injection hr with hr _
          exact hr.symm
        · cases hr
      subst hR
      exact ⟨hW, extends_refl R, fun l q m hm _ => ⟨m, hm, rfl⟩, rfl⟩
    | some mc =>
      have hW1 := walk_cache K N C lvl plc hW
      have hsame := cache_facets_same K C lvl plc
      have hbase : Walk N (C.cache_facets K lvl plc) ∧ Extends C (C.cache_facets K lvl plc) ∧
          Apart C (C.cache_facets K lvl plc) lvl plc ∧
          (C.cache_facets K lvl plc).Members.length = C.Members.length :=
        ⟨hW1, extends_cache K C lvl plc, apart_of_same C _ lvl plc hsame,
          cache_facets_members_length K C lvl plc⟩
      have hstop : ∀ t2, (Polled.returned (C.cache_facets K lvl plc) t2 = Polled.returned R t1 ∨
          Polled.returned (C.cache_facets K lvl plc) t2 = Polled.interrupted R t1) →
          R = C.cache_facets K lvl plc := by
        intro t2 h2
        rcases h2 with h2 | h2
        · injection h2 with h2 _
          exact h2.symm
        · cases h2
      obtain ⟨hlv, hpl⟩ := hW.wood.coords lvl plc mc hc
      have hback : ∀ l q Y, (C.cache_facets K lvl plc).cell l q = some Y →
          ∃ Y0, C.cell l q = some Y0 ∧ Y0.Daughters = Y.Daughters := by
        intro l q Y hY
        obtain ⟨m, hm, _, _, a3, _⟩ := cache_facets_back K C lvl plc l q Y hY
        exact ⟨m, hm, a3.symm⟩
      rw [refine_poll_succ flag K key fuel lvl plc C t mc hc] at hr
      cases hfl : facet_loop_poll flag (row C.Generators key) (mc.hyperplanes K C.Generators)
          0 [] t with
      | interrupted t2 =>
        rw [hfl] at hr
        have hR : R = C.cache_facets K lvl plc := by
          rcases hr with hr | hr
          · cases hr
          · injection hr with hr _
            exact hr.symm
        rw [hR]
        exact hbase
      | outside t2 =>
        rw [hfl] at hr
        rw [hstop t2 hr]
        exact hbase
      | opposite opp t2 =>
        rw [hfl] at hr
        simp only at hr
        by_cases hone : opp.length = 1
        · rw [if_pos hone] at hr
          rw [hstop t2 hr]
          exact hbase
        · rw [if_neg hone] at hr
          by_cases hd : mc.Daughters.length > 0
          · rw [if_pos hd, hlv] at hr
            have hcl : ∀ d ∈ mc.Daughters, Clean N (C.cache_facets K lvl plc) (lvl + 1) d := by
              intro d hdm n q hb
              have h1 := below_of_same C _ hback n (lvl + 1) d q hb
              have h2 : below C (n + 1) lvl plc q := ⟨mc, d, hc, hdm, h1⟩
              have := hclean (n + 1) q h2
              rw [show lvl + 1 + n = lvl + (n + 1) by omega]
              exact this
            have hcells : ∀ d ∈ mc.Daughters,
                ∃ m, (C.cache_facets K lvl plc).cell (lvl + 1) d = some m := by
              intro d hdm
              obtain ⟨m, hm⟩ := cell_of_lt C (lvl + 1) d (hW.wood.daughters_lt lvl plc mc hc d hdm)
              obtain ⟨Y1, h1, _⟩ := hsame (lvl + 1) d m hm
              exact ⟨Y1, h1⟩
            obtain ⟨b1, b2, b3, b4⟩ := walk_daughters flag K key fuel N (lvl + 1)
              (fun plc1 C1 t3 h1 h2 R1 t4 h3 => ih (lvl + 1) plc1 C1 t3 h1 h2 R1 t4 h3)
              mc.Daughters _ t2 (hW.wood.nodup lvl plc mc hc) hW1 hcl hcells R t1 hr
            refine ⟨b1, extends_trans _ _ _ hbase.2.1 b2, ?_, b3.trans hbase.2.2.2⟩
            intro l q m hm hnot
            obtain ⟨Y1, c1, c2, _⟩ := hsame l q m hm
            have hnot1 : ∀ d ∈ mc.Daughters, ∀ n, l = lvl + 1 + n →
                ¬ below (C.cache_facets K lvl plc) n (lvl + 1) d q := by
              intro d hdm n hn hb
              have h1 := below_of_same C _ hback n (lvl + 1) d q hb
              exact hnot (n + 1) (by omega) ⟨mc, d, hc, hdm, h1⟩
            obtain ⟨m2, e1, e2⟩ := b4 l q Y1 c1 hnot1
            exact ⟨m2, e1, e2.trans c2⟩
          · rw [if_neg hd] at hr
            have hsp := subdivide_loop_poll_spec flag K key mc opp (C.cache_facets K lvl plc) t2
            have hdone : ∃ done : List Nat, R = done.foldl (subdivide_step K key mc)
                (C.cache_facets K lvl plc) := by
              rcases hr with hr | hr
              · rw [hr] at hsp
                exact ⟨opp, hsp.1⟩
              · rw [hr] at hsp
                obtain ⟨⟨done, _, _, _, h3⟩, _⟩ := hsp
                exact ⟨done, h3⟩
            obtain ⟨done, hR⟩ := hdone
            have hold : mc.my_place < N mc.level := by
              rw [hlv, hpl]
              exact hclean 0 plc rfl
            have hmother : ∃ m, (C.cache_facets K lvl plc).cell mc.level mc.my_place = some m := by
              rw [hlv, hpl]
              exact ⟨_, cache_facets_cell K C lvl plc mc hc⟩
            rw [hR]
            refine ⟨walk_subdivide_fold K key mc N done _ hW1 hmother hold,
              extends_trans _ _ _ hbase.2.1 (extends_subdivide_fold K key mc done _), ?_,
              (subdivide_fold_members_length K key mc done _).trans hbase.2.2.2⟩
            intro l q m hm hnot
            have hne : ¬ (l = lvl ∧ q = plc) := by
              rintro ⟨rfl, rfl⟩
              exact hnot 0 rfl rfl
            refine ⟨m, ?_, rfl⟩
            apply subdivide_fold_other K key mc done _ l q m
            · rw [cache_facets_other K C lvl plc l q hne]
              exact hm
            · rw [hlv, hpl]
              exact hne

/-- A property of the forest that the caching of facets and every pass of the
subdivision loop keep holds when a call of `MiniCone::refine` returns or is
interrupted. -/
theorem refine_poll_keeps (flag : Nat → Bool) (K : Kernel) (key : Nat)
    (Q : ConeCollection → Prop)
    (hcache : ∀ C lvl plc, Q C → Q (C.cache_facets K lvl plc))
    (hstep : ∀ C mc j, Q C → Q (subdivide_step K key mc C j)) :
    ∀ (fuel lvl plc : Nat) (C : ConeCollection) (t : Nat), Q C →
      ∀ R t1, (MiniCone.refine_poll flag K key fuel lvl plc C t = Polled.returned R t1 ∨
          MiniCone.refine_poll flag K key fuel lvl plc C t = Polled.interrupted R t1) →
        Q R := by
  have hout : ∀ (C R : ConeCollection) (t t1 : Nat), Q C →
      (Polled.returned C t = Polled.returned R t1 ∨
        Polled.returned C t = Polled.interrupted R t1) → Q R := by
    intro C R t t1 hQ hr
    rcases hr with hr | hr
    · injection hr with hr _
      rw [← hr]
      exact hQ
    · cases hr
  have hint : ∀ (C R : ConeCollection) (t t1 : Nat), Q C →
      (Polled.interrupted C t = Polled.returned R t1 ∨
        Polled.interrupted C t = Polled.interrupted R t1) → Q R := by
    intro C R t t1 hQ hr
    rcases hr with hr | hr
    · cases hr
    · injection hr with hr _
      rw [← hr]
      exact hQ
  intro fuel
  induction fuel with
  | zero =>
    intro lvl plc C t hQ R t1 hr
    rw [refine_poll_zero] at hr
    exact hout _ _ _ _ hQ hr
  | succ fuel ih =>
    intro lvl plc C t hQ R t1 hr
    cases hc : C.cell lvl plc with
    | none =>
      rw [refine_poll_no_cell _ _ _ _ _ _ _ _ hc] at hr
      exact hout _ _ _ _ hQ hr
    | some mc =>
      have hQ1 := hcache C lvl plc hQ
      rw [refine_poll_succ flag K key fuel lvl plc C t mc hc] at hr
      cases hfl : facet_loop_poll flag (row C.Generators key) (mc.hyperplanes K C.Generators)
          0 [] t with
      | interrupted t2 =>
        rw [hfl] at hr
        exact hint _ _ _ _ hQ1 hr
      | outside t2 =>
        rw [hfl] at hr
        exact hout _ _ _ _ hQ1 hr
      | opposite opp t2 =>
        rw [hfl] at hr
        simp only at hr
        by_cases hone : opp.length = 1
        · rw [if_pos hone] at hr
          exact hout _ _ _ _ hQ1 hr
        · rw [if_neg hone] at hr
          by_cases hd : mc.Daughters.length > 0
          · rw [if_pos hd] at hr
            have hloop : ∀ (ds : List Nat) (C2 : ConeCollection) (t3 : Nat), Q C2 →
                (ds.foldl (fun r d => r.andThen
                    (MiniCone.refine_poll flag K key fuel (mc.level + 1) d))
                    (Polled.returned C2 t3) = Polled.returned R t1 ∨
                  ds.foldl (fun r d => r.andThen
                    (MiniCone.refine_poll flag K key fuel (mc.level + 1) d))
                    (Polled.returned C2 t3) = Polled.interrupted R t1) → Q R := by
              intro ds
              induction ds with
              | nil => intro C2 t3 h2 h3; exact hout _ _ _ _ h2 h3
              | cons d ds ihd =>
                intro C2 t3 h2 h3
                rw [List.foldl_cons, andThen_returned] at h3
                cases h4 : MiniCone.refine_poll flag K key fuel (mc.level + 1) d C2 t3 with
                | interrupted R4 t4 =>
                  rw [h4, fold_andThen_interrupted] at h3
                  exact hint _ _ _ _ (ih _ _ _ _ h2 R4 t4 (Or.inr h4)) h3
                | returned R4 t4 =>
                  rw [h4] at h3
                  exact ihd R4 t4 (ih _ _ _ _ h2 R4 t4 (Or.inl h4)) h3
            exact hloop _ _ _ hQ1 hr
          · rw [if_neg hd] at hr
            have hsp := subdivide_loop_poll_spec flag K key mc opp (C.cache_facets K lvl plc) t2
            have hfold : ∀ (l : List Nat) (C2 : ConeCollection), Q C2 →
                Q (l.foldl (subdivide_step K key mc) C2) := by
              intro l
              induction l with
              | nil => intro C2 h2; exact h2
              | cons j l ihl =>
                intro C2 h2
                rw [List.foldl_cons]
                exact ihl _ (hstep C2 mc j h2)
            rcases hr with hr | hr
            · rw [hr] at hsp
              rw [hsp.1]
              exact hfold _ _ hQ1
            · rw [hr] at hsp
              obtain ⟨⟨pre, _, _, _, h3⟩, _⟩ := hsp
              rw [h3]
              exact hfold _ _ hQ1

/-- A family of trees in which no cell below the cell at `(lvl, plc)`, the
cell included, is in the last level, is the state of a walk in which the cells
of all levels but the last count as old. -/
theorem walk_of_room (C : ConeCollection) (lvl plc : Nat) (hW : Wood C)
    (hc : ∃ m, C.cell lvl plc = some m)
    (hroom : ∀ n q, below C n lvl plc q → lvl + n + 1 < C.Members.length) :
    Walk (fun k => if k + 1 < C.Members.length then (C.Members.getD k []).length else 0) C ∧
    Clean (fun k => if k + 1 < C.Members.length then (C.Members.getD k []).length else 0)
      C lvl plc := by
  refine ⟨⟨hW, ?_, ?_, ?_⟩, ?_⟩
  · intro k
    show (if k + 1 < C.Members.length then (C.Members.getD k []).length else 0) ≤ _
    split
    · exact le_refl _
    · exact Nat.zero_le _
  · intro k i mc hmc hN
    have hi := (cell_lt C k i mc hmc).2
    by_cases hk : k + 1 < C.Members.length
    · simp only [if_pos hk] at hN
      omega
    · apply List.eq_nil_iff_forall_not_mem.mpr
      intro d hd
      have := hW.daughters_lt k i mc hmc d hd
      rw [List.getD_eq_getElem?_getD, List.getElem?_eq_none (by omega)] at this
      simp at this
  · intro i mc _
    have : ¬ (C.Members.length - 1 + 1 < C.Members.length) := by omega
    simp only [if_neg this]
    exact Nat.zero_le _
  · intro n q hb
    have h1 := hroom n q hb
    simp only [if_pos h1]
    obtain ⟨m, hm⟩ := below_cell C hW n lvl plc q hc hb
    exact (cell_lt C _ q m hm).2

theorem wood_from_triangulation (Gens : Mat) (T : List (List Nat × Int)) :
    Wood (ConeCollection.from_triangulation Gens T) := by
  obtain ⟨h1, _, _, _, h5⟩ := from_triangulation_spec Gens T
  have hleaf : ∀ k i mc, (ConeCollection.from_triangulation Gens T).cell k i = some mc →
      mc.Daughters = [] := by
    intro k i mc hc
    have hk := (cell_lt _ k i mc hc).1
    have h0 : k = 0 := by omega
    subst h0
    rw [h5] at hc
    cases hS : T[i]? with
    | none => rw [hS] at hc; cases hc
    | some S =>
      rw [hS] at hc
      injection hc with hc
      rw [← hc]
      rfl
  refine ⟨coords_ok_from_triangulation Gens T, ?_, ?_, ?_, ?_⟩
  · intro k i mc hc d hd
    rw [hleaf k i mc hc] at hd
    cases hd
  · intro k i mc hc
    rw [hleaf k i mc hc]
    exact List.nodup_nil
  · intro k p p1 mp mp1 d hmp _ hd _
    rw [hleaf k p mp hmp] at hd
    cases hd
  · intro k i hi
    rw [List.getD_eq_getElem?_getD, List.getElem?_eq_none (by omega)] at hi
    simp at hi

/-- In a family of trees whose last level is empty, the state that the guard
`Members.resize(Members.size()+1)` prepares, no cell is in the last level. -/
theorem room_of_last_empty (C : ConeCollection) (hW : Wood C)
    (hlast : ∀ i, C.cell (C.Members.length - 1) i = none) (lvl plc : Nat)
    (hc : ∃ m, C.cell lvl plc = some m) :
    ∀ n q, below C n lvl plc q → lvl + n + 1 < C.Members.length := by
  intro n q hb
  obtain ⟨m, hm⟩ := below_cell C hW n lvl plc q hc hb
  have hk := (cell_lt C _ q m hm).1
  by_contra hge
  have hl : C.Members.length - 1 = lvl + n := by omega
  rw [← hl, hlast q] at hm
  cases hm




/-! ## Extra generators; keys and known rays -/

theorem add_extra_generators_fold (NewGens : Mat) :
    ∀ C : ConeCollection,
      (C.add_extra_generators NewGens).Generators
        = C.Generators ++ NewGens.filter (fun v => decide (v ∉ C.AllRays)) ∧
      (C.add_extra_generators NewGens).Members = C.Members ∧
      (C.add_extra_generators NewGens).AllRays = C.AllRays ∧
      (C.add_extra_generators NewGens).is_triangulation = C.is_triangulation := by
  unfold ConeCollection.add_extra_generators
  induction NewGens with
  | nil => intro C; simp
  | cons v l ih =>
    intro C
    rw [List.foldl_cons]
    by_cases hv : v ∈ C.AllRays
    · rw [if_pos hv, List.filter_cons_of_neg (by simpa using hv)]
      exact ih C
    · rw [if_neg hv, List.filter_cons_of_pos (by simpa using hv)]
      obtain ⟨h1, h2, h3, h4⟩ := ih { C with Generators := C.Generators ++ [v] }
      refine ⟨?_, h2, h3, h4⟩
      rw [h1]
      simp

/-- C38. `add_extra_generators(NewGens)` appends to `Generators`, in the order
of the rows, exactly the rows of `NewGens` that are not in `AllRays`: a row is
tested against `AllRays` only, not against the other rows of `NewGens` and not
against the rows of `Generators`, so that a row that is twice in `NewGens`, or
is already a row of `Generators` without being a known ray, is appended each
time.  `Members`, `AllRays` and the rows `Generators` had are unchanged. -/
theorem add_extra_generators_appends (C : ConeCollection) (NewGens : Mat) :
    (C.add_extra_generators NewGens).Generators
      = C.Generators ++ NewGens.filter (fun v => decide (v ∉ C.AllRays)) ∧
    (C.add_extra_generators NewGens).Members = C.Members ∧
    (C.add_extra_generators NewGens).AllRays = C.AllRays ∧
    (∀ v, v ∉ C.AllRays →
      (C.add_extra_generators [v, v]).Generators = C.Generators ++ [v, v]) ∧
    (∀ v, v ∈ C.Generators → v ∉ C.AllRays →
      (C.add_extra_generators [v]).Generators = C.Generators ++ [v]) := by
  obtain ⟨h1, h2, h3, _⟩ := add_extra_generators_fold NewGens C
  refine ⟨h1, h2, h3, ?_, ?_⟩
  · intro v hv
    rw [(add_extra_generators_fold [v, v] C).1]
    simp [hv]
  · intro v _ hv
    rw [(add_extra_generators_fold [v] C).1]
    simp [hv]

/-- C35. Let the triangulation given to the constructor have its keys in the
generator table.  In every state that calls of `add_extra_generators`,
`ConeCollection::refine`, `insert_all_gens` and `make_unimodular` (ended by its
`break` or by a failure of the oracle) reach from the forest the constructor
builds, and after every call of `MiniCone::refine` in such a state, every key
of every cell is smaller than the number of rows of `Generators`, and the row
of `Generators` with this index is an element of `AllRays`. -/
theorem keys_are_known_rays (K : Kernel) (Gens : Mat) (T : List (List Nat × Int))
    (C : ConeCollection) (hT : ∀ S ∈ T, ∀ g ∈ S.1, g < Gens.length)
    (h : Reached K (ConeCollection.from_triangulation Gens T) C) :
    (∀ k i mc, C.cell k i = some mc → ∀ g ∈ mc.GenKeys,
      g < C.Generators.length ∧ row C.Generators g ∈ C.AllRays) ∧
    (∀ key fuel lvl plc k i mc, (MiniCone.refine K key fuel lvl plc C).cell k i = some mc →
      ∀ g ∈ mc.GenKeys, g < (MiniCone.refine K key fuel lvl plc C).Generators.length ∧
        row (MiniCone.refine K key fuel lvl plc C).Generators g
          ∈ (MiniCone.refine K key fuel lvl plc C).AllRays) := by
  have hO : Orderly K C :=
    invariant_reached K _ (invariant_orderly K) _ C h (orderly_from_triangulation K Gens T hT)
  refine ⟨fun k i mc hc g hg => ⟨hO.keys k i mc hc g hg, hO.rays k i mc hc g hg⟩, ?_⟩
  intro key fuel lvl plc k i mc hc g hg
  have hO1 := invariant_refine_cell K _ (invariant_orderly K) key fuel lvl plc C hO
  exact ⟨hO1.keys k i mc hc g hg, hO1.rays k i mc hc g hg⟩

set_option maxRecDepth 20000 in
/-- Witness for `keys_are_known_rays`: the forest `multiple_forest` after
`insert_all_gens`, where the generator `(2,0)` is the key of no cell. -/
theorem keys_are_known_rays_witness :
    (∀ S ∈ [(([0, 1] : List Nat), (1 : Int))], ∀ g ∈ S.1,
      g < ([[1, 0], [0, 1], [2, 0], [1, 1]] : Mat).length) ∧
    Reached (exactKernel failing_oracle)
      (ConeCollection.from_triangulation [[1, 0], [0, 1], [2, 0], [1, 1]] [([0, 1], 1)])
      (multiple_forest.insert_all_gens (exactKernel failing_oracle)) ∧
    (multiple_forest.insert_all_gens (exactKernel failing_oracle)).AllRays
      = [[0, 1], [1, 0], [1, 1]] ∧
    ∀ k i mc, (multiple_forest.insert_all_gens (exactKernel failing_oracle)).cell k i = some mc →
      ∀ g ∈ mc.GenKeys,
        g < (multiple_forest.insert_all_gens (exactKernel failing_oracle)).Generators.length ∧
        row (multiple_forest.insert_all_gens (exactKernel failing_oracle)).Generators g
          ∈ (multiple_forest.insert_all_gens (exactKernel failing_oracle)).AllRays :=
  ⟨by decide, Reached.step _ _ Reached.start (Operation.insert_all_gens _), rfl,
    (keys_are_known_rays (exactKernel failing_oracle) [[1, 0], [0, 1], [2, 0], [1, 1]]
      [([0, 1], 1)] _ (by decide)
      (Reached.step _ _ Reached.start (Operation.insert_all_gens _))).1⟩





/-! ## The order of the keys -/

theorem hyperplanes_of_simplicial (hb : Mat → Option (List Vec)) (n : Nat) (C : ConeCollection)
    (hS : C.simplicial n) (lvl plc : Nat) (mc : MiniCone) (hc : C.cell lvl plc = some mc) :
    mc.hyperplanes (exactKernel hb) C.Generators = exact_simplex_data (C.gens mc) := by
  unfold MiniCone.hyperplanes
  split
  · rfl
  · rename_i hne
    rcases (hS lvl plc mc hc).2.2.2.2 with h | h
    · rw [h] at hne
      exact absurd rfl hne
    · exact h

theorem child_keys_strict (keys : List Nat) (key j : Nat) (hn : keys.Nodup) (hk : key ∉ keys) :
    (child_keys keys key j).Nodup ∧ List.Sorted (fun a b => a < b) (child_keys keys key j) := by
  have hnd : (child_keys keys key j).Nodup := by
    unfold child_keys
    rw [(List.perm_insertionSort _ _).nodup_iff]
    exact hn.set hk
  refine ⟨hnd, ?_⟩
  have hs : List.Sorted (fun a b : Nat => a ≤ b) (child_keys keys key j) :=
    List.sorted_insertionSort _ _
  exact hs.lt_of_le hnd

/-- The state of the order of the keys: cells store their position, span
non-degenerate simplices, and above level 0 have strictly increasing keys. -/
theorem strict_add_minicone (n : Nat) (C : ConeCollection) (k p key j : Nat)
    (keys : List Nat) (mult : Int)
    (h : C.coords_ok ∧ C.simplicial n ∧ C.keys_strict)
    (hlen : keys.length = n) (hrange : ∀ g ∈ keys, g < C.Generators.length)
    (hnd : keys.Nodup) (hkey : key < C.Generators.length) (hk : key ∉ keys)
    (hdet : det (submatrix C.Generators (child_keys keys key j)) ≠ 0) :
    (C.add_minicone (k + 1) p (child_keys keys key j) mult).coords_ok ∧
    (C.add_minicone (k + 1) p (child_keys keys key j) mult).simplicial n ∧
    (C.add_minicone (k + 1) p (child_keys keys key j) mult).keys_strict := by
  obtain ⟨hnd1, hst1⟩ := child_keys_strict keys key j hnd hk
  refine ⟨coords_ok_add_minicone C k p _ _ h.1, ?_, ?_⟩
  · intro l q Y hY
    rcases cell_add_minicone_cases C k p _ _ l q Y hY with
      ⟨_, _, _, rfl⟩ | ⟨_, _, m1, hm1, rfl⟩ | ⟨_, hc⟩
    · refine ⟨by show (child_keys keys key j).length = n; rw [child_keys_length, hlen],
        ?_, hnd1, hdet, Or.inl rfl⟩
      intro g hg
      rcases mem_child_keys keys key j g hg with rfl | hg
      · exact hkey
      · exact hrange g hg
    · exact h.2.1 k p m1 hm1
    · exact h.2.1 l q Y hc
  · intro l q Y hY
    rcases cell_add_minicone_cases C k p _ _ (l + 1) q Y hY with
      ⟨_, _, _, rfl⟩ | ⟨h1, h2, m1, hm1, rfl⟩ | ⟨_, hc⟩
    · exact hst1
    · exact h.2.2 l q m1 (by rw [h1, h2]; exact hm1)
    · exact h.2.2 l q Y hc

theorem strict_subdivide_fold (hb : Mat → Option (List Vec)) (n key : Nat) (mc : MiniCone)
    (G : Mat) (hlen : mc.GenKeys.length = n) (hrange : ∀ g ∈ mc.GenKeys, g < G.length)
    (hnd : mc.GenKeys.Nodup) (hkey : key < G.length) (hk : key ∉ mc.GenKeys) :
    ∀ (l : List Nat) (C : ConeCollection), C.Generators = G →
      (∀ j ∈ l, det (submatrix G (child_keys mc.GenKeys key j)) ≠ 0) →
      (C.coords_ok ∧ C.simplicial n ∧ C.keys_strict) →
      ((l.foldl (subdivide_step (exactKernel hb) key mc) C).coords_ok ∧
        (l.foldl (subdivide_step (exactKernel hb) key mc) C).simplicial n ∧
        (l.foldl (subdivide_step (exactKernel hb) key mc) C).keys_strict) := by
  intro l
  induction l with
  | nil => intro C _ _ h; exact h
  | cons j l ih =>
    intro C hG hdet h
    rw [List.foldl_cons]
    have hstep : subdivide_step (exactKernel hb) key mc C j
        = C.add_minicone (mc.level + 1) mc.my_place (child_keys mc.GenKeys key j)
            ((exactKernel hb).vol (submatrix C.Generators (child_keys mc.GenKeys key j))) := rfl
    rw [hstep]
    apply ih _ (by rw [add_minicone_generators]; exact hG)
      (fun j1 h1 => hdet j1 (List.mem_cons_of_mem _ h1))
    apply strict_add_minicone n C mc.level mc.my_place key j mc.GenKeys _ h hlen
      (by rw [hG]; exact hrange) hnd (by rw [hG]; exact hkey) hk
    rw [hG]
    exact hdet j (List.mem_cons_self _ _)

theorem invariant_strict (hb : Mat → Option (List Vec)) (n : Nat) :
    Invariant (exactKernel hb) (fun C => C.coords_ok ∧ C.simplicial n ∧ C.keys_strict) where
  ensure_level := by
    intro C h
    refine ⟨(frozen_ensure_level C h.1).1, ?_, ?_⟩
    · intro k i mc hc
      rw [cell_ensure_level] at hc
      unfold ConeCollection.gens
      rw [ensure_level_generators]
      exact h.2.1 k i mc hc
    · intro k i mc hc
      rw [cell_ensure_level] at hc
      exact h.2.2 k i mc hc
  append_gen := by
    intro C v h
    refine ⟨h.1, ?_, h.2.2⟩
    intro k i mc hc
    obtain ⟨a1, a2, a3, a4, a5⟩ := h.2.1 k i mc hc
    have hg : submatrix (C.Generators ++ [v]) mc.GenKeys = submatrix C.Generators mc.GenKeys :=
      submatrix_append _ _ _ a2
    refine ⟨a1, ?_, a3, ?_, ?_⟩
    · intro g hg1
      show g < (C.Generators ++ [v]).length
      rw [List.length_append]
      exact Nat.lt_add_right _ (a2 g hg1)
    · show det (submatrix (C.Generators ++ [v]) mc.GenKeys) ≠ 0
      rw [hg]
      exact a4
    · show mc.SupportHyperplanes = [] ∨
        mc.SupportHyperplanes = exact_simplex_data (submatrix (C.Generators ++ [v]) mc.GenKeys)
      rw [hg]
      exact a5
  cache := by
    intro C lvl plc h
    refine ⟨(frozen_cache (exactKernel hb) C lvl plc h.1).1, ?_, ?_⟩
    · intro k i Y hY
      by_cases hki : k = lvl ∧ i = plc
      · obtain ⟨rfl, rfl⟩ := hki
        cases hc : C.cell k i with
        | none =>
          unfold ConeCollection.cache_facets at hY
          rw [cell_updateCell_same, hc] at hY
          cases hY
        | some m =>
          rw [cache_facets_cell _ C k i m hc] at hY
          injection hY with hY
          obtain ⟨a1, a2, a3, a4, _⟩ := h.2.1 k i m hc
          rw [← hY]
          exact ⟨a1, a2, a3, a4, Or.inr (hyperplanes_of_simplicial hb n C h.2.1 k i m hc)⟩
      · rw [cache_facets_other _ C lvl plc k i hki] at hY
        exact h.2.1 k i Y hY
    · intro k i Y hY
      obtain ⟨m, hm, a1, _⟩ := cache_facets_back _ C lvl plc (k + 1) i Y hY
      rw [a1]
      exact h.2.2 k i m hm
  subdivide := by
    intro key C lvl plc mc opp h hc _ hf hone
    have h1 : (C.cache_facets (exactKernel hb) lvl plc).coords_ok ∧
        (C.cache_facets (exactKernel hb) lvl plc).simplicial n ∧
        (C.cache_facets (exactKernel hb) lvl plc).keys_strict := by
      refine ⟨(frozen_cache (exactKernel hb) C lvl plc h.1).1, ?_, ?_⟩
      · intro k i Y hY
        by_cases hki : k = lvl ∧ i = plc
        · obtain ⟨rfl, rfl⟩ := hki
          rw [cache_facets_cell _ C k i mc hc] at hY
          injection hY with hY
          obtain ⟨a1, a2, a3, a4, _⟩ := h.2.1 k i mc hc
          rw [← hY]
          exact ⟨a1, a2, a3, a4, Or.inr (hyperplanes_of_simplicial hb n C h.2.1 k i mc hc)⟩
        · rw [cache_facets_other _ C lvl plc k i hki] at hY
          exact h.2.1 k i Y hY
      · intro k i Y hY
        obtain ⟨m, hm, a1, _⟩ := cache_facets_back _ C lvl plc (k + 1) i Y hY
        rw [a1]
        exact h.2.2 k i m hm
    obtain ⟨a1, a2, a3, a4, _⟩ := h.2.1 lvl plc mc hc
    rw [hyperplanes_of_simplicial hb n C h.2.1 lvl plc mc hc] at hf
    have hfacts := (stellar_facts (F := Rat) n C.Generators mc.GenKeys key opp a1 a4 hf).1
    cases opp with
    | nil => exact h1
    | cons j opp =>
      have hkey : key < C.Generators.length := (hfacts j (List.mem_cons_self _ _)).2.1
      have hk : key ∉ mc.GenKeys := by
        intro hmem
        obtain ⟨j0, hj0⟩ := facet_loop_own_ray C.Generators mc.GenKeys key a4 hmem
        unfold ConeCollection.gens at hf
        rw [hf] at hj0
        injection hj0 with hj0
        apply hone
        rw [hj0]
        rfl
      exact strict_subdivide_fold hb n key mc C.Generators a1 a2 a3 hkey hk _ _ rfl
        (fun j1 h1 => (hfacts j1 h1).1) h1

theorem invariant_roots_from (K : Kernel) (T : List (List Nat × Int)) :
    Invariant K (fun C => C.roots_from T) where
  ensure_level := by
    intro C h i mc hc
    rw [cell_ensure_level] at hc
    exact h i mc hc
  append_gen := fun _ _ h => h
  cache := by
    intro C lvl plc h i Y hY
    obtain ⟨m, hm, a1, _⟩ := cache_facets_back K C lvl plc 0 i Y hY
    rw [a1]
    exact h i m hm
  subdivide := by
    intro key C lvl plc mc opp h _ _ _ _
    have h1 : (C.cache_facets K lvl plc).roots_from T := by
      intro i Y hY
      obtain ⟨m, hm, a1, _⟩ := cache_facets_back K C lvl plc 0 i Y hY
      rw [a1]
      exact h i m hm
    have hfold : ∀ (l : List Nat) (C2 : ConeCollection), C2.roots_from T →
        (l.foldl (subdivide_step K key mc) C2).roots_from T := by
      intro l
      induction l with
      | nil => intro C2 h2; exact h2
      | cons j l ih =>
        intro C2 h2
        rw [List.foldl_cons]
        apply ih
        intro i Y hY
        rcases cell_add_minicone_cases C2 mc.level mc.my_place _ _ 0 i Y hY with
          ⟨h3, _⟩ | ⟨h4, h5, m1, hm1, rfl⟩ | ⟨_, hc⟩
        · omega
        · exact h2 i m1 (by rw [h4, h5]; exact hm1)
        · exact h2 i Y hc
    exact hfold _ _ h1

theorem roots_from_triangulation (Gens : Mat) (T : List (List Nat × Int)) :
    (ConeCollection.from_triangulation Gens T).roots_from T := by
  obtain ⟨_, _, _, _, h5⟩ := from_triangulation_spec Gens T
  intro i mc hc
  rw [h5] at hc
  cases hS : T[i]? with
  | none => rw [hS] at hc; cases hc
  | some S =>
    rw [hS] at hc
    injection hc with hc
    rw [← hc]
    exact ⟨S, rfl, rfl⟩

theorem strict_from_triangulation (n : Nat) (Gens : Mat) (T : List (List Nat × Int))
    (hT : ∀ S ∈ T, S.1.length = n ∧ (∀ g ∈ S.1, g < Gens.length) ∧ S.1.Nodup ∧
      det (submatrix Gens S.1) ≠ 0) :
    (ConeCollection.from_triangulation Gens T).coords_ok ∧
    (ConeCollection.from_triangulation Gens T).simplicial n ∧
    (ConeCollection.from_triangulation Gens T).keys_strict := by
  obtain ⟨h1, h2, _, _, h5⟩ := from_triangulation_spec Gens T
  refine ⟨coords_ok_from_triangulation Gens T, ?_, ?_⟩
  · intro k i mc hc
    have hk := (cell_lt _ k i mc hc).1
    have h0 : k = 0 := by omega
    subst h0
    rw [h5] at hc
    cases hS : T[i]? with
    | none => rw [hS] at hc; cases hc
    | some S =>
      rw [hS] at hc
      injection hc with hc
      obtain ⟨a1, a2, a3, a4⟩ := hT S (List.mem_iff_getElem?.mpr ⟨i, hS⟩)
      unfold ConeCollection.gens
      rw [← hc, h2]
      exact ⟨a1, a2, a3, a4, Or.inl rfl⟩
  · intro k i mc hc
    have hk := (cell_lt _ (k + 1) i mc hc).1
    omega

/-- C31, as the code has it.  Let the simplices of the input triangulation
have `n` distinct keys each, indices of linearly independent rows of the
generator table.  In every state that calls of `add_extra_generators`,
`ConeCollection::refine`, `insert_all_gens` and `make_unimodular` (ended by its
`break` or by a failure of the oracle) reach from the forest the constructor
builds, every cell above level 0 has its `GenKeys` in strictly increasing
order, and every cell of level 0 has the keys of its simplex of the input in
the order given there; so every cell has strictly increasing keys when the
simplices of the input have. -/
theorem keys_strictly_increasing (hb : Mat → Option (List Vec)) (n : Nat) (Gens : Mat)
    (T : List (List Nat × Int)) (C : ConeCollection)
    (hT : ∀ S ∈ T, S.1.length = n ∧ (∀ g ∈ S.1, g < Gens.length) ∧ S.1.Nodup ∧
      det (submatrix Gens S.1) ≠ 0)
    (h : Reached (exactKernel hb) (ConeCollection.from_triangulation Gens T) C) :
    (∀ k i mc, C.cell (k + 1) i = some mc → List.Sorted (fun a b => a < b) mc.GenKeys) ∧
    (∀ i mc, C.cell 0 i = some mc → ∃ S, T[i]? = some S ∧ mc.GenKeys = S.1) ∧
    ((∀ S ∈ T, List.Sorted (fun a b => a < b) S.1) →
      ∀ k i mc, C.cell k i = some mc → List.Sorted (fun a b => a < b) mc.GenKeys) := by
  have h1 := invariant_reached _ _ (invariant_strict hb n) _ C h
    (strict_from_triangulation n Gens T hT)
  have h2 := invariant_reached (exactKernel hb) _ (invariant_roots_from _ T) _ C h
    (roots_from_triangulation Gens T)
  refine ⟨h1.2.2, h2, ?_⟩
  intro hs k i mc hc
  cases k with
  | zero =>
    obtain ⟨S, hS, hk⟩ := h2 i mc hc
    rw [hk]
    exact hs S (List.mem_iff_getElem?.mpr ⟨i, hS⟩)
  | succ k => exact h1.2.2 k i mc hc

/-- The constructor stores the keys of a simplex as the triangulation lists
them: for the simplex with the keys `1, 0` the cell of level 0 has
`GenKeys = [1, 0]`, which is not increasing. -/
theorem level_zero_keys_unsorted :
    Reached (exactKernel failing_oracle)
      (ConeCollection.from_triangulation [[1, 0], [0, 1]] [([1, 0], 1)]) unsorted_forest ∧
    (unsorted_forest.cell 0 0).map (fun mc => mc.GenKeys) = some [1, 0] ∧
    ¬ List.Sorted (fun a b => a < b) ([1, 0] : List Nat) :=
  ⟨Reached.start, rfl, by decide⟩

set_option maxRecDepth 20000 in
/-- Witness for `keys_strictly_increasing`: the forest `fan_forest` after
`insert_all_gens`. -/
theorem keys_strictly_increasing_witness :
    (∀ S ∈ [(([0, 1] : List Nat), (1 : Int))], S.1.length = 2 ∧
      (∀ g ∈ S.1, g < ([[1, 0], [0, 1], [1, 1], [2, 1]] : Mat).length) ∧ S.1.Nodup ∧
      det (submatrix [[1, 0], [0, 1], [1, 1], [2, 1]] S.1) ≠ 0) ∧
    Reached (exactKernel failing_oracle)
      (ConeCollection.from_triangulation [[1, 0], [0, 1], [1, 1], [2, 1]] [([0, 1], 1)])
      (fan_forest.insert_all_gens (exactKernel failing_oracle)) ∧
    ((fan_forest.insert_all_gens (exactKernel failing_oracle)).Members.getD 2 []).map
      (fun mc => mc.GenKeys) = [[2, 3], [0, 3]] ∧
    ∀ k i mc, (fan_forest.insert_all_gens (exactKernel failing_oracle)).cell (k + 1) i = some mc →
      List.Sorted (fun a b => a < b) mc.GenKeys :=
  ⟨by decide, Reached.step _ _ Reached.start (Operation.insert_all_gens _), rfl,
    (keys_strictly_increasing failing_oracle 2 [[1, 0], [0, 1], [1, 1], [2, 1]] [([0, 1], 1)] _
      (by decide) (Reached.step _ _ Reached.start (Operation.insert_all_gens _))).1⟩





/-! ## The order of the points of the oracle -/

theorem vec_lt_asymm (a b : Vec) (h1 : vec_lt a b = true) (h2 : vec_lt b a = true) : False := by
  have := vec_lt_trans a b a h1 h2
  rw [vec_lt_irrefl] at this
  cases this

theorem entry_le_antisymm (a b : HilbEntry) (h1 : entry_le a b = true)
    (h2 : entry_le b a = true) : a = b := by
  have p1 := entry_le_points a b h1
  have p2 := entry_le_points b a h2
  have hv : a.1 = b.1 := by
    rcases vec_lt_total a.1 b.1 with h | h | h
    · rw [h] at p2
      cases p2
    · exact h
    · rw [h] at p1
      cases p1
  unfold entry_le at h1 h2
  rw [p1, p2] at h1 h2
  simp only [Bool.false_eq_true, if_false] at h1 h2
  have hk : a.2.1 = b.2.1 := by
    by_contra hne
    rcases Nat.lt_or_gt_of_ne hne with h | h
    · rw [if_pos h, if_neg (by omega)] at h2
      simp at h2
    · rw [if_neg (by omega), if_pos h] at h1
      simp at h1
  have hi : a.2.2 = b.2.2 := by
    rw [hk] at h1 h2
    simp only [lt_irrefl, if_false, decide_eq_true_eq] at h1 h2
    omega
  obtain ⟨a1, a2, a3⟩ := a
  obtain ⟨b1, b2, b3⟩ := b
  simp only at hv hk hi
  rw [hv, hk, hi]

/-- The sorted list of the entries does not depend on their order. -/
theorem sort_hilbs_perm (A B : List HilbEntry) (h : A.Perm B) : sort_hilbs A = sort_hilbs B := by
  unfold sort_hilbs
  have hsA := @List.sorted_insertionSort _ (fun a b : HilbEntry => entry_le a b = true) _
    ⟨entry_le_total⟩ ⟨entry_le_trans⟩ A
  have hsB := @List.sorted_insertionSort _ (fun a b : HilbEntry => entry_le a b = true) _
    ⟨entry_le_total⟩ ⟨entry_le_trans⟩ B
  have hp : (List.insertionSort (fun a b : HilbEntry => entry_le a b = true) A).Perm
      (List.insertionSort (fun a b : HilbEntry => entry_le a b = true) B) :=
    (List.perm_insertionSort _ A).trans (h.trans (List.perm_insertionSort _ B).symm)
  exact @List.eq_of_perm_of_sorted _ (fun a b : HilbEntry => entry_le a b = true)
    ⟨entry_le_antisymm⟩ _ _ hp hsA hsB

/-- `MiniCone::refine` uses of the kernel the facets and the volume only. -/
theorem refine_congr (K1 K2 : Kernel) (hsd : K1.simplex_data = K2.simplex_data)
    (hv : K1.vol = K2.vol) (key : Nat) :
    ∀ (fuel lvl plc : Nat) (C : ConeCollection),
      MiniCone.refine K1 key fuel lvl plc C = MiniCone.refine K2 key fuel lvl plc C := by
  have hstep : ∀ mc : MiniCone, subdivide_step K1 key mc = subdivide_step K2 key mc := by
    intro mc
    funext C j
    unfold subdivide_step
    rw [hv]
  have hhyp : ∀ (G : Mat) (mc : MiniCone), mc.hyperplanes K1 G = mc.hyperplanes K2 G := by
    intro G mc
    unfold MiniCone.hyperplanes
    rw [hsd]
  have hcache : ∀ (C : ConeCollection) (lvl plc : Nat),
      C.cache_facets K1 lvl plc = C.cache_facets K2 lvl plc := by
    intro C lvl plc
    unfold ConeCollection.cache_facets
    congr 1
    funext m
    rw [hhyp]
  intro fuel
  induction fuel with
  | zero =>
    intro lvl plc C
    rw [refine_zero, refine_zero]
  | succ fuel ih =>
    intro lvl plc C
    cases hc : C.cell lvl plc with
    | none => rw [refine_no_cell _ _ _ _ _ _ hc, refine_no_cell _ _ _ _ _ _ hc]
    | some mc =>
      rw [refine_succ K1 key fuel lvl plc C mc hc, refine_succ K2 key fuel lvl plc C mc hc,
        hhyp, hcache, hstep]
      have : (fun C2 d => MiniCone.refine K1 key fuel (mc.level + 1) d C2)
          = (fun C2 d => MiniCone.refine K2 key fuel (mc.level + 1) d C2) := by
        funext C2 d
        exact ih _ _ _
      rw [this]

theorem insert_hilbs_congr (K1 K2 : Kernel) (hsd : K1.simplex_data = K2.simplex_data)
    (hv : K1.vol = K2.vol) (C : ConeCollection) (L : List HilbEntry) :
    insert_hilbs K1 C L = insert_hilbs K2 C L := by
  unfold insert_hilbs
  have : insert_step K1 = insert_step K2 := by
    funext s H
    unfold insert_step
    simp only [refine_congr K1 K2 hsd hv]
  rw [this]

theorem collect_cell_perm (K : Kernel) (hb1 hb2 : Mat → Option (List Vec))
    (hsame : ∀ M, (hb1 M = none ∧ hb2 M = none) ∨
      ∃ L1 L2, hb1 M = some L1 ∧ hb2 M = some L2 ∧ L1.Perm L2)
    (C : ConeCollection) (p : Nat × Nat) :
    (collect_cell { K with hilbert_basis := hb1 } C p = none ∧
      collect_cell { K with hilbert_basis := hb2 } C p = none) ∨
    ∃ E1 E2, collect_cell { K with hilbert_basis := hb1 } C p = some E1 ∧
      collect_cell { K with hilbert_basis := hb2 } C p = some E2 ∧ E1.Perm E2 := by
  unfold collect_cell
  cases hc : C.cell p.1 p.2 with
  | none => exact Or.inr ⟨[], [], rfl, rfl, List.Perm.refl _⟩
  | some mc =>
    simp only
    rcases hsame (submatrix C.Generators mc.GenKeys) with ⟨h1, h2⟩ | ⟨L1, L2, h1, h2, hp⟩
    · rw [h1, h2]
      exact Or.inl ⟨rfl, rfl⟩
    · rw [h1, h2]
      exact Or.inr ⟨_, _, rfl, rfl, (hp.filter _).map _⟩

theorem collect_loop_perm (K : Kernel) (hb1 hb2 : Mat → Option (List Vec))
    (hsame : ∀ M, (hb1 M = none ∧ hb2 M = none) ∨
      ∃ L1 L2, hb1 M = some L1 ∧ hb2 M = some L2 ∧ L1.Perm L2)
    (C : ConeCollection) (ps : List (Nat × Nat)) :
    ∀ (A1 A2 : List HilbEntry), A1.Perm A2 →
      (collect_loop { K with hilbert_basis := hb1 } C ps A1 = none ∧
        collect_loop { K with hilbert_basis := hb2 } C ps A2 = none) ∨
      ∃ B1 B2, collect_loop { K with hilbert_basis := hb1 } C ps A1 = some B1 ∧
        collect_loop { K with hilbert_basis := hb2 } C ps A2 = some B2 ∧ B1.Perm B2 := by
  induction ps with
  | nil =>
    intro A1 A2 hp
    exact Or.inr ⟨A1, A2, rfl, rfl, hp⟩
  | cons p ps ih =>
    intro A1 A2 hp
    rw [collect_loop, collect_loop]
    rcases collect_cell_perm K hb1 hb2 hsame C p with ⟨h1, h2⟩ | ⟨E1, E2, h1, h2, hE⟩
    · rw [h1, h2]
      exact Or.inl ⟨rfl, rfl⟩
    · rw [h1, h2]
      exact ih _ _ (hp.append hE)

/-- C39. Determinism of a round: let two oracles return for every cone the
same points without repetitions, listed in any order, or both fail.  Then in
every round the list `AllHilbs` after `AllHilbs.sort()` is the same for both, for
the entries are sorted by value, level and position (the order `entry_le`); and
the runs of
`make_unimodular` end alike: they return the same `Generators`, `Members` and
`AllRays`, or both end by the failure of the oracle with the same forest, or
both are still running after the same number of rounds. -/
theorem make_unimodular_order_independent (K : Kernel) (hb1 hb2 : Mat → Option (List Vec))
    (hsame : ∀ M, (hb1 M = none ∧ hb2 M = none) ∨
      ∃ L1 L2, hb1 M = some L1 ∧ hb2 M = some L2 ∧ L1.Nodup ∧ L2.Nodup ∧
        ∀ x, x ∈ L1 ↔ x ∈ L2) :
    (∀ C : ConeCollection,
      (C.collect { K with hilbert_basis := hb1 }).map sort_hilbs
        = (C.collect { K with hilbert_basis := hb2 }).map sort_hilbs) ∧
    (∀ A : List HilbEntry,
      List.Sorted (fun a b => entry_le a b = true) (sort_hilbs A)) ∧
    (∀ (fuel : Nat) (C : ConeCollection),
      C.make_unimodular { K with hilbert_basis := hb1 } fuel
        = C.make_unimodular { K with hilbert_basis := hb2 } fuel) := by
  have hperm : ∀ M, (hb1 M = none ∧ hb2 M = none) ∨
      ∃ L1 L2, hb1 M = some L1 ∧ hb2 M = some L2 ∧ L1.Perm L2 := by
    intro M
    rcases hsame M with h | ⟨L1, L2, h1, h2, n1, n2, hm⟩
    · exact Or.inl h
    · exact Or.inr ⟨L1, L2, h1, h2, (List.perm_ext_iff_of_nodup n1 n2).mpr hm⟩
  have hcollect : ∀ C : ConeCollection,
      (C.collect { K with hilbert_basis := hb1 } = none ∧
        C.collect { K with hilbert_basis := hb2 } = none) ∨
      ∃ B1 B2, C.collect { K with hilbert_basis := hb1 } = some B1 ∧
        C.collect { K with hilbert_basis := hb2 } = some B2 ∧ B1.Perm B2 := by
    intro C
    unfold ConeCollection.collect
    exact collect_loop_perm K hb1 hb2 hperm C _ [] [] (List.Perm.refl _)
  constructor
  · intro C
    rcases hcollect C with ⟨h1, h2⟩ | ⟨B1, B2, h1, h2, hp⟩
    · rw [h1, h2]
    · rw [h1, h2]
      simp only [Option.map_some']
      rw [sort_hilbs_perm B1 B2 hp]
  constructor
  · intro A
    exact @List.sorted_insertionSort _ (fun a b : HilbEntry => entry_le a b = true) _
      ⟨entry_le_total⟩ ⟨entry_le_trans⟩ A
  · intro fuel
    induction fuel with
    | zero =>
      intro C
      rw [ConeCollection.make_unimodular, ConeCollection.make_unimodular]
    | succ fuel ih =>
      intro C
      rw [ConeCollection.make_unimodular, ConeCollection.make_unimodular]
      rcases hcollect C with ⟨h1, h2⟩ | ⟨B1, B2, h1, h2, hp⟩
      · rw [h1, h2]
      · rw [h1, h2]
        simp only
        have he : B1.isEmpty = B2.isEmpty := by
          cases B1 with
          | nil => rw [List.nil_perm.mp hp]
          | cons a B1 =>
            cases B2 with
            | nil => exact absurd (List.perm_nil.mp hp) (List.cons_ne_nil _ _)
            | cons b B2 => rfl
        rw [he, sort_hilbs_perm B1 B2 hp,
          insert_hilbs_congr { K with hilbert_basis := hb1 } { K with hilbert_basis := hb2 }
            rfl rfl, ih]

set_option maxRecDepth 40000 in
/-- Witness for `make_unimodular_order_independent`: the two oracles for the
cone over `(1,0)`, `(1,3)` list its Hilbert basis in two orders; both runs
return the forest with the rays `(1,1)` and `(1,2)` appended in this order. -/
theorem make_unimodular_order_independent_witness :
    (∀ M, (wide_oracle M = none ∧ wide_oracle_shuffled M = none) ∨
      ∃ L1 L2, wide_oracle M = some L1 ∧ wide_oracle_shuffled M = some L2 ∧ L1.Nodup ∧
        L2.Nodup ∧ ∀ x, x ∈ L1 ↔ x ∈ L2) ∧
    ((wide_forest.make_unimodular (exactKernel wide_oracle) 2)
      = wide_forest.make_unimodular (exactKernel wide_oracle_shuffled) 2) ∧
    (match wide_forest.make_unimodular (exactKernel wide_oracle) 2 with
      | Outcome.returned R => R.Generators
      | _ => []) = [[1, 0], [1, 3], [1, 1], [1, 2]] :=
  have hsame : ∀ M, (wide_oracle M = none ∧ wide_oracle_shuffled M = none) ∨
      ∃ L1 L2, wide_oracle M = some L1 ∧ wide_oracle_shuffled M = some L2 ∧ L1.Nodup ∧
        L2.Nodup ∧ ∀ x, x ∈ L1 ↔ x ∈ L2 := by
    intro M
    unfold wide_oracle wide_oracle_shuffled
    by_cases hM : M = [[1, 0], [1, 3]]
    · right
      rw [if_pos hM, if_pos hM]
      refine ⟨_, _, rfl, rfl, by decide, by decide, ?_⟩
      intro x
      simp only [List.mem_cons, List.mem_singleton, List.not_mem_nil, or_false]
      tauto
    · left
      rw [if_neg hM, if_neg hM]
      exact ⟨rfl, rfl⟩
  ⟨hsame,
    (make_unimodular_order_independent (exactKernel failing_oracle) wide_oracle
      wide_oracle_shuffled hsame).2.2 2 wide_forest,
    rfl⟩





/-! ## The forest is a family of trees in every state -/

theorem refine_poll_clear (K : Kernel) (key fuel lvl plc : Nat) (C : ConeCollection) (t : Nat) :
    ∃ t1, MiniCone.refine_poll (fun _ => false) K key fuel lvl plc C t
      = Polled.returned (MiniCone.refine K key fuel lvl plc C) t1 := by
  have h := refine_poll_spec (fun _ => false) K key fuel lvl plc C t
  cases hr : MiniCone.refine_poll (fun _ => false) K key fuel lvl plc C t with
  | returned R t1 =>
    rw [hr] at h
    exact ⟨t1, by rw [h.1]⟩
  | interrupted R t1 =>
    rw [hr] at h
    exact absurd h.2.1 (by simp)

theorem fold_poll_clear (K : Kernel) (key fuel k1 : Nat) :
    ∀ (ds : List Nat) (C : ConeCollection) (t : Nat), ∃ t1,
      ds.foldl (fun r d => r.andThen (MiniCone.refine_poll (fun _ => false) K key fuel k1 d))
        (Polled.returned C t)
      = Polled.returned (ds.foldl (fun C2 d => MiniCone.refine K key fuel k1 d C2) C) t1 := by
  intro ds
  induction ds with
  | nil => intro C t; exact ⟨t, rfl⟩
  | cons d ds ih =>
    intro C t
    obtain ⟨t1, h1⟩ := refine_poll_clear K key fuel k1 d C t
    obtain ⟨t2, h2⟩ := ih (MiniCone.refine K key fuel k1 d C) t1
    exact ⟨t2, by rw [List.foldl_cons, List.foldl_cons, andThen_returned, h1, h2]⟩

/-- A call of `MiniCone::refine` on a cell that existed with all cells below it
as the operation began. -/
theorem walk_refine (K : Kernel) (key : Nat) (N : Nat → Nat) (fuel lvl plc : Nat)
    (C : ConeCollection) (hW : Walk N C) (hcl : Clean N C lvl plc) :
    Walk N (MiniCone.refine K key fuel lvl plc C) ∧
    Extends C (MiniCone.refine K key fuel lvl plc C) ∧
    Apart C (MiniCone.refine K key fuel lvl plc C) lvl plc ∧
    (MiniCone.refine K key fuel lvl plc C).Members.length = C.Members.length := by
  obtain ⟨t1, h⟩ := refine_poll_clear K key fuel lvl plc C 0
  exact walk_refine_poll (fun _ => false) K key N fuel lvl plc C 0 hW hcl _ t1 (Or.inl h)

/-- A loop of calls of `MiniCone::refine` over cells of one level that existed
with all cells below them as the operation began. -/
theorem walk_level (K : Kernel) (key fuel : Nat) (N : Nat → Nat) (k1 : Nat) (ds : List Nat)
    (C : ConeCollection) (hnd : ds.Nodup) (hW : Walk N C) (hcl : ∀ d ∈ ds, Clean N C k1 d)
    (hcells : ∀ d ∈ ds, ∃ m, C.cell k1 d = some m) :
    Walk N (ds.foldl (fun C2 d => MiniCone.refine K key fuel k1 d C2) C) ∧
    Extends C (ds.foldl (fun C2 d => MiniCone.refine K key fuel k1 d C2) C) ∧
    (ds.foldl (fun C2 d => MiniCone.refine K key fuel k1 d C2) C).Members.length
      = C.Members.length := by
  obtain ⟨t1, h⟩ := fold_poll_clear K key fuel k1 ds C 0
  obtain ⟨a, b, c, _⟩ := walk_daughters (fun _ => false) K key fuel N k1
    (fun plc C1 t h1 h2 R t1 h3 =>
      walk_refine_poll (fun _ => false) K key N fuel k1 plc C1 t h1 h2 R t1 h3)
    ds C 0 hnd hW hcl hcells _ t1 (Or.inl h)
  exact ⟨a, b, c⟩

/-- A family of trees whose last level is empty is the state in which a walk
begins, and every cell is an old cell with old cells below it. -/
theorem walk_of_last_empty (C : ConeCollection) (hW : Wood C)
    (hlast : ∀ i, C.cell (C.Members.length - 1) i = none) :
    Walk (fun k => if k + 1 < C.Members.length then (C.Members.getD k []).length else 0) C ∧
    ∀ lvl plc m, C.cell lvl plc = some m →
      Clean (fun k => if k + 1 < C.Members.length then (C.Members.getD k []).length else 0)
        C lvl plc := by
  refine ⟨⟨hW, ?_, ?_, ?_⟩, ?_⟩
  · intro k
    show (if k + 1 < C.Members.length then (C.Members.getD k []).length else 0) ≤ _
    split
    · exact le_refl _
    · exact Nat.zero_le _
  · intro k i mc hmc hN
    have hi := (cell_lt C k i mc hmc).2
    by_cases hk : k + 1 < C.Members.length
    · simp only [if_pos hk] at hN
      omega
    · apply List.eq_nil_iff_forall_not_mem.mpr
      intro d hd
      have := hW.daughters_lt k i mc hmc d hd
      rw [List.getD_eq_getElem?_getD, List.getElem?_eq_none (by omega)] at this
      simp at this
  · intro i mc _
    have : ¬ (C.Members.length - 1 + 1 < C.Members.length) := by omega
    simp only [if_neg this]
    exact Nat.zero_le _
  · intro lvl plc m hm
    exact (walk_of_room C lvl plc hW ⟨m, hm⟩
      (room_of_last_empty C hW hlast lvl plc ⟨m, hm⟩)).2

theorem filled_of_extends (C R : ConeCollection) (hE : Extends C R)
    (hlen : R.Members.length = C.Members.length) (h : C.filled) : R.filled := by
  intro k hk
  rw [hlen] at hk
  have h1 := h k hk
  obtain ⟨m, hm⟩ := cell_of_lt C k 0 (List.length_pos.mpr h1)
  obtain ⟨m1, _, hm1, _⟩ := hE k 0 m hm
  exact List.length_pos.mp (by have := (cell_lt R k 0 m1 hm1).2; omega)

theorem last_empty_ensure_level (C : ConeCollection) (hne : C.Members ≠ []) (i : Nat) :
    C.ensure_level.cell (C.ensure_level.Members.length - 1) i = none := by
  rw [cell_eq, ensure_level_last C hne]
  rfl

theorem sane_ensure_level (C : ConeCollection) (h : Sane C) : Sane C.ensure_level := by
  have hne := h.levels
  obtain ⟨L, hL⟩ : ∃ L, C.Members.getLast? = some L := by
    rw [List.getLast?_eq_getLast _ hne]
    exact ⟨_, rfl⟩
  refine ⟨wood_ensure_level C h.wood, ?_, ?_⟩
  · unfold ConeCollection.ensure_level
    rw [hL]
    simp only
    split
    · exact hne
    · simp
  · have hfill := h.filled
    unfold ConeCollection.filled at hfill ⊢
    unfold ConeCollection.ensure_level
    rw [hL]
    simp only
    split
    · exact hfill
    · rename_i hnem
      intro k hk
      simp only [List.length_append, List.length_singleton] at hk
      have hk1 : k < C.Members.length := by omega
      rw [List.getD_eq_getElem?_getD, List.getElem?_append_left hk1,
        ← List.getD_eq_getElem?_getD]
      by_cases hk2 : k + 1 < C.Members.length
      · exact hfill k hk2
      · have hkl : k = C.Members.length - 1 := by omega
        rw [List.getLast?_eq_getElem?, ← hkl] at hL
        rw [List.getD_eq_getElem?_getD, hL]
        simp only [Option.getD_some]
        intro hnil
        apply hnem
        rw [hnil]
        rfl

theorem sane_append_gen (C : ConeCollection) (v : Vec) (h : Sane C) :
    Sane { C with Generators := C.Generators ++ [v] } :=
  ⟨wood_append_gen C v h.wood, h.levels, h.filled⟩

/-- A call of `MiniCone::refine` in a state whose last level is empty. -/
theorem sane_refine_cell (K : Kernel) (key fuel lvl plc : Nat) (C : ConeCollection)
    (h : Sane C) (hlast : ∀ i, C.cell (C.Members.length - 1) i = none) :
    Sane (MiniCone.refine K key fuel lvl plc C) := by
  cases hc : C.cell lvl plc with
  | none =>
    rw [refine_no_cell K key fuel lvl plc C hc]
    exact h
  | some m =>
    obtain ⟨hW, hcl⟩ := walk_of_last_empty C h.wood hlast
    obtain ⟨a, b, _, c⟩ := walk_refine K key _ fuel lvl plc C hW (hcl lvl plc m hc)
    refine ⟨a.wood, ?_, filled_of_extends C _ b c h.filled⟩
    intro hnil
    rw [hnil] at c
    exact h.levels (List.length_eq_zero.mp c.symm)

theorem sane_refine (K : Kernel) (C : ConeCollection) (key : Nat) (h : Sane C) :
    Sane (C.refine K key) := by
  unfold ConeCollection.refine
  split
  · exact h
  · have h1 := sane_ensure_level C h
    have hlast := last_empty_ensure_level C h.levels
    obtain ⟨hW, hcl⟩ := walk_of_last_empty C.ensure_level h1.wood hlast
    have hcells : ∀ d ∈ List.range (C.ensure_level.Members.getD 0 []).length,
        ∃ m, C.ensure_level.cell 0 d = some m :=
      fun d hd => cell_of_lt _ 0 d (List.mem_range.mp hd)
    obtain ⟨a, b, c⟩ := walk_level K key C.ensure_level.Members.length _ 0
      (List.range (C.ensure_level.Members.getD 0 []).length) C.ensure_level
      (List.nodup_range _) hW
      (fun d hd => by
        obtain ⟨m, hm⟩ := hcells d hd
        exact hcl 0 d m hm)
      hcells
    refine ⟨a.wood, ?_, filled_of_extends _ _ b c h1.filled⟩
    intro hnil
    simp only at hnil
    rw [hnil] at c
    exact h1.levels (List.length_eq_zero.mp c.symm)

theorem sane_insert_step (K : Kernel) (s : InsertState) (H : HilbEntry) (h : Sane s.coll) :
    Sane (insert_step K s H).coll := by
  have h1 := sane_ensure_level s.coll h
  have hlast := last_empty_ensure_level s.coll h.levels
  by_cases hH : H.1 = s.last_inserted
  · rw [insert_step_old K s H hH]
    exact sane_refine_cell K _ _ _ _ _ h1 hlast
  · rw [insert_step_new K s H hH]
    exact sane_refine_cell K _ _ _ _ _ (sane_append_gen _ H.1 h1) hlast

theorem stable_sane (K : Kernel) : Stable K Sane where
  append_gen := sane_append_gen
  refine := sane_refine K
  insert_step := sane_insert_step K

theorem stable_insert_all_gens (K : Kernel) (Q : ConeCollection → Prop) (hI : Stable K Q)
    (C : ConeCollection) (hQ : Q C) : Q (C.insert_all_gens K) := by
  rw [insert_all_gens_fold K C]
  have : ∀ (l : List Nat) (C2 : ConeCollection), Q C2 →
      Q (l.foldl (fun C3 i => C3.refine K i) C2) := by
    intro l
    induction l with
    | nil => intro C2 h2; exact h2
    | cons i l ih =>
      intro C2 h2
      rw [List.foldl_cons]
      exact ih _ (hI.refine C2 i h2)
  exact this _ C hQ

theorem stable_add_extra_generators (K : Kernel) (Q : ConeCollection → Prop)
    (hI : Stable K Q) (C : ConeCollection) (NewGens : Mat) (hQ : Q C) :
    Q (C.add_extra_generators NewGens) := by
  unfold ConeCollection.add_extra_generators
  have : ∀ (l : Mat) (C2 : ConeCollection), Q C2 → Q (l.foldl (fun C1 v =>
      if v ∈ C1.AllRays then C1 else { C1 with Generators := C1.Generators ++ [v] }) C2) := by
    intro l
    induction l with
    | nil => intro C2 h2; exact h2
    | cons v l ih =>
      intro C2 h2
      rw [List.foldl_cons]
      apply ih
      split
      · exact h2
      · exact hI.append_gen C2 v h2
  exact this _ C hQ

theorem stable_insert_hilbs (K : Kernel) (Q : ConeCollection → Prop) (hI : Stable K Q)
    (C : ConeCollection) (AllHilbs : List HilbEntry) (hQ : Q C) :
    Q (insert_hilbs K C AllHilbs) := by
  unfold insert_hilbs
  have : ∀ (l : List HilbEntry) (s : InsertState), Q s.coll →
      Q (l.foldl (insert_step K) s).coll := by
    intro l
    induction l with
    | nil => intro s hs; exact hs
    | cons H l ih =>
      intro s hs
      rw [List.foldl_cons]
      exact ih _ (hI.insert_step s H hs)
  exact this _ _ hQ

theorem stable_make_unimodular (K : Kernel) (Q : ConeCollection → Prop)
    (hI : Stable K Q) :
    ∀ (fuel : Nat) (C R : ConeCollection), Q C →
      (C.make_unimodular K fuel = Outcome.returned R ∨
        C.make_unimodular K fuel = Outcome.oracle_failed R) → Q R := by
  intro fuel
  induction fuel with
  | zero =>
    intro C R _ hr
    rw [ConeCollection.make_unimodular] at hr
    rcases hr with hr | hr <;> cases hr
  | succ fuel ih =>
    intro C R hQ hr
    rw [ConeCollection.make_unimodular] at hr
    cases hc : C.collect K with
    | none =>
      rw [hc] at hr
      simp only at hr
      rcases hr with hr | hr
      · cases hr
      · injection hr with hr
        rw [← hr]
        exact hQ
    | some AllHilbs =>
      rw [hc] at hr
      simp only at hr
      by_cases he : AllHilbs.isEmpty
      · rw [if_pos he] at hr
        rcases hr with hr | hr
        · injection hr with hr
          rw [← hr]
          exact hQ
        · cases hr
      · rw [if_neg he] at hr
        exact ih _ R (stable_insert_hilbs K Q hI C _ hQ) hr

theorem stable_operation (K : Kernel) (Q : ConeCollection → Prop) (hI : Stable K Q)
    (C R : ConeCollection) (h : Operation K C R) (hQ : Q C) : Q R := by
  cases h with
  | add_extra_generators NewGens => exact stable_add_extra_generators K Q hI C NewGens hQ
  | refine key => exact hI.refine C key hQ
  | insert_all_gens => exact stable_insert_all_gens K Q hI C hQ
  | make_unimodular _ fuel hm => exact stable_make_unimodular K Q hI fuel C R hQ (Or.inl hm)
  | make_unimodular_failed _ fuel hm =>
    exact stable_make_unimodular K Q hI fuel C R hQ (Or.inr hm)

theorem stable_reached (K : Kernel) (Q : ConeCollection → Prop) (hI : Stable K Q)
    (C0 C : ConeCollection) (h : Reached K C0 C) (hQ : Q C0) : Q C := by
  induction h with
  | start => exact hQ
  | step C1 R _ hop ih => exact stable_operation K Q hI C1 R hop ih

theorem sane_from_triangulation (Gens : Mat) (T : List (List Nat × Int)) :
    Sane (ConeCollection.from_triangulation Gens T) := by
  obtain ⟨L, hM, _, _⟩ := from_triangulation_members Gens T
  refine ⟨wood_from_triangulation Gens T, ?_, ?_⟩
  · rw [hM]
    exact List.cons_ne_nil _ _
  · intro k hk
    rw [hM] at hk
    simp at hk

theorem sane_reached (K : Kernel) (Gens : Mat) (T : List (List Nat × Int))
    (C : ConeCollection) (h : Reached K (ConeCollection.from_triangulation Gens T) C) :
    Sane C :=
  stable_reached K Sane (stable_sane K) _ C h (sane_from_triangulation Gens T)

/-- C34. Tree well-formedness: in every state that calls of
`add_extra_generators`, `ConeCollection::refine`, `insert_all_gens` and
`make_unimodular` reach from the forest the constructor builds, every entry `d`
of the `Daughters` of a cell at level `L` is smaller than the size of
`Members[L+1]`; every cell at a level `L+1` is in the `Daughters` of exactly one
cell of level `L`, where it appears once; and no level-0 cell is a daughter: an
entry of a `Daughters` list is the position of a cell that stores a level above
0, while the cells of level 0 store the level 0. -/
theorem tree_well_formed (K : Kernel) (Gens : Mat) (T : List (List Nat × Int))
    (C : ConeCollection) (h : Reached K (ConeCollection.from_triangulation Gens T) C) :
    (∀ L i mc, C.cell L i = some mc →
      ∀ d ∈ mc.Daughters, d < (C.Members.getD (L + 1) []).length) ∧
    (∀ L i, i < (C.Members.getD (L + 1) []).length →
      ∃ p mp, C.cell L p = some mp ∧ mp.Daughters.count i = 1 ∧
        ∀ p1 mp1, C.cell L p1 = some mp1 → i ∈ mp1.Daughters → p1 = p) ∧
    (∀ L i mc d, C.cell L i = some mc → d ∈ mc.Daughters →
      ∃ md, C.cell (L + 1) d = some md ∧ md.level = L + 1 ∧ md.my_place = d) ∧
    (∀ i mc, C.cell 0 i = some mc → mc.level = 0 ∧
      ∀ L p mp, C.cell L p = some mp → ∀ d ∈ mp.Daughters, C.cell (L + 1) d ≠ some mc) := by
  have hW := (sane_reached K Gens T C h).wood
  have h3 : ∀ L i mc d, C.cell L i = some mc → d ∈ mc.Daughters →
      ∃ md, C.cell (L + 1) d = some md ∧ md.level = L + 1 ∧ md.my_place = d := by
    intro L i mc d hc hd
    obtain ⟨md, hmd⟩ := cell_of_lt C (L + 1) d (hW.daughters_lt L i mc hc d hd)
    exact ⟨md, hmd, hW.coords (L + 1) d md hmd⟩
  refine ⟨hW.daughters_lt, ?_, h3, ?_⟩
  · intro L i hi
    obtain ⟨p, mp, hp, hmem⟩ := hW.has_parent L i hi
    refine ⟨p, mp, hp, List.count_eq_one_of_mem (hW.nodup L p mp hp) hmem, ?_⟩
    intro p1 mp1 hp1 hmem1
    exact hW.one_parent L p1 p mp1 mp i hp1 hp hmem1 hmem
  · intro i mc hc
    have h0 := (hW.coords 0 i mc hc).1
    refine ⟨h0, ?_⟩
    intro L p mp hp d hd heq
    obtain ⟨md, hmd, hl, _⟩ := h3 L p mp d hp hd
    rw [heq] at hmd
    injection hmd with hmd
    rw [hmd, hl] at h0
    omega

set_option maxRecDepth 20000 in
/-- Witness for `tree_well_formed`: the forest `make_unimodular` leaves in
the scenario, where the cell of level 0 has the two cells of level 1 as its
daughters. -/
theorem tree_well_formed_witness :
    Reached (exactKernel scenario_oracle)
      (ConeCollection.from_triangulation [[1, 0], [1, 2]] [([0, 1], 2)]) scenario_result ∧
    (scenario_result.cell 0 0).map (fun mc => mc.Daughters) = some [0, 1] ∧
    (scenario_result.Members.getD 1 []).length = 2 ∧
    (∀ L i, i < (scenario_result.Members.getD (L + 1) []).length →
      ∃ p mp, scenario_result.cell L p = some mp ∧ mp.Daughters.count i = 1 ∧
        ∀ p1 mp1, scenario_result.cell L p1 = some mp1 → i ∈ mp1.Daughters → p1 = p) :=
  ⟨Reached.step _ _ Reached.start
      (Operation.make_unimodular scenario_forest scenario_result 2 scenario_run),
    rfl, rfl,
    (tree_well_formed (exactKernel scenario_oracle) [[1, 0], [1, 2]] [([0, 1], 2)]
      scenario_result (Reached.step _ _ Reached.start
        (Operation.make_unimodular scenario_forest scenario_result 2 scenario_run))).2.1⟩





/-! ## Index safety of the levels -/

theorem refine_checked_succ (K : Kernel) (key fuel lvl plc : Nat) (C : ConeCollection)
    (mc : MiniCone) (hc : C.cell lvl plc = some mc) :
    MiniCone.refine_checked K key (fuel + 1) lvl plc C =
      match facet_loop (row C.Generators key) (mc.hyperplanes K C.Generators) 0 [] with
      | none => some (C.cache_facets K lvl plc)
      | some opp =>
        if opp.length = 1 then some (C.cache_facets K lvl plc)
        else if mc.Daughters.length > 0 then
          mc.Daughters.foldl
            (fun r d => r.bind (MiniCone.refine_checked K key fuel (mc.level + 1) d))
            (some (C.cache_facets K lvl plc))
        else
          opp.foldl (fun r j => r.bind (fun C2 => subdivide_step_checked K key mc C2 j))
            (some (C.cache_facets K lvl plc)) := by
  have hcf : C.updateCell lvl plc
      (fun m => { m with SupportHyperplanes := mc.hyperplanes K C.Generators })
      = C.cache_facets K lvl plc := by
    unfold ConeCollection.cache_facets
    apply updateCell_congr
    intro m hm
    rw [hc] at hm
    injection hm with hm
    subst hm
    rfl
  rw [MiniCone.refine_checked]
  simp only [hc, hcf]

/-- Every pass of the subdivision loop on an old cell finds the next level
and the mother in `Members`. -/
theorem subdivide_checked_fold (K : Kernel) (key : Nat) (mc : MiniCone) (N : Nat → Nat) :
    ∀ (l : List Nat) (C : ConeCollection), Walk N C →
      (∃ m, C.cell mc.level mc.my_place = some m) → mc.my_place < N mc.level →
      l.foldl (fun r j => r.bind (fun C2 => subdivide_step_checked K key mc C2 j)) (some C)
        = some (l.foldl (subdivide_step K key mc) C) := by
  intro l
  induction l with
  | nil => intro C _ _ _; rfl
  | cons j l ih =>
    intro C h hm hold
    obtain ⟨m, hm⟩ := hm
    rw [List.foldl_cons, List.foldl_cons, Option.some_bind]
    have hk := walk_next_level N C mc.level mc.my_place m h hm hold
    have hstep : subdivide_step_checked K key mc C j = some (subdivide_step K key mc C j) := by
      unfold subdivide_step_checked
      rw [if_pos ⟨hk, by rw [hm]; rfl⟩]
    rw [hstep]
    exact ih _ (walk_add_minicone N C mc.level mc.my_place _ _ m h hm hold)
      ⟨_, cell_add_minicone_mother C mc.level mc.my_place _ _ m hm⟩ hold

/-- The loop over cells of one level, given that the call on one cell reads in
range. -/
theorem checked_level (K : Kernel) (key fuel : Nat) (N : Nat → Nat) (k1 : Nat)
    (ih : ∀ (plc : Nat) (C : ConeCollection), Walk N C → Clean N C k1 plc →
      (∃ m, C.cell k1 plc = some m) → C.Members.length ≤ k1 + fuel →
      MiniCone.refine_checked K key fuel k1 plc C
        = some (MiniCone.refine K key fuel k1 plc C)) :
    ∀ (ds : List Nat) (C2 : ConeCollection), ds.Nodup → Walk N C2 →
      (∀ d ∈ ds, Clean N C2 k1 d) → (∀ d ∈ ds, ∃ m, C2.cell k1 d = some m) →
      C2.Members.length ≤ k1 + fuel →
      ds.foldl (fun r d => r.bind (MiniCone.refine_checked K key fuel k1 d)) (some C2)
        = some (ds.foldl (fun C d => MiniCone.refine K key fuel k1 d C) C2) := by
  intro ds
  induction ds with
  | nil => intro C2 _ _ _ _ _; rfl
  | cons d ds ihd =>
    intro C2 hnd hW hclean hcells hlen
    rw [List.foldl_cons, List.foldl_cons, Option.some_bind,
      ih d C2 hW (hclean d (List.mem_cons_self _ _)) (hcells d (List.mem_cons_self _ _)) hlen]
    obtain ⟨a1, a2, a3, a4⟩ := walk_refine K key N fuel k1 d C2 hW
      (hclean d (List.mem_cons_self _ _))
    have hne : ∀ d1 ∈ ds, d1 ≠ d := by
      intro d1 hd1 heq
      rw [heq] at hd1
      exact (List.nodup_cons.mp hnd).1 hd1
    apply ihd _ (List.nodup_cons.mp hnd).2 a1
    · intro d1 h1
      exact clean_transfer N C2 _ k1 d d1 hW.wood a3 (hne d1 h1)
        (hcells d1 (List.mem_cons_of_mem _ h1)) (hclean d1 (List.mem_cons_of_mem _ h1))
    · intro d1 h1
      obtain ⟨m, hm⟩ := hcells d1 (List.mem_cons_of_mem _ h1)
      obtain ⟨m1, _, hm1, _⟩ := a2 k1 d1 m hm
      exact ⟨m1, hm1⟩
    · rw [a4]
      exact hlen

/-- A call of `MiniCone::refine` on a cell that existed with all cells below
it as the operation began, with a bound on the depth that reaches the last
level, reads `Members` in range only and returns the forest of the unchecked
call. -/
theorem refine_checked_eq (K : Kernel) (key : Nat) (N : Nat → Nat) :
    ∀ (fuel lvl plc : Nat) (C : ConeCollection), Walk N C → Clean N C lvl plc →
      (∃ m, C.cell lvl plc = some m) → C.Members.length ≤ lvl + fuel →
      MiniCone.refine_checked K key fuel lvl plc C
        = some (MiniCone.refine K key fuel lvl plc C) := by
  intro fuel
  induction fuel with
  | zero =>
    intro lvl plc C _ _ hc hlen
    obtain ⟨m, hm⟩ := hc
    have := (cell_lt C lvl plc m hm).1
    omega
  | succ fuel ih =>
    intro lvl plc C hW hclean hc hlen
    obtain ⟨mc, hc⟩ := hc
    have hW1 := walk_cache K N C lvl plc hW
    have hsame := cache_facets_same K C lvl plc
    obtain ⟨hlv, hpl⟩ := hW.wood.coords lvl plc mc hc
    have hback : ∀ l q Y, (C.cache_facets K lvl plc).cell l q = some Y →
        ∃ Y0, C.cell l q = some Y0 ∧ Y0.Daughters = Y.Daughters := by
      intro l q Y hY
      obtain ⟨m, hm, _, _, a3, _⟩ := cache_facets_back K C lvl plc l q Y hY
      exact ⟨m, hm, a3.symm⟩
    rw [refine_checked_succ K key fuel lvl plc C mc hc, refine_succ K key fuel lvl plc C mc hc]
    cases hfl : facet_loop (row C.Generators key) (mc.hyperplanes K C.Generators) 0 [] with
    | none => rfl
    | some opp =>
      simp only
      by_cases hone : opp.length = 1
      · rw [if_pos hone, if_pos hone]
      · rw [if_neg hone, if_neg hone]
        by_cases hd : mc.Daughters.length > 0
        · rw [if_pos hd, if_pos hd, hlv]
          have hcl : ∀ d ∈ mc.Daughters, Clean N (C.cache_facets K lvl plc) (lvl + 1) d := by
            intro d hdm n q hb
            have h1 := below_of_same C _ hback n (lvl + 1) d q hb
            have h2 : below C (n + 1) lvl plc q := ⟨mc, d, hc, hdm, h1⟩
            have := hclean (n + 1) q h2
            rw [show lvl + 1 + n = lvl + (n + 1) by omega]
            exact this
          have hcells : ∀ d ∈ mc.Daughters,
              ∃ m, (C.cache_facets K lvl plc).cell (lvl + 1) d = some m := by
            intro d hdm
            obtain ⟨m, hm⟩ := cell_of_lt C (lvl + 1) d (hW.wood.daughters_lt lvl plc mc hc d hdm)
            obtain ⟨Y1, h1, _⟩ := hsame (lvl + 1) d m hm
            exact ⟨Y1, h1⟩
          exact checked_level K key fuel N (lvl + 1)
            (fun plc1 C1 h1 h2 h3 h4 => ih (lvl + 1) plc1 C1 h1 h2 h3 h4)
            mc.Daughters _ (hW.wood.nodup lvl plc mc hc) hW1 hcl hcells
            (by rw [cache_facets_members_length]; omega)
        · rw [if_neg hd, if_neg hd]
          have hold : mc.my_place < N mc.level := by
            rw [hlv, hpl]
            exact hclean 0 plc rfl
          have hmother : ∃ m, (C.cache_facets K lvl plc).cell mc.level mc.my_place = some m := by
            rw [hlv, hpl]
            exact ⟨_, cache_facets_cell K C lvl plc mc hc⟩
          exact subdivide_checked_fold K key mc N opp _ hW1 hmother hold

/-- A call of `MiniCone::refine` on a cell of a state whose last level is
empty reads `Members` in range only. -/
theorem sane_refine_checked (K : Kernel) (key lvl plc : Nat) (C : ConeCollection)
    (h : Sane C) (hlast : ∀ i, C.cell (C.Members.length - 1) i = none)
    (hc : ∃ m, C.cell lvl plc = some m) :
    MiniCone.refine_checked K key C.Members.length lvl plc C
      = some (MiniCone.refine K key C.Members.length lvl plc C) := by
  obtain ⟨m, hm⟩ := hc
  obtain ⟨hW, hcl⟩ := walk_of_last_empty C h.wood hlast
  exact refine_checked_eq K key _ _ lvl plc C hW (hcl lvl plc m hm) ⟨m, hm⟩ (by omega)

theorem getLast_of_sane (C : ConeCollection) (h : Sane C) : ∃ L, C.Members.getLast? = some L := by
  rw [List.getLast?_eq_getLast _ h.levels]
  exact ⟨_, rfl⟩

theorem coll_refine_checked (K : Kernel) (C : ConeCollection) (key : Nat) (h : Sane C) :
    C.refine_checked K key = some (C.refine K key) := by
  unfold ConeCollection.refine_checked ConeCollection.refine
  split
  · rfl
  · obtain ⟨L, hL⟩ := getLast_of_sane C h
    rw [hL]
    simp only
    have h1 := sane_ensure_level C h
    have hlast := last_empty_ensure_level C h.levels
    obtain ⟨hW, hcl⟩ := walk_of_last_empty C.ensure_level h1.wood hlast
    have hcells : ∀ d ∈ List.range (C.ensure_level.Members.getD 0 []).length,
        ∃ m, C.ensure_level.cell 0 d = some m :=
      fun d hd => cell_of_lt _ 0 d (List.mem_range.mp hd)
    exact checked_level K key C.ensure_level.Members.length _ 0
      (fun plc C1 a1 a2 a3 a4 => refine_checked_eq K key _ _ 0 plc C1 a1 a2 a3 a4)
      _ C.ensure_level (List.nodup_range _) hW
      (fun d hd => by
        obtain ⟨m, hm⟩ := hcells d hd
        exact hcl 0 d m hm)
      hcells (by omega)

theorem insert_step_checked_eq (K : Kernel) (s : InsertState) (H : HilbEntry)
    (h : Sane s.coll) (hc : ∃ m, s.coll.cell H.2.1 H.2.2 = some m) :
    insert_step_checked K s H = some (insert_step K s H) := by
  obtain ⟨L, hL⟩ := getLast_of_sane s.coll h
  have h1 := sane_ensure_level s.coll h
  have hlast := last_empty_ensure_level s.coll h.levels
  obtain ⟨m, hm⟩ := hc
  have hm1 := ensure_level_cell s.coll _ _ m hm
  unfold insert_step_checked
  rw [hL]
  simp only
  by_cases hH : H.1 = s.last_inserted
  · rw [insert_step_old K s H hH]
    simp only [hH, ne_eq, not_true_eq_false, if_false]
    rw [sane_refine_checked K s.key H.2.1 H.2.2 _ h1 hlast ⟨m, hm1⟩]
    rfl
  · rw [insert_step_new K s H hH]
    simp only [ne_eq, hH, not_false_eq_true, if_true]
    rw [sane_refine_checked K _ H.2.1 H.2.2
      { s.coll.ensure_level with Generators := s.coll.ensure_level.Generators ++ [H.1] }
      (sane_append_gen _ H.1 h1) hlast ⟨m, hm1⟩]
    rfl

theorem insert_hilbs_checked_eq (K : Kernel) (C : ConeCollection) (AllHilbs : List HilbEntry)
    (h : Sane C) (hc : ∀ H ∈ AllHilbs, ∃ m, C.cell H.2.1 H.2.2 = some m) :
    insert_hilbs_checked K C AllHilbs = some (insert_hilbs K C AllHilbs) := by
  unfold insert_hilbs_checked insert_hilbs
  have : ∀ (l : List HilbEntry) (s : InsertState), Sane s.coll → Extends C s.coll →
      (∀ H ∈ l, ∃ m, C.cell H.2.1 H.2.2 = some m) →
      l.foldl (fun r H => r.bind (fun s => insert_step_checked K s H)) (some s)
        = some (l.foldl (insert_step K) s) := by
    intro l
    induction l with
    | nil => intro s _ _ _; rfl
    | cons H l ih =>
      intro s hs hE hl
      obtain ⟨m, hm⟩ := hl H (List.mem_cons_self _ _)
      obtain ⟨m1, _, hm1, _⟩ := hE _ _ m hm
      rw [List.foldl_cons, List.foldl_cons, Option.some_bind,
        insert_step_checked_eq K s H hs ⟨m1, hm1⟩]
      exact ih _ (sane_insert_step K s H hs)
        (invariant_insert_step K _ (invariant_extends K C) s H hE)
        (fun H1 h1 => hl H1 (List.mem_cons_of_mem _ h1))
  rw [this AllHilbs _ h (extends_refl C) hc]
  rfl

/-- C40. Index safety of level allocation: in every state that calls of
`add_extra_generators`, `ConeCollection::refine`, `insert_all_gens` and
`make_unimodular` reach from the forest the constructor builds, `Members` has a
level and all its levels but the last are non-empty; a call of
`ConeCollection::refine`, and the inserting loop of `make_unimodular` over
entries that name cells of the forest, as the collected entries do, read
`Members` in range only: at every subdivision the level `level+1` of the new
cell is smaller than `Members.size()` and the mother is in place, every cell
visited exists, and the result is the forest of the unchecked operation. -/
theorem levels_in_range (K : Kernel) (Gens : Mat) (T : List (List Nat × Int))
    (C : ConeCollection) (h : Reached K (ConeCollection.from_triangulation Gens T) C) :
    (C.Members ≠ [] ∧ ∀ k, k + 1 < C.Members.length → C.Members.getD k [] ≠ []) ∧
    (∀ key, C.refine_checked K key = some (C.refine K key)) ∧
    (∀ AllHilbs : List HilbEntry, (∀ H ∈ AllHilbs, ∃ m, C.cell H.2.1 H.2.2 = some m) →
      insert_hilbs_checked K C AllHilbs = some (insert_hilbs K C AllHilbs)) ∧
    (∀ AllHilbs, C.collect K = some AllHilbs →
      insert_hilbs_checked K C (sort_hilbs AllHilbs)
        = some (insert_hilbs K C (sort_hilbs AllHilbs))) := by
  have hS := sane_reached K Gens T C h
  refine ⟨⟨hS.levels, hS.filled⟩, fun key => coll_refine_checked K C key hS,
    fun A hA => insert_hilbs_checked_eq K C A hS hA, ?_⟩
  intro A hA
  apply insert_hilbs_checked_eq K C _ hS
  intro H hH
  have hH1 := (sort_hilbs_spec A).1.mem_iff.mp hH
  obtain ⟨_, mc, _, hmc, _⟩ := mem_collect K C A hA H hH1
  exact ⟨mc, hmc⟩

set_option maxRecDepth 20000 in
/-- Witness for `levels_in_range`: in the forest `fan_forest` after
`refine(2)` the level 0 is non-empty, and the checked call of `refine(3)`
returns the forest with the two levels of children. -/
theorem levels_in_range_witness :
    Reached (exactKernel failing_oracle)
      (ConeCollection.from_triangulation [[1, 0], [0, 1], [1, 1], [2, 1]] [([0, 1], 1)])
      (fan_forest.refine (exactKernel failing_oracle) 2) ∧
    ((fan_forest.refine (exactKernel failing_oracle) 2).Members.map List.length = [1, 2]) ∧
    ((((fan_forest.refine (exactKernel failing_oracle) 2).refine_checked
        (exactKernel failing_oracle) 3).map fun R => R.Members.map List.length)
      = some [1, 2, 2]) ∧
    (∀ key, (fan_forest.refine (exactKernel failing_oracle) 2).refine_checked
        (exactKernel failing_oracle) key
      = some ((fan_forest.refine (exactKernel failing_oracle) 2).refine
        (exactKernel failing_oracle) key)) :=
  ⟨Reached.step _ _ Reached.start (Operation.refine _ 2), rfl, rfl,
    (levels_in_range (exactKernel failing_oracle) [[1, 0], [0, 1], [1, 1], [2, 1]]
      [([0, 1], 1)] _ (Reached.step _ _ Reached.start (Operation.refine _ 2))).2.1⟩





/-! ## The multiplicity of a child and the coefficient of the inserted ray -/

/-- The value of facet `j` of the concrete kernel on a combination of the
generators: the coefficient of generator `j` times the volume. -/
theorem facet_value_comb (n : Nat) (M : Mat) (hM : M.length = n) (v : Vec) (lam : Fin n → ℚ)
    (hv : (rvec n v : Fin n → ℚ) = ∑ i : Fin n, lam i • rvec n (M.getD i [])) (j : Fin n) :
    ((v_scalar_product v ((exact_simplex_data M).getD j []) : Int) : ℚ)
      = lam j * ((exact_vol M : Int) : ℚ) := by
  rw [← hval_rvec n M hM j j.isLt v, hv, hval_comb n M hM j lam]

/-- C33. Under the concrete kernel, let a leaf have linearly independent
spanning rays `g_1..g_n` (the rows of its keys have a non-zero determinant) and
let the inserted ray be `v = sum_i lambda_i * g_i` with all `lambda_i >= 0`.
Then the value of facet `i` on `v` is `lambda_i` times the volume of the leaf,
the opposite facets are the `i` with `lambda_i > 0`, and when their number is not
1, `MiniCone::refine(key)` appends for each of them a child with `g_i` replaced
by `v` whose multiplicity is `lambda_i` times the volume of the parent: it is
positive, the rays of the child are linearly independent, and if all
`lambda_i < 1` it is strictly smaller than the volume of the parent, which is
the multiplicity of the parent when that is the volume of its rays. -/
theorem child_multiplicity (hb : Mat → Option (List Vec)) (C : ConeCollection)
    (key fuel lvl plc : Nat) (mc : MiniCone) (lam : Fin mc.GenKeys.length → ℚ)
    (hc : C.cell lvl plc = some mc) (hD : mc.Daughters = [])
    (hlv : mc.level = lvl) (hpl : mc.my_place = plc) (hnext : lvl + 1 < C.Members.length)
    (hSH : mc.SupportHyperplanes = [] ∨
      mc.SupportHyperplanes = exact_simplex_data (submatrix C.Generators mc.GenKeys))
    (hdet : det (submatrix C.Generators mc.GenKeys) ≠ 0)
    (hlam : ∀ i, 0 ≤ lam i)
    (hv : (rvec mc.GenKeys.length (row C.Generators key) : Fin mc.GenKeys.length → ℚ)
      = ∑ i : Fin mc.GenKeys.length,
          lam i • rvec mc.GenKeys.length ((submatrix C.Generators mc.GenKeys).getD i [])) :
    (∀ j : Fin mc.GenKeys.length,
      ((v_scalar_product (row C.Generators key)
          ((exact_simplex_data (submatrix C.Generators mc.GenKeys)).getD j []) : Int) : ℚ)
        = lam j * ((exact_vol (submatrix C.Generators mc.GenKeys) : Int) : ℚ)) ∧
    ∃ opp : List Nat,
      facet_loop (row C.Generators key) (mc.hyperplanes (exactKernel hb) C.Generators) 0 []
        = some opp ∧
      (∀ j : Fin mc.GenKeys.length, (j : Nat) ∈ opp ↔ 0 < lam j) ∧
      (opp.length ≠ 1 → ∀ t, ∀ ht : t < opp.length,
        ∃ (md : MiniCone) (hj : opp.get ⟨t, ht⟩ < mc.GenKeys.length),
          (MiniCone.refine (exactKernel hb) key (fuel + 1) lvl plc C).cell (lvl + 1)
            ((C.Members.getD (lvl + 1) []).length + t) = some md ∧
          md.GenKeys = List.insertionSort (fun a b => a ≤ b)
            (mc.GenKeys.set (opp.get ⟨t, ht⟩) key) ∧
          ((md.multiplicity : Int) : ℚ) = lam ⟨opp.get ⟨t, ht⟩, hj⟩
            * ((exact_vol (submatrix C.Generators mc.GenKeys) : Int) : ℚ) ∧
          0 < md.multiplicity ∧
          det (submatrix C.Generators md.GenKeys) ≠ 0 ∧
          ((∀ i, lam i < 1) →
            md.multiplicity < exact_vol (submatrix C.Generators mc.GenKeys)) ∧
          ((∀ i, lam i < 1) → mc.multiplicity = exact_vol (submatrix C.Generators mc.GenKeys) →
            md.multiplicity < mc.multiplicity)) := by
  have hlen : (submatrix C.Generators mc.GenKeys).length = mc.GenKeys.length := by
    simp [submatrix]
  have hval : ∀ j : Fin mc.GenKeys.length,
      ((v_scalar_product (row C.Generators key)
          ((exact_simplex_data (submatrix C.Generators mc.GenKeys)).getD j []) : Int) : ℚ)
        = lam j * ((exact_vol (submatrix C.Generators mc.GenKeys) : Int) : ℚ) :=
    facet_value_comb _ _ hlen _ lam hv
  have hvol : (0 : ℚ) < ((exact_vol (submatrix C.Generators mc.GenKeys) : Int) : ℚ) :=
    exact_vol_cast_pos _ hdet
  have hsign : ∀ j : Fin mc.GenKeys.length,
      (0 < v_scalar_product (row C.Generators key)
        ((exact_simplex_data (submatrix C.Generators mc.GenKeys)).getD j []) ↔ 0 < lam j) := by
    intro j
    have h1 := hval j
    constructor
    · intro hp
      have hp1 : (0 : ℚ) < ((v_scalar_product (row C.Generators key)
          ((exact_simplex_data (submatrix C.Generators mc.GenKeys)).getD j []) : Int) : ℚ) := by
        exact_mod_cast hp
      rw [h1] at hp1
      exact (mul_pos_iff_of_pos_right hvol).mp hp1
    · intro hp
      have hp1 : (0 : ℚ) < ((v_scalar_product (row C.Generators key)
          ((exact_simplex_data (submatrix C.Generators mc.GenKeys)).getD j []) : Int) : ℚ) := by
        rw [h1]
        exact mul_pos hp hvol
      exact_mod_cast hp1
  have hnn : ∀ r ∈ exact_simplex_data (submatrix C.Generators mc.GenKeys),
      0 ≤ v_scalar_product (row C.Generators key) r := by
    intro r hr
    obtain ⟨j, hj, rfl⟩ := List.getElem_of_mem hr
    rw [exact_simplex_data_length, hlen] at hj
    have h1 := hval ⟨j, hj⟩
    have h2 : (0 : ℚ) ≤ ((v_scalar_product (row C.Generators key)
        ((exact_simplex_data (submatrix C.Generators mc.GenKeys)).getD j []) : Int) : ℚ) := by
      rw [h1]
      exact mul_nonneg (hlam _) (le_of_lt hvol)
    have h3 : 0 ≤ v_scalar_product (row C.Generators key)
        ((exact_simplex_data (submatrix C.Generators mc.GenKeys)).getD j []) := by
      exact_mod_cast h2
    rw [List.getD_eq_getElem?_getD, List.getElem?_eq_getElem
      (by rw [exact_simplex_data_length, hlen]; exact hj)] at h3
    exact h3
  have hfl := facet_loop_of_nonneg (row C.Generators key)
    (exact_simplex_data (submatrix C.Generators mc.GenKeys)) 0 [] hnn
  rw [List.nil_append] at hfl
  refine ⟨hval, _, by rw [hyperplanes_exact hb _ _ hSH]; exact hfl, ?_, ?_⟩
  · intro j
    rw [mem_positive_positions, exact_simplex_data_length, hlen]
    constructor
    · rintro ⟨_, _, h3⟩
      exact (hsign j).mp h3
    · intro h
      exact ⟨Nat.zero_le _, by have := j.isLt; omega, (hsign j).mpr h⟩
  · intro hone t ht
    have hmem : (positive_positions (row C.Generators key)
        (exact_simplex_data (submatrix C.Generators mc.GenKeys)) 0).get ⟨t, ht⟩
        ∈ positive_positions (row C.Generators key)
          (exact_simplex_data (submatrix C.Generators mc.GenKeys)) 0 := List.get_mem _ _ _
    obtain ⟨hchild, hpos⟩ := children_vol C.Generators mc.GenKeys key _ hfl _ hmem
    have hj : (positive_positions (row C.Generators key)
        (exact_simplex_data (submatrix C.Generators mc.GenKeys)) 0).get ⟨t, ht⟩
        < mc.GenKeys.length := by
      have := (positive_positions_bounds _ _ _ _ hmem).2.1
      rw [exact_simplex_data_length, hlen] at this
      omega
    have hR : MiniCone.refine (exactKernel hb) key (fuel + 1) lvl plc C
        = (positive_positions (row C.Generators key)
            (exact_simplex_data (submatrix C.Generators mc.GenKeys)) 0).foldl
            (subdivide_step (exactKernel hb) key mc) (C.cache_facets (exactKernel hb) lvl plc) := by
      rw [refine_succ _ key fuel lvl plc C mc hc, hyperplanes_exact hb _ _ hSH, hfl]
      simp only
      rw [if_neg hone, if_neg (by simp [hD])]
    have hsub := subdivide_fold_at (exactKernel hb) key mc
      (positive_positions (row C.Generators key)
        (exact_simplex_data (submatrix C.Generators mc.GenKeys)) 0)
      (C.cache_facets (exactKernel hb) lvl plc) _ lvl plc hlv hpl
      (cache_facets_cell (exactKernel hb) C lvl plc mc hc)
      (by rw [cache_facets_members_length]; exact hnext)
    have hcell := hsub.children t ht
    rw [← hR] at hcell
    have hlevel : ((C.cache_facets (exactKernel hb) lvl plc).Members.getD (lvl + 1) []).length
        = (C.Members.getD (lvl + 1) []).length := updateCell_level_length C lvl plc _ (lvl + 1)
    rw [hlevel] at hcell
    have hget : (positive_positions (row C.Generators key)
        (exact_simplex_data (submatrix C.Generators mc.GenKeys)) 0).getD t 0
        = (positive_positions (row C.Generators key)
            (exact_simplex_data (submatrix C.Generators mc.GenKeys)) 0).get ⟨t, ht⟩ := by
      rw [List.getD_eq_getElem?_getD, List.getElem?_eq_getElem ht]
      rfl
    rw [hget] at hcell
    have hmult : exact_vol (submatrix C.Generators (List.insertionSort (fun a b => a ≤ b)
        (mc.GenKeys.set ((positive_positions (row C.Generators key)
          (exact_simplex_data (submatrix C.Generators mc.GenKeys)) 0).get ⟨t, ht⟩) key)))
        = v_scalar_product (row C.Generators key)
          ((exact_simplex_data (submatrix C.Generators mc.GenKeys)).getD
            ((positive_positions (row C.Generators key)
              (exact_simplex_data (submatrix C.Generators mc.GenKeys)) 0).get ⟨t, ht⟩) []) :=
      hchild
    have hq := hval ⟨_, hj⟩
    simp only at hq
    have hsmall : (∀ i, lam i < 1) →
        v_scalar_product (row C.Generators key)
          ((exact_simplex_data (submatrix C.Generators mc.GenKeys)).getD
            ((positive_positions (row C.Generators key)
              (exact_simplex_data (submatrix C.Generators mc.GenKeys)) 0).get ⟨t, ht⟩) [])
          < exact_vol (submatrix C.Generators mc.GenKeys) := by
      intro hl
      have : ((v_scalar_product (row C.Generators key)
          ((exact_simplex_data (submatrix C.Generators mc.GenKeys)).getD
            ((positive_positions (row C.Generators key)
              (exact_simplex_data (submatrix C.Generators mc.GenKeys)) 0).get ⟨t, ht⟩) []) : Int)
            : ℚ) < ((exact_vol (submatrix C.Generators mc.GenKeys) : Int) : ℚ) := by
        rw [hq]
        calc lam ⟨_, hj⟩ * ((exact_vol (submatrix C.Generators mc.GenKeys) : Int) : ℚ)
            < 1 * ((exact_vol (submatrix C.Generators mc.GenKeys) : Int) : ℚ) :=
              mul_lt_mul_of_pos_right (hl _) hvol
          _ = _ := one_mul _
      exact_mod_cast this
    refine ⟨_, hj, hcell, rfl, ?_, ?_, ?_, ?_, ?_⟩
    · show (((exact_vol _ : Int)) : ℚ) = _
      rw [show (C.cache_facets (exactKernel hb) lvl plc).Generators = C.Generators from rfl]
      unfold child_keys
      rw [hmult, hq]
    · show 0 < exact_vol _
      rw [show (C.cache_facets (exactKernel hb) lvl plc).Generators = C.Generators from rfl]
      unfold child_keys
      rw [hmult]
      exact hpos
    · apply exact_vol_ne_zero
      show 0 < exact_vol (submatrix C.Generators (child_keys _ _ _))
      unfold child_keys
      rw [hmult]
      exact hpos
    · intro hl
      show exact_vol _ < _
      rw [show (C.cache_facets (exactKernel hb) lvl plc).Generators = C.Generators from rfl]
      unfold child_keys
      rw [hmult]
      exact hsmall hl
    · intro hl hm
      show exact_vol _ < _
      rw [show (C.cache_facets (exactKernel hb) lvl plc).Generators = C.Generators from rfl, hm]
      unfold child_keys
      rw [hmult]
      exact hsmall hl

set_option maxRecDepth 20000 in
/-- Witness for `child_multiplicity`: the leaf over `(1,0)`, `(1,2)` of
`graded_forest` has volume 2, and the ray `(1,1)` with index 2 is half the sum of
its rays; both facet values are 1, and the two children have multiplicity 1. -/
theorem child_multiplicity_witness :
    (graded_forest.cell 0 0 = some (root_cell 0 ([0, 1], 2)) ∧
      0 + 1 < graded_forest.Members.length ∧
      det (submatrix graded_forest.Generators [0, 1]) ≠ 0 ∧
      (rvec 2 (row graded_forest.Generators 2) : Fin 2 → ℚ)
        = ∑ i : Fin 2, (1 / 2 : ℚ) • rvec 2 ((submatrix graded_forest.Generators [0, 1]).getD i [])) ∧
    (MiniCone.refine (exactKernel failing_oracle) 2 (0 + 1) 0 0 graded_forest).level_mults 1
      = [1, 1] ∧
    exact_vol (submatrix graded_forest.Generators [0, 1]) = 2 ∧
    (∀ j : Fin 2,
      ((v_scalar_product (row graded_forest.Generators 2)
          ((exact_simplex_data (submatrix graded_forest.Generators [0, 1])).getD j []) : Int) : ℚ)
        = (1 / 2 : ℚ) * ((exact_vol (submatrix graded_forest.Generators [0, 1]) : Int) : ℚ)) :=
  have hv : (rvec 2 (row graded_forest.Generators 2) : Fin 2 → ℚ)
      = ∑ i : Fin 2, (1 / 2 : ℚ) •
          rvec 2 ((submatrix graded_forest.Generators [0, 1]).getD i []) := by
    have hG : graded_forest.Generators = [[1, 0], [1, 2], [1, 1]] := rfl
    rw [hG]
    funext k
    fin_cases k <;> simp [rvec, row, submatrix, Fin.sum_univ_two]
    norm_num
  ⟨⟨rfl, by decide, by decide, hv⟩, rfl, rfl,
    (child_multiplicity failing_oracle graded_forest 2 0 0 0 (root_cell 0 ([0, 1], 2))
      (fun _ => 1 / 2) rfl rfl rfl rfl (by decide) (Or.inl rfl) (by decide)
      (fun _ => by norm_num) hv).1⟩





/-! ## Progress of a round: a point off the rays of the cells is inserted -/

theorem facet_cast (n : Nat) (M : Mat) (hM : M.length = n) (v : Vec) (i : Nat) (hi : i < n) :
    (hval n M i (rvec n v) : ℚ)
      = ((v_scalar_product v ((exact_simplex_data M).getD i []) : Int) : ℚ) :=
  hval_rvec n M hM i hi v

theorem facet_nonneg_of_in_cone (n : Nat) (M : Mat) (hM : M.length = n) (hdet : det M ≠ 0)
    (v : Vec) (h : in_cone n M (rvec n v : Fin n → ℚ)) :
    ∀ r ∈ exact_simplex_data M, 0 ≤ v_scalar_product v r := by
  intro r hr
  obtain ⟨j, hj, rfl⟩ := List.getElem_of_mem hr
  have hj1 : j < n := by rw [exact_simplex_data_length, hM] at hj; exact hj
  rw [in_cone_iff_hval n M hM hdet] at h
  have h2 : (0 : ℚ) ≤ hval n M j (rvec n v) := h ⟨j, hj1⟩
  rw [facet_cast n M hM v j hj1] at h2
  have h3 : 0 ≤ v_scalar_product v ((exact_simplex_data M).getD j []) := Int.cast_nonneg.mp h2
  rw [List.getD_eq_getElem?_getD, List.getElem?_eq_getElem hj, Option.getD_some] at h3
  exact h3

theorem in_cone_of_facet_nonneg (n : Nat) (M : Mat) (hM : M.length = n) (hdet : det M ≠ 0)
    (v : Vec) (h : ∀ r ∈ exact_simplex_data M, 0 ≤ v_scalar_product v r) :
    in_cone n M (rvec n v : Fin n → ℚ) := by
  rw [in_cone_iff_hval n M hM hdet]
  intro i
  rw [facet_cast n M hM v i i.isLt]
  have hi : (i : Nat) < (exact_simplex_data M).length := by
    rw [exact_simplex_data_length, hM]; exact i.isLt
  have := h _ (List.getElem_mem hi)
  rw [List.getD_eq_getElem?_getD, List.getElem?_eq_getElem hi, Option.getD_some]
  exact Int.cast_nonneg.mpr this

/-- The facet with index `i` has a positive value on `v` exactly when `i` is
among the positive positions. -/
theorem mem_positive_iff (n : Nat) (M : Mat) (hM : M.length = n) (v : Vec) (i : Fin n) :
    (i : Nat) ∈ positive_positions v (exact_simplex_data M) 0
      ↔ (0 : ℚ) < hval n M i (rvec n v) := by
  rw [mem_positive_positions, exact_simplex_data_length, hM, facet_cast n M hM v i i.isLt]
  constructor
  · rintro ⟨_, _, h3⟩
    rw [Nat.sub_zero] at h3
    exact_mod_cast h3
  · intro h
    refine ⟨Nat.zero_le _, by have := i.isLt; omega, ?_⟩
    rw [Nat.sub_zero]
    exact_mod_cast h

/-- A point of the cone of a non-degenerate simplex with fewer than two
positive facet values is zero or a positive multiple of a generator. -/
theorem on_ray_of_few_positive (n : Nat) (M : Mat) (hM : M.length = n) (hdet : det M ≠ 0)
    (v : Vec) (hcone : in_cone n M (rvec n v : Fin n → ℚ))
    (hfew : (positive_positions v (exact_simplex_data M) 0).length < 2) :
    (rvec n v : Fin n → ℚ) = 0 ∨
      ∃ j : Fin n, ∃ c : ℚ, 0 < c ∧ (rvec n v : Fin n → ℚ) = c • rvec n (M.getD j []) := by
  have hv := exact_vol_cast_pos (F := ℚ) M hdet
  have hcr := cramer_field (F := ℚ) n M hM (rvec n v)
  have hnn : ∀ i : Fin n, (0 : ℚ) ≤ hval n M i (rvec n v) := by
    intro i
    rw [in_cone_iff_hval n M hM hdet] at hcone
    exact hcone i
  have hsolve : ∀ y : Fin n → ℚ, ((exact_vol M : Int) : ℚ) • (rvec n v : Fin n → ℚ) = y →
      (rvec n v : Fin n → ℚ) = (((exact_vol M : Int) : ℚ))⁻¹ • y := by
    intro y hy
    rw [← hy, smul_smul, inv_mul_cancel₀ (ne_of_gt hv), one_smul]
  cases hpp : positive_positions v (exact_simplex_data M) 0 with
  | nil =>
    left
    have hz : ∀ i : Fin n, hval n M i (rvec n v) = (0 : ℚ) := by
      intro i
      have := (mem_positive_iff n M hM v i).not.mp (by rw [hpp]; simp)
      exact le_antisymm (not_lt.mp this) (hnn i)
    have h0 : ((exact_vol M : Int) : ℚ) • (rvec n v : Fin n → ℚ) = 0 := by
      rw [hcr]
      apply Finset.sum_eq_zero
      intro i _
      rw [hz i, zero_smul]
    rw [hsolve 0 h0, smul_zero]
  | cons j0 rest =>
    rw [hpp] at hfew
    have hrest : rest = [] := by
      cases rest with
      | nil => rfl
      | cons a r =>
        simp only [List.length_cons] at hfew
        omega
    subst hrest
    have hj0 : j0 < n := by
      have h1 : j0 ∈ positive_positions v (exact_simplex_data M) 0 := by rw [hpp]; simp
      have := (positive_positions_bounds _ _ _ _ h1).2.1
      rw [exact_simplex_data_length, hM] at this
      omega
    have hpos : (0 : ℚ) < hval n M j0 (rvec n v) := by
      have := (mem_positive_iff n M hM v ⟨j0, hj0⟩).mp (by rw [hpp]; simp)
      exact this
    have hz : ∀ i : Fin n, i ≠ ⟨j0, hj0⟩ → hval n M i (rvec n v) = (0 : ℚ) := by
      intro i hi
      have hni : (i : Nat) ∉ positive_positions v (exact_simplex_data M) 0 := by
        rw [hpp]
        simp only [List.mem_singleton]
        intro h
        exact hi (Fin.ext h)
      have := (mem_positive_iff n M hM v i).not.mp hni
      exact le_antisymm (not_lt.mp this) (hnn i)
    right
    refine ⟨⟨j0, hj0⟩, (((exact_vol M : Int) : ℚ))⁻¹ * hval n M j0 (rvec n v),
      mul_pos (inv_pos.mpr hv) hpos, ?_⟩
    have h1 : ((exact_vol M : Int) : ℚ) • (rvec n v : Fin n → ℚ)
        = (hval n M j0 (rvec n v) : ℚ) • (rvec n (M.getD j0 []) : Fin n → ℚ) := by
      rw [hcr]
      rw [Finset.sum_eq_single (⟨j0, hj0⟩ : Fin n)]
      · intro i _ hi
        rw [hz i hi, zero_smul]
      · intro h
        exact absurd (Finset.mem_univ _) h
    exact (hsolve _ h1).trans (smul_smul _ _ _)

/-- A positive multiple of a generator of a non-degenerate simplex has at most
one positive facet value. -/
theorem few_positive_of_on_ray (n : Nat) (M : Mat) (hM : M.length = n) (v : Vec) (j : Fin n)
    (c : ℚ) (hv : (rvec n v : Fin n → ℚ) = c • rvec n (M.getD j [])) :
    (positive_positions v (exact_simplex_data M) 0).length ≤ 1 := by
  have hall : ∀ i ∈ positive_positions v (exact_simplex_data M) 0, i = (j : Nat) := by
    intro i hi
    have hi1 : i < n := by
      have := (positive_positions_bounds _ _ _ _ hi).2.1
      rw [exact_simplex_data_length, hM] at this
      omega
    have hp := (mem_positive_iff n M hM v ⟨i, hi1⟩).mp hi
    rw [hv, hval_smul, hval_generator n M hM i j hi1 j.isLt] at hp
    by_contra hne
    rw [if_neg hne, mul_zero] at hp
    exact lt_irrefl _ hp
  have hs := positive_positions_sorted v (exact_simplex_data M) 0
  cases hpp : positive_positions v (exact_simplex_data M) 0 with
  | nil => simp
  | cons a rest =>
    cases rest with
    | nil => simp
    | cons b r =>
      rw [hpp] at hs hall
      have h1 := hall a (by simp)
      have h2 := hall b (by simp)
      have h3 := (List.pairwise_cons.mp hs).1 b (by simp)
      omega

/-- The zero vector has no positive facet value. -/
theorem no_positive_of_zero (n : Nat) (M : Mat) (hM : M.length = n) (v : Vec)
    (hv : (rvec n v : Fin n → ℚ) = 0) :
    positive_positions v (exact_simplex_data M) 0 = [] := by
  apply List.eq_nil_iff_forall_not_mem.mpr
  intro i hi
  have hi1 : i < n := by
    have := (positive_positions_bounds _ _ _ _ hi).2.1
    rw [exact_simplex_data_length, hM] at this
    omega
  have hp := (mem_positive_iff n M hM v ⟨i, hi1⟩).mp hi
  rw [hv] at hp
  have h0 : hval n M i (0 : Fin n → ℚ) = 0 := by
    unfold hval
    simp
  rw [show ((⟨i, hi1⟩ : Fin n) : Nat) = i from rfl, h0] at hp
  exact lt_irrefl _ hp

/-- The walk of `refine(key)` from a cell that contains the ray of `key` finds
something to subdivide when the ray has two positive facet values on every cell
below that contains it. -/
theorem not_quiet (n key : Nat) (R : ConeCollection) (hT : Tree n R) (hS : Stellar ℚ n R) :
    ∀ (fuel lvl plc : Nat) (X : MiniCone), R.cell lvl plc = some X →
      in_cone n (R.gens X) (rvec n (row R.Generators key) : Fin n → ℚ) →
      R.Members.length ≤ lvl + fuel → off_rays n R (row R.Generators key) lvl plc →
      ¬ quiet key fuel lvl plc R := by
  intro fuel
  induction fuel with
  | zero =>
    intro lvl plc X hX _ hlen _ _
    have := (cell_lt R lvl plc X hX).1
    omega
  | succ fuel ih =>
    intro lvl plc X hX hcone hlen hoff hq
    obtain ⟨hn, _, hdet, _⟩ := hT.simplex lvl plc X hX
    have hM : (R.gens X).length = n := by
      unfold ConeCollection.gens
      rw [submatrix_length, hn]
    have hnn := facet_nonneg_of_in_cone n (R.gens X) hM hdet _ hcone
    have hfl := facet_loop_of_nonneg (row R.Generators key) (exact_simplex_data (R.gens X)) 0 []
      hnn
    rw [List.nil_append] at hfl
    have htwo := hoff 0 plc X rfl hX hcone
    obtain ⟨q1, q2⟩ := hq X hX _ hfl (by omega)
    by_cases hd : X.Daughters = []
    · have := q2 hd
      rw [this] at htwo
      simp at htwo
    · obtain ⟨d, hdm, md, hmd, hxd⟩ := hS.cover lvl plc X hX hd _ hcone
      have hlv := (hT.coords lvl plc X hX).1
      have hqd := q1 hd d hdm
      rw [hlv] at hqd
      refine ih (lvl + 1) d md hmd hxd (by omega) ?_ hqd
      intro m q Y hb hY hc
      have hb1 : below R (m + 1) lvl plc q := ⟨X, d, hX, hdm, hb⟩
      exact hoff (m + 1) q Y hb1 (by rw [show lvl + (m + 1) = lvl + 1 + m by omega]; exact hY) hc





/-! ## Progress of a round: the cells made in the round -/

theorem kin_step (C0 : ConeCollection) (G0 : Nat) (R R1 : ConeCollection) (h : kin C0 G0 R)
    (hE : Extends R R1)
    (hback : ∀ k i Y, R1.cell (k + 1) i = some Y →
      (∃ Y0, R.cell (k + 1) i = some Y0 ∧ Y.GenKeys = Y0.GenKeys) ∨
      (∃ p X key j, R1.cell k p = some X ∧ i ∈ X.Daughters ∧
        Y.GenKeys = child_keys X.GenKeys key j ∧ G0 ≤ key)) : kin C0 G0 R1 := by
  intro k i Y hY h0
  rcases hback k i Y hY with ⟨Y0, hY0, hk⟩ | hnew
  · obtain ⟨p, X, key, j, hX, hi, hkeys, hkey⟩ := h k i Y0 hY0 h0
    obtain ⟨X1, E, hX1, a1, _, _, _, _, a6⟩ := hE k p X hX
    refine ⟨p, X1, key, j, hX1, ?_, ?_, hkey⟩
    · rw [a6]
      exact List.mem_append_left _ hi
    · rw [hk, hkeys, a1]
  · exact hnew

theorem kin_ensure_level (C0 : ConeCollection) (G0 : Nat) (R : ConeCollection)
    (h : kin C0 G0 R) : kin C0 G0 R.ensure_level :=
  kin_step C0 G0 R _ h (extends_ensure_level R)
    (fun k i Y hY => Or.inl ⟨Y, by rw [cell_ensure_level] at hY; exact hY, rfl⟩)

theorem kin_append_gen (C0 : ConeCollection) (G0 : Nat) (R : ConeCollection) (v : Vec)
    (h : kin C0 G0 R) : kin C0 G0 { R with Generators := R.Generators ++ [v] } := h

theorem kin_cache (K : Kernel) (C0 : ConeCollection) (G0 : Nat) (R : ConeCollection)
    (lvl plc : Nat) (h : kin C0 G0 R) : kin C0 G0 (R.cache_facets K lvl plc) :=
  kin_step C0 G0 R _ h (extends_cache K R lvl plc)
    (fun k i Y hY => by
      obtain ⟨m, hm, hk, _⟩ := cache_facets_back K R lvl plc (k + 1) i Y hY
      exact Or.inl ⟨m, hm, hk⟩)

theorem kin_add_minicone (C0 : ConeCollection) (G0 : Nat) (R : ConeCollection) (k p key j : Nat)
    (keys : List Nat) (mult : Int) (m : MiniCone) (h : kin C0 G0 R)
    (hm : R.cell k p = some m) (hkeys : m.GenKeys = keys) (hkey : G0 ≤ key) :
    kin C0 G0 (R.add_minicone (k + 1) p (child_keys keys key j) mult) := by
  apply kin_step C0 G0 R _ h (extends_add_minicone R k p _ _)
  intro l q Y hY
  rcases cell_add_minicone_cases R k p _ _ (l + 1) q Y hY with
    ⟨h1, h2, _, rfl⟩ | ⟨_, _, m1, hm1, rfl⟩ | ⟨_, hc⟩
  · right
    have hl : l = k := by omega
    subst hl
    refine ⟨p, _, key, j, cell_add_minicone_mother R l p _ _ m hm, ?_, ?_, hkey⟩
    · rw [h2]
      simp
    · show child_keys keys key j = child_keys m.GenKeys key j
      rw [hkeys]
  · left
    rename_i h1 h2
    rw [h1, h2]
    exact ⟨m1, hm1, rfl⟩
  · exact Or.inl ⟨Y, hc, rfl⟩

theorem kin_subdivide_fold (K : Kernel) (C0 : ConeCollection) (G0 key : Nat) (mc : MiniCone)
    (hkey : G0 ≤ key) :
    ∀ (opp : List Nat) (R : ConeCollection), kin C0 G0 R →
      (∃ m, R.cell mc.level mc.my_place = some m ∧ m.GenKeys = mc.GenKeys) →
      kin C0 G0 (opp.foldl (subdivide_step K key mc) R) := by
  intro opp
  induction opp with
  | nil => intro R h _; exact h
  | cons j opp ih =>
    intro R h hm
    obtain ⟨m, hm, hk⟩ := hm
    rw [List.foldl_cons]
    apply ih
    · exact kin_add_minicone C0 G0 R mc.level mc.my_place key j mc.GenKeys _ m h hm hk hkey
    · exact ⟨_, cell_add_minicone_mother R mc.level mc.my_place _ _ m hm, hk⟩

theorem kin_refine_cell (K : Kernel) (C0 : ConeCollection) (G0 key : Nat) (hkey : G0 ≤ key)
    (fuel lvl plc : Nat) (R : ConeCollection) (h : kin C0 G0 R) (hco : R.coords_ok) :
    kin C0 G0 (MiniCone.refine K key fuel lvl plc R) := by
  have := refine_ind K key (fun R => kin C0 G0 R ∧ R.coords_ok)
    (fun C lvl plc hC => ⟨kin_cache K C0 G0 C lvl plc hC.1,
      (invariant_coords_ok K).cache C lvl plc hC.2⟩)
    (fun C lvl plc mc opp hC hc _ _ _ => by
      obtain ⟨hlv, hpl⟩ := hC.2 lvl plc mc hc
      have e : (C.cache_facets K lvl plc).cell mc.level mc.my_place
          = (C.cache_facets K lvl plc).cell lvl plc := by rw [hlv, hpl]
      refine ⟨kin_subdivide_fold K C0 G0 key mc hkey opp _ (kin_cache K C0 G0 C lvl plc hC.1)
        ⟨{ mc with SupportHyperplanes := mc.hyperplanes K C.Generators },
          e.trans (cache_facets_cell K C lvl plc mc hc), rfl⟩,
        coords_ok_subdivide_fold K key mc opp _ ((invariant_coords_ok K).cache C lvl plc hC.2)⟩)
    fuel lvl plc R ⟨h, hco⟩
  exact this.1

theorem kin_insert_step (K : Kernel) (C0 : ConeCollection) (s : InsertState) (H : HilbEntry)
    (h : kin C0 C0.Generators.length s.coll) (hco : s.coll.coords_ok)
    (hs : KeyInv C0.Generators.length s) :
    kin C0 C0.Generators.length (insert_step K s H).coll := by
  have h1 := kin_ensure_level C0 _ s.coll h
  have hco1 := (invariant_coords_ok K).ensure_level s.coll hco
  by_cases hH : H.1 = s.last_inserted
  · rw [insert_step_old K s H hH]
    exact kin_refine_cell K C0 _ _ hs.2.1 _ _ _ _ h1 hco1
  · rw [insert_step_new K s H hH]
    refine kin_refine_cell K C0 _ _ ?_ _ _ _ _ (kin_append_gen C0 _ _ H.1 h1)
      ((invariant_coords_ok K).append_gen _ H.1 hco1)
    rw [ensure_level_generators]
    exact hs.2.2.1

theorem kin_start (C0 : ConeCollection) (G0 : Nat) : kin C0 G0 C0 := by
  intro k i Y hY h0
  rw [hY] at h0
  cases h0

/-- The last step of a descent. -/
theorem below_unsnoc (C : ConeCollection) :
    ∀ (n k p q : Nat), below C (n + 1) k p q →
      ∃ x mx, below C n k p x ∧ C.cell (k + n) x = some mx ∧ q ∈ mx.Daughters := by
  intro n
  induction n with
  | zero =>
    intro k p q h
    obtain ⟨mp, d, a1, a2, a3⟩ := h
    rw [below] at a3
    subst a3
    exact ⟨p, mp, rfl, a1, a2⟩
  | succ n ih =>
    intro k p q h
    obtain ⟨mp, d, a1, a2, a3⟩ := h
    obtain ⟨x, mx, b1, b2, b3⟩ := ih (k + 1) d q a3
    exact ⟨x, mx, ⟨mp, d, a1, a2, b1⟩,
      by rw [show k + (n + 1) = k + 1 + n by omega]; exact b2, b3⟩

/-- The cells below a cell that was a leaf as the round began were made in the
round: each of their keys is a key of the leaf or the index of a row appended
in the round. -/
theorem below_leaf_keys (C0 R : ConeCollection) (G0 : Nat) (hW0 : Wood C0) (hW : Wood R)
    (hE : Extends C0 R) (hk : kin C0 G0 R) (k i : Nat) (mc : MiniCone)
    (hmc : C0.cell k i = some mc) (hleaf : mc.Daughters = []) :
    ∀ m q, below R m k i q → (m = 0 ∨ C0.cell (k + m) q = none) ∧
      ∀ Y, R.cell (k + m) q = some Y → ∀ g ∈ Y.GenKeys, g ∈ mc.GenKeys ∨ G0 ≤ g := by
  intro m
  induction m with
  | zero =>
    intro q hb
    rw [below] at hb
    subst hb
    refine ⟨Or.inl rfl, ?_⟩
    intro Y hY g hg
    obtain ⟨m1, _, hm1, a1, _⟩ := hE k q mc hmc
    rw [Nat.add_zero, hm1] at hY
    injection hY with hY
    rw [← hY, a1] at hg
    exact Or.inl hg
  | succ m ih =>
    intro q hb
    obtain ⟨x, mx, b1, b2, b3⟩ := below_unsnoc R m k i q hb
    obtain ⟨c1, c2⟩ := ih x b1
    have hnone : C0.cell (k + (m + 1)) q = none := by
      cases h0 : C0.cell (k + (m + 1)) q with
      | none => rfl
      | some Y0 =>
        exfalso
        obtain ⟨p, X0, hX0, hq⟩ := hW0.has_parent (k + m) q (cell_lt C0 _ q Y0 h0).2
        obtain ⟨X1, E, hX1, _, _, _, _, _, a6⟩ := hE (k + m) p X0 hX0
        have hq1 : q ∈ X1.Daughters := by rw [a6]; exact List.mem_append_left _ hq
        have hp := hW.one_parent (k + m) p x X1 mx q hX1 b2 hq1 b3
        subst hp
        rcases c1 with c1 | c1
        · subst c1
          rw [below] at b1
          subst b1
          rw [Nat.add_zero, hmc] at hX0
          injection hX0 with hX0
          rw [← hX0, hleaf] at hq
          cases hq
        · rw [c1] at hX0
          cases hX0
    refine ⟨Or.inr hnone, ?_⟩
    intro Y hY g hg
    obtain ⟨p, X, key, j, hX, hq, hkeys, hkey⟩ := hk (k + m) q Y hY hnone
    have hp := hW.one_parent (k + m) p x X mx q hX b2 hq b3
    subst hp
    rw [hX] at b2
    injection b2 with b2
    subst b2
    rw [hkeys] at hg
    rcases mem_child_keys _ _ _ _ hg with h1 | h1
    · rw [h1]
      exact Or.inr hkey
    · exact c2 X hX g h1





/-! ## Progress of a round: the inserting loop -/

theorem gens_extends (C0 R : ConeCollection) (mc X : MiniCone) (hkeys : X.GenKeys = mc.GenKeys)
    (hG : ∃ D, R.Generators = C0.Generators ++ D)
    (hk : ∀ g ∈ mc.GenKeys, g < C0.Generators.length) : R.gens X = C0.gens mc := by
  obtain ⟨D, hD⟩ := hG
  unfold ConeCollection.gens submatrix
  rw [hkeys, hD]
  apply List.map_congr_left
  intro g hg
  exact row_append _ _ g (hk g hg)

theorem row_mem_appended (G D : Mat) (g : Nat) (h1 : G.length ≤ g) (h2 : g < (G ++ D).length) :
    row (G ++ D) g ∈ D := by
  unfold row
  rw [List.getD_eq_getElem?_getD, List.getElem?_append_right h1]
  have h3 : g - G.length < D.length := by
    rw [List.length_append] at h2
    omega
  rw [List.getElem?_eq_getElem h3, Option.getD_some]
  exact List.getElem_mem h3

/-- In the course of a round, a point of the oracle that is not yet a known
ray and has two positive facet values on its leaf has two positive facet values
on every cell below the leaf that contains it. -/
theorem off_rays_of_round (hb : Mat → Option (List Vec)) (n : Nat) (C0 R : ConeCollection)
    (v : Vec) (hT0 : Tree n C0) (hT : Tree n R) (hW0 : Wood C0) (hW : Wood R)
    (hE : Extends C0 R) (hk : kin C0 C0.Generators.length R) (hkeys0 : C0.keys_ok)
    (hkeys : R.keys_ok) (hrays : R.rays_ok)
    (hG : ∃ D, R.Generators = C0.Generators ++ D ∧ ∀ x ∈ D, ∃ M L, hb M = some L ∧ x ∈ L)
    (hv : ∃ M L, hb M = some L ∧ v ∈ L) (hP : oracle_primitive n hb) (hnot : v ∉ R.AllRays)
    (k i : Nat) (mc : MiniCone) (hmc : C0.cell k i = some mc) (hleaf : mc.Daughters = [])
    (htwo : 2 ≤ (positive_positions v (exact_simplex_data (C0.gens mc)) 0).length) :
    off_rays n R v k i := by
  intro m q Y hb1 hY hcone
  by_contra hfew
  obtain ⟨hn, _, hdet, _⟩ := hT.simplex (k + m) q Y hY
  have hM : (R.gens Y).length = n := by
    unfold ConeCollection.gens
    rw [submatrix_length, hn]
  obtain ⟨hn0, _, _, _⟩ := hT0.simplex k i mc hmc
  have hM0 : (C0.gens mc).length = n := by
    unfold ConeCollection.gens
    rw [submatrix_length, hn0]
  rcases on_ray_of_few_positive n (R.gens Y) hM hdet v hcone (by omega) with
    hz | ⟨j, c, hc, hray⟩
  · rw [no_positive_of_zero n (C0.gens mc) hM0 v hz] at htwo
    simp at htwo
  · have hj : (j : Nat) < Y.GenKeys.length := by rw [hn]; exact j.isLt
    have hg : Y.GenKeys.getD j 0 ∈ Y.GenKeys := by
      rw [List.getD_eq_getElem?_getD, List.getElem?_eq_getElem hj, Option.getD_some]
      exact List.getElem_mem hj
    have hrow : (R.gens Y).getD j [] = row R.Generators (Y.GenKeys.getD j 0) :=
      getD_submatrix R.Generators Y.GenKeys j hj
    obtain ⟨D, hD, hDpt⟩ := hG
    rcases (below_leaf_keys C0 R _ hW0 hW hE hk k i mc hmc hleaf m q hb1).2 Y hY _ hg with
      h1 | h1
    · obtain ⟨l, hl, hgl⟩ := List.getElem_of_mem h1
      have hlt := hkeys0 k i mc hmc _ h1
      have hgl1 : mc.GenKeys.getD l 0 = Y.GenKeys.getD j 0 := by
        rw [← hgl, List.getD_eq_getElem?_getD, List.getElem?_eq_getElem hl, Option.getD_some]
      have hrow0 : row R.Generators (Y.GenKeys.getD j 0) = (C0.gens mc).getD l [] := by
        rw [hD, row_append _ _ _ hlt]
        unfold ConeCollection.gens
        rw [getD_submatrix _ _ l hl, hgl1]
      have hfew0 := few_positive_of_on_ray n (C0.gens mc) hM0 v ⟨l, by omega⟩ c
        (by rw [hray, hrow, hrow0])
      omega
    · have hlt := hkeys (k + m) q Y hY _ hg
      have hw : row R.Generators (Y.GenKeys.getD j 0) ∈ D := by
        rw [hD]
        exact row_mem_appended _ _ _ h1 (by rw [← hD]; exact hlt)
      obtain ⟨M2, L2, h2, hw2⟩ := hDpt _ hw
      obtain ⟨M1, L1, h3, hv1⟩ := hv
      have heq := hP M1 M2 L1 L2 v _ h3 h2 hv1 hw2 c hc (by rw [hray, hrow])
      apply hnot
      rw [heq]
      exact hrays (k + m) q Y hY _ hg

/-- A call of `MiniCone::refine(key)` with the bound of the operations on a cell
that contains the ray of `key` makes the ray known, when the ray has two
positive facet values on every cell below that contains it. -/
theorem refine_inserts (hb : Mat → Option (List Vec)) (n : Nat) (P R : ConeCollection)
    (key lvl plc : Nat) (hTP : Tree n P)
    (hR : R = MiniCone.refine (exactKernel hb) key P.Members.length lvl plc P)
    (hTR : Tree n R) (hSR : Stellar ℚ n R) (X : MiniCone) (hX : R.cell lvl plc = some X)
    (hcone : in_cone n (R.gens X) (rvec n (row R.Generators key) : Fin n → ℚ))
    (hoff : row R.Generators key ∉ R.AllRays → off_rays n R (row R.Generators key) lvl plc) :
    row R.Generators key ∈ R.AllRays := by
  by_contra hnot
  have ho := refine_outcome (exactKernel hb) (fun M => le_of_eq (exact_simplex_data_length M))
    key P.Members.length lvl plc P (facets_fit_of_tree n P hTP)
  rw [← hR] at ho
  obtain ⟨_, hG, _, hcase⟩ := ho
  rcases hcase with h | ⟨hce, hset⟩
  · rw [← hG] at h
    exact hnot h
  · have hq := quiet_of_settled hb n key R hTR _ _ _ hset
    have hlen : R.Members.length = P.Members.length := by
      have := congrArg List.length hce.2.2.2.1
      simpa using this
    exact not_quiet n key R hTR hSR P.Members.length lvl plc X hX hcone (by omega)
      (hoff hnot) hq

theorem insert_step_pre (hb : Mat → Option (List Vec)) (n : Nat) (s : InsertState)
    (H : HilbEntry) (hT : Tree n s.coll) :
    ∃ P, Tree n P ∧ (insert_step (exactKernel hb) s H).coll
      = MiniCone.refine (exactKernel hb) (insert_step (exactKernel hb) s H).key
          P.Members.length H.2.1 H.2.2 P := by
  have h1 := tree_grown n _ _ hT (grown_ensure_level s.coll)
  by_cases hH : H.1 = s.last_inserted
  · rw [insert_step_old _ s H hH]
    exact ⟨_, h1, rfl⟩
  · rw [insert_step_new _ s H hH]
    exact ⟨_, tree_grown n _ _ h1 (grown_append_gen _ H.1), rfl⟩

theorem roundstate_step (hb : Mat → Option (List Vec)) (n : Nat) (roots : List Mat)
    (C0 : ConeCollection) (s : InsertState) (H : HilbEntry)
    (hs : RoundState hb n roots C0 s) (hpt : ∃ M L, hb M = some L ∧ H.1 ∈ L) :
    RoundState hb n roots C0 (insert_step (exactKernel hb) s H) where
  sound := sound_insert_step hb n roots s H hs.sound
  sane := sane_insert_step _ s H hs.sane
  orderly := invariant_insert_step _ _ (invariant_orderly _) s H hs.orderly
  ext := invariant_insert_step _ _ (invariant_extends _ C0) s H hs.ext
  kin := kin_insert_step _ C0 s H hs.kin hs.orderly.coords hs.keyinv
  keyinv := (insert_step_call _ _ s H hs.keyinv).1
  gens := by
    obtain ⟨D, hD, hDpt⟩ := hs.gens
    rw [insert_step_generators, hD, List.append_assoc]
    refine ⟨_, rfl, ?_⟩
    intro x hx
    rcases List.mem_append.mp hx with h | h
    · exact hDpt x h
    · split at h
      · rw [List.mem_singleton] at h
        rw [h]
        exact hpt
      · cases h

/-- One pass of the inserting loop makes the point of its entry a known ray
when the point has no negative and two positive facet values on the leaf that
produced it. -/
theorem round_step_progress (hb : Mat → Option (List Vec)) (n : Nat) (roots : List Mat)
    (C0 : ConeCollection) (s : InsertState) (H : HilbEntry) (hs : RoundState hb n roots C0 s)
    (hT0 : Tree n C0) (hW0 : Wood C0) (hkeys0 : C0.keys_ok)
    (hpt : ∃ M L, hb M = some L ∧ H.1 ∈ L) (hP : oracle_primitive n hb) (mc : MiniCone)
    (hmc : C0.cell H.2.1 H.2.2 = some mc) (hleaf : mc.Daughters = [])
    (hnn : ∀ r ∈ exact_simplex_data (C0.gens mc), 0 ≤ v_scalar_product H.1 r)
    (htwo : 2 ≤ (positive_positions H.1 (exact_simplex_data (C0.gens mc)) 0).length) :
    H.1 ∈ (insert_step (exactKernel hb) s H).coll.AllRays := by
  have hs1 := roundstate_step hb n roots C0 s H hs hpt
  obtain ⟨P, hTP, hR⟩ := insert_step_pre hb n s H hs.sound.1
  have hrow := (insert_step_call (exactKernel hb) _ s H hs.keyinv).2.1
  obtain ⟨X, _, hX, hXk, _⟩ := hs1.ext _ _ mc hmc
  obtain ⟨hn0, _, hdet0, _⟩ := hT0.simplex _ _ mc hmc
  have hM0 : (C0.gens mc).length = n := by
    unfold ConeCollection.gens
    rw [submatrix_length, hn0]
  have hgens : (insert_step (exactKernel hb) s H).coll.gens X = C0.gens mc := by
    obtain ⟨D, hD, _⟩ := hs1.gens
    exact gens_extends C0 _ mc X hXk ⟨D, hD⟩ (hkeys0 _ _ mc hmc)
  have := refine_inserts hb n P _ _ H.2.1 H.2.2 hTP hR hs1.sound.1 hs1.sound.2.1 X hX
    (by rw [hrow, hgens]; exact in_cone_of_facet_nonneg n _ hM0 hdet0 H.1 hnn)
    (by
      rw [hrow]
      intro hnot
      exact off_rays_of_round hb n C0 _ H.1 hT0 hs1.sound.1 hW0 hs1.sane.wood hs1.ext hs1.kin
        hkeys0 hs1.orderly.keys hs1.orderly.rays hs1.gens hpt hP hnot _ _ mc hmc hleaf htwo)
  rw [hrow] at this
  exact this

/-- The inserting loop of a round makes every point with no negative and two
positive facet values on its leaf a known ray. -/
theorem round_fold_progress (hb : Mat → Option (List Vec)) (n : Nat) (roots : List Mat)
    (C0 : ConeCollection) (hT0 : Tree n C0) (hW0 : Wood C0) (hkeys0 : C0.keys_ok)
    (hP : oracle_primitive n hb) :
    ∀ (L : List HilbEntry) (s : InsertState), RoundState hb n roots C0 s →
      (∀ H ∈ L, ∃ M L1, hb M = some L1 ∧ H.1 ∈ L1) →
      RoundState hb n roots C0 (L.foldl (insert_step (exactKernel hb)) s) ∧
      ∀ H ∈ L, ∀ mc, C0.cell H.2.1 H.2.2 = some mc → mc.Daughters = [] →
        (∀ r ∈ exact_simplex_data (C0.gens mc), 0 ≤ v_scalar_product H.1 r) →
        2 ≤ (positive_positions H.1 (exact_simplex_data (C0.gens mc)) 0).length →
        H.1 ∈ (L.foldl (insert_step (exactKernel hb)) s).coll.AllRays := by
  intro L
  induction L with
  | nil =>
    intro s hs _
    exact ⟨hs, fun H hH => by cases hH⟩
  | cons H0 L ih =>
    intro s hs hpt
    rw [List.foldl_cons]
    have hs1 := roundstate_step hb n roots C0 s H0 hs (hpt H0 (List.mem_cons_self _ _))
    obtain ⟨a, b⟩ := ih _ hs1 (fun H hH => hpt H (List.mem_cons_of_mem _ hH))
    refine ⟨a, ?_⟩
    intro H hH mc hmc hleaf hnn htwo
    rcases List.mem_cons.mp hH with rfl | hH
    · have h1 := round_step_progress hb n roots C0 s H hs hT0 hW0 hkeys0
        (hpt H (List.mem_cons_self _ _)) hP mc hmc hleaf hnn htwo
      have hg : Grows (insert_step (exactKernel hb) s H).coll
          (L.foldl (insert_step (exactKernel hb)) (insert_step (exactKernel hb) s H)).coll := by
        have : ∀ (l : List HilbEntry) (s2 : InsertState),
            Grows s2.coll (l.foldl (insert_step (exactKernel hb)) s2).coll := by
          intro l
          induction l with
          | nil => intro s2; exact grows_refl _
          | cons H1 l ihl =>
            intro s2
            rw [List.foldl_cons]
            exact grows_trans _ _ _ (grows_insert_step _ s2 H1) (ihl _)
        exact this L _
      exact hg.2 _ h1
    · exact b H hH mc hmc hleaf hnn htwo





/-! ## Progress of a round: the rounds of `make_unimodular` -/

theorem stable_sound (hb : Mat → Option (List Vec)) (n : Nat) (roots : List Mat) :
    Stable (exactKernel hb) (Sound ℚ n roots) where
  append_gen := fun C v h => sound_grown n roots C _ h (grown_append_gen C v)
  refine := fun C key h => sound_refine hb n key roots C h
  insert_step := fun s H h => sound_insert_step hb n roots s H h

theorem stable_after_rounds (K : Kernel) (Q : ConeCollection → Prop) (hI : Stable K Q) :
    ∀ (r : Nat) (C C1 : ConeCollection), Q C → C.after_rounds K r = some C1 → Q C1 := by
  intro r
  induction r with
  | zero =>
    intro C C1 hQ h
    rw [ConeCollection.after_rounds] at h
    injection h with h
    rw [← h]
    exact hQ
  | succ r ih =>
    intro C C1 hQ h
    rw [ConeCollection.after_rounds] at h
    cases hr : C.round K with
    | none => rw [hr] at h; cases h
    | some C2 =>
      rw [hr] at h
      obtain ⟨A, _, _, hC2⟩ := (round_eq_some K C C2).mp hr
      exact ih C2 C1 (by rw [hC2]; exact stable_insert_hilbs K Q hI C _ hQ) h

theorem count_squeeze_of_not_mem (last : Vec) (vs : List Vec) (v : Vec) (h : v ∉ vs) :
    (squeeze last vs).count v = 0 :=
  List.count_eq_zero_of_not_mem (fun hm => h (mem_squeeze last vs v hm))

/-- A known ray stays known through later rounds, and is not appended to the
generator table again. -/
theorem known_after_rounds (K : Kernel) (v : Vec) :
    ∀ (m : Nat) (C R : ConeCollection), v ∈ C.AllRays → C.after_rounds K m = some R →
      v ∈ R.AllRays ∧ R.Generators.count v = C.Generators.count v := by
  intro m
  induction m with
  | zero =>
    intro C R hv h
    rw [ConeCollection.after_rounds] at h
    injection h with h
    rw [← h]
    exact ⟨hv, rfl⟩
  | succ m ih =>
    intro C R hv h
    rw [ConeCollection.after_rounds] at h
    cases hr : C.round K with
    | none => rw [hr] at h; cases h
    | some C2 =>
      rw [hr] at h
      obtain ⟨A, hA, _, hC2⟩ := (round_eq_some K C C2).mp hr
      have hv2 : v ∈ C2.AllRays := by
        rw [hC2]
        exact (grows_insert_hilbs K C _).2 v hv
      obtain ⟨a, b⟩ := ih C2 R hv2 h
      refine ⟨a, b.trans ?_⟩
      have hG : C2.Generators
          = C.Generators ++ squeeze [] ((sort_hilbs A).map fun H => H.1) := by
        rw [hC2]
        unfold insert_hilbs
        rw [insert_fold_generators]
      rw [hG, List.count_append, count_squeeze_of_not_mem, Nat.add_zero]
      intro hm
      obtain ⟨H, hH, hHv⟩ := List.mem_map.mp hm
      have hH1 := (sort_hilbs_spec A).1.mem_iff.mp hH
      have := (mem_collect K C A hA H hH1).1
      rw [hHv] at this
      exact this hv

theorem count_one_of_nodup (D : List Vec) (v : Vec) (hnd : D.Nodup) (hmem : v ∈ D) :
    D.count v = 1 := by
  induction D with
  | nil => cases hmem
  | cons a D ih =>
    rw [List.nodup_cons] at hnd
    rw [List.count_cons]
    rcases List.mem_cons.mp hmem with h | h
    · subst h
      rw [List.count_eq_zero_of_not_mem hnd.1]
      simp
    · rw [ih hnd.2 h]
      have : a ≠ v := fun e => hnd.1 (e ▸ h)
      simp [this]

theorem rvec_nil (n : Nat) : (rvec n ([] : Vec) : Fin n → ℚ) = 0 := by
  funext k
  simp [rvec]

/-- C37. Progress of a round, for the concrete kernel and an oracle whose
points are pairwise not proportional (as the elements of Hilbert bases are):
let the forest be that of a round of `make_unimodular` in a state reached from
a triangulation into non-degenerate simplices with disjoint interiors.  For
every entry (point, leaf) of the sorted list `AllHilbs` of the round whose
point has no negative facet value on its producing leaf and at least two
positive ones, the point is an element of `AllRays` at the end of the round; the
round appends it to `Generators` once; and after every number of later rounds
it is an element of `AllRays`, no entry collected has it as its point, and the
number of rows of `Generators` equal to it is the same. -/
theorem round_progress (hb : Mat → Option (List Vec)) (n : Nat) (Gens : Mat)
    (T : List (List Nat × Int)) (Cs C : ConeCollection) (r : Nat)
    (hT : ∀ S ∈ T, ∀ g ∈ S.1, g < Gens.length)
    (h0 : Triangulated ℚ n (ConeCollection.from_triangulation Gens T))
    (hP : oracle_primitive n hb)
    (hreach : Reached (exactKernel hb) (ConeCollection.from_triangulation Gens T) Cs)
    (hrounds : Cs.after_rounds (exactKernel hb) r = some C)
    (A : List HilbEntry) (hA : C.collect (exactKernel hb) = some A)
    (H : HilbEntry) (hH : H ∈ sort_hilbs A) (mc : MiniCone)
    (hmc : C.cell H.2.1 H.2.2 = some mc)
    (hnn : ∀ h ∈ mc.hyperplanes (exactKernel hb) C.Generators, 0 ≤ v_scalar_product H.1 h)
    (htwo : 2 ≤ ((mc.hyperplanes (exactKernel hb) C.Generators).filter fun h =>
      decide (0 < v_scalar_product H.1 h)).length) :
    C.round (exactKernel hb) = some (insert_hilbs (exactKernel hb) C (sort_hilbs A)) ∧
    H.1 ∈ (insert_hilbs (exactKernel hb) C (sort_hilbs A)).AllRays ∧
    (∃ D, (insert_hilbs (exactKernel hb) C (sort_hilbs A)).Generators = C.Generators ++ D ∧
      D.count H.1 = 1) ∧
    ∀ m R, (insert_hilbs (exactKernel hb) C (sort_hilbs A)).after_rounds (exactKernel hb) m
        = some R →
      H.1 ∈ R.AllRays ∧
      (∀ A1, R.collect (exactKernel hb) = some A1 → ∀ e ∈ A1, e.1 ≠ H.1) ∧
      R.Generators.count H.1
        = (insert_hilbs (exactKernel hb) C (sort_hilbs A)).Generators.count H.1 := by
  have hHA : H ∈ A := (sort_hilbs_spec A).1.mem_iff.mp hH
  have hsound : Sound ℚ n (ConeCollection.from_triangulation Gens T).root_cones C :=
    stable_after_rounds _ _ (stable_sound hb n _) r Cs C
      (stable_reached _ _ (stable_sound hb n _) _ Cs hreach (sound_of_triangulated n _ h0))
      hrounds
  have hsane : Sane C :=
    stable_after_rounds _ _ (stable_sane _) r Cs C (sane_reached _ Gens T Cs hreach) hrounds
  have hord : Orderly (exactKernel hb) C :=
    invariant_after_rounds _ _ (invariant_orderly _) r Cs C
      (invariant_reached _ _ (invariant_orderly _) _ Cs hreach
        (orderly_from_triangulation _ Gens T hT)) hrounds
  have hpts : ∀ H1 ∈ sort_hilbs A, ∃ M L1, hb M = some L1 ∧ H1.1 ∈ L1 := by
    intro H1 h1
    obtain ⟨_, mc1, HB, _, _, _, h2, h3⟩ :=
      mem_collect _ C A hA H1 ((sort_hilbs_spec A).1.mem_iff.mp h1)
    exact ⟨_, HB, h2, h3⟩
  obtain ⟨_, mc1, _, hmc1, _, hleaf1, _, _⟩ := mem_collect _ C A hA H hHA
  have hleaf : mc.Daughters = [] := by
    rw [hmc] at hmc1
    injection hmc1 with hmc1
    rw [hmc1]
    exact hleaf1
  have hSH := hyperplanes_eq hb n C hsound.1 _ _ mc hmc
  rw [hSH] at hnn htwo
  rw [← positive_positions_length _ _ 0] at htwo
  have hs0 : RoundState hb n (ConeCollection.from_triangulation Gens T).root_cones C
      { coll := C, last_inserted := [], key := C.Generators.length } :=
    { sound := hsound
      sane := hsane
      orderly := hord
      ext := extends_refl C
      kin := kin_start C _
      keyinv := ⟨row_of_le _ _ (le_refl _), le_refl _, le_refl _, fun h => absurd rfl h⟩
      gens := ⟨[], (List.append_nil _).symm, fun x hx => by cases hx⟩ }
  have hfold := round_fold_progress hb n _ C hsound.1 hsane.wood hord.keys hP (sort_hilbs A) _
    hs0 hpts
  have hin : H.1 ∈ (insert_hilbs (exactKernel hb) C (sort_hilbs A)).AllRays :=
    hfold.2 H hH mc hmc hleaf hnn htwo
  have hne : H.1 ≠ [] := by
    intro h
    obtain ⟨hn0, _, _, _⟩ := hsound.1.simplex _ _ mc hmc
    have hM0 : (C.gens mc).length = n := by
      unfold ConeCollection.gens
      rw [submatrix_length, hn0]
    rw [no_positive_of_zero n (C.gens mc) hM0 H.1 (by rw [h]; exact rvec_nil n)] at htwo
    simp at htwo
  have hG : (insert_hilbs (exactKernel hb) C (sort_hilbs A)).Generators
      = C.Generators ++ squeeze [] ((sort_hilbs A).map fun H => H.1) := by
    unfold insert_hilbs
    rw [insert_fold_generators]
  have hp : (([] : Vec) :: (sort_hilbs A).map fun H => H.1).Pairwise
      (fun v w => vec_lt w v = false) := by
    rw [List.pairwise_cons]
    exact ⟨fun v _ => vec_lt_nil v, (sort_hilbs_spec A).2⟩
  have hnd : (squeeze [] ((sort_hilbs A).map fun H => H.1)).Nodup := by
    have := (List.pairwise_cons.mp (squeeze_sorted [] _ hp)).2
    exact List.Pairwise.imp (fun {a b} hab heq => by
      rw [heq, vec_lt_irrefl] at hab
      cases hab) this
  have hmem : H.1 ∈ squeeze [] ((sort_hilbs A).map fun H => H.1) :=
    mem_squeeze_of_mem [] _ H.1 (List.mem_map.mpr ⟨H, hH, rfl⟩) hne hp
  refine ⟨(round_eq_some _ C _).mpr ⟨A, hA, List.ne_nil_of_mem hHA, rfl⟩, hin,
    ⟨_, hG, count_one_of_nodup _ _ hnd hmem⟩, ?_⟩
  intro m R hR
  obtain ⟨a, b⟩ := known_after_rounds _ H.1 m _ R hin hR
  refine ⟨a, ?_, b⟩
  intro A1 hA1 e he heq
  have := (mem_collect _ R A1 hA1 e he).1
  rw [heq] at this
  exact this a

theorem scenario_oracle_primitive : oracle_primitive 2 scenario_oracle := by
  intro M1 M2 L1 L2 x y h1 h2 hx hy c hc heq
  unfold scenario_oracle at h1 h2
  split at h1
  · split at h2
    · injection h1 with h1
      injection h2 with h2
      rw [← h1] at hx
      rw [← h2] at hy
      have e0 := congrFun heq 0
      have e1 := congrFun heq 1
      simp only [List.mem_cons, List.mem_singleton, List.not_mem_nil, or_false] at hx hy
      rcases hx with rfl | rfl | rfl <;> rcases hy with rfl | rfl | rfl <;>
        first
        | rfl
        | (exfalso
           simp [rvec] at e0 e1
           try linarith)
    · cases h2
  · cases h1

set_option maxRecDepth 40000 in
/-- Witness for `round_progress`: in the first round on the scenario forest the
point `(1,1)` of the cell over `(1,0)`, `(1,2)` has the facet values 1 and 1; at
the end of the round it is a known ray. -/
theorem round_progress_witness :
    (∀ S ∈ [(([0, 1] : List Nat), (2 : Int))], ∀ g ∈ S.1, g < ([[1, 0], [1, 2]] : Mat).length) ∧
    Triangulated ℚ 2 (ConeCollection.from_triangulation [[1, 0], [1, 2]] [([0, 1], 2)]) ∧
    oracle_primitive 2 scenario_oracle ∧
    scenario_forest.collect (exactKernel scenario_oracle) = some [([1, 1], 0, 0)] ∧
    scenario_forest.cell 0 0 = some (root_cell 0 ([0, 1], 2)) ∧
    (∀ h ∈ (root_cell 0 ([0, 1], 2)).hyperplanes (exactKernel scenario_oracle)
        scenario_forest.Generators, 0 ≤ v_scalar_product [1, 1] h) ∧
    2 ≤ (((root_cell 0 ([0, 1], 2)).hyperplanes (exactKernel scenario_oracle)
      scenario_forest.Generators).filter fun h => decide (0 < v_scalar_product [1, 1] h)).length ∧
    [1, 1] ∈ (insert_hilbs (exactKernel scenario_oracle) scenario_forest
      (sort_hilbs [([1, 1], 0, 0)])).AllRays :=
  ⟨by decide, scenario_triangulated, scenario_oracle_primitive, rfl, rfl, by decide, by decide,
    (round_progress scenario_oracle 2 [[1, 0], [1, 2]] [([0, 1], 2)] scenario_forest
      scenario_forest 0 (by decide) scenario_triangulated scenario_oracle_primitive
      Reached.start rfl [([1, 1], 0, 0)] rfl ([1, 1], 0, 0) (by decide)
      (root_cell 0 ([0, 1], 2)) rfl (by decide) (by decide)).2.1⟩





/-! ## The forest an interrupted operation leaves -/

theorem mends_refl (K : Kernel) (R : ConeCollection) : Mends K R R :=
  ⟨Or.inl rfl, rfl, rfl, extends_refl R, fun _ _ _ h _ => h⟩

theorem subdivide_fold_generators (K : Kernel) (key : Nat) (mc : MiniCone) :
    ∀ (l : List Nat) (C : ConeCollection),
      (l.foldl (subdivide_step K key mc) C).Generators = C.Generators := by
  intro l
  induction l with
  | nil => intro C; rfl
  | cons j l ih =>
    intro C
    rw [List.foldl_cons, ih]
    rfl

theorem add_minicone_level_zero (C : ConeCollection) (k p : Nat) (GKeys : List Nat)
    (mult : Int) :
    ((C.add_minicone (k + 1) p GKeys mult).Members.getD 0 []).length
      = (C.Members.getD 0 []).length := by
  by_cases hk : k + 1 < C.Members.length
  · rw [add_minicone_level_length C k p GKeys mult hk 0]
    simp
  · rw [add_minicone_no_level C k p GKeys mult (by omega)]
    exact updateCell_level_length C k p _ 0

theorem subdivide_fold_level_zero (K : Kernel) (key : Nat) (mc : MiniCone) :
    ∀ (l : List Nat) (C : ConeCollection),
      ((l.foldl (subdivide_step K key mc) C).Members.getD 0 []).length
        = (C.Members.getD 0 []).length := by
  intro l
  induction l with
  | nil => intro C; rfl
  | cons j l ih =>
    intro C
    rw [List.foldl_cons, ih]
    exact add_minicone_level_zero C _ _ _ _

/-- The passes of the subdivision loop after the first leave the cell of the
call with daughters. -/
theorem subdivide_fold_mother (K : Kernel) (key : Nat) (mc : MiniCone) (j : Nat)
    (l : List Nat) (C : ConeCollection) (m : MiniCone)
    (hm : C.cell mc.level mc.my_place = some m) :
    ∃ m1, ((j :: l).foldl (subdivide_step K key mc) C).cell mc.level mc.my_place = some m1 ∧
      m1.Daughters ≠ [] := by
  rw [List.foldl_cons]
  have h1 := cell_add_minicone_mother C mc.level mc.my_place
    (List.insertionSort (fun a b => a ≤ b) (mc.GenKeys.set j key))
    (K.vol (submatrix C.Generators (List.insertionSort (fun a b => a ≤ b)
      (mc.GenKeys.set j key)))) m hm
  obtain ⟨m1, E, hm1, _, _, _, _, _, a6⟩ :=
    extends_subdivide_fold K key mc l (subdivide_step K key mc C j) _ _ _ h1
  refine ⟨m1, hm1, ?_⟩
  rw [a6]
  simp

/-- The forest a subdivision loop leaves after some of its passes is mended by
the remaining ones. -/
theorem mends_subdivide (K : Kernel) (key : Nat) (mc : MiniCone) (j : Nat) (done rest : List Nat)
    (C : ConeCollection) (m : MiniCone) (hm : C.cell mc.level mc.my_place = some m)
    (hrest : rest ≠ []) :
    Mends K ((j :: done).foldl (subdivide_step K key mc) C)
      ((j :: done ++ rest).foldl (subdivide_step K key mc) C) := by
  have happ : ((j :: done) ++ rest).foldl (subdivide_step K key mc) C
      = rest.foldl (subdivide_step K key mc) ((j :: done).foldl (subdivide_step K key mc) C) :=
    List.foldl_append _ _ _ _
  rw [show j :: done ++ rest = (j :: done) ++ rest from rfl, happ]
  refine ⟨Or.inr ⟨key, mc, j, done, rest, C, hrest, rfl, rfl⟩, subdivide_fold_generators K key mc rest _,
    subdivide_fold_level_zero K key mc rest _, extends_subdivide_fold K key mc rest _, ?_⟩
  intro k i A hA hleaf
  apply subdivide_fold_other K key mc rest _ k i A hA
  rintro ⟨rfl, rfl⟩
  obtain ⟨m1, hm1, hne⟩ := subdivide_fold_mother K key mc j done C m hm
  rw [hm1] at hA
  injection hA with hA
  rw [hA] at hne
  exact hne hleaf

/-- A returned call of `MiniCone::refine` that polls the flag keeps the forest
well formed and subdivided. -/
theorem poll_returned_kept (flag : Nat → Bool) (hb : Mat → Option (List Vec)) (n key : Nat)
    (fuel lvl plc : Nat) (C : ConeCollection) (t : Nat) (hT : Tree n C) (hS : Stellar ℚ n C)
    (hsafe : Safe C key) (R : ConeCollection) (t1 : Nat)
    (h : MiniCone.refine_poll flag (exactKernel hb) key fuel lvl plc C t = Polled.returned R t1) :
    Kept ℚ n key C R := by
  have hs := refine_poll_spec flag (exactKernel hb) key fuel lvl plc C t
  rw [h] at hs
  rw [hs.1]
  exact refine_kept hb n key fuel lvl plc C hT hS hsafe

/-- The loop over cells of one level, given what an interrupted call on one
cell leaves. -/
theorem poll_fold_mended (flag : Nat → Bool) (hb : Mat → Option (List Vec)) (n key fuel k1 : Nat)
    (ih : ∀ (plc : Nat) (C : ConeCollection) (t : Nat), Tree n C → Stellar ℚ n C → Safe C key →
      ∀ R t1, MiniCone.refine_poll flag (exactKernel hb) key fuel k1 plc C t
          = Polled.interrupted R t1 →
        ∃ R1, Mends (exactKernel hb) R R1 ∧ Kept ℚ n key C R1) :
    ∀ (ds : List Nat) (C2 : ConeCollection) (t2 : Nat), Tree n C2 → Stellar ℚ n C2 →
      Safe C2 key → ∀ R t1,
      ds.foldl (fun r d => r.andThen (MiniCone.refine_poll flag (exactKernel hb) key fuel k1 d))
          (Polled.returned C2 t2) = Polled.interrupted R t1 →
        ∃ R1, Mends (exactKernel hb) R R1 ∧ Kept ℚ n key C2 R1 := by
  intro ds
  induction ds with
  | nil =>
    intro C2 t2 _ _ _ R t1 h
    cases h
  | cons d ds ihd =>
    intro C2 t2 hT hS hsafe R t1 h
    rw [List.foldl_cons, andThen_returned] at h
    cases h4 : MiniCone.refine_poll flag (exactKernel hb) key fuel k1 d C2 t2 with
    | interrupted R4 t4 =>
      rw [h4, fold_andThen_interrupted] at h
      injection h with h5 h6
      subst h5
      exact ih d C2 t2 hT hS hsafe R4 t4 h4
    | returned C3 t4 =>
      rw [h4] at h
      have hk := poll_returned_kept flag hb n key fuel k1 d C2 t2 hT hS hsafe C3 t4 h4
      obtain ⟨R1, a, b⟩ := ihd C3 t4 hk.1 hk.2.1 hk.2.2.1 R t1 h
      exact ⟨R1, a, kept_trans n key C2 C3 R1 hk b⟩

/-- An interrupted call of `MiniCone::refine` leaves a forest that the
remaining passes of the interrupted subdivision loop, if it was in one, make
well formed and subdivided. -/
theorem poll_interrupted_mended (flag : Nat → Bool) (hb : Mat → Option (List Vec))
    (n key : Nat) :
    ∀ (fuel lvl plc : Nat) (C : ConeCollection) (t : Nat), Tree n C → Stellar ℚ n C →
      Safe C key → ∀ R t1,
      MiniCone.refine_poll flag (exactKernel hb) key fuel lvl plc C t = Polled.interrupted R t1 →
        ∃ R1, Mends (exactKernel hb) R R1 ∧ Kept ℚ n key C R1 := by
  intro fuel
  induction fuel with
  | zero =>
    intro lvl plc C t _ _ _ R t1 h
    rw [refine_poll_zero] at h
    cases h
  | succ fuel ih =>
    intro lvl plc C t hT hS hsafe R t1 h
    cases hc : C.cell lvl plc with
    | none =>
      rw [refine_poll_no_cell _ _ _ _ _ _ _ _ hc] at h
      cases h
    | some mc =>
      have hk1 := cache_kept (F := ℚ) hb n key C lvl plc hT hS hsafe
      have hco := hT.coords lvl plc mc hc
      rw [refine_poll_succ flag _ key fuel lvl plc C t mc hc] at h
      have hfs := facet_loop_poll_spec flag (row C.Generators key)
        (mc.hyperplanes (exactKernel hb) C.Generators) 0 [] t
      cases hfl : facet_loop_poll flag (row C.Generators key)
          (mc.hyperplanes (exactKernel hb) C.Generators) 0 [] t with
      | interrupted t2 =>
        rw [hfl] at h
        injection h with h5 h6
        rw [← h5]
        exact ⟨_, mends_refl _ _, hk1⟩
      | outside t2 =>
        rw [hfl] at h
        cases h
      | opposite opp t2 =>
        rw [hfl] at h hfs
        simp only at h hfs
        by_cases hone : opp.length = 1
        · rw [if_pos hone] at h
          cases h
        · rw [if_neg hone] at h
          by_cases hd : mc.Daughters.length > 0
          · rw [if_pos hd] at h
            obtain ⟨R1, a, b⟩ := poll_fold_mended flag hb n key fuel (mc.level + 1)
              (fun plc1 C1 t3 h1 h2 h3 R2 t4 h4 => ih (mc.level + 1) plc1 C1 t3 h1 h2 h3 R2 t4 h4)
              mc.Daughters _ t2 hk1.1 hk1.2.1 hk1.2.2.1 R t1 h
            exact ⟨R1, a, kept_trans n key C _ R1 hk1 b⟩
          · rw [if_neg hd] at h
            have hsp := subdivide_loop_poll_spec flag (exactKernel hb) key mc opp
              (C.cache_facets (exactKernel hb) lvl plc) t2
            rw [h] at hsp
            obtain ⟨⟨done, rest, h1, h2, h3⟩, _⟩ := hsp
            cases done with
            | nil =>
              rw [h3]
              exact ⟨_, mends_refl _ _, hk1⟩
            | cons j done =>
              have hfull : MiniCone.refine (exactKernel hb) key (fuel + 1) lvl plc C
                  = opp.foldl (subdivide_step (exactKernel hb) key mc)
                      (C.cache_facets (exactKernel hb) lvl plc) := by
                rw [refine_succ _ key fuel lvl plc C mc hc, hfs.1]
                simp only
                rw [if_neg hone, if_neg hd]
              have hkept := refine_kept (F := ℚ) hb n key (fuel + 1) lvl plc C hT hS hsafe
              rw [hfull, h1] at hkept
              refine ⟨_, ?_, hkept⟩
              rw [h3]
              have hm : (C.cache_facets (exactKernel hb) lvl plc).cell mc.level mc.my_place
                  = some { mc with
                      SupportHyperplanes := mc.hyperplanes (exactKernel hb) C.Generators } := by
                have e : (C.cache_facets (exactKernel hb) lvl plc).cell mc.level mc.my_place
                    = (C.cache_facets (exactKernel hb) lvl plc).cell lvl plc := by
                  rw [hco.1, hco.2]
                exact e.trans (cache_facets_cell _ C lvl plc mc hc)
              exact mends_subdivide _ key mc j done rest _ _ hm h2





/-! ## Runs in which no poll finds the flag set -/

/-- Without an interruption the polling `ConeCollection::refine` returns the
forest of `ConeCollection::refine`. -/
theorem coll_refine_poll_clear (K : Kernel) (C : ConeCollection) (key t : Nat) :
    ∃ t1, C.refine_poll (fun _ => false) K key t = Polled.returned (C.refine K key) t1 := by
  unfold ConeCollection.refine_poll ConeCollection.refine
  split
  · exact ⟨t, rfl⟩
  · exact fold_poll_clear K key _ 0 _ _ t

theorem collect_loop_poll_clear (K : Kernel) (C : ConeCollection) :
    ∀ (ps : List (Nat × Nat)) (acc : List HilbEntry) (t : Nat), ∃ t1,
      collect_loop_poll (fun _ => false) K C ps acc t
        = match collect_loop K C (ps.filter C.passes) acc with
          | some A => Collected.done A t1
          | none => Collected.failed t1 := by
  intro ps
  induction ps with
  | nil =>
    intro acc t
    exact ⟨t, rfl⟩
  | cons p ps ih =>
    intro acc t
    rw [collect_loop_poll]
    simp only [Bool.false_eq_true, if_false]
    cases hc : C.cell p.1 p.2 with
    | none =>
      have hp : C.passes p = false := by
        unfold ConeCollection.passes
        rw [hc]
      rw [List.filter_cons_of_neg (by rw [hp]; exact Bool.false_ne_true)]
      exact ih acc (t + 1)
    | some mc =>
      simp only
      by_cases h1 : mc.multiplicity = 1
      · have hp : C.passes p = false := by
          unfold ConeCollection.passes
          rw [hc]
          simp only
          rw [if_pos h1]
        rw [if_pos h1, List.filter_cons_of_neg (by rw [hp]; exact Bool.false_ne_true)]
        exact ih acc (t + 1)
      · rw [if_neg h1]
        by_cases h2 : mc.Daughters.isEmpty = true
        · have hp : C.passes p = true := by
            unfold ConeCollection.passes
            rw [hc]
            simp only
            rw [if_neg h1, h2]
          rw [if_neg (by rw [h2]; simp), List.filter_cons_of_pos hp, collect_loop, collect_cell, hc]
          simp only
          cases hh : K.hilbert_basis (submatrix C.Generators mc.GenKeys) with
          | none => exact ⟨t + 1, rfl⟩
          | some HB => exact ih _ (t + 1)
        · have hp : C.passes p = false := by
            unfold ConeCollection.passes
            rw [hc]
            simp only
            rw [if_neg h1]
            simpa using h2
          rw [if_pos (by simpa using h2),
            List.filter_cons_of_neg (by rw [hp]; exact Bool.false_ne_true)]
          exact ih acc (t + 1)

theorem insert_loop_poll_clear (K : Kernel) :
    ∀ (L : List HilbEntry) (s : InsertState) (t : Nat), ∃ t1,
      insert_loop_poll (fun _ => false) K L s t
        = Polled.returned (L.foldl (insert_step K) s).coll t1 := by
  intro L
  induction L with
  | nil =>
    intro s t
    exact ⟨t, rfl⟩
  | cons H L ih =>
    intro s t
    rw [insert_loop_poll, List.foldl_cons]
    obtain ⟨t1, h1⟩ := refine_poll_clear K
      (if H.1 ≠ s.last_inserted then
        ({ coll := { s.coll.ensure_level with
              Generators := s.coll.ensure_level.Generators ++ [H.1] },
           last_inserted := H.1, key := s.coll.ensure_level.Generators.length } : InsertState)
      else { s with coll := s.coll.ensure_level }).key
      (if H.1 ≠ s.last_inserted then
        ({ coll := { s.coll.ensure_level with
              Generators := s.coll.ensure_level.Generators ++ [H.1] },
           last_inserted := H.1, key := s.coll.ensure_level.Generators.length } : InsertState)
      else { s with coll := s.coll.ensure_level }).coll.Members.length H.2.1 H.2.2
      (if H.1 ≠ s.last_inserted then
        ({ coll := { s.coll.ensure_level with
              Generators := s.coll.ensure_level.Generators ++ [H.1] },
           last_inserted := H.1, key := s.coll.ensure_level.Generators.length } : InsertState)
      else { s with coll := s.coll.ensure_level }).coll t
    rw [h1]
    exact ih _ t1

/-- Without an interruption the polling `make_unimodular` ends as
`make_unimodular` does. -/
theorem make_unimodular_poll_clear (K : Kernel) :
    ∀ (fuel : Nat) (C : ConeCollection) (t : Nat),
      match C.make_unimodular K fuel with
      | Outcome.returned R =>
        ∃ t1, C.make_unimodular_poll (fun _ => false) K fuel t = PolledOutcome.returned R t1
      | Outcome.oracle_failed R =>
        ∃ t1, C.make_unimodular_poll (fun _ => false) K fuel t = PolledOutcome.oracle_failed R t1
      | Outcome.out_of_fuel =>
        C.make_unimodular_poll (fun _ => false) K fuel t = PolledOutcome.out_of_fuel := by
  intro fuel
  induction fuel with
  | zero =>
    intro C t
    rfl
  | succ fuel ih =>
    intro C t
    rw [ConeCollection.make_unimodular, ConeCollection.make_unimodular_poll]
    obtain ⟨t1, h1⟩ := collect_loop_poll_clear K C C.positions [] t
    rw [← eligible_eq_filter] at h1
    unfold ConeCollection.collect
    rw [h1]
    cases hcl : collect_loop K C C.eligible [] with
    | none => exact ⟨t1, rfl⟩
    | some A =>
      simp only
      by_cases he : A.isEmpty = true
      · rw [if_pos he, if_pos he]
        exact ⟨t1, rfl⟩
      · rw [if_neg he, if_neg he]
        obtain ⟨t2, h2⟩ := insert_loop_poll_clear K (sort_hilbs A)
          { coll := C, last_inserted := [], key := C.Generators.length } t1
        rw [h2]
        exact ih (insert_hilbs K C (sort_hilbs A)) t2





/-! ## Interrupted operations -/

/-- An interrupted `ConeCollection::refine` leaves a forest that is mended to a
well formed and subdivided one. -/
theorem coll_refine_poll_mended (flag : Nat → Bool) (hb : Mat → Option (List Vec)) (n : Nat)
    (roots : List Mat) (C : ConeCollection) (key t : Nat) (h : Sound ℚ n roots C)
    (R : ConeCollection) (t1 : Nat)
    (hi : C.refine_poll flag (exactKernel hb) key t = Polled.interrupted R t1) :
    ∃ R1, Mends (exactKernel hb) R R1 ∧ Sound ℚ n roots R1 := by
  unfold ConeCollection.refine_poll at hi
  split at hi
  · cases hi
  · have h1 := sound_grown n roots C _ h (grown_ensure_level C)
    have hs := safe_ensure_level C h.1.nonempty key
    obtain ⟨R1, a, b⟩ := poll_fold_mended flag hb n key C.ensure_level.Members.length 0
      (fun plc C1 t3 h2 h3 h4 R2 t4 h5 =>
        poll_interrupted_mended flag hb n key _ 0 plc C1 t3 h2 h3 h4 R2 t4 h5)
      _ C.ensure_level t h1.1 h1.2.1 hs R t1 hi
    exact ⟨R1, a, sound_kept n key roots _ _ h1 b⟩

/-- The inserting loop of `make_unimodular`: a loop that returns keeps the
forest well formed and subdivided, an interrupted one leaves a forest that is
mended to such a forest. -/
theorem insert_loop_poll_mended (flag : Nat → Bool) (hb : Mat → Option (List Vec)) (n : Nat)
    (roots : List Mat) :
    ∀ (L : List HilbEntry) (s : InsertState) (t : Nat), Sound ℚ n roots s.coll → ∀ R t1,
      (insert_loop_poll flag (exactKernel hb) L s t = Polled.returned R t1 →
        Sound ℚ n roots R) ∧
      (insert_loop_poll flag (exactKernel hb) L s t = Polled.interrupted R t1 →
        ∃ R1, Mends (exactKernel hb) R R1 ∧ Sound ℚ n roots R1) := by
  intro L
  induction L with
  | nil =>
    intro s t h R t1
    constructor
    · intro hr
      rw [insert_loop_poll] at hr
      injection hr with hr _
      rw [← hr]
      exact h
    · intro hr
      rw [insert_loop_poll] at hr
      cases hr
  | cons H L ih =>
    intro s t h R t1
    have h1 := sound_grown n roots s.coll _ h (grown_ensure_level s.coll)
    have hsafe0 := safe_ensure_level s.coll h.1.nonempty
    have key : ∀ (s1 : InsertState), Sound ℚ n roots s1.coll → Safe s1.coll s1.key →
        ((match MiniCone.refine_poll flag (exactKernel hb) s1.key s1.coll.Members.length
              H.2.1 H.2.2 s1.coll t with
          | Polled.interrupted R2 t2 => Polled.interrupted R2 t2
          | Polled.returned R2 t2 =>
            insert_loop_poll flag (exactKernel hb) L { s1 with coll := R2 } t2)
            = Polled.returned R t1 → Sound ℚ n roots R) ∧
        ((match MiniCone.refine_poll flag (exactKernel hb) s1.key s1.coll.Members.length
              H.2.1 H.2.2 s1.coll t with
          | Polled.interrupted R2 t2 => Polled.interrupted R2 t2
          | Polled.returned R2 t2 =>
            insert_loop_poll flag (exactKernel hb) L { s1 with coll := R2 } t2)
            = Polled.interrupted R t1 →
          ∃ R1, Mends (exactKernel hb) R R1 ∧ Sound ℚ n roots R1) := by
      intro s1 hS1 hsafe1
      cases hp : MiniCone.refine_poll flag (exactKernel hb) s1.key s1.coll.Members.length
          H.2.1 H.2.2 s1.coll t with
      | interrupted R2 t2 =>
        simp only
        constructor
        · intro hr
          cases hr
        · intro hr
          injection hr with hr1 hr2
          subst hr1
          obtain ⟨R1, a, b⟩ := poll_interrupted_mended flag hb n s1.key _ _ _ _ t hS1.1 hS1.2.1
            hsafe1 R2 t2 hp
          exact ⟨R1, a, sound_kept n s1.key roots _ _ hS1 b⟩
      | returned R2 t2 =>
        simp only
        have hk := poll_returned_kept flag hb n s1.key _ _ _ _ t hS1.1 hS1.2.1 hsafe1 R2 t2 hp
        exact ih { s1 with coll := R2 } t2 (sound_kept n s1.key roots _ _ hS1 hk) R t1
    rw [insert_loop_poll]
    by_cases hH : H.1 ≠ s.last_inserted
    · simp only [if_pos hH]
      exact key
        { coll := { s.coll.ensure_level with
            Generators := s.coll.ensure_level.Generators ++ [H.1] },
          last_inserted := H.1, key := s.coll.ensure_level.Generators.length }
        (sound_grown n roots _ _ h1 (grown_append_gen _ H.1))
        (safe_append_gen s.coll.ensure_level H.1 _ (hsafe0 _))
    · simp only [if_neg hH]
      exact key { s with coll := s.coll.ensure_level } h1 (hsafe0 _)

/-- The polling `make_unimodular`: a run that ends keeps the forest well formed
and subdivided, an interrupted one leaves a forest that is mended to such a
forest. -/
theorem make_unimodular_poll_mended (flag : Nat → Bool) (hb : Mat → Option (List Vec))
    (n : Nat) (roots : List Mat) :
    ∀ (fuel : Nat) (C : ConeCollection) (t : Nat), Sound ℚ n roots C → ∀ R t1,
      C.make_unimodular_poll flag (exactKernel hb) fuel t = PolledOutcome.interrupted R t1 →
        ∃ R1, Mends (exactKernel hb) R R1 ∧ Sound ℚ n roots R1 := by
  intro fuel
  induction fuel with
  | zero =>
    intro C t _ R t1 h
    rw [ConeCollection.make_unimodular_poll] at h
    cases h
  | succ fuel ih =>
    intro C t hS R t1 h
    rw [ConeCollection.make_unimodular_poll] at h
    cases hc : collect_loop_poll flag (exactKernel hb) C C.positions [] t with
    | interrupted t2 =>
      rw [hc] at h
      injection h with h1 h2
      rw [← h1]
      exact ⟨C, mends_refl _ C, hS⟩
    | failed t2 =>
      rw [hc] at h
      cases h
    | done A t2 =>
      rw [hc] at h
      simp only at h
      by_cases he : A.isEmpty = true
      · rw [if_pos he] at h
        cases h
      · rw [if_neg he] at h
        cases hl : insert_loop_poll flag (exactKernel hb) (sort_hilbs A)
            { coll := C, last_inserted := [], key := C.Generators.length } t2 with
        | interrupted R2 t3 =>
          rw [hl] at h
          injection h with h1 h2
          subst h1
          exact (insert_loop_poll_mended flag hb n roots (sort_hilbs A) _ t2 hS R2 t3).2 hl
        | returned R2 t3 =>
          rw [hl] at h
          exact ih R2 t3
            ((insert_loop_poll_mended flag hb n roots (sort_hilbs A) _ t2 hS R2 t3).1 hl) R t1 h

/-- The level-0 cells of a forest and of the forest that mends it span the
same cones. -/
theorem mends_roots (K : Kernel) (n : Nat) (R R1 : ConeCollection) (hM : Mends K R R1)
    (x : Fin n → ℚ) :
    (∃ i A, R1.cell 0 i = some A ∧ in_cone n (R1.gens A) x) ↔
      ∃ i A, R.cell 0 i = some A ∧ in_cone n (R.gens A) x := by
  obtain ⟨_, hg, hl, hext, _⟩ := hM
  constructor
  · rintro ⟨i, A1, hA1, hx⟩
    have hi := (cell_lt R1 0 i A1 hA1).2
    rw [hl] at hi
    obtain ⟨A, hA⟩ := cell_of_lt R 0 i hi
    obtain ⟨A2, E, hA2, hk, _⟩ := hext 0 i A hA
    rw [hA1] at hA2
    injection hA2 with hA2
    subst hA2
    refine ⟨i, A, hA, ?_⟩
    unfold ConeCollection.gens at hx ⊢
    rw [← hg, ← hk]
    exact hx
  · rintro ⟨i, A, hA, hx⟩
    obtain ⟨A2, E, hA2, hk, _⟩ := hext 0 i A hA
    refine ⟨i, A2, hA2, ?_⟩
    unfold ConeCollection.gens at hx ⊢
    rw [hg, hk]
    exact hx

/-- The leaves of a forest that is mended to a well formed and subdivided one
have pairwise disjoint interiors and lie in the cones of level 0, and the
leaves of the mending forest cover these. -/
theorem mended_leaves (K : Kernel) (n : Nat) (roots : List Mat) (R R1 : ConeCollection)
    (hM : Mends K R R1) (hS : Sound ℚ n roots R1) :
    (∀ k i l j A B, R.cell k i = some A → R.cell l j = some B →
      A.Daughters = [] → B.Daughters = [] → (k, i) ≠ (l, j) →
      ∀ x : Fin n → ℚ, ¬ (in_interior n (R.gens A) x ∧ in_interior n (R.gens B) x)) ∧
    (∀ k i A, R.cell k i = some A → A.Daughters = [] → ∀ x : Fin n → ℚ,
      in_cone n (R.gens A) x → ∃ i0 A0, R.cell 0 i0 = some A0 ∧ in_cone n (R.gens A0) x) ∧
    (∀ x : Fin n → ℚ, (∃ i0 A0, R.cell 0 i0 = some A0 ∧ in_cone n (R.gens A0) x) ↔
      ∃ M ∈ roots, in_cone n M x) ∧
    (∀ x : Fin n → ℚ, (∃ i0 A0, R.cell 0 i0 = some A0 ∧ in_cone n (R.gens A0) x) →
      ∃ k i A, R1.cell k i = some A ∧ A.Daughters = [] ∧ in_cone n (R1.gens A) x) := by
  have hg : ∀ A : MiniCone, R1.gens A = R.gens A := by
    intro A
    unfold ConeCollection.gens
    rw [hM.2.1]
  have hleaf := hM.2.2.2.2
  refine ⟨?_, ?_, ?_, ?_⟩
  · intro k i l j A B hA hB hAl hBl hne x
    have := leaves_apart n R1 hS.1 hS.2.1 k i l j A B (hleaf k i A hA hAl) (hleaf l j B hB hBl)
      hAl hBl hne x
    rwa [hg, hg] at this
  · intro k i A hA hAl x hx
    rw [← hg] at hx
    exact (mends_roots K n R R1 hM x).mp
      (ascend_cone n R1 hS.1 hS.2.1 x k i A (hleaf k i A hA hAl) hx)
  · intro x
    rw [← mends_roots K n R R1 hM x, mem_root_cones, hS.2.2]
  · intro x hx
    rw [leaves_cover n roots R1 hS x, ← hS.2.2, ← mem_root_cones]
    exact (mends_roots K n R R1 hM x).mpr hx





/-! ## C32: the leaves after a cancellation -/

/-- C32 (amended). Cancellation keeps the leaves apart and inside the support:
when `ConeCollection::refine` or `make_unimodular`, called in a state reached
from a forest whose level-0 cells triangulate a cone, is ended by the exception
of one of its interruption points, the leaves of the forest left behind have
pairwise disjoint interiors and lie in the union of the cones of the level-0
cells, and these are the cones of the level-0 cells of the initial forest. The
leaves cover that union once the passes that an interrupted subdivision loop
had still to make are made: the forest left behind is a forest whose leaves
cover it, or it is the forest after some but not all passes of a subdivision
loop of `MiniCone::refine`, and the remaining passes keep the generator table
and every leaf and give a forest whose leaves cover it. -/
theorem cancelled_leaves_disjoint (flag : Nat → Bool) (hb : Mat → Option (List Vec)) (n : Nat)
    (C0 C : ConeCollection) (h0 : Triangulated ℚ n C0)
    (hr : Reached (exactKernel hb) C0 C) (R : ConeCollection) (t t1 : Nat)
    (hint : (∃ key, C.refine_poll flag (exactKernel hb) key t = Polled.interrupted R t1) ∨
      ∃ fuel, C.make_unimodular_poll flag (exactKernel hb) fuel t
        = PolledOutcome.interrupted R t1) :
    (∀ k i l j A B, R.cell k i = some A → R.cell l j = some B →
      A.Daughters = [] → B.Daughters = [] → (k, i) ≠ (l, j) →
      ∀ x : Fin n → ℚ, ¬ (in_interior n (R.gens A) x ∧ in_interior n (R.gens B) x)) ∧
    (∀ k i A, R.cell k i = some A → A.Daughters = [] → ∀ x : Fin n → ℚ,
      in_cone n (R.gens A) x → ∃ i0 A0, R.cell 0 i0 = some A0 ∧ in_cone n (R.gens A0) x) ∧
    (∀ x : Fin n → ℚ, (∃ i0 A0, R.cell 0 i0 = some A0 ∧ in_cone n (R.gens A0) x) ↔
      ∃ i0 A0, C0.cell 0 i0 = some A0 ∧ in_cone n (C0.gens A0) x) ∧
    ∃ R1, (R1 = R ∨ ∃ key mc j done rest Cb, rest ≠ [] ∧
        R = List.foldl (subdivide_step (exactKernel hb) key mc) Cb (j :: done) ∧
        R1 = List.foldl (subdivide_step (exactKernel hb) key mc) R rest) ∧
      R1.Generators = R.Generators ∧
      (∀ k i A, R.cell k i = some A → A.Daughters = [] → R1.cell k i = some A) ∧
      ∀ x : Fin n → ℚ, (∃ i0 A0, R.cell 0 i0 = some A0 ∧ in_cone n (R.gens A0) x) →
        ∃ k i A, R1.cell k i = some A ∧ A.Daughters = [] ∧ in_cone n (R1.gens A) x := by
  have hS : Sound ℚ n C0.root_cones C :=
    stable_reached (exactKernel hb) _ (stable_sound hb n C0.root_cones) C0 C hr
      (sound_of_triangulated n C0 h0)
  have hex : ∃ R1, Mends (exactKernel hb) R R1 ∧ Sound ℚ n C0.root_cones R1 := by
    rcases hint with ⟨key, h⟩ | ⟨fuel, h⟩
    · exact coll_refine_poll_mended flag hb n _ C key t hS R t1 h
    · exact make_unimodular_poll_mended flag hb n _ fuel C t hS R t1 h
  obtain ⟨R1, hM, hS1⟩ := hex
  obtain ⟨a, b, c, d⟩ := mended_leaves (exactKernel hb) n _ R R1 hM hS1
  refine ⟨a, b, ?_, R1, hM.1, hM.2.1, hM.2.2.2.2, d⟩
  intro x
  rw [c x, mem_root_cones]

set_option maxRecDepth 10000 in
theorem scenario_triangulated_extra :
    Triangulated ℚ 2 (ConeCollection.from_triangulation [[1, 0], [1, 2], [1, 1]] [([0, 1], 2)]) := by
  have hi : ∀ i mc, (ConeCollection.from_triangulation [[1, 0], [1, 2], [1, 1]]
      [([0, 1], 2)]).cell 0 i = some mc → i = 0 := by
    intro i mc hc
    have h := (cell_lt _ 0 i mc hc).2
    have h1 : ((ConeCollection.from_triangulation [[1, 0], [1, 2], [1, 1]]
      [([0, 1], 2)]).Members.getD 0 []).length = 1 := rfl
    omega
  refine ⟨rfl, ?_, ?_⟩
  · intro i mc hc
    obtain rfl := hi i mc hc
    have h0 : (ConeCollection.from_triangulation [[1, 0], [1, 2], [1, 1]]
        [([0, 1], 2)]).cell 0 0 = some
        { GenKeys := [0, 1], multiplicity := 2, SupportHyperplanes := [], Daughters := [],
          level := 0, my_place := 0, is_simplex := true } := rfl
    rw [h0] at hc
    injection hc with hc
    subst hc
    exact ⟨rfl, rfl, rfl, rfl, by decide, by decide, Or.inl rfl⟩
  · intro i i1 A B hA hB hne
    exact absurd ((hi i A hA).trans (hi i1 B hB).symm) hne

set_option maxRecDepth 40000 in
/-- Witness for `cancelled_leaves_disjoint`: `make_unimodular` on the scenario
forest, interrupted by its fifth poll, before the second pass of the
subdivision loop for the point `(1,1)`; the only leaf left behind lies in the
cone of the level-0 cell. -/
theorem cancelled_leaves_disjoint_witness :
    Triangulated ℚ 2 scenario_forest ∧
    Reached (exactKernel scenario_oracle) scenario_forest scenario_forest ∧
    ((∃ key, scenario_forest.refine_poll (fun t => decide (t = 4))
        (exactKernel scenario_oracle) key 0 = Polled.interrupted graded_cancelled 4) ∨
      ∃ fuel, scenario_forest.make_unimodular_poll (fun t => decide (t = 4))
        (exactKernel scenario_oracle) fuel 0 = PolledOutcome.interrupted graded_cancelled 4) ∧
    (∀ k i A, graded_cancelled.cell k i = some A → A.Daughters = [] → ∀ x : Fin 2 → ℚ,
      in_cone 2 (graded_cancelled.gens A) x →
        ∃ i0 A0, graded_cancelled.cell 0 i0 = some A0 ∧ in_cone 2 (graded_cancelled.gens A0) x) :=
  ⟨scenario_triangulated, Reached.start, Or.inr ⟨2, rfl⟩,
    (cancelled_leaves_disjoint (fun t => decide (t = 4)) scenario_oracle 2 scenario_forest
      scenario_forest scenario_triangulated Reached.start graded_cancelled 0 4
      (Or.inr ⟨2, rfl⟩)).2.1⟩

set_option maxRecDepth 40000 in
/-- Counterexample to C32 as stated: `ConeCollection::refine(2)` on the cone
over `(1,0)`, `(1,2)` with the extra generator `(1,1)`, from a forest whose
level-0 cell triangulates the cone, is ended by the exception of its fourth
poll, before the second pass of the subdivision loop. The forest left behind
has the level-0 cell over `(1,0)`, `(1,2)`, whose cone contains the point
`(1,0)`, and the single leaf over `(1,2)`, `(1,1)`; no leaf contains `(1,0)`. -/
theorem refine_cancelled_uncovered :
    Triangulated ℚ 2
      (ConeCollection.from_triangulation [[1, 0], [1, 2], [1, 1]] [([0, 1], 2)]) ∧
    (ConeCollection.from_triangulation [[1, 0], [1, 2], [1, 1]] [([0, 1], 2)]).refine_poll
        (fun t => decide (t = 3)) (exactKernel failing_oracle) 2 0
      = Polled.interrupted graded_cancelled 3 ∧
    (∃ A0, graded_cancelled.cell 0 0 = some A0 ∧
      in_cone 2 (graded_cancelled.gens A0) (rvec 2 [1, 0] : Fin 2 → ℚ)) ∧
    ∀ k i A, graded_cancelled.cell k i = some A → A.Daughters = [] →
      ¬ in_cone 2 (graded_cancelled.gens A) (rvec 2 [1, 0] : Fin 2 → ℚ) := by
  refine ⟨scenario_triangulated_extra, rfl, ?_, ?_⟩
  · refine ⟨_, rfl, ?_⟩
    refine ⟨1, zero_le_one, 0, ⟨0, le_refl 0, 0, rfl, ?_⟩, ?_⟩
    · simp
    · simp
      rfl
  · intro k i A hA hleaf hx
    have hk := (cell_lt graded_cancelled k i A hA).1
    have hlen : graded_cancelled.Members.length = 2 := rfl
    rw [hlen] at hk
    have hi := (cell_lt graded_cancelled k i A hA).2
    interval_cases k
    · have h1 : (graded_cancelled.Members.getD 0 []).length = 1 := rfl
      rw [h1] at hi
      obtain rfl : i = 0 := by omega
      have h0 : graded_cancelled.cell 0 0 = some
          { GenKeys := [0, 1], multiplicity := 2, SupportHyperplanes := [[2, -1], [0, 1]],
            Daughters := [0], level := 0, my_place := 0, is_simplex := true } := rfl
      rw [h0] at hA
      injection hA with hA
      subst hA
      cases hleaf
    · have h1 : (graded_cancelled.Members.getD 1 []).length = 1 := rfl
      rw [h1] at hi
      obtain rfl : i = 0 := by omega
      have h0 : graded_cancelled.cell 1 0 = some
          { GenKeys := [1, 2], multiplicity := 1, SupportHyperplanes := [], Daughters := [],
            level := 1, my_place := 0, is_simplex := true } := rfl
      rw [h0] at hA
      injection hA with hA
      subst hA
      have hg : graded_cancelled.gens
          { GenKeys := [1, 2], multiplicity := 1, SupportHyperplanes := [], Daughters := [],
            level := 1, my_place := 0, is_simplex := true } = [[1, 2], [1, 1]] := rfl
      rw [hg, in_cone_iff_hval 2 [[1, 2], [1, 1]] rfl (by decide)] at hx
      have h2 : 0 ≤ hval 2 [[1, 2], [1, 1]] 0 (rvec 2 [1, 0] : Fin 2 → ℚ) := hx ⟨0, by decide⟩
      rw [hval_rvec 2 [[1, 2], [1, 1]] rfl 0 (by decide) [1, 0]] at h2
      have h3 : v_scalar_product [1, 0] ((exact_simplex_data [[1, 2], [1, 1]]).getD 0 []) = -1 := by
        decide
      rw [h3] at h2
      norm_num at h2





/-! ## Pruned descent and leaf-wise insertion: the geometry -/

/-- A generator of a non-degenerate simplex lies in its cone. -/
theorem generator_in_cone (n : Nat) (M : Mat) (hM : M.length = n) (hdet : det M ≠ 0) (i : Fin n) :
    in_cone n M (rvec n (M.getD i []) : Fin n → ℚ) := by
  rw [in_cone_iff_hval n M hM hdet]
  intro l
  rw [hval_generator n M hM l i l.isLt i.isLt]
  split
  · exact le_of_lt (exact_vol_cast_pos M hdet)
  · exact le_refl _

/-- A vector with two positive facet values on a non-degenerate simplex `D`
has two positive facet values on every non-degenerate simplex `A` whose cone
contains the cone of `D`: on an extreme ray of `A` there is at most one of the
linearly independent generators of `D`. -/
theorem two_positive_up (n : Nat) (A D : Mat) (hA : A.length = n) (hD : D.length = n)
    (hdetA : det A ≠ 0) (hdetD : det D ≠ 0)
    (hsub : ∀ x : Fin n → ℚ, in_cone n D x → in_cone n A x) (v : Vec)
    (hv : in_cone n D (rvec n v : Fin n → ℚ))
    (htwo : 2 ≤ (positive_positions v (exact_simplex_data D) 0).length) :
    2 ≤ (positive_positions v (exact_simplex_data A) 0).length := by
  by_contra hfew
  have hvA := exact_vol_cast_pos (F := ℚ) A hdetA
  have hvD := exact_vol_cast_pos (F := ℚ) D hdetD
  rcases on_ray_of_few_positive n A hA hdetA v (hsub _ hv) (by omega) with h0 | ⟨j, c, hc, hray⟩
  · rw [no_positive_of_zero n D hD v h0] at htwo
    simp at htwo
  · -- two positive facet values of `v` on `D`
    have hs := positive_positions_sorted v (exact_simplex_data D) 0
    obtain ⟨i1, i2, hne, h1, h2⟩ : ∃ i1 i2, i1 ≠ i2 ∧
        i1 ∈ positive_positions v (exact_simplex_data D) 0 ∧
        i2 ∈ positive_positions v (exact_simplex_data D) 0 := by
      cases hpp : positive_positions v (exact_simplex_data D) 0 with
      | nil => rw [hpp] at htwo; simp at htwo
      | cons a l =>
        cases l with
        | nil => rw [hpp] at htwo; simp at htwo
        | cons b l =>
          rw [hpp] at hs
          have hab : a < b := by
            have := List.rel_of_sorted_cons hs b (List.mem_cons_self _ _)
            exact this
          exact ⟨a, b, by omega, List.mem_cons_self _ _,
            List.mem_cons_of_mem _ (List.mem_cons_self _ _)⟩
    have hb1 : i1 < n := by
      have := (positive_positions_bounds _ _ _ _ h1).2.1
      rw [exact_simplex_data_length, hD] at this
      omega
    have hb2 : i2 < n := by
      have := (positive_positions_bounds _ _ _ _ h2).2.1
      rw [exact_simplex_data_length, hD] at this
      omega
    have hp1 := (mem_positive_iff n D hD v ⟨i1, hb1⟩).mp h1
    have hp2 := (mem_positive_iff n D hD v ⟨i2, hb2⟩).mp h2
    have hnnD : ∀ i : Fin n, (0 : ℚ) ≤ hval n D i (rvec n v) :=
      (in_cone_iff_hval n D hD hdetD _).mp hv
    have hnnA : ∀ (i l : Fin n), (0 : ℚ) ≤ hval n A l (rvec n (D.getD i [])) := by
      intro i l
      exact (in_cone_iff_hval n A hA hdetA _).mp (hsub _ (generator_in_cone n D hD hdetD i)) l
    -- the facet values of `A` other than `j` vanish on the generators of `D`
    -- that carry a positive coefficient of `v`
    have hzero : ∀ (i l : Fin n), l ≠ j → (0 : ℚ) < hval n D i (rvec n v) →
        hval n A l (rvec n (D.getD i []) : Fin n → ℚ) = 0 := by
      intro i l hl hpos
      have hcr := cramer_field (F := ℚ) n D hD (rvec n v)
      have hl0 : hval n A l (rvec n v : Fin n → ℚ) = 0 := by
        rw [hray, hval_smul, hval_generator n A hA l j l.isLt j.isLt,
          if_neg (fun h => hl (Fin.ext h)), mul_zero]
      have hsum : ∑ i : Fin n, hval n D i (rvec n v : Fin n → ℚ)
          * hval n A l (rvec n (D.getD i []) : Fin n → ℚ) = 0 := by
        rw [← hval_sum, ← hcr, hval_smul, hl0, mul_zero]
      have hall := (Finset.sum_eq_zero_iff_of_nonneg
        (fun i _ => mul_nonneg (hnnD i) (hnnA i l))).mp hsum i (Finset.mem_univ _)
      rcases mul_eq_zero.mp hall with h | h
      · rw [h] at hpos
        exact absurd hpos (lt_irrefl _)
      · exact h
    -- such a generator of `D` is a multiple of the generator `j` of `A`
    have hline : ∀ i : Fin n, (0 : ℚ) < hval n D i (rvec n v) →
        ((exact_vol A : Int) : ℚ) • (rvec n (D.getD i []) : Fin n → ℚ)
          = hval n A j (rvec n (D.getD i []) : Fin n → ℚ)
            • (rvec n (A.getD j []) : Fin n → ℚ) := by
      intro i hpos
      rw [cramer_field (F := ℚ) n A hA (rvec n (D.getD i []))]
      apply Finset.sum_eq_single j
      · intro l _ hl
        rw [hzero i l hl hpos, zero_smul]
      · intro h
        exact absurd (Finset.mem_univ j) h
    have e1 := congrArg (hval n D i1) (hline ⟨i1, hb1⟩ hp1)
    have e2 := congrArg (hval n D i1) (hline ⟨i2, hb2⟩ hp2)
    rw [hval_smul, hval_smul, hval_generator n D hD i1 i1 hb1 hb1, if_pos rfl] at e1
    rw [hval_smul, hval_smul, hval_generator n D hD i1 i2 hb1 hb2, if_neg hne, mul_zero] at e2
    have hg : hval n D i1 (rvec n (A.getD j []) : Fin n → ℚ) ≠ 0 := by
      intro h
      rw [h, mul_zero] at e1
      exact absurd e1 (ne_of_gt (mul_pos hvA hvD))
    have hb0 : hval n A j (rvec n (D.getD i2 []) : Fin n → ℚ) = 0 := by
      rcases mul_eq_zero.mp e2.symm with h | h
      · exact h
      · exact absurd h hg
    have e3 := congrArg (hval n D i2) (hline ⟨i2, hb2⟩ hp2)
    rw [hval_smul, hval_smul, hval_generator n D hD i2 i2 hb2 hb2, if_pos rfl, hb0, zero_mul] at e3
    exact absurd e3 (ne_of_gt (mul_pos hvA hvD))





/-! ## Pruned descent and leaf-wise insertion: forests between -/

theorem leafwise_start (K : Kernel) (key : Nat) (C0 : ConeCollection) (hW : Wood C0) :
    Leafwise K key C0 C0 := by
  refine ⟨extends_refl C0, rfl, ?_, ?_⟩
  · intro k p m m2 h1 h2
    rw [h1] at h2
    injection h2 with h2
    rw [h2]
  · intro k p m2 d h1 h2 h3
    have := hW.daughters_lt k p m2 h1 d h2
    omega

theorem leafwise_cache (K : Kernel) (key : Nat) (C0 C2 : ConeCollection) (lvl plc : Nat)
    (h : Leafwise K key C0 C2) : Leafwise K key C0 (C2.cache_facets K lvl plc) := by
  have hE := extends_cache K C2 lvl plc
  refine ⟨extends_trans _ _ _ h.ext hE, h.gens, ?_, ?_⟩
  · intro k p m mR h1 h2
    have hg : (C2.cache_facets K lvl plc).Generators = C2.Generators := rfl
    rw [hg]
    by_cases hki : k = lvl ∧ p = plc
    · obtain ⟨rfl, rfl⟩ := hki
      obtain ⟨m2, hm2, _⟩ := cache_facets_back K C2 k p k p mR h2
      rw [cache_facets_cell K C2 k p m2 hm2] at h2
      injection h2 with h2
      rw [← h2]
      exact (hyperplanes_cache K C2.Generators m2).trans (h.facets k p m m2 h1 hm2)
    · rw [cache_facets_other K C2 lvl plc k p hki] at h2
      exact h.facets k p m mR h1 h2
  · intro k p mR d h1 h2 h3
    obtain ⟨m2, hm2, _, _, a3, _⟩ := cache_facets_back K C2 lvl plc k p mR h1
    rw [a3] at h2
    obtain ⟨c, hc, hL⟩ := h.born k p m2 d hm2 h2 h3
    obtain ⟨c1, _, hc1, b1, b2, _⟩ := hE (k + 1) d c hc
    refine ⟨c1, hc1, ?_⟩
    rw [b1, b2]
    exact hL

theorem done_mono (K : Kernel) (key : Nat) (C0 R R1 : ConeCollection) (k q : Nat)
    (h : Done K key C0 R k q) (hE : Extends R R1) : Done K key C0 R1 k q := by
  intro G m hL
  obtain ⟨mq, d, c, a1, a2, a3, a4, a5, a6⟩ := h G m hL
  obtain ⟨mq1, E, b1, _, _, _, _, _, b6⟩ := hE k q mq a1
  obtain ⟨c1, _, c1h, c2, c3, _⟩ := hE (k + 1) d c a4
  refine ⟨mq1, d, c1, b1, ?_, a3, c1h, c2.trans a5, c3.trans a6⟩
  rw [b6]
  exact List.mem_append_left _ a2

/-- The subdivision loop on a cell of `C0` that has no daughters yet: the
children are those of the leaf-local rule. -/
theorem leafwise_subdivide (K : Kernel) (key : Nat) (C0 C2 : ConeCollection) (N : Nat → Nat)
    (hN : ∀ k, N k = (C0.Members.getD k []).length) (hW : Walk N C2)
    (hP : Leafwise K key C0 C2) (k p : Nat) (mc X m0 : MiniCone)
    (hX : C2.cell k p = some X) (hk : mc.level = k) (hp : mc.my_place = p)
    (hkeys : mc.GenKeys = X.GenKeys) (hm0 : C0.cell k p = some m0)
    (hleaf : X.Daughters = []) (opp : List Nat)
    (hopp0 : facet_loop (row C0.Generators key) (m0.hyperplanes K C0.Generators) 0 []
      = some opp)
    (hne : opp.length ≠ 1) :
    Leafwise K key C0 (opp.foldl (subdivide_step K key mc) C2) ∧
    Done K key C0 (opp.foldl (subdivide_step K key mc) C2) k p := by
  have hold : p < N k := by
    rw [hN]
    exact (cell_lt C0 k p m0 hm0).2
  have hlv := walk_next_level N C2 k p X hW hX hold
  have hsub := subdivide_fold_at K key mc opp C2 X k p hk hp hX hlv
  have hE := extends_subdivide_fold K key mc opp C2
  obtain ⟨m2a, E, hm2a, e1, _, _, _, _, e6⟩ := hP.ext k p m0 hm0
  rw [hX] at hm2a
  injection hm2a with hm2a
  subst hm2a
  have hleaf0 : m0.Daughters = [] := by
    rw [hleaf] at e6
    exact (List.append_eq_nil.mp e6.symm).1
  have hlen : (C0.Members.getD (k + 1) []).length ≤ (C2.Members.getD (k + 1) []).length := by
    have := hW.old_le (k + 1)
    rw [hN] at this
    exact this
  have hchild : ∀ t, t < opp.length →
      LeafChild K key C0 k p (child_keys mc.GenKeys key (opp.getD t 0))
        (K.vol (submatrix C2.Generators (child_keys mc.GenKeys key (opp.getD t 0)))) := by
    intro t ht
    refine ⟨m0, opp, opp.getD t 0, hm0, hleaf0, hopp0, hne, getD_mem_of_lt opp t ht, ?_, ?_⟩
    · rw [hkeys, e1]
    · rw [hP.gens]
  constructor
  · refine ⟨extends_trans _ _ _ hP.ext hE, hsub.gens.trans hP.gens, ?_, ?_⟩
    · intro k1 p1 m mR h1 h2
      rw [hsub.gens]
      by_cases hki : k1 = k ∧ p1 = p
      · obtain ⟨rfl, rfl⟩ := hki
        rw [hsub.mother] at h2
        injection h2 with h2
        rw [← h2]
        exact hP.facets k1 p1 m X h1 hX
      · obtain ⟨mx, _, hmx, _⟩ := hP.ext k1 p1 m h1
        rw [hsub.others k1 p1 hki (cell_lt C2 k1 p1 mx hmx).2] at h2
        exact hP.facets k1 p1 m mR h1 h2
    · intro k1 p1 mR d h1 h2 h3
      by_cases hki : k1 = k ∧ p1 = p
      · obtain ⟨rfl, rfl⟩ := hki
        rw [hsub.mother] at h1
        injection h1 with h1
        rw [← h1] at h2
        unfold MiniCone.with_daughters at h2
        simp only [hleaf, List.nil_append, List.mem_range'_1] at h2
        obtain ⟨t, rfl⟩ : ∃ t, d = (C2.Members.getD (k1 + 1) []).length + t :=
          ⟨d - (C2.Members.getD (k1 + 1) []).length, by omega⟩
        have ht : t < opp.length := by omega
        refine ⟨_, hsub.children t ht, ?_⟩
        exact hchild t ht
      · by_cases hp1 : p1 < (C2.Members.getD k1 []).length
        · rw [hsub.others k1 p1 hki hp1] at h1
          obtain ⟨c, hc, hL⟩ := hP.born k1 p1 mR d h1 h2 h3
          obtain ⟨c1, _, hc1, b1, b2, _⟩ := hE (k1 + 1) d c hc
          refine ⟨c1, hc1, ?_⟩
          rw [b1, b2]
          exact hL
        · exfalso
          have hp2 := (cell_lt _ k1 p1 mR h1).2
          rw [hsub.lengths] at hp2
          by_cases hk1 : k1 = k + 1
          · subst hk1
            rw [if_pos rfl] at hp2
            obtain ⟨t, rfl⟩ : ∃ t, p1 = (C2.Members.getD (k + 1) []).length + t :=
              ⟨p1 - (C2.Members.getD (k + 1) []).length, by omega⟩
            rw [hsub.children t (by omega)] at h1
            injection h1 with h1
            rw [← h1] at h2
            exact absurd h2 (List.not_mem_nil _)
          · rw [if_neg hk1] at hp2
            omega
  · intro G m hL
    obtain ⟨mc1, opp1, j, a1, _, a3, _, a5, a6, a7⟩ := hL
    rw [hm0] at a1
    injection a1 with a1
    subst a1
    rw [hopp0] at a3
    injection a3 with a3
    subst a3
    obtain ⟨t, ht, rfl⟩ : ∃ t, t < opp.length ∧ opp.getD t 0 = j := by
      obtain ⟨t, ht, hj⟩ := List.getElem_of_mem a5
      refine ⟨t, ht, ?_⟩
      rw [List.getD_eq_getElem?_getD, List.getElem?_eq_getElem ht, Option.getD_some]
      exact hj
    refine ⟨_, (C2.Members.getD (k + 1) []).length + t, _, hsub.mother, ?_, by omega,
      hsub.children t ht, ?_, ?_⟩
    · unfold MiniCone.with_daughters
      simp only [List.mem_append, List.mem_range'_1]
      right
      omega
    · rw [a6, ← e1, ← hkeys]
      rfl
    · rw [a7, a6, ← e1, ← hkeys, hP.gens]
      rfl





/-! ## Pruned descent and leaf-wise insertion: the descent -/

theorem untouched_refl (C0 : ConeCollection) (lvl plc : Nat) : Untouched C0 C0 lvl plc :=
  fun _ _ m _ hm => ⟨m, hm, rfl⟩

theorem untouched_daughter (C0 C2 : ConeCollection) (lvl plc d : Nat) (m0 : MiniCone)
    (h : Untouched C0 C2 lvl plc) (hm0 : C0.cell lvl plc = some m0) (hd : d ∈ m0.Daughters) :
    Untouched C0 C2 (lvl + 1) d := by
  intro n q m hb hm
  have := h (n + 1) q m ⟨m0, d, hm0, hd, hb⟩
    (by rw [show lvl + (n + 1) = lvl + 1 + n by omega]; exact hm)
  rw [show lvl + (n + 1) = lvl + 1 + n by omega] at this
  exact this

theorem untouched_cache (K : Kernel) (C0 C2 : ConeCollection) (lvl plc l p : Nat)
    (h : Untouched C0 C2 lvl plc) : Untouched C0 (C2.cache_facets K l p) lvl plc := by
  intro n q m hb hm
  obtain ⟨m2, hm2, hd⟩ := h n q m hb hm
  obtain ⟨Y1, hY1, a, _⟩ := cache_facets_same K C2 l p (lvl + n) q m2 hm2
  exact ⟨Y1, hY1, a.trans hd⟩

/-- Below a cell with an untouched subtree there is in `C2` what there is in
`C0`. -/
theorem below_of_untouched (C0 C2 : ConeCollection) (hW0 : Wood C0) :
    ∀ (n lvl plc q : Nat), Untouched C0 C2 lvl plc → (∃ m, C0.cell lvl plc = some m) →
      below C2 n lvl plc q → below C0 n lvl plc q := by
  intro n
  induction n with
  | zero =>
    intro lvl plc q _ _ h
    exact h
  | succ n ih =>
    intro lvl plc q hU hc hb
    obtain ⟨m0, hm0⟩ := hc
    obtain ⟨mp, d, a1, a2, a3⟩ := hb
    obtain ⟨m2, hm2, hd⟩ := hU 0 plc m0 rfl hm0
    rw [Nat.add_zero, a1] at hm2
    injection hm2 with hm2
    subst hm2
    rw [hd] at a2
    exact ⟨m0, d, hm0, a2, ih (lvl + 1) d q (untouched_daughter C0 C2 lvl plc d m0 hU hm0 a2)
      (cell_of_lt C0 (lvl + 1) d (hW0.daughters_lt lvl plc m0 hm0 d a2)) a3⟩

theorem clean_of_untouched (C0 C2 : ConeCollection) (N : Nat → Nat)
    (hN : ∀ k, N k = (C0.Members.getD k []).length) (hW0 : Wood C0) (lvl plc : Nat)
    (hU : Untouched C0 C2 lvl plc) (hc : ∃ m, C0.cell lvl plc = some m) :
    Clean N C2 lvl plc := by
  intro n q hb
  have hb0 := below_of_untouched C0 C2 hW0 n lvl plc q hU hc hb
  obtain ⟨m, hm⟩ := below_cell C0 hW0 n lvl plc q hc hb0
  rw [hN]
  exact (cell_lt C0 (lvl + n) q m hm).2

/-- A call on a cell leaves the subtree of another cell of the level untouched. -/
theorem untouched_apart (C0 C3 R1 : ConeCollection) (hW0 : Wood C0) (k1 d d1 : Nat)
    (hU : Untouched C0 C3 k1 d) (hU1 : Untouched C0 C3 k1 d1) (hne : d1 ≠ d)
    (hc : ∃ m, C0.cell k1 d = some m) (hA : Apart C3 R1 k1 d) : Untouched C0 R1 k1 d1 := by
  intro n q m hb hm
  obtain ⟨m3, hm3, hd3⟩ := hU1 n q m hb hm
  have hnot : ∀ n1, k1 + n = k1 + n1 → ¬ below C3 n1 k1 d q := by
    intro n1 hn1 hb3
    have : n1 = n := by omega
    subst this
    have hb0 := below_of_untouched C0 C3 hW0 n1 k1 d q hU hc hb3
    exact hne (below_unique C0 hW0 n1 k1 d1 d q hb hb0)
  obtain ⟨m1, hm1, hd1⟩ := hA (k1 + n) q m3 hm3 hnot
  exact ⟨m1, hm1, hd1.trans hd3⟩

/-- Where the ray does not pass the tests of a cell, the leaf-local rule gives
no child, neither to the cell nor to a cell the walk would reach from it. -/
theorem done_of_blocked (K : Kernel) (key : Nat) (C0 R : ConeCollection) (lvl plc : Nat)
    (m0 : MiniCone) (hm0 : C0.cell lvl plc = some m0)
    (hblock : ¬ m0.passes K key C0.Generators) :
    ∀ n q, descends K key C0 n lvl plc q → Done K key C0 R (lvl + n) q := by
  intro n q hd
  cases n with
  | zero =>
    rw [descends] at hd
    subst hd
    intro G m hL
    obtain ⟨mc, opp, j, a1, _, a3, a4, _⟩ := hL
    rw [Nat.add_zero, hm0] at a1
    injection a1 with a1
    subst a1
    exact absurd ⟨opp, a3, a4⟩ hblock
  | succ n =>
    obtain ⟨mp, d, a1, a2, _⟩ := hd
    rw [hm0] at a1
    injection a1 with a1
    subst a1
    exact absurd a2 hblock

/-- The loop over the daughters of a cell, given what a call on one cell does. -/
theorem descent_fold (K : Kernel) (key : Nat) (C0 : ConeCollection) (N : Nat → Nat)
    (hN : ∀ k, N k = (C0.Members.getD k []).length) (hW0 : Wood C0) (fuel k1 : Nat)
    (ih : ∀ (plc : Nat) (C2 : ConeCollection), Walk N C2 → Leafwise K key C0 C2 →
      Untouched C0 C2 k1 plc → (∃ m, C0.cell k1 plc = some m) →
      Leafwise K key C0 (MiniCone.refine K key fuel k1 plc C2) ∧
      (C0.Members.length ≤ k1 + fuel → ∀ n q, descends K key C0 n k1 plc q →
        Done K key C0 (MiniCone.refine K key fuel k1 plc C2) (k1 + n) q)) :
    ∀ (ds : List Nat) (C3 : ConeCollection), ds.Nodup → Walk N C3 → Leafwise K key C0 C3 →
      (∀ d ∈ ds, Untouched C0 C3 k1 d) → (∀ d ∈ ds, ∃ m, C0.cell k1 d = some m) →
      Leafwise K key C0 (ds.foldl (fun C d => MiniCone.refine K key fuel k1 d C) C3) ∧
      Walk N (ds.foldl (fun C d => MiniCone.refine K key fuel k1 d C) C3) ∧
      Extends C3 (ds.foldl (fun C d => MiniCone.refine K key fuel k1 d C) C3) ∧
      (C0.Members.length ≤ k1 + fuel → ∀ d ∈ ds, ∀ n q, descends K key C0 n k1 d q →
        Done K key C0 (ds.foldl (fun C d => MiniCone.refine K key fuel k1 d C) C3)
          (k1 + n) q) := by
  intro ds
  induction ds with
  | nil =>
    intro C3 _ hW hP _ _
    exact ⟨hP, hW, extends_refl C3, fun _ d hd => absurd hd (List.not_mem_nil _)⟩
  | cons d ds ihd =>
    intro C3 hnd hW hP hU hc
    rw [List.foldl_cons]
    have hUd := hU d (List.mem_cons_self _ _)
    have hcd := hc d (List.mem_cons_self _ _)
    obtain ⟨hP1, hD1⟩ := ih d C3 hW hP hUd hcd
    obtain ⟨hW1, hE1, hA1, _⟩ := walk_refine K key N fuel k1 d C3 hW
      (clean_of_untouched C0 C3 N hN hW0 k1 d hUd hcd)
    have hnd1 := List.nodup_cons.mp hnd
    have hU1 : ∀ d1 ∈ ds, Untouched C0 (MiniCone.refine K key fuel k1 d C3) k1 d1 := by
      intro d1 hd1
      apply untouched_apart C0 C3 _ hW0 k1 d d1 hUd (hU d1 (List.mem_cons_of_mem _ hd1)) ?_ hcd hA1
      rintro rfl
      exact hnd1.1 hd1
    obtain ⟨hP2, hW2, hE2, hD2⟩ := ihd _ hnd1.2 hW1 hP1 hU1
      (fun d1 hd1 => hc d1 (List.mem_cons_of_mem _ hd1))
    refine ⟨hP2, hW2, extends_trans _ _ _ hE1 hE2, ?_⟩
    intro hlen d1 hd1 n q hdes
    rcases List.mem_cons.mp hd1 with rfl | hd1
    · exact done_mono K key C0 _ _ (k1 + n) q (hD1 hlen n q hdes) hE2
    · exact hD2 hlen d1 hd1 n q hdes

/-- The walk of `MiniCone::refine` from a cell of `C0` with an untouched
subtree applies the leaf-local rule: the new daughters are children of the
rule, and the leaves that the walk is not pruned from have their children. -/
theorem descent_spec (K : Kernel) (key : Nat) (C0 : ConeCollection) (N : Nat → Nat)
    (hN : ∀ k, N k = (C0.Members.getD k []).length) (hW0 : Wood C0) :
    ∀ (fuel lvl plc : Nat) (C2 : ConeCollection), Walk N C2 → Leafwise K key C0 C2 →
      Untouched C0 C2 lvl plc → (∃ m, C0.cell lvl plc = some m) →
      Leafwise K key C0 (MiniCone.refine K key fuel lvl plc C2) ∧
      (C0.Members.length ≤ lvl + fuel → ∀ n q, descends K key C0 n lvl plc q →
        Done K key C0 (MiniCone.refine K key fuel lvl plc C2) (lvl + n) q) := by
  intro fuel
  induction fuel with
  | zero =>
    intro lvl plc C2 _ hP _ hc
    rw [refine_zero]
    refine ⟨hP, ?_⟩
    intro hlen
    obtain ⟨m, hm⟩ := hc
    have := (cell_lt C0 lvl plc m hm).1
    omega
  | succ fuel ih =>
    intro lvl plc C2 hW hP hU hc
    obtain ⟨m0, hm0⟩ := hc
    obtain ⟨m2, hm2, hd2⟩ := hU 0 plc m0 rfl hm0
    rw [Nat.add_zero] at hm2
    have hco := hW.wood.coords lvl plc m2 hm2
    have hfac := hP.facets lvl plc m0 m2 hm0 hm2
    have hPc := leafwise_cache K key C0 C2 lvl plc hP
    have hWc := walk_cache K N C2 lvl plc hW
    rw [refine_succ K key fuel lvl plc C2 m2 hm2, hfac, hP.gens]
    cases hfl : facet_loop (row C0.Generators key) (m0.hyperplanes K C0.Generators) 0 [] with
    | none =>
      refine ⟨hPc, fun _ => done_of_blocked K key C0 _ lvl plc m0 hm0 ?_⟩
      rintro ⟨opp, h1, _⟩
      rw [hfl] at h1
      cases h1
    | some opp =>
      simp only
      by_cases hone : opp.length = 1
      · rw [if_pos hone]
        refine ⟨hPc, fun _ => done_of_blocked K key C0 _ lvl plc m0 hm0 ?_⟩
        rintro ⟨opp1, h1, h2⟩
        rw [hfl] at h1
        injection h1 with h1
        subst h1
        exact h2 hone
      · rw [if_neg hone]
        by_cases hd : m2.Daughters.length > 0
        · rw [if_pos hd, hco.1]
          obtain ⟨a, _, _, b⟩ := descent_fold K key C0 N hN hW0 fuel (lvl + 1)
            (fun plc1 C3 h1 h2 h3 h4 => ih (lvl + 1) plc1 C3 h1 h2 h3 h4)
            m2.Daughters (C2.cache_facets K lvl plc) (hW.wood.nodup lvl plc m2 hm2) hWc hPc
            (fun d hdm => untouched_cache K C0 C2 (lvl + 1) d lvl plc
              (untouched_daughter C0 C2 lvl plc d m0 hU hm0 (by rw [← hd2]; exact hdm)))
            (fun d hdm => cell_of_lt C0 (lvl + 1) d
              (hW0.daughters_lt lvl plc m0 hm0 d (by rw [← hd2]; exact hdm)))
          refine ⟨a, ?_⟩
          intro hlen n q hdes
          cases n with
          | zero =>
            rw [descends] at hdes
            subst hdes
            intro G m hL
            obtain ⟨mc, _, _, a1, a2, _⟩ := hL
            rw [Nat.add_zero, hm0] at a1
            injection a1 with a1
            subst a1
            rw [hd2, a2] at hd
            simp at hd
          | succ n =>
            obtain ⟨mp, d, a1, _, a3, a4⟩ := hdes
            rw [hm0] at a1
            injection a1 with a1
            subst a1
            have := b (by omega) d (by rw [hd2]; exact a3) n q a4
            rw [show lvl + 1 + n = lvl + (n + 1) by omega] at this
            exact this
        · rw [if_neg hd]
          have hleaf : m2.Daughters = [] := by
            cases hD : m2.Daughters with
            | nil => rfl
            | cons x l => rw [hD] at hd; simp at hd
          obtain ⟨a, b⟩ := leafwise_subdivide K key C0 (C2.cache_facets K lvl plc) N hN hWc hPc
            lvl plc m2 _ m0 (cache_facets_cell K C2 lvl plc m2 hm2) hco.1 hco.2 rfl hm0 hleaf
            opp hfl hone
          refine ⟨a, ?_⟩
          intro _ n q hdes
          cases n with
          | zero =>
            rw [descends] at hdes
            subst hdes
            exact b
          | succ n =>
            obtain ⟨mp, d, a1, _, a3, _⟩ := hdes
            rw [hm0] at a1
            injection a1 with a1
            subst a1
            rw [← hd2, hleaf] at a3
            exact absurd a3 (List.not_mem_nil _)





/-! ## Pruned descent and leaf-wise insertion: where the walk arrives -/

/-- A family of trees whose last level is empty, as a walk begins: all its
cells are old. -/
theorem walk_start (C0 : ConeCollection) (hW0 : Wood C0)
    (hlast : ∀ i, C0.cell (C0.Members.length - 1) i = none) :
    Walk (fun k => (C0.Members.getD k []).length) C0 := by
  have h := (walk_of_last_empty C0 hW0 hlast).1
  have hfun : (fun k => if k + 1 < C0.Members.length then (C0.Members.getD k []).length else 0)
      = fun k => (C0.Members.getD k []).length := by
    funext k
    split
    · rfl
    · rename_i hk
      by_cases hk1 : k < C0.Members.length
      · have hkl : k = C0.Members.length - 1 := by omega
        have h0 := hlast 0
        rw [← hkl, cell_eq] at h0
        have := List.getElem?_eq_none_iff.mp h0
        omega
      · rw [List.getD_eq_getElem?_getD, List.getElem?_eq_none (by omega)]
        rfl
  rw [hfun] at h
  exact h

theorem descends_snoc (K : Kernel) (key : Nat) (C : ConeCollection) :
    ∀ (n k p x e : Nat) (mx : MiniCone), descends K key C n k p x → C.cell (k + n) x = some mx →
      mx.passes K key C.Generators → e ∈ mx.Daughters → descends K key C (n + 1) k p e := by
  intro n
  induction n with
  | zero =>
    intro k p x e mx h hx hp he
    rw [descends] at h
    subst h
    exact ⟨mx, e, hx, hp, he, rfl⟩
  | succ n ih =>
    intro k p x e mx h hx hp he
    obtain ⟨mp, d, a1, a2, a3, a4⟩ := h
    have hx1 : C.cell (k + 1 + n) x = some mx := by
      rw [show k + 1 + n = k + (n + 1) by omega]
      exact hx
    exact ⟨mp, d, a1, a2, a3, ih (k + 1) d x e mx a4 hx1 hp he⟩

/-- A cell that the ray splits lets the ray pass its tests. -/
theorem passes_of_splits (hb : Mat → Option (List Vec)) (n key : Nat) (C : ConeCollection)
    (hT : Tree n C) (k p : Nat) (X : MiniCone) (hX : C.cell k p = some X)
    (h : X.splits n key C) :
    X.passes (exactKernel hb) key C.Generators ∧
    facet_loop (row C.Generators key) (X.hyperplanes (exactKernel hb) C.Generators) 0 []
      = some (positive_positions (row C.Generators key) (exact_simplex_data (C.gens X)) 0) := by
  obtain ⟨hn, _, hdet, _⟩ := hT.simplex k p X hX
  have hM : (C.gens X).length = n := by
    unfold ConeCollection.gens
    rw [submatrix_length, hn]
  have hnn := facet_nonneg_of_in_cone n (C.gens X) hM hdet _ h.1
  have hfl := facet_loop_of_nonneg (row C.Generators key) (exact_simplex_data (C.gens X)) 0 [] hnn
  rw [List.nil_append] at hfl
  have hfl1 : facet_loop (row C.Generators key)
      (X.hyperplanes (exactKernel hb) C.Generators) 0 []
      = some (positive_positions (row C.Generators key)
          (exact_simplex_data (C.gens X)) 0) := by
    rw [hyperplanes_eq hb n C hT k p X hX]
    exact hfl
  refine ⟨⟨_, hfl1, ?_⟩, hfl1⟩
  have := h.2
  omega

/-- A cell with a child of the leaf-local rule is split by the ray. -/
theorem splits_of_leafChild (hb : Mat → Option (List Vec)) (n key : Nat) (C : ConeCollection)
    (hT : Tree n C) (k p : Nat) (G : List Nat) (m : Int)
    (h : LeafChild (exactKernel hb) key C k p G m) :
    ∃ X, C.cell k p = some X ∧ X.Daughters = [] ∧ X.splits n key C := by
  obtain ⟨X, opp, j, hX, hleaf, hfl, hne, hj, _⟩ := h
  obtain ⟨hn, _, hdet, _⟩ := hT.simplex k p X hX
  have hM : (C.gens X).length = n := by
    unfold ConeCollection.gens
    rw [submatrix_length, hn]
  rw [hyperplanes_eq hb n C hT k p X hX] at hfl
  obtain ⟨hnn, hopp⟩ := facet_loop_eq _ _ _ _ _ hfl
  rw [List.nil_append] at hopp
  refine ⟨X, hX, hleaf, in_cone_of_facet_nonneg n (C.gens X) hM hdet _ hnn, ?_⟩
  rw [← hopp]
  cases opp with
  | nil => exact absurd hj (List.not_mem_nil _)
  | cons a l =>
    cases l with
    | nil => exact absurd rfl hne
    | cons b l => simp

/-- A cell with a daughter that the ray splits is split by the ray, when the
cone of the daughter lies in the cone of the cell. -/
theorem splits_parent (n key : Nat) (C : ConeCollection) (hT : Tree n C)
    (hin : ∀ k i mc, C.cell k i = some mc → ∀ d ∈ mc.Daughters, ∀ md,
      C.cell (k + 1) d = some md → ∀ x : Fin n → ℚ,
        in_cone n (C.gens md) x → in_cone n (C.gens mc) x)
    (k p d : Nat) (P X : MiniCone) (hP : C.cell k p = some P) (hd : d ∈ P.Daughters)
    (hX : C.cell (k + 1) d = some X) (h : X.splits n key C) : P.splits n key C := by
  obtain ⟨hn, _, hdet, _⟩ := hT.simplex k p P hP
  obtain ⟨hn1, _, hdet1, _⟩ := hT.simplex (k + 1) d X hX
  have hM : (C.gens P).length = n := by
    unfold ConeCollection.gens
    rw [submatrix_length, hn]
  have hM1 : (C.gens X).length = n := by
    unfold ConeCollection.gens
    rw [submatrix_length, hn1]
  exact ⟨hin k p P hP d hd X hX _ h.1,
    two_positive_up n (C.gens P) (C.gens X) hM hM1 hdet hdet1 (hin k p P hP d hd X hX) _ h.1 h.2⟩

/-- Every cell above a cell that the ray splits is split by the ray. -/
theorem splits_above (n key : Nat) (C : ConeCollection) (hT : Tree n C)
    (hin : ∀ k i mc, C.cell k i = some mc → ∀ d ∈ mc.Daughters, ∀ md,
      C.cell (k + 1) d = some md → ∀ x : Fin n → ℚ,
        in_cone n (C.gens md) x → in_cone n (C.gens mc) x) :
    ∀ (m k p q : Nat) (P X : MiniCone), C.cell k p = some P → C.cell (k + m) q = some X →
      below C m k p q → X.splits n key C → P.splits n key C := by
  intro m
  induction m with
  | zero =>
    intro k p q P X hP hX hb h
    rw [below] at hb
    subst hb
    rw [Nat.add_zero, hP] at hX
    injection hX with hX
    rw [hX]
    exact h
  | succ m ih =>
    intro k p q P X hP hX hb h
    obtain ⟨x, mx, b1, b2, b3⟩ := below_unsnoc C m k p q hb
    have hX1 : C.cell (k + m + 1) q = some X := hX
    exact ih k p x P mx hP b2 b1 (splits_parent n key C hT hin (k + m) x q mx X b2 b3 hX1 h)

/-- The walk of `refine(key)` from a cell of level 0 arrives, not pruned, at
every cell that the ray splits. -/
theorem descends_of_splits (hb : Mat → Option (List Vec)) (n key : Nat) (C : ConeCollection)
    (hT : Tree n C)
    (hin : ∀ k i mc, C.cell k i = some mc → ∀ d ∈ mc.Daughters, ∀ md,
      C.cell (k + 1) d = some md → ∀ x : Fin n → ℚ,
        in_cone n (C.gens md) x → in_cone n (C.gens mc) x) :
    ∀ (k q : Nat) (X : MiniCone), C.cell k q = some X → X.splits n key C →
      ∃ r, r < (C.Members.getD 0 []).length ∧ descends (exactKernel hb) key C k 0 r q := by
  intro k
  induction k with
  | zero =>
    intro q X hX _
    exact ⟨q, (cell_lt C 0 q X hX).2, rfl⟩
  | succ k ih =>
    intro q X hX h
    obtain ⟨p, P, hP, hq⟩ := hT.has_parent k q (cell_lt C (k + 1) q X hX).2
    have hPs := splits_parent n key C hT hin k p q P X hP hq hX h
    obtain ⟨r, hr, hdes⟩ := ih p P hP hPs
    refine ⟨r, hr, descends_snoc (exactKernel hb) key C k 0 r p q P hdes ?_
      (passes_of_splits hb n key C hT k p P hP hPs).1 hq⟩
    rw [Nat.zero_add]
    exact hP

/-- `ConeCollection::refine` on an unknown ray: the new daughters are children
of the leaf-local rule, and every leaf that the walk from a cell of level 0 is
not pruned from has its children. -/
theorem coll_descent_spec (K : Kernel) (key : Nat) (C : ConeCollection) (hW : Wood C)
    (hne : C.Members ≠ []) (hnew : row C.Generators key ∉ C.AllRays) :
    Leafwise K key C.ensure_level (C.refine K key) ∧
    ∀ r, r < (C.ensure_level.Members.getD 0 []).length →
      ∀ n q, descends K key C.ensure_level n 0 r q →
        Done K key C.ensure_level (C.refine K key) n q := by
  have hW0 := wood_ensure_level C hW
  have hWalk := walk_start C.ensure_level hW0 (last_empty_ensure_level C hne)
  unfold ConeCollection.refine
  rw [if_neg hnew]
  obtain ⟨a, _, _, b⟩ := descent_fold K key C.ensure_level
    (fun k => (C.ensure_level.Members.getD k []).length) (fun _ => rfl) hW0
    C.ensure_level.Members.length 0
    (fun plc C2 h1 h2 h3 h4 => descent_spec K key C.ensure_level _ (fun _ => rfl) hW0
      C.ensure_level.Members.length 0 plc C2 h1 h2 h3 h4)
    (List.range (C.ensure_level.Members.getD 0 []).length) C.ensure_level
    (List.nodup_range _) hWalk (leafwise_start K key _ hW0)
    (fun d _ => untouched_refl _ 0 d)
    (fun d hd => cell_of_lt _ 0 d (List.mem_range.mp hd))
  refine ⟨a, ?_⟩
  intro r hr n q hdes
  have := b (by omega) r (List.mem_range.mpr hr) n q hdes
  rw [Nat.zero_add] at this
  exact this





/-! ## Pruned descent and leaf-wise insertion: the leaf-local rule on every leaf -/

theorem mem_positions (C : ConeCollection) (k i : Nat) :
    (k, i) ∈ C.positions ↔ k < C.Members.length ∧ i < (C.Members.getD k []).length := by
  unfold ConeCollection.positions
  simp only [List.mem_flatMap, List.mem_range, List.mem_map, Prod.mk.injEq]
  constructor
  · rintro ⟨k1, hk1, i1, hi1, rfl, rfl⟩
    exact ⟨hk1, hi1⟩
  · rintro ⟨hk, hi⟩
    exact ⟨k, hk, i, hi, rfl, rfl⟩

theorem mem_leaf_positions (C : ConeCollection) (k i : Nat) :
    (k, i) ∈ C.leaf_positions ↔ ∃ mc, C.cell k i = some mc ∧ mc.Daughters = [] := by
  unfold ConeCollection.leaf_positions
  rw [List.mem_filter, mem_positions]
  constructor
  · rintro ⟨_, h⟩
    cases hc : C.cell k i with
    | none => simp [hc] at h
    | some mc =>
      simp only [hc] at h
      exact ⟨mc, rfl, List.isEmpty_iff.mp h⟩
  · rintro ⟨mc, hc, hd⟩
    refine ⟨cell_lt C k i mc hc, ?_⟩
    simp only [hc]
    exact List.isEmpty_iff.mpr hd

/-- The leaf-local rule on a leaf of `C0`. -/
theorem leaf_rule_spec (K : Kernel) (key : Nat) (C0 C2 : ConeCollection) (N : Nat → Nat)
    (hN : ∀ k, N k = (C0.Members.getD k []).length) (hW : Walk N C2)
    (hP : Leafwise K key C0 C2) (p : Nat × Nat) (m0 : MiniCone)
    (hm0 : C0.cell p.1 p.2 = some m0) :
    Walk N (leaf_rule K key C2 p) ∧ Leafwise K key C0 (leaf_rule K key C2 p) ∧
    Extends C2 (leaf_rule K key C2 p) ∧
    (∀ m2, C2.cell p.1 p.2 = some m2 → m2.Daughters = [] →
      Done K key C0 (leaf_rule K key C2 p) p.1 p.2) ∧
    ∀ l q m, C2.cell l q = some m → ¬ (l = p.1 ∧ q = p.2) →
      (leaf_rule K key C2 p).cell l q = some m := by
  obtain ⟨m2, E, hm2, e1, _, _, _, _, e6⟩ := hP.ext p.1 p.2 m0 hm0
  have hco := hW.wood.coords p.1 p.2 m2 hm2
  have hfac := hP.facets p.1 p.2 m0 m2 hm0 hm2
  have hsame : ∀ (hblock : ¬ m0.passes K key C0.Generators ∨ m2.Daughters ≠ []),
      Walk N C2 ∧ Leafwise K key C0 C2 ∧ Extends C2 C2 ∧
      (∀ m3, C2.cell p.1 p.2 = some m3 → m3.Daughters = [] → Done K key C0 C2 p.1 p.2) ∧
      ∀ l q m, C2.cell l q = some m → ¬ (l = p.1 ∧ q = p.2) → C2.cell l q = some m := by
    intro hblock
    refine ⟨hW, hP, extends_refl C2, ?_, fun _ _ _ h _ => h⟩
    intro m3 hm3 hleaf
    rw [hm2] at hm3
    injection hm3 with hm3
    subst hm3
    rcases hblock with hb | hb
    · exact done_of_blocked K key C0 C2 p.1 p.2 m0 hm0 hb 0 p.2 rfl
    · exact absurd hleaf hb
  have hrule : leaf_rule K key C2 p
      = if m2.Daughters.length > 0 then C2
        else
          match facet_loop (row C0.Generators key) (m0.hyperplanes K C0.Generators) 0 [] with
          | none => C2
          | some opp =>
            if opp.length = 1 then C2 else opp.foldl (subdivide_step K key m2) C2 := by
    unfold leaf_rule
    rw [hm2]
    simp only
    rw [hfac, hP.gens]
  rw [hrule]
  by_cases hd : m2.Daughters.length > 0
  · rw [if_pos hd]
    apply hsame
    right
    intro h
    rw [h] at hd
    simp at hd
  · rw [if_neg hd]
    cases hfl : facet_loop (row C0.Generators key) (m0.hyperplanes K C0.Generators) 0 [] with
    | none =>
      apply hsame
      left
      rintro ⟨opp, h1, _⟩
      rw [hfl] at h1
      cases h1
    | some opp =>
      simp only
      by_cases hone : opp.length = 1
      · rw [if_pos hone]
        apply hsame
        left
        rintro ⟨opp1, h1, h2⟩
        rw [hfl] at h1
        injection h1 with h1
        subst h1
        exact h2 hone
      · rw [if_neg hone]
        have hleaf : m2.Daughters = [] := by
          cases hD : m2.Daughters with
          | nil => rfl
          | cons x l => rw [hD] at hd; simp at hd
        obtain ⟨a, b⟩ := leafwise_subdivide K key C0 C2 N hN hW hP p.1 p.2 m2 m2 m0 hm2
          hco.1 hco.2 rfl hm0 hleaf opp hfl hone
        have hold : m2.my_place < N m2.level := by
          rw [hco.1, hco.2, hN]
          exact (cell_lt C0 p.1 p.2 m0 hm0).2
        refine ⟨walk_subdivide_fold K key m2 N opp C2 hW
            ⟨m2, by rw [hco.1, hco.2]; exact hm2⟩ hold,
          a, extends_subdivide_fold K key m2 opp C2, fun _ _ _ => b, ?_⟩
        intro l q m hm hne
        apply subdivide_fold_other K key m2 opp C2 l q m hm
        rw [hco.1, hco.2]
        exact hne

/-- The leaf-local rule on a list of leaves of `C0`. -/
theorem leaf_rule_fold_spec (K : Kernel) (key : Nat) (C0 : ConeCollection) (N : Nat → Nat)
    (hN : ∀ k, N k = (C0.Members.getD k []).length) :
    ∀ (L : List (Nat × Nat)) (C2 : ConeCollection), Walk N C2 → Leafwise K key C0 C2 →
      (∀ p ∈ L, ∃ m0, C0.cell p.1 p.2 = some m0 ∧ m0.Daughters = []) →
      (∀ k q m0, C0.cell k q = some m0 → m0.Daughters = [] →
        (∃ m2, C2.cell k q = some m2 ∧ m2.Daughters = []) ∨ Done K key C0 C2 k q) →
      Leafwise K key C0 (L.foldl (leaf_rule K key) C2) ∧
      Extends C2 (L.foldl (leaf_rule K key) C2) ∧
      ∀ p ∈ L, Done K key C0 (L.foldl (leaf_rule K key) C2) p.1 p.2 := by
  intro L
  induction L with
  | nil =>
    intro C2 _ hP _ _
    exact ⟨hP, extends_refl C2, fun p hp => absurd hp (List.not_mem_nil _)⟩
  | cons p L ih =>
    intro C2 hW hP hL hinv
    rw [List.foldl_cons]
    obtain ⟨m0, hm0, hleaf0⟩ := hL p (List.mem_cons_self _ _)
    obtain ⟨hW1, hP1, hE1, hD1, hO1⟩ := leaf_rule_spec K key C0 C2 N hN hW hP p m0 hm0
    have hDp : Done K key C0 (leaf_rule K key C2 p) p.1 p.2 := by
      rcases hinv p.1 p.2 m0 hm0 hleaf0 with ⟨m2, hm2, hl2⟩ | hdone
      · exact hD1 m2 hm2 hl2
      · exact done_mono K key C0 _ _ p.1 p.2 hdone hE1
    have hinv1 : ∀ k q m1, C0.cell k q = some m1 → m1.Daughters = [] →
        (∃ m2, (leaf_rule K key C2 p).cell k q = some m2 ∧ m2.Daughters = []) ∨
          Done K key C0 (leaf_rule K key C2 p) k q := by
      intro k q m1 hm1 hl1
      by_cases hkq : k = p.1 ∧ q = p.2
      · obtain ⟨rfl, rfl⟩ := hkq
        exact Or.inr hDp
      · rcases hinv k q m1 hm1 hl1 with ⟨m2, hm2, hl2⟩ | hdone
        · exact Or.inl ⟨m2, hO1 k q m2 hm2 hkq, hl2⟩
        · exact Or.inr (done_mono K key C0 _ _ k q hdone hE1)
    obtain ⟨a, b, c⟩ := ih _ hW1 hP1 (fun p1 hp1 => hL p1 (List.mem_cons_of_mem _ hp1)) hinv1
    refine ⟨a, extends_trans _ _ _ hE1 b, ?_⟩
    intro p1 hp1
    rcases List.mem_cons.mp hp1 with rfl | hp1
    · exact done_mono K key C0 _ _ _ _ hDp b
    · exact c p1 hp1

/-- Leaf-wise insertion: the new daughters are children of the leaf-local
rule, and every leaf has its children. -/
theorem leafwise_refine_spec (K : Kernel) (key : Nat) (C : ConeCollection) (hW : Wood C)
    (hne : C.Members ≠ []) :
    Leafwise K key C.ensure_level (C.leafwise_refine K key) ∧
    ∀ k q m0, C.ensure_level.cell k q = some m0 → m0.Daughters = [] →
      Done K key C.ensure_level (C.leafwise_refine K key) k q := by
  have hW0 := wood_ensure_level C hW
  have hWalk := walk_start C.ensure_level hW0 (last_empty_ensure_level C hne)
  obtain ⟨a, _, c⟩ := leaf_rule_fold_spec K key C.ensure_level _ (fun _ => rfl)
    C.ensure_level.leaf_positions C.ensure_level hWalk (leafwise_start K key _ hW0)
    (fun p hp => (mem_leaf_positions C.ensure_level p.1 p.2).mp hp)
    (fun k q m0 hm0 hl => Or.inl ⟨m0, hm0, hl⟩)
  refine ⟨a, ?_⟩
  intro k q m0 hm0 hl
  exact c (k, q) ((mem_leaf_positions C.ensure_level k q).mpr ⟨m0, hm0, hl⟩)

theorem mem_new_cells (C R : ConeCollection) (k p : Nat) (G : List Nat) (m : Int) :
    (k, p, G, m) ∈ C.new_cells R ↔
      ∃ mp d c, R.cell k p = some mp ∧ d ∈ mp.Daughters ∧
        (C.Members.getD (k + 1) []).length ≤ d ∧ R.cell (k + 1) d = some c ∧
        c.GenKeys = G ∧ c.multiplicity = m := by
  unfold ConeCollection.new_cells
  rw [List.mem_flatMap]
  constructor
  · rintro ⟨q, _, hq⟩
    cases hc : R.cell q.1 q.2 with
    | none =>
      rw [hc] at hq
      exact absurd hq (List.not_mem_nil _)
    | some mp =>
      rw [hc] at hq
      simp only [List.mem_filterMap, List.mem_filter, decide_eq_true_eq, Option.map_eq_some',
        Prod.mk.injEq] at hq
      obtain ⟨d, ⟨hd, hlen⟩, c, hcd, rfl, rfl, rfl, rfl⟩ := hq
      exact ⟨mp, d, c, hc, hd, hlen, hcd, rfl, rfl⟩
  · rintro ⟨mp, d, c, hc, hd, hlen, hcd, rfl, rfl⟩
    refine ⟨(k, p), (mem_positions R k p).mpr (cell_lt R k p mp hc), ?_⟩
    simp only [hc, List.mem_filterMap, List.mem_filter, decide_eq_true_eq, Option.map_eq_some',
      Prod.mk.injEq]
    exact ⟨d, ⟨hd, hlen⟩, c, hcd, by simp⟩

theorem leafChild_ensure_level (K : Kernel) (key : Nat) (C : ConeCollection) (k p : Nat)
    (G : List Nat) (m : Int) :
    LeafChild K key C.ensure_level k p G m ↔ LeafChild K key C k p G m := by
  unfold LeafChild
  rw [ensure_level_generators]
  simp only [cell_ensure_level]

/-- The new cells of a forest with the properties of the two insertions are
the children of the leaf-local rule. -/
theorem new_cells_of_leafwise (K : Kernel) (key : Nat) (C R : ConeCollection)
    (hP : Leafwise K key C.ensure_level R)
    (hD : ∀ k q G m, LeafChild K key C k q G m → Done K key C.ensure_level R k q)
    (k p : Nat) (G : List Nat) (m : Int) :
    (k, p, G, m) ∈ C.new_cells R ↔ LeafChild K key C k p G m := by
  have hlen : ∀ l, (C.ensure_level.Members.getD l []).length = (C.Members.getD l []).length :=
    (grown_ensure_level C).lengths
  rw [mem_new_cells]
  constructor
  · rintro ⟨mp, d, c, hc, hd, hl, hcd, rfl, rfl⟩
    rw [← hlen] at hl
    obtain ⟨c1, hc1, hL⟩ := hP.born k p mp d hc hd hl
    rw [hcd] at hc1
    injection hc1 with hc1
    subst hc1
    exact (leafChild_ensure_level K key C k p _ _).mp hL
  · intro hL
    obtain ⟨mq, d, c, a1, a2, a3, a4, a5, a6⟩ :=
      hD k p G m hL G m ((leafChild_ensure_level K key C k p G m).mpr hL)
    rw [hlen] at a3
    exact ⟨mq, d, c, a1, a2, a3, a4, a5, a6⟩





/-! ## C36: pruned descent equals leaf-wise insertion -/

/-- C36. Pruned descent equals leaf-wise insertion: let the forest be a family
of trees of non-degenerate simplices of dimension `n` in which the cone of every
daughter lies in the cone of its cell, and let `Generators[key]` not be a known
ray. Then `ConeCollection::refine(key)` makes the same set of new cells as the
leaf-local rule (facet test, degenerate test, subdivision) applied to every
leaf: a cell has a new daughter with given keys and multiplicity after the one
exactly when it has one after the other, and exactly when the leaf-local rule
gives the cell this child. And below a cell on which the ray fails the facet
test or has exactly one positive facet value there is no leaf to which the
leaf-local rule gives a child: skipping the daughters of such a cell skips no
leaf that would have been subdivided. -/
theorem pruned_descent_eq_leafwise (hb : Mat → Option (List Vec)) (n key : Nat)
    (C : ConeCollection) (hW : Wood C) (hT : Tree n C)
    (hin : ∀ k i mc, C.cell k i = some mc → ∀ d ∈ mc.Daughters, ∀ md,
      C.cell (k + 1) d = some md → ∀ x : Fin n → ℚ,
        in_cone n (C.gens md) x → in_cone n (C.gens mc) x)
    (hnew : row C.Generators key ∉ C.AllRays) :
    (∀ e, e ∈ C.new_cells (C.refine (exactKernel hb) key) ↔
      e ∈ C.new_cells (C.leafwise_refine (exactKernel hb) key)) ∧
    (∀ k p G m, (k, p, G, m) ∈ C.new_cells (C.refine (exactKernel hb) key) ↔
      LeafChild (exactKernel hb) key C k p G m) ∧
    (∀ k p A, C.cell k p = some A →
      (facet_loop (row C.Generators key) (A.hyperplanes (exactKernel hb) C.Generators) 0 []
          = none ∨
        ∃ opp, facet_loop (row C.Generators key)
          (A.hyperplanes (exactKernel hb) C.Generators) 0 [] = some opp ∧ opp.length = 1) →
      ∀ m q, below C m k p q → ∀ G mult, ¬ LeafChild (exactKernel hb) key C (k + m) q G mult) := by
  have hT0 : Tree n C.ensure_level := tree_grown n C _ hT (grown_ensure_level C)
  have hin0 : ∀ k i mc, C.ensure_level.cell k i = some mc → ∀ d ∈ mc.Daughters, ∀ md,
      C.ensure_level.cell (k + 1) d = some md → ∀ x : Fin n → ℚ,
        in_cone n (C.ensure_level.gens md) x → in_cone n (C.ensure_level.gens mc) x := by
    intro k i mc hmc d hd md hmd x hx
    rw [cell_ensure_level] at hmc hmd
    unfold ConeCollection.gens at hx ⊢
    rw [ensure_level_generators] at hx ⊢
    exact hin k i mc hmc d hd md hmd x hx
  obtain ⟨hP1, hD1⟩ := coll_descent_spec (exactKernel hb) key C hW hT.nonempty hnew
  obtain ⟨hP2, hD2⟩ := leafwise_refine_spec (exactKernel hb) key C hW hT.nonempty
  have h1 : ∀ k p G m, (k, p, G, m) ∈ C.new_cells (C.refine (exactKernel hb) key) ↔
      LeafChild (exactKernel hb) key C k p G m := by
    intro k p G m
    apply new_cells_of_leafwise (exactKernel hb) key C _ hP1
    intro k1 q G1 m1 hL
    obtain ⟨X, hX, _, hs⟩ := splits_of_leafChild hb n key C.ensure_level hT0 k1 q G1 m1
      ((leafChild_ensure_level (exactKernel hb) key C k1 q G1 m1).mpr hL)
    obtain ⟨r, hr, hdes⟩ := descends_of_splits hb n key C.ensure_level hT0 hin0 k1 q X hX hs
    exact hD1 r hr k1 q hdes
  have h2 : ∀ k p G m, (k, p, G, m) ∈ C.new_cells (C.leafwise_refine (exactKernel hb) key) ↔
      LeafChild (exactKernel hb) key C k p G m := by
    intro k p G m
    apply new_cells_of_leafwise (exactKernel hb) key C _ hP2
    intro k1 q G1 m1 hL
    obtain ⟨mc, _, _, a1, a2, _⟩ := hL
    exact hD2 k1 q mc (by rw [cell_ensure_level]; exact a1) a2
  refine ⟨?_, h1, ?_⟩
  · rintro ⟨k, p, G, m⟩
    rw [h1, h2]
  · intro k p A hA hfail m q hb1 G mult hL
    obtain ⟨X, hX, _, hs⟩ := splits_of_leafChild hb n key C hT (k + m) q G mult hL
    have hAs := splits_above n key C hT hin m k p q A X hA hX hb1 hs
    obtain ⟨_, hfl⟩ := passes_of_splits hb n key C hT k p A hA hAs
    rcases hfail with h | ⟨opp, h, hone⟩
    · rw [hfl] at h
      cases h
    · rw [hfl] at h
      injection h with h
      rw [← h] at hone
      have := hAs.2
      omega

theorem ray_forest_reached :
    Reached (exactKernel scenario_oracle)
      (ConeCollection.from_triangulation [[1, 0], [1, 2]] [([0, 1], 2)]) ray_forest :=
  Reached.step _ _
    (Reached.step _ _ Reached.start
      (Operation.make_unimodular scenario_forest scenario_result 2 scenario_run))
    (Operation.add_extra_generators scenario_result [[2, 1]])

set_option maxRecDepth 40000 in
/-- Witness for `pruned_descent_eq_leafwise`: the forest of the concrete
scenario after `make_unimodular`, with the unknown ray `(2,1)` as ray 3. The
walk of `refine(3)` passes the level-0 cell, is stopped by the facet test at
the daughter over `(1,2)`, `(1,1)` and subdivides the daughter over `(1,0)`,
`(1,1)` into two cells of multiplicity 1, as the leaf-local rule does. -/
theorem pruned_descent_eq_leafwise_witness :
    Wood ray_forest ∧ Tree 2 ray_forest ∧
    (∀ k i mc, ray_forest.cell k i = some mc → ∀ d ∈ mc.Daughters, ∀ md,
      ray_forest.cell (k + 1) d = some md → ∀ x : Fin 2 → ℚ,
        in_cone 2 (ray_forest.gens md) x → in_cone 2 (ray_forest.gens mc) x) ∧
    row ray_forest.Generators 3 ∉ ray_forest.AllRays ∧
    ray_forest.new_cells (ray_forest.refine (exactKernel scenario_oracle) 3)
      = [(1, 1, [2, 3], 1), (1, 1, [0, 3], 1)] ∧
    ray_forest.new_cells (ray_forest.leafwise_refine (exactKernel scenario_oracle) 3)
      = [(1, 1, [2, 3], 1), (1, 1, [0, 3], 1)] ∧
    ∀ e, e ∈ ray_forest.new_cells (ray_forest.refine (exactKernel scenario_oracle) 3) ↔
      e ∈ ray_forest.new_cells (ray_forest.leafwise_refine (exactKernel scenario_oracle) 3) :=
  have hS : Sound ℚ 2 scenario_forest.root_cones ray_forest :=
    stable_reached (exactKernel scenario_oracle) _ (stable_sound scenario_oracle 2 _) _ _
      ray_forest_reached (sound_of_triangulated 2 scenario_forest scenario_triangulated)
  have hW : Wood ray_forest :=
    (sane_reached (exactKernel scenario_oracle) [[1, 0], [1, 2]] [([0, 1], 2)] ray_forest
      ray_forest_reached).wood
  have hin : ∀ k i mc, ray_forest.cell k i = some mc → ∀ d ∈ mc.Daughters, ∀ md,
      ray_forest.cell (k + 1) d = some md → ∀ x : Fin 2 → ℚ,
        in_cone 2 (ray_forest.gens md) x → in_cone 2 (ray_forest.gens mc) x :=
    fun k i mc hmc d hd md hmd x => (hS.2.1.inside k i mc hmc d hd md hmd x).1
  ⟨hW, hS.1, hin, by decide, rfl, rfl,
    (pruned_descent_eq_leafwise scenario_oracle 2 3 ray_forest hW hS.1 hin (by decide)).1⟩


/-! ## Properties kept along a walk -/

/-- A loop of calls of `MiniCone::refine` over cells of one level keeps what a
call on one cell keeps. -/
theorem walk_fold_keeps (flag : Nat → Bool) (K : Kernel) (key fuel : Nat) (N : Nat → Nat)
    (Q : ConeCollection → Prop) (k1 : Nat)
    (ih : ∀ (plc : Nat) (C : ConeCollection) (t : Nat), Walk N C → Clean N C k1 plc → Q C →
      ∀ R t1, (MiniCone.refine_poll flag K key fuel k1 plc C t = Polled.returned R t1 ∨
          MiniCone.refine_poll flag K key fuel k1 plc C t = Polled.interrupted R t1) → Q R) :
    ∀ (ds : List Nat) (C2 : ConeCollection) (t2 : Nat), ds.Nodup → Walk N C2 →
      (∀ d ∈ ds, Clean N C2 k1 d) → (∀ d ∈ ds, ∃ m, C2.cell k1 d = some m) → Q C2 →
      ∀ R t3, (ds.foldl (fun r d => r.andThen (MiniCone.refine_poll flag K key fuel k1 d))
            (Polled.returned C2 t2) = Polled.returned R t3 ∨
          ds.foldl (fun r d => r.andThen (MiniCone.refine_poll flag K key fuel k1 d))
            (Polled.returned C2 t2) = Polled.interrupted R t3) → Q R := by
  intro ds
  induction ds with
  | nil =>
    intro C2 t2 _ _ _ _ hQ R t3 hr
    have hR : R = C2 := by
      rcases hr with hr | hr
      · injection hr with hr _
        exact hr.symm
      · cases hr
    subst hR
    exact hQ
  | cons d ds ihd =>
    intro C2 t2 hnd hW hclean hcells hQ R t3 hr
    rw [List.foldl_cons, andThen_returned] at hr
    have hd1 := ih d C2 t2 hW (hclean d (List.mem_cons_self _ _)) hQ
    have hw1 := walk_refine_poll flag K key N fuel k1 d C2 t2 hW
      (hclean d (List.mem_cons_self _ _))
    cases h4 : MiniCone.refine_poll flag K key fuel k1 d C2 t2 with
    | interrupted R4 t4 =>
      rw [h4, fold_andThen_interrupted] at hr
      have hR : R4 = R := by
        rcases hr with hr | hr
        · cases hr
        · injection hr with hr _
      subst hR
      exact hd1 R4 t4 (Or.inr h4)
    | returned C3 t4 =>
      rw [h4] at hr
      obtain ⟨a1, a2, a3, a4⟩ := hw1 C3 t4 (Or.inl h4)
      have hne : ∀ d1 ∈ ds, d1 ≠ d := by
        intro d1 hd1 heq
        rw [heq] at hd1
        exact (List.nodup_cons.mp hnd).1 hd1
      have hclean3 : ∀ d1 ∈ ds, Clean N C3 k1 d1 := fun d1 h1 =>
        clean_transfer N C2 C3 k1 d d1 hW.wood a3 (hne d1 h1)
          (hcells d1 (List.mem_cons_of_mem _ h1)) (hclean d1 (List.mem_cons_of_mem _ h1))
      have hcells3 : ∀ d1 ∈ ds, ∃ m, C3.cell k1 d1 = some m := by
        intro d1 h1
        obtain ⟨m, hm⟩ := hcells d1 (List.mem_cons_of_mem _ h1)
        obtain ⟨m1, _, hm1, _⟩ := a2 k1 d1 m hm
        exact ⟨m1, hm1⟩
      exact ihd C3 t4 (List.nodup_cons.mp hnd).2 a1 hclean3 hcells3 (hd1 C3 t4 (Or.inl h4)) R t3 hr

/-- A property of the forest that the caching of facets keeps, and that a pass
of the subdivision loop keeps when the cell it subdivides existed as the
operation began, holds when a call of `MiniCone::refine` on such a cell returns
or is interrupted. -/
theorem walk_poll_keeps (flag : Nat → Bool) (K : Kernel) (key : Nat) (N : Nat → Nat)
    (Q : ConeCollection → Prop)
    (hcache : ∀ C lvl plc, Q C → Q (C.cache_facets K lvl plc))
    (hstep : ∀ C mc j, Walk N C → (∃ m, C.cell mc.level mc.my_place = some m) →
      mc.my_place < N mc.level → Q C → Q (subdivide_step K key mc C j)) :
    ∀ (fuel lvl plc : Nat) (C : ConeCollection) (t : Nat), Walk N C → Clean N C lvl plc → Q C →
      ∀ R t1, (MiniCone.refine_poll flag K key fuel lvl plc C t = Polled.returned R t1 ∨
          MiniCone.refine_poll flag K key fuel lvl plc C t = Polled.interrupted R t1) →
        Q R := by
  have hout : ∀ (C R : ConeCollection) (t t1 : Nat), Q C →
      (Polled.returned C t = Polled.returned R t1 ∨
        Polled.returned C t = Polled.interrupted R t1) → Q R := by
    intro C R t t1 hQ hr
    rcases hr with hr | hr
    · injection hr with hr _
      rw [← hr]
      exact hQ
    · cases hr
  have hint : ∀ (C R : ConeCollection) (t t1 : Nat), Q C →
      (Polled.interrupted C t = Polled.returned R t1 ∨
        Polled.interrupted C t = Polled.interrupted R t1) → Q R := by
    intro C R t t1 hQ hr
    rcases hr with hr | hr
    · cases hr
    · injection hr with hr _
      rw [← hr]
      exact hQ
  intro fuel
  induction fuel with
  | zero =>
    intro lvl plc C t _ _ hQ R t1 hr
    rw [refine_poll_zero] at hr
    exact hout _ _ _ _ hQ hr
  | succ fuel ih =>
    intro lvl plc C t hW hclean hQ R t1 hr
    cases hc : C.cell lvl plc with
    | none =>
      rw [refine_poll_no_cell _ _ _ _ _ _ _ _ hc] at hr
      exact hout _ _ _ _ hQ hr
    | some mc =>
      have hQ1 := hcache C lvl plc hQ
      have hW1 := walk_cache K N C lvl plc hW
      have hsame := cache_facets_same K C lvl plc
      obtain ⟨hlv, hpl⟩ := hW.wood.coords lvl plc mc hc
      have hback : ∀ l q Y, (C.cache_facets K lvl plc).cell l q = some Y →
          ∃ Y0, C.cell l q = some Y0 ∧ Y0.Daughters = Y.Daughters := by
        intro l q Y hY
        obtain ⟨m, hm, _, _, a3, _⟩ := cache_facets_back K C lvl plc l q Y hY
        exact ⟨m, hm, a3.symm⟩
      rw [refine_poll_succ flag K key fuel lvl plc C t mc hc] at hr
      cases hfl : facet_loop_poll flag (row C.Generators key) (mc.hyperplanes K C.Generators)
          0 [] t with
      | interrupted t2 =>
        rw [hfl] at hr
        exact hint _ _ _ _ hQ1 hr
      | outside t2 =>
        rw [hfl] at hr
        exact hout _ _ _ _ hQ1 hr
      | opposite opp t2 =>
        rw [hfl] at hr
        simp only at hr
        by_cases hone : opp.length = 1
        · rw [if_pos hone] at hr
          exact hout _ _ _ _ hQ1 hr
        · rw [if_neg hone] at hr
          by_cases hd : mc.Daughters.length > 0
          · rw [if_pos hd, hlv] at hr
            have hcl : ∀ d ∈ mc.Daughters, Clean N (C.cache_facets K lvl plc) (lvl + 1) d := by
              intro d hdm n q hb
              have h1 := below_of_same C _ hback n (lvl + 1) d q hb
              have h2 : below C (n + 1) lvl plc q := ⟨mc, d, hc, hdm, h1⟩
              have := hclean (n + 1) q h2
              rw [show lvl + 1 + n = lvl + (n + 1) by omega]
              exact this
            have hcells : ∀ d ∈ mc.Daughters,
                ∃ m, (C.cache_facets K lvl plc).cell (lvl + 1) d = some m := by
              intro d hdm
              obtain ⟨m, hm⟩ := cell_of_lt C (lvl + 1) d (hW.wood.daughters_lt lvl plc mc hc d hdm)
              obtain ⟨Y1, h1, _⟩ := hsame (lvl + 1) d m hm
              exact ⟨Y1, h1⟩
            exact walk_fold_keeps flag K key fuel N Q (lvl + 1)
              (fun plc1 C1 t3 h1 h2 h3 R1 t4 h4 => ih (lvl + 1) plc1 C1 t3 h1 h2 h3 R1 t4 h4)
              mc.Daughters _ t2 (hW.wood.nodup lvl plc mc hc) hW1 hcl hcells hQ1 R t1 hr
          · rw [if_neg hd] at hr
            have hsp := subdivide_loop_poll_spec flag K key mc opp (C.cache_facets K lvl plc) t2
            have hold : mc.my_place < N mc.level := by
              rw [hlv, hpl]
              exact hclean 0 plc rfl
            have hfold : ∀ (l : List Nat) (C2 : ConeCollection), Walk N C2 →
                (∃ m, C2.cell mc.level mc.my_place = some m) → Q C2 →
                Q (l.foldl (subdivide_step K key mc) C2) := by
              intro l
              induction l with
              | nil => intro C2 _ _ h2; exact h2
              | cons j l ihl =>
                intro C2 hw2 hm2 h2
                obtain ⟨m, hm⟩ := hm2
                rw [List.foldl_cons]
                exact ihl _ (walk_add_minicone N C2 mc.level mc.my_place _ _ m hw2 hm hold)
                  ⟨_, cell_add_minicone_mother C2 mc.level mc.my_place _ _ m hm⟩
                  (hstep C2 mc j hw2 ⟨m, hm⟩ hold h2)
            have hmother : ∃ m, (C.cache_facets K lvl plc).cell mc.level mc.my_place = some m := by
              rw [hlv, hpl]
              exact ⟨_, cache_facets_cell K C lvl plc mc hc⟩
            rcases hr with hr | hr
            · rw [hr] at hsp
              rw [hsp.1]
              exact hfold _ _ hW1 hmother hQ1
            · rw [hr] at hsp
              obtain ⟨⟨pre, _, _, _, h3⟩, _⟩ := hsp
              rw [h3]
              exact hfold _ _ hW1 hmother hQ1

/-! ## What a walk changes -/

theorem appends_refl (C : ConeCollection) : Appends C C where
  gens := rfl
  tri := rfl
  len := fun _ => le_refl _
  rays := by
    intro x
    constructor
    · exact fun h => Or.inl h
    · rintro (h | ⟨k, i, c, hi, hc, _⟩)
      · exact h
      · have := (cell_lt C k i c hc).2
        omega

theorem appends_cache (K : Kernel) (C R : ConeCollection) (lvl plc : Nat) (h : Appends C R) :
    Appends C (R.cache_facets K lvl plc) where
  gens := h.gens
  tri := h.tri
  len := by
    intro l
    rw [show ((R.cache_facets K lvl plc).Members.getD l []).length
      = (R.Members.getD l []).length from updateCell_level_length R lvl plc _ l]
    exact h.len l
  rays := by
    intro x
    show x ∈ R.AllRays ↔ _
    rw [h.rays x]
    constructor
    · rintro (h1 | ⟨k, i, c, hi, hc, hx⟩)
      · exact Or.inl h1
      · obtain ⟨c1, _, hc1, hk, _⟩ := extends_cache K R lvl plc k i c hc
        exact Or.inr ⟨k, i, c1, hi, hc1, by rw [hk]; exact hx⟩
    · rintro (h1 | ⟨k, i, c, hi, hc, hx⟩)
      · exact Or.inl h1
      · obtain ⟨m, hm, hk, _⟩ := cache_facets_back K R lvl plc k i c hc
        exact Or.inr ⟨k, i, m, hi, hm, by rw [← hk]; exact hx⟩

theorem appends_add_minicone (C R : ConeCollection) (k p : Nat) (GKeys : List Nat) (mult : Int)
    (h : Appends C R) (hk : k + 1 < R.Members.length) :
    Appends C (R.add_minicone (k + 1) p GKeys mult) where
  gens := h.gens
  tri := h.tri
  len := by
    intro l
    rw [add_minicone_level_length R k p GKeys mult hk l]
    have := h.len l
    omega
  rays := by
    intro x
    rw [mem_allRays_add_minicone, h.rays x, h.gens]
    constructor
    · rintro ((h1 | ⟨l, i, c, hi, hc, hx⟩) | ⟨g, hg, hx⟩)
      · exact Or.inl h1
      · obtain ⟨c1, _, hc1, hk1, _⟩ := extends_add_minicone R k p GKeys mult l i c hc
        exact Or.inr ⟨l, i, c1, hi, hc1, by rw [hk1]; exact hx⟩
      · refine Or.inr ⟨k + 1, (R.Members.getD (k + 1) []).length,
          new_cell R (k + 1) (R.Members.getD (k + 1) []).length GKeys mult, h.len (k + 1), ?_,
          g, hg, hx⟩
        rw [cell_add_minicone R k p GKeys mult hk, if_pos ⟨rfl, rfl⟩]
    · rintro (h1 | ⟨l, i, c, hi, hc, g, hg, hx⟩)
      · exact Or.inl (Or.inl h1)
      · rcases cell_add_minicone_cases R k p _ _ l i c hc with
          ⟨_, _, _, rfl⟩ | ⟨h1, h2, m, hm, rfl⟩ | ⟨_, hc1⟩
        · exact Or.inr ⟨g, hg, hx⟩
        · exact Or.inl (Or.inr ⟨l, i, m, hi, by rw [h1, h2]; exact hm, g, hg, hx⟩)
        · exact Or.inl (Or.inr ⟨l, i, c, hi, hc1, g, hg, hx⟩)

/-- A call of `MiniCone::refine`, returned or interrupted, on a cell that
existed with all cells below it as the operation began: the known rays it adds
are the rays of the keys of the cells it appends. -/
theorem appends_refine_poll (flag : Nat → Bool) (K : Kernel) (key : Nat) (N : Nat → Nat)
    (C0 : ConeCollection) (fuel lvl plc : Nat) (C : ConeCollection) (t : Nat) (hW : Walk N C)
    (hcl : Clean N C lvl plc) (h : Appends C0 C) (R : ConeCollection) (t1 : Nat)
    (hr : MiniCone.refine_poll flag K key fuel lvl plc C t = Polled.returned R t1 ∨
      MiniCone.refine_poll flag K key fuel lvl plc C t = Polled.interrupted R t1) :
    Appends C0 R :=
  walk_poll_keeps flag K key N (Appends C0)
    (fun C1 l p h1 => appends_cache K C0 C1 l p h1)
    (fun C1 mc j hw hm hold h1 => by
      obtain ⟨m, hm⟩ := hm
      exact appends_add_minicone C0 C1 mc.level mc.my_place _ _ h1
        (walk_next_level N C1 mc.level mc.my_place m hw hm hold))
    fuel lvl plc C t hW hcl h R t1 hr

theorem caches_refl (K : Kernel) (C : ConeCollection) : Caches K C C :=
  ⟨rfl, fun _ _ mc h => ⟨mc, h, rfl, Or.inl rfl⟩⟩

theorem hyperplanes_idem (K : Kernel) (G : Mat) (mc m : MiniCone) (hk : m.GenKeys = mc.GenKeys)
    (h : m.SupportHyperplanes = mc.SupportHyperplanes ∨
      m.SupportHyperplanes = mc.hyperplanes K G) :
    m.hyperplanes K G = mc.hyperplanes K G := by
  unfold MiniCone.hyperplanes at h ⊢
  rcases h with h | h
  · rw [h, hk]
  · rw [h, hk]
    by_cases h0 : mc.SupportHyperplanes.length = 0
    · simp only [if_pos h0]
      split <;> rfl
    · simp only [if_neg h0]

theorem caches_cache (K : Kernel) (C R : ConeCollection) (lvl plc : Nat) (h : Caches K C R) :
    Caches K C (R.cache_facets K lvl plc) := by
  refine ⟨h.1, ?_⟩
  intro k i mc hmc
  obtain ⟨m, hm, hk, hs⟩ := h.2 k i mc hmc
  by_cases hki : k = lvl ∧ i = plc
  · obtain ⟨rfl, rfl⟩ := hki
    refine ⟨_, cache_facets_cell K R k i m hm, hk, Or.inr ?_⟩
    show m.hyperplanes K R.Generators = _
    rw [h.1]
    exact hyperplanes_idem K C.Generators mc m hk hs
  · exact ⟨m, by rw [cache_facets_other K R lvl plc k i hki]; exact hm, hk, hs⟩

theorem caches_add_minicone (K : Kernel) (C R : ConeCollection) (k p : Nat) (GKeys : List Nat)
    (mult : Int) (h : Caches K C R) : Caches K C (R.add_minicone (k + 1) p GKeys mult) := by
  refine ⟨h.1, ?_⟩
  intro l i mc hmc
  obtain ⟨m, hm, hk, hs⟩ := h.2 l i mc hmc
  by_cases hki : l = k ∧ i = p
  · obtain ⟨rfl, rfl⟩ := hki
    exact ⟨_, cell_add_minicone_mother R l i GKeys mult m hm, hk, hs⟩
  · exact ⟨m, cell_add_minicone_other R k p GKeys mult l i m hm hki, hk, hs⟩

theorem caches_refine_poll (flag : Nat → Bool) (K : Kernel) (key : Nat) (C0 : ConeCollection)
    (fuel lvl plc : Nat) (C : ConeCollection) (t : Nat) (h : Caches K C0 C)
    (R : ConeCollection) (t1 : Nat)
    (hr : MiniCone.refine_poll flag K key fuel lvl plc C t = Polled.returned R t1 ∨
      MiniCone.refine_poll flag K key fuel lvl plc C t = Polled.interrupted R t1) :
    Caches K C0 R :=
  refine_poll_keeps flag K key (Caches K C0)
    (fun C1 l p h1 => caches_cache K C0 C1 l p h1)
    (fun C1 mc _ h1 => caches_add_minicone K C0 C1 mc.level mc.my_place _ _ h1)
    fuel lvl plc C t h R t1 hr

/-- The loop of `ConeCollection::refine(key)` over the cells of level 0, for a
ray that is not yet known, on a family of trees with at least one level: the
known rays it adds are the rays of the keys of the cells it appends. -/
theorem appends_coll_refine (K : Kernel) (C : ConeCollection) (key : Nat) (hW : Wood C)
    (hne : C.Members ≠ []) (hmem : ¬ row C.Generators key ∈ C.AllRays) :
    Appends C.ensure_level (C.refine K key) := by
  rw [coll_refine_unfold K C key hmem]
  have hW1 := wood_ensure_level C hW
  have hlast := last_empty_ensure_level C hne
  obtain ⟨hWk, hcl⟩ := walk_of_last_empty C.ensure_level hW1 hlast
  have hcells : ∀ d ∈ List.range (C.ensure_level.Members.getD 0 []).length,
      ∃ m, C.ensure_level.cell 0 d = some m :=
    fun d hd => cell_of_lt _ 0 d (List.mem_range.mp hd)
  obtain ⟨t1, h⟩ := fold_poll_clear K key C.ensure_level.Members.length 0
    (List.range (C.ensure_level.Members.getD 0 []).length) C.ensure_level 0
  exact walk_fold_keeps (fun _ => false) K key C.ensure_level.Members.length _
    (Appends C.ensure_level) 0
    (fun plc C1 t h1 h2 h3 R t2 h4 =>
      appends_refine_poll (fun _ => false) K key _ C.ensure_level _ 0 plc C1 t h1 h2 h3 R t2 h4)
    _ C.ensure_level 0 (List.nodup_range _) hWk
    (fun d hd => by
      obtain ⟨m, hm⟩ := hcells d hd
      exact hcl 0 d m hm)
    hcells (appends_refl _) _ t1 (Or.inl h)

/-- C21 (amended). Let the forest be a family of trees, and let no cell below
the cell at `(lvl, plc)`, the cell included, be in the last level (as it is for
every cell when the last level is empty).  A call of `MiniCone::refine(key)` on
this cell returns only if every poll of the interruption flag it made, in the
facet-test loop and in the subdivision loop, found the flag clear, and then it
returns the forest of the call without polls.  Otherwise the first poll that
finds the flag set interrupts it, and the forest it leaves differs from the
forest before the call by appended cells, appended `Daughters` entries, cached
facets and the rays of the appended cells in `AllRays`, and by nothing else: it
has the generator table, the flag `is_triangulation` and the levels it had, and
no level has lost cells; every cell it had is there, at its position, with its
keys, its multiplicity, its coordinates, the daughters it had, followed at most
by new ones, and the facets it had or the facets that `refine` caches; the
elements of `AllRays` are those it had and the rays of the keys of the
appended cells, which `add_minicone` inserts; and it is a family of trees:
every cell stores its position and every entry of a `Daughters` list is the
position of a cell of the next level. -/
theorem refine_cancelled (flag : Nat → Bool) (K : Kernel) (key fuel lvl plc : Nat)
    (C : ConeCollection) (t : Nat) (hW : Wood C)
    (hroom : ∀ n q, below C n lvl plc q → lvl + n + 1 < C.Members.length) :
    (∀ R t1, MiniCone.refine_poll flag K key fuel lvl plc C t = Polled.returned R t1 →
      R = MiniCone.refine K key fuel lvl plc C ∧ ∀ s, t ≤ s → s < t1 → flag s = false) ∧
    (∀ R t1, MiniCone.refine_poll flag K key fuel lvl plc C t = Polled.interrupted R t1 →
      flag t1 = true ∧ t ≤ t1 ∧ (∀ s, t ≤ s → s < t1 → flag s = false) ∧
      R.Generators = C.Generators ∧ R.is_triangulation = C.is_triangulation ∧
      R.Members.length = C.Members.length ∧
      (∀ l, (C.Members.getD l []).length ≤ (R.Members.getD l []).length) ∧
      (∀ k i mc, C.cell k i = some mc → ∃ mc1 E, R.cell k i = some mc1 ∧
        mc1.GenKeys = mc.GenKeys ∧ mc1.multiplicity = mc.multiplicity ∧
        mc1.level = mc.level ∧ mc1.my_place = mc.my_place ∧
        mc1.is_simplex = mc.is_simplex ∧ mc1.Daughters = mc.Daughters ++ E ∧
        (mc1.SupportHyperplanes = mc.SupportHyperplanes ∨
          mc1.SupportHyperplanes = mc.hyperplanes K C.Generators)) ∧
      (∀ x, x ∈ R.AllRays ↔ x ∈ C.AllRays ∨
        ∃ k i c, (C.Members.getD k []).length ≤ i ∧ R.cell k i = some c ∧
          ∃ g ∈ c.GenKeys, x = row C.Generators g) ∧
      (∀ k i mc, R.cell k i = some mc → mc.level = k ∧ mc.my_place = i ∧
        ∀ d ∈ mc.Daughters, d < (R.Members.getD (k + 1) []).length) ∧
      Wood R) := by
  have hspec := refine_poll_spec flag K key fuel lvl plc C t
  constructor
  · intro R t1 hr
    rw [hr] at hspec
    exact ⟨hspec.1, hspec.2.2⟩
  · intro R t1 hr
    rw [hr] at hspec
    obtain ⟨a1, a2, a3⟩ := hspec
    cases hc : C.cell lvl plc with
    | none =>
      rw [refine_poll_no_cell _ _ _ _ _ _ _ _ hc] at hr
      cases hr
    | some mc =>
      obtain ⟨hWk, hcl⟩ := walk_of_room C lvl plc hW ⟨mc, hc⟩ hroom
      obtain ⟨b1, b2, _, b4⟩ := walk_refine_poll flag K key _ fuel lvl plc C t hWk hcl R t1
        (Or.inr hr)
      have hA := appends_refine_poll flag K key _ C fuel lvl plc C t hWk hcl (appends_refl C)
        R t1 (Or.inr hr)
      have hS := caches_refine_poll flag K key C fuel lvl plc C t (caches_refl K C) R t1
        (Or.inr hr)
      refine ⟨a2, a1, a3, hA.gens, hA.tri, b4, hA.len, ?_, hA.rays, ?_, b1.wood⟩
      · intro k i m hm
        obtain ⟨m1, E, c1, c2, c3, c4, c5, c6, c7⟩ := b2 k i m hm
        obtain ⟨m2, d1, _, d3⟩ := hS.2 k i m hm
        rw [c1] at d1
        injection d1 with d1
        rw [← d1] at d3
        exact ⟨m1, E, c1, c2, c3, c4, c5, c6, c7, d3⟩
      · intro k i m hm
        obtain ⟨c1, c2⟩ := b1.wood.coords k i m hm
        exact ⟨c1, c2, b1.wood.daughters_lt k i m hm⟩

set_option maxRecDepth 20000 in
/-- C21 (counterexample). The call of `refine(2)` on the cell of `graded_forest`
is interrupted by the fourth poll, before the second pass of the subdivision
loop; `AllRays`, which was `(1,0)`, `(1,2)`, has the new element `(1,1)` in the
forest that is left, so the forest differs from the forest before the call by
more than cells, `Daughters` entries and cached facets. -/
theorem refine_cancelled_adds_ray :
    MiniCone.refine_poll (fun t => decide (t = 3)) (exactKernel failing_oracle) 2 2 0 0
      graded_forest 0 = Polled.interrupted graded_cancelled 3 ∧
    graded_forest.AllRays = [[1, 0], [1, 2]] ∧
    graded_cancelled.AllRays = [[1, 0], [1, 1], [1, 2]] ∧
    graded_cancelled.AllRays ≠ graded_forest.AllRays :=
  ⟨rfl, rfl, rfl, by decide⟩

set_option maxRecDepth 20000 in
/-- Witness for `refine_cancelled`: the call of `refine(2)` on the cell of
`graded_forest` makes two polls in the facet-test loop and one before the first
child; the fourth poll finds the flag set, and the forest is left with the
first child, the cached facets and the rays of the child among the known
rays. -/
theorem refine_cancelled_witness :
    Wood graded_forest ∧
    (∀ n q, below graded_forest n 0 0 q → 0 + n + 1 < graded_forest.Members.length) ∧
    MiniCone.refine_poll (fun t => decide (t = 3)) (exactKernel failing_oracle) 2 2 0 0
      graded_forest 0 = Polled.interrupted graded_cancelled 3 ∧
    (∀ k i mc, graded_forest.cell k i = some mc → ∃ mc1 E, graded_cancelled.cell k i = some mc1 ∧
      mc1.GenKeys = mc.GenKeys ∧ mc1.multiplicity = mc.multiplicity ∧
      mc1.level = mc.level ∧ mc1.my_place = mc.my_place ∧
      mc1.is_simplex = mc.is_simplex ∧ mc1.Daughters = mc.Daughters ++ E ∧
      (mc1.SupportHyperplanes = mc.SupportHyperplanes ∨
        mc1.SupportHyperplanes
          = mc.hyperplanes (exactKernel failing_oracle) graded_forest.Generators)) ∧
    (∀ x, x ∈ graded_cancelled.AllRays ↔ x ∈ graded_forest.AllRays ∨
      ∃ k i c, (graded_forest.Members.getD k []).length ≤ i ∧
        graded_cancelled.cell k i = some c ∧
        ∃ g ∈ c.GenKeys, x = row graded_forest.Generators g) ∧
    (∀ k i mc, graded_cancelled.cell k i = some mc → mc.level = k ∧ mc.my_place = i ∧
      ∀ d ∈ mc.Daughters, d < (graded_cancelled.Members.getD (k + 1) []).length) :=
  have hW : Wood graded_forest := wood_ensure_level _ (wood_from_triangulation _ _)
  have hroom : ∀ n q, below graded_forest n 0 0 q →
      0 + n + 1 < graded_forest.Members.length := by
    intro n q hb
    cases n with
    | zero => decide
    | succ n =>
      obtain ⟨mp, d, h1, h2, _⟩ := hb
      have h0 : graded_forest.cell 0 0 = some (root_cell 0 ([0, 1], 2)) := rfl
      rw [h0] at h1
      injection h1 with h1
      rw [← h1] at h2
      cases h2
  ⟨hW, hroom, rfl,
    ((refine_cancelled (fun t => decide (t = 3)) (exactKernel failing_oracle) 2 2 0 0
      graded_forest 0 hW hroom).2 graded_cancelled 3 rfl).2.2.2.2.2.2.2.1,
    ((refine_cancelled (fun t => decide (t = 3)) (exactKernel failing_oracle) 2 2 0 0
      graded_forest 0 hW hroom).2 graded_cancelled 3 rfl).2.2.2.2.2.2.2.2.1,
    ((refine_cancelled (fun t => decide (t = 3)) (exactKernel failing_oracle) 2 2 0 0
      graded_forest 0 hW hroom).2 graded_cancelled 3 rfl).2.2.2.2.2.2.2.2.2.1⟩

/-- C12 (amended). On a family of trees with at least one level, with at most
one facet per ray index and in which the rays of all cells are known,
`ConeCollection::refine(key)` only adds to `AllRays`, and what it adds is at
most the value `Generators[key]`; `AllRays` is unchanged when the call appends
no cell; and when the call appends a cell to some level, `Generators[key]` was
no element of `AllRays` before the call and is one afterwards (`add_minicone`
inserts the rays of every child). -/
theorem refine_allRays (K : Kernel) (hK : ∀ M, (K.simplex_data M).length ≤ M.length)
    (C : ConeCollection) (hC : C.facets_fit) (hknown : C.rays_known) (hW : Wood C)
    (hne : C.Members ≠ []) (key : Nat) :
    (∀ x ∈ C.AllRays, x ∈ (C.refine K key).AllRays) ∧
    (∀ x ∈ (C.refine K key).AllRays, x ∈ C.AllRays ∨ x = row C.Generators key) ∧
    ((∀ l, ((C.refine K key).Members.getD l []).length = (C.Members.getD l []).length) →
      (C.refine K key).AllRays = C.AllRays) ∧
    ((∃ l, ((C.refine K key).Members.getD l []).length ≠ (C.Members.getD l []).length) →
      row C.Generators key ∉ C.AllRays ∧ row C.Generators key ∈ (C.refine K key).AllRays) := by
  have hcases : ((C.refine K key).AllRays = C.AllRays ∧
        ∀ l, ((C.refine K key).Members.getD l []).length = (C.Members.getD l []).length) ∨
      (row C.Generators key ∉ C.AllRays ∧ row C.Generators key ∈ (C.refine K key).AllRays ∧
        ∃ l, (C.Members.getD l []).length < ((C.refine K key).Members.getD l []).length) := by
    by_cases hmem : row C.Generators key ∈ C.AllRays
    · left
      have h1 : C.refine K key = C := by
        unfold ConeCollection.refine
        rw [if_pos hmem]
      rw [h1]
      exact ⟨rfl, fun _ => rfl⟩
    · rcases coll_refine_outcome K hK C hC key hmem with h | ⟨hext, _⟩
      · right
        refine ⟨hmem, h, ?_⟩
        have hA := appends_coll_refine K C key hW hne hmem
        rcases (hA.rays _).mp h with h1 | ⟨k, i, c, hi, hc, _⟩
        · rw [ensure_level_allRays] at h1
          exact absurd h1 hmem
        · rw [(grown_ensure_level C).lengths k] at hi
          have := (cell_lt _ k i c hc).2
          exact ⟨k, by omega⟩
      · left
        obtain ⟨_, hA, _, hshape, _⟩ := hext
        refine ⟨by rw [hA, ensure_level_allRays], fun l => ?_⟩
        rw [getD_length_of_shape _ _ hshape l]
        exact (grown_ensure_level C).lengths l
  refine ⟨(refine_frame K key C).2, ?_, ?_, ?_⟩
  · have := coll_refine_ind K key
      (fun C2 => C2.Generators = C.Generators ∧
        (∀ x ∈ C2.AllRays, x ∈ C.AllRays ∨ x = row C.Generators key) ∧
        ∀ L ∈ C2.Members, ∀ mc ∈ L, ∀ g ∈ mc.GenKeys,
          row C.Generators g ∈ C.AllRays ∨ row C.Generators g = row C.Generators key)
      (by
        intro C2 h
        refine ⟨by rw [ensure_level_generators]; exact h.1,
          by rw [ensure_level_allRays]; exact h.2.1, ?_⟩
        intro L hL mc hmc
        rcases ensure_level_mem C2 L hL with h1 | rfl
        · exact h.2.2 L h1 mc hmc
        · exact absurd hmc (List.not_mem_nil _))
      (fun fuel lvl plc C2 h => refine_cell_new_rays K key C.Generators C.AllRays fuel lvl plc C2 h)
      C ⟨rfl, fun x hx => Or.inl hx, fun L hL mc hmc g hg => Or.inl (hknown L hL mc hmc g hg)⟩
    exact this.2.1
  · intro hsame
    rcases hcases with h | ⟨_, _, l, hl⟩
    · exact h.1
    · have := hsame l
      omega
  · rintro ⟨l, hl⟩
    rcases hcases with h | ⟨h1, h2, _⟩
    · exact absurd (h.2 l) hl
    · exact ⟨h1, h2⟩

set_option maxRecDepth 10000 in
/-- Witness for `refine_allRays`: the subdivision of the cell `{0,1}` of
`diagonal_forest` by the ray `(1,1)` appends two cells to level 1, and `(1,1)`,
which was not a known ray, is one afterwards. -/
theorem refine_allRays_witness :
    (∀ M, ((exactKernel failing_oracle).simplex_data M).length ≤ M.length) ∧
    diagonal_forest.facets_fit ∧ diagonal_forest.rays_known ∧ Wood diagonal_forest ∧
    diagonal_forest.Members ≠ [] ∧
    ((diagonal_forest.refine (exactKernel failing_oracle) 2).Members.getD 1 []).length
      ≠ (diagonal_forest.Members.getD 1 []).length ∧
    ((∀ x ∈ diagonal_forest.AllRays,
        x ∈ (diagonal_forest.refine (exactKernel failing_oracle) 2).AllRays) ∧
      (∀ x ∈ (diagonal_forest.refine (exactKernel failing_oracle) 2).AllRays,
        x ∈ diagonal_forest.AllRays ∨ x = row diagonal_forest.Generators 2) ∧
      (row diagonal_forest.Generators 2 ∉ diagonal_forest.AllRays ∧
        row diagonal_forest.Generators 2
          ∈ (diagonal_forest.refine (exactKernel failing_oracle) 2).AllRays)) :=
  have h := refine_allRays (exactKernel failing_oracle)
    (fun M => le_of_eq (exact_simplex_data_length M)) diagonal_forest
    (by unfold ConeCollection.facets_fit; decide)
    (by unfold ConeCollection.rays_known; decide)
    (wood_from_triangulation _ _) (by decide) 2
  ⟨fun M => le_of_eq (exact_simplex_data_length M),
    by unfold ConeCollection.facets_fit; decide,
    by unfold ConeCollection.rays_known; decide,
    wood_from_triangulation _ _, by decide, by decide,
    h.1, h.2.1, h.2.2.2 ⟨1, by decide⟩⟩

/-! ## Volumes of the cells below a cell -/

theorem le_wmax (SH : Mat) (v : Vec) (h : Vec) (hh : h ∈ SH) :
    v_scalar_product v h ≤ wmax SH v := by
  unfold wmax
  induction SH with
  | nil => cases hh
  | cons r SH ih =>
    rw [List.map_cons, List.foldr_cons]
    rcases List.mem_cons.mp hh with rfl | h1
    · exact le_max_left _ _
    · exact le_trans (ih h1) (le_max_right _ _)

theorem wmax_nonneg (SH : Mat) (v : Vec) : 0 ≤ wmax SH v := by
  unfold wmax
  induction SH with
  | nil => exact le_refl _
  | cons r SH ih =>
    rw [List.map_cons, List.foldr_cons]
    exact le_trans ih (le_max_right _ _)

theorem wmax_cases (SH : Mat) (v : Vec) :
    wmax SH v = 0 ∨ ∃ h ∈ SH, wmax SH v = v_scalar_product v h := by
  unfold wmax
  induction SH with
  | nil => exact Or.inl rfl
  | cons r SH ih =>
    rw [List.map_cons, List.foldr_cons]
    rcases max_cases (v_scalar_product v r) ((SH.map (v_scalar_product v)).foldr max 0) with
      ⟨h1, _⟩ | ⟨h1, _⟩
    · exact Or.inr ⟨r, List.mem_cons_self _ _, h1⟩
    · rw [h1]
      rcases ih with h2 | ⟨h, hh, h2⟩
      · exact Or.inl h2
      · exact Or.inr ⟨h, List.mem_cons_of_mem _ hh, h2⟩

theorem wmax_le (SH : Mat) (v : Vec) (V : Int) (h0 : 0 ≤ V)
    (h : ∀ r ∈ SH, v_scalar_product v r ≤ V) : wmax SH v ≤ V := by
  rcases wmax_cases SH v with h1 | ⟨r, hr, h1⟩
  · rw [h1]; exact h0
  · rw [h1]; exact h r hr

theorem wmax_lt (SH : Mat) (v : Vec) (V : Int) (h0 : 0 < V)
    (h : ∀ r ∈ SH, v_scalar_product v r < V) : wmax SH v < V := by
  rcases wmax_cases SH v with h1 | ⟨r, hr, h1⟩
  · rw [h1]; exact h0
  · rw [h1]; exact h r hr

theorem prod_set_mul (l : List Int) (a : Int) :
    ∀ (j : Nat), j < l.length → (l.set j a).prod * l.getD j 0 = l.prod * a := by
  induction l with
  | nil => intro j hj; cases hj
  | cons x l ih =>
    intro j hj
    cases j with
    | zero =>
      simp only [List.set_cons_zero, List.prod_cons, List.getD_cons_zero]
      ring
    | succ j =>
      simp only [List.set_cons_succ, List.prod_cons, List.getD_cons_succ]
      have := ih j (by simpa using hj)
      calc x * (l.set j a).prod * l.getD j 0 = x * ((l.set j a).prod * l.getD j 0) := by ring
        _ = x * (l.prod * a) := by rw [this]
        _ = x * l.prod * a := by ring

theorem pow_le_prod (V : Int) (h0 : 0 ≤ V) (l : List Int) (h : ∀ x ∈ l, V ≤ x) :
    V ^ l.length ≤ l.prod := by
  induction l with
  | nil => simp
  | cons x l ih =>
    rw [List.length_cons, List.prod_cons, pow_succ, mul_comm]
    exact mul_le_mul (h x (List.mem_cons_self _ _))
      (ih (fun y hy => h y (List.mem_cons_of_mem _ hy))) (pow_nonneg h0 _)
      (le_trans h0 (h x (List.mem_cons_self _ _)))

theorem prod_le_pow (V : Int) (l : List Int) (h : ∀ x ∈ l, 0 ≤ x ∧ x ≤ V) :
    0 ≤ l.prod ∧ l.prod ≤ V ^ l.length := by
  induction l with
  | nil => simp
  | cons x l ih =>
    obtain ⟨a, b⟩ := ih (fun y hy => h y (List.mem_cons_of_mem _ hy))
    obtain ⟨c, d⟩ := h x (List.mem_cons_self _ _)
    rw [List.length_cons, List.prod_cons, pow_succ, mul_comm (V ^ l.length)]
    exact ⟨mul_nonneg c a, mul_le_mul d b a (le_trans c d)⟩

theorem prod_lt_pow (V : Int) (h0 : 0 < V) (l : List Int) (h : ∀ x ∈ l, 0 ≤ x ∧ x ≤ V)
    (hlt : ∃ x ∈ l, x < V) : l.prod < V ^ l.length := by
  induction l with
  | nil =>
    obtain ⟨x, hx, _⟩ := hlt
    cases hx
  | cons x l ih =>
    obtain ⟨a, b⟩ := prod_le_pow V l (fun y hy => h y (List.mem_cons_of_mem _ hy))
    obtain ⟨c, d⟩ := h x (List.mem_cons_self _ _)
    rw [List.length_cons, List.prod_cons, pow_succ, mul_comm (V ^ l.length)]
    obtain ⟨y, hy, hyV⟩ := hlt
    rcases List.mem_cons.mp hy with rfl | hy
    · calc y * l.prod ≤ y * V ^ l.length := mul_le_mul_of_nonneg_left b c
        _ < V * V ^ l.length := mul_lt_mul_of_pos_right hyV (pow_pos h0 _)
    · have := ih (fun z hz => h z (List.mem_cons_of_mem _ hz)) ⟨y, hy, hyV⟩
      calc x * l.prod ≤ V * l.prod := mul_le_mul_of_nonneg_right d a
        _ < V * V ^ l.length := mul_lt_mul_of_pos_left this h0

/-- The value of facet `j` of a matrix on its row `i`. -/
theorem facet_generator (n : Nat) (M : Mat) (hM : M.length = n) (i j : Nat) (hi : i < n)
    (hj : j < n) :
    v_scalar_product (M.getD i []) ((exact_simplex_data M).getD j [])
      = if j = i then exact_vol M else 0 := by
  have h1 := facet_cast n M hM (M.getD i []) j hj
  rw [hval_generator n M hM j i hj hi] at h1
  split at h1
  · rename_i h
    rw [if_pos h]
    exact_mod_cast h1.symm
  · rename_i h
    rw [if_neg h]
    exact_mod_cast h1.symm

theorem mem_facets (n : Nat) (M : Mat) (hM : M.length = n) (h : Vec)
    (hh : h ∈ exact_simplex_data M) : ∃ j, j < n ∧ h = (exact_simplex_data M).getD j [] := by
  obtain ⟨j, hj, rfl⟩ := List.getElem_of_mem hh
  rw [exact_simplex_data_length, hM] at hj
  refine ⟨j, hj, ?_⟩
  rw [List.getD_eq_getElem?_getD, List.getElem?_eq_getElem, Option.getD_some]

theorem facet_mem (n : Nat) (M : Mat) (hM : M.length = n) (j : Nat) (hj : j < n) :
    (exact_simplex_data M).getD j [] ∈ exact_simplex_data M := by
  have h : j < (exact_simplex_data M).length := by rw [exact_simplex_data_length, hM]; exact hj
  rw [List.getD_eq_getElem?_getD, List.getElem?_eq_getElem h, Option.getD_some]
  exact List.getElem_mem h

/-- A non-degenerate cell lies in its own parallelepiped. -/
theorem within_self (n : Nat) (G : Mat) (keys : List Nat) (hlen : keys.length = n)
    (hdet : det (submatrix G keys) ≠ 0) : Within n (submatrix G keys) G keys := by
  have hM : (submatrix G keys).length = n := by rw [submatrix_length, hlen]
  have hV := exact_vol_pos _ hdet
  have hrow : ∀ g ∈ keys, ∃ i, i < n ∧ row G g = (submatrix G keys).getD i [] := by
    intro g hg
    obtain ⟨i, hi, rfl⟩ := List.getElem_of_mem hg
    refine ⟨i, by omega, ?_⟩
    rw [getD_submatrix G keys i hi, List.getD_eq_getElem?_getD, List.getElem?_eq_getElem hi,
      Option.getD_some]
  constructor
  · intro g hg h hh
    obtain ⟨i, hi, hr⟩ := hrow g hg
    obtain ⟨j, hj, rfl⟩ := mem_facets n _ hM h hh
    rw [hr, facet_generator n _ hM i j hi hj]
    split
    · exact ⟨le_of_lt hV, le_refl _⟩
    · exact ⟨le_refl _, le_of_lt hV⟩
  · have h1 : exact_vol (submatrix G keys) ^ (keys.map fun g =>
        wmax (exact_simplex_data (submatrix G keys)) (row G g)).length
        ≤ (keys.map fun g => wmax (exact_simplex_data (submatrix G keys)) (row G g)).prod := by
      apply pow_le_prod _ (le_of_lt hV)
      intro x hx
      obtain ⟨g, hg, rfl⟩ := List.mem_map.mp hx
      obtain ⟨i, hi, hr⟩ := hrow g hg
      have := le_wmax (exact_simplex_data (submatrix G keys)) (row G g) _ (facet_mem n _ hM i hi)
      rw [hr, facet_generator n _ hM i i hi hi, if_pos rfl] at this
      rw [hr]
      exact this
    rw [List.length_map, hlen] at h1
    rcases Nat.eq_zero_or_pos n with h0 | hn
    · subst h0
      have hk : keys = [] := List.length_eq_zero.mp hlen
      subst hk
      have h2 : exact_vol ([] : Mat) = 1 := by decide
      show exact_vol ([] : Mat) * exact_vol ([] : Mat) ^ (0 - 1) ≤ 1
      rw [h2]
      decide
    · calc exact_vol (submatrix G keys) * exact_vol (submatrix G keys) ^ (n - 1)
          = exact_vol (submatrix G keys) ^ n := by
            rw [← pow_succ', Nat.sub_add_cancel hn]
        _ ≤ _ := h1

theorem det_ne_zero_of_vol (M : Mat) (h : 0 < exact_vol M) : det M ≠ 0 := by
  intro h0
  unfold exact_vol at h
  rw [h0] at h
  simp at h

/-- A point with no negative facet value on the rows `X`, whose rows have no
negative value on facet `jL` of `M`: its value on facet `jL` of `M`, times the
volume of `X`, is at least its value on facet `j` of `X` times the value of row
`j` of `X` on facet `jL` of `M`. -/
theorem facet_exchange (n : Nat) (X M : Mat) (hX : X.length = n) (hM : M.length = n) (p : Vec)
    (hnn : ∀ i, i < n → 0 ≤ v_scalar_product p ((exact_simplex_data X).getD i []))
    (jL : Nat) (hjL : jL < n)
    (hin : ∀ i, i < n → 0 ≤ v_scalar_product (X.getD i []) ((exact_simplex_data M).getD jL []))
    (j : Nat) (hj : j < n) :
    v_scalar_product p ((exact_simplex_data X).getD j [])
        * v_scalar_product (X.getD j []) ((exact_simplex_data M).getD jL [])
      ≤ exact_vol X * v_scalar_product p ((exact_simplex_data M).getD jL []) := by
  have hc := congrArg (hval n M jL) (cramer_field (F := ℚ) n X hX (rvec n p))
  rw [hval_smul, hval_sum, facet_cast n M hM p jL hjL] at hc
  have hterm : ∀ i : Fin n, hval n X i (rvec n p) * hval n M jL (rvec n (X.getD i []))
      = ((v_scalar_product p ((exact_simplex_data X).getD i [])
          * v_scalar_product (X.getD i []) ((exact_simplex_data M).getD jL []) : Int) : ℚ) := by
    intro i
    rw [facet_cast n X hX p i i.isLt, facet_cast n M hM _ jL hjL]
    push_cast
    rfl
  rw [Finset.sum_congr rfl (fun i _ => hterm i)] at hc
  have hle : ((v_scalar_product p ((exact_simplex_data X).getD j [])
        * v_scalar_product (X.getD j []) ((exact_simplex_data M).getD jL []) : Int) : ℚ)
      ≤ ∑ i : Fin n, ((v_scalar_product p ((exact_simplex_data X).getD i [])
          * v_scalar_product (X.getD i []) ((exact_simplex_data M).getD jL []) : Int) : ℚ) := by
    have := Finset.single_le_sum
      (f := fun i : Fin n => ((v_scalar_product p ((exact_simplex_data X).getD i [])
          * v_scalar_product (X.getD i []) ((exact_simplex_data M).getD jL []) : Int) : ℚ))
      (s := Finset.univ)
      (fun i _ => by
        have := mul_nonneg (hnn i i.isLt) (hin i i.isLt)
        show (0 : ℚ) ≤ ((v_scalar_product p ((exact_simplex_data X).getD i [])
          * v_scalar_product (X.getD i []) ((exact_simplex_data M).getD jL []) : Int) : ℚ)
        exact_mod_cast this)
      (Finset.mem_univ (⟨j, hj⟩ : Fin n))
    exact this
  rw [← hc] at hle
  exact_mod_cast hle

/-- The child of a cell for a facet on which the new point is positive: when
the cell lies in the parallelepiped of `M` and the point in the half-open one,
the child lies in the parallelepiped, with the point as a row, and the bound of
its volume by the largest coordinates is kept. -/
theorem within_child (n : Nat) (M G : Mat) (keys : List Nat) (key j : Nat) (hM : M.length = n)
    (hdetM : det M ≠ 0) (hlen : keys.length = n) (hdet : det (submatrix G keys) ≠ 0)
    (hW : Within n M G keys)
    (hbox : ∀ h ∈ exact_simplex_data M,
      0 ≤ v_scalar_product (row G key) h ∧ v_scalar_product (row G key) h < exact_vol M)
    (hnn : ∀ r ∈ exact_simplex_data (submatrix G keys), 0 ≤ v_scalar_product (row G key) r)
    (hj : j < n)
    (hpos : 0 < v_scalar_product (row G key) ((exact_simplex_data (submatrix G keys)).getD j [])) :
    Smaller n M G (child_keys keys key j) ∧ det (submatrix G (child_keys keys key j)) ≠ 0 := by
  have hX : (submatrix G keys).length = n := by rw [submatrix_length, hlen]
  have hV := exact_vol_pos M hdetM
  have hvX := exact_vol_pos _ hdet
  have hvol : exact_vol (submatrix G (child_keys keys key j))
      = v_scalar_product (row G key) ((exact_simplex_data (submatrix G keys)).getD j []) :=
    child_vol G keys j key (by omega) hpos
  have hjk : j < keys.length := by omega
  have hrowj : (submatrix G keys).getD j [] = row G (keys.getD j 0) := getD_submatrix G keys j hjk
  have hkj : keys.getD j 0 ∈ keys := by
    rw [List.getD_eq_getElem?_getD, List.getElem?_eq_getElem hjk, Option.getD_some]
    exact List.getElem_mem hjk
  refine ⟨⟨⟨?_, ?_⟩, key, key_mem_child_keys keys key j hjk, ?_⟩, ?_⟩
  · intro g hg h hh
    rcases mem_child_keys keys key j g hg with rfl | hg
    · exact ⟨(hbox h hh).1, le_of_lt (hbox h hh).2⟩
    · exact hW.1 g hg h hh
  · -- the bound of the volume
    have hperm : ((child_keys keys key j).map fun g => wmax (exact_simplex_data M) (row G g)).prod
        = ((keys.map fun g => wmax (exact_simplex_data M) (row G g)).set j
            (wmax (exact_simplex_data M) (row G key))).prod := by
      unfold child_keys
      rw [List.Perm.prod_eq (List.Perm.map _ (List.perm_insertionSort _ _)), List.map_set]
    have hset := prod_set_mul (keys.map fun g => wmax (exact_simplex_data M) (row G g))
      (wmax (exact_simplex_data M) (row G key)) j (by rw [List.length_map]; exact hjk)
    have hgetD : (keys.map fun g => wmax (exact_simplex_data M) (row G g)).getD j 0
        = wmax (exact_simplex_data M) (row G (keys.getD j 0)) := by
      rw [List.getD_eq_getElem?_getD, List.getD_eq_getElem?_getD, List.getElem?_map,
        List.getElem?_eq_getElem hjk]
      rfl
    rw [hgetD] at hset
    rw [hperm, hvol]
    -- the exchange inequality for the largest coordinate
    have hkey : v_scalar_product (row G key) ((exact_simplex_data (submatrix G keys)).getD j [])
          * wmax (exact_simplex_data M) (row G (keys.getD j 0))
        ≤ wmax (exact_simplex_data M) (row G key) * exact_vol (submatrix G keys) := by
      rcases wmax_cases (exact_simplex_data M) (row G (keys.getD j 0)) with h0 | ⟨h, hh, h1⟩
      · rw [h0, mul_zero]
        exact mul_nonneg (wmax_nonneg _ _) (le_of_lt hvX)
      · obtain ⟨jL, hjL, rfl⟩ := mem_facets n M hM h hh
        rw [h1]
        have hex := facet_exchange n (submatrix G keys) M hX hM (row G key)
          (fun i hi => hnn _ (facet_mem n _ hX i hi)) jL hjL
          (fun i hi => by
            rw [getD_submatrix G keys i (by omega)]
            have hki : keys.getD i 0 ∈ keys := by
              rw [List.getD_eq_getElem?_getD, List.getElem?_eq_getElem (by omega : i < keys.length),
                Option.getD_some]
              exact List.getElem_mem _
            exact (hW.1 _ hki _ hh).1)
          j hj
        rw [hrowj] at hex
        calc _ ≤ exact_vol (submatrix G keys)
              * v_scalar_product (row G key) ((exact_simplex_data M).getD jL []) := hex
          _ ≤ exact_vol (submatrix G keys) * wmax (exact_simplex_data M) (row G key) :=
            mul_le_mul_of_nonneg_left (le_wmax _ _ _ hh) (le_of_lt hvX)
          _ = _ := mul_comm _ _
    have hwj : 0 < wmax (exact_simplex_data M) (row G (keys.getD j 0)) := by
      rcases lt_or_eq_of_le (wmax_nonneg (exact_simplex_data M) (row G (keys.getD j 0))) with
        h | h
      · exact h
      · exfalso
        have hz : (keys.map fun g => wmax (exact_simplex_data M) (row G g)).prod = 0 :=
          List.prod_eq_zero (List.mem_map.mpr ⟨_, hkj, h.symm⟩)
        have := hW.2
        rw [hz] at this
        have hp : 0 < exact_vol (submatrix G keys) * exact_vol M ^ (n - 1) :=
          mul_pos hvX (pow_pos hV _)
        omega
    have hpos2 : 0 < exact_vol (submatrix G keys)
        * wmax (exact_simplex_data M) (row G (keys.getD j 0)) := mul_pos hvX hwj
    apply le_of_mul_le_mul_right _ hpos2
    calc v_scalar_product (row G key) ((exact_simplex_data (submatrix G keys)).getD j [])
          * exact_vol M ^ (n - 1)
          * (exact_vol (submatrix G keys) * wmax (exact_simplex_data M) (row G (keys.getD j 0)))
        = (v_scalar_product (row G key) ((exact_simplex_data (submatrix G keys)).getD j [])
            * wmax (exact_simplex_data M) (row G (keys.getD j 0)))
          * (exact_vol (submatrix G keys) * exact_vol M ^ (n - 1)) := by ring
      _ ≤ (wmax (exact_simplex_data M) (row G key) * exact_vol (submatrix G keys))
          * (keys.map fun g => wmax (exact_simplex_data M) (row G g)).prod :=
        mul_le_mul hkey hW.2 (le_of_lt (mul_pos hvX (pow_pos hV _)))
          (mul_nonneg (wmax_nonneg _ _) (le_of_lt hvX))
      _ = exact_vol (submatrix G keys)
          * ((keys.map fun g => wmax (exact_simplex_data M) (row G g)).prod
            * wmax (exact_simplex_data M) (row G key)) := by ring
      _ = exact_vol (submatrix G keys)
          * (((keys.map fun g => wmax (exact_simplex_data M) (row G g)).set j
              (wmax (exact_simplex_data M) (row G key))).prod
            * wmax (exact_simplex_data M) (row G (keys.getD j 0))) := by rw [hset]
      _ = _ := by ring
  · exact wmax_lt _ _ _ hV (fun h hh => (hbox h hh).2)
  · exact det_ne_zero_of_vol _ (by rw [hvol]; exact hpos)

/-- A cell in the parallelepiped of `M` with a row in the half-open
parallelepiped has a smaller volume than `M`. -/
theorem smaller_vol (n : Nat) (M G : Mat) (keys : List Nat) (hlen : keys.length = n)
    (hV : 0 < exact_vol M) (h : Smaller n M G keys) :
    exact_vol (submatrix G keys) < exact_vol M := by
  obtain ⟨⟨ha, hb⟩, g, hg, hlt⟩ := h
  have hall : ∀ x ∈ keys.map fun g => wmax (exact_simplex_data M) (row G g),
      0 ≤ x ∧ x ≤ exact_vol M := by
    intro x hx
    obtain ⟨g1, hg1, rfl⟩ := List.mem_map.mp hx
    exact ⟨wmax_nonneg _ _, wmax_le _ _ _ (le_of_lt hV) (fun r hr => (ha g1 hg1 r hr).2)⟩
  have hp := prod_lt_pow (exact_vol M) hV _ hall ⟨_, List.mem_map.mpr ⟨g, hg, rfl⟩, hlt⟩
  rw [List.length_map, hlen] at hp
  have hn : 0 < n := by
    rw [← hlen]
    exact List.length_pos_of_mem hg
  have h1 : exact_vol (submatrix G keys) * exact_vol M ^ (n - 1)
      < exact_vol M * exact_vol M ^ (n - 1) := by
    calc _ ≤ _ := hb
      _ < exact_vol M ^ n := hp
      _ = _ := by rw [← pow_succ', Nat.sub_add_cancel hn]
  exact lt_of_mul_lt_mul_right h1 (le_of_lt (pow_pos hV _))

theorem within_append (n : Nat) (M G E : Mat) (keys : List Nat) (hk : ∀ g ∈ keys, g < G.length) :
    (Within n M G keys → Within n M (G ++ E) keys) ∧
    (Smaller n M G keys → Smaller n M (G ++ E) keys) := by
  have hrow : ∀ g ∈ keys, row (G ++ E) g = row G g := fun g hg => row_append G E g (hk g hg)
  have hmap : (keys.map fun g => wmax (exact_simplex_data M) (row (G ++ E) g))
      = keys.map fun g => wmax (exact_simplex_data M) (row G g) :=
    List.map_congr_left (fun g hg => by rw [hrow g hg])
  have hw : Within n M G keys → Within n M (G ++ E) keys := by
    rintro ⟨a, b⟩
    refine ⟨fun g hg h hh => by rw [hrow g hg]; exact a g hg h hh, ?_⟩
    rw [submatrix_append G E keys hk, hmap]
    exact b
  refine ⟨hw, ?_⟩
  rintro ⟨a, g, hg, hlt⟩
  exact ⟨hw a, g, hg, by rw [hrow g hg]; exact hlt⟩

/-! ## Descents in a forest that grows -/

theorem below_extends (C R : ConeCollection) (hE : Extends C R) :
    ∀ (n k p q : Nat), below C n k p q → below R n k p q := by
  intro n
  induction n with
  | zero => intro k p q hb; exact hb
  | succ n ih =>
    intro k p q hb
    obtain ⟨mp, d, a1, a2, a3⟩ := hb
    obtain ⟨m1, E, b1, _, _, _, _, _, b7⟩ := hE k p mp a1
    exact ⟨m1, d, b1, by rw [b7]; exact List.mem_append_left _ a2, ih (k + 1) d q a3⟩

/-- Two descents to the same cell in a family of trees: the longer one passes
through the start of the shorter one. -/
theorem below_join (C : ConeCollection) (hW : Wood C) :
    ∀ (m m1 k k1 p p1 q : Nat), below C m k p q → below C m1 k1 p1 q → k + m = k1 + m1 →
      m ≤ m1 → below C (m1 - m) k1 p1 p := by
  intro m
  induction m with
  | zero =>
    intro m1 k k1 p p1 q hb hb1 _ _
    rw [below] at hb
    subst hb
    exact hb1
  | succ m ih =>
    intro m1 k k1 p p1 q hb hb1 hk hle
    cases m1 with
    | zero => omega
    | succ m1 =>
      obtain ⟨x, mx, a1, a2, a3⟩ := below_unsnoc C m k p q hb
      obtain ⟨x1, mx1, b1, b2, b3⟩ := below_unsnoc C m1 k1 p1 q hb1
      have hl : k1 + m1 = k + m := by omega
      rw [hl] at b2
      have hx := hW.one_parent (k + m) x x1 mx mx1 q a2 b2 a3 b3
      subst hx
      have := ih m1 k k1 p p1 x a1 b1 (by omega) (by omega)
      rw [show m1 + 1 - (m + 1) = m1 - m by omega]
      exact this

/-- Induction over the calls of `MiniCone::refine` on a cell that existed with
all cells below it as the operation began, for a property `J` of the forest and
a property `B` of the position of the call that holds on when the forest is
extended and passes from a cell to its daughters. -/
theorem walk_ind (K : Kernel) (key : Nat) (N : Nat → Nat) (J : ConeCollection → Prop)
    (B : Nat → Nat → ConeCollection → Prop)
    (hmono : ∀ C R lvl plc, Extends C R → B lvl plc C → B lvl plc R)
    (hdown : ∀ C lvl plc mc d, Walk N C → B lvl plc C → C.cell lvl plc = some mc →
      d ∈ mc.Daughters → B (lvl + 1) d C)
    (hcache : ∀ C lvl plc, J C → J (C.cache_facets K lvl plc))
    (hfold : ∀ C lvl plc mc opp, Walk N C → plc < N lvl → J C → B lvl plc C →
      C.cell lvl plc = some mc → mc.Daughters = [] →
      facet_loop (row C.Generators key) (mc.hyperplanes K C.Generators) 0 [] = some opp →
      opp.length ≠ 1 → J (opp.foldl (subdivide_step K key mc) (C.cache_facets K lvl plc))) :
    ∀ (fuel lvl plc : Nat) (C : ConeCollection), Walk N C → Clean N C lvl plc → J C →
      B lvl plc C → J (MiniCone.refine K key fuel lvl plc C) := by
  intro fuel
  induction fuel with
  | zero =>
    intro lvl plc C _ _ hJ _
    rw [refine_zero]
    exact hJ
  | succ fuel ih =>
    intro lvl plc C hW hclean hJ hB
    cases hc : C.cell lvl plc with
    | none =>
      rw [refine_no_cell _ _ _ _ _ _ hc]
      exact hJ
    | some mc =>
      have hJ1 := hcache C lvl plc hJ
      have hW1 := walk_cache K N C lvl plc hW
      have hsame := cache_facets_same K C lvl plc
      obtain ⟨hlv, hpl⟩ := hW.wood.coords lvl plc mc hc
      have hback : ∀ l q Y, (C.cache_facets K lvl plc).cell l q = some Y →
          ∃ Y0, C.cell l q = some Y0 ∧ Y0.Daughters = Y.Daughters := by
        intro l q Y hY
        obtain ⟨m, hm, _, _, a3, _⟩ := cache_facets_back K C lvl plc l q Y hY
        exact ⟨m, hm, a3.symm⟩
      rw [refine_succ _ key fuel lvl plc C mc hc]
      cases hf : facet_loop (row C.Generators key) (mc.hyperplanes K C.Generators) 0 [] with
      | none => exact hJ1
      | some opp =>
        simp only
        split
        · exact hJ1
        · rename_i hone
          split
          · rw [hlv]
            have hcl : ∀ d ∈ mc.Daughters, Clean N (C.cache_facets K lvl plc) (lvl + 1) d := by
              intro d hdm n q hb
              have h1 := below_of_same C _ hback n (lvl + 1) d q hb
              have h2 : below C (n + 1) lvl plc q := ⟨mc, d, hc, hdm, h1⟩
              have := hclean (n + 1) q h2
              rw [show lvl + 1 + n = lvl + (n + 1) by omega]
              exact this
            have hcells : ∀ d ∈ mc.Daughters,
                ∃ m, (C.cache_facets K lvl plc).cell (lvl + 1) d = some m := by
              intro d hdm
              obtain ⟨m, hm⟩ := cell_of_lt C (lvl + 1) d (hW.wood.daughters_lt lvl plc mc hc d hdm)
              obtain ⟨Y1, h1, _⟩ := hsame (lvl + 1) d m hm
              exact ⟨Y1, h1⟩
            have hB1 : ∀ d ∈ mc.Daughters, B (lvl + 1) d (C.cache_facets K lvl plc) := by
              intro d hdm
              exact hmono C _ (lvl + 1) d (extends_cache K C lvl plc) (hdown C lvl plc mc d hW hB hc hdm)
            have hloop : ∀ (ds : List Nat) (C2 : ConeCollection), ds.Nodup → Walk N C2 →
                (∀ d ∈ ds, Clean N C2 (lvl + 1) d) →
                (∀ d ∈ ds, ∃ m, C2.cell (lvl + 1) d = some m) → J C2 →
                (∀ d ∈ ds, B (lvl + 1) d C2) →
                J (ds.foldl (fun C2 d => MiniCone.refine K key fuel (lvl + 1) d C2) C2) := by
              intro ds
              induction ds with
              | nil => intro C2 _ _ _ _ h2 _; exact h2
              | cons d ds ihd =>
                intro C2 hnd hw2 hcl2 hce2 hJ2 hB2
                rw [List.foldl_cons]
                obtain ⟨a1, a2, a3, _⟩ := walk_refine K key N fuel (lvl + 1) d C2 hw2
                  (hcl2 d (List.mem_cons_self _ _))
                have hne : ∀ d1 ∈ ds, d1 ≠ d := by
                  intro d1 hd1 heq
                  rw [heq] at hd1
                  exact (List.nodup_cons.mp hnd).1 hd1
                apply ihd _ (List.nodup_cons.mp hnd).2 a1
                · exact fun d1 h1 =>
                    clean_transfer N C2 _ (lvl + 1) d d1 hw2.wood a3 (hne d1 h1)
                      (hce2 d1 (List.mem_cons_of_mem _ h1)) (hcl2 d1 (List.mem_cons_of_mem _ h1))
                · intro d1 h1
                  obtain ⟨m, hm⟩ := hce2 d1 (List.mem_cons_of_mem _ h1)
                  obtain ⟨m1, _, hm1, _⟩ := a2 (lvl + 1) d1 m hm
                  exact ⟨m1, hm1⟩
                · exact ih (lvl + 1) d C2 hw2 (hcl2 d (List.mem_cons_self _ _)) hJ2
                    (hB2 d (List.mem_cons_self _ _))
                · exact fun d1 h1 => hmono C2 _ (lvl + 1) d1 a2 (hB2 d1 (List.mem_cons_of_mem _ h1))
            exact hloop _ _ (hW.wood.nodup lvl plc mc hc) hW1 hcl hcells hJ1 hB1
          · rename_i hnod
            have hleaf : mc.Daughters = [] := by
              cases hd : mc.Daughters with
              | nil => rfl
              | cons a l =>
                rw [hd] at hnod
                simp at hnod
            exact hfold C lvl plc mc opp hW (hclean 0 plc rfl) hJ hB hc hleaf hf hone

/-! ## The cells made in a round are smaller than the cell they subdivide -/

theorem hyperplanes_of_simplex (hb : Mat → Option (List Vec)) (n : Nat) (C : ConeCollection)
    (hS : C.simplex_ok n) (lvl plc : Nat) (mc : MiniCone) (hc : C.cell lvl plc = some mc) :
    mc.hyperplanes (exactKernel hb) C.Generators = exact_simplex_data (C.gens mc) := by
  unfold MiniCone.hyperplanes
  split
  · rfl
  · rename_i hne
    rcases (hS lvl plc mc hc).2.2.2 with h | h
    · rw [h] at hne
      exact absurd rfl hne
    · exact h

theorem simplex_cache (hb : Mat → Option (List Vec)) (n : Nat) (C : ConeCollection)
    (lvl plc : Nat) (h : C.simplex_ok n) :
    (C.cache_facets (exactKernel hb) lvl plc).simplex_ok n := by
  intro k i Y hY
  by_cases hki : k = lvl ∧ i = plc
  · obtain ⟨rfl, rfl⟩ := hki
    obtain ⟨m, hm, _⟩ := cache_facets_back (exactKernel hb) C k i k i Y hY
    rw [cache_facets_cell (exactKernel hb) C k i m hm] at hY
    injection hY with hY
    obtain ⟨a1, a2, a3, _⟩ := h k i m hm
    rw [← hY]
    exact ⟨a1, a2, a3, Or.inr (hyperplanes_of_simplex hb n C h k i m hm)⟩
  · rw [cache_facets_other (exactKernel hb) C lvl plc k i hki] at hY
    exact h k i Y hY

theorem simplex_add_minicone (n : Nat) (C : ConeCollection) (k p : Nat) (keys : List Nat)
    (mult : Int) (h : C.simplex_ok n) (hlen : keys.length = n)
    (hrange : ∀ g ∈ keys, g < C.Generators.length)
    (hdet : det (submatrix C.Generators keys) ≠ 0) :
    (C.add_minicone (k + 1) p keys mult).simplex_ok n := by
  intro l q Y hY
  rcases cell_add_minicone_cases C k p _ _ l q Y hY with
    ⟨_, _, _, rfl⟩ | ⟨_, _, m1, hm1, rfl⟩ | ⟨_, hc⟩
  · exact ⟨hlen, hrange, hdet, Or.inl rfl⟩
  · exact h k p m1 hm1
  · exact h l q Y hc

theorem shrunk_cache (K : Kernel) (n : Nat) (C0 : ConeCollection) (ps : List (Nat × Nat))
    (R : ConeCollection) (lvl plc : Nat) (h : Shrunk n C0 ps R) :
    Shrunk n C0 ps (R.cache_facets K lvl plc) := by
  intro l q Y hY h0
  obtain ⟨m, hm, hk, _⟩ := cache_facets_back K R lvl plc l q Y hY
  obtain ⟨k, i, L, m1, a1, a2, a3, a4, a5, a6⟩ := h l q m hm h0
  refine ⟨k, i, L, m1, a1, a2, a3, a4, below_extends R _ (extends_cache K R lvl plc) _ _ _ _ a5, ?_⟩
  rw [hk]
  exact a6

theorem shrunk_add_minicone (n : Nat) (C0 : ConeCollection) (ps : List (Nat × Nat))
    (R : ConeCollection) (lvl plc : Nat) (keys : List Nat) (mult : Int) (mo : MiniCone)
    (h : Shrunk n C0 ps R) (hmo : R.cell lvl plc = some mo) (kH iH mH : Nat) (LH : MiniCone)
    (hps : (kH, iH) ∈ ps) (hLH : C0.cell kH iH = some LH) (hleaf : LH.Daughters = [])
    (hlvl : lvl = kH + mH) (hb : below R mH kH iH plc)
    (hS : Smaller n (C0.gens LH) R.Generators keys) :
    Shrunk n C0 ps (R.add_minicone (lvl + 1) plc keys mult) := by
  subst hlvl
  have hE := extends_add_minicone R (kH + mH) plc keys mult
  intro l q Y hY h0
  rcases cell_add_minicone_cases R (kH + mH) plc _ _ l q Y hY with
    ⟨h1, h2, _, rfl⟩ | ⟨h1, h2, m1, hm1, rfl⟩ | ⟨_, hc⟩
  · refine ⟨kH, iH, LH, mH + 1, hps, hLH, hleaf, by omega, ?_, hS⟩
    have hb1 := below_extends R _ hE _ _ _ _ hb
    have hcell := cell_add_minicone_mother R (kH + mH) plc keys mult mo hmo
    apply below_snoc _ mH kH iH plc q _ hb1 hcell
    rw [h2]
    simp
  · obtain ⟨k, i, L, m2, a1, a2, a3, a4, a5, a6⟩ := h l q m1 (by rw [h1, h2]; exact hm1) h0
    exact ⟨k, i, L, m2, a1, a2, a3, a4, below_extends R _ hE _ _ _ _ a5, a6⟩
  · obtain ⟨k, i, L, m2, a1, a2, a3, a4, a5, a6⟩ := h l q Y hc h0
    exact ⟨k, i, L, m2, a1, a2, a3, a4, below_extends R _ hE _ _ _ _ a5, a6⟩

/-- The cell of a call that began at a cell of `C0` without daughters lies in
the parallelepiped of that cell. -/
theorem mother_within (n : Nat) (C0 : ConeCollection) (ps : List (Nat × Nat)) (G D : Mat)
    (C : ConeCollection) (hW0 : Wood C0) (hS0 : C0.simplex_ok n) (hW : Wood C)
    (hC : CallState n C0 ps G C) (hG : G = C0.Generators ++ D) (kH iH : Nat) (LH : MiniCone)
    (hLH : C0.cell kH iH = some LH) (hleaf : LH.Daughters = []) (lvl plc m : Nat)
    (hlvl : lvl = kH + m) (hb : below C m kH iH plc) (mc : MiniCone)
    (hc : C.cell lvl plc = some mc) : Within n (C0.gens LH) G mc.GenKeys := by
  obtain ⟨a1, a2, a3, _⟩ := hS0 kH iH LH hLH
  cases m with
  | zero =>
    rw [below] at hb
    subst hb
    rw [Nat.add_zero] at hlvl
    subst hlvl
    obtain ⟨m1, _, hm1, hk, _⟩ := hC.ext lvl plc LH hLH
    rw [hc] at hm1
    injection hm1 with hm1
    rw [hm1, hk, hG]
    exact (within_append n _ C0.Generators D LH.GenKeys a2).1
      (within_self n C0.Generators LH.GenKeys a1 a3)
  | succ m =>
    have hnew := (below_leaf_keys C0 C _ hW0 hW hC.ext hC.kin kH iH LH hLH hleaf (m + 1) plc hb).1
    have hnone : C0.cell lvl plc = none := by
      rcases hnew with h | h
      · omega
      · rw [hlvl]; exact h
    obtain ⟨k, i, L, m1, _, b2, b3, b4, b5, b6⟩ := hC.shrunk lvl plc mc hc hnone
    have hsame : k = kH ∧ i = iH := by
      rcases Nat.lt_trichotomy m1 (m + 1) with hlt | heq | hgt
      · exfalso
        have hj := below_join C hW m1 (m + 1) k kH i iH plc b5 hb (by omega) (by omega)
        have := (below_leaf_keys C0 C _ hW0 hW hC.ext hC.kin kH iH LH hLH hleaf
          (m + 1 - m1) i hj).1
        rcases this with h | h
        · omega
        · rw [show kH + (m + 1 - m1) = k by omega, b2] at h
          cases h
      · have hk : k = kH := by omega
        subst hk
        subst heq
        exact ⟨rfl, below_unique C hW _ _ _ _ _ b5 hb⟩
      · exfalso
        have hj := below_join C hW (m + 1) m1 kH k iH i plc hb b5 (by omega) (by omega)
        have := (below_leaf_keys C0 C _ hW0 hW hC.ext hC.kin k i L b2 b3 (m1 - (m + 1)) iH hj).1
        rcases this with h | h
        · omega
        · rw [show k + (m1 - (m + 1)) = kH by omega, hLH] at h
          cases h
    obtain ⟨rfl, rfl⟩ := hsame
    rw [hLH] at b2
    injection b2 with b2
    rw [b2, ← hC.gens]
    exact b6.1

theorem callstate_cache (hb : Mat → Option (List Vec)) (n : Nat) (C0 : ConeCollection)
    (ps : List (Nat × Nat)) (G : Mat) (C : ConeCollection) (lvl plc : Nat)
    (h : CallState n C0 ps G C) : CallState n C0 ps G (C.cache_facets (exactKernel hb) lvl plc) where
  gens := h.gens
  simplex := simplex_cache hb n C lvl plc h.simplex
  coords := (invariant_coords_ok _).cache C lvl plc h.coords
  ext := (invariant_extends _ C0).cache C lvl plc h.ext
  kin := kin_cache _ C0 _ C lvl plc h.kin
  shrunk := shrunk_cache _ n C0 ps C lvl plc h.shrunk

theorem callstate_add_minicone (n : Nat) (C0 : ConeCollection)
    (ps : List (Nat × Nat)) (G : Mat) (R : ConeCollection) (key j : Nat) (mc mo : MiniCone)
    (lvl plc : Nat) (h : CallState n C0 ps G R) (hmo : R.cell lvl plc = some mo)
    (hmk : mo.GenKeys = mc.GenKeys) (hlen : mc.GenKeys.length = n)
    (hrange : ∀ g ∈ mc.GenKeys, g < G.length) (hkey : key < G.length)
    (hkey0 : C0.Generators.length ≤ key) (kH iH mH : Nat) (LH : MiniCone)
    (hps : (kH, iH) ∈ ps) (hLH : C0.cell kH iH = some LH) (hleaf : LH.Daughters = [])
    (hlvl : lvl = kH + mH) (hbel : below R mH kH iH plc)
    (hS : Smaller n (C0.gens LH) G (child_keys mc.GenKeys key j))
    (hdet : det (submatrix G (child_keys mc.GenKeys key j)) ≠ 0) (mult : Int) :
    CallState n C0 ps G (R.add_minicone (lvl + 1) plc (child_keys mc.GenKeys key j) mult) where
  gens := h.gens
  simplex := by
    apply simplex_add_minicone n R lvl plc _ mult h.simplex
    · rw [child_keys_length, hlen]
    · intro g hg
      rw [h.gens]
      rcases mem_child_keys mc.GenKeys key j g hg with rfl | hg
      · exact hkey
      · exact hrange g hg
    · rw [h.gens]
      exact hdet
  coords := coords_ok_add_minicone R lvl plc _ _ h.coords
  ext := extends_trans _ _ _ h.ext (extends_add_minicone R lvl plc _ _)
  kin := kin_add_minicone C0 _ R lvl plc key j mc.GenKeys mult mo h.kin hmo hmk hkey0
  shrunk := shrunk_add_minicone n C0 ps R lvl plc _ mult mo h.shrunk hmo kH iH mH LH hps hLH hleaf
    hlvl hbel (by rw [h.gens]; exact hS)

theorem callstate_subdivide_fold (hb : Mat → Option (List Vec)) (n : Nat) (C0 : ConeCollection)
    (ps : List (Nat × Nat)) (G : Mat) (key : Nat) (mc : MiniCone)
    (hlen : mc.GenKeys.length = n) (hrange : ∀ g ∈ mc.GenKeys, g < G.length)
    (hkey : key < G.length) (hkey0 : C0.Generators.length ≤ key) (kH iH mH : Nat)
    (LH : MiniCone) (hps : (kH, iH) ∈ ps) (hLH : C0.cell kH iH = some LH)
    (hleaf : LH.Daughters = []) (hlvl : mc.level = kH + mH) :
    ∀ (l : List Nat) (R : ConeCollection),
      (∀ j ∈ l, Smaller n (C0.gens LH) G (child_keys mc.GenKeys key j) ∧
        det (submatrix G (child_keys mc.GenKeys key j)) ≠ 0) →
      CallState n C0 ps G R →
      (∃ mo, R.cell mc.level mc.my_place = some mo ∧ mo.GenKeys = mc.GenKeys) →
      below R mH kH iH mc.my_place →
      CallState n C0 ps G (l.foldl (subdivide_step (exactKernel hb) key mc) R) := by
  intro l
  induction l with
  | nil => intro R _ h _ _; exact h
  | cons j l ih =>
    intro R hch h hmo hbel
    obtain ⟨mo, hmo, hmk⟩ := hmo
    rw [List.foldl_cons]
    have hstep : subdivide_step (exactKernel hb) key mc R j
        = R.add_minicone (mc.level + 1) mc.my_place (child_keys mc.GenKeys key j)
            ((exactKernel hb).vol (submatrix R.Generators (child_keys mc.GenKeys key j))) := rfl
    rw [hstep]
    obtain ⟨hS, hdet⟩ := hch j (List.mem_cons_self _ _)
    apply ih _ (fun j1 h1 => hch j1 (List.mem_cons_of_mem _ h1))
    · exact callstate_add_minicone n C0 ps G R key j mc mo _ _ h hmo hmk hlen hrange hkey
        hkey0 kH iH mH LH hps hLH hleaf hlvl hbel hS hdet _
    · exact ⟨_, cell_add_minicone_mother R mc.level mc.my_place _ _ mo hmo, hmk⟩
    · exact below_extends R _ (extends_add_minicone R mc.level mc.my_place _ _) _ _ _ _ hbel

/-- A call of `MiniCone::refine` at a cell of `C0` without daughters, for a
point of the half-open parallelepiped of that cell: the cells it makes lie in
the parallelepiped with a row in the half-open one. -/
theorem callstate_refine (hb : Mat → Option (List Vec)) (n : Nat) (C0 : ConeCollection)
    (ps : List (Nat × Nat)) (G D : Mat) (key kH iH : Nat) (LH : MiniCone) (hW0 : Wood C0)
    (hS0 : C0.simplex_ok n) (hG : G = C0.Generators ++ D) (hkey : key < G.length)
    (hkey0 : C0.Generators.length ≤ key) (hps : (kH, iH) ∈ ps)
    (hLH : C0.cell kH iH = some LH) (hleaf : LH.Daughters = [])
    (hbox : ∀ h ∈ exact_simplex_data (C0.gens LH),
      0 ≤ v_scalar_product (row G key) h ∧ v_scalar_product (row G key) h < exact_vol (C0.gens LH))
    (N : Nat → Nat) (fuel : Nat) (P : ConeCollection) (hW : Walk N P) (hcl : Clean N P kH iH)
    (hP : CallState n C0 ps G P) :
    CallState n C0 ps G (MiniCone.refine (exactKernel hb) key fuel kH iH P) := by
  obtain ⟨a1, a2, a3, _⟩ := hS0 kH iH LH hLH
  have hML : (C0.gens LH).length = n := by
    unfold ConeCollection.gens
    rw [submatrix_length, a1]
  apply walk_ind (exactKernel hb) key N (CallState n C0 ps G)
    (fun lvl plc C => ∃ m, lvl = kH + m ∧ below C m kH iH plc)
  · rintro C R lvl plc hE ⟨m, h1, h2⟩
    exact ⟨m, h1, below_extends C R hE _ _ _ _ h2⟩
  · rintro C lvl plc mc d _ ⟨m, h1, h2⟩ hc hd
    refine ⟨m + 1, by omega, below_snoc C m kH iH plc d mc h2 (by rw [← h1]; exact hc) hd⟩
  · intro C lvl plc h
    exact callstate_cache hb n C0 ps G C lvl plc h
  · rintro C lvl plc mc opp hWC _ hC ⟨m, h1, h2⟩ hc hleafc hf _
    obtain ⟨b1, b2, b3, _⟩ := hC.simplex lvl plc mc hc
    obtain ⟨hlv, hpl⟩ := hC.coords lvl plc mc hc
    have hin := mother_within n C0 ps G D C hW0 hS0 hWC.wood hC hG kH iH LH hLH hleaf lvl plc m
      h1 h2 mc hc
    rw [hyperplanes_of_simplex hb n C hC.simplex lvl plc mc hc] at hf
    unfold ConeCollection.gens at hf b3
    rw [hC.gens] at hf b2 b3
    have hX : (submatrix G mc.GenKeys).length = n := by rw [submatrix_length, b1]
    obtain ⟨hnn, hopp⟩ := facet_loop_eq _ _ _ _ _ hf
    rw [List.nil_append] at hopp
    apply callstate_subdivide_fold hb n C0 ps G key mc b1 b2 hkey hkey0 kH iH m LH hps hLH hleaf
      (by rw [hlv]; exact h1) opp
    · intro j hj
      have hjn : j < n := by
        rw [hopp] at hj
        have := (positive_positions_bounds _ _ _ _ hj).2.1
        rw [exact_simplex_data_length, hX] at this
        omega
      exact within_child n (C0.gens LH) G mc.GenKeys key j hML a3 b1 b3 hin hbox hnn hjn
        (children_vol G mc.GenKeys key opp hf j hj).2
    · exact callstate_cache hb n C0 ps G C lvl plc hC
    · rw [hlv, hpl]
      exact ⟨_, cache_facets_cell (exactKernel hb) C lvl plc mc hc, rfl⟩
    · rw [hpl]
      exact below_extends C _ (extends_cache (exactKernel hb) C lvl plc) _ _ _ _ h2
  · exact hW
  · exact hcl
  · exact hP
  · exact ⟨0, rfl, rfl⟩

theorem shrunk_ensure_level (n : Nat) (C0 : ConeCollection) (ps : List (Nat × Nat))
    (R : ConeCollection) (h : Shrunk n C0 ps R) : Shrunk n C0 ps R.ensure_level := by
  intro l q Y hY h0
  rw [cell_ensure_level] at hY
  obtain ⟨k, i, L, m, a1, a2, a3, a4, a5, a6⟩ := h l q Y hY h0
  refine ⟨k, i, L, m, a1, a2, a3, a4, below_extends R _ (extends_ensure_level R) _ _ _ _ a5, ?_⟩
  rw [ensure_level_generators]
  exact a6

theorem shrunk_append_gen (n : Nat) (C0 : ConeCollection) (ps : List (Nat × Nat))
    (R : ConeCollection) (v : Vec) (hk : R.keys_ok) (h : Shrunk n C0 ps R) :
    Shrunk n C0 ps { R with Generators := R.Generators ++ [v] } := by
  intro l q Y hY h0
  have hY1 : R.cell l q = some Y := hY
  obtain ⟨k, i, L, m, a1, a2, a3, a4, a5, a6⟩ := h l q Y hY1 h0
  refine ⟨k, i, L, m, a1, a2, a3, a4, below_extends R _ (extends_append_gen R v) _ _ _ _ a5, ?_⟩
  exact (within_append n _ R.Generators [v] Y.GenKeys (hk l q Y hY1)).2 a6

/-- One pass of the inserting loop of a round for an entry whose point lies in
the half-open parallelepiped of its cell: the cells made in the round are
smaller than the cells of the round they lie below. -/
theorem shrunk_insert_step (hb : Mat → Option (List Vec)) (n : Nat) (roots : List Mat)
    (C0 : ConeCollection) (ps : List (Nat × Nat)) (s : InsertState) (H : HilbEntry)
    (hs : RoundState hb n roots C0 s) (hsh : Shrunk n C0 ps s.coll) (hW0 : Wood C0)
    (hS0 : C0.simplex_ok n) (hne : H.1 ≠ []) (hps : (H.2.1, H.2.2) ∈ ps) (LH : MiniCone)
    (hLH : C0.cell H.2.1 H.2.2 = some LH) (hleaf : LH.Daughters = [])
    (hbox : ∀ h ∈ exact_simplex_data (C0.gens LH),
      0 ≤ v_scalar_product H.1 h ∧ v_scalar_product H.1 h < exact_vol (C0.gens LH)) :
    Shrunk n C0 ps (insert_step (exactKernel hb) s H).coll := by
  have hT1 : Tree n s.coll.ensure_level :=
    tree_grown n _ _ hs.sound.1 (grown_ensure_level s.coll)
  have hW1 : Wood s.coll.ensure_level := wood_ensure_level _ hs.sane.wood
  have hlast := last_empty_ensure_level s.coll hs.sane.levels
  have hE1 : Extends C0 s.coll.ensure_level :=
    extends_trans _ _ _ hs.ext (extends_ensure_level s.coll)
  obtain ⟨D, hD, _⟩ := hs.gens
  by_cases hH : H.1 = s.last_inserted
  · rw [insert_step_old _ s H hH]
    simp only
    obtain ⟨hWk, hcl⟩ := walk_of_last_empty s.coll.ensure_level hW1 hlast
    obtain ⟨m1, _, hm1, _⟩ := hE1 _ _ LH hLH
    have hP : CallState n C0 ps s.coll.Generators s.coll.ensure_level :=
      { gens := ensure_level_generators s.coll
        simplex := fun k i mc h => hT1.simplex k i mc h
        coords := fun k i mc h => hT1.coords k i mc h
        ext := hE1
        kin := kin_ensure_level C0 _ s.coll hs.kin
        shrunk := shrunk_ensure_level n C0 ps s.coll hsh }
    exact (callstate_refine hb n C0 ps s.coll.Generators D s.key H.2.1 H.2.2 LH hW0 hS0 hD
      (hs.keyinv.2.2.2 (by rw [← hH]; exact hne)) hs.keyinv.2.1 hps hLH hleaf
      (by rw [hs.keyinv.1, ← hH]; exact hbox) _ _ _ hWk (hcl _ _ m1 hm1) hP).shrunk
  · rw [insert_step_new _ s H hH]
    simp only
    have hW2 : Wood { s.coll.ensure_level with
        Generators := s.coll.ensure_level.Generators ++ [H.1] } := wood_append_gen _ H.1 hW1
    obtain ⟨hWk, hcl⟩ := walk_of_last_empty _ hW2 (fun i => hlast i)
    obtain ⟨m1, _, hm1, _⟩ := hE1 _ _ LH hLH
    have hT2 := tree_grown n _ _ hT1 (grown_append_gen s.coll.ensure_level H.1)
    have hP : CallState n C0 ps (s.coll.ensure_level.Generators ++ [H.1])
        { s.coll.ensure_level with Generators := s.coll.ensure_level.Generators ++ [H.1] } :=
      { gens := rfl
        simplex := fun k i mc h => hT2.simplex k i mc h
        coords := fun k i mc h => hT2.coords k i mc h
        ext := extends_trans _ _ _ hE1 (extends_append_gen _ H.1)
        kin := kin_append_gen C0 _ _ H.1 (kin_ensure_level C0 _ s.coll hs.kin)
        shrunk := shrunk_append_gen n C0 ps _ H.1
          ((invariant_orderly (exactKernel hb)).ensure_level _ hs.orderly).keys
          (shrunk_ensure_level n C0 ps s.coll hsh) }
    have hk0 : C0.Generators.length ≤ s.coll.ensure_level.Generators.length := by
      rw [ensure_level_generators, hD, List.length_append]
      omega
    exact (callstate_refine hb n C0 ps (s.coll.ensure_level.Generators ++ [H.1]) (D ++ [H.1])
      s.coll.ensure_level.Generators.length H.2.1 H.2.2 LH hW0 hS0
      (by rw [ensure_level_generators, hD, List.append_assoc])
      (by rw [List.length_append]; simp) hk0 hps hLH hleaf
      (by rw [row_append_new]; exact hbox) _ _ _ hWk (hcl _ _ m1 hm1) hP).shrunk

/-- The inserting loop of a round whose entries have their points in the
half-open parallelepipeds of their cells. -/
theorem shrunk_fold (hb : Mat → Option (List Vec)) (n : Nat) (roots : List Mat)
    (C0 : ConeCollection) (ps : List (Nat × Nat)) (hW0 : Wood C0) (hS0 : C0.simplex_ok n) :
    ∀ (L : List HilbEntry) (s : InsertState), RoundState hb n roots C0 s →
      Shrunk n C0 ps s.coll →
      (∀ H ∈ L, (∃ M L1, hb M = some L1 ∧ H.1 ∈ L1) ∧ H.1 ≠ [] ∧ (H.2.1, H.2.2) ∈ ps ∧
        ∃ LH, C0.cell H.2.1 H.2.2 = some LH ∧ LH.Daughters = [] ∧
          ∀ h ∈ exact_simplex_data (C0.gens LH),
            0 ≤ v_scalar_product H.1 h ∧ v_scalar_product H.1 h < exact_vol (C0.gens LH)) →
      RoundState hb n roots C0 (L.foldl (insert_step (exactKernel hb)) s) ∧
      Shrunk n C0 ps (L.foldl (insert_step (exactKernel hb)) s).coll := by
  intro L
  induction L with
  | nil => intro s hs hsh _; exact ⟨hs, hsh⟩
  | cons H L ih =>
    intro s hs hsh hH
    rw [List.foldl_cons]
    obtain ⟨a1, a2, a3, LH, a4, a5, a6⟩ := hH H (List.mem_cons_self _ _)
    exact ih _ (roundstate_step hb n roots C0 s H hs a1)
      (shrunk_insert_step hb n roots C0 ps s H hs hsh hW0 hS0 a2 a3 LH a4 a5 a6)
      (fun H1 h1 => hH H1 (List.mem_cons_of_mem _ h1))

/-! ## The rounds of `make_unimodular` come to an end -/

theorem collect_loop_complete (K : Kernel) (C : ConeCollection) (ps : List (Nat × Nat)) :
    ∀ (acc out : List HilbEntry), collect_loop K C ps acc = some out →
      (∀ e ∈ acc, e ∈ out) ∧
      ∀ p ∈ ps, ∀ E, collect_cell K C p = some E → ∀ e ∈ E, e ∈ out := by
  induction ps with
  | nil =>
    intro acc out h
    rw [collect_loop] at h
    injection h with h
    rw [← h]
    exact ⟨fun e he => he, fun p hp => by cases hp⟩
  | cons p ps ih =>
    intro acc out h
    rw [collect_loop] at h
    cases hp : collect_cell K C p with
    | none => rw [hp] at h; cases h
    | some E =>
      rw [hp] at h
      obtain ⟨a, b⟩ := ih _ out h
      refine ⟨fun e he => a e (List.mem_append_left _ he), ?_⟩
      intro p1 hp1 E1 hE1 e he
      rcases List.mem_cons.mp hp1 with rfl | hp1
      · rw [hp] at hE1
        injection hE1 with hE1
        rw [← hE1] at he
        exact a e (List.mem_append_right _ he)
      · exact b p1 hp1 E1 hE1 e he

/-- The collecting loop of a round finds every point of the Hilbert basis of a
cell without daughters and with multiplicity different from 1 that is not a
known ray. -/
theorem collect_complete (K : Kernel) (C : ConeCollection) (A : List HilbEntry)
    (h : C.collect K = some A) (k i : Nat) (mc : MiniCone) (HB : List Vec) (x : Vec)
    (hc : C.cell k i = some mc) (hm : mc.multiplicity ≠ 1) (hleaf : mc.Daughters = [])
    (hHB : K.hilbert_basis (submatrix C.Generators mc.GenKeys) = some HB) (hx : x ∈ HB)
    (hnew : x ∉ C.AllRays) : (x, k, i) ∈ A := by
  unfold ConeCollection.collect at h
  have hel : (k, i) ∈ C.eligible := (mem_eligible C k i).mpr ⟨mc, hc, hm, hleaf⟩
  apply (collect_loop_complete K C _ _ _ h).2 (k, i) hel
    ((HB.filter fun H => H ∉ C.AllRays).map fun H => (H, k, i))
  · unfold collect_cell
    simp only [hc, hHB]
  · exact List.mem_map.mpr ⟨x, List.mem_filter.mpr ⟨hx, by simpa using hnew⟩, rfl⟩

theorem vol_ok_add_minicone (C : ConeCollection) (k p : Nat) (keys : List Nat)
    (h : C.vol_ok) :
    (C.add_minicone (k + 1) p keys (exact_vol (submatrix C.Generators keys))).vol_ok := by
  intro l q Y hY
  rcases cell_add_minicone_cases C k p _ _ l q Y hY with
    ⟨_, _, _, rfl⟩ | ⟨_, _, m1, hm1, rfl⟩ | ⟨_, hc⟩
  · rfl
  · exact h k p m1 hm1
  · exact h l q Y hc

theorem vol_ok_subdivide_fold (hb : Mat → Option (List Vec)) (key : Nat) (mc : MiniCone) :
    ∀ (l : List Nat) (C : ConeCollection), C.vol_ok →
      (l.foldl (subdivide_step (exactKernel hb) key mc) C).vol_ok := by
  intro l
  induction l with
  | nil => intro C h; exact h
  | cons j l ih =>
    intro C h
    rw [List.foldl_cons]
    exact ih _ (vol_ok_add_minicone C mc.level mc.my_place _ h)

theorem invariant_vol_ok (hb : Mat → Option (List Vec)) :
    Invariant (exactKernel hb) (fun C => Orderly (exactKernel hb) C ∧ C.vol_ok) where
  ensure_level := by
    intro C h
    refine ⟨(invariant_orderly _).ensure_level C h.1, ?_⟩
    intro k i mc hc
    rw [cell_ensure_level] at hc
    unfold ConeCollection.gens
    rw [ensure_level_generators]
    exact h.2 k i mc hc
  append_gen := by
    intro C v h
    refine ⟨(invariant_orderly _).append_gen C v h.1, ?_⟩
    intro k i mc hc
    have hc1 : C.cell k i = some mc := hc
    show mc.multiplicity = exact_vol (submatrix (C.Generators ++ [v]) mc.GenKeys)
    rw [submatrix_append _ _ _ (h.1.keys k i mc hc1)]
    exact h.2 k i mc hc1
  cache := by
    intro C lvl plc h
    refine ⟨(invariant_orderly _).cache C lvl plc h.1, ?_⟩
    intro k i Y hY
    obtain ⟨m, hm, hk, hmu, _⟩ := cache_facets_back _ C lvl plc k i Y hY
    show Y.multiplicity = exact_vol (submatrix C.Generators Y.GenKeys)
    rw [hk, hmu]
    exact h.2 k i m hm
  subdivide := by
    intro key C lvl plc mc opp h hc hleaf hf hone
    refine ⟨(invariant_orderly _).subdivide key C lvl plc mc opp h.1 hc hleaf hf hone, ?_⟩
    apply vol_ok_subdivide_fold
    intro k i Y hY
    obtain ⟨m, hm, hk, hmu, _⟩ := cache_facets_back _ C lvl plc k i Y hY
    show Y.multiplicity = exact_vol (submatrix C.Generators Y.GenKeys)
    rw [hk, hmu]
    exact h.2 k i m hm

theorem vol_ok_from_triangulation (Gens : Mat) (T : List (List Nat × Int))
    (hvol : ∀ S ∈ T, S.2 = exact_vol (submatrix Gens S.1)) :
    (ConeCollection.from_triangulation Gens T).vol_ok := by
  obtain ⟨h1, h2, _, _, h5⟩ := from_triangulation_spec Gens T
  intro k i mc hc
  have hk := (cell_lt _ k i mc hc).1
  have h0 : k = 0 := by omega
  subst h0
  rw [h5] at hc
  cases hS : T[i]? with
  | none => rw [hS] at hc; cases hc
  | some S =>
    rw [hS] at hc
    injection hc with hc
    unfold ConeCollection.gens
    rw [← hc, h2]
    exact hvol S (List.mem_iff_getElem?.mpr ⟨i, hS⟩)

theorem after_rounds_snoc (K : Kernel) :
    ∀ (r : Nat) (C C1 C2 : ConeCollection), C.after_rounds K r = some C1 →
      C1.round K = some C2 → C.after_rounds K (r + 1) = some C2 := by
  intro r
  induction r with
  | zero =>
    intro C C1 C2 h1 h2
    rw [ConeCollection.after_rounds] at h1
    injection h1 with h1
    subst h1
    rw [ConeCollection.after_rounds, h2]
    rfl
  | succ r ih =>
    intro C C1 C2 h1 h2
    rw [ConeCollection.after_rounds] at h1 ⊢
    cases hr : C.round K with
    | none => rw [hr] at h1; cases h1
    | some C3 =>
      rw [hr] at h1
      exact ih C3 C1 C2 h1 h2

theorem rows_primitive_append (n : Nat) (hb : Mat → Option (List Vec)) (G D : Mat)
    (hG : rows_primitive n hb G) (hP : oracle_primitive n hb)
    (hD : ∀ x ∈ D, ∃ M L, hb M = some L ∧ x ∈ L) : rows_primitive n hb (G ++ D) := by
  intro g hg M L x hM hx c hc heq
  rcases List.mem_append.mp hg with h | h
  · exact hG g h M L x hM hx c hc heq
  · obtain ⟨M1, L1, h1, h2⟩ := hD g h
    exact hP M1 M L1 L g x h1 hM h2 hx c hc heq

/-- The entries that the collecting loop of a round finds, for an oracle whose
points are rows, points on the extreme ray of a row or points of the half-open
parallelepiped off the extreme rays, on a table of primitive rows: the point of
an entry lies in the half-open parallelepiped of its cell, a cell without
daughters and with multiplicity different from 1, and has two positive facet
values there. -/
theorem entry_facts (hb : Mat → Option (List Vec)) (n : Nat) (C : ConeCollection)
    (hT : Tree n C) (hord : Orderly (exactKernel hb) C) (hB : oracle_boxed n hb)
    (hrows : rows_primitive n hb C.Generators)
    (A : List HilbEntry) (hA : C.collect (exactKernel hb) = some A) (H : HilbEntry)
    (hH : H ∈ A) :
    ∃ LH, C.cell H.2.1 H.2.2 = some LH ∧ LH.Daughters = [] ∧ LH.multiplicity ≠ 1 ∧
      (∃ M L1, hb M = some L1 ∧ H.1 ∈ L1) ∧ H.1 ≠ [] ∧
      (∀ h ∈ exact_simplex_data (C.gens LH),
        0 ≤ v_scalar_product H.1 h ∧ v_scalar_product H.1 h < exact_vol (C.gens LH)) ∧
      2 ≤ (positive_positions H.1 (exact_simplex_data (C.gens LH)) 0).length := by
  obtain ⟨hnew, mc, HB, hmc, hm, hleaf, hHB, hx⟩ := mem_collect _ C A hA H hH
  obtain ⟨hn0, _, hdet, _⟩ := hT.simplex _ _ mc hmc
  have hM0 : (C.gens mc).length = n := by
    unfold ConeCollection.gens
    rw [submatrix_length, hn0]
  have hHB1 : hb (C.gens mc) = some HB := hHB
  have hrow : ∀ v ∈ C.gens mc, ∃ g ∈ mc.GenKeys, row C.Generators g = v ∧
      row C.Generators g ∈ C.Generators := by
    intro v hv
    unfold ConeCollection.gens submatrix at hv
    obtain ⟨g, hg, hgx⟩ := List.mem_map.mp hv
    refine ⟨g, hg, hgx, ?_⟩
    have hlt := hord.keys _ _ mc hmc g hg
    unfold row
    rw [List.getD_eq_getElem?_getD, List.getElem?_eq_getElem hlt, Option.getD_some]
    exact List.getElem_mem hlt
  rcases hB (C.gens mc) HB H.1 hHB1 hx hM0 hdet with hin | ⟨v, hv, c, hc, heq⟩ | ⟨hbox, htwo⟩
  · exfalso
    obtain ⟨g, hg, hgx, _⟩ := hrow _ hin
    apply hnew
    rw [← hgx]
    exact hord.rays _ _ mc hmc g hg
  · exfalso
    obtain ⟨g, hg, hgx, hmem⟩ := hrow v hv
    have := hrows _ hmem _ HB H.1 hHB1 hx c hc (by rw [hgx]; exact heq)
    apply hnew
    rw [← this]
    exact hord.rays _ _ mc hmc g hg
  · refine ⟨mc, hmc, hleaf, hm, ⟨_, HB, hHB1, hx⟩, ?_, hbox, htwo⟩
    intro h
    rw [no_positive_of_zero n (C.gens mc) hM0 H.1 (by rw [h]; exact rvec_nil n)] at htwo
    simp at htwo

/-- The state at the end of a round of `make_unimodular` on a table of
primitive rows, for an oracle whose points are pairwise not proportional and
are rows, points on the extreme ray of a row or points of the half-open
parallelepiped off the extreme rays: every point of the round is a known ray,
every cell made in the round lies below a cell of an entry, in its
parallelepiped with a row in the half-open one, and the rows appended to the
table are points of the oracle. -/
theorem round_shrunk (hb : Mat → Option (List Vec)) (n : Nat) (roots : List Mat)
    (C : ConeCollection) (hsound : Sound ℚ n roots C) (hsane : Sane C)
    (hord : Orderly (exactKernel hb) C) (hP : oracle_primitive n hb) (hB : oracle_boxed n hb)
    (hrows : rows_primitive n hb C.Generators)
    (A : List HilbEntry) (hA : C.collect (exactKernel hb) = some A) :
    Extends C (insert_hilbs (exactKernel hb) C (sort_hilbs A)) ∧
    Shrunk n C (A.map fun H => (H.2.1, H.2.2)) (insert_hilbs (exactKernel hb) C (sort_hilbs A)) ∧
    (∀ H ∈ A, H.1 ∈ (insert_hilbs (exactKernel hb) C (sort_hilbs A)).AllRays) ∧
    rows_primitive n hb (insert_hilbs (exactKernel hb) C (sort_hilbs A)).Generators := by
  have hs0 : RoundState hb n roots C
      { coll := C, last_inserted := [], key := C.Generators.length } :=
    { sound := hsound
      sane := hsane
      orderly := hord
      ext := extends_refl C
      kin := kin_start C _
      keyinv := ⟨row_of_le _ _ (le_refl _), le_refl _, le_refl _, fun h => absurd rfl h⟩
      gens := ⟨[], (List.append_nil _).symm, fun x hx => by cases hx⟩ }
  have hsh0 : Shrunk n C (A.map fun H => (H.2.1, H.2.2)) C := by
    intro l q Y hY h0
    rw [hY] at h0
    cases h0
  have hmem : ∀ H ∈ sort_hilbs A, H ∈ A := fun H h => (sort_hilbs_spec A).1.mem_iff.mp h
  have hS0 : C.simplex_ok n := fun k i mc h => hsound.1.simplex k i mc h
  have hfold := shrunk_fold hb n roots C (A.map fun H => (H.2.1, H.2.2)) hsane.wood hS0
    (sort_hilbs A) _ hs0 hsh0
    (by
      intro H hH
      obtain ⟨LH, a1, a2, _, a4, a5, a6, _⟩ := entry_facts hb n C hsound.1 hord hB hrows A hA H
        (hmem H hH)
      exact ⟨a4, a5, List.mem_map.mpr ⟨H, hmem H hH, rfl⟩, LH, a1, a2, a6⟩)
  have hprog := round_fold_progress hb n roots C hsound.1 hsane.wood hord.keys hP (sort_hilbs A)
    _ hs0
    (by
      intro H hH
      obtain ⟨LH, _, _, _, a4, _⟩ := entry_facts hb n C hsound.1 hord hB hrows A hA H (hmem H hH)
      exact a4)
  refine ⟨hfold.1.ext, hfold.2, ?_, ?_⟩
  · intro H hH
    obtain ⟨LH, a1, a2, _, _, _, a6, a7⟩ := entry_facts hb n C hsound.1 hord hB hrows A hA H hH
    exact hprog.2 H ((sort_hilbs_spec A).1.mem_iff.mpr hH) LH a1 a2 (fun r hr => (a6 r hr).1) a7
  · obtain ⟨D, hD, hDpt⟩ := hfold.1.gens
    unfold insert_hilbs
    rw [hD]
    exact rows_primitive_append n hb _ D hrows hP hDpt

theorem le_foldr_max (l : List Nat) (x : Nat) (hx : x ∈ l) : x ≤ l.foldr max 0 := by
  induction l with
  | nil => cases hx
  | cons y l ih =>
    rw [List.foldr_cons]
    rcases List.mem_cons.mp hx with rfl | h
    · exact le_max_left _ _
    · exact le_trans (ih h) (le_max_right _ _)

theorem foldr_max_lt (l : List Nat) (b : Nat) (hb : 0 < b) (h : ∀ x ∈ l, x < b) :
    l.foldr max 0 < b := by
  induction l with
  | nil => exact hb
  | cons y l ih =>
    rw [List.foldr_cons]
    exact max_lt (h y (List.mem_cons_self _ _)) (ih (fun x hx => h x (List.mem_cons_of_mem _ hx)))

theorem le_active_max (K : Kernel) (C : ConeCollection) (A : List HilbEntry)
    (hA : C.collect K = some A) (H : HilbEntry) (hH : H ∈ A) :
    C.cell_mult (H.2.1, H.2.2) ≤ C.active_max K := by
  unfold ConeCollection.active_max
  rw [hA]
  exact le_foldr_max _ _ (List.mem_map.mpr ⟨H, hH, rfl⟩)

/-- Every round of `make_unimodular` that inserts points lowers the largest
multiplicity of a cell for which the collecting loop finds a point. -/
theorem active_max_decreases (hb : Mat → Option (List Vec)) (n : Nat) (roots : List Mat)
    (C : ConeCollection) (hsound : Sound ℚ n roots C) (hsane : Sane C)
    (hord : Orderly (exactKernel hb) C) (hvol : C.vol_ok) (hP : oracle_primitive n hb)
    (hB : oracle_boxed n hb) (hrows : rows_primitive n hb C.Generators) (A : List HilbEntry)
    (hA : C.collect (exactKernel hb) = some A) (hne : A ≠ []) :
    (insert_hilbs (exactKernel hb) C (sort_hilbs A)).active_max (exactKernel hb)
      < C.active_max (exactKernel hb) := by
  obtain ⟨hE, hsh, hknown, _⟩ := round_shrunk hb n roots C hsound hsane hord hP hB hrows A hA
  have hinv := invariant_insert_hilbs _ _ (invariant_vol_ok hb) C (sort_hilbs A) ⟨hord, hvol⟩
  have hgrow := grows_insert_hilbs (exactKernel hb) C (sort_hilbs A)
  obtain ⟨E, hgen⟩ := hgrow.1
  -- the multiplicity of the cell of an entry is positive and at most the measure
  have hentry : ∀ H ∈ A, ∀ LH, C.cell H.2.1 H.2.2 = some LH →
      0 < exact_vol (C.gens LH) ∧
      (exact_vol (C.gens LH)).toNat ≤ C.active_max (exactKernel hb) := by
    intro H hH LH hLH
    have h1 := le_active_max _ C A hA H hH
    unfold ConeCollection.cell_mult at h1
    simp only [hLH] at h1
    rw [hvol _ _ LH hLH] at h1
    exact ⟨exact_vol_pos _ (hsound.1.simplex _ _ LH hLH).2.2.1, h1⟩
  have hpos : 0 < C.active_max (exactKernel hb) := by
    obtain ⟨H, hH⟩ := List.exists_mem_of_ne_nil A hne
    obtain ⟨LH, a1, _⟩ := entry_facts hb n C hsound.1 hord hB hrows A hA H hH
    obtain ⟨b1, b2⟩ := hentry H hH LH a1
    have : 0 < (exact_vol (C.gens LH)).toNat := by omega
    omega
  unfold ConeCollection.active_max
  cases hA1 : (insert_hilbs (exactKernel hb) C (sort_hilbs A)).collect (exactKernel hb) with
  | none => exact hpos
  | some A1 =>
    rw [Option.getD_some]
    apply foldr_max_lt _ _ hpos
    intro x hx
    obtain ⟨H1, hH1, rfl⟩ := List.mem_map.mp hx
    obtain ⟨hnew, Y, HB, hY, hm, hleaf, hHB, hx1⟩ := mem_collect _ _ A1 hA1 H1 hH1
    unfold ConeCollection.cell_mult
    simp only [hY]
    cases h0 : C.cell H1.2.1 H1.2.2 with
    | some Y0 =>
      exfalso
      obtain ⟨Y1, E1, c1, c2, c3, _, _, _, c7⟩ := hE _ _ Y0 h0
      rw [hY] at c1
      injection c1 with c1
      subst c1
      have hleaf0 : Y0.Daughters = [] := by
        rw [hleaf] at c7
        exact (List.append_eq_nil.mp c7.symm).1
      have hg : submatrix (insert_hilbs (exactKernel hb) C (sort_hilbs A)).Generators Y.GenKeys
          = submatrix C.Generators Y0.GenKeys := by
        rw [hgen, c2]
        exact submatrix_append _ _ _ (hord.keys _ _ Y0 h0)
      rw [hg] at hHB
      have hin := collect_complete _ C A hA H1.2.1 H1.2.2 Y0 HB H1.1 h0 (by rw [← c3]; exact hm)
        hleaf0 hHB hx1 (fun h => hnew (hgrow.2 _ h))
      exact hnew (hknown _ hin)
    | none =>
      obtain ⟨k, i, L, m, d1, d2, _, _, _, d6⟩ := hsh _ _ Y hY h0
      obtain ⟨H, hH, hpair⟩ := List.mem_map.mp d1
      have hk : H.2.1 = k := congrArg Prod.fst hpair
      have hi : H.2.2 = i := congrArg Prod.snd hpair
      obtain ⟨b1, b2⟩ := hentry H hH L (by rw [hk, hi]; exact d2)
      have hYn : Y.GenKeys.length = n := by
        have hs := sound_insert_hilbs hb n roots C (sort_hilbs A) hsound
        exact (hs.1.simplex _ _ Y hY).1
      have hlt := smaller_vol n (C.gens L) _ Y.GenKeys hYn b1 d6
      rw [hinv.2 _ _ Y hY]
      unfold ConeCollection.gens
      have : (exact_vol (submatrix (insert_hilbs (exactKernel hb) C (sort_hilbs A)).Generators
          Y.GenKeys)).toNat < (exact_vol (C.gens L)).toNat := by
        omega
      omega

/-- Termination of `make_unimodular` from a measure: when every round that
inserts points lowers a natural-number measure of the states it can reach, the
loop ends, by `break` or by a failure of the oracle, after at most that many
rounds that insert points. -/
theorem rounds_end_of_measure (K : Kernel) (P : ConeCollection → Prop)
    (mu : ConeCollection → Nat)
    (hstep : ∀ C1 A, P C1 → C1.collect K = some A → A ≠ [] →
      P (insert_hilbs K C1 (sort_hilbs A)) ∧ mu (insert_hilbs K C1 (sort_hilbs A)) < mu C1)
    (m : Nat) : ∀ C, P C → mu C ≤ m →
    ∃ r, r ≤ mu C ∧ ∃ C1, C.after_rounds K r = some C1 ∧
      (C.make_unimodular K (r + 1) = Outcome.returned C1 ∨
        C.make_unimodular K (r + 1) = Outcome.oracle_failed C1) := by
  induction m with
  | zero =>
    intro C hP hm
    refine ⟨0, Nat.zero_le _, C, rfl, ?_⟩
    rw [ConeCollection.make_unimodular]
    cases hc : C.collect K with
    | none => exact Or.inr rfl
    | some A =>
      by_cases hA : A = []
      · subst hA
        exact Or.inl rfl
      · have := (hstep C A hP hc hA).2
        omega
  | succ m ih =>
    intro C hP hm
    cases hc : C.collect K with
    | none =>
      refine ⟨0, Nat.zero_le _, C, rfl, Or.inr ?_⟩
      rw [ConeCollection.make_unimodular, hc]
    | some A =>
      by_cases hA : A = []
      · subst hA
        refine ⟨0, Nat.zero_le _, C, rfl, Or.inl ?_⟩
        rw [ConeCollection.make_unimodular, hc]
        rfl
      · obtain ⟨hP2, hlt⟩ := hstep C A hP hc hA
        obtain ⟨r, hr, C1, hrounds, hres⟩ := ih _ hP2 (by omega)
        refine ⟨r + 1, by omega, C1, ?_, ?_⟩
        · rw [ConeCollection.after_rounds,
            (round_eq_some K C _).mpr ⟨A, hc, hA, rfl⟩]
          exact hrounds
        · have hne : A.isEmpty = false := by
            cases A with
            | nil => exact absurd rfl hA
            | cons a A => rfl
          rw [ConeCollection.make_unimodular, hc]
          simp only [hne, Bool.false_eq_true, if_false]
          exact hres

theorem exact_vol_nonneg (M : Mat) : 0 ≤ exact_vol M := by
  unfold exact_vol
  split <;> omega

theorem foldr_max_le (l : List Nat) (b : Nat) (h : ∀ x ∈ l, x ≤ b) : l.foldr max 0 ≤ b := by
  induction l with
  | nil => exact Nat.zero_le _
  | cons y l ih =>
    rw [List.foldr_cons]
    exact max_le (h y (List.mem_cons_self _ _)) (ih (fun x hx => h x (List.mem_cons_of_mem _ hx)))

/-- In a forest with one level whose cells store their volumes, the largest
multiplicity of a cell with a point is at most the sum of the multiplicities
of the cells of level 0. -/
theorem active_max_le_total (K : Kernel) (C : ConeCollection) (hone : C.Members.length = 1)
    (hvol : C.vol_ok) : (C.active_max K : Int) ≤ (C.level_mults 0).sum := by
  have hnn : ∀ x ∈ C.level_mults 0, (0 : Int) ≤ x := by
    intro x hx
    unfold ConeCollection.level_mults at hx
    obtain ⟨mc, hmc, rfl⟩ := List.mem_map.mp hx
    obtain ⟨i, hi, rfl⟩ := List.getElem_of_mem hmc
    have hc : C.cell 0 i = some (C.Members.getD 0 [])[i] := by
      rw [cell_eq, List.getElem?_eq_getElem hi]
    rw [hvol 0 i _ hc]
    exact exact_vol_nonneg _
  have hsum : (0 : Int) ≤ (C.level_mults 0).sum := List.sum_nonneg hnn
  have hb : C.active_max K ≤ ((C.level_mults 0).sum).toNat := by
    unfold ConeCollection.active_max
    apply foldr_max_le
    intro x hx
    obtain ⟨H, _, rfl⟩ := List.mem_map.mp hx
    unfold ConeCollection.cell_mult
    cases hc : C.cell H.2.1 H.2.2 with
    | none => exact Nat.zero_le _
    | some mc =>
      simp only
      have hk := (cell_lt C _ _ mc hc).1
      have h0 : H.2.1 = 0 := by omega
      rw [h0] at hc
      have hmem : mc.multiplicity ∈ C.level_mults 0 := by
        unfold ConeCollection.level_mults
        rw [cell_eq] at hc
        exact List.mem_map.mpr ⟨mc, List.mem_iff_getElem?.mpr ⟨_, hc⟩, rfl⟩
      have := List.single_le_sum hnn _ hmem
      omega
  omega

/-- C2 (amended). Let the forest be loaded from a triangulation into
non-degenerate simplices of dimension `n` with disjoint interiors, with keys in
the generator table and with the volume of its rows as the multiplicity of
every simplex; let the kernel be the concrete one with an oracle whose points
are, as the elements of Hilbert bases are, pairwise not proportional and, for
every cell, rows of the cell, points on the extreme ray of a row or points of
the half-open parallelepiped with two positive facet values; and let the rows
of the generator table be primitive: none is a positive multiple of a point of
the oracle other than itself.  Then `make_unimodular` terminates, by its
`break` or by a failure of the oracle, and the number `r` of passes of its
`while` loop that insert rays is at most the sum of the multiplicities of the
cells of level 0. -/
theorem make_unimodular_terminates (hb : Mat → Option (List Vec)) (n : Nat) (Gens : Mat)
    (T : List (List Nat × Int)) (hT : ∀ S ∈ T, ∀ g ∈ S.1, g < Gens.length)
    (hvol : ∀ S ∈ T, S.2 = exact_vol (submatrix Gens S.1))
    (h0 : Triangulated ℚ n (ConeCollection.from_triangulation Gens T))
    (hP : oracle_primitive n hb) (hB : oracle_boxed n hb) (hG : rows_primitive n hb Gens) :
    ∃ r : Nat, (r : Int) ≤ ((ConeCollection.from_triangulation Gens T).level_mults 0).sum ∧
      ∃ C1, (ConeCollection.from_triangulation Gens T).after_rounds (exactKernel hb) r
          = some C1 ∧
        ((ConeCollection.from_triangulation Gens T).make_unimodular (exactKernel hb) (r + 1)
            = Outcome.returned C1 ∨
          (ConeCollection.from_triangulation Gens T).make_unimodular (exactKernel hb) (r + 1)
            = Outcome.oracle_failed C1) := by
  have hfacts : ∀ C, (∃ r, (ConeCollection.from_triangulation Gens T).after_rounds
        (exactKernel hb) r = some C) →
      Sound ℚ n (ConeCollection.from_triangulation Gens T).root_cones C ∧ Sane C ∧
        Orderly (exactKernel hb) C ∧ C.vol_ok := by
    rintro C ⟨r, hr⟩
    have h1 := invariant_after_rounds _ _ (invariant_vol_ok hb) r _ C
      ⟨orderly_from_triangulation _ Gens T hT, vol_ok_from_triangulation Gens T hvol⟩ hr
    exact ⟨stable_after_rounds _ _ (stable_sound hb n _) r _ C (sound_of_triangulated n _ h0) hr,
      stable_after_rounds _ _ (stable_sane _) r _ C (sane_from_triangulation Gens T) hr,
      h1.1, h1.2⟩
  obtain ⟨r, hr, C1, hrounds, hres⟩ := rounds_end_of_measure (exactKernel hb)
    (fun C => (∃ r, (ConeCollection.from_triangulation Gens T).after_rounds (exactKernel hb) r
      = some C) ∧ rows_primitive n hb C.Generators)
    (fun C => C.active_max (exactKernel hb))
    (by
      rintro C A ⟨⟨r, hr⟩, hrows⟩ hA hne
      obtain ⟨a1, a2, a3, a4⟩ := hfacts C ⟨r, hr⟩
      exact ⟨⟨⟨r + 1, after_rounds_snoc _ r _ C _ hr
          ((round_eq_some _ C _).mpr ⟨A, hA, hne, rfl⟩)⟩,
          (round_shrunk hb n _ C a1 a2 a3 hP hB hrows A hA).2.2.2⟩,
        active_max_decreases hb n _ C a1 a2 a3 a4 hP hB hrows A hA hne⟩)
    _ (ConeCollection.from_triangulation Gens T)
    ⟨⟨0, rfl⟩, by rw [(from_triangulation_spec Gens T).2.1]; exact hG⟩ (le_refl _)
  refine ⟨r, ?_, C1, hrounds, hres⟩
  have := active_max_le_total (exactKernel hb) _ (from_triangulation_spec Gens T).1
    (vol_ok_from_triangulation Gens T hvol)
  omega

theorem scenario_oracle_boxed : oracle_boxed 2 scenario_oracle := by
  intro M HB x h hx _ _
  unfold scenario_oracle at h
  split at h
  · rename_i hM
    subst hM
    injection h with h
    rw [← h] at hx
    simp only [List.mem_cons, List.mem_singleton, List.not_mem_nil, or_false] at hx
    rcases hx with rfl | rfl | rfl
    · exact Or.inl (by decide)
    · exact Or.inr (Or.inr (by decide))
    · exact Or.inl (by decide)
  · cases h

theorem scenario_rows_primitive : rows_primitive 2 scenario_oracle [[1, 0], [1, 2]] := by
  intro g hg M L x hM hx c hc heq
  unfold scenario_oracle at hM
  split at hM
  · injection hM with hM
    rw [← hM] at hx
    have e0 := congrFun heq 0
    have e1 := congrFun heq 1
    simp only [List.mem_cons, List.mem_singleton, List.not_mem_nil, or_false] at hg hx
    rcases hg with rfl | rfl <;> rcases hx with rfl | rfl | rfl <;>
      first
      | rfl
      | (exfalso
         simp [rvec] at e0 e1
         try linarith)
  · cases hM

set_option maxRecDepth 40000 in
/-- Witness for `make_unimodular_terminates`: the concrete scenario, the cone
over `(1,0)`, `(1,2)` of multiplicity 2 with the Hilbert basis `(1,0)`, `(1,1)`,
`(1,2)`; the run ends by `break` after one pass that inserts a ray. -/
theorem make_unimodular_terminates_witness :
    (∀ S ∈ [(([0, 1] : List Nat), (2 : Int))], ∀ g ∈ S.1, g < ([[1, 0], [1, 2]] : Mat).length) ∧
    (∀ S ∈ [(([0, 1] : List Nat), (2 : Int))],
      S.2 = exact_vol (submatrix [[1, 0], [1, 2]] S.1)) ∧
    Triangulated ℚ 2 (ConeCollection.from_triangulation [[1, 0], [1, 2]] [([0, 1], 2)]) ∧
    oracle_primitive 2 scenario_oracle ∧ oracle_boxed 2 scenario_oracle ∧
    rows_primitive 2 scenario_oracle [[1, 0], [1, 2]] ∧
    ((ConeCollection.from_triangulation [[1, 0], [1, 2]] [([0, 1], 2)]).level_mults 0).sum = 2 ∧
    (ConeCollection.from_triangulation [[1, 0], [1, 2]] [([0, 1], 2)]).make_unimodular
      (exactKernel scenario_oracle) 2 = Outcome.returned scenario_result ∧
    ∃ r : Nat,
      (r : Int) ≤ ((ConeCollection.from_triangulation [[1, 0], [1, 2]]
        [([0, 1], 2)]).level_mults 0).sum ∧
      ∃ C1, (ConeCollection.from_triangulation [[1, 0], [1, 2]] [([0, 1], 2)]).after_rounds
          (exactKernel scenario_oracle) r = some C1 ∧
        ((ConeCollection.from_triangulation [[1, 0], [1, 2]] [([0, 1], 2)]).make_unimodular
            (exactKernel scenario_oracle) (r + 1) = Outcome.returned C1 ∨
          (ConeCollection.from_triangulation [[1, 0], [1, 2]] [([0, 1], 2)]).make_unimodular
            (exactKernel scenario_oracle) (r + 1) = Outcome.oracle_failed C1) :=
  ⟨by decide, by decide, scenario_triangulated, scenario_oracle_primitive,
    scenario_oracle_boxed, scenario_rows_primitive, by decide, rfl,
    make_unimodular_terminates scenario_oracle 2 [[1, 0], [1, 2]] [([0, 1], 2)] (by decide)
      (by decide) scenario_triangulated scenario_oracle_primitive scenario_oracle_boxed
      scenario_rows_primitive⟩

theorem quadrant_oracle_primitive : oracle_primitive 2 quadrant_oracle := by
  intro M1 M2 L1 L2 x y h1 h2 hx hy c hc heq
  have e0 := congrFun heq 0
  have e1 := congrFun heq 1
  have hpts : ∀ M L z, quadrant_oracle M = some L → z ∈ L →
      z = [1, 0] ∨ z = [0, 1] ∨ z = [0, -1] := by
    intro M L z h hz
    unfold quadrant_oracle at h
    split at h
    · injection h with h
      rw [← h] at hz
      simp only [List.mem_cons, List.mem_singleton, List.not_mem_nil, or_false] at hz
      rcases hz with rfl | rfl
      · exact Or.inl rfl
      · exact Or.inr (Or.inl rfl)
    · split at h
      · injection h with h
        rw [← h] at hz
        simp only [List.mem_cons, List.mem_singleton, List.not_mem_nil, or_false] at hz
        rcases hz with rfl | rfl
        · exact Or.inl rfl
        · exact Or.inr (Or.inr rfl)
      · cases h
  rcases hpts M1 L1 x h1 hx with rfl | rfl | rfl <;>
    rcases hpts M2 L2 y h2 hy with rfl | rfl | rfl <;>
      first
      | rfl
      | (exfalso
         simp [rvec] at e0 e1
         try linarith)

theorem quadrant_oracle_boxed : oracle_boxed 2 quadrant_oracle := by
  intro M HB x h hx _ _
  unfold quadrant_oracle at h
  split at h
  · rename_i hM
    subst hM
    injection h with h
    rw [← h] at hx
    simp only [List.mem_cons, List.mem_singleton, List.not_mem_nil, or_false] at hx
    rcases hx with rfl | rfl
    · refine Or.inr (Or.inl ⟨[2, 0], by decide, 2, by norm_num, ?_⟩)
      funext k
      fin_cases k <;> simp [rvec]
    · exact Or.inl (by decide)
  · split at h
    · rename_i hM
      subst hM
      injection h with h
      rw [← h] at hx
      simp only [List.mem_cons, List.mem_singleton, List.not_mem_nil, or_false] at hx
      rcases hx with rfl | rfl
      · exact Or.inl (by decide)
      · exact Or.inl (by decide)
    · cases h

/-- The forest with the non-primitive generator `(2,0)` and the oracle with the
Hilbert basis `(1,0)`, `(0,1)` of its cone meet what the termination of
`make_unimodular` asks of the triangulation and of the oracle; only the row
`(2,0)` is not primitive: it is twice the point `(1,0)` of the oracle. -/
theorem nonprimitive_forest_rows :
    (∀ S ∈ [(([0, 1] : List Nat), (2 : Int))], ∀ g ∈ S.1, g < ([[2, 0], [0, 1]] : Mat).length) ∧
    (∀ S ∈ [(([0, 1] : List Nat), (2 : Int))],
      S.2 = exact_vol (submatrix [[2, 0], [0, 1]] S.1)) ∧
    Triangulated ℚ 2 nonprimitive_forest ∧
    oracle_primitive 2 quadrant_oracle ∧ oracle_boxed 2 quadrant_oracle ∧
    ¬ rows_primitive 2 quadrant_oracle [[2, 0], [0, 1]] := by
  refine ⟨by decide, by decide, ?_, quadrant_oracle_primitive, quadrant_oracle_boxed, ?_⟩
  · apply from_triangulation_triangulated 2 [[2, 0], [0, 1]] [([0, 1], 2)]
    · intro S hS
      rw [List.mem_singleton] at hS
      subst hS
      exact ⟨rfl, by decide, by decide⟩
    · intro i i1 S S1 hi hi1 hne
      exfalso
      have h0 : i = 0 := by
        cases i with
        | zero => rfl
        | succ i => simp at hi
      have h1 : i1 = 0 := by
        cases i1 with
        | zero => rfl
        | succ i1 => simp at hi1
      omega
  · intro h
    have := h [2, 0] (by decide) [[2, 0], [0, 1]] [[1, 0], [0, 1]] [1, 0] rfl (by decide) 2
      (by norm_num)
      (by
        funext k
        fin_cases k <;> simp [rvec])
    exact absurd this (by decide)

end Normaliz
